import Mathlib

/-! # VC4C: pattern matcher and memory-access lowering

Shallow embedding of `src/analysis/PatternMatching.cpp` and of the dispatch part of
`src/normalization/MemoryMappings.cpp`, followed by the properties proved about them.

Conventions of the embedding:
* pointers are modelled by natural numbers (the identity of the pointee);
* a position in a basic block (`InstructionWalker`) is a natural number, the end sentinel
  `InstructionWalker{}` is `none`; a block is the list of its instruction slots, an erased
  slot (`it.has()` is false) is `none`;
* a C++ function mutating the variables referenced by a pattern takes and returns the store
  `Placeholders` of those variables.
-/

namespace vc4c

/-! ## Data model -/

/-- Identity of a `Local` (the address of the object). -/
abbrev Local := Nat

/-- A 32-bit literal word, as its bit pattern. -/
abbrev Literal := Nat

/-- Address spaces of pointer types. -/
inductive AddressSpace
  | GENERIC | PRIVATE | GLOBAL | CONSTANT | LOCAL
  deriving DecidableEq

/-- Modelled from the spec: `DataType` (Types.h is not part of the sources): scalar bit-width and
vector width, pointer with address space, array(element, count), struct (interned, by its id). -/
inductive DataType
  | simple (scalarBitCount : Nat) (vectorWidth : Nat)
  | pointer (elementType : DataType) (addressSpace : AddressSpace)
  | array (elementType : DataType) (size : Nat)
  | struct (id : Nat)
  deriving DecidableEq

/-- A hardware register: register file and number. -/
structure Register where
  file : Nat
  num : Nat
  deriving DecidableEq

/-- A small immediate, by its 6-bit encoding. -/
structure SmallImmediate where
  value : Nat
  deriving DecidableEq

/-- Modelled from the spec: the constant a small immediate stands for (Values.cpp is not part of the
sources): 0..15 are the integers 0..15, 16..31 the integers -16..-1, 32..39 the floats 1.0 .. 128.0,
40..47 the floats 1/256 .. 1/2; the remaining encodings are vector rotations without a literal. -/
def SmallImmediate.toLiteral (imm : SmallImmediate) : Option Literal :=
  if imm.value ≤ 15 then some imm.value
  else if imm.value ≤ 31 then some (2 ^ 32 - (32 - imm.value))
  else if imm.value ≤ 39 then some ((127 + (imm.value - 32)) * 2 ^ 23)
  else if imm.value ≤ 47 then some ((127 - (48 - imm.value)) * 2 ^ 23)
  else none

/-- The tagged union inside a `Value`. -/
inductive ValueData
  | literal (lit : Literal)
  | smallImmediate (imm : SmallImmediate)
  | register (reg : Register)
  | loc (l : Local)
  | undefined
  deriving DecidableEq

/-- A `Value`: tagged data and its type. Two values are equal iff data and type are equal
(modelled from the spec, Values.cpp is not part of the sources). -/
structure Value where
  data : ValueData
  type : DataType
  deriving DecidableEq

/-- The referenced local, `Value::checkLocal`. -/
def Value.checkLocal (v : Value) : Option Local :=
  match v.data with
  | .loc l => some l
  | _ => none

/-- The literal value of a literal or small immediate, `Value::getLiteralValue`. -/
def Value.getLiteralValue (v : Value) : Option Literal :=
  match v.data with
  | .literal l => some l
  | .smallImmediate imm => imm.toLiteral
  | _ => none

/-- Condition codes of conditional execution. -/
inductive ConditionCode
  | COND_NEVER | COND_ALWAYS
  | COND_ZERO_SET | COND_ZERO_CLEAR
  | COND_NEGATIVE_SET | COND_NEGATIVE_CLEAR
  | COND_CARRY_SET | COND_CARRY_CLEAR
  deriving DecidableEq

/-- Modelled from the spec: `ConditionCode::invert`, the opposite condition code (the definition
is not part of the sources). -/
def ConditionCode.invert : ConditionCode → ConditionCode
  | .COND_NEVER => .COND_ALWAYS
  | .COND_ALWAYS => .COND_NEVER
  | .COND_ZERO_SET => .COND_ZERO_CLEAR
  | .COND_ZERO_CLEAR => .COND_ZERO_SET
  | .COND_NEGATIVE_SET => .COND_NEGATIVE_CLEAR
  | .COND_NEGATIVE_CLEAR => .COND_NEGATIVE_SET
  | .COND_CARRY_SET => .COND_CARRY_CLEAR
  | .COND_CARRY_CLEAR => .COND_CARRY_SET

/-- Whether an instruction sets the flags. -/
inductive SetFlag
  | DONT_SET | SET_FLAGS
  deriving DecidableEq

/-- Operation codes: the ALU opcodes (by their number) and the fake opcodes the pattern matcher
assigns to the other instruction types. -/
inductive OpCode
  | alu (code : Nat)
  | FAKEOP_ROTATE | FAKEOP_MOV | FAKEOP_LDI | FAKEOP_BR | FAKEOP_MUTEX
  deriving DecidableEq

/-- Signals of an instruction. -/
inductive Signaling
  | SIGNAL_NONE | SIGNAL_ALU_IMMEDIATE | SIGNAL_LOAD_IMMEDIATE
  | SIGNAL_SEMAPHORE | SIGNAL_END_PROGRAM | SIGNAL_LOAD_TMU0 | SIGNAL_LOAD_TMU1
  | SIGNAL_BRANCH | SIGNAL_OTHER (code : Nat)
  deriving DecidableEq

/-- Modelled from the spec: `Signaling::hasSideEffects` (not part of the sources): every signal
but "none" and the two signals that only select the instruction encoding has a side effect. -/
def Signaling.hasSideEffects : Signaling → Bool
  | .SIGNAL_NONE => false
  | .SIGNAL_ALU_IMMEDIATE => false
  | .SIGNAL_LOAD_IMMEDIATE => false
  | _ => true

/-- The dynamic type of an instruction, as far as `determineOpCode` and `getSideEffects`
distinguish it. -/
inductive InstructionKind
  | operation (op : OpCode)
  | vectorRotation
  | moveOperation
  | loadImmediate
  | branch
  | mutexLock (locksMutex : Bool)
  | semaphoreAdjustment
  | other
  deriving DecidableEq

/-- An `IntermediateInstruction`. `conditional` is present iff the instruction is an
`ExtendedInstruction`. -/
structure IntermediateInstruction where
  kind : InstructionKind
  output : Option Value
  arguments : List Value
  conditional : Option ConditionCode
  setFlags : SetFlag
  packMode : Bool
  unpackMode : Bool
  signal : Signaling
  deriving DecidableEq

namespace IntermediateInstruction

def getOutput (i : IntermediateInstruction) : Option Value := i.output

def getArgument (i : IntermediateInstruction) (index : Nat) : Option Value := i.arguments.get? index

def getFlags (i : IntermediateInstruction) : SetFlag := i.setFlags

def getSignal (i : IntermediateInstruction) : Signaling := i.signal

def hasPackMode (i : IntermediateInstruction) : Bool := i.packMode

def hasUnpackMode (i : IntermediateInstruction) : Bool := i.unpackMode

def doesSetFlag (i : IntermediateInstruction) : Bool := i.setFlags == SetFlag.SET_FLAGS

/-- The local written by the instruction, `nullptr` (none) without one. -/
def checkOutputLocal (i : IntermediateInstruction) : Option Local :=
  i.output.bind Value.checkLocal

/-- Whether one of the arguments is the given local. -/
def readsLocal (i : IntermediateInstruction) (l : Local) : Bool :=
  i.arguments.any (fun arg => arg.checkLocal == some l)

end IntermediateInstruction

/-- Kinds of side effects, `SideEffectType`. -/
inductive SideEffectType
  | REGISTER_READ | REGISTER_WRITE | SIGNAL | FLAGS | BRANCH | SEMAPHORE
  deriving DecidableEq

/-- Side effects of an instruction. The parts contributed by `Branch::getSideEffects`,
`SemaphoreAdjustment::getSideEffects` and `MutexLock::getSideEffects` are those of the sources;
the base part is modelled from the spec (signal and flags; IntermediateInstruction.cpp is not part
of the sources), the side effects of reading or writing peripheral registers are left out. -/
def IntermediateInstruction.getSideEffects (i : IntermediateInstruction) : List SideEffectType :=
  let base :=
    (if i.getSignal.hasSideEffects then [SideEffectType.SIGNAL] else [])
      ++ (if i.doesSetFlag then [SideEffectType.FLAGS] else [])
  match i.kind with
  | .branch => SideEffectType.BRANCH :: base
  | .semaphoreAdjustment => SideEffectType.SEMAPHORE :: base
  | .mutexLock locks =>
      (if locks then SideEffectType.REGISTER_READ else SideEffectType.REGISTER_WRITE) :: base
  | _ => base

/-- Whether the instruction has any side effect: `getSideEffects() != SideEffectType::NONE`. -/
def IntermediateInstruction.hasSideEffects (i : IntermediateInstruction) : Bool :=
  !(i.getSideEffects.isEmpty)

/-! ## Patterns (PatternMatching.h) -/

/-- Address of a variable referenced by a placeholder, tagged with the C++ type of the placeholder
holding the reference (`Placeholder<Value>`, `Placeholder<const Local*>`, `Placeholder<Literal>`,
`Placeholder<OpCode>`, `Placeholder<ConditionCode>`, `Placeholder<SetFlag>`). This is the
`const void*` key of the match cache: variables of different types have different addresses. -/
inductive Ptr
  | value (addr : Nat)
  | loc (addr : Nat)
  | literal (addr : Nat)
  | opcode (addr : Nat)
  | condition (addr : Nat)
  | flag (addr : Nat)
  deriving DecidableEq

/-- Pattern for an output or argument. -/
inductive ValuePattern
  | value (v : Value)
  | placeholderValue (addr : Nat)
  | placeholderLocal (addr : Nat)
  | placeholderLiteral (addr : Nat)
  | ignored
  deriving DecidableEq

/-- Pattern for the operation code. -/
inductive OperationPattern
  | opcode (code : OpCode)
  | placeholder (addr : Nat)
  | ignored
  deriving DecidableEq

/-- Pattern for the condition code; `inverted` is `InvertedCondition`. -/
inductive ConditionPattern
  | condition (code : ConditionCode)
  | placeholder (addr : Nat)
  | inverted (addr : Nat)
  | ignored
  deriving DecidableEq

/-- Pattern for the flag behaviour. -/
inductive FlagPattern
  | flag (f : SetFlag)
  | placeholder (addr : Nat)
  | ignored
  deriving DecidableEq

/-- Pattern for a single instruction. -/
structure InstructionPattern where
  output : ValuePattern
  operation : OperationPattern
  firstArgument : ValuePattern
  secondArgument : ValuePattern
  condition : ConditionPattern
  flags : FlagPattern
  deriving DecidableEq

/-- Pattern for a sequence of instructions. -/
structure Pattern where
  parts : List InstructionPattern
  allowGaps : Bool
  deriving DecidableEq

/-- An operand of an `Expression`: nothing, a value or a nested expression (by its identity). -/
inductive SubExpression
  | empty
  | value (v : Value)
  | expression (id : Nat)
  deriving DecidableEq

def SubExpression.checkValue : SubExpression → Option Value
  | .value v => some v
  | _ => none

/-- An `Expression`, as far as the matcher reads it. -/
structure Expression where
  code : OpCode
  arg0 : SubExpression
  arg1 : SubExpression
  unpackMode : Bool
  packMode : Bool
  deriving DecidableEq

/-- Content of a variable referenced by a placeholder. -/
inductive Stored
  | value (v : Value)
  | loc (l : Local)
  | literal (lit : Literal)
  | opcode (code : OpCode)
  | condition (code : ConditionCode)
  | flag (f : SetFlag)
  deriving DecidableEq

/-- The variables referenced by placeholders: address to content. -/
abbrev Placeholders := Ptr → Stored

/-- Assignment through a placeholder reference. -/
def Placeholders.set (s : Placeholders) (ptr : Ptr) (x : Stored) : Placeholders :=
  fun q => if q = ptr then x else s q

/-! ## The match cache -/

/-- An entry of the match cache, `Variant<Value, OpCode, ConditionCode, SetFlag>`. -/
inductive Captured
  | value (v : Value)
  | opcode (code : OpCode)
  | condition (code : ConditionCode)
  | flag (f : SetFlag)
  deriving DecidableEq

/-- The match cache, `std::unordered_map<const void*, Variant<...>>`. -/
abbrev MatchCache := Ptr → Option Captured

/-- The empty cache. -/
def MatchCache.empty : MatchCache := fun _ => none

/-- Insertion keeping an existing entry, `emplace`. -/
def MatchCache.emplace (c : MatchCache) (ptr : Ptr) (x : Captured) : MatchCache :=
  fun q => if q = ptr then (match c q with | some y => some y | none => some x) else c q

/-- Insertion of all entries of `other`, existing entries are kept: `c.insert(other.begin(),
other.end())`. -/
def MatchCache.insertAll (c other : MatchCache) : MatchCache :=
  fun q => match c q with | some y => some y | none => other q

/-- The four overloads of `matchesCache`: an entry found under the key in either cache has to be
equal to the candidate. The key is tagged with the type of its variable, so an entry found under it
holds the alternative of the candidate and `VariantNamespace::get` does not fail. -/
def matchesCache (x : Captured) (ptr : Ptr) (previousCache newCache : MatchCache) : Bool :=
  if (match previousCache ptr with | some y => y != x | none => false) then false
  else if (match newCache ptr with | some y => y != x | none => false) then false
  else true

/-- Matching of a value: the updated new cache on success, none on failure. -/
def matchesValue (val : Option Value) (pattern : ValuePattern)
    (previousCache newCache : MatchCache) : Option MatchCache :=
  match pattern with
  | .ignored => some newCache
  | .placeholderLocal addr =>
    match val with
    | none => none
    | some v =>
      if (v.checkLocal).isNone then none
      else if !matchesCache (.value v) (.loc addr) previousCache newCache then none
      else some (newCache.emplace (.loc addr) (.value v))
  | .placeholderLiteral addr =>
    match val with
    | none => none
    | some v =>
      if (v.getLiteralValue).isNone then none
      else if !matchesCache (.value v) (.literal addr) previousCache newCache then none
      else some (newCache.emplace (.literal addr) (.value v))
  | .placeholderValue addr =>
    match val with
    | none => none
    | some v =>
      if !matchesCache (.value v) (.value addr) previousCache newCache then none
      else some (newCache.emplace (.value addr) (.value v))
  | .value fixedValue => if val = some fixedValue then some newCache else none

/-- Matching of an operand of an expression. -/
def matchesSubExpression (sub : SubExpression) (pattern : ValuePattern)
    (previousCache newCache : MatchCache) : Option MatchCache :=
  match sub.checkValue with
  | some v => matchesValue (some v) pattern previousCache newCache
  | none => none

def updateMatchValue (val : Option Value) (pattern : ValuePattern) (s : Placeholders) :
    Placeholders :=
  match pattern, val with
  | .placeholderLocal addr, some v =>
    match v.checkLocal with
    | some l => s.set (.loc addr) (.loc l)
    | none => s
  | .placeholderLiteral addr, some v =>
    match v.getLiteralValue with
    | some lit => s.set (.literal addr) (.literal lit)
    | none => s
  | .placeholderValue addr, some v => s.set (.value addr) (.value v)
  | _, _ => s

def updateMatchSubExpression (sub : SubExpression) (pattern : ValuePattern) (s : Placeholders) :
    Placeholders :=
  match sub.checkValue with
  | some v => updateMatchValue (some v) pattern s
  | none => s

def matchesOperation (op : OpCode) (pattern : OperationPattern)
    (previousCache newCache : MatchCache) : Option MatchCache :=
  match pattern with
  | .ignored => some newCache
  | .placeholder addr =>
    if !matchesCache (.opcode op) (.opcode addr) previousCache newCache then none
    else some (newCache.emplace (.opcode addr) (.opcode op))
  | .opcode code => if op = code then some newCache else none

def updateMatchOperation (op : OpCode) (pattern : OperationPattern) (s : Placeholders) :
    Placeholders :=
  match pattern with
  | .placeholder addr => s.set (.opcode addr) (.opcode op)
  | _ => s

def matchesCondition (code : ConditionCode) (pattern : ConditionPattern)
    (previousCache newCache : MatchCache) : Option MatchCache :=
  match pattern with
  | .ignored => some newCache
  | .placeholder addr =>
    if !matchesCache (.condition code) (.condition addr) previousCache newCache then none
    else some (newCache.emplace (.condition addr) (.condition code))
  | .inverted addr =>
    let realCode := code.invert
    if !matchesCache (.condition realCode) (.condition addr) previousCache newCache then none
    else some (newCache.emplace (.condition addr) (.condition realCode))
  | .condition cond => if code = cond then some newCache else none

def updateMatchCondition (code : ConditionCode) (pattern : ConditionPattern) (s : Placeholders) :
    Placeholders :=
  match pattern with
  | .placeholder addr => s.set (.condition addr) (.condition code)
  | .inverted addr => s.set (.condition addr) (.condition code.invert)
  | _ => s

def matchesFlag (flag : SetFlag) (pattern : FlagPattern)
    (previousCache newCache : MatchCache) : Option MatchCache :=
  match pattern with
  | .ignored => some newCache
  | .placeholder addr =>
    if !matchesCache (.flag flag) (.flag addr) previousCache newCache then none
    else some (newCache.emplace (.flag addr) (.flag flag))
  | .flag state => if flag = state then some newCache else none

def updateMatchFlag (flag : SetFlag) (pattern : FlagPattern) (s : Placeholders) : Placeholders :=
  match pattern with
  | .placeholder addr => s.set (.flag addr) (.flag flag)
  | _ => s

def determineOpCode (inst : IntermediateInstruction) : Option OpCode :=
  match inst.kind with
  | .operation op => some op
  | .vectorRotation => some .FAKEOP_ROTATE
  | .moveOperation => some .FAKEOP_MOV
  | .loadImmediate => some .FAKEOP_LDI
  | .branch => some .FAKEOP_BR
  | .mutexLock _ => some .FAKEOP_MUTEX
  | _ => none

/-- The condition the matcher sees: that of an `ExtendedInstruction`, else `COND_ALWAYS`. -/
def conditionOf (inst : IntermediateInstruction) : ConditionCode :=
  inst.conditional.getD .COND_ALWAYS

/-- The previous cache seen by the next check: with `aliased` both references of `matchesOnly`
denote one cache object, so the previous cache is the current new cache. -/
def previousOf (aliased : Bool) (previousCache newCache : MatchCache) : MatchCache :=
  if aliased then newCache else previousCache

/-- Check of one instruction against one instruction pattern, `matchesOnly`: the new cache on
success, none for false. `aliased` tells that the caller passed the same cache object for
`previousCache` and `newCache` (as `matches`, `searchInnerCompact` and `search` do). -/
def matchesOnly (aliased : Bool) (inst : Option IntermediateInstruction)
    (pattern : InstructionPattern) (previousCache newCache : MatchCache) : Option MatchCache :=
  match inst with
  | none => none
  | some inst =>
    if inst.hasPackMode || inst.hasUnpackMode || inst.getSignal.hasSideEffects then none
    else
      match matchesValue inst.getOutput pattern.output
          (previousOf aliased previousCache newCache) newCache with
      | none => none
      | some c1 =>
      match determineOpCode inst with
      | none => none
      | some op =>
      match matchesOperation op pattern.operation (previousOf aliased previousCache c1) c1 with
      | none => none
      | some c2 =>
      match matchesValue (inst.getArgument 0) pattern.firstArgument
          (previousOf aliased previousCache c2) c2 with
      | none => none
      | some c3 =>
      match matchesValue (inst.getArgument 1) pattern.secondArgument
          (previousOf aliased previousCache c3) c3 with
      | none => none
      | some c4 =>
      match matchesCondition (conditionOf inst) pattern.condition
          (previousOf aliased previousCache c4) c4 with
      | none => none
      | some c5 =>
        matchesFlag inst.getFlags pattern.flags (previousOf aliased previousCache c5) c5

def updateOnly (inst : IntermediateInstruction) (pattern : InstructionPattern)
    (s : Placeholders) : Placeholders :=
  let s := updateMatchValue inst.getOutput pattern.output s
  let s := match determineOpCode inst with
    | some op => updateMatchOperation op pattern.operation s
    | none => s
  let s := updateMatchValue (inst.getArgument 0) pattern.firstArgument s
  let s := updateMatchValue (inst.getArgument 1) pattern.secondArgument s
  let s := updateMatchCondition (conditionOf inst) pattern.condition s
  updateMatchFlag inst.getFlags pattern.flags s

/-- The function `pattern::matches(const IntermediateInstruction*, InstructionPattern&)`. -/
def «matches» (inst : Option IntermediateInstruction) (pattern : InstructionPattern)
    (s : Placeholders) : Bool × Placeholders :=
  match inst with
  | none => (false, s)
  | some i =>
    match matchesOnly true (some i) pattern MatchCache.empty MatchCache.empty with
    | none => (false, s)
    | some _ => (true, updateOnly i pattern s)

/-- The function `pattern::matches(const Expression&, InstructionPattern&)`; one cache object
is passed for both cache references. -/
def matchesExpression (expr : Expression) (pattern : InstructionPattern) (s : Placeholders) :
    Bool × Placeholders :=
  if expr.packMode || expr.unpackMode then (false, s)
  else
    match matchesOperation expr.code pattern.operation MatchCache.empty MatchCache.empty with
    | none => (false, s)
    | some c1 =>
    match matchesSubExpression expr.arg0 pattern.firstArgument c1 c1 with
    | none => (false, s)
    | some c2 =>
    match matchesSubExpression expr.arg1 pattern.secondArgument c2 c2 with
    | none => (false, s)
    | some _ =>
      let s := updateMatchOperation expr.code pattern.operation s
      let s := updateMatchSubExpression expr.arg0 pattern.firstArgument s
      (true, updateMatchSubExpression expr.arg1 pattern.secondArgument s)

/-! ## Searching in a block

A walker is given by its position `pos` and the slots `rest` of its block from that position on
(`rest` is empty iff `isEndOfBlock()`). -/

/-- The loop of `pattern::search(InstructionWalker, InstructionPattern&)`. -/
def searchInstructionFrom (pattern : InstructionPattern) :
    List (Option IntermediateInstruction) → Nat → Placeholders → Option Nat × Placeholders
  | [], _, s => (none, s)
  | inst :: rest, pos, s =>
    match «matches» inst pattern s with
    | (true, s1) => (some pos, s1)
    | (false, s1) => searchInstructionFrom pattern rest (pos + 1) s1

/-- The function `pattern::search(InstructionWalker, InstructionPattern&)` for the walker at
position `start` of `block`. -/
def searchInstruction (block : List (Option IntermediateInstruction)) (start : Nat)
    (pattern : InstructionPattern) (s : Placeholders) : Option Nat × Placeholders :=
  searchInstructionFrom pattern (block.drop start) start s

/-- First loop of `searchInnerCompact`: all parts match consecutive instructions, with one global
cache passed for both cache references. -/
def searchInnerCompactCheck :
    List InstructionPattern → List (Option IntermediateInstruction) → MatchCache → Option MatchCache
  | [], _, globalCache => some globalCache
  | _ :: _, [], _ => none
  | part :: parts, inst :: rest, globalCache =>
    match matchesOnly true inst part globalCache globalCache with
    | none => none
    | some c => searchInnerCompactCheck parts rest c

/-- Second loop of `searchInnerCompact`: update the placeholders of every part from the
instruction at its position. -/
def searchInnerCompactUpdate :
    List InstructionPattern → List (Option IntermediateInstruction) → Placeholders → Placeholders
  | part :: parts, some inst :: rest, s => searchInnerCompactUpdate parts rest (updateOnly inst part s)
  | _, _, s => s

def searchInnerCompact (rest : List (Option IntermediateInstruction)) (start : Nat)
    (pattern : Pattern) (returnEndOfPattern : Bool) (s : Placeholders) :
    Option Nat × Placeholders :=
  match searchInnerCompactCheck pattern.parts rest MatchCache.empty with
  | none => (none, s)
  | some _ =>
    (some (if returnEndOfPattern then start + pattern.parts.length - 1 else start),
      searchInnerCompactUpdate pattern.parts rest s)

/-- Insertion into a `FastSet`, modelled by a list without duplicates. -/
def setEmplace {α : Type} [DecidableEq α] (set : List α) (x : α) : List α :=
  if x ∈ set then set else x :: set

/-- Outcome of the inner `while` loop of `searchInnerGapped`. -/
inductive GapScan
  | aborted
  | endOfBlock
  | found (pos : Nat) (inst : IntermediateInstruction) (localCache : MatchCache)
      (rest : List (Option IntermediateInstruction)) (gapWrittenLocals : List (Option Local))

/-- The inner `while` loop of `searchInnerGapped`: skip the instructions which do not match the
part. The local cache is empty at every check (fresh, or cleared by the loop body). -/
def skipGaps (part : InstructionPattern) (globalCache : MatchCache) :
    List (Option IntermediateInstruction) → Nat → List (Option Local) → GapScan
  | [], _, _ => .endOfBlock
  | inst :: rest, pos, gapWrittenLocals =>
    match inst, matchesOnly false inst part globalCache MatchCache.empty with
    | some i, some localCache => .found pos i localCache rest gapWrittenLocals
    | some i, none =>
      if i.getSignal.hasSideEffects || i.doesSetFlag then .aborted
      else skipGaps part globalCache rest (pos + 1) (setEmplace gapWrittenLocals i.checkOutputLocal)
    | none, _ => skipGaps part globalCache rest (pos + 1) gapWrittenLocals

/-- The `std::any_of` check of `searchInnerGapped`: the matched instruction reads a local which
was written by a gap instruction and by a matching instruction before. -/
def usesOverwrittenLocal (inst : IntermediateInstruction)
    (gapWrittenLocals previouslyWrittenLocals : List (Option Local)) : Bool :=
  gapWrittenLocals.any (fun loc =>
    match loc with
    | some l => inst.readsLocal l && decide (some l ∈ previouslyWrittenLocals)
    | none => false)

/-- The loop over the parts of `searchInnerGapped`; yields `matchingInstructions`, every matched
instruction (pointer) given by its position and the instruction there. -/
def searchInnerGappedLoop :
    List InstructionPattern → List (Option IntermediateInstruction) → Nat →
    List (Option Local) → List (Option Local) → MatchCache →
    List (Nat × IntermediateInstruction) → Option (List (Nat × IntermediateInstruction))
  | [], _, _, _, _, _, matchingInstructions => some matchingInstructions
  | part :: parts, rest, pos, gapWrittenLocals, previouslyWrittenLocals, globalCache,
      matchingInstructions =>
    match skipGaps part globalCache rest pos gapWrittenLocals with
    | .aborted => none
    | .endOfBlock => none
    | .found p inst localCache rest1 gapWritten1 =>
      if usesOverwrittenLocal inst gapWritten1 previouslyWrittenLocals then none
      else
        searchInnerGappedLoop parts rest1 (p + 1) gapWritten1
          (setEmplace previouslyWrittenLocals inst.checkOutputLocal)
          (globalCache.insertAll localCache) (matchingInstructions ++ [(p, inst)])

/-- The final update loop of `searchInnerGapped`. -/
def updateAll :
    List (Nat × IntermediateInstruction) → List InstructionPattern → Placeholders → Placeholders
  | m :: ms, part :: parts, s => updateAll ms parts (updateOnly m.2 part s)
  | _, _, s => s

/-- Position of `it.previousInBlock()` after the loop of `searchInnerGapped`. -/
def endOfPattern (start : Nat) (matchingInstructions : List (Nat × IntermediateInstruction)) : Nat :=
  match matchingInstructions.getLast? with
  | some m => m.1
  | none => start - 1

def searchInnerGapped (rest : List (Option IntermediateInstruction)) (start : Nat)
    (pattern : Pattern) (returnEndOfPattern : Bool) (s : Placeholders) :
    Option Nat × Placeholders :=
  match searchInnerGappedLoop pattern.parts rest start [] [] MatchCache.empty [] with
  | none => (none, s)
  | some matchingInstructions =>
    if matchingInstructions.length != pattern.parts.length then (none, s)
    else
      (some (if returnEndOfPattern then endOfPattern start matchingInstructions else start),
        updateAll matchingInstructions pattern.parts s)

/-- The loop of `pattern::search(InstructionWalker, Pattern&, bool)`; `front` is
`pattern.parts.front()`. -/
def searchFrom (pattern : Pattern) (front : InstructionPattern) (returnEndOfPattern : Bool) :
    List (Option IntermediateInstruction) → Nat → Placeholders → Option Nat × Placeholders
  | [], _, s => (none, s)
  | inst :: rest, pos, s =>
    match matchesOnly true inst front MatchCache.empty MatchCache.empty with
    | some _ =>
      let r :=
        if pattern.allowGaps then searchInnerGapped (inst :: rest) pos pattern returnEndOfPattern s
        else searchInnerCompact (inst :: rest) pos pattern returnEndOfPattern s
      match r.1 with
      | some it => (some it, r.2)
      | none => searchFrom pattern front returnEndOfPattern rest (pos + 1) r.2
    | none => searchFrom pattern front returnEndOfPattern rest (pos + 1) s

/-- The function `pattern::search(InstructionWalker, Pattern&, bool)` for the walker at position
`start` of `block`. -/
def search (block : List (Option IntermediateInstruction)) (start : Nat) (pattern : Pattern)
    (returnEndOfPattern : Bool) (s : Placeholders) : Option Nat × Placeholders :=
  match pattern.parts with
  | [] => (none, s)
  | front :: _ => searchFrom pattern front returnEndOfPattern (block.drop start) start s

/-! ## Captures of a pattern on an instruction

The placeholders mentioned by a pattern together with the component of the instruction each of
them captures, in the order in which `matchesOnly` and `updateOnly` visit them. -/

/-- The content written into the variable of a placeholder for a cache entry: a
`Placeholder<const Local*>` receives the local of the value, a `Placeholder<Literal>` its literal,
the others the entry itself. -/
def storedOf : Ptr → Captured → Option Stored
  | .value _, .value v => some (.value v)
  | .loc _, .value v => v.checkLocal.map Stored.loc
  | .literal _, .value v => v.getLiteralValue.map Stored.literal
  | .opcode _, .opcode code => some (.opcode code)
  | .condition _, .condition code => some (.condition code)
  | .flag _, .flag f => some (.flag f)
  | _, _ => none

def valueCaptures (val : Option Value) : ValuePattern → List (Ptr × Captured)
  | .placeholderLocal addr =>
    match val with
    | some v => if v.checkLocal.isSome then [(.loc addr, .value v)] else []
    | none => []
  | .placeholderLiteral addr =>
    match val with
    | some v => if v.getLiteralValue.isSome then [(.literal addr, .value v)] else []
    | none => []
  | .placeholderValue addr =>
    match val with
    | some v => [(.value addr, .value v)]
    | none => []
  | _ => []

def operationCaptures (op : OpCode) : OperationPattern → List (Ptr × Captured)
  | .placeholder addr => [(.opcode addr, .opcode op)]
  | _ => []

/-- An `InvertedCondition` captures the inverted condition code. -/
def conditionCaptures (code : ConditionCode) : ConditionPattern → List (Ptr × Captured)
  | .placeholder addr => [(.condition addr, .condition code)]
  | .inverted addr => [(.condition addr, .condition code.invert)]
  | _ => []

def flagCaptures (flag : SetFlag) : FlagPattern → List (Ptr × Captured)
  | .placeholder addr => [(.flag addr, .flag flag)]
  | _ => []

/-- All captures of an instruction pattern on an instruction: output, operation code, first
argument, second argument, condition, flags. -/
def captures (inst : IntermediateInstruction) (pattern : InstructionPattern) :
    List (Ptr × Captured) :=
  valueCaptures inst.getOutput pattern.output
    ++ (match determineOpCode inst with
        | some op => operationCaptures op pattern.operation
        | none => [])
    ++ valueCaptures (inst.getArgument 0) pattern.firstArgument
    ++ valueCaptures (inst.getArgument 1) pattern.secondArgument
    ++ conditionCaptures (conditionOf inst) pattern.condition
    ++ flagCaptures inst.getFlags pattern.flags

/-- The captures of an expression: operation code and the two operands. -/
def expressionCaptures (expr : Expression) (pattern : InstructionPattern) :
    List (Ptr × Captured) :=
  operationCaptures expr.code pattern.operation
    ++ valueCaptures expr.arg0.checkValue pattern.firstArgument
    ++ valueCaptures expr.arg1.checkValue pattern.secondArgument

/-- The captures of all parts on the instructions they matched. -/
def allCaptures :
    List (Nat × IntermediateInstruction) → List InstructionPattern → List (Ptr × Captured)
  | m :: ms, part :: parts => captures m.2 part ++ allCaptures ms parts
  | _, _ => []

/-- Writing a list of captures into the variables of their placeholders, in order. -/
def applyCaptures : List (Ptr × Captured) → Placeholders → Placeholders
  | [], s => s
  | c :: cs, s =>
    match storedOf c.1 c.2 with
    | some x => applyCaptures cs (s.set c.1 x)
    | none => applyCaptures cs s

/-! ## Elementary checks

`matchesOnly` is a sequence of elementary checks: tests of the instruction against fixed parts of
the pattern, and captures which have to agree with both caches. -/

inductive Check
  | test (ok : Bool)
  | capture (ptr : Ptr) (x : Captured)

def Check.run (aliased : Bool) (c : Check) (previousCache newCache : MatchCache) :
    Option MatchCache :=
  match c with
  | .test ok => if ok then some newCache else none
  | .capture ptr x =>
    if matchesCache x ptr (previousOf aliased previousCache newCache) newCache then
      some (newCache.emplace ptr x)
    else none

def runChecks (aliased : Bool) : List Check → MatchCache → MatchCache → Option MatchCache
  | [], _, newCache => some newCache
  | c :: cs, previousCache, newCache =>
    match c.run aliased previousCache newCache with
    | none => none
    | some n => runChecks aliased cs previousCache n

def capturesOf : List Check → List (Ptr × Captured)
  | [] => []
  | .test _ :: cs => capturesOf cs
  | .capture ptr x :: cs => (ptr, x) :: capturesOf cs

def valueChecks (val : Option Value) : ValuePattern → List Check
  | .ignored => []
  | .placeholderLocal addr =>
    match val with
    | some v => if v.checkLocal.isSome then [.capture (.loc addr) (.value v)] else [.test false]
    | none => [.test false]
  | .placeholderLiteral addr =>
    match val with
    | some v =>
      if v.getLiteralValue.isSome then [.capture (.literal addr) (.value v)] else [.test false]
    | none => [.test false]
  | .placeholderValue addr =>
    match val with
    | some v => [.capture (.value addr) (.value v)]
    | none => [.test false]
  | .value fixedValue => [.test (decide (val = some fixedValue))]

def operationChecks (op : OpCode) : OperationPattern → List Check
  | .ignored => []
  | .placeholder addr => [.capture (.opcode addr) (.opcode op)]
  | .opcode code => [.test (decide (op = code))]

def conditionChecks (code : ConditionCode) : ConditionPattern → List Check
  | .ignored => []
  | .placeholder addr => [.capture (.condition addr) (.condition code)]
  | .inverted addr => [.capture (.condition addr) (.condition code.invert)]
  | .condition cond => [.test (decide (code = cond))]

def flagChecks (flag : SetFlag) : FlagPattern → List Check
  | .ignored => []
  | .placeholder addr => [.capture (.flag addr) (.flag flag)]
  | .flag state => [.test (decide (flag = state))]

/-- An instruction with a pack mode, an unpack mode or a signal with side effects is rejected. -/
def supported (inst : IntermediateInstruction) : Bool :=
  !(inst.hasPackMode || inst.hasUnpackMode || inst.getSignal.hasSideEffects)

def instructionChecks (inst : IntermediateInstruction) (pattern : InstructionPattern) :
    List Check :=
  [.test (supported inst)]
    ++ valueChecks inst.getOutput pattern.output
    ++ (match determineOpCode inst with
        | some op => operationChecks op pattern.operation
        | none => [.test false])
    ++ valueChecks (inst.getArgument 0) pattern.firstArgument
    ++ valueChecks (inst.getArgument 1) pattern.secondArgument
    ++ conditionChecks (conditionOf inst) pattern.condition
    ++ flagChecks inst.getFlags pattern.flags

end vc4c
namespace vc4c
/-- Two caches agree where both have an entry. -/
def Agree (g l : MatchCache) : Prop := ∀ k a b, g k = some a → l k = some b → a = b

/-- A store transformer that, for every variable, either keeps it or overwrites it with a fixed
content: the shape of every sequence of assignments. -/
def CellWise (f : Placeholders → Placeholders) : Prop :=
  ∀ k, (∀ s, f s k = s k) ∨ (∃ v, ∀ s, f s k = v)
end vc4c
namespace vc4c

/-- What `searchInnerGapped` requires of a skipped slot: it is erased, or its instruction has no
signal with side effects and does not set flags. -/
def gapAllowed : Option IntermediateInstruction → Bool
  | none => true
  | some i => !(i.getSignal.hasSideEffects || i.doesSetFlag)

/-- The slots of the consecutive positions that `searchInnerCompact` assigns to the parts. -/
def matchedCompact :
    List InstructionPattern → List (Option IntermediateInstruction) → Nat →
    List (Nat × IntermediateInstruction)
  | _ :: parts, some inst :: rest, pos => (pos, inst) :: matchedCompact parts rest (pos + 1)
  | _, _, _ => []

/-- The instructions matched by the parts of the pattern in the attempt of `search` that starts at
the walker (`searchInnerGapped` or `searchInnerCompact`), none if the attempt fails. -/
def attemptMatching (pattern : Pattern) (rest : List (Option IntermediateInstruction)) (pos : Nat) :
    Option (List (Nat × IntermediateInstruction)) :=
  if pattern.allowGaps then
    match searchInnerGappedLoop pattern.parts rest pos [] [] MatchCache.empty [] with
    | some ms => if ms.length != pattern.parts.length then none else some ms
    | none => none
  else
    match searchInnerCompactCheck pattern.parts rest MatchCache.empty with
    | some _ => some (matchedCompact pattern.parts rest pos)
    | none => none

/-- The start position and the matched instructions of the first successful attempt of the loop
of `search`. -/
def searchMatchingFrom (pattern : Pattern) (front : InstructionPattern) :
    List (Option IntermediateInstruction) → Nat →
    Option (Nat × List (Nat × IntermediateInstruction))
  | [], _ => none
  | inst :: rest, pos =>
    match matchesOnly true inst front MatchCache.empty MatchCache.empty with
    | some _ =>
      match attemptMatching pattern (inst :: rest) pos with
      | some ms => some (pos, ms)
      | none => searchMatchingFrom pattern front rest (pos + 1)
    | none => searchMatchingFrom pattern front rest (pos + 1)

/-- The start position and the matched instructions (position and instruction, one per part) of
a successful `search`. -/
def searchMatching (block : List (Option IntermediateInstruction)) (start : Nat)
    (pattern : Pattern) : Option (Nat × List (Nat × IntermediateInstruction)) :=
  match pattern.parts with
  | [] => none
  | front :: _ => searchMatchingFrom pattern front (block.drop start) start

end vc4c
namespace vc4c

/-! ## What a placeholder holds after a match -/

/-- The variable of a value placeholder holds the component: a `Placeholder<Value>` the value, a
`Placeholder<const Local*>` the local of the value, a `Placeholder<Literal>` its literal. -/
def ValuePattern.holds (s : Placeholders) (val : Option Value) : ValuePattern → Prop
  | .placeholderValue addr => val.map Stored.value = some (s (.value addr))
  | .placeholderLocal addr => (val.bind Value.checkLocal).map Stored.loc = some (s (.loc addr))
  | .placeholderLiteral addr =>
    (val.bind Value.getLiteralValue).map Stored.literal = some (s (.literal addr))
  | _ => True

def OperationPattern.holds (s : Placeholders) (op : Option OpCode) : OperationPattern → Prop
  | .placeholder addr => op.map Stored.opcode = some (s (.opcode addr))
  | _ => True

/-- The variable of a condition placeholder holds the condition code, that of an
`InvertedCondition` the inverted condition code. -/
def ConditionPattern.holds (s : Placeholders) (code : ConditionCode) : ConditionPattern → Prop
  | .placeholder addr => s (.condition addr) = .condition code
  | .inverted addr => s (.condition addr) = .condition code.invert
  | _ => True

def FlagPattern.holds (s : Placeholders) (flag : SetFlag) : FlagPattern → Prop
  | .placeholder addr => s (.flag addr) = .flag flag
  | _ => True

/-- Every placeholder of the instruction pattern holds the corresponding component of the
instruction: output, operation code, first argument, second argument, condition, flags. -/
def InstructionPattern.holds (s : Placeholders) (inst : IntermediateInstruction)
    (pattern : InstructionPattern) : Prop :=
  pattern.output.holds s inst.getOutput
    ∧ pattern.operation.holds s (determineOpCode inst)
    ∧ pattern.firstArgument.holds s (inst.getArgument 0)
    ∧ pattern.secondArgument.holds s (inst.getArgument 1)
    ∧ pattern.condition.holds s (conditionOf inst)
    ∧ pattern.flags.holds s inst.getFlags

/-- The placeholders of the operation and of the two arguments hold the components of the
expression (an expression has no output, condition or flags). -/
def InstructionPattern.holdsExpression (s : Placeholders) (expr : Expression)
    (pattern : InstructionPattern) : Prop :=
  pattern.operation.holds s (some expr.code)
    ∧ pattern.firstArgument.holds s expr.arg0.checkValue
    ∧ pattern.secondArgument.holds s expr.arg1.checkValue

/-- The elementary checks of `matches(const Expression&, InstructionPattern&)`. -/
def expressionChecks (expr : Expression) (pattern : InstructionPattern) : List Check :=
  [.test (!(expr.packMode || expr.unpackMode))]
    ++ operationChecks expr.code pattern.operation
    ++ (match expr.arg0.checkValue with
        | some v => valueChecks (some v) pattern.firstArgument
        | none => [.test false])
    ++ (match expr.arg1.checkValue with
        | some v => valueChecks (some v) pattern.secondArgument
        | none => [.test false])

end vc4c
namespace vc4c.Example

/-! ## Concrete instructions, patterns and blocks used in examples -/

def int32 : DataType := .simple 32 1

def localValue (l : Local) : Value := ⟨.loc l, int32⟩

def literalValue (n : Nat) : Value := ⟨.literal n, int32⟩

/-- The instruction `out = mov src`. -/
def move (out : Local) (src : Value) : IntermediateInstruction :=
  { kind := .moveOperation, output := some (localValue out), arguments := [src],
    conditional := some .COND_ALWAYS, setFlags := .DONT_SET, packMode := false,
    unpackMode := false, signal := .SIGNAL_NONE }

/-- The instruction `out = add a, b` (the ALU operation with code 1). -/
def add (out : Local) (a b : Value) : IntermediateInstruction :=
  { kind := .operation (.alu 1), output := some (localValue out), arguments := [a, b],
    conditional := some .COND_ALWAYS, setFlags := .DONT_SET, packMode := false,
    unpackMode := false, signal := .SIGNAL_NONE }

/-- The instruction `MutexLock(MutexAccess::LOCK)`: it reads the mutex register and carries
`SIGNAL_NONE`. -/
def mutexLock : IntermediateInstruction :=
  { kind := .mutexLock true, output := none, arguments := [⟨.register ⟨0, 51⟩, .simple 1 1⟩],
    conditional := none, setFlags := .DONT_SET, packMode := false, unpackMode := false,
    signal := .SIGNAL_NONE }

/-- An addition with a pack mode. -/
def packedAdd : IntermediateInstruction :=
  { add 3 (localValue 1) (localValue 2) with packMode := true }

/-- A store of placeholder variables. -/
def initialStore : Placeholders := fun _ => .flag .DONT_SET

/-- The instruction pattern all of whose components are ignored. -/
def anything : InstructionPattern :=
  ⟨.ignored, .ignored, .ignored, .ignored, .ignored, .ignored⟩

/-- The pattern `(any) = mov (any)`. -/
def anyMove : InstructionPattern :=
  ⟨.ignored, .opcode .FAKEOP_MOV, .ignored, .ignored, .ignored, .ignored⟩

/-- The pattern `(any) = add (any), (any)`. -/
def anyAdd : InstructionPattern :=
  ⟨.ignored, .opcode (.alu 1), .ignored, .ignored, .ignored, .ignored⟩

/-- The pattern `(any) = mov 1`. -/
def moveOne : InstructionPattern :=
  ⟨.ignored, .opcode .FAKEOP_MOV, .value (literalValue 1), .ignored, .ignored, .ignored⟩

/-- The pattern `$x = mov (any)` with the placeholder `$x` for any value at address 0. -/
def moveToX : InstructionPattern :=
  ⟨.placeholderValue 0, .opcode .FAKEOP_MOV, .ignored, .ignored, .ignored, .ignored⟩

/-- The pattern `(any) = add $x, (any)` with the same placeholder `$x`. -/
def addOfX : InstructionPattern :=
  ⟨.ignored, .opcode (.alu 1), .placeholderValue 0, .ignored, .ignored, .ignored⟩

/-- The pattern `$x = add $x, (any)`: one placeholder at two positions. -/
def addInPlace : InstructionPattern :=
  ⟨.placeholderValue 0, .opcode (.alu 1), .placeholderValue 0, .ignored, .ignored, .ignored⟩

/-- The block `%10 = mov 1; lock mutex; %13 = add %10, %11`. -/
def blockWithLock : List (Option IntermediateInstruction) :=
  [some (move 10 (literalValue 1)), some mutexLock, some (add 13 (localValue 10) (localValue 11))]

/-- The block `%10 = mov 1; %10 = mov 2; %13 = add %11, %12`: the second instruction overwrites
the local written by the first. -/
def blockWithOverwrite : List (Option IntermediateInstruction) :=
  [some (move 10 (literalValue 1)), some (move 10 (literalValue 2)),
    some (add 13 (localValue 11) (localValue 12))]

/-- The block `%10 = mov 1; %11 = mov 2; %12 = mov 3; %13 = add %12, 1`. -/
def blockGreedy : List (Option IntermediateInstruction) :=
  [some (move 10 (literalValue 1)), some (move 11 (literalValue 2)),
    some (move 12 (literalValue 3)), some (add 13 (localValue 12) (literalValue 1))]

/-- The instructions at the positions 0, 2 and 3 of `blockGreedy` as a contiguous sequence. -/
def blockGreedyChosen : List (Option IntermediateInstruction) :=
  [some (move 10 (literalValue 1)), some (move 12 (literalValue 3)),
    some (add 13 (localValue 12) (literalValue 1))]

/-- The instructions of `blockWithLock` matched by `(any) = mov (any); (any) = add (any), (any)`. -/
def matchedWithLock : List (Nat × IntermediateInstruction) :=
  [(0, move 10 (literalValue 1)), (2, add 13 (localValue 10) (localValue 11))]

/-- The instructions of `blockWithOverwrite` matched by
`(any) = mov (any); (any) = add (any), (any)`. -/
def matchedWithOverwrite : List (Nat × IntermediateInstruction) :=
  [(0, move 10 (literalValue 1)), (2, add 13 (localValue 11) (localValue 12))]

/-- The block `%10 = mov 1; %11 = mov 2; %13 = add %11, %12`: the third instruction reads the
local written by the second. -/
def blockGapRead : List (Option IntermediateInstruction) :=
  [some (move 10 (literalValue 1)), some (move 11 (literalValue 2)),
    some (add 13 (localValue 11) (localValue 12))]

/-- The instructions of `blockGapRead` matched by `(any) = mov 1; (any) = add (any), (any)`. -/
def matchedGapRead : List (Nat × IntermediateInstruction) :=
  [(0, move 10 (literalValue 1)), (2, add 13 (localValue 11) (localValue 12))]

/-- The parts `(any) = mov 1; $x = mov (any); (any) = add $x, (any)`. -/
def greedyParts : List InstructionPattern := [moveOne, moveToX, addOfX]

end vc4c.Example
namespace vc4c

/-! ## Memory-access lowering (MemoryMappings.cpp): data -/

/-- The memory operations, in the order of their enumeration (the column order of `MAPPERS`). -/
inductive MemoryOperation
  | READ | WRITE | COPY | FILL
  deriving DecidableEq

/-- The cast `static_cast<unsigned>(mem->op)`. -/
def MemoryOperation.toNat : MemoryOperation → Nat
  | .READ => 0
  | .WRITE => 1
  | .COPY => 2
  | .FILL => 3

/-- The ways a memory location is accessed, in the order of their enumeration (the row order of
`MAPPERS` and the order of the cases of `MemoryInfo::to_string`). -/
inductive MemoryAccessType
  | QPU_REGISTER_READONLY | QPU_REGISTER_READWRITE | VPM_PER_QPU | VPM_SHARED_ACCESS
  | RAM_LOAD_TMU | RAM_READ_WRITE_VPM
  deriving DecidableEq

/-- The cast `static_cast<unsigned>(type)`. -/
def MemoryAccessType.toNat : MemoryAccessType → Nat
  | .QPU_REGISTER_READONLY => 0
  | .QPU_REGISTER_READWRITE => 1
  | .VPM_PER_QPU => 2
  | .VPM_SHARED_ACCESS => 3
  | .RAM_LOAD_TMU => 4
  | .RAM_READ_WRITE_VPM => 5

/-- The dynamic type of a `Local` object. -/
inductive LocalKind
  | plain | parameter | stackAllocation | global
  deriving DecidableEq

/-- What the lowering reads of the `Local` object of a memory location. -/
structure LocalObject where
  id : Local
  kind : LocalKind
  type : DataType
  deriving DecidableEq

/-- A VPM area, by its identity. -/
structure VPMArea where
  id : Nat
  deriving DecidableEq

/-- A memory access range; `addressWrite` is the identity of the instruction it belongs to. -/
structure MemoryAccessRange where
  addressWrite : Nat
  deriving DecidableEq

/-- The description of a memory location, `MemoryInfo`. -/
structure MemoryInfo where
  loc : LocalObject
  type : MemoryAccessType
  mappedRegisterOrConstant : Option Value
  convertedRegisterType : Option DataType
  area : Option VPMArea
  ranges : Option (List MemoryAccessRange)
  tmuFlag : Bool
  deriving DecidableEq

/-- A `MemoryInstruction`. -/
structure MemoryInstruction where
  op : MemoryOperation
  dest : Value
  src : Value
  numEntries : Value
  guardAccess : Bool
  deriving DecidableEq

/-- Compilation steps an error is attributed to. -/
inductive CompilationStep
  | GENERAL | NORMALIZER | OPTIMIZER | CODE_GENERATION
  deriving DecidableEq

/-- Why a lowering did not produce a result: a `CompilationError` thrown by the code (step and
message; the text of the offending instruction is left out), or the recursion bound of the model
was reached. -/
inductive Failure
  | compilationError (step : CompilationStep) (message : String)
  | outOfFuel
  deriving DecidableEq

/-- The two texture memory units. -/
inductive TMU
  | TMU0 | TMU1
  deriving DecidableEq

/-- Decorations of a kernel parameter. -/
inductive ParameterDecorations
  | INPUT | OUTPUT
  deriving DecidableEq

/-- The instructions of a block during the lowering: memory instructions still to be lowered,
the instructions the mappers create themselves, and one entry for every instruction sequence
inserted by a helper that is not part of the sources (with the arguments of the call). -/
inductive Lowered
  | memory (mem : MemoryInstruction)
  | mutexLock (locksMutex : Bool)
  | moveOperation (dest src : Value)
  | unpack8aTo32 (dest src : Value)
  | operation (dest : Value) (op : String) (arg0 arg1 : Value)
  | addressToElementOffset (out : Value) (loc : LocalObject) (container : Value) (ptr : Value)
  | addressToStackOffset (out : Value) (loc : LocalObject) (type : MemoryAccessType) (ptr : Value)
  | addressToWorkItemSpecificOffset (out : Value) (range : MemoryAccessRange)
  | vectorExtraction (container index dest : Value)
  | vectorInsertion (container index value : Value)
  | replication (src dest : Value)
  | readVPM (dest : Value) (area : Option VPMArea) (useMutex : Bool) (offset : Option Value)
  | writeVPM (src : Value) (area : Option VPMArea) (useMutex : Bool) (offset : Option Value)
  | readDMA (dest addr : Value) (useMutex : Bool)
  | writeDMA (src addr : Value) (useMutex : Bool)
  | fillRAM (addr : Value) (type : DataType) (numCopies : Nat) (useMutex : Bool)
  | fillRAMDynamic (addr : Value) (type : DataType) (numCopies : Value) (useMutex : Bool)
  | readRAM (addr : Value) (type : DataType) (area : Option VPMArea) (useMutex : Bool)
      (offset numEntries : Value)
  | writeRAM (addr : Value) (type : DataType) (area : Option VPMArea) (useMutex : Bool)
      (offset numEntries : Value)
  | copyRAM (dest src : Value) (numBytes : Nat) (useMutex : Bool)
  | copyRAMDynamic (dest src numEntries : Value) (useMutex : Bool)
  | readVectorFromTMU (dest addr : Value) (tmu : TMU)
  deriving DecidableEq

/-- The state the mappers work on: the block around the walker (every instruction with the
identity of its list node), the decorations of the parameters and the counters of the method
for new locals and new list nodes. `after` starts with the instruction at the walker. -/
structure Lowering where
  before : List (Nat × Lowered)
  after : List (Nat × Lowered)
  decorations : List (Local × ParameterDecorations)
  nextLocal : Nat
  nextNode : Nat
  deriving DecidableEq

/-- Result of a mapper. -/
abbrev MapperResult := Except Failure Lowering

namespace Lowering

/-- The function `it.emplace(inst)`: insert before the walker, which then points to the new
instruction. -/
def emplace (st : Lowering) (inst : Lowered) : Lowering :=
  { st with after := (st.nextNode, inst) :: st.after, nextNode := st.nextNode + 1 }

/-- The function `it.nextInBlock()`. -/
def nextInBlock (st : Lowering) : Lowering :=
  match st.after with
  | [] => st
  | x :: rest => { st with before := st.before ++ [x], after := rest }

/-- The function `it.reset(inst)`: replace the instruction at the walker. -/
def reset (st : Lowering) (inst : Lowered) : Lowering :=
  match st.after with
  | [] => st
  | x :: rest => { st with after := (x.1, inst) :: rest }

/-- The function `it.erase()`: remove the instruction at the walker, which then points to the
next one. -/
def erase (st : Lowering) : Lowering :=
  { st with after := st.after.tail }

/-- An instruction sequence inserted before the walker by a helper; the walker stays. -/
def insert (st : Lowering) (inst : Lowered) : Lowering :=
  { st with before := st.before ++ [(st.nextNode, inst)], nextNode := st.nextNode + 1 }

/-- The function `method.addNewLocal(type)`: a new local and the state after its creation. -/
def addNewLocal (st : Lowering) (type : DataType) : Value × Lowering :=
  (⟨.loc st.nextLocal, type⟩, { st with nextLocal := st.nextLocal + 1 })

/-- The identity of the instruction at the walker. -/
def node (st : Lowering) : Option Nat := st.after.head?.map Prod.fst

/-- Setting a decoration of a parameter: `add_flag(param->decorations, flag)`. -/
def decorate (st : Lowering) (info : MemoryInfo) (flag : ParameterDecorations) : Lowering :=
  if info.loc.kind = LocalKind.parameter then
    { st with decorations := setEmplace st.decorations (info.loc.id, flag) }
  else st

end Lowering

end vc4c
namespace vc4c

/-! ## Memory-access lowering (MemoryMappings.cpp): helpers -/

namespace DataType

def TYPE_INT8 : DataType := .simple 8 1

def TYPE_INT32 : DataType := .simple 32 1

/-- Modelled from the spec: the element type of a pointer, array or vector (Types.cpp is not part
of the sources). -/
def getElementType : DataType → DataType
  | .pointer e _ => e
  | .array e _ => e
  | .simple bits _ => .simple bits 1
  | t => t

def getArrayType : DataType → Option (DataType × Nat)
  | .array e n => some (e, n)
  | _ => none

def isVectorType : DataType → Bool
  | .simple _ w => decide (1 < w)
  | _ => false

def isScalarType : DataType → Bool
  | .simple _ w => decide (w = 1)
  | _ => false

/-- Modelled from the spec: bit-width of the scalar component; a pointer has 32 bits. -/
def getScalarBitCount : DataType → Nat
  | .simple bits _ => bits
  | .pointer _ _ => 32
  | .array e _ => getScalarBitCount e
  | .struct _ => 0

def getVectorWidth : DataType → Nat
  | .simple _ w => w
  | _ => 1

/-- Modelled from the spec: the width in bytes as held in a register. -/
def getLogicalWidth (t : DataType) : Nat := t.getScalarBitCount * t.getVectorWidth / 8

/-- Modelled from the spec: the width in bytes in memory; a pointer takes 4 bytes, a vector of 3
elements the space of 4, the size of a struct is not known to the model (taken as 0). -/
def getInMemoryWidth : DataType → Nat
  | .pointer _ _ => 4
  | .array e n => getInMemoryWidth e * n
  | .struct _ => 0
  | .simple bits w => (if w = 3 then 4 else w) * bits / 8

def toVectorType (t : DataType) (width : Nat) : DataType :=
  match t with
  | .simple bits _ => .simple bits width
  | t => t

end DataType

/-- The constant `INT_ONE`. -/
def INT_ONE : Value := ⟨.literal 1, DataType.TYPE_INT8⟩

/-- The constant `UNDEFINED_VALUE`. -/
def UNDEFINED_VALUE : Value := ⟨.undefined, .simple 0 1⟩

/-- The constant `NATIVE_VECTOR_SIZE`. -/
def NATIVE_VECTOR_SIZE : Nat := 16

namespace MemoryInstruction

def getSource (mem : MemoryInstruction) : Value := mem.src

def getDestination (mem : MemoryInstruction) : Value := mem.dest

def getNumEntries (mem : MemoryInstruction) : Value := mem.numEntries

/-- Modelled from the spec: the type of the elements read (MemoryInstruction.cpp is not part of
the sources): the pointed-to type for a read or copy, the type of the value for a write or fill. -/
def getSourceElementType (mem : MemoryInstruction) : DataType :=
  match mem.op with
  | .READ => mem.src.type.getElementType
  | .COPY => mem.src.type.getElementType
  | _ => mem.src.type

/-- Modelled from the spec: the type of the elements written: the type of the destination value
for a read, the pointed-to type otherwise. -/
def getDestinationElementType (mem : MemoryInstruction) : DataType :=
  match mem.op with
  | .READ => mem.dest.type
  | _ => mem.dest.type.getElementType

/-- The constructor called without the number of entries and the guard: their default values
(one entry, guarded access) are modelled from the spec, the declaration is not part of the
sources. -/
def create (op : MemoryOperation) (dest src : Value) : MemoryInstruction :=
  ⟨op, dest, src, INT_ONE, true⟩

end MemoryInstruction

/-- Helper functions whose definitions are not part of the sources and on whose results the
control flow of the mappers depends, and the value of a read the source leaves undefined:
`guardAfterReset mem` is what `mem->guardAccess` yields after `it.reset` has destroyed the
instruction `mem` points to (any value, the flag of the instruction among them). -/
structure Environment where
  getConstantValue : Value → Option Value
  getBestVectorSize : Nat → DataType × Nat
  guardAfterReset : MemoryInstruction → Bool

/-- Throwing a `CompilationError` of the normalization step. -/
def normalizerError {α : Type} (message : String) : Except Failure α :=
  .error (.compilationError .NORMALIZER message)

/-- Dereferencing an `Optional`. Dereferencing an empty one is undefined behaviour in the source,
in the model it is a failure of its own. -/
def deref {α : Type} : Option α → Except Failure α
  | some x => .ok x
  | none => .error (.compilationError .GENERAL "dereferenced an empty Optional")

/-- The macro `ASSERT_SINGLE_SOURCE`. -/
def assertSingleSource (srcInfos : List MemoryInfo) : Except Failure MemoryInfo :=
  match srcInfos with
  | [info] => .ok info
  | _ => normalizerError "This type of memory mapping does not yet support multiple sources"

/-- The macro `ASSERT_SINGLE_DESTINATION`. -/
def assertSingleDestination (destInfos : List MemoryInfo) : Except Failure MemoryInfo :=
  match destInfos with
  | [info] => .ok info
  | _ => normalizerError "This type of memory mapping does not yet support multiple destinations"

/-- The product of a 32-bit unsigned number with a width, in 32-bit unsigned arithmetic. -/
def mul32 (a b : Nat) : Nat := a * b % 2 ^ 32

/-- An integer division; dividing by zero is undefined behaviour in the source, in the model it
is a failure of its own. -/
def divide (a b : Nat) : Except Failure Nat :=
  if b = 0 then .error (.compilationError .GENERAL "division by zero") else .ok (a / b)

/-- The remainder of an integer division, with the same failure for a divisor of zero. -/
def modulo (a b : Nat) : Except Failure Nat :=
  if b = 0 then .error (.compilationError .GENERAL "division by zero") else .ok (a % b)

def copiesWholeRegister (numEntries : Value) (elementType registerType : DataType) : Bool :=
  match numEntries.getLiteralValue with
  | some lit => decide (mul32 lit elementType.getLogicalWidth = registerType.getLogicalWidth)
  | none => false

/-- A call of a helper that computes a new value and inserts the instructions for it before the
walker (`insertAddressToElementOffset` and the like, `assign(it, type) = ...`). -/
def insertComputed (st : Lowering) (type : DataType) (inst : Value → Lowered) :
    Value × Lowering :=
  let r := st.addNewLocal type
  (r.1, r.2.insert (inst r.1))

/-- The recursive call of `mapMemoryAccess` made by a mapper. -/
abbrev Recurse :=
  Lowering → MemoryInstruction → List MemoryInfo → List MemoryInfo → MapperResult

/-- Replace the memory instruction at the walker by the given one and map it:
`it.reset(new MemoryInstruction(...)); mapMemoryAccess(method, it, it.get<MemoryInstruction>(),
srcInfos, destInfos)`. -/
def resetAndMap (recurse : Recurse) (st : Lowering) (mem : MemoryInstruction)
    (srcInfos destInfos : List MemoryInfo) : MapperResult :=
  recurse (st.reset (.memory mem)) mem srcInfos destInfos

/-- Insert the given memory instruction before the walker and map it:
`it.emplace(new MemoryInstruction(...)); mapMemoryAccess(method, it,
it.get<MemoryInstruction>(), srcInfos, destInfos)`. -/
def emplaceAndMap (recurse : Recurse) (st : Lowering) (mem : MemoryInstruction)
    (srcInfos destInfos : List MemoryInfo) : MapperResult :=
  recurse (st.emplace (.memory mem)) mem srcInfos destInfos

/-- The guard of a lowered sequence: `it.emplace(new MutexLock(...)); it.nextInBlock()` if the
access is guarded. -/
def guardWith (st : Lowering) (guardAccess : Bool) (locksMutex : Bool) : Lowering :=
  if guardAccess then (st.emplace (.mutexLock locksMutex)).nextInBlock else st

/-- Marking the parameters among the given locations. -/
def decorateAll (st : Lowering) (infos : List MemoryInfo) (flag : ParameterDecorations) :
    Lowering :=
  infos.foldl (fun acc info => acc.decorate info flag) st

/-! ## Memory-access lowering (MemoryMappings.cpp): the mappers -/

def invalidMapping (_st : Lowering) (_mem : MemoryInstruction)
    (_srcInfos _destInfos : List MemoryInfo) : MapperResult :=
  normalizerError "Invalid memory access"

def lowerMemoryReadOnlyToRegister (env : Environment) (recurse : Recurse) (st : Lowering)
    (mem : MemoryInstruction) (srcInfos destInfos : List MemoryInfo) : MapperResult := do
  let srcInfo ← assertSingleSource srcInfos
  if mem.op ≠ .READ ∧ mem.op ≠ .COPY then
    normalizerError "Cannot perform a non-read operation on constant memory"
  else
  let mapped ← deref srcInfo.mappedRegisterOrConstant
  let (tmpIndex, st) := insertComputed st DataType.TYPE_INT8
    (fun out => .addressToElementOffset out srcInfo.loc mapped mem.getSource)
  let elementType := match srcInfo.convertedRegisterType with
    | some t => t
    | none => mapped.type.getElementType
  let wholeRegister : Bool := match srcInfo.convertedRegisterType with
    | some t => copiesWholeRegister mem.getNumEntries mem.getDestinationElementType t
    | none => false
  let (tmpVal, st) :=
    if mem.op = .COPY ∧ wholeRegister = true then
      ((⟨.undefined, elementType⟩ : Value), st)
    else
      let r := st.addNewLocal elementType
      (r.1, r.2.insert (.vectorExtraction mapped tmpIndex r.1))
  let tooManyEntries : MapperResult :=
    normalizerError "Lowering copy with more than 1 entry is not yet implemented"
  if mapped.checkLocal.isNone then
    if mem.op = .COPY then
      if wholeRegister = false ∧ mem.getNumEntries ≠ INT_ONE then tooManyEntries
      else resetAndMap recurse st (.create .WRITE mem.getDestination tmpVal) srcInfos destInfos
    else pure (st.reset (.moveOperation mem.getDestination tmpVal))
  else if srcInfo.convertedRegisterType.isSome then
    if mem.op = .READ then pure (st.reset (.moveOperation mem.getDestination tmpVal))
    else
      if wholeRegister = false ∧ mem.getNumEntries ≠ INT_ONE then tooManyEntries
      else resetAndMap recurse st (.create .WRITE mem.getDestination tmpVal) srcInfos destInfos
  else
    match env.getConstantValue mem.getSource with
    | some constant =>
      if mem.op = .COPY then
        if mem.getNumEntries ≠ INT_ONE then tooManyEntries
        else resetAndMap recurse st (.create .WRITE mem.getDestination constant) srcInfos destInfos
      else pure (st.reset (.moveOperation mem.getDestination constant))
    | none => normalizerError "Unhandled case of lowering constant memory to register"

def lowerMemoryReadWriteToRegister (st : Lowering) (mem : MemoryInstruction)
    (srcInfos destInfos : List MemoryInfo) : MapperResult := do
  let loweredInfo ←
    if mem.op = .READ then assertSingleSource srcInfos else assertSingleDestination destInfos
  match loweredInfo.mappedRegisterOrConstant with
  | none =>
    normalizerError "Cannot map memory location to register without mapping register specified"
  | some loweredRegister =>
    match mem.op with
    | .READ =>
      let (tmpIndex, st) := insertComputed st DataType.TYPE_INT8
        (fun out => .addressToElementOffset out loweredInfo.loc loweredRegister mem.getSource)
      pure (st.insert (.vectorExtraction loweredRegister tmpIndex mem.getDestination)).erase
    | .WRITE =>
      let (tmpIndex, st) := insertComputed st DataType.TYPE_INT8
        (fun out => .addressToElementOffset out loweredInfo.loc loweredRegister mem.getDestination)
      pure (st.insert (.vectorInsertion loweredRegister tmpIndex mem.getSource)).erase
    | .FILL =>
      if mem.getSource.type.isScalarType then
        pure (st.insert (.replication mem.getSource loweredRegister)).erase
      else normalizerError "Unhandled case of lowering memory access to register"
    | .COPY => normalizerError "Unhandled case of lowering memory access to register"

end vc4c
namespace vc4c

/-- The value `Value(v.local(), type)`: the local of a value with another type. Taking the local
of a value that is none is a failure. -/
def localWithType (v : Value) (type : DataType) : Except Failure Value :=
  match v.checkLocal with
  | some l => .ok ⟨.loc l, type⟩
  | none => .error (.compilationError .GENERAL "value is not a local")

/-- Whether the value is a literal or a small immediate, `Value::isLiteralValue`. -/
def Value.isLiteralValue (v : Value) : Bool :=
  match v.data with
  | .literal _ => true
  | .smallImmediate _ => true
  | _ => false

def lowerMemoryCopyToRegister (recurse : Recurse) (st : Lowering) (mem : MemoryInstruction)
    (srcInfos destInfos : List MemoryInfo) : MapperResult := do
  let srcInfo ← assertSingleSource srcInfos
  let destInfo ← assertSingleDestination destInfos
  if srcInfo.loc = destInfo.loc then
    normalizerError "Copy from and to same register lowered memory area is not supported"
  else if mem.op ≠ .COPY then
    normalizerError "Unhandled case of lowering memory access to register"
  else if destInfo.type = .QPU_REGISTER_READONLY then
    normalizerError "Copy into read-only registers is not supported"
  else
  let convertedType ← deref srcInfo.convertedRegisterType
  let wholeRegister :=
    copiesWholeRegister mem.getNumEntries mem.getDestinationElementType convertedType
  match srcInfo.mappedRegisterOrConstant with
  | some mapped =>
    if wholeRegister then
      resetAndMap recurse st ⟨.WRITE, mem.getDestination, mapped, INT_ONE, true⟩ srcInfos destInfos
    else if mem.getNumEntries ≠ INT_ONE then
      match mem.getNumEntries.getLiteralValue with
      | some lit =>
        let typeFactor ← divide mapped.type.getElementType.getScalarBitCount
          mem.getSourceElementType.getScalarBitCount
        let remainder ← modulo lit typeFactor
        if remainder ≠ 0 then
          normalizerError "Copied number of bytes is not a multiple of the actual register type"
        else if lit / typeFactor = 0 ∨ lit / typeFactor > NATIVE_VECTOR_SIZE then
          normalizerError "Invalid copied number of elements"
        else
          normalizerError "Lowering copy with a dynamic number of entries is not yet implemented"
      | none =>
        normalizerError "Lowering copy with a dynamic number of entries is not yet implemented"
    else
      let r := st.addNewLocal mem.getSourceElementType
      let st := r.2.insert (.vectorExtraction mapped UNDEFINED_VALUE r.1)
      resetAndMap recurse st ⟨.WRITE, mem.getDestination, r.1, INT_ONE, true⟩ srcInfos destInfos
  | none =>
    if destInfo.mappedRegisterOrConstant.isSome then
      normalizerError "lowerMemoryCopyToRegister should not be called to copy into register"
    else normalizerError "Unhandled case of lowering memory access to register"

def insertToInVPMAreaOffset (st : Lowering) (info : MemoryInfo) (ptrValue : Value) :
    Except Failure (Value × Lowering) :=
  match info.ranges with
  | some ranges =>
    match ranges.find? (fun range => st.node = some range.addressWrite) with
    | none =>
      normalizerError "Failed to find memory access range for VPM cached memory access"
    | some range =>
      .ok (insertComputed st DataType.TYPE_INT32 (fun out => .addressToWorkItemSpecificOffset out range))
  | none =>
    .ok (insertComputed st DataType.TYPE_INT32
      (fun out => .addressToStackOffset out info.loc info.type ptrValue))

/-- The checks shared by `lowerMemoryReadToVPM` and `lowerMemoryWriteToVPM`. -/
def checkVPMLocation (info : MemoryInfo) : Except Failure VPMArea :=
  if info.type = .VPM_PER_QPU ∧ info.loc.kind ≠ .stackAllocation then
    normalizerError "Unhandled case of per-QPU memory buffer"
  else
    match info.area with
    | none => normalizerError "Cannot lower into VPM without VPM area"
    | some area => .ok area

def lowerMemoryReadToVPM (st : Lowering) (mem : MemoryInstruction)
    (srcInfos _destInfos : List MemoryInfo) : MapperResult := do
  let srcInfo ← assertSingleSource srcInfos
  let area ← checkVPMLocation srcInfo
  let (inAreaOffset, st) ← insertToInVPMAreaOffset st srcInfo mem.getSource
  if mem.op = .READ then
    pure (st.insert
      (.readVPM mem.getDestination (some area) mem.guardAccess (some inAreaOffset))).erase
  else normalizerError "Unhandled case to lower reading of memory into VPM"

/-- The loop of `lowerMemoryWriteToVPM` writing the fill vector once per row. -/
def writeFillRows (fillVector inAreaOffset : Value) (area : VPMArea) (vpmTypeSize : Nat) :
    List Nat → Lowering → Lowering
  | [], st => st
  | i :: rest, st =>
    let (byteOffset, st) := insertComputed st DataType.TYPE_INT32
      (fun out => .operation out "mul" ⟨.literal i, DataType.TYPE_INT32⟩
        ⟨.literal vpmTypeSize, DataType.TYPE_INT32⟩)
    let (byteOffset, st) := insertComputed st DataType.TYPE_INT32
      (fun out => .operation out "add" inAreaOffset byteOffset)
    writeFillRows fillVector inAreaOffset area vpmTypeSize rest
      (st.insert (.writeVPM fillVector (some area) false (some byteOffset)))

def lowerMemoryWriteToVPM (env : Environment) (st : Lowering) (mem : MemoryInstruction)
    (_srcInfos destInfos : List MemoryInfo) : MapperResult := do
  let destInfo ← assertSingleDestination destInfos
  let area ← checkVPMLocation destInfo
  let (inAreaOffset, st) ← insertToInVPMAreaOffset st destInfo mem.getDestination
  if mem.op = .WRITE then
    pure (st.insert (.writeVPM mem.getSource (some area) mem.guardAccess (some inAreaOffset))).erase
  else if mem.op = .FILL then
    match mem.getNumEntries.getLiteralValue with
    | none => normalizerError "Filling dynamically sized VPM area is not yet implemented"
    | some numEntries =>
      if mem.getSource.type = DataType.TYPE_INT8 then
        let vpmType := env.getBestVectorSize numEntries
        let (fillWord, st) := insertComputed st DataType.TYPE_INT32
          (fun out => .unpack8aTo32 out mem.getSource)
        let r := st.addNewLocal (DataType.TYPE_INT32.toVectorType 16)
        let st := r.2.insert (.replication fillWord r.1)
        let (inAreaOffset, st) ← insertToInVPMAreaOffset st destInfo mem.getDestination
        let st := guardWith st mem.guardAccess true
        let st := writeFillRows r.1 inAreaOffset area vpmType.1.getInMemoryWidth
          (List.range vpmType.2) st
        let st := guardWith st mem.guardAccess false
        pure st.erase
      else normalizerError "Unhandled case to lower writing of memory into VPM"
  else normalizerError "Unhandled case to lower writing of memory into VPM"

/-- The loop of `loadMemoryViaTMU` over the sources: the counters `numTMU0` and `numTMU1` and
the decorations. -/
def countTMUs : List MemoryInfo → Nat × Nat × Lowering → Nat × Nat × Lowering
  | [], acc => acc
  | srcInfo :: rest, (numTMU0, numTMU1, st) =>
    let st := st.decorate srcInfo .INPUT
    if srcInfo.tmuFlag then countTMUs rest (numTMU0 + 1, numTMU1, st)
    else countTMUs rest (numTMU0, numTMU1 + 1, st)

def loadMemoryViaTMU (st : Lowering) (mem : MemoryInstruction)
    (srcInfos _destInfos : List MemoryInfo) : MapperResult :=
  if mem.op = .READ then
    let (numTMU0, numTMU1, st) := countTMUs srcInfos (0, 0, st)
    let tmu := if numTMU0 > numTMU1 then TMU.TMU0 else TMU.TMU1
    .ok (st.insert (.readVectorFromTMU mem.getDestination mem.getSource tmu)).erase
  else normalizerError "Unhandled case to read from memory via TMU"

def accessMemoryInRAMViaVPM (env : Environment) (st : Lowering) (mem : MemoryInstruction)
    (srcInfos destInfos : List MemoryInfo) : MapperResult :=
  match mem.op with
  | .FILL =>
    let st := guardWith st mem.guardAccess true
    let st :=
      match mem.getNumEntries.getLiteralValue with
      | some numCopies =>
        if mem.getSource.type = DataType.TYPE_INT8 then
          let vpmType := env.getBestVectorSize numCopies
          let (fillWord, st) := insertComputed st DataType.TYPE_INT32
            (fun out => .unpack8aTo32 out mem.getSource)
          let r := st.addNewLocal (DataType.TYPE_INT32.toVectorType 16)
          let st := r.2.insert (.replication fillWord r.1)
          let st := st.insert (.writeVPM r.1 none false none)
          st.insert (.fillRAM mem.getDestination vpmType.1 vpmType.2 false)
        else
          let st := st.insert (.writeVPM mem.getSource none false none)
          st.insert (.fillRAM mem.getDestination mem.getSourceElementType numCopies false)
      | none =>
        let st := st.insert (.writeVPM mem.getSource none false none)
        st.insert
          (.fillRAMDynamic mem.getDestination mem.getSourceElementType mem.getNumEntries false)
    let st := guardWith st mem.guardAccess false
    .ok (decorateAll st destInfos .OUTPUT).erase
  | .READ =>
    let st := st.insert (.readDMA mem.getDestination mem.getSource mem.guardAccess)
    .ok (decorateAll st srcInfos .INPUT).erase
  | .WRITE =>
    let st := st.insert (.writeDMA mem.getSource mem.getDestination mem.guardAccess)
    .ok (decorateAll st destInfos .OUTPUT).erase
  | .COPY => normalizerError "Unhandled case of accessing RAM"

end vc4c
namespace vc4c

/-- The conversion of a byte count into a number of entries in `mapMemoryCopy`, for the source or
the destination location: the converted number of entries and the row type. -/
def convertByteCount (numEntries : Value) (vpmRowType : Option DataType) (info : MemoryInfo)
    (elementType : DataType) (mismatchMessage : String) :
    Except Failure (Value × Option DataType) :=
  match numEntries.getLiteralValue with
  | some numBytes =>
    if info.area.isSome ∧ elementType = DataType.TYPE_INT8 then
      let origType := info.loc.type.getElementType
      if numBytes ≠ origType.getInMemoryWidth then normalizerError mismatchMessage
      else
        match origType.getArrayType with
        | some array => .ok (⟨.literal array.2, DataType.TYPE_INT32⟩, some array.1)
        | none =>
          if origType.isVectorType then .ok (INT_ONE, some origType)
          else normalizerError "Unsupported element type for memory copy into VPM"
    else .ok (numEntries, vpmRowType)
  | none => .ok (numEntries, vpmRowType)

/-- The mapper `mapMemoryCopy`. The number of bytes of a copy from RAM to RAM is computed in
32-bit unsigned arithmetic (the product of the 32-bit number of entries with the promoted
`unsigned char` bit count and vector width), the result is widened to 64 bits afterwards.
In the copy from VPM to VPM and in the partial copy into a register the source tests
`mem->guardAccess` for the release of the mutex after `it.reset` has replaced, and thereby
destroyed, the instruction `mem` points to: the value of this read is undefined in the source,
the model takes it from the environment. -/
def mapMemoryCopy (env : Environment) (recurse : Recurse) (st : Lowering)
    (mem : MemoryInstruction) (srcInfos destInfos : List MemoryInfo) : MapperResult := do
  let srcInfo ← assertSingleSource srcInfos
  let destInfo ← assertSingleDestination destInfos
  let destInRegister := decide (destInfo.type = .QPU_REGISTER_READWRITE)
  let srcInVPM := decide (srcInfo.type = .VPM_PER_QPU ∨ srcInfo.type = .VPM_SHARED_ACCESS)
  let srcInRAM := decide (srcInfo.type = .RAM_LOAD_TMU ∨ srcInfo.type = .RAM_READ_WRITE_VPM)
  let destInVPM := decide (destInfo.type = .VPM_PER_QPU ∨ destInfo.type = .VPM_SHARED_ACCESS)
  let destInRAM := decide (destInfo.type = .RAM_LOAD_TMU ∨ destInfo.type = .RAM_READ_WRITE_VPM)
  let st := decorateAll st srcInfos .INPUT
  let st := decorateAll st destInfos .OUTPUT
  let (numEntries, vpmRowType) ← convertByteCount mem.getNumEntries none srcInfo
    mem.getSourceElementType "Byte-wise partial copy from VPM is yet implemented"
  let (numEntries, vpmRowType) ← convertByteCount numEntries vpmRowType destInfo
    mem.getDestinationElementType "Byte-wise partial copy to VPM is yet implemented"
  if srcInVPM ∧ destInVPM then
    if numEntries ≠ INT_ONE then
      normalizerError "Copying within VPM with more than 1 entries is not yet implemented"
    else
      let st := guardWith st mem.guardAccess true
      let r := st.addNewLocal mem.getSourceElementType
      let st ← emplaceAndMap recurse r.2 ⟨.READ, r.1, mem.getSource, numEntries, false⟩
        srcInfos destInfos
      let st ← resetAndMap recurse st ⟨.WRITE, mem.getDestination, r.1, numEntries, false⟩
        srcInfos destInfos
      pure (guardWith st (env.guardAfterReset mem) false)
  else if srcInVPM ∧ destInRAM then
    let (inAreaOffset, st) ← insertToInVPMAreaOffset st srcInfo mem.getSource
    let addr ← localWithType mem.getDestination (vpmRowType.getD mem.getDestinationElementType)
    pure (st.insert (.writeRAM addr (vpmRowType.getD mem.getSourceElementType) srcInfo.area
      mem.guardAccess inAreaOffset numEntries)).erase
  else if srcInRAM ∧ destInVPM then
    let (inAreaOffset, st) ← insertToInVPMAreaOffset st destInfo mem.getDestination
    let addr ← localWithType mem.getSource (vpmRowType.getD mem.getSourceElementType)
    pure (st.insert (.readRAM addr (vpmRowType.getD mem.getDestinationElementType) destInfo.area
      mem.guardAccess inAreaOffset numEntries)).erase
  else if srcInRAM ∧ destInRAM then
    if !numEntries.isLiteralValue then
      pure (st.insert
        (.copyRAMDynamic mem.getDestination mem.getSource numEntries mem.guardAccess)).erase
    else
      let lit ← deref numEntries.getLiteralValue
      let numBytes := lit
        * (mem.getSourceElementType.getScalarBitCount * mem.getSourceElementType.getVectorWidth)
        % 2 ^ 32 / 8
      if numBytes > 2 ^ 32 - 1 then
        .error (.compilationError .OPTIMIZER "Cannot copy more than 4GB of data")
      else
        pure (st.insert
          (.copyRAM mem.getDestination mem.getSource numBytes mem.guardAccess)).erase
  else if destInRegister ∧ destInfo.convertedRegisterType.isSome then
    let convertedType ← deref destInfo.convertedRegisterType
    if copiesWholeRegister numEntries mem.getSourceElementType convertedType then
      let mapped ← deref destInfo.mappedRegisterOrConstant
      let addr ← localWithType mem.getSource (.pointer convertedType .PRIVATE)
      resetAndMap recurse st ⟨.READ, mapped, addr, INT_ONE, mem.guardAccess⟩ srcInfos destInfos
    else
      match numEntries.getLiteralValue with
      | none => normalizerError "Needs to be re-written"
      | some lit =>
        if mul32 lit mem.getSourceElementType.getLogicalWidth
            ≤ (DataType.TYPE_INT32.toVectorType NATIVE_VECTOR_SIZE).getLogicalWidth then
          let numElements ← divide (mul32 lit mem.getSourceElementType.getLogicalWidth)
            convertedType.getElementType.getLogicalWidth
          if numElements = 0 ∨ numElements > NATIVE_VECTOR_SIZE then
            normalizerError "Invalid copied number of elements"
          else
            let st := guardWith st mem.guardAccess true
            let r := st.addNewLocal (mem.getSourceElementType.toVectorType numElements)
            let st ← emplaceAndMap recurse r.2 ⟨.READ, r.1, mem.getSource, INT_ONE, false⟩
              srcInfos destInfos
            let st ← resetAndMap recurse st ⟨.WRITE, mem.getDestination, r.1, INT_ONE, false⟩
              srcInfos destInfos
            pure (guardWith st (env.guardAfterReset mem) false)
        else normalizerError "Needs to be re-written"
  else normalizerError "Unhandled case for handling memory copy"

/-- The mapper functions, the entries of `MAPPERS`. -/
inductive MemoryMapper
  | invalidMapping
  | lowerMemoryReadOnlyToRegister
  | lowerMemoryReadWriteToRegister
  | lowerMemoryCopyToRegister
  | lowerMemoryReadToVPM
  | lowerMemoryWriteToVPM
  | loadMemoryViaTMU
  | accessMemoryInRAMViaVPM
  | mapMemoryCopy
  deriving DecidableEq

/-- The call of a mapper through its function pointer. -/
def MemoryMapper.call (mapper : MemoryMapper) (env : Environment) (recurse : Recurse)
    (st : Lowering) (mem : MemoryInstruction) (srcInfos destInfos : List MemoryInfo) :
    MapperResult :=
  match mapper with
  | .invalidMapping => vc4c.invalidMapping st mem srcInfos destInfos
  | .lowerMemoryReadOnlyToRegister =>
    vc4c.lowerMemoryReadOnlyToRegister env recurse st mem srcInfos destInfos
  | .lowerMemoryReadWriteToRegister =>
    vc4c.lowerMemoryReadWriteToRegister st mem srcInfos destInfos
  | .lowerMemoryCopyToRegister => vc4c.lowerMemoryCopyToRegister recurse st mem srcInfos destInfos
  | .lowerMemoryReadToVPM => vc4c.lowerMemoryReadToVPM st mem srcInfos destInfos
  | .lowerMemoryWriteToVPM => vc4c.lowerMemoryWriteToVPM env st mem srcInfos destInfos
  | .loadMemoryViaTMU => vc4c.loadMemoryViaTMU st mem srcInfos destInfos
  | .accessMemoryInRAMViaVPM => vc4c.accessMemoryInRAMViaVPM env st mem srcInfos destInfos
  | .mapMemoryCopy => vc4c.mapMemoryCopy env recurse st mem srcInfos destInfos

/-- The table `MAPPERS[6][4]`: rows in the order of `MemoryAccessType`, columns in the order
READ, WRITE, COPY (from), FILL. -/
def MAPPERS : List (List MemoryMapper) :=
  [ [.lowerMemoryReadOnlyToRegister, .invalidMapping, .lowerMemoryReadOnlyToRegister,
      .invalidMapping],
    [.lowerMemoryReadWriteToRegister, .lowerMemoryReadWriteToRegister,
      .lowerMemoryCopyToRegister, .lowerMemoryReadWriteToRegister],
    [.lowerMemoryReadToVPM, .lowerMemoryWriteToVPM, .mapMemoryCopy, .lowerMemoryWriteToVPM],
    [.lowerMemoryReadToVPM, .lowerMemoryWriteToVPM, .mapMemoryCopy, .lowerMemoryWriteToVPM],
    [.loadMemoryViaTMU, .invalidMapping, .mapMemoryCopy, .invalidMapping],
    [.accessMemoryInRAMViaVPM, .accessMemoryInRAMViaVPM, .mapMemoryCopy,
      .accessMemoryInRAMViaVPM] ]

/-- The function `normalization::mapMemoryAccess`. The candidate sets are given as the lists of
their elements in the order of iteration. The mappers call the function again for the reads and
writes they create; `fuel` bounds the depth of these calls (a copy creates reads and writes,
which create no further memory instruction, so a fuel of two is never used up). Taking the first
element of an empty candidate set is undefined behaviour in the source, in the model it is a
failure of its own. -/
def mapMemoryAccess (env : Environment) : Nat → Recurse
  | 0, _, _, _, _ => .error .outOfFuel
  | fuel + 1, st, mem, srcInfos, destInfos =>
    let typeInfos :=
      if mem.op = .READ ∨ mem.op = .COPY then srcInfos else destInfos
    match typeInfos.head? with
    | none => .error (.compilationError .GENERAL "dereferenced the begin of an empty set")
    | some first =>
      let type := first.type
      if typeInfos.any (fun info => info.type ≠ type) then
        normalizerError
          "Can\x27t map conditional memory accesses of different memory access types together"
      else
        match (MAPPERS.get? type.toNat).bind (fun row => row.get? mem.op.toNat) with
        | some mapper =>
          mapper.call env (mapMemoryAccess env fuel) st mem srcInfos destInfos
        | none => .error (.compilationError .GENERAL "index out of the bounds of MAPPERS")

/-! ## The decision matrix of the specification -/

/-- The decision matrix as the specification words it: the mapper for an access type (row) and
a memory operation (column). -/
def decisionMatrix : MemoryAccessType → MemoryOperation → MemoryMapper
  | .QPU_REGISTER_READONLY, .READ => .lowerMemoryReadOnlyToRegister
  | .QPU_REGISTER_READONLY, .WRITE => .invalidMapping
  | .QPU_REGISTER_READONLY, .COPY => .lowerMemoryReadOnlyToRegister
  | .QPU_REGISTER_READONLY, .FILL => .invalidMapping
  | .QPU_REGISTER_READWRITE, .READ => .lowerMemoryReadWriteToRegister
  | .QPU_REGISTER_READWRITE, .WRITE => .lowerMemoryReadWriteToRegister
  | .QPU_REGISTER_READWRITE, .COPY => .lowerMemoryCopyToRegister
  | .QPU_REGISTER_READWRITE, .FILL => .lowerMemoryReadWriteToRegister
  | .VPM_PER_QPU, .READ => .lowerMemoryReadToVPM
  | .VPM_PER_QPU, .WRITE => .lowerMemoryWriteToVPM
  | .VPM_PER_QPU, .COPY => .mapMemoryCopy
  | .VPM_PER_QPU, .FILL => .lowerMemoryWriteToVPM
  | .VPM_SHARED_ACCESS, .READ => .lowerMemoryReadToVPM
  | .VPM_SHARED_ACCESS, .WRITE => .lowerMemoryWriteToVPM
  | .VPM_SHARED_ACCESS, .COPY => .mapMemoryCopy
  | .VPM_SHARED_ACCESS, .FILL => .lowerMemoryWriteToVPM
  | .RAM_LOAD_TMU, .READ => .loadMemoryViaTMU
  | .RAM_LOAD_TMU, .WRITE => .invalidMapping
  | .RAM_LOAD_TMU, .COPY => .mapMemoryCopy
  | .RAM_LOAD_TMU, .FILL => .invalidMapping
  | .RAM_READ_WRITE_VPM, .READ => .accessMemoryInRAMViaVPM
  | .RAM_READ_WRITE_VPM, .WRITE => .accessMemoryInRAMViaVPM
  | .RAM_READ_WRITE_VPM, .COPY => .mapMemoryCopy
  | .RAM_READ_WRITE_VPM, .FILL => .accessMemoryInRAMViaVPM

/-- The candidates that select the mapper: the sources for a read or copy, the destinations for
a write or fill. -/
def selectingInfos (mem : MemoryInstruction) (srcInfos destInfos : List MemoryInfo) :
    List MemoryInfo :=
  if mem.op = .READ ∨ mem.op = .COPY then srcInfos else destInfos

end vc4c
namespace vc4c.Example

/-! ## Concrete memory accesses used in examples -/

def pointerType : DataType := .pointer int32 .GLOBAL

/-- A kernel parameter of pointer type. -/
def parameter (id : Local) : LocalObject := ⟨id, .parameter, pointerType⟩

/-- A location without mapped register, converted type, VPM area or access ranges. -/
def location (id : Local) (type : MemoryAccessType) (tmuFlag : Bool) : MemoryInfo :=
  ⟨parameter id, type, none, none, none, none, tmuFlag⟩

/-- The read `%20 = load %1` of one entry. -/
def readInstruction : MemoryInstruction :=
  ⟨.READ, localValue 20, ⟨.loc 1, pointerType⟩, INT_ONE, false⟩

/-- The write `store %20 into %2` of one entry. -/
def writeInstruction : MemoryInstruction :=
  ⟨.WRITE, ⟨.loc 2, pointerType⟩, localValue 20, INT_ONE, false⟩

/-- The block consisting of the given memory instruction, with the walker at it. -/
def lowering (mem : MemoryInstruction) : Lowering :=
  ⟨[], [(0, .memory mem)], [], 100, 1⟩

/-- The helper functions: no constant values, rows of 16 words; the memory of a destroyed
instruction still holds its flag. -/
def environment : Environment :=
  ⟨fun _ => none, fun n => (DataType.TYPE_INT32.toVectorType 16, n), fun mem => mem.guardAccess⟩

/-- The helper functions of `environment`, with the memory of a destroyed instruction cleared. -/
def clearing : Environment := { environment with guardAfterReset := fun _ => false }

/-- The guarded copy of one entry from `%1` to `%2`. -/
def guardedCopy : MemoryInstruction :=
  ⟨.COPY, ⟨.loc 2, pointerType⟩, ⟨.loc 1, pointerType⟩, INT_ONE, true⟩

/-- Destination candidates of two different access types. -/
def mixedCandidates : List MemoryInfo :=
  [location 2 .RAM_READ_WRITE_VPM false, location 3 .VPM_SHARED_ACCESS false]

end vc4c.Example

namespace vc4c

/-! ## Notions used to state the properties of the memory-access lowering -/

/-- The TMU a location is assigned to, as `MemoryInfo::to_string` reports it
(`"read-only memory access via TMU" + std::string(tmuFlag ? "1" : "0")`). -/
def MemoryInfo.assignedTMU (info : MemoryInfo) : TMU :=
  if info.tmuFlag then .TMU1 else .TMU0

/-- The TMU selection as the specification words it: the TMU to which strictly more of the
candidates are assigned, TMU1 when both have equally many. -/
def majorityTMU (srcInfos : List MemoryInfo) : TMU :=
  if srcInfos.countP (fun info => info.assignedTMU = .TMU0)
      > srcInfos.countP (fun info => info.assignedTMU = .TMU1) then .TMU0
  else .TMU1

end vc4c

namespace vc4c

namespace Lowered

/-- Whether the entry is a memory instruction still to be lowered. -/
def isMemory : Lowered → Bool
  | .memory _ => true
  | _ => false

/-- Whether the entry is a mutex lock or release. -/
def isMutex : Lowered → Bool
  | .mutexLock _ => true
  | _ => false

/-- Whether the entry is the computation of an offset from an address. -/
def isOffset : Lowered → Bool
  | .addressToElementOffset _ _ _ _ => true
  | .addressToStackOffset _ _ _ _ => true
  | .addressToWorkItemSpecificOffset _ _ => true
  | _ => false

/-- Whether the entry is an access of the VPM, of RAM through DMA or of RAM through a TMU. -/
def isAccess : Lowered → Bool
  | .readVPM _ _ _ _ => true
  | .writeVPM _ _ _ _ => true
  | .readDMA _ _ _ => true
  | .writeDMA _ _ _ => true
  | .fillRAM _ _ _ _ => true
  | .fillRAMDynamic _ _ _ _ => true
  | .readRAM _ _ _ _ _ _ => true
  | .writeRAM _ _ _ _ _ _ => true
  | .copyRAM _ _ _ _ => true
  | .copyRAMDynamic _ _ _ _ => true
  | .readVectorFromTMU _ _ _ => true
  | _ => false

/-- Whether the access is issued guarded, the argument `useMutex` of the helper that inserts
it. -/
def useMutex : Lowered → Bool
  | .readVPM _ _ m _ => m
  | .writeVPM _ _ m _ => m
  | .readDMA _ _ m => m
  | .writeDMA _ _ m => m
  | .fillRAM _ _ _ m => m
  | .fillRAMDynamic _ _ _ m => m
  | .readRAM _ _ _ m _ _ => m
  | .writeRAM _ _ _ m _ _ => m
  | .copyRAM _ _ _ m => m
  | .copyRAMDynamic _ _ _ m => m
  | _ => false

/-- The value a read of the VPM, of RAM through DMA or through a TMU is loaded into. -/
def readDestination : Lowered → Option Value
  | .readVPM dest _ _ _ => some dest
  | .readDMA dest _ _ => some dest
  | .readVectorFromTMU dest _ _ => some dest
  | _ => none

/-- Whether the entry moves data between memory, the VPM and registers: an access, or the
extraction from, insertion into or replication across a register that memory is lowered to. -/
def isTransfer (inst : Lowered) : Bool :=
  inst.isAccess || match inst with
    | .vectorExtraction _ _ _ => true
    | .vectorInsertion _ _ _ => true
    | .replication _ _ => true
    | .moveOperation _ _ => true
    | _ => false

end Lowered

/-- The instructions a lowering has inserted before the walker: those of the resulting block
before the walker that come after the ones that were there (a mapper inserts before the walker
only). -/
def emitted (st r : Lowering) : List Lowered :=
  (r.before.drop st.before.length).map Prod.snd

/-- Whether a parameter carries a decoration. -/
def Lowering.carries (st : Lowering) (loc : LocalObject) (flag : ParameterDecorations) : Prop :=
  (loc.id, flag) ∈ st.decorations

/-- The parameters among the given locations. -/
def parametersOf (infos : List MemoryInfo) : List Local :=
  (infos.filter (fun info => info.loc.kind = LocalKind.parameter)).map (fun info => info.loc.id)

/-- Whether a memory operation reads memory (read and copy). -/
def MemoryOperation.readsMemory : MemoryOperation → Bool
  | .READ => true
  | .COPY => true
  | _ => false

/-- Whether a memory operation writes memory (write, copy and fill). -/
def MemoryOperation.writesMemory : MemoryOperation → Bool
  | .READ => false
  | _ => true

/-- The access types of locations in RAM. -/
def MemoryAccessType.inRAM : MemoryAccessType → Bool
  | .RAM_LOAD_TMU => true
  | .RAM_READ_WRITE_VPM => true
  | _ => false

/-- The access types of locations in the VPM. -/
def MemoryAccessType.inVPM : MemoryAccessType → Bool
  | .VPM_PER_QPU => true
  | .VPM_SHARED_ACCESS => true
  | _ => false

end vc4c

namespace vc4c.Example

/-- A VPM area. -/
def area : VPMArea := ⟨7⟩

/-- A location lowered into the given VPM area, without access ranges. -/
def vpmLocation (loc : LocalObject) (type : MemoryAccessType) : MemoryInfo :=
  ⟨loc, type, none, none, some area, none, false⟩

end vc4c.Example

namespace vc4c

/-- The decorations of `r` are those of `st` and, for the parameters among `ins`, INPUT, for the
parameters among `outs`, OUTPUT. -/
def Marks (st r : Lowering) (ins outs : List MemoryInfo) : Prop :=
  ∀ x, x ∈ r.decorations ↔ x ∈ st.decorations
    ∨ (∃ info ∈ ins, info.loc.kind = .parameter ∧ x = (info.loc.id, ParameterDecorations.INPUT))
    ∨ (∃ info ∈ outs, info.loc.kind = .parameter ∧ x = (info.loc.id, ParameterDecorations.OUTPUT))

/-- The block of `r` before the walker is that of `st` followed by new nodes holding the
instructions `em`. -/
def Inserts (st r : Lowering) (em : List Lowered) : Prop :=
  ∃ nodes, r.before = st.before ++ nodes ∧ nodes.map Prod.snd = em

/-- A step of a mapper that leaves the walker where it is: `r` is `st` with the instructions `em`
inserted before the walker and the parameters among `ins` and `outs` marked. -/
structure Step (st r : Lowering) (em : List Lowered) (ins outs : List MemoryInfo) : Prop where
  before : Inserts st r em
  after : r.after = st.after
  decorations : Marks st r ins outs

/-- The outcome of a mapper that erases the instruction at the walker: `r` is `st` with the
instructions `em` inserted before the walker, the instruction at the walker removed and the
parameters among `ins` and `outs` marked. -/
structure Lowers (st r : Lowering) (em : List Lowered) (ins outs : List MemoryInfo) : Prop where
  before : Inserts st r em
  after : r.after = st.after.tail
  decorations : Marks st r ins outs

end vc4c

namespace vc4c

/-- The instruction that realises a read of a location of the given access type with the given
source candidates: an extraction from the mapped register, a read of the VPM area, a load through
a TMU or a DMA read. -/
def IsReadOf (type : MemoryAccessType) (mem : MemoryInstruction) (srcInfos : List MemoryInfo)
    (x : Lowered) : Prop :=
  match type with
  | .QPU_REGISTER_READONLY => False
  | .QPU_REGISTER_READWRITE =>
    ∃ reg index, x = .vectorExtraction reg index mem.getDestination
      ∧ ∀ info ∈ srcInfos, info.mappedRegisterOrConstant = some reg
  | .VPM_PER_QPU =>
    ∃ area offset, x = .readVPM mem.getDestination (some area) mem.guardAccess (some offset)
      ∧ ∀ info ∈ srcInfos, info.area = some area
  | .VPM_SHARED_ACCESS =>
    ∃ area offset, x = .readVPM mem.getDestination (some area) mem.guardAccess (some offset)
      ∧ ∀ info ∈ srcInfos, info.area = some area
  | .RAM_LOAD_TMU => ∃ tmu, x = .readVectorFromTMU mem.getDestination mem.getSource tmu
  | .RAM_READ_WRITE_VPM => x = .readDMA mem.getDestination mem.getSource mem.guardAccess

/-- The instruction that realises a write to a location of the given access type with the given
destination candidates: an insertion into the mapped register, a write of the VPM area or a DMA
write. -/
def IsWriteOf (type : MemoryAccessType) (mem : MemoryInstruction) (destInfos : List MemoryInfo)
    (x : Lowered) : Prop :=
  match type with
  | .QPU_REGISTER_READONLY => False
  | .QPU_REGISTER_READWRITE =>
    ∃ reg index, x = .vectorInsertion reg index mem.getSource
      ∧ ∀ info ∈ destInfos, info.mappedRegisterOrConstant = some reg
  | .VPM_PER_QPU =>
    ∃ area offset, x = .writeVPM mem.getSource (some area) mem.guardAccess (some offset)
      ∧ ∀ info ∈ destInfos, info.area = some area
  | .VPM_SHARED_ACCESS =>
    ∃ area offset, x = .writeVPM mem.getSource (some area) mem.guardAccess (some offset)
      ∧ ∀ info ∈ destInfos, info.area = some area
  | .RAM_LOAD_TMU => False
  | .RAM_READ_WRITE_VPM => x = .writeDMA mem.getSource mem.getDestination mem.guardAccess

end vc4c

namespace vc4c

/-- The two conversions of a byte count at the start of `mapMemoryCopy`, for the source and then
for the destination: the number of entries and the row type the copy goes on with. -/
def convertedCount (mem : MemoryInstruction) (srcInfo destInfo : MemoryInfo) :
    Except Failure (Value × Option DataType) := do
  let first ← convertByteCount mem.getNumEntries none srcInfo mem.getSourceElementType
    "Byte-wise partial copy from VPM is yet implemented"
  convertByteCount first.1 first.2 destInfo mem.getDestinationElementType
    "Byte-wise partial copy to VPM is yet implemented"

/-- The emitted sequence is that of a read of the source followed by a write to the destination
through a temporary, behind the lock of the mutex if the copy is guarded and before the release
of the mutex if `released`, the value read as the guard of the destroyed instruction. -/
def ReadThenWrite (mem : MemoryInstruction) (released : Bool)
    (srcInfos destInfos : List MemoryInfo)
    (srcType destType : MemoryAccessType) (count : Value) (em : List Lowered) : Prop :=
  ∃ tmp pre1 x1 pre2 x2, (∀ p ∈ pre1, p.isOffset = true) ∧ (∀ p ∈ pre2, p.isOffset = true)
    ∧ IsReadOf srcType ⟨.READ, tmp, mem.getSource, count, false⟩ srcInfos x1
    ∧ IsWriteOf destType ⟨.WRITE, mem.getDestination, tmp, count, false⟩ destInfos x2
    ∧ em = (if mem.guardAccess then [Lowered.mutexLock true] else [])
        ++ (pre1 ++ [x1] ++ (pre2 ++ [x2]))
        ++ (if released then [Lowered.mutexLock false] else [])

end vc4c

namespace vc4c

/-- The sub-matrix of `mapMemoryCopy`: what a copy from the single source candidate `si` to the
single destination candidate `di` is lowered to, by the kinds of the two locations. `count` and
`rowType` are the number of entries and the row type after the conversion of a byte count.
* VPM to VPM: a read of the source area and a write of the destination area (of one entry);
* VPM to RAM: one DMA write out of the source area;
* RAM to VPM: one DMA read into the destination area;
* RAM to RAM: one DMA copy, dynamic when the count is no literal, static otherwise;
* to a read-write register with a converted type: when the copy covers the whole register, a
  read into the mapped register, otherwise a read into a temporary and a write of the temporary
  to the register-lowered destination. -/
def CopyOutcome (mem : MemoryInstruction) (released : Bool) (si di : MemoryInfo)
    (count : Value) (rowType : Option DataType) (em : List Lowered) : Prop :=
  (si.type.inVPM = true ∧ di.type.inVPM = true ∧ count = INT_ONE
      ∧ ReadThenWrite mem released [si] [di] si.type di.type count em)
  ∨ (si.type.inVPM = true ∧ di.type.inRAM = true ∧ ∃ inst addr offset, inst.isOffset = true
      ∧ em = [inst, .writeRAM addr (rowType.getD mem.getSourceElementType) si.area
          mem.guardAccess offset count])
  ∨ (si.type.inRAM = true ∧ di.type.inVPM = true ∧ ∃ inst addr offset, inst.isOffset = true
      ∧ em = [inst, .readRAM addr (rowType.getD mem.getDestinationElementType) di.area
          mem.guardAccess offset count])
  ∨ (si.type.inRAM = true ∧ di.type.inRAM = true ∧ count.isLiteralValue = false
      ∧ em = [.copyRAMDynamic mem.getDestination mem.getSource count mem.guardAccess])
  ∨ (si.type.inRAM = true ∧ di.type.inRAM = true ∧ count.isLiteralValue = true
      ∧ ∃ numBytes, em = [.copyRAM mem.getDestination mem.getSource numBytes mem.guardAccess])
  ∨ (di.type = .QPU_REGISTER_READWRITE ∧ ∃ converted mapped addr pre x,
      di.convertedRegisterType = some converted ∧ di.mappedRegisterOrConstant = some mapped
      ∧ copiesWholeRegister count mem.getSourceElementType converted = true
      ∧ (∀ p ∈ pre, p.isOffset = true)
      ∧ IsReadOf si.type ⟨.READ, mapped, addr, INT_ONE, mem.guardAccess⟩ [si] x
      ∧ em = pre ++ [x])
  ∨ (di.type = .QPU_REGISTER_READWRITE ∧ ∃ converted,
      di.convertedRegisterType = some converted
      ∧ copiesWholeRegister count mem.getSourceElementType converted = false
      ∧ ReadThenWrite mem released [si] [di] si.type di.type INT_ONE em)

end vc4c

namespace vc4c

/-- What a successful call of `mapMemoryAccess` leaves behind: instructions inserted before the
walker, none of them a memory instruction; the parameters among the sources marked as input or
not at all, those among the destinations marked as output or not at all; the instruction at the
walker erased, or, for a read of constant memory, replaced by a move. -/
structure Outcome (st r : Lowering) (mem : MemoryInstruction) (srcInfos destInfos : List MemoryInfo)
    (em : List Lowered) (ins outs : List MemoryInfo) : Prop where
  before : Inserts st r em
  plain : ∀ x ∈ em, x.isMemory = false
  decorations : Marks st r ins outs
  ins : ins = [] ∨ (ins = srcInfos ∧ mem.op.readsMemory = true)
  outs : outs = [] ∨ (outs = destInfos ∧ mem.op.writesMemory = true)
  after : r.after = st.after.tail
    ∨ (mem.op = .READ
      ∧ ∃ v, r.after = (st.reset (.moveOperation mem.getDestination v)).after)

end vc4c

namespace vc4c.Example

/-- The copy of one entry from `%1` to `%2`. -/
def copyInstruction : MemoryInstruction :=
  ⟨.COPY, ⟨.loc 2, pointerType⟩, ⟨.loc 1, pointerType⟩, INT_ONE, false⟩

end vc4c.Example

namespace vc4c.Example

/-- The fill of four entries at `%2` with the given value, guarded. -/
def fillInstruction (src : Value) : MemoryInstruction :=
  ⟨.FILL, ⟨.loc 2, pointerType⟩, src, ⟨.literal 4, int32⟩, true⟩

/-- A local of byte type. -/
def byteValue (id : Local) : Value := ⟨.loc id, DataType.TYPE_INT8⟩

/-- A local that is neither a parameter nor a stack allocation. -/
def plainLocal (id : Local) : LocalObject := ⟨id, .plain, pointerType⟩

end vc4c.Example

namespace vc4c

/-- The emitted sequence brackets its accesses: if the guard is set it holds exactly one lock of
the mutex, placed before all accesses, and exactly one release, placed after all of them, and
otherwise no mutex instruction; the accesses are issued unguarded. -/
def Bracketed (guard : Bool) (em : List Lowered) : Prop :=
  ∃ pre mid, em = pre ++ (if guard then [Lowered.mutexLock true] else []) ++ mid
      ++ (if guard then [Lowered.mutexLock false] else [])
    ∧ (∀ x ∈ pre, x.isAccess = false ∧ x.isMutex = false)
    ∧ (∀ x ∈ mid, x.isMutex = false ∧ x.useMutex = false)

/-- The emitted sequence holds the lock of the mutex, placed before all accesses, if `locked`,
and the release, placed after all of them, if `released`, and no other mutex instruction; the
accesses are issued unguarded. -/
def BracketedBy (locked released : Bool) (em : List Lowered) : Prop :=
  ∃ pre mid, em = pre ++ (if locked then [Lowered.mutexLock true] else []) ++ mid
      ++ (if released then [Lowered.mutexLock false] else [])
    ∧ (∀ x ∈ pre, x.isAccess = false ∧ x.isMutex = false)
    ∧ (∀ x ∈ mid, x.isMutex = false ∧ x.useMutex = false)

end vc4c

namespace vc4c.Example

/-- The byte-wise copy of `n` bytes from `%1` to `%2`, as emitted for a `memcpy`. -/
def byteCopy (n : Nat) : MemoryInstruction :=
  ⟨.COPY, ⟨.loc 2, .pointer DataType.TYPE_INT8 .GLOBAL⟩,
    ⟨.loc 1, .pointer DataType.TYPE_INT8 .GLOBAL⟩, ⟨.literal n, int32⟩, false⟩

/-- A location of an array of four 32-bit words lowered into the VPM area. -/
def arrayLocation (id : Local) (type : MemoryAccessType) : MemoryInfo :=
  ⟨⟨id, .plain, .pointer (.array int32 4) .PRIVATE⟩, type, none, none, some area, none, false⟩

end vc4c.Example

namespace vc4c.Example

/-- The copy of `n` 32-bit entries from `%1` to `%2`. -/
def copyOf (n : Nat) : MemoryInstruction :=
  ⟨.COPY, ⟨.loc 2, pointerType⟩, ⟨.loc 1, pointerType⟩, ⟨.literal n, int32⟩, false⟩

/-- The register of sixteen 32-bit words a location is lowered into. -/
def register : Value := ⟨.loc 30, .simple 32 16⟩

/-- A location lowered into the register. -/
def registerLocation (id : Local) : MemoryInfo :=
  ⟨plainLocal id, .QPU_REGISTER_READWRITE, some register, some (.simple 32 16), none, none, false⟩

end vc4c.Example

namespace vc4c.Example

/-- A local holding a vector of sixteen 32-bit words. -/
def vectorValue (id : Local) : Value := ⟨.loc id, .simple 32 16⟩

/-- The fill of one entry of sixteen 32-bit words at `%2` with the given value. -/
def vectorFill (src : Value) : MemoryInstruction :=
  ⟨.FILL, ⟨.loc 2, .pointer (.simple 32 16) .PRIVATE⟩, src, INT_ONE, true⟩

end vc4c.Example

namespace vc4c

/-- The result was computed within the recursion bound of the model: it is a lowered block or a
`CompilationError` of the code. -/
inductive Fueled {α : Type} : Except Failure α → Prop
  | ok (value : α) : Fueled (.ok value)
  | error (step : CompilationStep) (message : String) :
      Fueled (.error (.compilationError step message))

end vc4c

namespace vc4c

/-! ## Control-flow passes (ControlFlow.cpp): data model

The passes of `src/optimization/ControlFlow.cpp` read more of an instruction than the pattern
matcher does (decorations, the kind of a `Nop`, branch targets), so they get an instruction type
of their own. A basic block is its label and the instruction slots after the label; a slot whose
instruction has been released or erased is `none`. -/

/-- Modelled from the spec: the kinds of `Nop` (IntermediateInstruction.h is not part of the
sources); the passes name `BRANCH_DELAY` and `THREAD_END`. -/
inductive DelayType
  | WAIT_VPM | WAIT_SFU | WAIT_TMU | WAIT_REGISTER | WAIT_UNIFORM | BRANCH_DELAY | THREAD_END
  deriving DecidableEq

/-- Modelled from the spec: the bitset `InstructionDecorations`, one flag for each decoration the
specification names (the enumeration is not part of the sources). -/
structure InstructionDecorations where
  phiNode : Bool
  autoVectorized : Bool
  elementInsertion : Bool
  unsignedResult : Bool
  workGroupUniformValue : Bool
  branchOnAllElements : Bool
  deriving DecidableEq

namespace InstructionDecorations

def NONE : InstructionDecorations := ⟨false, false, false, false, false, false⟩

def PHI_NODE : InstructionDecorations := { NONE with phiNode := true }

def AUTO_VECTORIZED : InstructionDecorations := { NONE with autoVectorized := true }

def ELEMENT_INSERTION : InstructionDecorations := { NONE with elementInsertion := true }

def UNSIGNED_RESULT : InstructionDecorations := { NONE with unsignedResult := true }

def WORK_GROUP_UNIFORM_VALUE : InstructionDecorations := { NONE with workGroupUniformValue := true }

def BRANCH_ON_ALL_ELEMENTS : InstructionDecorations := { NONE with branchOnAllElements := true }

/-- The union of two bitsets, `add_flag`. -/
def add_flag (a b : InstructionDecorations) : InstructionDecorations :=
  ⟨a.phiNode || b.phiNode, a.autoVectorized || b.autoVectorized,
    a.elementInsertion || b.elementInsertion, a.unsignedResult || b.unsignedResult,
    a.workGroupUniformValue || b.workGroupUniformValue,
    a.branchOnAllElements || b.branchOnAllElements⟩

/-- The bits of `a` that are not in `b`, `remove_flag`. -/
def remove_flag (a b : InstructionDecorations) : InstructionDecorations :=
  ⟨a.phiNode && !b.phiNode, a.autoVectorized && !b.autoVectorized,
    a.elementInsertion && !b.elementInsertion, a.unsignedResult && !b.unsignedResult,
    a.workGroupUniformValue && !b.workGroupUniformValue,
    a.branchOnAllElements && !b.branchOnAllElements⟩

/-- The intersection of two bitsets. -/
def intersect (a b : InstructionDecorations) : InstructionDecorations :=
  ⟨a.phiNode && b.phiNode, a.autoVectorized && b.autoVectorized,
    a.elementInsertion && b.elementInsertion, a.unsignedResult && b.unsignedResult,
    a.workGroupUniformValue && b.workGroupUniformValue,
    a.branchOnAllElements && b.branchOnAllElements⟩

/-- Whether all bits of `flag` are set in `a`, `has_flag`. -/
def has_flag (a flag : InstructionDecorations) : Bool := decide (a.intersect flag = flag)

end InstructionDecorations

/-- Modelled from the spec: the ALU opcodes the passes name (OpCodes.h is not part of the
sources), by their number in the instruction encoding: the numbers below 32 are the opcodes of
the add ALU, 32 and above the opcodes of the mul ALU (32 + the opcode). -/
def OP_ADD : OpCode := .alu 12

def OP_SUB : OpCode := .alu 13

def OP_NOT : OpCode := .alu 23

def OP_OR : OpCode := .alu 21

def OP_XOR : OpCode := .alu 22

def OP_MUL24 : OpCode := .alu 34

/-- The field `opAdd` of an opcode: the opcode on the add ALU, 0 (no operation) for an opcode of
the mul ALU or a fake opcode. -/
def OpCode.opAdd : OpCode → Nat
  | .alu code => if code < 32 then code else 0
  | _ => 0

/-- The dynamic type of an instruction, as far as the control-flow passes test it;
`signExtension` and `zeroExtension` stand for the instruction sequences inserted by
`insertSignExtension` and `insertZeroExtension`, which are not part of the sources. -/
inductive InstructionType
  | operation (op : OpCode)
  | moveOperation
  | vectorRotation
  | loadImmediate
  | branch
  | branchLabel
  | nop (type : DelayType)
  | memoryBarrier
  | semaphoreAdjustment
  | signExtension
  | zeroExtension
  | other
  deriving DecidableEq

/-- An instruction of a method as the control-flow passes read it. For a `Branch` the arguments
are the target label and the condition value, for a `BranchLabel` the output and the argument
are the label (Branching.cpp). -/
structure Instruction where
  type : InstructionType
  output : Option Value
  arguments : List Value
  conditional : ConditionCode
  setFlags : SetFlag
  signal : Signaling
  decoration : InstructionDecorations
  deriving DecidableEq

namespace Instruction

def getOutput (i : Instruction) : Option Value := i.output

def getArguments (i : Instruction) : List Value := i.arguments

def getArgument (i : Instruction) (index : Nat) : Option Value := i.arguments.get? index

/-- The first argument, `getFirstArg`. -/
def getFirstArg (i : Instruction) : Option Value := i.arguments.head?

/-- Whether the instruction is a `Branch`, `get<Branch>()`. -/
def isBranch (i : Instruction) : Bool := decide (i.type = .branch)

/-- Whether the instruction is an `Operation`, `get<Operation>()`. -/
def isOperation (i : Instruction) : Bool :=
  match i.type with
  | .operation _ => true
  | _ => false

/-- The opcode of an `Operation`. -/
def op (i : Instruction) : Option OpCode :=
  match i.type with
  | .operation code => some code
  | _ => none

/-- Whether the instruction is a `MoveOperation`, `dynamic_cast<MoveOperation*>`; a
`VectorRotation` is a move too (the matcher tests for the rotation before the move). -/
def isMoveOperation (i : Instruction) : Bool :=
  decide (i.type = .moveOperation ∨ i.type = .vectorRotation)

/-- The source of a move, its first argument. -/
def getSource (i : Instruction) : Option Value := i.arguments.head?

/-- Modelled from the spec: `hasConditionalExecution`, the condition code is not `always`. -/
def hasConditionalExecution (i : Instruction) : Bool :=
  decide (i.conditional ≠ ConditionCode.COND_ALWAYS)

def hasDecoration (i : Instruction) (flag : InstructionDecorations) : Bool :=
  i.decoration.has_flag flag

def addDecorations (i : Instruction) (flag : InstructionDecorations) : Instruction :=
  { i with decoration := i.decoration.add_flag flag }

/-- The target of a `Branch`: the local of its first argument. -/
def getTarget (i : Instruction) : Option Local := (i.arguments.get? 0).bind Value.checkLocal

/-- The condition of a `Branch`: its second argument. -/
def getCondition (i : Instruction) : Option Value := i.arguments.get? 1

/-- Whether the instruction writes the given local. -/
def writesLocal (i : Instruction) (l : Local) : Bool :=
  decide ((i.output.bind Value.checkLocal) = some l)

/-- Replace the argument at the given index, `setArgument`. -/
def setArgument (i : Instruction) (index : Nat) (v : Value) : Instruction :=
  { i with arguments := i.arguments.set index v }

end Instruction

/-- Modelled from the spec: the hardware registers the passes name (Register.h is not part of the
sources), by register file (1 for A, 2 for B, 3 for both) and number. -/
def REG_UNIFORM : Register := ⟨3, 32⟩

def REG_ELEMENT_NUMBER : Register := ⟨1, 38⟩

def REG_QPU_NUMBER : Register := ⟨2, 38⟩

def REG_HOST_INTERRUPT : Register := ⟨3, 38⟩

def REG_NOP : Register := ⟨3, 39⟩

def REG_TMU_NOSWAP : Register := ⟨3, 36⟩

def REG_VPM_DMA_LOAD_ADDR : Register := ⟨1, 50⟩

def REG_VPM_DMA_STORE_ADDR : Register := ⟨2, 50⟩

def REG_TMU0_ADDRESS : Register := ⟨3, 56⟩

def REG_TMU1_ADDRESS : Register := ⟨3, 60⟩

/-- Whether the value is the given register, `Value::hasRegister`. -/
def Value.hasRegister (v : Value) (reg : Register) : Bool :=
  match v.data with
  | .register r => decide (r = reg)
  | _ => false

/-- Whether the value is undefined, `Value::isUndefined`. -/
def Value.isUndefined (v : Value) : Bool :=
  match v.data with
  | .undefined => true
  | _ => false

/-- Whether the value is a literal or small immediate standing for the given literal,
`Value::hasLiteral`. -/
def Value.hasLiteral (v : Value) (lit : Literal) : Bool := decide (v.getLiteralValue = some lit)

/-- The type `bool`. -/
def DataType.TYPE_BOOL : DataType := .simple 1 1

/-- The constant `BOOL_TRUE`. -/
def BOOL_TRUE : Value := ⟨.literal 1, DataType.TYPE_BOOL⟩

/-- The constant `INT_ZERO`. -/
def INT_ZERO : Value := ⟨.literal 0, DataType.TYPE_INT8⟩

/-- The literal of a literal value, `Value::literal()`; 0 for any other value (the passes call
it for the constants only). -/
def Value.literal (v : Value) : Literal :=
  match v.data with
  | .literal l => l
  | _ => 0

def NOP_REGISTER : Value := ⟨.register REG_NOP, .simple 0 1⟩

def ELEMENT_NUMBER_REGISTER : Value := ⟨.register REG_ELEMENT_NUMBER, DataType.TYPE_INT8⟩

def UNIFORM_REGISTER : Value := ⟨.register REG_UNIFORM, DataType.TYPE_INT32⟩

/-- The 32-bit word of a literal read as a signed integer, `Literal::signedInt`. -/
def signedInt (lit : Literal) : Int :=
  if lit % 2 ^ 32 < 2 ^ 31 then (lit % 2 ^ 32 : Nat) else (lit % 2 ^ 32 : Nat) - 2 ^ 32

/-- The literal holding a signed 32-bit integer, `Literal(int32_t)`. -/
def literalOfInt (x : Int) : Literal := (x % 2 ^ 32).toNat

/-- A signed integer brought into the range of `int32_t` (the result of an overflow is undefined
in the source, the model wraps around). -/
def toInt32 (x : Int) : Int := (x + 2 ^ 31) % 2 ^ 32 - 2 ^ 31

/-- The smallest `int`, `std::numeric_limits<int>::min()`. -/
def INT_MIN : Int := -2 ^ 31

/-! ## Loop vectorization (ControlFlow.cpp): the decisions -/

/-- The kind of step of an iteration variable. -/
inductive StepKind
  | UNKNOWN | ADD_CONSTANT | SUB_CONSTANT | MUL_CONSTANT
  deriving DecidableEq

/-- The structure `LoopControl`. The instructions it points to are held by value; the walkers of
the step, the comparison and the repetition jump are the instructions they point to. -/
structure LoopControl where
  initialization : Option Instruction
  terminatingValue : Value
  iterationVariable : Option LocalObject
  iterationStep : Option Instruction
  stepKind : StepKind
  comparisonInstruction : Option Instruction
  repetitionJump : Option Instruction
  comparison : String
  vectorizationFactor : Nat
  deriving DecidableEq

namespace LoopControl

def determineStepKind (loopControl : LoopControl) (code : OpCode) : LoopControl :=
  if code = OP_ADD then { loopControl with stepKind := .ADD_CONSTANT }
  else if code = OP_SUB then { loopControl with stepKind := .SUB_CONSTANT }
  else if code = OP_MUL24 then { loopControl with stepKind := .MUL_CONSTANT }
  else loopControl

def getStep (loopControl : LoopControl) : Option Literal :=
  match loopControl.iterationStep with
  | none => none
  | some op =>
    if !op.isOperation then none
    else if op.getArguments.length ≠ 2 then none
    else
      match op.getArgument 0 with
      | some first =>
        if first.isLiteralValue then first.getLiteralValue
        else (op.getArgument 1).bind Value.getLiteralValue
      | none => (op.getArgument 1).bind Value.getLiteralValue

/-- The comparison for equality, `intermediate::COMP_EQ` (modelled from the spec, the constant is
not part of the sources). -/
def COMP_EQ : String := "eq"

/-- The truncating division of two `int32_t`; a division by zero (undefined in the source) is a
failure of its own. -/
def divideInt (a b : Int) : Except Failure Int :=
  if b = 0 then .error (.compilationError .GENERAL "division by zero") else .ok (a.tdiv b)

/-- The number of iterations, in the arithmetic of `int32_t`; `logarithms` stands for the
floating-point expression `static_cast<int32_t>(std::log(initial * step) / std::log(limit))`. -/
def countIterations (loopControl : LoopControl) (logarithms : Int → Int → Int)
    (initial limit step : Int) (comparisonType : String) : Except Failure Int := do
  let limit ←
    if comparisonType = COMP_EQ then pure (toInt32 (limit + 1))
    else if comparisonType = "lt" then pure (toInt32 (limit + 0))
    else .error (.compilationError .OPTIMIZER "Unhandled comparison type")
  match loopControl.stepKind with
  | .ADD_CONSTANT =>
    let quotient ← divideInt (toInt32 (limit - initial)) step
    pure (toInt32 quotient)
  | .SUB_CONSTANT =>
    let quotient ← divideInt (toInt32 (initial - limit)) step
    pure (toInt32 quotient)
  | .MUL_CONSTANT => pure (logarithms (toInt32 (initial * step)) limit)
  | .UNKNOWN => .error (.compilationError .OPTIMIZER "Invalid step type!")

end LoopControl

/-- The largest vector width of an output among the instructions the walker passes from the
begin of the loop header to the end of the latch block (`std::max` over `unsigned char`, starting
at 1). The source reads `it->getOutput()` without testing the slot: an empty slot (undefined in
the source) is a failure of its own. -/
def maxTypeWidth : List (Option Instruction) → Nat → Except Failure Nat
  | [], width => .ok width
  | none :: _, _ => .error (.compilationError .GENERAL "dereferenced an empty instruction slot")
  | some inst :: rest, width =>
    match inst.getOutput with
    | some out => maxTypeWidth rest (max width out.type.getVectorWidth)
    | none => maxTypeWidth rest width

/-- The loop `while(factor > 0) { if(iterations % factor == 0) break; --factor; }` of
`determineVectorizationFactor`. -/
def findFactor (iterations : Int) : Nat → Nat
  | 0 => 0
  | factor + 1 =>
    if iterations.tmod ((factor + 1 : Nat) : Int) = 0 then factor + 1
    else findFactor iterations factor

/-- The function `determineVectorizationFactor`. `walked` are the instruction slots the walker
passes from the begin of the loop header to the end of the latch block; `precalculate` stands
for `IntermediateInstruction::precalculate(4).first`, which is not part of the sources. -/
def determineVectorizationFactor (precalculate : Instruction → Option Value)
    (logarithms : Int → Int → Int) (walked : List (Option Instruction))
    (loopControl : LoopControl) : Except Failure (Option Nat) := do
  let maxTypeWidth ← maxTypeWidth walked 1
  let initialization ← deref loopControl.initialization
  let precalculated ← deref (precalculate initialization)
  let initial ← deref precalculated.getLiteralValue
  let «end» ← deref loopControl.terminatingValue.getLiteralValue
  let step ← deref loopControl.getStep
  let iterations ← loopControl.countIterations logarithms (signedInt initial) (signedInt «end»)
    (signedInt step) loopControl.comparison
  pure (some (findFactor iterations (16 / maxTypeWidth)))

end vc4c

namespace vc4c

/-! ### Costs and benefits -/

/-- Insertion into a `FastSet`, which keeps one copy of an element. The list holds the elements
in the order of their insertion. -/
def emplaceInSet {α : Type} [DecidableEq α] (set : List α) (x : α) : List α :=
  if x ∈ set then set else set ++ [x]

/-- The order of two pointers: the null pointer is the smallest address, locals are ordered by
their identity. -/
def pointerLess : Option Local → Option Local → Bool
  | none, none => false
  | none, some _ => true
  | some _, none => false
  | some a, some b => decide (a < b)

/-- The algorithm `std::set_intersection` of the standard library over two ranges, given as the
lists of the elements in the order of the iteration: the smaller of the two front elements is
skipped, equivalent front elements are written to the output and both skipped. The fuel is the
number of steps, at most the number of elements of both ranges. -/
def setIntersectionSteps : Nat → List (Option Local) → List (Option Local) → List (Option Local)
  | 0, _, _ => []
  | _ + 1, [], _ => []
  | _ + 1, _, [] => []
  | fuel + 1, a :: first, b :: second =>
    if pointerLess a b then setIntersectionSteps fuel first (b :: second)
    else if pointerLess b a then setIntersectionSteps fuel (a :: first) second
    else a :: setIntersectionSteps fuel first second

/-- The call `std::set_intersection(first.begin(), first.end(), second.begin(), second.end(),
inserter)`. -/
def set_intersection (first second : List (Option Local)) : List (Option Local) :=
  setIntersectionSteps (first.length + second.length) first second

/-- The locals collected from the arguments of an instruction writing an address: every local
and the local it refers to (`loc->reference.first`, which can be a null pointer). -/
def collectAddresses (reference : Local → Option Local) (arguments : List Value)
    (set : List (Option Local)) : List (Option Local) :=
  arguments.foldl
    (fun acc arg =>
      match arg.checkLocal with
      | some loc => emplaceInSet (emplaceInSet acc (some loc)) (reference loc)
      | none => acc)
    set

/-- Whether the value is one of the registers an address to read from is written to. -/
def isReadAddressRegister (out : Value) : Bool :=
  out.hasRegister REG_VPM_DMA_LOAD_ADDR || out.hasRegister REG_TMU0_ADDRESS
    || out.hasRegister REG_TMU1_ADDRESS

/-- The walk of `calculateCostsVsBenefits` over the instruction slots from the begin of the loop
header to the end of the latch block: the sets `readAddresses` and `writtenAddresses`, or `none`
when the walk ends in `return std::numeric_limits<int>::min()`. -/
def collectLoopAddresses (reference : Local → Option Local) :
    List (Option Instruction) → List (Option Local) × List (Option Local)
      → Option (List (Option Local) × List (Option Local))
  | [], sets => some sets
  | none :: rest, sets => collectLoopAddresses reference rest sets
  | some inst :: rest, (readAddresses, writtenAddresses) =>
    if inst.getOutput.any isReadAddressRegister then
      collectLoopAddresses reference rest
        (collectAddresses reference inst.getArguments readAddresses, writtenAddresses)
    else if inst.getOutput.any (fun out => out.hasRegister REG_VPM_DMA_STORE_ADDR) then
      collectLoopAddresses reference rest
        (readAddresses, collectAddresses reference inst.getArguments writtenAddresses)
    else if inst.type = .vectorRotation then none
    else if inst.type = .memoryBarrier then none
    else if inst.type = .semaphoreAdjustment then none
    else collectLoopAddresses reference rest (readAddresses, writtenAddresses)

/-- The function `calculateCostsVsBenefits`. `iteration` is the order in which a `FastSet` (a
hash set: Graph.h gives a `std::hash` for the elements of a `FastSet` and calls `reserve`) hands
out its elements, `reference` the local a local refers to, `walked` the instruction slots from
the begin of the loop header to the end of the latch block, `blockSizes` the sizes of the blocks
of the loop. The arithmetic of `int` is taken without overflow. -/
def calculateCostsVsBenefits (iteration : List (Option Local) → List (Option Local))
    (reference : Local → Option Local) (walked : List (Option Instruction))
    (blockSizes : List Nat) (loopControl : LoopControl) : Except Failure Int :=
  match collectLoopAddresses reference walked ([], []) with
  | none => .ok INT_MIN
  | some (readAddresses, writtenAddresses) => do
    let step ← deref loopControl.iterationStep
    let out ← deref step.getOutput
    let costs : Int :=
      if out.type.getVectorWidth * loopControl.vectorizationFactor > 15 then 1 else 0
    let readAndWrittenAddresses :=
      (set_intersection (iteration readAddresses) (iteration writtenAddresses)).filter
        (fun loc => loc.isSome)
    if !readAndWrittenAddresses.isEmpty then pure INT_MIN
    else
      let numInstructions : Int := (blockSizes.map (fun size => (size : Int))).sum
      let benefits := numInstructions * (loopControl.vectorizationFactor : Int)
      pure (benefits - costs)

/-! ### The decision of `vectorizeLoops` -/

/-- What `vectorizeLoops` needs of a loop: the instruction slots from the begin of its header to
the end of its latch block, the sizes of its blocks and the result of `extractLoopControl`. -/
structure LoopView where
  walked : List (Option Instruction)
  blockSizes : List Nat
  loopControl : LoopControl

/-- The helpers of the vectorizer that are not part of the sources or depend on the hash of
pointers. -/
structure VectorizerEnvironment where
  precalculate : Instruction → Option Value
  logarithms : Int → Int → Int
  iteration : List (Option Local) → List (Option Local)
  reference : Local → Option Local

/-- The body of the loop of `vectorizeLoops` up to step 5: `none` for `continue` (the loop is
left as it is), otherwise the loop control with the vectorization factor that `vectorize` is
called with. -/
def selectForVectorization (env : VectorizerEnvironment) (loop : LoopView) :
    Except Failure (Option LoopControl) :=
  let loopControl := loop.loopControl
  if loopControl.iterationVariable.isNone then pure none
  else if loopControl.initialization.isNone ∨ loopControl.terminatingValue.isUndefined
      ∨ !loopControl.terminatingValue.isLiteralValue ∨ loopControl.iterationStep.isNone
      ∨ loopControl.repetitionJump.isNone then pure none
  else do
    let vectorizationFactor ← determineVectorizationFactor env.precalculate env.logarithms
      loop.walked loopControl
    match vectorizationFactor with
    | none => pure none
    | some factor =>
      if factor = 1 then pure none
      else
        let loopControl := { loopControl with vectorizationFactor := factor }
        let rating ← calculateCostsVsBenefits env.iteration env.reference loop.walked
          loop.blockSizes loopControl
        if rating < 0 then pure none
        else pure (some loopControl)

end vc4c

namespace vc4c.Example

/-! ## Concrete loops used in examples -/

/-- An instruction of the given type without condition, flags, signal or decoration. -/
def instruction (type : InstructionType) (output : Option Value) (arguments : List Value) :
    Instruction :=
  ⟨type, output, arguments, .COND_ALWAYS, .DONT_SET, .SIGNAL_NONE, InstructionDecorations.NONE⟩

/-- The instruction `out = src`. -/
def assignment (out : Local) (src : Value) : Instruction :=
  instruction .moveOperation (some (localValue out)) [src]

/-- The instruction `out = a + b`. -/
def addition (out : Local) (a b : Value) : Instruction :=
  instruction (.operation OP_ADD) (some (localValue out)) [a, b]

/-- The branch `br target` under the given condition code on the given condition. -/
def branch (target : Local) (code : ConditionCode) (condition : Value) : Instruction :=
  ⟨.branch, none, [⟨.loc target, .simple 0 1⟩, condition], code, .DONT_SET, .SIGNAL_NONE,
    InstructionDecorations.NONE⟩

/-- The helpers of the vectorizer: a move is precalculated to its source, sets hand out their
elements in the order of insertion, no local refers to another one. -/
def vectorizer : VectorizerEnvironment :=
  ⟨fun inst => inst.getSource, fun _ _ => 0, id, fun _ => none⟩

/-- The loop control of `for(i = 0; i < limit; ++i)`: `%1 = 0` before the loop and
`%2 = %1 + 1` within. -/
def countingLoop (limit : Nat) : LoopControl :=
  ⟨some (assignment 1 (literalValue 0)), literalValue limit, some ⟨1, .plain, int32⟩,
    some (addition 2 (localValue 1) (literalValue 1)), .ADD_CONSTANT, none,
    some (branch 10 .COND_ZERO_CLEAR (localValue 3)), "lt", 0⟩

/-- The loop around the given body, counting up to the given limit. -/
def loopOf (body : List (Option Instruction)) (limit : Nat) : LoopView :=
  ⟨body ++ [some (addition 2 (localValue 1) (literalValue 1)),
      some (branch 10 .COND_ZERO_CLEAR (localValue 3))],
    [body.length + 3], countingLoop limit⟩

end vc4c.Example

namespace vc4c.Example

/-- The rotation `out = rotate %5 by 1`. -/
def rotation (out : Value) : Instruction :=
  instruction .vectorRotation (some out) [localValue 5, literalValue 1]

/-- The address register of the first TMU, as a value. -/
def tmuAddress : Value := ⟨.register REG_TMU0_ADDRESS, int32⟩

/-- The address register for DMA stores, as a value. -/
def storeAddress : Value := ⟨.register REG_VPM_DMA_STORE_ADDR, int32⟩

end vc4c.Example

namespace vc4c.Example

/-- The write `register = src` of a register. -/
def registerWrite (register : Value) (src : Value) : Instruction :=
  instruction .moveOperation (some register) [src]

/-- A loop loading through the TMU from the addresses `%8` and `%7` and storing by DMA to the
address `%7`. -/
def aliasingLoop : LoopView :=
  loopOf [some (registerWrite tmuAddress (localValue 8)),
    some (registerWrite tmuAddress (localValue 7)),
    some (registerWrite storeAddress (localValue 7))] 16

/-- The iteration over a set in the order of the addresses. -/
def sortedIteration (set : List (Option Local)) : List (Option Local) :=
  set.insertionSort (fun a b => pointerLess b a = false)

end vc4c.Example

namespace vc4c

/-! ### The initial value and the step of a vectorized loop -/

/-- Replace the source of a move, `MoveOperation::setSource`. -/
def Instruction.setSource (i : Instruction) (v : Value) : Instruction := i.setArgument 0 v

/-- Modelled from the spec: `copyExtrasFrom` (IntermediateInstruction.cpp is not part of the
sources) takes over the condition, the setting of flags, the signal and the decorations. -/
def Instruction.copyExtrasFrom (i src : Instruction) : Instruction :=
  { i with conditional := src.conditional, setFlags := src.setFlags, signal := src.signal,
           decoration := i.decoration.add_flag src.decoration }

/-- The operand the step is fixed to: the literal of the offset times the vectorization factor,
in the arithmetic of `int32_t`, with the vector width of the offset times the factor (an
`unsigned char`). -/
def multipliedOffset (offset : Value) (lit : Literal) (vectorizationFactor : Nat) : Value :=
  ⟨.literal (literalOfInt (signedInt lit * toInt32 vectorizationFactor)),
    offset.type.toVectorType (offset.type.getVectorWidth * vectorizationFactor % 256)⟩

/-- The second half of `fixInitialValueAndStep`: the changed step operation. -/
def fixStep (stepOp : Instruction) (vectorizationFactor : Nat) : Except Failure Instruction := do
  let code ← deref stepOp.op
  if code.opAdd = OP_ADD.opAdd ∨ code.opAdd = OP_SUB.opAdd then
    let firstArg ← deref stepOp.getFirstArg
    if firstArg.checkLocal.isSome then
      let offset ← deref (stepOp.getArgument 1)
      match offset.getLiteralValue with
      | some lit => pure (stepOp.setArgument 1 (multipliedOffset offset lit vectorizationFactor))
      | none => .error (.compilationError .OPTIMIZER "Unhandled iteration step")
    else
      match firstArg.getLiteralValue with
      | some lit => pure (stepOp.setArgument 0 (multipliedOffset firstArg lit vectorizationFactor))
      | none => .error (.compilationError .OPTIMIZER "Unhandled iteration step")
  else .error (.compilationError .OPTIMIZER "Unhandled iteration step operation")

/-- The instruction with the type of its output brought to the given vector width: the
assignment to `loopControl.initialization->getOutput()->type`. -/
def Instruction.widenOutput (i : Instruction) (output : Value) (width : Nat) : Instruction :=
  { i with output := some { output with type := output.type.toVectorType width } }

/-- The first half of `fixInitialValueAndStep`: the changed initialization. `initialization` has
the type of its output widened already. -/
def fixInitialValue (foundInPredecessor : Bool) (loopControl : LoopControl)
    (initialization : Instruction) : Except Failure Instruction :=
  if initialization.isMoveOperation then do
    let source ← deref initialization.getSource
    if source.hasLiteral INT_ZERO.literal ∧ loopControl.stepKind = .ADD_CONSTANT
        ∧ loopControl.getStep = some INT_ONE.literal then
      pure ((initialization.setSource ELEMENT_NUMBER_REGISTER).addDecorations
        InstructionDecorations.AUTO_VECTORIZED)
    else if source.getLiteralValue.isSome ∧ loopControl.stepKind = .ADD_CONSTANT
        ∧ loopControl.getStep = some INT_ONE.literal ∧ foundInPredecessor = true then do
      let output ← deref initialization.getOutput
      let operation : Instruction :=
        ⟨.operation OP_ADD, some output, [source, ELEMENT_NUMBER_REGISTER], .COND_ALWAYS,
          .DONT_SET, .SIGNAL_NONE, InstructionDecorations.NONE⟩
      pure ((operation.copyExtrasFrom initialization).addDecorations
        InstructionDecorations.AUTO_VECTORIZED)
    else .error (.compilationError .OPTIMIZER "Unhandled initial value")
  else .error (.compilationError .OPTIMIZER "Unhandled initial value")

/-- The function `fixInitialValueAndStep`: the loop control with the changed initialization and
the changed step operation (the source changes the instructions in the method). An exception
leaves the changes made so far behind; the model gives the failure only.
`foundInPredecessor` stands for `findWalker(loop.findPredecessor(), move).has_value()`. -/
def fixInitialValueAndStep (foundInPredecessor : Bool) (loopControl : LoopControl) :
    Except Failure LoopControl := do
  let stepOp ← deref loopControl.iterationStep
  if !stepOp.isOperation then
    .error (.compilationError .OPTIMIZER "Unhandled iteration step operation")
  else
    let initialization ← deref loopControl.initialization
    let output ← deref initialization.getOutput
    let iterationVariable ← deref loopControl.iterationVariable
    let initialization := initialization.widenOutput output iterationVariable.type.getVectorWidth
    let initialization ← fixInitialValue foundInPredecessor loopControl initialization
    let stepOp ← fixStep stepOp loopControl.vectorizationFactor
    pure { loopControl with initialization := some initialization, iterationStep := some stepOp }

end vc4c

namespace vc4c

/-! ## Graphs (Graph.h) and the search for if-else blocks (ControlFlow.cpp) -/

/-- A node of a graph is named by its address. -/
abbrev NodePointer := Nat

/-- The class `DirectedEdge`: the two nodes and the flags telling which of them is an input of
the edge. -/
structure DirectedEdge where
  first : NodePointer
  second : NodePointer
  firstInput : Bool
  secondInput : Bool
  deriving DecidableEq

/-- The function `DirectedEdge::isInput`. -/
def DirectedEdge.isInput (edge : DirectedEdge) (node : NodePointer) : Bool :=
  (node == edge.first && edge.firstInput) || (node == edge.second && edge.secondInput)

/-- The function `DirectedEdge::isOutput`. -/
def DirectedEdge.isOutput (edge : DirectedEdge) (node : NodePointer) : Bool :=
  (node == edge.second && edge.firstInput) || (node == edge.first && edge.secondInput)

/-- The class `Node`: the map `edges` from the neighbors to the edges, in the order of its
iteration. -/
structure Node where
  edges : List (NodePointer × DirectedEdge)

/-- The class `Graph`: the addresses of the nodes of the map `nodes` in the order of its
iteration, and the node at an address. -/
structure Graph where
  nodes : List NodePointer
  node : NodePointer → Node

/-- The loop of `getSinglePredecessor` and `getSingleSuccessor` over the edges selected by
`selected`; `single` is the neighbor found so far, `none` the null pointer. -/
def singleNeighborLoop (selected : DirectedEdge → Bool) :
    List (NodePointer × DirectedEdge) → Option NodePointer → Option NodePointer
  | [], single => single
  | (neighbor, edge) :: rest, single =>
    if selected edge then
      if single.isSome then none
      else singleNeighborLoop selected rest (some neighbor)
    else singleNeighborLoop selected rest single

/-- The function `Node::getSinglePredecessor()` of the node at the address `node`. -/
def Graph.getSinglePredecessor (graph : Graph) (node : NodePointer) : Option NodePointer :=
  singleNeighborLoop (fun edge => edge.isOutput node) (graph.node node).edges none

/-- The function `Node::getSingleSuccessor()` of the node at the address `node`. -/
def Graph.getSingleSuccessor (graph : Graph) (node : NodePointer) : Option NodePointer :=
  singleNeighborLoop (fun edge => edge.isInput node) (graph.node node).edges none

/-- The neighbors `forAllOutgoingEdges` hands to its predicate as long as that returns true. -/
def Graph.outgoingSuccessors (graph : Graph) (node : NodePointer) : List NodePointer :=
  ((graph.node node).edges.filter fun entry => entry.2.isInput node).map fun entry => entry.1

/-- The structure `IfElseBlock`. -/
structure IfElseBlock where
  predecessor : NodePointer
  conditionalBlocks : List NodePointer
  successor : Option NodePointer
  deriving DecidableEq

/-- The call of `forAllOutgoingEdges` in `findIfElseBlocks` with its predicate, on the edges of
the node at the address `node` not visited yet. -/
def checkOutgoingEdges (graph : Graph) (node : NodePointer) :
    List (NodePointer × DirectedEdge) → IfElseBlock → IfElseBlock
  | [], candidateBlock => candidateBlock
  | (successor, edge) :: rest, candidateBlock =>
    if edge.isInput node then
      match graph.getSingleSuccessor successor with
      | some succ =>
        if (candidateBlock.successor = none ∨ some succ = candidateBlock.successor)
            ∧ graph.getSinglePredecessor successor = some node then
          checkOutgoingEdges graph node rest
            { candidateBlock with
              conditionalBlocks := candidateBlock.conditionalBlocks ++ [successor],
              successor := some succ }
        else { candidateBlock with successor := none }
      | none => { candidateBlock with successor := none }
    else checkOutgoingEdges graph node rest candidateBlock

/-- The candidate `findIfElseBlocks` builds for the node at the address `node`. -/
def candidateFor (graph : Graph) (node : NodePointer) : IfElseBlock :=
  checkOutgoingEdges graph node (graph.node node).edges ⟨node, [], none⟩

/-- The function `findIfElseBlocks`. -/
def findIfElseBlocks (graph : Graph) : List IfElseBlock :=
  graph.nodes.foldl (fun blocks node =>
    if (candidateFor graph node).successor.isSome
        ∧ (candidateFor graph node).conditionalBlocks.length > 1 then
      blocks ++ [candidateFor graph node]
    else blocks) []

end vc4c

namespace vc4c.Example

/-- The edge from the node `a` to the node `b`. -/
def edge (a b : NodePointer) : DirectedEdge := ⟨a, b, true, false⟩

/-- The graph of the edges given, over the nodes given. -/
def graphOf (nodes : List NodePointer) (edges : List (NodePointer × NodePointer)) : Graph :=
  ⟨nodes, fun node => ⟨edges.filterMap fun e =>
    if e.1 = node then some (e.2, edge e.1 e.2)
    else if e.2 = node then some (e.1, edge e.1 e.2)
    else none⟩⟩

/-- The diamond `0 → 1 → 3`, `0 → 2 → 3`. -/
def diamond : Graph := graphOf [0, 1, 2, 3] [(0, 1), (0, 2), (1, 3), (2, 3)]

/-- The diamond with a further edge `0 → 3`: an if without else. -/
def ifWithoutElse : Graph := graphOf [0, 1, 2, 3] [(0, 1), (0, 2), (1, 3), (2, 3), (0, 3)]

end vc4c.Example

namespace vc4c

/-! ## Blocks, instruction walkers and the extension of branches (ControlFlow.cpp) -/

/-- The instructions of a basic block, the label first; an entry is `none` for a slot without
instruction. -/
abbrev BasicBlock := List (Option Instruction)

/-- Modelled from the spec: an `InstructionWalker` over the blocks of a method
(InstructionWalker.cpp is not part of the sources): the blocks before the block of the walker,
the slots of that block before the walker, the slots from the walker on and the blocks after. -/
structure InstructionWalker where
  previousBlocks : List BasicBlock
  before : BasicBlock
  after : BasicBlock
  nextBlocks : List BasicBlock
  deriving DecidableEq

namespace InstructionWalker

/-- The blocks of the method the walker runs over. -/
def blocks (it : InstructionWalker) : List BasicBlock :=
  it.previousBlocks ++ (it.before ++ it.after) :: it.nextBlocks

/-- The function `it.get()`: the instruction at the walker, if there is one. -/
def get (it : InstructionWalker) : Option Instruction := it.after.head?.join

/-- The function `it.isEndOfBlock()`. -/
def isEndOfBlock (it : InstructionWalker) : Bool := it.after.isEmpty

/-- The function `it.isEndOfMethod()`: at the end of the last block. -/
def isEndOfMethod (it : InstructionWalker) : Bool := it.after.isEmpty && it.nextBlocks.isEmpty

/-- The function `it.nextInBlock()`. -/
def nextInBlock (it : InstructionWalker) : InstructionWalker :=
  match it.after with
  | [] => it
  | slot :: rest => { it with before := it.before ++ [slot], after := rest }

/-- The function `it.nextInMethod()`: the next slot of the block, from the end of a block the
begin of the next block. -/
def nextInMethod (it : InstructionWalker) : InstructionWalker :=
  let it := if it.isEndOfBlock then it else it.nextInBlock
  if it.isEndOfBlock then
    match it.nextBlocks with
    | [] => it
    | block :: rest => ⟨it.previousBlocks ++ [it.before ++ it.after], [], block, rest⟩
  else it

/-- The function `it.emplace(inst)`: insert before the walker, which then points to the new
instruction. -/
def emplace (it : InstructionWalker) (inst : Instruction) : InstructionWalker :=
  { it with after := some inst :: it.after }

/-- The insertion `assign(it, out) = ...` of an instruction before the walker, which stays at
its instruction. -/
def assign (it : InstructionWalker) (inst : Instruction) : InstructionWalker :=
  { it with before := it.before ++ [some inst] }

end InstructionWalker

/-- The instruction `new intermediate::Nop(type)`. -/
def Nop (type : DelayType) : Instruction :=
  ⟨.nop type, none, [], .COND_ALWAYS, .DONT_SET, .SIGNAL_NONE, InstructionDecorations.NONE⟩

/-- Modelled from the spec: the instruction `assign(it, NOP_REGISTER) = (a | b, SET_FLAGS)`
inserts (operators.h is not part of the sources): the bitwise OR of the two values into the
register without effect, setting the flags. -/
def flagSetting (a b : Value) : Instruction :=
  ⟨.operation OP_OR, some NOP_REGISTER, [a, b], .COND_ALWAYS, .SET_FLAGS, .SIGNAL_NONE,
    InstructionDecorations.NONE⟩

/-- The variable `lastSetFlags` of `extendBranches`. -/
abbrev LastSetFlags := Value × InstructionDecorations

/-- The test of `extendBranches` for a conditional branch. -/
def isConditionalBranch (branch : Instruction) (condition : Value) : Bool :=
  branch.hasConditionalExecution || !condition.hasLiteral BOOL_TRUE.literal

/-- The test of `extendBranches` whether the flags have to be set for the branch. -/
def needsFlags (lastSetFlags : LastSetFlags) (branch : Instruction) (condition : Value) : Bool :=
  decide (lastSetFlags.1 ≠ condition)
    || (branch.hasDecoration InstructionDecorations.BRANCH_ON_ALL_ELEMENTS
        != lastSetFlags.2.has_flag InstructionDecorations.BRANCH_ON_ALL_ELEMENTS)

/-- The instruction `extendBranches` inserts to set the flags for a branch. -/
def branchFlags (branch : Instruction) (condition : Value) : Instruction :=
  if branch.hasDecoration InstructionDecorations.BRANCH_ON_ALL_ELEMENTS then
    flagSetting condition condition
  else flagSetting ELEMENT_NUMBER_REGISTER condition

/-- The body of the loop of `extendBranches` for the branch at the walker. -/
def extendBranch (it : InstructionWalker) (branch : Instruction) (lastSetFlags : LastSetFlags) :
    Except Failure (InstructionWalker × LastSetFlags) := do
  let condition ← deref branch.getCondition
  let (it, lastSetFlags) :=
    if isConditionalBranch branch condition then
      (if needsFlags lastSetFlags branch condition then it.assign (branchFlags branch condition)
        else it,
        (condition, branch.decoration))
    else (it, lastSetFlags)
  let it := it.nextInBlock
  let it := it.emplace (Nop .BRANCH_DELAY)
  let it := it.emplace (Nop .BRANCH_DELAY)
  let it := it.emplace (Nop .BRANCH_DELAY)
  pure (it, lastSetFlags)

/-- The loop of `extendBranches`, for at most `fuel` rounds. -/
def extendBranchesLoop : Nat → InstructionWalker → LastSetFlags → Except Failure InstructionWalker
  | 0, it, _ => if it.isEndOfMethod then .ok it else .error .outOfFuel
  | fuel + 1, it, lastSetFlags =>
    if it.isEndOfMethod then .ok it
    else
      match it.get with
      | some inst =>
        if inst.isBranch then do
          let (it, lastSetFlags) ← extendBranch it inst lastSetFlags
          extendBranchesLoop fuel it.nextInMethod lastSetFlags
        else if inst.setFlags = .SET_FLAGS then
          extendBranchesLoop fuel it.nextInMethod
            (UNDEFINED_VALUE, InstructionDecorations.NONE)
        else extendBranchesLoop fuel it.nextInMethod lastSetFlags
      | none => extendBranchesLoop fuel it.nextInMethod lastSetFlags

/-- The rounds of the loop of `extendBranches` a slot takes: the branch itself and two of the
instructions inserted behind it, one round for any other slot. -/
def roundsOfSlot (slot : Option Instruction) : Nat :=
  if slot.any Instruction.isBranch then 3 else 1

/-- The rounds of the loop of `extendBranches` over the rest of a block. -/
def roundsOfBlock (block : BasicBlock) : Nat := (block.map roundsOfSlot).sum

/-- The rounds of the loop of `extendBranches` from the walker to the end of the method. -/
def roundsOfWalker (it : InstructionWalker) : Nat :=
  roundsOfBlock it.after + (it.nextBlocks.map fun block => roundsOfBlock block + 1).sum

/-- The function `extendBranches` on the blocks of a method; the walker over a method without
blocks is at the end of the method. -/
def extendBranches (blocks : List BasicBlock) : Except Failure (List BasicBlock) :=
  match blocks with
  | [] => .ok []
  | first :: rest =>
    (extendBranchesLoop (roundsOfWalker ⟨[], [], first, rest⟩) ⟨[], [], first, rest⟩
      (UNDEFINED_VALUE, InstructionDecorations.NONE)).map InstructionWalker.blocks

/-- The slots `extendBranches` leaves in the place of the given slots of a block, and the flags
set last behind them. -/
def extendedSlots : BasicBlock → LastSetFlags → BasicBlock × LastSetFlags
  | [], lastSetFlags => ([], lastSetFlags)
  | none :: rest, lastSetFlags =>
    (none :: (extendedSlots rest lastSetFlags).1, (extendedSlots rest lastSetFlags).2)
  | some inst :: rest, lastSetFlags =>
    if inst.isBranch then
      match inst.getCondition with
      | some condition =>
        let flags : BasicBlock :=
          if isConditionalBranch inst condition && needsFlags lastSetFlags inst condition then
            [some (branchFlags inst condition)]
          else []
        let lastSetFlags :=
          if isConditionalBranch inst condition then (condition, inst.decoration)
          else lastSetFlags
        (flags ++ some inst :: some (Nop .BRANCH_DELAY) :: some (Nop .BRANCH_DELAY)
            :: some (Nop .BRANCH_DELAY) :: (extendedSlots rest lastSetFlags).1,
          (extendedSlots rest lastSetFlags).2)
      | none => (some inst :: rest, lastSetFlags)
    else if inst.setFlags = .SET_FLAGS then
      (some inst :: (extendedSlots rest (UNDEFINED_VALUE, InstructionDecorations.NONE)).1,
        (extendedSlots rest (UNDEFINED_VALUE, InstructionDecorations.NONE)).2)
    else (some inst :: (extendedSlots rest lastSetFlags).1, (extendedSlots rest lastSetFlags).2)

/-- The blocks `extendBranches` leaves in the place of the given blocks. -/
def extendedBlocks : List BasicBlock → LastSetFlags → List BasicBlock
  | [], _ => []
  | block :: rest, lastSetFlags =>
    (extendedSlots block lastSetFlags).1 :: extendedBlocks rest (extendedSlots block lastSetFlags).2

/-- The blocks `extendBranches` is to leave, seen from a walker in the course of its loop. -/
def extendedFrom (it : InstructionWalker) (lastSetFlags : LastSetFlags) : List BasicBlock :=
  it.previousBlocks ++ (it.before ++ (extendedSlots it.after lastSetFlags).1)
    :: extendedBlocks it.nextBlocks (extendedSlots it.after lastSetFlags).2

/-- Every branch of the block is followed in the block by three NOPs of kind branch-delay and no
further one. -/
def branchesDelayed (block : BasicBlock) : Prop :=
  ∀ (i : Nat) (inst : Instruction), block.get? i = some (some inst) → inst.isBranch = true →
    block.get? (i + 1) = some (some (Nop .BRANCH_DELAY))
    ∧ block.get? (i + 2) = some (some (Nop .BRANCH_DELAY))
    ∧ block.get? (i + 3) = some (some (Nop .BRANCH_DELAY))
    ∧ ∀ further, block.get? (i + 4) = some (some further) → further.type ≠ .nop .BRANCH_DELAY

/-- The block holds no NOP of kind branch-delay. -/
def withoutDelays (block : BasicBlock) : Prop :=
  ∀ inst, some inst ∈ block → inst.type ≠ .nop .BRANCH_DELAY

/-- Every branch of the block has its condition: the constructor of `Branch` sets the two
arguments (Branching.cpp). -/
def branchesComplete (block : BasicBlock) : Prop :=
  ∀ inst, some inst ∈ block → inst.isBranch = true → inst.getCondition.isSome = true

end vc4c

namespace vc4c.Example

/-- The label `label:`. -/
def label (l : Local) : Instruction :=
  instruction .branchLabel (some ⟨.loc l, .simple 0 1⟩) [⟨.loc l, .simple 0 1⟩]

/-- The branch `br target`. -/
def jump (target : Local) : Instruction := branch target .COND_ALWAYS BOOL_TRUE

/-- A method of three blocks: the first one branches on `%3` to the second or the third one, the
second one to the third one. -/
def branching : List BasicBlock :=
  [[some (label 10), some (addition 4 (localValue 1) (literalValue 1)),
      some (branch 11 .COND_ZERO_CLEAR (localValue 3)),
      some (branch 12 .COND_ZERO_SET (localValue 3))],
    [some (label 11), some (jump 12)],
    [some (label 12)]]

/-- A block ending in a branch on `%3`: `label: %4 = %1 + 1; br target (zc) %3`. -/
def testing (l target : Local) : BasicBlock :=
  [some (label l), some (addition 4 (localValue 1) (literalValue 1)),
    some (branch target .COND_ZERO_CLEAR (localValue 3))]

/-- A method of four blocks: the first one branches on `%7` to the third or to the second one,
the second and the third one end in a branch on `%3`; the third one is reached from the first
one and from the second one. -/
def testingTwice : List BasicBlock :=
  [[some (label 20), some (branch 11 .COND_ZERO_CLEAR (localValue 7)),
      some (branch 10 .COND_ZERO_SET (localValue 7))],
    testing 10 12, testing 11 12, [some (label 12)]]

end vc4c.Example

namespace vc4c

/-! ## Methods and the start and stop segments (ControlFlow.cpp) -/

/-- The names of locals: the names reserved by `Method` and `BasicBlock` (constants whose
values are not part of the sources) and any other name. -/
inductive LocalName
  | WORK_DIMENSIONS | LOCAL_SIZES | LOCAL_IDS | NUM_GROUPS_X | NUM_GROUPS_Y | NUM_GROUPS_Z
  | GROUP_ID_X | GROUP_ID_Y | GROUP_ID_Z | GLOBAL_OFFSET_X | GLOBAL_OFFSET_Y | GLOBAL_OFFSET_Z
  | GLOBAL_DATA_ADDRESS | DEFAULT_BLOCK | LAST_BLOCK
  | other (name : String)
  deriving DecidableEq

/-- Modelled from the spec: a local in the table of locals of a method (Method.cpp and Locals.cpp
are not part of the sources): its name, its identity, its type and the number of its users
reading it. -/
structure MethodLocal where
  name : LocalName
  id : Local
  type : DataType
  readers : Nat
  deriving DecidableEq

/-- A parameter of a kernel, with the decorations `addStartStopSegment` tests. -/
structure Parameter where
  id : Local
  type : DataType
  signExtend : Bool
  zeroExtend : Bool
  deriving DecidableEq

/-- Modelled from the spec: the bitmap `uniformsUsed` of the metadata of a kernel, one bit for
every implicit argument (KernelMetaData.h is not part of the sources). -/
structure UniformsUsed where
  workDimensionsUsed : Bool
  localSizesUsed : Bool
  localIDsUsed : Bool
  numGroupsXUsed : Bool
  numGroupsYUsed : Bool
  numGroupsZUsed : Bool
  groupIDXUsed : Bool
  groupIDYUsed : Bool
  groupIDZUsed : Bool
  globalOffsetXUsed : Bool
  globalOffsetYUsed : Bool
  globalOffsetZUsed : Bool
  globalDataAddressUsed : Bool
  deriving DecidableEq

namespace UniformsUsed

/-- The bitmap with the value 0. -/
def zero : UniformsUsed :=
  ⟨false, false, false, false, false, false, false, false, false, false, false, false, false⟩

def setWorkDimensionsUsed (u : UniformsUsed) (used : Bool) : UniformsUsed :=
  { u with workDimensionsUsed := used }

def setLocalSizesUsed (u : UniformsUsed) (used : Bool) : UniformsUsed :=
  { u with localSizesUsed := used }

def setLocalIDsUsed (u : UniformsUsed) (used : Bool) : UniformsUsed :=
  { u with localIDsUsed := used }

def setNumGroupsXUsed (u : UniformsUsed) (used : Bool) : UniformsUsed :=
  { u with numGroupsXUsed := used }

def setNumGroupsYUsed (u : UniformsUsed) (used : Bool) : UniformsUsed :=
  { u with numGroupsYUsed := used }

def setNumGroupsZUsed (u : UniformsUsed) (used : Bool) : UniformsUsed :=
  { u with numGroupsZUsed := used }

def setGroupIDXUsed (u : UniformsUsed) (used : Bool) : UniformsUsed :=
  { u with groupIDXUsed := used }

def setGroupIDYUsed (u : UniformsUsed) (used : Bool) : UniformsUsed :=
  { u with groupIDYUsed := used }

def setGroupIDZUsed (u : UniformsUsed) (used : Bool) : UniformsUsed :=
  { u with groupIDZUsed := used }

def setGlobalOffsetXUsed (u : UniformsUsed) (used : Bool) : UniformsUsed :=
  { u with globalOffsetXUsed := used }

def setGlobalOffsetYUsed (u : UniformsUsed) (used : Bool) : UniformsUsed :=
  { u with globalOffsetYUsed := used }

def setGlobalOffsetZUsed (u : UniformsUsed) (used : Bool) : UniformsUsed :=
  { u with globalOffsetZUsed := used }

def setGlobalDataAddressUsed (u : UniformsUsed) (used : Bool) : UniformsUsed :=
  { u with globalDataAddressUsed := used }

end UniformsUsed

/-- Modelled from the spec: a method (Method.cpp is not part of the sources): its blocks, its
parameters, its table of locals, the identity of the local created next and the bitmap of the
implicit arguments used. -/
structure Method where
  blocks : List BasicBlock
  parameters : List Parameter
  locals : List MethodLocal
  nextLocal : Local
  uniformsUsed : UniformsUsed
  deriving DecidableEq

/-- Modelled from the spec: the type of labels (Types.h is not part of the sources); the model
gives it no bits. -/
def TYPE_LABEL : DataType := .simple 0 1

namespace Method

/-- The function `findLocal`: the local of the given name, if there is one. -/
def findLocal (method : Method) (name : LocalName) : Option MethodLocal :=
  method.locals.find? fun entry => decide (entry.name = name)

/-- The function `findOrCreateLocal`: the local of the given name, created with the given type
if there is none. -/
def findOrCreateLocal (method : Method) (type : DataType) (name : LocalName) :
    MethodLocal × Method :=
  match method.findLocal name with
  | some entry => (entry, method)
  | none =>
    (⟨name, method.nextLocal, type, 0⟩,
      { method with
        locals := method.locals ++ [⟨name, method.nextLocal, type, 0⟩],
        nextLocal := method.nextLocal + 1 })

/-- The name of the local of the given identity. -/
def nameOf (method : Method) (id : Local) : Option LocalName :=
  (method.locals.find? fun entry => decide (entry.id = id)).map fun entry => entry.name

/-- The function `appendToEnd`: the instruction becomes the last one of the last block. -/
def appendToEnd (method : Method) (inst : Instruction) : Method :=
  { method with
    blocks :=
      match method.blocks.getLast? with
      | some last => method.blocks.dropLast ++ [last ++ [some inst]]
      | none => [[some inst]] }

end Method

/-- The function `writesRegister`. -/
def Instruction.writesRegister (i : Instruction) (reg : Register) : Bool :=
  i.getOutput.any fun out => out.hasRegister reg

/-- The function `isLocalUsed`. -/
def isLocalUsed (method : Method) (name : LocalName) : Bool :=
  match method.findLocal name with
  | some loc => decide (loc.readers ≠ 0)
  | none => false

/-- The instruction `new intermediate::BranchLabel(label)`. -/
def BranchLabel (label : MethodLocal) : Instruction :=
  ⟨.branchLabel, some ⟨.loc label.id, label.type⟩, [⟨.loc label.id, label.type⟩], .COND_ALWAYS,
    .DONT_SET, .SIGNAL_NONE, InstructionDecorations.NONE⟩

/-- Modelled from the spec: the instruction `assign(it, out) = (src, condition, decorations)`
inserts (operators.h is not part of the sources): a move. -/
def moveOperation (out src : Value) (condition : ConditionCode)
    (decorations : InstructionDecorations) : Instruction :=
  ⟨.moveOperation, some out, [src], condition, .DONT_SET, .SIGNAL_NONE, decorations⟩

/-- The state of `addStartStopSegment` while it inserts: the method, and the instructions
inserted before the walker, which stays behind the label of the first block. -/
structure StartSegment where
  method : Method
  inserted : List Instruction
  deriving DecidableEq

/-- One of the thirteen steps of `addStartStopSegment` for an implicit argument: if its local
is used, the bit is set and the local is read from the register UNIFORM. -/
def readImplicitArgument (name : LocalName) (type : DataType)
    (setUsed : UniformsUsed → Bool → UniformsUsed) (decorations : InstructionDecorations)
    (segment : StartSegment) : StartSegment :=
  if isLocalUsed segment.method name then
    let method := { segment.method with
      uniformsUsed := setUsed segment.method.uniformsUsed true }
    let (loc, method) := method.findOrCreateLocal type name
    ⟨method, segment.inserted
      ++ [moveOperation ⟨.loc loc.id, loc.type⟩ ⟨.register REG_UNIFORM, type⟩ .COND_ALWAYS
            decorations]⟩
  else segment

/-- The instruction standing for the sequence inserted by `insertSignExtension` (if `sign`) or
`insertZeroExtension` from the register UNIFORM into the parameter. -/
def extendParameter (sign : Bool) (param : Parameter) (condition : ConditionCode)
    (decorations : InstructionDecorations) : Instruction :=
  ⟨if sign then .signExtension else .zeroExtension, some ⟨.loc param.id, DataType.TYPE_INT32⟩,
    [⟨.register REG_UNIFORM, param.type⟩], condition, .DONT_SET, .SIGNAL_NONE, decorations⟩

/-- The instructions `loadVectorParameter` inserts for the element `i` of a parameter. -/
def loadVectorElement (param : Parameter) (i : Nat) : List Instruction :=
  (if i > 0 then
    [(⟨.operation OP_XOR, some NOP_REGISTER,
      [ELEMENT_NUMBER_REGISTER, ⟨.smallImmediate ⟨i⟩, DataType.TYPE_INT8⟩], .COND_ALWAYS,
      .SET_FLAGS, .SIGNAL_NONE, InstructionDecorations.NONE⟩ : Instruction)]
  else [])
  ++ [if param.signExtend then
        extendParameter true param (if i = 0 then .COND_ALWAYS else .COND_ZERO_SET)
          InstructionDecorations.ELEMENT_INSERTION
      else if param.zeroExtend then
        extendParameter false param (if i = 0 then .COND_ALWAYS else .COND_ZERO_SET)
          InstructionDecorations.ELEMENT_INSERTION
      else
        moveOperation ⟨.loc param.id, param.type⟩ UNIFORM_REGISTER
          (if i = 0 then .COND_ALWAYS else .COND_ZERO_SET)
          InstructionDecorations.ELEMENT_INSERTION]

/-- The function `loadVectorParameter`. -/
def loadVectorParameter (param : Parameter) : List Instruction :=
  (List.range param.type.getVectorWidth).flatMap (loadVectorElement param)

/-- Whether the type is a pointer, `getPointerType()`. -/
def DataType.isPointerType : DataType → Bool
  | .pointer _ _ => true
  | _ => false

/-- The body of the loop of `addStartStopSegment` over the parameters. -/
def loadParameter (param : Parameter) : List Instruction :=
  if !param.type.isPointerType && param.type.getVectorWidth != 1 then loadVectorParameter param
  else if param.signExtend then
    [extendParameter true param .COND_ALWAYS InstructionDecorations.NONE]
  else if param.zeroExtend then
    [extendParameter false param .COND_ALWAYS InstructionDecorations.NONE]
  else
    [moveOperation ⟨.loc param.id, param.type⟩ ⟨.register REG_UNIFORM, param.type⟩ .COND_ALWAYS
      (InstructionDecorations.WORK_GROUP_UNIFORM_VALUE.add_flag
        (if param.type.isPointerType then InstructionDecorations.UNSIGNED_RESULT
          else InstructionDecorations.NONE))]

/-- The function `generateStopSegment`. -/
def generateStopSegment (method : Method) : Method :=
  (((method.appendToEnd
    ((⟨.operation OP_NOT, some ⟨.register REG_HOST_INTERRUPT, DataType.TYPE_INT8⟩,
      [⟨.register REG_QPU_NUMBER, DataType.TYPE_INT8⟩], .COND_ALWAYS, .DONT_SET, .SIGNAL_NONE,
      InstructionDecorations.NONE⟩ : Instruction).addDecorations
        InstructionDecorations.WORK_GROUP_UNIFORM_VALUE)).appendToEnd
    { Nop .THREAD_END with signal := .SIGNAL_END_PROGRAM }).appendToEnd
    (Nop .THREAD_END)).appendToEnd (Nop .THREAD_END)

/-- The test of `addStartStopSegment` whether the method begins with the label of the default
block. -/
def startsWithDefaultBlock (method : Method) : Bool :=
  match method.blocks with
  | (some inst :: _) :: _ =>
    decide (inst.type = .branchLabel)
      && decide ((inst.getOutput.bind Value.checkLocal).bind method.nameOf
          = some LocalName.DEFAULT_BLOCK)
  | _ => false

/-- The begin of `addStartStopSegment`: the method begins with the label of the default block,
put in a block of its own in front if it was not there. -/
def emplaceDefaultLabel (method : Method) : Method :=
  if startsWithDefaultBlock method then method
  else
    let (label, method) := method.findOrCreateLocal TYPE_LABEL .DEFAULT_BLOCK
    { method with blocks := [some (BranchLabel label)] :: method.blocks }

/-- The test of `addStartStopSegment` whether the second TMU is used explicitly. -/
def tmu1Used (method : Method) : Bool :=
  method.blocks.any fun block => block.any fun slot =>
    slot.any fun inst => inst.writesRegister REG_TMU1_ADDRESS

/-- The decorations `workInfoDecorations` of `addStartStopSegment`. -/
def workInfoDecorations : InstructionDecorations :=
  InstructionDecorations.UNSIGNED_RESULT.add_flag InstructionDecorations.WORK_GROUP_UNIFORM_VALUE

/-- The reads of the implicit arguments in `addStartStopSegment`. -/
def readImplicitArguments (segment : StartSegment) : StartSegment :=
  let segment := readImplicitArgument .WORK_DIMENSIONS DataType.TYPE_INT8
    UniformsUsed.setWorkDimensionsUsed workInfoDecorations segment
  let segment := readImplicitArgument .LOCAL_SIZES DataType.TYPE_INT32
    UniformsUsed.setLocalSizesUsed workInfoDecorations segment
  let segment := readImplicitArgument .LOCAL_IDS DataType.TYPE_INT32
    UniformsUsed.setLocalIDsUsed
    (workInfoDecorations.remove_flag InstructionDecorations.WORK_GROUP_UNIFORM_VALUE) segment
  let segment := readImplicitArgument .NUM_GROUPS_X DataType.TYPE_INT32
    UniformsUsed.setNumGroupsXUsed workInfoDecorations segment
  let segment := readImplicitArgument .NUM_GROUPS_Y DataType.TYPE_INT32
    UniformsUsed.setNumGroupsYUsed workInfoDecorations segment
  let segment := readImplicitArgument .NUM_GROUPS_Z DataType.TYPE_INT32
    UniformsUsed.setNumGroupsZUsed workInfoDecorations segment
  let segment := readImplicitArgument .GROUP_ID_X DataType.TYPE_INT32
    UniformsUsed.setGroupIDXUsed workInfoDecorations segment
  let segment := readImplicitArgument .GROUP_ID_Y DataType.TYPE_INT32
    UniformsUsed.setGroupIDYUsed workInfoDecorations segment
  let segment := readImplicitArgument .GROUP_ID_Z DataType.TYPE_INT32
    UniformsUsed.setGroupIDZUsed workInfoDecorations segment
  let segment := readImplicitArgument .GLOBAL_OFFSET_X DataType.TYPE_INT32
    UniformsUsed.setGlobalOffsetXUsed workInfoDecorations segment
  let segment := readImplicitArgument .GLOBAL_OFFSET_Y DataType.TYPE_INT32
    UniformsUsed.setGlobalOffsetYUsed workInfoDecorations segment
  let segment := readImplicitArgument .GLOBAL_OFFSET_Z DataType.TYPE_INT32
    UniformsUsed.setGlobalOffsetZUsed workInfoDecorations segment
  readImplicitArgument .GLOBAL_DATA_ADDRESS DataType.TYPE_INT32
    UniformsUsed.setGlobalDataAddressUsed workInfoDecorations segment

/-- The method with the instructions inserted behind the first slot of its first block. -/
def StartSegment.finish (segment : StartSegment) : Method :=
  { segment.method with
    blocks :=
      match segment.method.blocks with
      | (label :: rest) :: blocks => (label :: (segment.inserted.map some ++ rest)) :: blocks
      | blocks => blocks }

/-- The function `addStartStopSegment`. -/
def addStartStopSegment (method : Method) : Method :=
  let method := emplaceDefaultLabel method
  let segment : StartSegment :=
    ⟨method,
      if tmu1Used method then
        [moveOperation ⟨.register REG_TMU_NOSWAP, DataType.TYPE_BOOL⟩ BOOL_TRUE .COND_ALWAYS
          InstructionDecorations.NONE]
      else []⟩
  let segment : StartSegment :=
    { segment with method := { segment.method with uniformsUsed := UniformsUsed.zero } }
  let segment := readImplicitArguments segment
  let segment : StartSegment :=
    { segment with inserted := segment.inserted ++ segment.method.parameters.flatMap loadParameter }
  generateStopSegment segment.finish

/-- The implicit arguments of a kernel. -/
inductive ImplicitArgument
  | workDimensions | localSizes | localIDs | numGroupsX | numGroupsY | numGroupsZ
  | groupIDX | groupIDY | groupIDZ | globalOffsetX | globalOffsetY | globalOffsetZ
  | globalDataAddress
  deriving DecidableEq

namespace ImplicitArgument

/-- The implicit arguments in the order of the UNIFORM stream. -/
def all : List ImplicitArgument :=
  [workDimensions, localSizes, localIDs, numGroupsX, numGroupsY, numGroupsZ, groupIDX, groupIDY,
    groupIDZ, globalOffsetX, globalOffsetY, globalOffsetZ, globalDataAddress]

/-- The name of the local of an implicit argument. -/
def name : ImplicitArgument → LocalName
  | workDimensions => .WORK_DIMENSIONS
  | localSizes => .LOCAL_SIZES
  | localIDs => .LOCAL_IDS
  | numGroupsX => .NUM_GROUPS_X
  | numGroupsY => .NUM_GROUPS_Y
  | numGroupsZ => .NUM_GROUPS_Z
  | groupIDX => .GROUP_ID_X
  | groupIDY => .GROUP_ID_Y
  | groupIDZ => .GROUP_ID_Z
  | globalOffsetX => .GLOBAL_OFFSET_X
  | globalOffsetY => .GLOBAL_OFFSET_Y
  | globalOffsetZ => .GLOBAL_OFFSET_Z
  | globalDataAddress => .GLOBAL_DATA_ADDRESS

/-- The bit of an implicit argument in the bitmap `uniformsUsed`. -/
def isUsed (u : UniformsUsed) : ImplicitArgument → Bool
  | workDimensions => u.workDimensionsUsed
  | localSizes => u.localSizesUsed
  | localIDs => u.localIDsUsed
  | numGroupsX => u.numGroupsXUsed
  | numGroupsY => u.numGroupsYUsed
  | numGroupsZ => u.numGroupsZUsed
  | groupIDX => u.groupIDXUsed
  | groupIDY => u.groupIDYUsed
  | groupIDZ => u.groupIDZUsed
  | globalOffsetX => u.globalOffsetXUsed
  | globalOffsetY => u.globalOffsetYUsed
  | globalOffsetZ => u.globalOffsetZUsed
  | globalDataAddress => u.globalDataAddressUsed

/-- The type of the register UNIFORM in the read of an implicit argument. -/
def uniformType : ImplicitArgument → DataType
  | workDimensions => DataType.TYPE_INT8
  | _ => DataType.TYPE_INT32

/-- The decorations of the read of an implicit argument. -/
def decorations : ImplicitArgument → InstructionDecorations
  | localIDs => workInfoDecorations.remove_flag InstructionDecorations.WORK_GROUP_UNIFORM_VALUE
  | _ => workInfoDecorations

/-- The read of an implicit argument from the register UNIFORM into its local. -/
def read (method : Method) (argument : ImplicitArgument) : Instruction :=
  moveOperation
    ⟨.loc (method.findOrCreateLocal argument.uniformType argument.name).1.id,
      (method.findOrCreateLocal argument.uniformType argument.name).1.type⟩
    ⟨.register REG_UNIFORM, argument.uniformType⟩ .COND_ALWAYS argument.decorations

end ImplicitArgument

end vc4c

namespace vc4c.Example

/-- A kernel `f(int a, char b)` of one block reading the local sizes and the local ids; the
local of the group id has no reader, the bit of the work dimensions is set from before. -/
def kernel : Method :=
  { blocks := [[some (label 20), some (addition 4 (localValue 21) (localValue 22))]],
    parameters := [⟨30, int32, false, false⟩, ⟨31, .simple 8 1, true, false⟩],
    locals := [⟨.DEFAULT_BLOCK, 20, .simple 0 1, 0⟩, ⟨.LOCAL_IDS, 22, int32, 1⟩,
      ⟨.GROUP_ID_X, 23, int32, 0⟩, ⟨.LOCAL_SIZES, 21, int32, 2⟩],
    nextLocal := 40,
    uniformsUsed := { UniformsUsed.zero with workDimensionsUsed := true } }

end vc4c.Example

namespace vc4c

/-! ## The control-flow graph of a method and the merging of blocks (ControlFlow.cpp) -/

/-- The label of a block, `getLabel()->getLabel()`: the local of the `BranchLabel` it begins
with. -/
def getLabel (block : BasicBlock) : Option Local :=
  match block with
  | some inst :: _ =>
    if inst.type = .branchLabel then (inst.getArgument 0).bind Value.checkLocal else none
  | _ => none

/-- The function `Branch::isUnconditional` (Branching.cpp). -/
def Instruction.isUnconditional (i : Instruction) : Bool :=
  decide (i.conditional = .COND_ALWAYS) || decide (i.getCondition = some BOOL_TRUE)

/-- The targets of the branches of a block. -/
def branchTargets (block : BasicBlock) : List Local :=
  block.filterMap fun slot => slot.bind fun inst =>
    if inst.isBranch then inst.getTarget else none

/-- Modelled from the spec: a block falls through to the next one unless it ends with an
unconditional branch (BasicBlock.cpp is not part of the sources). -/
def fallsThroughToNextBlock (block : BasicBlock) : Bool :=
  match (block.filterMap id).getLast? with
  | some inst => !(inst.isBranch && inst.isUnconditional)
  | none => true

/-- The function `findBasicBlock`: the block of the given label. -/
def findBasicBlock (blocks : List BasicBlock) (label : Local) : Option BasicBlock :=
  blocks.find? fun block => decide (getLabel block = some label)

/-- The label of the block behind the block of the given label. -/
def nextLabel : List BasicBlock → Local → Option Local
  | block :: next :: rest, label =>
    if getLabel block = some label then getLabel next else nextLabel (next :: rest) label
  | _, _ => none

/-- Modelled from the spec: the control flow leads from the block of the label `source` to the
block of the label `target`, by a branch or by falling through. -/
def leadsTo (blocks : List BasicBlock) (source target : Local) : Bool :=
  match findBasicBlock blocks source with
  | some block =>
    (branchTargets block).contains target
      || (fallsThroughToNextBlock block && decide (nextLabel blocks source = some target))
  | none => false

/-- Modelled from the spec: the control-flow graph of a method (ControlFlowGraph.cpp is not part
of the sources): a node for every block, named by the label of the block, and between two
blocks one edge, which records the directions the control flow takes between them. -/
def createCFG (blocks : List BasicBlock) : Graph :=
  ⟨blocks.filterMap getLabel, fun node =>
    ⟨(blocks.filterMap getLabel).filterMap fun other =>
      if leadsTo blocks node other || leadsTo blocks other node then
        some (other,
          if (blocks.filterMap getLabel).indexOf node ≤ (blocks.filterMap getLabel).indexOf other
          then ⟨node, other, leadsTo blocks node other, leadsTo blocks other node⟩
          else ⟨other, node, leadsTo blocks other node, leadsTo blocks node other⟩)
      else none⟩⟩

/-- The first loop of `mergeAdjacentBasicBlocks`: the pairs of the labels of adjacent blocks to
merge. -/
def blocksToMerge (method : Method) : List (Local × Local) :=
  (method.blocks.zip method.blocks.tail).filterMap fun pair =>
    match getLabel pair.1, getLabel pair.2 with
    | some prev, some it =>
      if (createCFG method.blocks).getSinglePredecessor it = some prev
          ∧ (createCFG method.blocks).getSingleSuccessor prev = some it
          ∧ method.nameOf it ≠ some LocalName.LAST_BLOCK then
        some (prev, it)
      else none
    | _, _ => none

/-- The function `findSourceBlock`, for at most `fuel` steps through the map. -/
def findSourceBlock : Nat → Local → List (Local × Local) → Except Failure Local
  | 0, _, _ => .error .outOfFuel
  | fuel + 1, label, blockMap =>
    match blockMap.find? fun entry => decide (entry.1 = label) with
    | none => .ok label
    | some entry => findSourceBlock fuel entry.2 blockMap

/-- Modelled from the spec: `removeBlock` (Method.cpp is not part of the sources) removes a
block that holds no instruction besides its label and that no branch leads to; the warnings of
`mergeAdjacentBasicBlocks` name the two reasons it fails for: "Block was not empty" and "Block
has explicit predecessor". The result tells whether the block was removed. -/
def removeBlock (blocks : List BasicBlock) (label : Local) : List BasicBlock × Bool :=
  match findBasicBlock blocks label with
  | some block =>
    if block.tail.all (fun slot => slot.isNone)
        ∧ blocks.all (fun other => !(branchTargets other).contains label) then
      (blocks.filter fun other => decide (getLabel other ≠ some label), true)
    else (blocks, false)
  | none => (blocks, false)

/-- The blocks with the block of the given label replaced. -/
def replaceBlock (blocks : List BasicBlock) (label : Local) (block : BasicBlock) :
    List BasicBlock :=
  blocks.map fun other => if getLabel other = some label then block else other

/-- The body of the second loop of `mergeAdjacentBasicBlocks`: the instructions of the source
block are released and put at the end of the destination block, the source block is removed
if that is possible. -/
def mergePair (blocks : List BasicBlock) (blockMap : List (Local × Local))
    (pair : Local × Local) : Except Failure (List BasicBlock × List (Local × Local)) := do
  let sourceLabel ← findSourceBlock (blockMap.length + 1) pair.2 blockMap
  let destLabel ← findSourceBlock (blockMap.length + 1) pair.1 blockMap
  let sourceBlock ← deref (findBasicBlock blocks sourceLabel)
  let destBlock ← deref (findBasicBlock blocks destLabel)
  let blocks := replaceBlock blocks destLabel (destBlock ++ sourceBlock.tail)
  let blocks := replaceBlock blocks sourceLabel
    (sourceBlock.head?.toList ++ sourceBlock.tail.map fun _ => none)
  let blocks := (removeBlock blocks sourceLabel).1
  pure (blocks,
    if blockMap.any (fun entry => decide (entry.1 = pair.2)) then blockMap
    else blockMap ++ [(pair.2, pair.1)])

/-- The second loop of `mergeAdjacentBasicBlocks`. -/
def mergePairs : List (Local × Local) → List BasicBlock → List (Local × Local)
    → Except Failure (List BasicBlock)
  | [], blocks, _ => .ok blocks
  | pair :: rest, blocks, blockMap => do
    let (blocks, blockMap) ← mergePair blocks blockMap pair
    mergePairs rest blocks blockMap

/-- The function `mergeAdjacentBasicBlocks`: the method it leaves and its result. -/
def mergeAdjacentBasicBlocks (method : Method) : Except Failure (Method × Bool) := do
  let blocks ← mergePairs (blocksToMerge method) method.blocks []
  pure ({ method with blocks := blocks }, !(blocksToMerge method).isEmpty)

end vc4c

namespace vc4c.Example

/-- A method of three blocks without branches between them; the last block is the reserved
one. With `explicit` the first block ends in a branch to the second one. -/
def sequence (explicit : Bool) : Method :=
  { blocks := [[some (label 10), some (assignment 1 (literalValue 5))]
        ++ (if explicit then [some (jump 11)] else []),
      [some (label 11), some (assignment 2 (literalValue 6))],
      [some (label 12)]],
    parameters := [],
    locals := [⟨.DEFAULT_BLOCK, 10, .simple 0 1, 0⟩, ⟨.other "next", 11, .simple 0 1, 0⟩,
      ⟨.LAST_BLOCK, 12, .simple 0 1, 0⟩],
    nextLocal := 40,
    uniformsUsed := UniformsUsed.zero }

end vc4c.Example

namespace vc4c

/-! ## The simplification of conditional blocks (ControlFlow.cpp) -/

/-- The functions `simplifyConditionalBlocks` calls that are not part of the sources:
`hasSideEffects` of an instruction, `isLocallyLimited` of a block (for the position of the
walker and the local, with the threshold 8), and the position of the walker
`CFGRelation::getPredecessor` gives in a block for an edge that is no branch. -/
structure ConditionalEnvironment where
  hasSideEffects : Instruction → Bool
  isLocallyLimited : BasicBlock → Nat → Local → Bool
  implicitPredecessor : BasicBlock → Nat

/-- The function `setCondition`. -/
def Instruction.setCondition (i : Instruction) (condition : ConditionCode) : Instruction :=
  { i with conditional := condition }

/-- The first loop of `simplifyConditionalBlocks` over the slots of a conditional block from the
position `index` on: the locals written that are not limited to the block, added to
`nonlocalLocals`, or `none` when an instruction that is no branch has side effects or is
executed under a condition. A slot without instruction is passed over. -/
def scanConditionalBlock (env : ConditionalEnvironment) (block : BasicBlock) :
    List (Option Instruction) → Nat → List Local → Option (List Local)
  | [], _, nonlocalLocals => some nonlocalLocals
  | none :: rest, index, nonlocalLocals =>
    scanConditionalBlock env block rest (index + 1) nonlocalLocals
  | some inst :: rest, index, nonlocalLocals =>
    if !inst.isBranch && (env.hasSideEffects inst || inst.hasConditionalExecution) then none
    else
      match inst.getOutput.bind Value.checkLocal with
      | some loc =>
        if !env.isLocallyLimited block index loc then
          scanConditionalBlock env block rest (index + 1) (emplaceInSet nonlocalLocals loc)
        else scanConditionalBlock env block rest (index + 1) nonlocalLocals
      | none => scanConditionalBlock env block rest (index + 1) nonlocalLocals

/-- The first loop of `simplifyConditionalBlocks` over the conditional blocks. -/
def scanConditionalBlocks (env : ConditionalEnvironment) (blocks : List BasicBlock) :
    List NodePointer → List Local → Except Failure (Option (List Local))
  | [], nonlocalLocals => .ok (some nonlocalLocals)
  | succ :: rest, nonlocalLocals => do
    let block ← deref (findBasicBlock blocks succ)
    match scanConditionalBlock env block block.tail 1 nonlocalLocals with
    | none => pure none
    | some nonlocalLocals => scanConditionalBlocks env blocks rest nonlocalLocals

/-- The slots put into the predecessor for a conditional block: every slot but the label and the
branches, an instruction writing one of the locals not limited to the block under the given
condition. -/
def movedSlots (nonlocalLocals : List Local) (cond : ConditionCode) (block : BasicBlock) :
    BasicBlock :=
  block.filterMap fun slot =>
    match slot with
    | some inst =>
      if inst.type = .branchLabel then none
      else if inst.isBranch then none
      else if nonlocalLocals.any (fun loc => inst.writesLocal loc) then
        some (some (inst.setCondition cond))
      else some (some inst)
    | none => some none

/-- Modelled from the spec: the instruction `assign(it, NOP_REGISTER) = (value, SET_FLAGS)`
inserts (operators.h is not part of the sources): a move of the value into the register without
effect, setting the flags. -/
def flagMove (value : Value) : Instruction :=
  ⟨.moveOperation, some NOP_REGISTER, [value], .COND_ALWAYS, .SET_FLAGS, .SIGNAL_NONE,
    InstructionDecorations.NONE⟩

/-- The instruction `new intermediate::Branch(target, COND_ALWAYS, BOOL_TRUE)`. -/
def Branch (target : Local) (cond : ConditionCode) (condition : Value) : Instruction :=
  ⟨.branch, none, [⟨.loc target, TYPE_LABEL⟩, condition], cond, .DONT_SET, .SIGNAL_NONE,
    InstructionDecorations.NONE⟩

/-- The position of the walker `getPredecessor` gives in the predecessor for the edge to the
block of the label `succ`: the branch the edge records, for an edge that is no branch the
position the environment gives. -/
def getPredecessor (env : ConditionalEnvironment) (predecessor : BasicBlock) (succ : Local) :
    Nat :=
  match predecessor.findIdx? fun slot =>
      slot.any fun inst => inst.isBranch && decide (inst.getTarget = some succ) with
  | some index => index
  | none => env.implicitPredecessor predecessor

/-- The body of the second loop of `simplifyConditionalBlocks` for the conditional block of the
label `succ`, whose only incoming edge comes from the predecessor of the candidate.
`beforeBranches` is the position of the walker `beforeBranchesIt` in the predecessor. -/
def inlineConditionalBlock (env : ConditionalEnvironment) (nonlocalLocals : List Local)
    (predecessor : Local) (state : List BasicBlock × Nat) (succ : Local) :
    Except Failure (List BasicBlock × Nat) := do
  let (blocks, beforeBranches) := state
  let pred ← deref (findBasicBlock blocks predecessor)
  let block ← deref (findBasicBlock blocks succ)
  let lastIt := getPredecessor env pred succ
  let emptied : BasicBlock := block.head?.toList ++ block.tail.map fun _ => none
  match (pred.get? lastIt).join.filter fun inst =>
      inst.isBranch && decide (inst.getTarget = some succ) && inst.hasConditionalExecution with
  | some branch =>
    let condVal ← deref branch.getCondition
    let flags : BasicBlock :=
      if branch.conditional ≠ .COND_ALWAYS then [some (flagMove condVal)] else []
    let pred := pred.take lastIt ++ flags ++ movedSlots nonlocalLocals branch.conditional block
      ++ pred.drop (lastIt + 1)
    let blocks := replaceBlock (replaceBlock blocks predecessor pred) succ emptied
    pure ((removeBlock blocks succ).1, beforeBranches)
  | none =>
    let pred := pred.eraseIdx lastIt
    let beforeBranches := if lastIt < beforeBranches then beforeBranches - 1 else beforeBranches
    let moved := movedSlots nonlocalLocals .COND_ALWAYS block
    let pred := pred.take beforeBranches ++ moved ++ pred.drop beforeBranches
    let blocks := replaceBlock (replaceBlock blocks predecessor pred) succ emptied
    pure ((removeBlock blocks succ).1, beforeBranches + moved.length)

/-- The second loop of `simplifyConditionalBlocks`. -/
def inlineConditionalBlocks (env : ConditionalEnvironment) (nonlocalLocals : List Local)
    (predecessor : Local) :
    List NodePointer → List BasicBlock × Nat → Except Failure (List BasicBlock × Nat)
  | [], state => .ok state
  | succ :: rest, state => do
    let state ← inlineConditionalBlock env nonlocalLocals predecessor state succ
    inlineConditionalBlocks env nonlocalLocals predecessor rest state

/-- The body of the loop of `simplifyConditionalBlocks` for one candidate: the blocks it
leaves and whether it changed them. A predecessor without branch leaves the search for the
first branch without end. -/
def simplifyConditionalBlock (env : ConditionalEnvironment) (blocks : List BasicBlock)
    (candidate : IfElseBlock) : Except Failure (List BasicBlock × Bool) := do
  match ← scanConditionalBlocks env blocks candidate.conditionalBlocks [] with
  | none => pure (blocks, false)
  | some nonlocalLocals =>
    let pred ← deref (findBasicBlock blocks candidate.predecessor)
    match pred.tail.findIdx? fun slot => slot.any Instruction.isBranch with
    | none => .error .outOfFuel
    | some firstBranch =>
      let (blocks, _) ← inlineConditionalBlocks env nonlocalLocals candidate.predecessor
        candidate.conditionalBlocks (blocks, firstBranch)
      let successor ← deref candidate.successor
      let pred ← deref (findBasicBlock blocks candidate.predecessor)
      pure (replaceBlock blocks candidate.predecessor
        (pred ++ [some (Branch successor .COND_ALWAYS BOOL_TRUE)]), true)

/-- The loop of `simplifyConditionalBlocks` over the candidates. -/
def simplifyCandidates (env : ConditionalEnvironment) :
    List IfElseBlock → List BasicBlock × Bool → Except Failure (List BasicBlock × Bool)
  | [], state => .ok state
  | candidate :: rest, (blocks, changedCode) => do
    let (blocks, changed) ← simplifyConditionalBlock env blocks candidate
    simplifyCandidates env rest (blocks, changedCode || changed)

/-- The function `simplifyConditionalBlocks`: the blocks it leaves and its result. -/
def simplifyConditionalBlocks (env : ConditionalEnvironment) (blocks : List BasicBlock) :
    Except Failure (List BasicBlock × Bool) :=
  simplifyCandidates env (findIfElseBlocks (createCFG blocks)) (blocks, false)

end vc4c

namespace vc4c.Example

/-- The helpers of `simplifyConditionalBlocks`: no instruction has side effects, no local is
limited to its block, the edge of a block falling through is taken from its last slot. -/
def conditionals : ConditionalEnvironment :=
  ⟨fun _ => false, fun _ _ _ => false, fun block => block.length - 1⟩

/-- The diamond `if(%3) %5 = 1 else %5 = 2` of the blocks 10, 11, 12 and 13; the branch to the
block 12 is taken under the given condition code. -/
def ifElse (otherwise : ConditionCode) : List BasicBlock :=
  [[some (label 10), some (assignment 3 (localValue 1)),
      some (branch 11 .COND_ZERO_CLEAR (localValue 3)),
      some (branch 12 otherwise (if otherwise = .COND_ALWAYS then BOOL_TRUE else localValue 3))],
    [some (label 11), some (assignment 5 (literalValue 1)), some (jump 13)],
    [some (label 12), some (assignment 5 (literalValue 2)), some (jump 13)],
    [some (label 13), some (addition 6 (localValue 5) (literalValue 1))]]

end vc4c.Example

namespace vc4c

/-! ## The conversion of a branch into machine code (Branching.cpp) -/

/-- The conditions of a branch in machine code, `BranchCond` (the enumeration is not part of the
sources; `convertToAsm` names `ALWAYS`, `ALL_Z_CLEAR` and `ALL_Z_SET`, the others are the
results `toBranchCondition` may have). -/
inductive BranchCond
  | ALL_Z_SET | ALL_Z_CLEAR | ANY_Z_SET | ANY_Z_CLEAR
  | ALL_N_SET | ALL_N_CLEAR | ANY_N_SET | ANY_N_CLEAR
  | ALL_C_SET | ALL_C_CLEAR | ANY_C_SET | ANY_C_CLEAR
  | ALWAYS
  deriving DecidableEq

/-- Whether a branch is relative, `BranchRel`. -/
inductive BranchRel
  | BRANCH_ABSOLUTE | BRANCH_RELATIVE
  deriving DecidableEq

/-- Whether a register is added to the target, `BranchReg`. -/
inductive BranchReg
  | NONE | BRANCH_REG
  deriving DecidableEq

/-- The arguments `qpu_asm::BranchInstruction` is constructed with (the class is not part of the
sources): condition, relative or absolute, the use of a register and its number, the two output
registers and the offset, an `int32_t`. -/
structure BranchInstruction where
  cond : BranchCond
  relative : BranchRel
  addRegister : BranchReg
  branchRegister : Nat
  addOut : Nat
  mulOut : Nat
  offset : Int
  deriving DecidableEq

/-- The constructor `Branch::Branch(target, condCode, cond)`: only the condition codes `always`,
`zero clear` and `zero set` are accepted. -/
def constructBranch (target : Local) (condCode : ConditionCode) (cond : Value) :
    Except Failure Instruction :=
  if condCode ≠ .COND_ALWAYS ∧ condCode ≠ .COND_ZERO_CLEAR ∧ condCode ≠ .COND_ZERO_SET then
    .error (.compilationError .GENERAL "Invalid condition for branches")
  else .ok (Branch target condCode cond)

/-- A word of 64 bits read as a signed integer, `static_cast<int64_t>` of a `std::size_t`. -/
def toInt64 (x : Int) : Int := (x + 2 ^ 63) % 2 ^ 64 - 2 ^ 63

/-- The offset of a branch in bytes: the position of the label minus the position of the fourth
instruction behind the branch. The product is computed in `std::size_t` (64 bits, unsigned), the
difference in `int64_t` (its overflow is undefined in the source, the model wraps around). -/
def branchOffset (labelPos instructionIndex : Nat) : Int :=
  toInt64 (toInt64 (labelPos % 2 ^ 64) - toInt64 ((instructionIndex + 4) * 8 % 2 ^ 64))

/-- The condition of the branch in machine code. `toBranchCondition` stands for
`ConditionCode::toBranchCondition`, which is not part of the sources. -/
def branchCondition (toBranchCondition : ConditionCode → Except Failure BranchCond)
    (branch : Instruction) : Except Failure BranchCond :=
  if branch.conditional ≠ .COND_ALWAYS
      ∧ branch.decoration.has_flag InstructionDecorations.BRANCH_ON_ALL_ELEMENTS = true then
    if branch.conditional = .COND_ZERO_CLEAR then .ok .ALL_Z_CLEAR
    else if branch.conditional = .COND_ZERO_SET then .ok .ALL_Z_SET
    else .error (.compilationError .CODE_GENERATION
      "Unhandled branch condition depending on all elements")
  else toBranchCondition branch.conditional

/-- The function `Branch::convertToAsm`. The label mapping is given by its entries; the result
is the instruction without the comment naming its target. -/
def convertToAsm (toBranchCondition : ConditionCode → Except Failure BranchCond)
    (branch : Instruction) (labelMapping : List (Local × Nat)) (instructionIndex : Nat) :
    Except Failure BranchInstruction := do
  let target ← deref branch.getTarget
  match labelMapping.lookup target with
  | none => .error (.compilationError .CODE_GENERATION "Target label not mapped to any position")
  | some labelPos =>
    let offset := branchOffset labelPos instructionIndex
    let cond ← branchCondition toBranchCondition branch
    if offset < -2 ^ 31 ∨ offset > 2 ^ 31 - 1 then
      .error (.compilationError .CODE_GENERATION
        "Cannot jump a distance not fitting into 32-bit integer")
    else
      pure ⟨cond, .BRANCH_RELATIVE, .NONE, 0, REG_NOP.num, REG_NOP.num, toInt32 offset⟩

end vc4c

namespace vc4c.Example

/-- The conversion of condition codes: `always` gives `ALWAYS`, a condition on a flag the
condition on that flag of any element, `never` fails. -/
def toBranchCondition : ConditionCode → Except Failure BranchCond
  | .COND_ALWAYS => .ok .ALWAYS
  | .COND_ZERO_SET => .ok .ANY_Z_SET
  | .COND_ZERO_CLEAR => .ok .ANY_Z_CLEAR
  | .COND_NEGATIVE_SET => .ok .ANY_N_SET
  | .COND_NEGATIVE_CLEAR => .ok .ANY_N_CLEAR
  | .COND_CARRY_SET => .ok .ANY_C_SET
  | .COND_CARRY_CLEAR => .ok .ANY_C_CLEAR
  | .COND_NEVER => .error (.compilationError .CODE_GENERATION "Invalid condition for branch")

end vc4c.Example

namespace vc4c.Store

/-! ## Graphs as stores of node and edge objects (Graph.h)

The class templates `Node`, `Edge` and `Graph` with the containers they own. A node is addressed
by its key (the nodes live in the map of the graph, their addresses are stable), an edge by the
address of its object in the set of the graph. The payload of a node is left out. -/

/-- The address of an edge object. -/
abbrev EdgePointer := Nat

/-- An edge object of `Edge<Node, Relation, Direction>` with the members of `DirectedEdge`. -/
structure Edge (Relation : Type) where
  first : NodePointer
  second : NodePointer
  firstInput : Bool
  secondInput : Bool
  data : Relation

namespace Edge

/-- The function `DirectedEdge::isInput`. -/
def isInput {Relation : Type} (edge : Edge Relation) (node : NodePointer) : Bool :=
  (decide (node = edge.first) && edge.firstInput)
    || (decide (node = edge.second) && edge.secondInput)

/-- The function `DirectedEdge::isOutput`. -/
def isOutput {Relation : Type} (edge : Edge Relation) (node : NodePointer) : Bool :=
  (decide (node = edge.second) && edge.firstInput)
    || (decide (node = edge.first) && edge.secondInput)

/-- The function `Edge::getOtherNode`. -/
def getOtherNode {Relation : Type} (edge : Edge Relation) (oneNode : NodePointer) :
    NodePointer :=
  if edge.first = oneNode then edge.second else edge.first

/-- The comparison `Edge::operator==`: the same first and the same second node. -/
def equals {Relation : Type} (edge other : Edge Relation) : Bool :=
  decide (edge.first = other.first) && decide (edge.second = other.second)

end Edge

/-- The member `edges` of a node, a `FastMap<NodeType*, EdgeType*>`, by its entries in the
order of iteration. -/
abbrev EdgeMap := List (NodePointer × EdgePointer)

namespace EdgeMap

/-- The keys of the map. -/
def keys (map : EdgeMap) : List NodePointer := map.map Prod.fst

/-- The function `find`: the value stored for a key. -/
def find (map : EdgeMap) (key : NodePointer) : Option EdgePointer :=
  (List.find? (fun entry => decide (entry.1 = key)) map).map Prod.snd

/-- The function `emplace`: a new entry, unless the key has one. -/
def emplace (map : EdgeMap) (key : NodePointer) (value : EdgePointer) : EdgeMap :=
  if key ∈ keys map then map else map ++ [(key, value)]

/-- The function `erase`: the map without the entry of the key. -/
def erase (map : EdgeMap) (key : NodePointer) : EdgeMap :=
  List.filter (fun entry => decide (entry.1 ≠ key)) map

end EdgeMap

/-- A node object of `Node<Key, Relation, Direction>`: its map of edges. -/
structure Node where
  edges : EdgeMap

/-- A graph object of `Graph<Key, NodeType>`: the keys of the map `nodes` in the order of
iteration, the node stored for a key, the set `edges` by its elements with their addresses, and
the next address an edge object is created at. -/
structure Graph (Relation : Type) where
  nodes : List NodePointer
  node : NodePointer → Node
  edges : List (EdgePointer × Edge Relation)
  nextEdge : EdgePointer

namespace Graph

/-- The empty graph, `Graph()`. -/
def empty {Relation : Type} : Graph Relation := ⟨[], fun _ => ⟨[]⟩, [], 0⟩

/-- The edge object at an address. -/
def edge {Relation : Type} (graph : Graph Relation) (pointer : EdgePointer) :
    Option (Edge Relation) :=
  (List.find? (fun entry => decide (entry.1 = pointer)) graph.edges).map Prod.snd

/-- The graph with the map of edges of one node replaced. -/
def setEdges {Relation : Type} (graph : Graph Relation) (node : NodePointer) (edges : EdgeMap) :
    Graph Relation :=
  { graph with node := Function.update graph.node node ⟨edges⟩ }

/-- The function `getOrCreateNode`: the graph and the node for the key. -/
def getOrCreateNode {Relation : Type} (graph : Graph Relation) (key : NodePointer) :
    Graph Relation × NodePointer :=
  if key ∈ graph.nodes then (graph, key)
  else ({ graph with nodes := graph.nodes ++ [key],
                     node := Function.update graph.node key ⟨[]⟩ }, key)

/-- The function `createEdge`: `edges.emplace` creates the edge object unless the set holds an
equal one, then both nodes get an entry for each other. -/
def createEdge {Relation : Type} (graph : Graph Relation) (first second : NodePointer)
    (relation : Relation) : Graph Relation × EdgePointer :=
  let created : Edge Relation := ⟨first, second, true, false, relation⟩
  let emplaced : Graph Relation × EdgePointer :=
    match List.find? (fun entry => entry.2.equals created) graph.edges with
    | some entry => (graph, entry.1)
    | none =>
      ({ graph with edges := graph.edges ++ [(graph.nextEdge, created)],
                    nextEdge := graph.nextEdge + 1 }, graph.nextEdge)
  let graph := emplaced.1.setEdges first ((emplaced.1.node first).edges.emplace second emplaced.2)
  let graph := graph.setEdges second ((graph.node second).edges.emplace first emplaced.2)
  (graph, emplaced.2)

/-- The function `eraseEdge`. Dereferencing an address at which there is no edge object is
undefined in the source, in the model it is a failure of its own. -/
def eraseEdge {Relation : Type} (graph : Graph Relation) (pointer : EdgePointer) :
    Except Failure (Graph Relation) := do
  let edge ← deref (graph.edge pointer)
  let graph := graph.setEdges edge.first ((graph.node edge.first).edges.erase edge.second)
  let graph := graph.setEdges edge.second ((graph.node edge.second).edges.erase edge.first)
  pure { graph with edges := List.filter (fun entry => !entry.2.equals edge) graph.edges }

/-- The body of the loop of `eraseNode` for one entry of the map of the erased node. -/
def eraseNodeStep {Relation : Type} (key : NodePointer)
    (state : Except Failure (Graph Relation)) (entry : NodePointer × EdgePointer) :
    Except Failure (Graph Relation) := do
  let graph ← state
  let edge ← deref (graph.edge entry.2)
  let other := edge.getOtherNode key
  let graph := graph.setEdges other ((graph.node other).edges.erase key)
  pure { graph with edges := List.filter (fun entry => !entry.2.equals edge) graph.edges }

/-- The function `eraseNode`. The loop runs over the map of the erased node; an edge of the
node to itself would erase from the map that is iterated over (undefined in the source). -/
def eraseNode {Relation : Type} (graph : Graph Relation) (key : NodePointer) :
    Except Failure (Graph Relation) := do
  if key ∉ graph.nodes then
    .error (.compilationError .GENERAL "Failed to find graph-node for key")
  else
    let graph ← (graph.node key).edges.foldl (eraseNodeStep key) (.ok graph)
    pure { graph with nodes := List.filter (fun other => decide (other ≠ key)) graph.nodes }

end Graph

namespace Node

/-- The function `getEdge`. -/
def getEdge {Relation : Type} (graph : Graph Relation) (node neighbor : NodePointer) :
    Option EdgePointer :=
  (graph.node node).edges.find neighbor

/-- The function `isAdjacent`. -/
def isAdjacent {Relation : Type} (graph : Graph Relation) (node neighbor : NodePointer) : Bool :=
  (getEdge graph node neighbor).isSome

/-- The function `addEdge`. -/
def addEdge {Relation : Type} (graph : Graph Relation) (node neighbor : NodePointer)
    (relation : Relation) : Except Failure (Graph Relation × EdgePointer) :=
  if isAdjacent graph node neighbor then
    .error (.compilationError .GENERAL "Nodes are already adjacent!")
  else .ok (graph.createEdge node neighbor relation)

/-- The function `getOrCreateEdge`. -/
def getOrCreateEdge {Relation : Type} (graph : Graph Relation) (node neighbor : NodePointer)
    (defaultRelation : Relation) : Except Failure (Graph Relation × EdgePointer) :=
  match (graph.node node).edges.find neighbor with
  | some pointer => .ok (graph, pointer)
  | none => addEdge graph node neighbor defaultRelation

/-- The function `removeEdge`. -/
def removeEdge {Relation : Type} (graph : Graph Relation) (pointer : EdgePointer) :
    Except Failure (Graph Relation) :=
  graph.eraseEdge pointer

/-- The function `removeAsNeighbor`. -/
def removeAsNeighbor {Relation : Type} (graph : Graph Relation) (node neighbor : NodePointer) :
    Except Failure (Graph Relation) :=
  match (graph.node node).edges.find neighbor with
  | none => .error (.compilationError .GENERAL "Node was not neighbor of this node!")
  | some pointer => removeEdge graph pointer

/-- The loop of `getSingleNeighbor`, `getSinglePredecessor` and `getSingleSuccessor` over the
map of edges: `selected` is the test of an edge, `single` the node found so far. -/
def singleLoop {Relation : Type} (graph : Graph Relation) (selected : Edge Relation → Bool) :
    EdgeMap → Option NodePointer → Except Failure (Option NodePointer)
  | [], single => .ok single
  | pair :: rest, single => do
    let edge ← deref (graph.edge pair.2)
    if selected edge then
      if single.isSome then .ok none
      else singleLoop graph selected rest (some pair.1)
    else singleLoop graph selected rest single

/-- The function `getSingleNeighbor(relation)` for a predicate on the relation. -/
def getSingleNeighbor {Relation : Type} (graph : Graph Relation) (node : NodePointer)
    (relation : Relation → Bool) : Except Failure (Option NodePointer) :=
  singleLoop graph (fun edge => relation edge.data) (graph.node node).edges none

/-- The function `getSingleNeighbor(relation)` for a relation to compare with. -/
def getSingleNeighborWith {Relation : Type} [DecidableEq Relation] (graph : Graph Relation)
    (node : NodePointer) (relation : Relation) : Except Failure (Option NodePointer) :=
  getSingleNeighbor graph node (fun rel => decide (rel = relation))

/-- The function `getSinglePredecessor(relation)`. -/
def getSinglePredecessor {Relation : Type} (graph : Graph Relation) (node : NodePointer)
    (relation : Relation → Bool) : Except Failure (Option NodePointer) :=
  singleLoop graph (fun edge => edge.isOutput node && relation edge.data)
    (graph.node node).edges none

/-- The function `getSinglePredecessor()`. -/
def getSinglePredecessorOfAll {Relation : Type} (graph : Graph Relation) (node : NodePointer) :
    Except Failure (Option NodePointer) :=
  getSinglePredecessor graph node (fun _ => true)

/-- The function `getSingleSuccessor(relation)`. -/
def getSingleSuccessor {Relation : Type} (graph : Graph Relation) (node : NodePointer)
    (relation : Relation → Bool) : Except Failure (Option NodePointer) :=
  singleLoop graph (fun edge => edge.isInput node && relation edge.data)
    (graph.node node).edges none

/-- The function `getSingleSuccessor()`. -/
def getSingleSuccessorOfAll {Relation : Type} (graph : Graph Relation) (node : NodePointer) :
    Except Failure (Option NodePointer) :=
  getSingleSuccessor graph node (fun _ => true)

end Node

/-- The entries of a map of edges whose edge passes the test `selected`. -/
def selectedEntries {Relation : Type} (graph : Graph Relation) (selected : Edge Relation → Bool)
    (map : EdgeMap) : EdgeMap :=
  List.filter (fun entry => (graph.edge entry.2).any selected) map

/-- The node `neighbor` is adjacent to `node` over an edge that passes the test `selected`. -/
def Selected {Relation : Type} (graph : Graph Relation) (selected : Edge Relation → Bool)
    (node neighbor : NodePointer) : Prop :=
  ∃ pointer edge, (neighbor, pointer) ∈ (graph.node node).edges
    ∧ graph.edge pointer = some edge ∧ selected edge = true

/-- The result `single` is the unique node adjacent over a selected edge if there is exactly
one, and null if there is none or more than one. -/
def UniqueSelected {Relation : Type} (graph : Graph Relation) (selected : Edge Relation → Bool)
    (node : NodePointer) (single : Option NodePointer) : Prop :=
  (∀ neighbor, single = some neighbor ↔
      (Selected graph selected node neighbor
        ∧ ∀ other, Selected graph selected node other → other = neighbor))
    ∧ (single = none ↔
      ((∀ neighbor, ¬ Selected graph selected node neighbor)
        ∨ ∃ neighbor other, Selected graph selected node neighbor
            ∧ Selected graph selected node other ∧ neighbor ≠ other))

/-- The edge connects the two nodes, in one of the two orders. -/
def Edge.connects {Relation : Type} (edge : Edge Relation) (a b : NodePointer) : Prop :=
  (edge.first = a ∧ edge.second = b) ∨ (edge.first = b ∧ edge.second = a)

/-- The adjacency of a graph is consistent: the maps of the graph and of its nodes have no key
twice, a node lists a neighbor iff the neighbor lists the node, both entries hold the address
of the same edge object, which is in the set of edges of the graph and connects the two nodes,
and every edge object of the set is listed by the two nodes it connects. -/
structure Graph.Consistent {Relation : Type} (graph : Graph Relation) : Prop where
  nodesUnique : graph.nodes.Nodup
  keysUnique : ∀ a ∈ graph.nodes, (graph.node a).edges.keys.Nodup
  pointersUnique : ∀ p e f, (p, e) ∈ graph.edges → (p, f) ∈ graph.edges → e = f
  pointersAllocated : ∀ p e, (p, e) ∈ graph.edges → p < graph.nextEdge
  edgesUnique : ∀ p q e f, (p, e) ∈ graph.edges → (q, f) ∈ graph.edges →
    e.first = f.first → e.second = f.second → p = q
  symmetric : ∀ a ∈ graph.nodes, ∀ b p, (b, p) ∈ (graph.node a).edges →
    b ∈ graph.nodes ∧ (a, p) ∈ (graph.node b).edges
      ∧ ∃ e, (p, e) ∈ graph.edges ∧ e.connects a b
  listed : ∀ p e, (p, e) ∈ graph.edges →
    e.first ∈ graph.nodes ∧ e.second ∈ graph.nodes
      ∧ (e.second, p) ∈ (graph.node e.first).edges ∧ (e.first, p) ∈ (graph.node e.second).edges

/-- The graphs reachable from the empty graph by the operations of `Graph` and `Node`. The
nodes and edges an operation is called on or with are objects of the graph; `eraseNode` is
called for nodes without an edge to themselves. -/
inductive Reachable {Relation : Type} : Graph Relation → Prop
  | empty : Reachable Graph.empty
  | getOrCreateNode (graph : Graph Relation) (key : NodePointer) :
      Reachable graph → Reachable (graph.getOrCreateNode key).1
  | addEdge (graph result : Graph Relation) (node neighbor : NodePointer) (relation : Relation)
      (pointer : EdgePointer) :
      Reachable graph → node ∈ graph.nodes → neighbor ∈ graph.nodes →
      Node.addEdge graph node neighbor relation = .ok (result, pointer) → Reachable result
  | getOrCreateEdge (graph result : Graph Relation) (node neighbor : NodePointer)
      (relation : Relation) (pointer : EdgePointer) :
      Reachable graph → node ∈ graph.nodes → neighbor ∈ graph.nodes →
      Node.getOrCreateEdge graph node neighbor relation = .ok (result, pointer) →
      Reachable result
  | removeEdge (graph result : Graph Relation) (pointer : EdgePointer) :
      Reachable graph → Node.removeEdge graph pointer = .ok result → Reachable result
  | removeAsNeighbor (graph result : Graph Relation) (node neighbor : NodePointer) :
      Reachable graph → node ∈ graph.nodes →
      Node.removeAsNeighbor graph node neighbor = .ok result → Reachable result
  | eraseNode (graph result : Graph Relation) (key : NodePointer) :
      Reachable graph → Node.isAdjacent graph key key = false →
      graph.eraseNode key = .ok result → Reachable result

end vc4c.Store

namespace vc4c.Example

/-- The graph with the nodes 1, 2 and 3 and the edges from 1 to 3 and from 2 to 3, built by the
operations of the graph; the relation of an edge is a number. -/
def joining : Store.Graph Nat :=
  let graph := (Store.Graph.empty.getOrCreateNode 1).1
  let graph := (graph.getOrCreateNode 2).1
  let graph := (graph.getOrCreateNode 3).1
  let graph := (graph.createEdge 1 3 7).1
  (graph.createEdge 2 3 8).1

end vc4c.Example

namespace vc4c

/-! ### The setups of the VPM in a vectorized loop (ControlFlow.cpp) -/

/-- The register `REG_VPM_IN_SETUP`. -/
def REG_VPM_IN_SETUP : Register := ⟨1, 49⟩

/-- The register `REG_VPM_OUT_SETUP`. -/
def REG_VPM_OUT_SETUP : Register := ⟨2, 49⟩

/-- Modelled from the spec: the immediate of a `LoadImmediate`, the literal of its argument
(IntermediateInstruction.h is not part of the sources); an instruction of another type has
none. -/
def Instruction.getImmediate (i : Instruction) : Option Literal :=
  if i.type = .loadImmediate then (i.getArgument 0).bind Value.getLiteralValue else none

/-- Modelled from the spec: `LoadImmediate::setImmediate`, which a setup wrapper calls with the
changed setup word when it goes out of scope (VPM.h is not part of the sources). -/
def Instruction.setImmediate (i : Instruction) (immediate : Literal) : Instruction :=
  i.setArgument 0 ⟨.literal immediate, DataType.TYPE_INT32⟩

/-- Modelled from the spec: a field of a setup word, as the wrappers of the setups declare
them (VPM.h and Bitfield.h are not part of the sources): `width` bits from the bit `position`
on. -/
structure Bitfield where
  position : Nat
  width : Nat

/-- Modelled from the spec: the getter of a field, the number its bits hold. -/
def Bitfield.get (field : Bitfield) (word : Literal) : Nat :=
  word / 2 ^ field.position % 2 ^ field.width

/-- Modelled from the spec: the setter of a field: the bits of the field are replaced by the
low bits of the value, the other bits of the word stay. -/
def Bitfield.set (field : Bitfield) (word : Literal) (value : Nat) : Literal :=
  word % 2 ^ field.position
    + 2 ^ field.position
      * (value % 2 ^ field.width + 2 ^ field.width * (word / 2 ^ (field.position + field.width)))

/-- What `fixVPMSetups` uses of a `VPWSetupWrapper` (VPM.h is not part of the sources):
`isDMASetup` as a function of the setup word, and the field of the depth of the DMA setup. -/
structure VPWSetup where
  isDMASetup : Literal → Bool
  depth : Bitfield

/-- The getter `dmaSetup.getDepth()`. -/
def VPWSetup.getDepth (wrapper : VPWSetup) (word : Literal) : Nat := wrapper.depth.get word

/-- The setter `dmaSetup.setDepth(value)`. -/
def VPWSetup.setDepth (wrapper : VPWSetup) (word : Literal) (value : Nat) : Literal :=
  wrapper.depth.set word value

/-- What `fixVPMSetups` uses of a `VPRSetupWrapper` (VPM.h is not part of the sources):
`isDMASetup` as a function of the setup word, and the field of the row length of the DMA
setup. -/
structure VPRSetup where
  isDMASetup : Literal → Bool
  rowLength : Bitfield

/-- The getter `dmaSetup.getRowLength()`. -/
def VPRSetup.getRowLength (wrapper : VPRSetup) (word : Literal) : Nat :=
  wrapper.rowLength.get word

/-- The setter `dmaSetup.setRowLength(value)`. -/
def VPRSetup.setRowLength (wrapper : VPRSetup) (word : Literal) (value : Nat) : Literal :=
  wrapper.rowLength.set word value

/-- The periphery as `fixVPMSetups` uses it. `vpmAccess` stands for
`findRelatedVPMInstructions(it, isRead).vpmAccess`, the instruction accessing the VPM that
belongs to the setup at the given position of the walker (VPM.cpp is not part of the
sources). -/
structure VPMEnvironment where
  vpwSetup : VPWSetup
  vprSetup : VPRSetup
  vpmAccess : Nat → Bool → Option Instruction

/-- Whether the setup at a position is changed: it is a DMA setup and the related access to the
VPM is decorated as vectorized. -/
def isVectorizedSetup (isDMASetup : Bool) (vpmAccess : Option Instruction) : Bool :=
  isDMASetup && vpmAccess.any fun access =>
    access.hasDecoration InstructionDecorations.AUTO_VECTORIZED

/-- The body of the loop of `fixVPMSetups` for the instruction at the walker: the instruction
it leaves and whether it was counted. The products are computed in `unsigned` (32 bits); the
depth is cast to `uint8_t`. Wrapping an instruction that is no `LoadImmediate` is undefined in
the source, in the model it is a failure of its own. -/
def fixVPMSetup (env : VPMEnvironment) (vectorizationFactor : Nat) (position : Nat)
    (inst : Instruction) : Except Failure (Instruction × Bool) :=
  if inst.writesRegister REG_VPM_OUT_SETUP then do
    let setup ← deref inst.getImmediate
    if isVectorizedSetup (env.vpwSetup.isDMASetup setup) (env.vpmAccess position false) then
      pure ((inst.setImmediate (env.vpwSetup.setDepth setup
          (env.vpwSetup.getDepth setup * vectorizationFactor % 2 ^ 32 % 2 ^ 8))).addDecorations
        InstructionDecorations.AUTO_VECTORIZED, true)
    else pure (inst, false)
  else if inst.writesRegister REG_VPM_IN_SETUP then do
    let setup ← deref inst.getImmediate
    if isVectorizedSetup (env.vprSetup.isDMASetup setup) (env.vpmAccess position true) then
      pure ((inst.setImmediate (env.vprSetup.setRowLength setup
          (env.vprSetup.getRowLength setup * vectorizationFactor % 2 ^ 32 % 16))).addDecorations
        InstructionDecorations.AUTO_VECTORIZED, true)
    else pure (inst, false)
  else pure (inst, false)

/-- The loop of `fixVPMSetups` from a position of the walker on: the slots behind the walker as
the loop leaves them and the number of setups counted from there. Reading an empty slot is
undefined in the source, in the model it is a failure of its own. -/
def fixVPMSetupsFrom (env : VPMEnvironment) (vectorizationFactor : Nat) :
    Nat → List (Option Instruction) → Except Failure (List (Option Instruction) × Nat)
  | _, [] => .ok ([], 0)
  | position, slot :: rest => do
    let inst ← deref slot
    let fixed ← fixVPMSetup env vectorizationFactor position inst
    let remaining ← fixVPMSetupsFrom env vectorizationFactor (position + 1) rest
    pure (some fixed.1 :: remaining.1, (if fixed.2 then 1 else 0) + remaining.2)

/-- The function `fixVPMSetups`. `walked` are the instruction slots the walker passes from the
begin of the loop header to the end of the latch block; the result is these slots as the
function leaves them and the number it returns. -/
def fixVPMSetups (env : VPMEnvironment) (walked : List (Option Instruction))
    (vectorizationFactor : Nat) : Except Failure (List (Option Instruction) × Nat) :=
  fixVPMSetupsFrom env vectorizationFactor 0 walked

/-- The instruction the body of the loop leaves at a position (the instruction itself where
the body fails). -/
def fixedSetup (env : VPMEnvironment) (vectorizationFactor : Nat) (position : Nat)
    (inst : Instruction) : Instruction :=
  match fixVPMSetup env vectorizationFactor position inst with
  | .ok fixed => fixed.1
  | .error _ => inst

/-- Whether the body of the loop counts the slot at a position. -/
def countsSetup (env : VPMEnvironment) (vectorizationFactor : Nat) (position : Nat)
    (slot : Option Instruction) : Bool :=
  slot.any fun inst =>
    match fixVPMSetup env vectorizationFactor position inst with
    | .ok fixed => fixed.2
    | .error _ => false

end vc4c

namespace vc4c.Example

/-- The layout of the setup words of the VideoCore IV: a write setup is a DMA setup if its two
top bits are 10, its depth are the 7 bits from bit 16 on; a read setup is a DMA setup if its top
bit is set, its row length are the 4 bits from bit 20 on. The VPM access that belongs to a setup
is the instruction behind it. -/
def periphery (walked : List (Option Instruction)) : VPMEnvironment :=
  ⟨⟨fun word => decide (Bitfield.get ⟨30, 2⟩ word = 2), ⟨16, 7⟩⟩,
    ⟨fun word => decide (Bitfield.get ⟨31, 1⟩ word = 1), ⟨20, 4⟩⟩,
    fun position _ => (walked.get? (position + 1)).join⟩

/-- The load of a setup word into a register. -/
def loadSetup (register : Register) (word : Literal) : Instruction :=
  instruction .loadImmediate (some ⟨.register register, int32⟩) [literalValue word]

/-- A write of the local `%1` to the VPM, which the vectorizer has changed. -/
def vectorizedAccess : Instruction :=
  (instruction .moveOperation (some ⟨.register ⟨3, 48⟩, int32⟩)
    [localValue 1]).addDecorations InstructionDecorations.AUTO_VECTORIZED

/-- A loop body that writes through the VPM: the DMA setup of a write with the given depth and
the access. -/
def writingBody (depth : Nat) : List (Option Instruction) :=
  [some (loadSetup REG_VPM_OUT_SETUP (2 * 2 ^ 30 + depth * 2 ^ 16)), some vectorizedAccess]

/-- A read of the VPM into the local `%1`, which the vectorizer has changed. -/
def vectorizedRead : Instruction :=
  (instruction .moveOperation (some (localValue 1))
    [⟨.register ⟨3, 48⟩, int32⟩]).addDecorations InstructionDecorations.AUTO_VECTORIZED

/-- A loop body that reads through the VPM: the DMA setup of a read with the given row length
and the access. -/
def readingBody (rowLength : Nat) : List (Option Instruction) :=
  [some (loadSetup REG_VPM_IN_SETUP (2 ^ 31 + rowLength * 2 ^ 20)), some vectorizedRead]

end vc4c.Example

namespace vc4c

/-! ### The vectorization of a loop (ControlFlow.cpp) -/

/-- The register `REG_SFU_OUT`, the accumulator r4 (register file 4 stands for the
accumulators). -/
def REG_SFU_OUT : Register := ⟨4, 36⟩

/-- The register of a value, `Value::checkRegister`. -/
def Value.checkRegister (v : Value) : Option Register :=
  match v.data with
  | .register reg => some reg
  | _ => none

/-- Whether one of the arguments is the given local. Modelled from the spec: these instructions
are the users of type `READER` that `Local::forUsers` hands out (Locals.h is not part of the
sources). -/
def Instruction.readsLocal (i : Instruction) (l : Local) : Bool :=
  i.arguments.any fun arg => decide (arg.checkLocal = some l)

/-- Whether one of the arguments is the given register, `readsRegister`. -/
def Instruction.readsRegister (i : Instruction) (reg : Register) : Bool :=
  i.arguments.any fun arg => arg.hasRegister reg

/-- Modelled from the spec: `assertArgument` gives the argument at an index and throws if there
is none (the text of the error is not part of the sources). -/
def Instruction.assertArgument (i : Instruction) (index : Nat) : Except Failure Value :=
  match i.getArgument index with
  | some arg => .ok arg
  | none => .error (.compilationError .GENERAL "Invalid argument index")

/-- What `vectorize` uses of a `ControlFlowLoop`. The instructions of the method are numbered
in the order of the method; `inLoop` tells whether `findInLoop` finds an instruction, `blockEnd`
is the position behind the last instruction of the block of an instruction, `first` the position
of `loop.front()->key->walk()` and `last` the position of `loop.back()->key->walkEnd()`. -/
structure ControlFlowLoop where
  inLoop : Nat → Bool
  blockEnd : Nat → Nat
  first : Nat
  last : Nat

/-- The positions of the instructions a `LoopControl` points to. -/
structure LoopControlWalkers where
  initialization : Nat
  iterationStep : Nat

/-- The helpers of `vectorize` that are not part of the sources or depend on the hash of
pointers: `firstOpen` is the element `*openInstructions.begin()` of a set, given by its elements
in the order of their insertion; the two tests of a register; `hasSideEffects`; the periphery of
`fixVPMSetups`; `foundInPredecessor` stands for
`findWalker(loop.findPredecessor(), move).has_value()`. -/
structure VectorizationEnvironment where
  firstOpen : List Nat → Nat
  isSpecialFunctionsUnit : Register → Bool
  isTextureMemoryUnit : Register → Bool
  hasSideEffects : Instruction → Bool
  periphery : VPMEnvironment
  foundInPredecessor : Bool

/-- The state of `vectorize`: the instructions of the method, the types of the locals, the set
`openInstructions` (the positions of its instructions in the order of their insertion), and two
records of what was done: the locals whose type was assigned and the positions of the
instructions `vectorizeInstruction` was called for, in the order of the calls (their number is
`numVectorized`). -/
structure Vectorization where
  instructions : List Instruction
  types : Local → DataType
  openInstructions : List Nat
  widened : List Local
  vectorized : List Nat

/-- The positions of the instructions reading a local. -/
def readersOf (instructions : List Instruction) (l : Local) : List Nat :=
  (List.range instructions.length).filter fun user =>
    (instructions.get? user).any fun inst => inst.readsLocal l

/-- The walk from `start` to the end of the block at `stop`: the first instruction reading the
result of the SFU that is not decorated as vectorized. -/
def findReaderOfSFU (instructions : List Instruction) (start stop : Nat) : Option Nat :=
  (List.range' start (stop - start)).find? fun position =>
    (instructions.get? position).any fun inst =>
      inst.readsRegister REG_SFU_OUT
        && !inst.hasDecoration InstructionDecorations.AUTO_VECTORIZED

/-- Whether the output of an instruction is a register of the SFU or of the TMU. -/
def writesPeriphery (env : VectorizationEnvironment) (inst : Instruction) : Bool :=
  inst.getOutput.any fun out =>
    match out.checkRegister with
    | some reg => env.isSpecialFunctionsUnit reg || env.isTextureMemoryUnit reg
    | none => false

/-- The body of the loop of `scheduleForVectorization` for one user of the local: the set of
open instructions it leaves. -/
def scheduleUser (env : VectorizationEnvironment) (loop : ControlFlowLoop)
    (instructions : List Instruction) (openInstructions : List Nat) (user : Nat) : List Nat :=
  match instructions.get? user with
  | none => openInstructions
  | some inst =>
    let scheduled :=
      if inst.hasDecoration InstructionDecorations.AUTO_VECTORIZED then openInstructions
      else emplaceInSet openInstructions user
    if writesPeriphery env inst = true ∧ loop.inLoop user = true then
      match findReaderOfSFU instructions (user + 1) (loop.blockEnd user) with
      | some reader => emplaceInSet scheduled reader
      | none => scheduled
    else scheduled

/-- The function `scheduleForVectorization`: the set of open instructions it leaves. -/
def scheduleForVectorization (env : VectorizationEnvironment) (loop : ControlFlowLoop)
    (instructions : List Instruction) (l : Local) (openInstructions : List Nat) : List Nat :=
  (readersOf instructions l).foldl (scheduleUser env loop instructions) openInstructions

/-- The first step of `vectorizeInstruction` for one argument. The state of the loop is the set
of open instructions, the arguments passed so far and `vectorWidth`, an `unsigned char`. -/
def vectorizeArgument (env : VectorizationEnvironment) (loop : ControlFlowLoop)
    (instructions : List Instruction) (types : Local → DataType) (vectorizationFactor : Nat)
    (state : List Nat × List Value × Nat) (arg : Value) : List Nat × List Value × Nat :=
  match arg.checkLocal with
  | some l =>
    if arg.type ≠ types l then
      let type := arg.type.toVectorType (types l).getVectorWidth
      (scheduleForVectorization env loop instructions l state.1,
        state.2.1 ++ [{ arg with type := type }], max state.2.2 type.getVectorWidth)
    else (state.1, state.2.1 ++ [arg], state.2.2)
  | none =>
    if arg.checkRegister.isSome then (state.1, state.2.1 ++ [arg], vectorizationFactor % 256)
    else (state.1, state.2.1 ++ [arg], state.2.2)

/-- The type with its vector width changed; for a pointer the width of the type pointed to is
changed (`createPointerType` gives the pointer to a type in an address space). -/
def widenedType (type : DataType) (width : Nat) : DataType :=
  match type with
  | .pointer elementType addressSpace => .pointer (elementType.toVectorType width) addressSpace
  | type => type.toVectorType width

/-- The second step of `vectorizeInstruction`: the instruction with the type of its output
changed and the state with the type of the local written changed and its readers scheduled. -/
def vectorizeOutput (env : VectorizationEnvironment) (loop : ControlFlowLoop)
    (vectorWidth : Nat) (inst : Instruction) (state : Vectorization) :
    Instruction × Vectorization :=
  match inst.getOutput with
  | none => (inst, state)
  | some out =>
    if inst.isOperation = true ∨ inst.isMoveOperation = true then
      let out : Value := { out with type := widenedType out.type vectorWidth }
      match out.checkLocal with
      | some loc =>
        ({ inst with output := some out },
          { state with
            types := (Function.update state.types loc
              (widenedType (state.types loc) out.type.getVectorWidth)),
            widened := emplaceInSet state.widened loc,
            openInstructions := (scheduleForVectorization env loop state.instructions loc
              state.openInstructions) })
      | none => ({ inst with output := some out }, state)
    else (inst, state)

/-- The function `vectorizeInstruction` for the instruction found at a position. -/
def vectorizeFound (env : VectorizationEnvironment) (loop : ControlFlowLoop)
    (vectorizationFactor : Nat) (position : Nat) (inst : Instruction) (state : Vectorization) :
    Vectorization :=
  let done := inst.getArguments.foldl
    (vectorizeArgument env loop state.instructions state.types vectorizationFactor)
    (state.openInstructions, [], 1)
  let changed := vectorizeOutput env loop done.2.2 { inst with arguments := done.2.1 }
    { state with openInstructions := done.1 }
  { changed.2 with
    instructions := changed.2.instructions.set position
      (changed.1.addDecorations InstructionDecorations.AUTO_VECTORIZED),
    openInstructions := changed.2.openInstructions.filter fun other => other ≠ position }

/-- The function `vectorizeInstruction`, called with the walker at a position. -/
def vectorizeInstruction (env : VectorizationEnvironment) (loop : ControlFlowLoop)
    (vectorizationFactor : Nat) (position : Nat) (state : Vectorization) :
    Except Failure Vectorization := do
  let inst ← deref (state.instructions.get? position)
  pure (vectorizeFound env loop vectorizationFactor position inst state)

/-- Modelled from the spec: the single writer of a value, `Value::getSingleWriter`: the
instruction writing the local of the value if there is exactly one (Values.cpp is not part of
the sources). -/
def getSingleWriter (instructions : List Instruction) (arg : Value) : Option Instruction :=
  match arg.checkLocal with
  | none => none
  | some l =>
    match instructions.filter fun inst => inst.writesLocal l with
    | [writer] => some writer
    | _ => none

/-- The condition `vectorize` tests before it throws for an instruction outside of the loop:
all arguments are the first one, whose single writer is an operation decorated as vectorized
without side effects. The branch it guards holds a comment only. -/
def acceptsFolding (env : VectorizationEnvironment) (instructions : List Instruction)
    (inst : Instruction) : Bool :=
  match inst.getArgument 0 with
  | none => false
  | some arg =>
    inst.getArguments.all (fun otherArg => decide (otherArg = arg))
      && (getSingleWriter instructions arg).any fun op =>
        op.isOperation && op.hasDecoration InstructionDecorations.AUTO_VECTORIZED
          && !env.hasSideEffects op

/-- The loop of `vectorize` over the open instructions. For an instruction outside of the loop
the source tests `acceptsFolding`, does nothing if it holds, and throws in either case. -/
def vectorizeOpen (env : VectorizationEnvironment) (loop : ControlFlowLoop)
    (vectorizationFactor : Nat) : Nat → Vectorization → Except Failure Vectorization
  | 0, state => if state.openInstructions.isEmpty then .ok state else .error .outOfFuel
  | fuel + 1, state =>
    if state.openInstructions.isEmpty then .ok state
    else
      let picked := env.firstOpen state.openInstructions
      if loop.inLoop picked then do
        let state ← vectorizeInstruction env loop vectorizationFactor picked state
        vectorizeOpen env loop vectorizationFactor fuel
          { state with vectorized := state.vectorized ++ [picked] }
      else do
        let inst ← deref (state.instructions.get? picked)
        let _ ← inst.assertArgument 0
        .error (.compilationError .OPTIMIZER
          "Accessing vectorized locals outside of the loop is not yet implemented")

/-- The begin of `vectorize`: the type of the iteration variable is changed (the factor is cast
to `unsigned char`, the width is an `unsigned char`) and its readers are scheduled. The types of
the locals are those of `types`. -/
def vectorizeStart (env : VectorizationEnvironment) (loop : ControlFlowLoop)
    (loopControl : LoopControl) (instructions : List Instruction) (types : Local → DataType) :
    Except Failure Vectorization := do
  let iterationVariable ← deref loopControl.iterationVariable
  let l := iterationVariable.id
  let types := Function.update types l
    ((types l).toVectorType
      ((types l).getVectorWidth * (loopControl.vectorizationFactor % 256) % 256))
  pure ⟨instructions, types, scheduleForVectorization env loop instructions l [], [l], []⟩

/-- The end of `vectorize`: `fixVPMSetups` for the instructions of the loop and
`fixInitialValueAndStep`, which change the instructions in the method. -/
def vectorizeEnd (env : VectorizationEnvironment) (loop : ControlFlowLoop)
    (walkers : LoopControlWalkers) (loopControl : LoopControl) (state : Vectorization) :
    Except Failure Vectorization := do
  let before := state.instructions.take loop.first
  let body := (state.instructions.drop loop.first).take (loop.last - loop.first)
  let behind := (state.instructions.drop loop.first).drop (loop.last - loop.first)
  let fixed ← fixVPMSetups env.periphery (body.map some) loopControl.vectorizationFactor
  let instructions := before ++ fixed.1.filterMap id ++ behind
  let iterationVariable ← deref loopControl.iterationVariable
  let loopControl ← fixInitialValueAndStep env.foundInPredecessor
    { loopControl with
      initialization := instructions.get? walkers.initialization,
      iterationStep := instructions.get? walkers.iterationStep,
      iterationVariable := (some
        { iterationVariable with type := state.types iterationVariable.id }) }
  let initialization ← deref loopControl.initialization
  let iterationStep ← deref loopControl.iterationStep
  pure { state with
    instructions := (instructions.set walkers.initialization initialization).set
      walkers.iterationStep iterationStep }

/-- The function `vectorize` up to the end of its loop over the open instructions, which is
run for one round more than the method has instructions. -/
def vectorizeTypes (env : VectorizationEnvironment) (loop : ControlFlowLoop)
    (loopControl : LoopControl) (instructions : List Instruction) (types : Local → DataType) :
    Except Failure Vectorization := do
  let state ← vectorizeStart env loop loopControl instructions types
  vectorizeOpen env loop loopControl.vectorizationFactor (instructions.length + 1) state

/-- The function `vectorize`. -/
def vectorize (env : VectorizationEnvironment) (loop : ControlFlowLoop)
    (walkers : LoopControlWalkers) (loopControl : LoopControl)
    (instructions : List Instruction) (types : Local → DataType) :
    Except Failure Vectorization := do
  let state ← vectorizeTypes env loop loopControl instructions types
  vectorizeEnd env loop walkers loopControl state

/-- The state after the loop over the open instructions has picked the given instructions of
the loop in turn. -/
def vectorizePicked (env : VectorizationEnvironment) (loop : ControlFlowLoop)
    (vectorizationFactor : Nat) : List Nat → Vectorization → Except Failure Vectorization
  | [], state => .ok state
  | picked :: rest, state => do
    let state ← vectorizeInstruction env loop vectorizationFactor picked state
    vectorizePicked env loop vectorizationFactor rest
      { state with vectorized := state.vectorized ++ [picked] }

/-- An open instruction is an instruction of the method that is not decorated as vectorized and
has an argument. -/
def IsOpen (instructions : List Instruction) (position : Nat) : Prop :=
  ∃ inst, instructions.get? position = some inst
    ∧ inst.hasDecoration InstructionDecorations.AUTO_VECTORIZED = false
    ∧ inst.arguments ≠ []

end vc4c

namespace vc4c.Example

/-- The helpers of `vectorize`: the first element inserted is the begin of a set, no register
belongs to the SFU or the TMU, no instruction has side effects, the VPM as laid out in
`periphery`. -/
def vectorization : VectorizationEnvironment :=
  ⟨fun set => set.headD 0, fun _ => false, fun _ => false, fun _ => false, periphery [], true⟩

/-- A method with a loop summing up its iteration variable: `%1 = 0` before the loop, the loop
`%2 = %1 + 1; %4 = %4 + %1; %1 = %2`, and the given instructions behind the loop. -/
def summing (behind : List Instruction) : List Instruction :=
  [assignment 1 (literalValue 0), addition 2 (localValue 1) (literalValue 1),
    addition 4 (localValue 4) (localValue 1), assignment 1 (localValue 2)] ++ behind

/-- The loop of `summing`: the instructions at the positions 1 to 3, in one block. -/
def summingLoop : ControlFlowLoop :=
  ⟨fun position => decide (1 ≤ position ∧ position ≤ 3), fun _ => 4, 1, 4⟩

/-- The instructions the loop control of `summing` points to. -/
def summingWalkers : LoopControlWalkers := ⟨0, 1⟩

/-- The loop control of `summing`, with the vectorization factor 4. -/
def summingControl : LoopControl := { countingLoop 16 with vectorizationFactor := 4 }

/-- The read `%5 = %4` of the sum behind the loop. -/
def readSum : Instruction := assignment 5 (localValue 4)

end vc4c.Example

namespace vc4c

/-- The number of instructions that are not decorated as vectorized. -/
def undecorated (instructions : List Instruction) : Nat :=
  instructions.countP fun inst => !inst.hasDecoration InstructionDecorations.AUTO_VECTORIZED

/-- What the loop over the open instructions keeps of a state, for the instructions `initial`
the method had at the begin and the iteration variable: the open instructions are instructions
of the method that are not decorated and have an argument; every reader of a widened local is
decorated or open; the instructions `vectorizeInstruction` was called for are instructions of
the loop, each called once, and decorated; the widened locals are the iteration variable and
the locals written by the operations and moves `vectorizeInstruction` was called for; the
instructions outside of the loop are as they were. -/
structure Vectorization.Invariant (loop : ControlFlowLoop) (initial : List Instruction)
    (iterationVariable : Local) (state : Vectorization) : Prop where
  isOpen : ∀ position ∈ state.openInstructions, IsOpen state.instructions position
  readers : ∀ l ∈ state.widened, ∀ position inst,
    state.instructions.get? position = some inst → inst.readsLocal l = true →
      inst.hasDecoration InstructionDecorations.AUTO_VECTORIZED = true
        ∨ position ∈ state.openInstructions
  once : state.vectorized.Nodup
  decorated : ∀ position ∈ state.vectorized, loop.inLoop position = true
    ∧ ∃ inst, state.instructions.get? position = some inst
      ∧ inst.hasDecoration InstructionDecorations.AUTO_VECTORIZED = true
  written : ∀ position ∈ state.vectorized, ∀ inst l,
    state.instructions.get? position = some inst →
      inst.isOperation = true ∨ inst.isMoveOperation = true →
      inst.writesLocal l = true → l ∈ state.widened
  origin : ∀ l ∈ state.widened, l = iterationVariable
    ∨ ∃ position ∈ state.vectorized, ∃ inst,
      state.instructions.get? position = some inst
        ∧ (inst.isOperation = true ∨ inst.isMoveOperation = true)
        ∧ inst.writesLocal l = true
  iteration : iterationVariable ∈ state.widened
  outside : ∀ position, loop.inLoop position = false →
    state.instructions.get? position = initial.get? position
  length : state.instructions.length = initial.length

/-- What the end of `vectorize` keeps of an instruction it changes: the changed instruction
reads no other locals, stays decorated, writes the same local and stays an operation or a
move. -/
def Refixed (a b : Instruction) : Prop :=
  (∀ l, b.readsLocal l = true → a.readsLocal l = true)
    ∧ (a.hasDecoration InstructionDecorations.AUTO_VECTORIZED = true →
        b.hasDecoration InstructionDecorations.AUTO_VECTORIZED = true)
    ∧ (∀ l, a.writesLocal l = b.writesLocal l)
    ∧ ((a.isOperation = true ∨ a.isMoveOperation = true)
        ↔ (b.isOperation = true ∨ b.isMoveOperation = true))

end vc4c

namespace vc4c

/-! ### Counting loops run step by step -/

/-- The number of times the body of a counting loop executes, found by running the loop: the
loop variable holds `i`, the body is executed as long as `continues` holds of the variable and
`advance` is applied to it after every execution. At most `fuel` executions are counted. This
is the meaning of the loop, not a part of the compiler: the number `countIterations` computes
is compared with it. -/
def loopExecutions (continues : Int → Bool) (advance : Int → Int) : Nat → Int → Nat
  | 0, _ => 0
  | fuel + 1, i =>
    if continues i then loopExecutions continues advance fuel (advance i) + 1 else 0

/-- The number of executions of the body of `for(i = initial; i < limit; i += step)`, with
`inclusive` of `for(i = initial; i <= limit; i += step)`, for a positive step. -/
def upwardExecutions (initial limit step : Int) (inclusive : Bool) : Nat :=
  loopExecutions (fun i => if inclusive then decide (i ≤ limit) else decide (i < limit))
    (fun i => i + step) (limit - initial + 1).toNat initial

/-- The number of executions of the body of `for(i = initial; i > limit; i -= step)`, with
`inclusive` of `for(i = initial; i >= limit; i -= step)`, for a positive step. -/
def downwardExecutions (initial limit step : Int) (inclusive : Bool) : Nat :=
  loopExecutions (fun i => if inclusive then decide (limit ≤ i) else decide (limit < i))
    (fun i => i - step) (initial - limit + 1).toNat initial

end vc4c

namespace vc4c.Example

/-- A counting loop whose step operation adds the literal 0: `%2 = %1 + 0`. -/
def idleLoop : LoopView :=
  ⟨[some (addition 2 (localValue 1) (literalValue 0)),
      some (branch 10 .COND_ZERO_CLEAR (localValue 3))],
    [3],
    { countingLoop 16 with
      iterationStep := some (addition 2 (localValue 1) (literalValue 0)) }⟩

end vc4c.Example

namespace vc4c.Example

/-- A location of an array of `size` elements of `bytes` bytes each, lowered into the VPM
area. -/
def arrayLocationOf (bytes size : Nat) (id : Local) (type : MemoryAccessType) : MemoryInfo :=
  ⟨⟨id, .plain, .pointer (.array (.simple (8 * bytes) 1) size) .PRIVATE⟩, type, none, none,
    some area, none, false⟩

end vc4c.Example

namespace vc4c

/-! ### Chains of blocks that are merged -/

/-- The pairs of neighbours in a chain of labels, in the order of the chain. -/
def chainPairs (labels : List Local) : List (Local × Local) := labels.zip labels.tail

/-- The block a chain of blocks is merged into: the first block followed by the instructions of
the other blocks without their labels. -/
def mergedChain (first : BasicBlock) (others : List BasicBlock) : BasicBlock :=
  first ++ others.flatMap List.tail

/-- The map `blockMap` at the end of the second loop of `mergeAdjacentBasicBlocks`. -/
def mergedBlockMap : List (Local × Local) → List BasicBlock → List (Local × Local)
    → Except Failure (List (Local × Local))
  | [], _, blockMap => .ok blockMap
  | pair :: rest, blocks, blockMap => do
    let (blocks, blockMap) ← mergePair blocks blockMap pair
    mergedBlockMap rest blocks blockMap

/-- The map `blockMap` that `mergeAdjacentBasicBlocks` builds for a method. -/
def sourceBlockMap (method : Method) : Except Failure (List (Local × Local)) :=
  mergedBlockMap (blocksToMerge method) method.blocks []

end vc4c

namespace vc4c.Example

/-- A method of four blocks without branches between them; the last block is the reserved
one, the first three form a chain. -/
def chain : Method :=
  { blocks := [[some (label 10), some (assignment 1 (literalValue 5))],
      [some (label 11), some (assignment 2 (literalValue 6))],
      [some (label 13), some (assignment 3 (literalValue 7))],
      [some (label 12)]],
    parameters := [],
    locals := [⟨.DEFAULT_BLOCK, 10, .simple 0 1, 0⟩, ⟨.other "next", 11, .simple 0 1, 0⟩,
      ⟨.other "then", 13, .simple 0 1, 0⟩, ⟨.LAST_BLOCK, 12, .simple 0 1, 0⟩],
    nextLocal := 40,
    uniformsUsed := UniformsUsed.zero }

end vc4c.Example

/-! # Properties -/

namespace vc4c

theorem runChecks_append (al : Bool) (a b : List Check) (prev new : MatchCache) :
    runChecks al (a ++ b) prev new
      = (runChecks al a prev new).bind (fun n => runChecks al b prev n) := by
  induction a generalizing new with
  | nil => simp [runChecks]
  | cons c cs ih =>
    simp only [List.cons_append, runChecks]
    cases h : c.run al prev new with
    | none => simp
    | some n => simp [ih]

theorem matchesValue_eq (al : Bool) (val : Option Value) (p : ValuePattern)
    (prev new : MatchCache) :
    matchesValue val p (previousOf al prev new) new = runChecks al (valueChecks val p) prev new := by
  cases p <;> cases val <;> simp [matchesValue, valueChecks, runChecks, Check.run] <;>
    split_ifs <;> simp_all [runChecks, Check.run]

theorem matchesOperation_eq (al : Bool) (op : OpCode) (p : OperationPattern)
    (prev new : MatchCache) :
    matchesOperation op p (previousOf al prev new) new
      = runChecks al (operationChecks op p) prev new := by
  cases p <;> simp [matchesOperation, operationChecks, runChecks, Check.run] <;>
    split_ifs <;> simp_all

theorem matchesCondition_eq (al : Bool) (code : ConditionCode) (p : ConditionPattern)
    (prev new : MatchCache) :
    matchesCondition code p (previousOf al prev new) new
      = runChecks al (conditionChecks code p) prev new := by
  cases p <;> simp [matchesCondition, conditionChecks, runChecks, Check.run] <;>
    split_ifs <;> simp_all

theorem matchesFlag_eq (al : Bool) (flag : SetFlag) (p : FlagPattern)
    (prev new : MatchCache) :
    matchesFlag flag p (previousOf al prev new) new
      = runChecks al (flagChecks flag p) prev new := by
  cases p <;> simp [matchesFlag, flagChecks, runChecks, Check.run] <;>
    split_ifs <;> simp_all

theorem matchesOnly_eq (al : Bool) (inst : IntermediateInstruction) (p : InstructionPattern)
    (prev new : MatchCache) :
    matchesOnly al (some inst) p prev new = runChecks al (instructionChecks inst p) prev new := by
  unfold matchesOnly instructionChecks
  simp only [runChecks_append, matchesValue_eq, matchesOperation_eq, matchesCondition_eq,
    matchesFlag_eq]
  by_cases hs : supported inst = true
  · have hs2 : (inst.hasPackMode || inst.hasUnpackMode || inst.getSignal.hasSideEffects) = false := by
      simpa [supported] using hs
    simp only [hs2, hs, runChecks, Check.run]
    simp only [Bool.false_eq_true, if_false, if_true, Option.some_bind]
    cases h1 : runChecks al (valueChecks inst.getOutput p.output) prev new with
    | none => simp
    | some c1 =>
      simp only [Option.some_bind]
      cases hop : determineOpCode inst with
      | none => simp [runChecks, Check.run]
      | some op =>
        simp only
        cases h2 : runChecks al (operationChecks op p.operation) prev c1 with
        | none => simp
        | some c2 =>
          simp only [Option.some_bind]
          cases h3 : runChecks al (valueChecks (inst.getArgument 0) p.firstArgument) prev c2 with
          | none => simp
          | some c3 =>
            simp only [Option.some_bind]
            cases h4 : runChecks al (valueChecks (inst.getArgument 1) p.secondArgument) prev c3 with
            | none => simp
            | some c4 =>
              simp only [Option.some_bind]
              cases h5 : runChecks al (conditionChecks (conditionOf inst) p.condition) prev c4 with
              | none => simp
              | some c5 => simp
  · have hs1 : supported inst = false := by simpa using hs
    have hs2 : (inst.hasPackMode || inst.hasUnpackMode || inst.getSignal.hasSideEffects) = true := by
      unfold supported at hs1
      cases h : (inst.hasPackMode || inst.hasUnpackMode || inst.getSignal.hasSideEffects)
      · rw [h] at hs1; simp at hs1
      · rfl
    simp [hs2, hs1, runChecks, Check.run]

end vc4c

namespace vc4c

theorem emplace_apply (c : MatchCache) (k : Ptr) (x : Captured) (q : Ptr) :
    c.emplace k x q = if q = k then (match c q with | some y => some y | none => some x) else c q :=
  rfl

theorem matchesCache_iff (x : Captured) (k : Ptr) (prev new : MatchCache) :
    matchesCache x k prev new = true
      ↔ (∀ y, prev k = some y → y = x) ∧ (∀ y, new k = some y → y = x) := by
  unfold matchesCache
  cases hp : prev k <;> cases hn : new k <;> simp

theorem insertAll_empty (g : MatchCache) : g.insertAll MatchCache.empty = g := by
  funext q
  simp only [MatchCache.insertAll, MatchCache.empty]
  cases g q <;> rfl

theorem empty_insertAll (g : MatchCache) : MatchCache.empty.insertAll g = g := by
  funext q
  simp [MatchCache.insertAll, MatchCache.empty]

/-- Facts about a successful run of checks. -/
theorem runChecks_some (al : Bool) (cs : List Check) (prev new n : MatchCache)
    (h : runChecks al cs prev new = some n) :
    (∀ k y, new k = some y → n k = some y)
      ∧ (∀ c ∈ capturesOf cs, n c.1 = some c.2)
      ∧ (∀ k, (∀ c ∈ capturesOf cs, c.1 ≠ k) → n k = new k)
      ∧ (∀ ok, Check.test ok ∈ cs → ok = true)
      ∧ (al = false → ∀ c ∈ capturesOf cs, ∀ y, prev c.1 = some y → y = c.2) := by
  induction cs generalizing new with
  | nil =>
    simp only [runChecks, Option.some.injEq] at h
    subst h
    simp [capturesOf]
  | cons c cs ih =>
    simp only [runChecks] at h
    cases hc : c.run al prev new with
    | none => simp [hc] at h
    | some m =>
      simp only [hc] at h
      obtain ⟨ih1, ih2, ih3, ih4, ih5⟩ := ih m h
      cases c with
      | test ok =>
        simp only [Check.run] at hc
        by_cases hok : ok = true
        · simp only [hok, if_true, Option.some.injEq] at hc
          subst hc
          refine ⟨ih1, ?_, ?_, ?_, ?_⟩
          · simpa [capturesOf] using ih2
          · simpa [capturesOf] using ih3
          · intro ok2 hmem
            simp only [List.mem_cons, Check.test.injEq] at hmem
            rcases hmem with h1 | h1
            · rw [h1]; exact hok
            · exact ih4 ok2 h1
          · simpa [capturesOf] using ih5
        · simp [hok] at hc
      | capture k x =>
        simp only [Check.run] at hc
        by_cases hm : matchesCache x k (previousOf al prev new) new = true
        · simp only [hm, if_true, Option.some.injEq] at hc
          subst hc
          rw [matchesCache_iff] at hm
          have hk : (new.emplace k x) k = some x := by
            rw [emplace_apply]
            simp only [if_true]
            cases hn : new k with
            | none => rfl
            | some y => simp [hm.2 y hn]
          have hext : ∀ q y, new q = some y → (new.emplace k x) q = some y := by
            intro q y hq
            rw [emplace_apply]
            split_ifs <;> simp [hq]
          refine ⟨fun q y hq => ih1 q y (hext q y hq), ?_, ?_, ?_, ?_⟩
          · intro c hc
            simp only [capturesOf, List.mem_cons] at hc
            rcases hc with h1 | h1
            · subst h1; exact ih1 k x hk
            · exact ih2 c h1
          · intro q hq
            have hqk : q ≠ k := fun e => hq (k, x) (by simp [capturesOf]) e.symm
            rw [ih3 q (fun c hc => hq c (by simp [capturesOf, hc]))]
            rw [emplace_apply]
            simp [hqk]
          · intro ok hmem
            simp only [List.mem_cons] at hmem
            rcases hmem with h1 | h1
            · cases h1
            · exact ih4 ok h1
          · intro hal c hc y hy
            simp only [capturesOf, List.mem_cons] at hc
            rcases hc with h1 | h1
            · subst h1
              subst hal
              exact hm.1 y hy
            · exact ih5 hal c h1 y hy
        · simp [hm] at hc

theorem agree_empty (g : MatchCache) : Agree g MatchCache.empty := by
  intro k a b _ hb
  simp [MatchCache.empty] at hb

/-- Checking against a previous cache `g` and a separate new cache `l` is the same as checking
against the single cache `g.insertAll l` passed for both references. -/
theorem runChecks_aliased (cs : List Check) (g l prev : MatchCache) (hagree : Agree g l) :
    (runChecks false cs g l).map (fun n => g.insertAll n)
      = runChecks true cs prev (g.insertAll l) := by
  induction cs generalizing l with
  | nil => simp [runChecks]
  | cons c cs ih =>
    cases c with
    | test ok =>
      by_cases hok : ok = true
      · simp only [runChecks, Check.run, hok, if_true]
        exact ih l hagree
      · simp [runChecks, Check.run, hok]
    | capture k x =>
      have hiff : matchesCache x k g l = true
          ↔ matchesCache x k (g.insertAll l) (g.insertAll l) = true := by
        rw [matchesCache_iff, matchesCache_iff]
        simp only [MatchCache.insertAll]
        constructor
        · rintro ⟨h1, h2⟩
          have : ∀ y, (match g k with | some y => some y | none => l k) = some y → y = x := by
            intro y hy
            cases hg : g k with
            | none => rw [hg] at hy; exact h2 y hy
            | some a =>
              rw [hg] at hy
              have e : a = y := Option.some.inj hy
              rw [← e]; exact h1 a hg
          exact ⟨this, this⟩
        · rintro ⟨h1, _⟩
          constructor
          · intro y hy
            exact h1 y (by rw [hy])
          · intro y hy
            cases hg : g k with
            | none => exact h1 y (by rw [hg]; exact hy)
            | some a =>
              have ha : a = x := h1 a (by rw [hg])
              rw [← hagree k a y hg hy]; exact ha
      by_cases hm : matchesCache x k g l = true
      · have hm2 := hiff.1 hm
        simp only [runChecks, Check.run, previousOf, hm, hm2, if_true, Bool.false_eq_true, if_false]
        have hins : (g.insertAll l).emplace k x = g.insertAll (l.emplace k x) := by
          funext q
          simp only [MatchCache.insertAll, emplace_apply]
          by_cases hq : q = k
          · subst hq
            cases g q <;> cases l q <;> simp
          · simp [hq]
        rw [hins]
        apply ih
        intro q a b ha hb
        rw [emplace_apply] at hb
        by_cases hq : q = k
        · subst hq
          simp only [if_true] at hb
          cases hl : l q with
          | none =>
            rw [hl] at hb
            have e : x = b := Option.some.inj hb
            rw [← e]
            exact ((matchesCache_iff _ _ _ _).1 hm).1 a ha
          | some y =>
            rw [hl] at hb
            have e : y = b := Option.some.inj hb
            rw [← e]
            exact hagree q a y ha hl
        · simp only [hq, if_false] at hb
          exact hagree q a b ha hb
      · have hm2 : ¬ matchesCache x k (g.insertAll l) (g.insertAll l) = true := fun h => hm (hiff.2 h)
        simp [runChecks, Check.run, previousOf, hm, hm2]

end vc4c

namespace vc4c

theorem set_apply (s : Placeholders) (k : Ptr) (x : Stored) (q : Ptr) :
    s.set k x q = if q = k then x else s q := rfl

theorem cellWise_id : CellWise (fun s => s) := fun _ => Or.inl (fun _ => rfl)

theorem cellWise_set (k : Ptr) (x : Stored) : CellWise (fun s => s.set k x) := by
  intro q
  by_cases h : q = k
  · exact Or.inr ⟨x, fun s => by simp [set_apply, h]⟩
  · exact Or.inl (fun s => by simp [set_apply, h])

theorem CellWise.comp {f g : Placeholders → Placeholders} (hf : CellWise f) (hg : CellWise g) :
    CellWise (fun s => g (f s)) := by
  intro k
  rcases hg k with h | ⟨v, h⟩
  · rcases hf k with h2 | ⟨v, h2⟩
    · exact Or.inl (fun s => by show g (f s) k = s k; rw [h, h2])
    · exact Or.inr ⟨v, fun s => by show g (f s) k = v; rw [h, h2]⟩
  · exact Or.inr ⟨v, fun s => h (f s)⟩

theorem CellWise.idem {f : Placeholders → Placeholders} (hf : CellWise f) (s : Placeholders) :
    f (f s) = f s := by
  funext k
  rcases hf k with h | ⟨v, h⟩
  · rw [h]
  · rw [h, h]

theorem cellWise_applyCaptures (cs : List (Ptr × Captured)) : CellWise (applyCaptures cs) := by
  induction cs with
  | nil => exact cellWise_id
  | cons c cs ih =>
    cases h : storedOf c.1 c.2 with
    | none =>
      have : applyCaptures (c :: cs) = applyCaptures cs := by
        funext s; simp [applyCaptures, h]
      rw [this]; exact ih
    | some x =>
      have : applyCaptures (c :: cs) = fun s => applyCaptures cs (s.set c.1 x) := by
        funext s; simp [applyCaptures, h]
      rw [this]
      exact CellWise.comp (cellWise_set c.1 x) ih

theorem applyCaptures_append (a b : List (Ptr × Captured)) (s : Placeholders) :
    applyCaptures (a ++ b) s = applyCaptures b (applyCaptures a s) := by
  induction a generalizing s with
  | nil => rfl
  | cons c cs ih =>
    simp only [List.cons_append, applyCaptures]
    cases storedOf c.1 c.2 <;> simp [ih]

theorem applyCaptures_frame (cs : List (Ptr × Captured)) (s : Placeholders) (k : Ptr)
    (h : ∀ c ∈ cs, c.1 ≠ k) : applyCaptures cs s k = s k := by
  induction cs generalizing s with
  | nil => rfl
  | cons c cs ih =>
    have hk : k ≠ c.1 := fun e => h c (by simp) e.symm
    have hrest : ∀ c2 ∈ cs, c2.1 ≠ k := fun c2 hc2 => h c2 (by simp [hc2])
    simp only [applyCaptures]
    cases storedOf c.1 c.2 with
    | none => exact ih s hrest
    | some x =>
      simp only
      rw [ih _ hrest, set_apply]
      simp [hk]

/-- After writing a list of captures in which equal placeholders carry equal entries, every
placeholder holds the content of each of its captures. -/
theorem applyCaptures_holds (cs : List (Ptr × Captured)) (s : Placeholders)
    (hcons : ∀ c1 ∈ cs, ∀ c2 ∈ cs, c1.1 = c2.1 → c1.2 = c2.2)
    (c : Ptr × Captured) (hc : c ∈ cs) (x : Stored) (hx : storedOf c.1 c.2 = some x) :
    applyCaptures cs s c.1 = x := by
  induction cs generalizing s c with
  | nil => cases hc
  | cons d ds ih =>
    have hcons2 : ∀ c1 ∈ ds, ∀ c2 ∈ ds, c1.1 = c2.1 → c1.2 = c2.2 :=
      fun c1 h1 c2 h2 => hcons c1 (by simp [h1]) c2 (by simp [h2])
    by_cases hlater : ∃ e ∈ ds, e.1 = c.1
    · obtain ⟨e, he, hek⟩ := hlater
      have hval : e.2 = c.2 := hcons e (by simp [he]) c hc hek
      have hxe : storedOf e.1 e.2 = some x := by rw [hek, hval]; exact hx
      have := fun s => ih s hcons2 e he hxe
      rw [hek] at this
      simp only [applyCaptures]
      cases storedOf d.1 d.2 <;> exact this _
    · have hnot : ∀ e ∈ ds, e.1 ≠ c.1 := fun e he hek => hlater ⟨e, he, hek⟩
      have hcd : c = d := by
        rcases List.mem_cons.1 hc with h | h
        · exact h
        · exact absurd rfl (hnot c h)
      subst hcd
      simp only [applyCaptures, hx]
      rw [applyCaptures_frame _ _ _ hnot, set_apply]
      simp

theorem updateMatchValue_eq (val : Option Value) (p : ValuePattern) (s : Placeholders) :
    updateMatchValue val p s = applyCaptures (valueCaptures val p) s := by
  cases p with
  | value f => cases val <;> simp [updateMatchValue, valueCaptures, applyCaptures]
  | ignored => cases val <;> simp [updateMatchValue, valueCaptures, applyCaptures]
  | placeholderValue a =>
    cases val <;> simp [updateMatchValue, valueCaptures, applyCaptures, storedOf]
  | placeholderLocal a =>
    cases val with
    | none => simp [updateMatchValue, valueCaptures, applyCaptures]
    | some v =>
      cases h : v.checkLocal <;> simp [updateMatchValue, valueCaptures, applyCaptures, storedOf, h]
  | placeholderLiteral a =>
    cases val with
    | none => simp [updateMatchValue, valueCaptures, applyCaptures]
    | some v =>
      cases h : v.getLiteralValue <;>
        simp [updateMatchValue, valueCaptures, applyCaptures, storedOf, h]

theorem updateMatchOperation_eq (op : OpCode) (p : OperationPattern) (s : Placeholders) :
    updateMatchOperation op p s = applyCaptures (operationCaptures op p) s := by
  cases p <;> simp [updateMatchOperation, operationCaptures, applyCaptures, storedOf]

theorem updateMatchCondition_eq (code : ConditionCode) (p : ConditionPattern) (s : Placeholders) :
    updateMatchCondition code p s = applyCaptures (conditionCaptures code p) s := by
  cases p <;> simp [updateMatchCondition, conditionCaptures, applyCaptures, storedOf]

theorem updateMatchFlag_eq (flag : SetFlag) (p : FlagPattern) (s : Placeholders) :
    updateMatchFlag flag p s = applyCaptures (flagCaptures flag p) s := by
  cases p <;> simp [updateMatchFlag, flagCaptures, applyCaptures, storedOf]

theorem updateOnly_eq (inst : IntermediateInstruction) (p : InstructionPattern)
    (s : Placeholders) : updateOnly inst p s = applyCaptures (captures inst p) s := by
  unfold updateOnly captures
  simp only [applyCaptures_append, updateMatchValue_eq, updateMatchCondition_eq,
    updateMatchFlag_eq]
  cases determineOpCode inst <;> simp [updateMatchOperation_eq, applyCaptures]

theorem updateAll_eq (ms : List (Nat × IntermediateInstruction)) (parts : List InstructionPattern)
    (s : Placeholders) : updateAll ms parts s = applyCaptures (allCaptures ms parts) s := by
  induction ms generalizing parts s with
  | nil => simp [updateAll, allCaptures, applyCaptures]
  | cons m ms ih =>
    cases parts with
    | nil => simp [updateAll, allCaptures, applyCaptures]
    | cons part parts =>
      simp only [updateAll, allCaptures, applyCaptures_append, updateOnly_eq]
      exact ih parts _

theorem capturesOf_append (a b : List Check) : capturesOf (a ++ b) = capturesOf a ++ capturesOf b := by
  induction a with
  | nil => rfl
  | cons c cs ih => cases c <;> simp [capturesOf, ih]

theorem capturesOf_valueChecks (val : Option Value) (p : ValuePattern) :
    capturesOf (valueChecks val p) = valueCaptures val p := by
  cases p <;> cases val <;> simp [valueChecks, valueCaptures, capturesOf] <;>
    split_ifs <;> simp [capturesOf]

theorem capturesOf_instructionChecks (inst : IntermediateInstruction) (p : InstructionPattern) :
    capturesOf (instructionChecks inst p) = captures inst p := by
  have hop : ∀ op q, capturesOf (operationChecks op q) = operationCaptures op q := by
    intro op q; cases q <;> rfl
  have hcond : ∀ c q, capturesOf (conditionChecks c q) = conditionCaptures c q := by
    intro c q; cases q <;> rfl
  have hflag : ∀ f q, capturesOf (flagChecks f q) = flagCaptures f q := by
    intro f q; cases q <;> rfl
  unfold instructionChecks captures
  cases determineOpCode inst <;>
    simp [capturesOf_append, capturesOf_valueChecks, capturesOf, hop, hcond, hflag]

/-- Every capture of a pattern on an instruction can be written into its placeholder. -/
theorem captures_storable (inst : IntermediateInstruction) (p : InstructionPattern) :
    ∀ c ∈ captures inst p, ∃ x, storedOf c.1 c.2 = some x := by
  have hv : ∀ (val : Option Value) (vp : ValuePattern), ∀ c ∈ valueCaptures val vp,
      ∃ x, storedOf c.1 c.2 = some x := by
    intro val vp c hc
    cases vp <;> cases val <;> simp [valueCaptures] at hc
    · subst hc; exact ⟨_, rfl⟩
    · obtain ⟨h1, h2⟩ := hc
      subst h2
      obtain ⟨l, hl⟩ := Option.isSome_iff_exists.1 h1
      exact ⟨.loc l, by simp [storedOf, hl]⟩
    · obtain ⟨h1, h2⟩ := hc
      subst h2
      obtain ⟨l, hl⟩ := Option.isSome_iff_exists.1 h1
      exact ⟨.literal l, by simp [storedOf, hl]⟩
  intro c hc
  simp only [captures, List.mem_append] at hc
  rcases hc with ((((h | h) | h) | h) | h) | h
  · exact hv _ _ c h
  · cases hop : determineOpCode inst with
    | none => simp [hop] at h
    | some op =>
      simp only [hop] at h
      cases hp : p.operation <;> simp [hp, operationCaptures] at h
      subst h; exact ⟨_, rfl⟩
  · exact hv _ _ c h
  · exact hv _ _ c h
  · cases hp : p.condition <;> simp [hp, conditionCaptures] at h <;> (subst h; exact ⟨_, rfl⟩)
  · cases hp : p.flags <;> simp [hp, flagCaptures] at h
    subst h; exact ⟨_, rfl⟩

end vc4c

namespace vc4c

theorem mem_setEmplace {α : Type} [DecidableEq α] (s : List α) (x y : α) :
    y ∈ setEmplace s x ↔ y = x ∨ y ∈ s := by
  unfold setEmplace
  split_ifs with h
  · constructor
    · exact Or.inr
    · rintro (h1 | h1)
      · rw [h1]; exact h
      · exact h1
  · simp

theorem drop_cons_inv {α : Type} (b : List α) (pos : Nat) (x : α) (xs : List α)
    (h : b.drop pos = x :: xs) : b[pos]? = some x ∧ b.drop (pos + 1) = xs := by
  constructor
  · have h1 : (b.drop pos)[0]? = some x := by rw [h]; simp
    rw [List.getElem?_drop] at h1
    simpa using h1
  · have h2 : (b.drop pos).drop 1 = xs := by rw [h]; rfl
    rw [List.drop_drop] at h2
    rw [← h2]

theorem matchesOnly_none_inst (al : Bool) (p : InstructionPattern) (prev new : MatchCache) :
    matchesOnly al none p prev new = none := rfl

theorem skipGaps_found (b : List (Option IntermediateInstruction)) (part : InstructionPattern)
    (g : MatchCache) (rest : List (Option IntermediateInstruction)) :
    ∀ (pos : Nat) (gw : List (Option Local)) (p : Nat) (inst : IntermediateInstruction)
      (lc : MatchCache) (rest1 : List (Option IntermediateInstruction))
      (gw1 : List (Option Local)),
      b.drop pos = rest → skipGaps part g rest pos gw = .found p inst lc rest1 gw1 →
      pos ≤ p ∧ b[p]? = some (some inst) ∧ b.drop (p + 1) = rest1
        ∧ matchesOnly false (some inst) part g MatchCache.empty = some lc
        ∧ (∀ q, pos ≤ q → q < p → ∃ slot, b[q]? = some slot ∧ gapAllowed slot = true
            ∧ matchesOnly false slot part g MatchCache.empty = none)
        ∧ (∀ y, y ∈ gw1 ↔ (y ∈ gw ∨ ∃ q i, pos ≤ q ∧ q < p ∧ b[q]? = some (some i)
            ∧ i.checkOutputLocal = y)) := by
  induction rest with
  | nil =>
    intro pos gw p inst lc rest1 gw1 _ h
    simp [skipGaps] at h
  | cons slot rest ih =>
    intro pos gw p inst lc rest1 gw1 hb h
    obtain ⟨hb1, hb2⟩ := drop_cons_inv b pos slot rest hb
    cases slot with
    | none =>
      simp only [skipGaps] at h
      obtain ⟨h1, h2, h3, h4, h5, h6⟩ := ih (pos + 1) gw p inst lc rest1 gw1 hb2 h
      refine ⟨by omega, h2, h3, h4, ?_, ?_⟩
      · intro q hq1 hq2
        by_cases hq : q = pos
        · subst hq
          exact ⟨none, hb1, rfl, rfl⟩
        · exact h5 q (by omega) hq2
      · intro y
        rw [h6 y]
        constructor
        · rintro (hy | ⟨q, i, hq1, hq2, hq3, hq4⟩)
          · exact Or.inl hy
          · exact Or.inr ⟨q, i, by omega, hq2, hq3, hq4⟩
        · rintro (hy | ⟨q, i, hq1, hq2, hq3, hq4⟩)
          · exact Or.inl hy
          · by_cases hq : q = pos
            · subst hq
              rw [hb1] at hq3
              cases hq3
            · exact Or.inr ⟨q, i, by omega, hq2, hq3, hq4⟩
    | some i =>
      cases hm : matchesOnly false (some i) part g MatchCache.empty with
      | some lc0 =>
        simp only [skipGaps, hm] at h
        cases h
        refine ⟨le_refl _, hb1, hb2, hm, ?_, ?_⟩
        · intro q hq1 hq2; omega
        · intro y
          constructor
          · exact Or.inl
          · rintro (hy | ⟨q, i, hq1, hq2, _, _⟩)
            · exact hy
            · omega
      | none =>
        simp only [skipGaps, hm] at h
        by_cases hse : (i.getSignal.hasSideEffects || i.doesSetFlag) = true
        · simp [hse] at h
        · simp only [hse, Bool.false_eq_true, if_false] at h
          obtain ⟨h1, h2, h3, h4, h5, h6⟩ := ih (pos + 1) _ p inst lc rest1 gw1 hb2 h
          refine ⟨by omega, h2, h3, h4, ?_, ?_⟩
          · intro q hq1 hq2
            by_cases hq : q = pos
            · subst hq
              refine ⟨some i, hb1, ?_, hm⟩
              simp only [gapAllowed]
              simpa using hse
            · exact h5 q (by omega) hq2
          · intro y
            rw [h6 y, mem_setEmplace]
            constructor
            · rintro ((hy | hy) | ⟨q, j, hq1, hq2, hq3, hq4⟩)
              · exact Or.inr ⟨pos, i, le_refl _, by omega, hb1, hy.symm⟩
              · exact Or.inl hy
              · exact Or.inr ⟨q, j, by omega, hq2, hq3, hq4⟩
            · rintro (hy | ⟨q, j, hq1, hq2, hq3, hq4⟩)
              · exact Or.inl (Or.inr hy)
              · by_cases hq : q = pos
                · subst hq
                  rw [hb1] at hq3
                  have e : i = j := by
                    have := Option.some.inj hq3
                    exact Option.some.inj this
                  subst e
                  exact Or.inl (Or.inl hq4.symm)
                · exact Or.inr ⟨q, j, by omega, hq2, hq3, hq4⟩

end vc4c

namespace vc4c

/-- Facts about a successful `matchesOnly`. -/
theorem matchesOnly_some (al : Bool) (inst : IntermediateInstruction) (p : InstructionPattern)
    (prev new n : MatchCache) (h : matchesOnly al (some inst) p prev new = some n) :
    supported inst = true
      ∧ (∀ k y, new k = some y → n k = some y)
      ∧ (∀ c ∈ captures inst p, n c.1 = some c.2)
      ∧ (al = false → ∀ c ∈ captures inst p, ∀ y, prev c.1 = some y → y = c.2) := by
  rw [matchesOnly_eq] at h
  obtain ⟨h1, h2, _, h4, h5⟩ := runChecks_some al _ prev new n h
  rw [capturesOf_instructionChecks] at h2 h5
  refine ⟨?_, h1, h2, h5⟩
  apply h4
  simp [instructionChecks]

theorem matchesOnly_unsupported (al : Bool) (inst : IntermediateInstruction)
    (p : InstructionPattern) (prev new : MatchCache) (h : supported inst = false) :
    matchesOnly al (some inst) p prev new = none := by
  cases hm : matchesOnly al (some inst) p prev new with
  | none => rfl
  | some n =>
    have := (matchesOnly_some al inst p prev new n hm).1
    rw [h] at this
    cases this

/-- The check with one cache for both references, in terms of the check with a separate, empty
new cache. -/
theorem matchesOnly_aliased (inst : Option IntermediateInstruction) (p : InstructionPattern)
    (prev g : MatchCache) :
    matchesOnly true inst p prev g
      = (matchesOnly false inst p g MatchCache.empty).map (fun n => g.insertAll n) := by
  cases inst with
  | none => rfl
  | some i =>
    rw [matchesOnly_eq, matchesOnly_eq]
    have := runChecks_aliased (instructionChecks i p) g MatchCache.empty prev (agree_empty g)
    rw [insertAll_empty] at this
    exact this.symm

theorem usesOverwrittenLocal_iff (inst : IntermediateInstruction) (gw pw : List (Option Local)) :
    usesOverwrittenLocal inst gw pw = true
      ↔ ∃ l, some l ∈ gw ∧ inst.readsLocal l = true ∧ some l ∈ pw := by
  unfold usesOverwrittenLocal
  rw [List.any_eq_true]
  constructor
  · rintro ⟨loc, hloc, h⟩
    cases loc with
    | none => simp at h
    | some l =>
      simp only [Bool.and_eq_true, decide_eq_true_eq] at h
      exact ⟨l, hloc, h.1, h.2⟩
  · rintro ⟨l, h1, h2, h3⟩
    exact ⟨some l, h1, by simp [h2, h3]⟩

theorem insertAll_captured (g lc : MatchCache) (inst : IntermediateInstruction)
    (p : InstructionPattern) (h : matchesOnly false (some inst) p g MatchCache.empty = some lc) :
    (∀ k y, g k = some y → (g.insertAll lc) k = some y)
      ∧ ∀ c ∈ captures inst p, (g.insertAll lc) c.1 = some c.2 := by
  obtain ⟨_, _, h3, h4⟩ := matchesOnly_some false inst p g MatchCache.empty lc h
  constructor
  · intro k y hk
    simp [MatchCache.insertAll, hk]
  · intro c hc
    simp only [MatchCache.insertAll]
    cases hg : g c.1 with
    | none => exact h3 c hc
    | some y => simp [h4 rfl c hc y hg]

/-- Facts about a successful run of the loop of `searchInnerGapped`. -/
theorem gappedLoop_some (b : List (Option IntermediateInstruction))
    (parts : List InstructionPattern) :
    ∀ (rest : List (Option IntermediateInstruction)) (pos : Nat) (gw pw : List (Option Local))
      (g : MatchCache) (acc out : List (Nat × IntermediateInstruction)),
      b.drop pos = rest → searchInnerGappedLoop parts rest pos gw pw g acc = some out →
      ∃ ms gf, out = acc ++ ms
        ∧ ms.length = parts.length
        ∧ (∀ m ∈ ms, pos ≤ m.1 ∧ b[m.1]? = some (some m.2) ∧ supported m.2 = true)
        ∧ (ms.map Prod.fst).Pairwise (fun x y => x < y)
        ∧ (∀ k y, g k = some y → gf k = some y)
        ∧ (∀ c ∈ allCaptures ms parts, gf c.1 = some c.2)
        ∧ searchInnerCompactCheck parts (ms.map (fun m => some m.2)) g = some gf
        ∧ (∀ q, pos ≤ q → (∃ m ∈ ms, q < m.1) → q ∉ ms.map Prod.fst →
            ∃ slot, b[q]? = some slot ∧ gapAllowed slot = true)
        ∧ (∀ ms1 m ms2, ms = ms1 ++ m :: ms2 → ∀ l, m.2.readsLocal l = true →
            (some l ∈ gw ∨ ∃ q i, pos ≤ q ∧ q < m.1 ∧ q ∉ ms.map Prod.fst
              ∧ b[q]? = some (some i) ∧ i.checkOutputLocal = some l) →
            (some l ∈ pw ∨ ∃ m1 ∈ ms1, m1.2.checkOutputLocal = some l) → False) := by
  induction parts with
  | nil =>
    intro rest pos gw pw g acc out _ h
    simp only [searchInnerGappedLoop, Option.some.injEq] at h
    refine ⟨[], g, by simp [h], rfl, by simp, by simp, fun _ _ h => h, by simp [allCaptures],
      by simp [searchInnerCompactCheck], by simp, ?_⟩
    intro ms1 m ms2 hsplit
    simp at hsplit
  | cons part parts ih =>
    intro rest pos gw pw g acc out hb h
    simp only [searchInnerGappedLoop] at h
    cases hsk : skipGaps part g rest pos gw with
    | aborted => simp [hsk] at h
    | endOfBlock => simp [hsk] at h
    | found p inst lc rest1 gw1 =>
      simp only [hsk] at h
      by_cases hdep : usesOverwrittenLocal inst gw1 pw = true
      · simp [hdep] at h
      · simp only [hdep, Bool.false_eq_true, if_false] at h
        obtain ⟨hp, hbp, hrest1, hmatch, hgaps, hgw⟩ :=
          skipGaps_found b part g rest pos gw p inst lc rest1 gw1 hb hsk
        obtain ⟨ms, gf, hout, hlen, hmem, hsorted, hext, hcap, hcompact, hgap2, hdep2⟩ :=
          ih rest1 (p + 1) gw1 _ _ _ out hrest1 h
        obtain ⟨hsup, _, _, _⟩ := matchesOnly_some false inst part g MatchCache.empty lc hmatch
        obtain ⟨hins1, hins2⟩ := insertAll_captured g lc inst part hmatch
        refine ⟨(p, inst) :: ms, gf, by simp [hout], by simp [hlen], ?_, ?_, ?_, ?_, ?_, ?_, ?_⟩
        · intro m hm
          rcases List.mem_cons.1 hm with h1 | h1
          · subst h1; exact ⟨hp, hbp, hsup⟩
          · obtain ⟨h2, h3, h4⟩ := hmem m h1
            exact ⟨by omega, h3, h4⟩
        · simp only [List.map_cons, List.pairwise_cons]
          refine ⟨?_, hsorted⟩
          intro x hx
          obtain ⟨m, hm, rfl⟩ := List.mem_map.1 hx
          have := (hmem m hm).1
          show p < m.1
          omega
        · intro k y hk
          exact hext k y (hins1 k y hk)
        · intro c hc
          simp only [allCaptures, List.mem_append] at hc
          rcases hc with h1 | h1
          · exact hext _ _ (hins2 c h1)
          · exact hcap c h1
        · simp only [List.map_cons, searchInnerCompactCheck]
          rw [matchesOnly_aliased, hmatch]
          exact hcompact
        · intro q hq1 hq2 hq3
          simp only [List.map_cons, List.mem_cons, not_or] at hq3
          by_cases hqp : q < p
          · obtain ⟨slot, hs1, hs2, _⟩ := hgaps q hq1 hqp
            exact ⟨slot, hs1, hs2⟩
          · apply hgap2 q (by omega) ?_ hq3.2
            obtain ⟨m, hm, hqm⟩ := hq2
            rcases List.mem_cons.1 hm with h1 | h1
            · subst h1; simp at hqm; omega
            · exact ⟨m, h1, hqm⟩
        · intro ms1 m ms2 hsplit l hreads hgapw hprevw
          cases ms1 with
          | nil =>
            simp only [List.nil_append, List.cons.injEq] at hsplit
            obtain ⟨hm, _⟩ := hsplit
            subst hm
            apply hdep
            rw [usesOverwrittenLocal_iff]
            refine ⟨l, ?_, hreads, ?_⟩
            · rw [hgw]
              rcases hgapw with h1 | ⟨q, i, h1, h2, _, h4, h5⟩
              · exact Or.inl h1
              · exact Or.inr ⟨q, i, h1, h2, h4, h5⟩
            · rcases hprevw with h1 | ⟨m1, hm1, _⟩
              · exact h1
              · cases hm1
          | cons m0 ms1 =>
            simp only [List.cons_append, List.cons.injEq] at hsplit
            obtain ⟨hm0, hms⟩ := hsplit
            subst hm0
            apply hdep2 ms1 m ms2 hms l hreads
            · rcases hgapw with h1 | ⟨q, i, h1, h2, h3, h4, h5⟩
              · exact Or.inl ((hgw _).2 (Or.inl h1))
              · simp only [List.map_cons, List.mem_cons, not_or] at h3
                by_cases hqp : q < p
                · exact Or.inl ((hgw _).2 (Or.inr ⟨q, i, h1, hqp, h4, h5⟩))
                · exact Or.inr ⟨q, i, by omega, h2, h3.2, h4, h5⟩
            · rw [mem_setEmplace]
              rcases hprevw with h1 | ⟨m1, hm1, hm2⟩
              · exact Or.inl (Or.inr h1)
              · rcases List.mem_cons.1 hm1 with h3 | h3
                · subst h3
                  exact Or.inl (Or.inl hm2.symm)
                · exact Or.inr ⟨m1, h3, hm2⟩

end vc4c

namespace vc4c

/-- Facts about a successful check loop of `searchInnerCompact`. -/
theorem compactCheck_some (b : List (Option IntermediateInstruction))
    (parts : List InstructionPattern) :
    ∀ (rest : List (Option IntermediateInstruction)) (pos : Nat) (g gf : MatchCache),
      b.drop pos = rest → searchInnerCompactCheck parts rest g = some gf →
      (matchedCompact parts rest pos).length = parts.length
        ∧ (∀ m ∈ matchedCompact parts rest pos,
            pos ≤ m.1 ∧ b[m.1]? = some (some m.2) ∧ supported m.2 = true)
        ∧ (matchedCompact parts rest pos).map Prod.fst = List.range' pos parts.length
        ∧ (∀ k y, g k = some y → gf k = some y)
        ∧ (∀ c ∈ allCaptures (matchedCompact parts rest pos) parts, gf c.1 = some c.2)
        ∧ searchInnerCompactCheck parts
            ((matchedCompact parts rest pos).map (fun m => some m.2)) g = some gf := by
  induction parts with
  | nil =>
    intro rest pos g gf _ h
    simp only [searchInnerCompactCheck, Option.some.injEq] at h
    subst h
    cases rest <;> simp [matchedCompact, allCaptures, searchInnerCompactCheck]
  | cons part parts ih =>
    intro rest pos g gf hb h
    cases rest with
    | nil => simp [searchInnerCompactCheck] at h
    | cons slot rest =>
      obtain ⟨hb1, hb2⟩ := drop_cons_inv b pos slot rest hb
      cases slot with
      | none => simp [searchInnerCompactCheck, matchesOnly] at h
      | some inst =>
        simp only [searchInnerCompactCheck] at h
        cases hm : matchesOnly true (some inst) part g g with
        | none => simp [hm] at h
        | some c =>
          simp only [hm] at h
          obtain ⟨h1, h2, h3, h4, h5, h6⟩ := ih rest (pos + 1) c gf hb2 h
          obtain ⟨hsup, hext, hcap, _⟩ := matchesOnly_some true inst part g g c hm
          refine ⟨by simp [matchedCompact, h1], ?_, ?_, ?_, ?_, ?_⟩
          · intro m hmem
            simp only [matchedCompact, List.mem_cons] at hmem
            rcases hmem with e | e
            · subst e; exact ⟨le_refl _, hb1, hsup⟩
            · obtain ⟨a1, a2, a3⟩ := h2 m e
              exact ⟨by omega, a2, a3⟩
          · simp [matchedCompact, h3, List.range'_succ]
          · intro k y hk
            exact h4 k y (hext k y hk)
          · intro x hx
            simp only [matchedCompact, allCaptures, List.mem_append] at hx
            rcases hx with e | e
            · exact h4 _ _ (hcap x e)
            · exact h5 x e
          · simp only [matchedCompact, List.map_cons, searchInnerCompactCheck, hm]
            exact h6

theorem compactUpdate_eq (parts : List InstructionPattern) :
    ∀ (rest : List (Option IntermediateInstruction)) (pos : Nat) (s : Placeholders),
      searchInnerCompactUpdate parts rest s = updateAll (matchedCompact parts rest pos) parts s := by
  induction parts with
  | nil =>
    intro rest pos s
    cases rest with
    | nil => simp [searchInnerCompactUpdate, updateAll, matchedCompact]
    | cons slot rest => cases slot <;> simp [searchInnerCompactUpdate, updateAll, matchedCompact]
  | cons part parts ih =>
    intro rest pos s
    cases rest with
    | nil => simp [searchInnerCompactUpdate, updateAll, matchedCompact]
    | cons slot rest =>
      cases slot with
      | none => simp [searchInnerCompactUpdate, updateAll, matchedCompact]
      | some inst =>
        simp only [searchInnerCompactUpdate, updateAll, matchedCompact]
        exact ih rest (pos + 1) _

theorem endOfPattern_of_range (start n : Nat) (ms : List (Nat × IntermediateInstruction))
    (h : ms.map Prod.fst = List.range' start n) : endOfPattern start ms = start + n - 1 := by
  unfold endOfPattern
  cases n with
  | zero =>
    have : ms = [] := by simpa using h
    subst this
    simp
  | succ k =>
    have hlast : (ms.map Prod.fst).getLast? = some (start + k) := by
      rw [h, List.range'_eq_map_range]
      simp [List.getLast?_map, List.getLast?_range]
    rw [List.getLast?_map] at hlast
    cases hl : ms.getLast? with
    | none => simp [hl] at hlast
    | some m =>
      simp only [hl, Option.map_some', Option.some.injEq] at hlast
      simp only
      omega

/-- The inner search of an attempt in terms of the instructions it matches. -/
theorem searchInner_eq (pattern : Pattern) (rest : List (Option IntermediateInstruction))
    (pos : Nat) (ret : Bool) (s : Placeholders) (b : List (Option IntermediateInstruction))
    (hb : b.drop pos = rest) :
    (if pattern.allowGaps then searchInnerGapped rest pos pattern ret s
      else searchInnerCompact rest pos pattern ret s)
      = match attemptMatching pattern rest pos with
        | none => (none, s)
        | some ms =>
          (some (if ret then endOfPattern pos ms else pos), updateAll ms pattern.parts s) := by
  unfold attemptMatching
  cases hg : pattern.allowGaps with
  | true =>
    simp only [if_true, searchInnerGapped]
    cases hl : searchInnerGappedLoop pattern.parts rest pos [] [] MatchCache.empty [] with
    | none => rfl
    | some ms =>
      simp only
      split_ifs <;> rfl
  | false =>
    simp only [Bool.false_eq_true, if_false, searchInnerCompact]
    cases hc : searchInnerCompactCheck pattern.parts rest MatchCache.empty with
    | none => rfl
    | some gf =>
      simp only
      obtain ⟨_, _, h3, _⟩ := compactCheck_some b pattern.parts rest pos _ gf hb hc
      rw [endOfPattern_of_range pos _ _ h3, compactUpdate_eq pattern.parts rest pos s]

/-- The loop of `search` in terms of the first successful attempt. -/
theorem searchFrom_eq (pattern : Pattern) (front : InstructionPattern) (ret : Bool)
    (b : List (Option IntermediateInstruction)) :
    ∀ (rest : List (Option IntermediateInstruction)) (pos : Nat) (s : Placeholders),
      b.drop pos = rest →
      searchFrom pattern front ret rest pos s
        = match searchMatchingFrom pattern front rest pos with
          | none => (none, s)
          | some r =>
            (some (if ret then endOfPattern r.1 r.2 else r.1), updateAll r.2 pattern.parts s) := by
  intro rest
  induction rest with
  | nil => intro pos s _; rfl
  | cons slot rest ih =>
    intro pos s hb
    obtain ⟨_, hb2⟩ := drop_cons_inv b pos slot rest hb
    simp only [searchFrom, searchMatchingFrom]
    cases hm : matchesOnly true slot front MatchCache.empty MatchCache.empty with
    | none => exact ih (pos + 1) s hb2
    | some c =>
      simp only
      rw [searchInner_eq pattern (slot :: rest) pos ret s b hb]
      cases ha : attemptMatching pattern (slot :: rest) pos with
      | none => exact ih (pos + 1) s hb2
      | some ms => rfl

theorem search_eq (block : List (Option IntermediateInstruction)) (start : Nat)
    (pattern : Pattern) (ret : Bool) (s : Placeholders) :
    search block start pattern ret s
      = match searchMatching block start pattern with
        | none => (none, s)
        | some r =>
          (some (if ret then endOfPattern r.1 r.2 else r.1), updateAll r.2 pattern.parts s) := by
  unfold search searchMatching
  cases hp : pattern.parts with
  | nil => rfl
  | cons front parts =>
    simp only
    rw [← hp]
    exact searchFrom_eq pattern front ret block (block.drop start) start s rfl

end vc4c

namespace vc4c

theorem test_false_not_mem (al : Bool) (cs : List Check) (prev new n : MatchCache)
    (h : runChecks al cs prev new = some n) : Check.test false ∉ cs := by
  intro hmem
  have := (runChecks_some al cs prev new n h).2.2.2.1 false hmem
  cases this

/-- If the checks of a value pattern pass and the captures are stored, the placeholder of the
pattern holds the value. -/
theorem valuePattern_holds (s : Placeholders) (val : Option Value) (p : ValuePattern)
    (htest : Check.test false ∉ valueChecks val p)
    (hst : ∀ c ∈ valueCaptures val p, storedOf c.1 c.2 = some (s c.1)) : p.holds s val := by
  cases p with
  | value f => trivial
  | ignored => trivial
  | placeholderValue a =>
    cases val with
    | none => simp [valueChecks] at htest
    | some v =>
      have := hst (.value a, .value v) (by simp [valueCaptures])
      simpa [ValuePattern.holds, storedOf] using this
  | placeholderLocal a =>
    cases val with
    | none => simp [valueChecks] at htest
    | some v =>
      cases hl : v.checkLocal with
      | none => simp [valueChecks, hl] at htest
      | some l =>
        have := hst (.loc a, .value v) (by simp [valueCaptures, hl])
        simpa [ValuePattern.holds, storedOf, hl] using this
  | placeholderLiteral a =>
    cases val with
    | none => simp [valueChecks] at htest
    | some v =>
      cases hl : v.getLiteralValue with
      | none => simp [valueChecks, hl] at htest
      | some l =>
        have := hst (.literal a, .value v) (by simp [valueCaptures, hl])
        simpa [ValuePattern.holds, storedOf, hl] using this

theorem operationPattern_holds (s : Placeholders) (op : OpCode) (p : OperationPattern)
    (hst : ∀ c ∈ operationCaptures op p, storedOf c.1 c.2 = some (s c.1)) :
    p.holds s (some op) := by
  cases p with
  | opcode c => trivial
  | ignored => trivial
  | placeholder a =>
    have := hst (.opcode a, .opcode op) (by simp [operationCaptures])
    simpa [OperationPattern.holds, storedOf] using this

theorem conditionPattern_holds (s : Placeholders) (code : ConditionCode) (p : ConditionPattern)
    (hst : ∀ c ∈ conditionCaptures code p, storedOf c.1 c.2 = some (s c.1)) :
    p.holds s code := by
  cases p with
  | condition c => trivial
  | ignored => trivial
  | placeholder a =>
    have := hst (.condition a, .condition code) (by simp [conditionCaptures])
    simp only [storedOf, Option.some.injEq] at this
    exact this.symm
  | inverted a =>
    have := hst (.condition a, .condition code.invert) (by simp [conditionCaptures])
    simp only [storedOf, Option.some.injEq] at this
    exact this.symm

theorem flagPattern_holds (s : Placeholders) (flag : SetFlag) (p : FlagPattern)
    (hst : ∀ c ∈ flagCaptures flag p, storedOf c.1 c.2 = some (s c.1)) : p.holds s flag := by
  cases p with
  | flag c => trivial
  | ignored => trivial
  | placeholder a =>
    have := hst (.flag a, .flag flag) (by simp [flagCaptures])
    simp only [storedOf, Option.some.injEq] at this
    exact this.symm

/-- If an instruction matched a pattern and all captures are stored, every placeholder of the
pattern holds its component of the instruction. -/
theorem instructionPattern_holds (al : Bool) (inst : IntermediateInstruction)
    (p : InstructionPattern) (prev new n : MatchCache) (s : Placeholders)
    (hm : matchesOnly al (some inst) p prev new = some n)
    (hst : ∀ c ∈ captures inst p, storedOf c.1 c.2 = some (s c.1)) : p.holds s inst := by
  rw [matchesOnly_eq] at hm
  have htest := test_false_not_mem al _ prev new n hm
  have hop : ∃ op, determineOpCode inst = some op := by
    cases h : determineOpCode inst with
    | some op => exact ⟨op, rfl⟩
    | none =>
      exfalso; apply htest
      simp [instructionChecks, h]
  obtain ⟨op, hop⟩ := hop
  simp only [instructionChecks, hop, List.mem_append, not_or] at htest
  simp only [captures, hop, List.mem_append] at hst
  refine ⟨?_, ?_, ?_, ?_, ?_, ?_⟩
  · exact valuePattern_holds s _ _ htest.1.1.1.1.1.2 (fun c hc => hst c (by simp [hc]))
  · rw [hop]
    exact operationPattern_holds s op _ (fun c hc => hst c (by simp [hc]))
  · exact valuePattern_holds s _ _ htest.1.1.1.2 (fun c hc => hst c (by simp [hc]))
  · exact valuePattern_holds s _ _ htest.1.1.2 (fun c hc => hst c (by simp [hc]))
  · exact conditionPattern_holds s _ _ (fun c hc => hst c (by simp [hc]))
  · exact flagPattern_holds s _ _ (fun c hc => hst c (by simp [hc]))

/-- Captures recorded in one cache are consistent: equal placeholders carry equal entries. -/
theorem consistent_of_cache (cs : List (Ptr × Captured)) (g : MatchCache)
    (h : ∀ c ∈ cs, g c.1 = some c.2) :
    ∀ c1 ∈ cs, ∀ c2 ∈ cs, c1.1 = c2.1 → c1.2 = c2.2 := by
  intro c1 h1 c2 h2 hk
  have e1 := h c1 h1
  have e2 := h c2 h2
  rw [hk, e2] at e1
  exact (Option.some.inj e1).symm

theorem matches_eq (inst : IntermediateInstruction) (p : InstructionPattern) (s : Placeholders) :
    «matches» (some inst) p s
      = match matchesOnly true (some inst) p MatchCache.empty MatchCache.empty with
        | none => (false, s)
        | some _ => (true, applyCaptures (captures inst p) s) := by
  simp only [«matches», updateOnly_eq]

/-- After a successful `matches` every capture is stored in its placeholder. -/
theorem matches_stored (inst : IntermediateInstruction) (p : InstructionPattern)
    (s : Placeholders) (h : («matches» (some inst) p s).1 = true) :
    (∃ n, matchesOnly true (some inst) p MatchCache.empty MatchCache.empty = some n
        ∧ ∀ c ∈ captures inst p, n c.1 = some c.2)
      ∧ («matches» (some inst) p s).2 = applyCaptures (captures inst p) s
      ∧ ∀ c ∈ captures inst p, storedOf c.1 c.2 = some ((«matches» (some inst) p s).2 c.1) := by
  rw [matches_eq] at h ⊢
  cases hm : matchesOnly true (some inst) p MatchCache.empty MatchCache.empty with
  | none => simp [hm] at h
  | some n =>
    obtain ⟨_, _, hcap, _⟩ := matchesOnly_some true inst p _ _ n hm
    refine ⟨⟨n, rfl, hcap⟩, rfl, ?_⟩
    intro c hc
    obtain ⟨x, hx⟩ := captures_storable inst p c hc
    simp only
    rw [applyCaptures_holds (captures inst p) s (consistent_of_cache _ n hcap) c hc x hx, hx]

end vc4c

namespace vc4c

theorem searchMatchingFrom_some (pattern : Pattern) (front : InstructionPattern)
    (b : List (Option IntermediateInstruction)) :
    ∀ (rest : List (Option IntermediateInstruction)) (pos st : Nat)
      (ms : List (Nat × IntermediateInstruction)),
      b.drop pos = rest → searchMatchingFrom pattern front rest pos = some (st, ms) →
      pos ≤ st ∧ attemptMatching pattern (b.drop st) st = some ms
        ∧ (∃ slot c, b[st]? = some slot
            ∧ matchesOnly true slot front MatchCache.empty MatchCache.empty = some c)
        ∧ searchMatchingFrom pattern front (b.drop st) st = some (st, ms) := by
  intro rest
  induction rest with
  | nil => intro pos st ms _ h; simp [searchMatchingFrom] at h
  | cons slot rest ih =>
    intro pos st ms hb h
    obtain ⟨hb1, hb2⟩ := drop_cons_inv b pos slot rest hb
    have hrec : searchMatchingFrom pattern front rest (pos + 1) = some (st, ms) →
        pos ≤ st ∧ attemptMatching pattern (b.drop st) st = some ms
        ∧ (∃ slot c, b[st]? = some slot
            ∧ matchesOnly true slot front MatchCache.empty MatchCache.empty = some c)
        ∧ searchMatchingFrom pattern front (b.drop st) st = some (st, ms) := by
      intro h2
      obtain ⟨h3, h4⟩ := ih (pos + 1) st ms hb2 h2
      exact ⟨by omega, h4⟩
    simp only [searchMatchingFrom] at h
    cases hm : matchesOnly true slot front MatchCache.empty MatchCache.empty with
    | none =>
      simp only [hm] at h
      exact hrec h
    | some c =>
      simp only [hm] at h
      cases ha : attemptMatching pattern (slot :: rest) pos with
      | none =>
        simp only [ha] at h
        exact hrec h
      | some ms0 =>
        simp only [ha, Option.some.injEq, Prod.mk.injEq] at h
        obtain ⟨h1, h2⟩ := h
        subst h1 h2
        refine ⟨le_refl _, by rw [hb]; exact ha, ⟨slot, c, hb1, hm⟩, ?_⟩
        rw [hb]
        simp only [searchMatchingFrom, hm, ha]

/-- Facts about the instructions matched by a successful attempt, with or without gaps. -/
theorem attemptMatching_some (pattern : Pattern) (b : List (Option IntermediateInstruction))
    (st : Nat) (ms : List (Nat × IntermediateInstruction))
    (h : attemptMatching pattern (b.drop st) st = some ms) :
    ms.length = pattern.parts.length
      ∧ (∀ m ∈ ms, st ≤ m.1 ∧ b[m.1]? = some (some m.2) ∧ supported m.2 = true)
      ∧ (ms.map Prod.fst).Pairwise (fun x y => x < y)
      ∧ ∃ gf, (∀ c ∈ allCaptures ms pattern.parts, gf c.1 = some c.2)
          ∧ searchInnerCompactCheck pattern.parts (ms.map (fun m => some m.2)) MatchCache.empty
              = some gf := by
  unfold attemptMatching at h
  cases hg : pattern.allowGaps with
  | true =>
    simp only [hg, if_true] at h
    cases hl : searchInnerGappedLoop pattern.parts (b.drop st) st [] [] MatchCache.empty [] with
    | none => simp [hl] at h
    | some out =>
      obtain ⟨ms1, gf, hout, hlen, hmem, hsorted, _, hcap, hcompact, _, _⟩ :=
        gappedLoop_some b pattern.parts (b.drop st) st [] [] MatchCache.empty [] out rfl hl
      simp only [List.nil_append] at hout
      subst hout
      simp only [hl, hlen, bne_self_eq_false, Bool.false_eq_true, if_false, Option.some.injEq] at h
      subst h
      exact ⟨hlen, hmem, hsorted, gf, hcap, hcompact⟩
  | false =>
    simp only [hg, Bool.false_eq_true, if_false] at h
    cases hc : searchInnerCompactCheck pattern.parts (b.drop st) MatchCache.empty with
    | none => simp [hc] at h
    | some gf =>
      simp only [hc, Option.some.injEq] at h
      obtain ⟨h1, h2, h3, _, h5, h6⟩ :=
        compactCheck_some b pattern.parts (b.drop st) st MatchCache.empty gf rfl hc
      subst h
      refine ⟨h1, h2, ?_, gf, h5, h6⟩
      rw [h3]
      exact List.pairwise_lt_range' st pattern.parts.length

theorem allCaptures_storable (ms : List (Nat × IntermediateInstruction))
    (parts : List InstructionPattern) :
    ∀ c ∈ allCaptures ms parts, ∃ x, storedOf c.1 c.2 = some x := by
  induction ms generalizing parts with
  | nil => intro c hc; simp [allCaptures] at hc
  | cons m ms ih =>
    cases parts with
    | nil => intro c hc; simp [allCaptures] at hc
    | cons part parts =>
      intro c hc
      simp only [allCaptures, List.mem_append] at hc
      rcases hc with h | h
      · exact captures_storable m.2 part c h
      · exact ih parts c h

/-- Along a chain of matched parts, every part holds its components in a store that holds all
captures. -/
theorem forall₂_holds (s : Placeholders) (ms : List (Nat × IntermediateInstruction)) :
    ∀ (parts : List InstructionPattern) (g gf : MatchCache),
      ms.length = parts.length →
      searchInnerCompactCheck parts (ms.map (fun m => some m.2)) g = some gf →
      (∀ c ∈ allCaptures ms parts, storedOf c.1 c.2 = some (s c.1)) →
      List.Forall₂ (fun m part => InstructionPattern.holds s m.2 part) ms parts := by
  induction ms with
  | nil =>
    intro parts g gf hlen _ _
    cases parts with
    | nil => exact List.Forall₂.nil
    | cons _ _ => simp at hlen
  | cons m ms ih =>
    intro parts g gf hlen hc hst
    cases parts with
    | nil => simp at hlen
    | cons part parts =>
      simp only [List.map_cons, searchInnerCompactCheck] at hc
      cases hm : matchesOnly true (some m.2) part g g with
      | none => simp [hm] at hc
      | some c =>
        simp only [hm] at hc
        refine List.Forall₂.cons ?_ ?_
        · exact instructionPattern_holds true m.2 part g g c s hm
            (fun x hx => hst x (by simp [allCaptures, hx]))
        · exact ih parts c gf (by simpa using hlen) hc
            (fun x hx => hst x (by simp [allCaptures, hx]))

/-- After a successful search every capture of every part is stored in its placeholder. -/
theorem updateAll_stored (pattern : Pattern) (b : List (Option IntermediateInstruction))
    (st : Nat) (ms : List (Nat × IntermediateInstruction)) (s : Placeholders)
    (h : attemptMatching pattern (b.drop st) st = some ms) :
    (∀ c ∈ allCaptures ms pattern.parts,
        storedOf c.1 c.2 = some (updateAll ms pattern.parts s c.1))
      ∧ List.Forall₂ (fun m part => InstructionPattern.holds (updateAll ms pattern.parts s) m.2 part)
          ms pattern.parts := by
  obtain ⟨hlen, _, _, gf, hcap, hcompact⟩ := attemptMatching_some pattern b st ms h
  have hst : ∀ c ∈ allCaptures ms pattern.parts,
      storedOf c.1 c.2 = some (updateAll ms pattern.parts s c.1) := by
    intro c hc
    obtain ⟨x, hx⟩ := allCaptures_storable ms pattern.parts c hc
    rw [updateAll_eq, applyCaptures_holds _ s (consistent_of_cache _ gf hcap) c hc x hx, hx]
  exact ⟨hst, forall₂_holds _ ms pattern.parts _ gf hlen hcompact hst⟩

theorem searchMatching_some (block : List (Option IntermediateInstruction)) (start : Nat)
    (pattern : Pattern) (st : Nat) (ms : List (Nat × IntermediateInstruction))
    (h : searchMatching block start pattern = some (st, ms)) :
    start ≤ st ∧ attemptMatching pattern (block.drop st) st = some ms
      ∧ searchMatching block st pattern = some (st, ms) := by
  unfold searchMatching at h ⊢
  cases hp : pattern.parts with
  | nil => simp [hp] at h
  | cons front parts =>
    simp only [hp] at h ⊢
    obtain ⟨h1, h2, _, h4⟩ :=
      searchMatchingFrom_some pattern front block (block.drop start) start st ms rfl h
    exact ⟨h1, h2, h4⟩

end vc4c

namespace vc4c

/-- The first instruction matched by a successful attempt of `search` is the instruction at the
start of the attempt. -/
theorem searchMatching_head (block : List (Option IntermediateInstruction)) (start : Nat)
    (pattern : Pattern) (st : Nat) (ms : List (Nat × IntermediateInstruction))
    (h : searchMatching block start pattern = some (st, ms)) :
    ∃ inst tail, ms = (st, inst) :: tail := by
  unfold searchMatching at h
  cases hp : pattern.parts with
  | nil => simp [hp] at h
  | cons front parts =>
    simp only [hp] at h
    obtain ⟨_, hatt, ⟨slot, c, hslot, hfront⟩, _⟩ :=
      searchMatchingFrom_some pattern front block (block.drop start) start st ms rfl h
    have hlt : st < block.length := by
      by_contra hcon
      rw [List.getElem?_eq_none (by omega)] at hslot
      cases hslot
    have hdrop : block.drop st = slot :: block.drop (st + 1) := by
      rw [List.drop_eq_getElem_cons hlt]
      congr 1
      rw [List.getElem?_eq_getElem hlt] at hslot
      exact Option.some.inj hslot
    cases slot with
    | none => simp [matchesOnly] at hfront
    | some i =>
      unfold attemptMatching at hatt
      cases hg : pattern.allowGaps with
      | true =>
        simp only [hg, if_true, hp] at hatt
        have hfalse : ∃ lc, matchesOnly false (some i) front MatchCache.empty MatchCache.empty
            = some lc := by
          rw [matchesOnly_aliased] at hfront
          cases hm : matchesOnly false (some i) front MatchCache.empty MatchCache.empty with
          | none => simp [hm] at hfront
          | some lc => exact ⟨lc, rfl⟩
        obtain ⟨lc, hlc⟩ := hfalse
        rw [hdrop] at hatt
        have huse : usesOverwrittenLocal i [] [] = false := by simp [usesOverwrittenLocal]
        simp only [searchInnerGappedLoop, skipGaps, hlc, huse, Bool.false_eq_true, if_false]
          at hatt
        cases hl : searchInnerGappedLoop parts (block.drop (st + 1)) (st + 1) []
            (setEmplace [] i.checkOutputLocal) (MatchCache.empty.insertAll lc)
            ([] ++ [(st, i)]) with
        | none =>
          rw [hl] at hatt
          cases hatt
        | some out =>
          obtain ⟨ms1, _, hout, _⟩ := gappedLoop_some block parts (block.drop (st + 1))
            (st + 1) [] _ _ _ out rfl hl
          rw [hl] at hatt
          simp only at hatt
          split at hatt
          · cases hatt
          · have e : out = ms := Option.some.inj hatt
            rw [← e, hout]
            exact ⟨i, ms1, rfl⟩
      | false =>
        simp only [hg, Bool.false_eq_true, if_false, hp] at hatt
        rw [hdrop] at hatt
        cases hc : searchInnerCompactCheck (front :: parts) (some i :: block.drop (st + 1))
            MatchCache.empty with
        | none => simp [hc] at hatt
        | some gf =>
          simp only [hc, Option.some.injEq, matchedCompact] at hatt
          exact ⟨i, _, hatt.symm⟩

end vc4c

namespace vc4c

theorem matches_false (slot : Option IntermediateInstruction) (p : InstructionPattern)
    (s : Placeholders) (h : («matches» slot p s).1 = false) : («matches» slot p s).2 = s := by
  cases slot with
  | none => rfl
  | some inst =>
    rw [matches_eq] at h ⊢
    cases hm : matchesOnly true (some inst) p MatchCache.empty MatchCache.empty with
    | none => rfl
    | some n => simp [hm] at h

/-- The result of `matches` does not depend on the contents of the placeholders. -/
theorem matches_fst (slot : Option IntermediateInstruction) (p : InstructionPattern)
    (s t : Placeholders) : («matches» slot p s).1 = («matches» slot p t).1 := by
  cases slot with
  | none => rfl
  | some inst =>
    rw [matches_eq, matches_eq]
    cases matchesOnly true (some inst) p MatchCache.empty MatchCache.empty <;> rfl

theorem matches_idem (slot : Option IntermediateInstruction) (p : InstructionPattern)
    (s s1 : Placeholders) (h : «matches» slot p s = (true, s1)) :
    «matches» slot p s1 = (true, s1) := by
  cases slot with
  | none => simp [«matches»] at h
  | some inst =>
    rw [matches_eq] at h ⊢
    cases hm : matchesOnly true (some inst) p MatchCache.empty MatchCache.empty with
    | none => simp [hm] at h
    | some n =>
      simp only [hm, Prod.mk.injEq, true_and] at h ⊢
      rw [← h]
      exact (cellWise_applyCaptures _).idem s

theorem updateMatchSubExpression_eq (sub : SubExpression) (p : ValuePattern) (s : Placeholders) :
    updateMatchSubExpression sub p s = applyCaptures (valueCaptures sub.checkValue p) s := by
  unfold updateMatchSubExpression
  cases h : sub.checkValue with
  | none => cases p <;> simp [valueCaptures, applyCaptures]
  | some v => exact updateMatchValue_eq (some v) p s

theorem capturesOf_expressionChecks (expr : Expression) (p : InstructionPattern) :
    capturesOf (expressionChecks expr p) = expressionCaptures expr p := by
  have hop : ∀ op q, capturesOf (operationChecks op q) = operationCaptures op q := by
    intro op q; cases q <;> rfl
  have hnone : ∀ q : ValuePattern, valueCaptures none q = [] := by
    intro q; cases q <;> rfl
  unfold expressionChecks expressionCaptures
  cases expr.arg0.checkValue <;> cases expr.arg1.checkValue <;>
    simp [capturesOf_append, capturesOf_valueChecks, capturesOf, hop, hnone]

theorem matchesExpression_eq (expr : Expression) (p : InstructionPattern) (s : Placeholders) :
    matchesExpression expr p s
      = match runChecks true (expressionChecks expr p) MatchCache.empty MatchCache.empty with
        | none => (false, s)
        | some _ => (true, applyCaptures (expressionCaptures expr p) s) := by
  have hsub : ∀ (sub : SubExpression) (q : ValuePattern) (c : MatchCache),
      matchesSubExpression sub q c c
        = runChecks true (match sub.checkValue with
            | some v => valueChecks (some v) q
            | none => [.test false]) MatchCache.empty c := by
    intro sub q c
    unfold matchesSubExpression
    cases sub.checkValue with
    | none => simp [runChecks, Check.run]
    | some v => exact matchesValue_eq true (some v) q MatchCache.empty c
  have hop : ∀ (c : MatchCache), matchesOperation expr.code p.operation c c
      = runChecks true (operationChecks expr.code p.operation) MatchCache.empty c :=
    fun c => matchesOperation_eq true expr.code p.operation MatchCache.empty c
  unfold matchesExpression expressionChecks expressionCaptures
  simp only [runChecks_append, hsub, hop, updateMatchOperation_eq, updateMatchSubExpression_eq,
    applyCaptures_append]
  by_cases hpk : (expr.packMode || expr.unpackMode) = true
  · simp [hpk, runChecks, Check.run]
  · have hpk2 : (expr.packMode || expr.unpackMode) = false := by simpa using hpk
    simp only [hpk2, Bool.false_eq_true, if_false, runChecks, Check.run, Bool.not_false, if_true,
      Option.some_bind]
    cases runChecks true (operationChecks expr.code p.operation) MatchCache.empty
        MatchCache.empty with
    | none => simp
    | some c1 =>
      simp only [Option.some_bind]
      cases h2 : runChecks true (match expr.arg0.checkValue with
            | some v => valueChecks (some v) p.firstArgument
            | none => [.test false]) MatchCache.empty c1 with
      | none => simp
      | some c2 =>
        cases h3 : runChecks true (match expr.arg1.checkValue with
              | some v => valueChecks (some v) p.secondArgument
              | none => [.test false]) MatchCache.empty c2 with
        | none => simp [h3]
        | some c3 => simp [h3]

theorem matchesExpression_holds (expr : Expression) (p : InstructionPattern) (s : Placeholders)
    (h : (matchesExpression expr p s).1 = true) :
    p.holdsExpression (matchesExpression expr p s).2 expr := by
  rw [matchesExpression_eq] at h ⊢
  cases hm : runChecks true (expressionChecks expr p) MatchCache.empty MatchCache.empty with
  | none => simp [hm] at h
  | some n =>
    simp only
    have hcap := (runChecks_some true _ _ _ n hm).2.1
    rw [capturesOf_expressionChecks] at hcap
    have htest := test_false_not_mem true _ _ _ n hm
    have hst : ∀ c ∈ expressionCaptures expr p,
        storedOf c.1 c.2 = some (applyCaptures (expressionCaptures expr p) s c.1) := by
      intro c hc
      have hx : ∃ x, storedOf c.1 c.2 = some x := by
        have hv : ∀ (val : Option Value) (vp : ValuePattern), ∀ c ∈ valueCaptures val vp,
            ∃ x, storedOf c.1 c.2 = some x := by
          intro val vp c hc
          cases vp <;> cases val <;> simp [valueCaptures] at hc
          · subst hc; exact ⟨_, rfl⟩
          · obtain ⟨h1, h2⟩ := hc
            subst h2
            obtain ⟨l, hl⟩ := Option.isSome_iff_exists.1 h1
            exact ⟨.loc l, by simp [storedOf, hl]⟩
          · obtain ⟨h1, h2⟩ := hc
            subst h2
            obtain ⟨l, hl⟩ := Option.isSome_iff_exists.1 h1
            exact ⟨.literal l, by simp [storedOf, hl]⟩
        simp only [expressionCaptures, List.mem_append] at hc
        rcases hc with (h1 | h1) | h1
        · cases hp : p.operation <;> simp [hp, operationCaptures] at h1
          subst h1; exact ⟨_, rfl⟩
        · exact hv _ _ c h1
        · exact hv _ _ c h1
      obtain ⟨x, hx⟩ := hx
      rw [applyCaptures_holds _ s (consistent_of_cache _ n hcap) c hc x hx, hx]
    generalize applyCaptures (expressionCaptures expr p) s = t at hst ⊢
    simp only [expressionCaptures, List.mem_append] at hst
    simp only [expressionChecks, List.mem_append, not_or] at htest
    refine ⟨?_, ?_, ?_⟩
    · exact operationPattern_holds _ _ _ (fun c hc => hst c (by simp [hc]))
    · cases h0 : expr.arg0.checkValue with
      | none => simp [h0] at htest
      | some v =>
        rw [h0] at hst htest
        exact valuePattern_holds _ _ _ htest.1.2 (fun c hc => hst c (by simp [hc]))
    · cases h1 : expr.arg1.checkValue with
      | none => simp [h1] at htest
      | some v =>
        rw [h1] at hst htest
        exact valuePattern_holds _ _ _ htest.2 (fun c hc => hst c (by simp [hc]))

theorem searchInstructionFrom_spec (p : InstructionPattern)
    (b : List (Option IntermediateInstruction)) :
    ∀ (rest : List (Option IntermediateInstruction)) (pos : Nat) (s : Placeholders),
      b.drop pos = rest →
      (∀ i, (searchInstructionFrom p rest pos s).1 = some i →
          pos ≤ i ∧ (∃ slot, b[i]? = some slot ∧ («matches» slot p s).1 = true
              ∧ (searchInstructionFrom p rest pos s).2 = («matches» slot p s).2)
            ∧ ∀ j slot, pos ≤ j → j < i → b[j]? = some slot → («matches» slot p s).1 = false)
        ∧ ((searchInstructionFrom p rest pos s).1 = none →
            (searchInstructionFrom p rest pos s).2 = s
              ∧ ∀ j slot, pos ≤ j → b[j]? = some slot → («matches» slot p s).1 = false) := by
  intro rest
  induction rest with
  | nil =>
    intro pos s hb
    refine ⟨fun i h => by simp [searchInstructionFrom] at h, fun _ => ⟨rfl, ?_⟩⟩
    intro j slot hj hslot
    have hlen : b.length ≤ pos := List.drop_eq_nil_iff.1 hb
    have : j < b.length := by
      by_contra hcon
      rw [List.getElem?_eq_none (by omega)] at hslot
      cases hslot
    omega
  | cons slot rest ih =>
    intro pos s hb
    obtain ⟨hb1, hb2⟩ := drop_cons_inv b pos slot rest hb
    cases hm : «matches» slot p s with
    | mk r s1 =>
      cases r with
      | true =>
        have hfst : («matches» slot p s).1 = true := by rw [hm]
        simp only [searchInstructionFrom, hm]
        refine ⟨?_, fun h => by cases h⟩
        intro i hi
        have e : pos = i := Option.some.inj hi
        subst e
        refine ⟨le_refl _, ⟨slot, hb1, hfst, by rw [hm]⟩, ?_⟩
        intro j slot2 h1 h2; omega
      | false =>
        have hfst : («matches» slot p s).1 = false := by rw [hm]
        have hs1 : s1 = s := by
          have := matches_false slot p s hfst
          rw [hm] at this; exact this
        subst hs1
        simp only [searchInstructionFrom, hm]
        obtain ⟨ih1, ih2⟩ := ih (pos + 1) s1 hb2
        constructor
        · intro i hi
          obtain ⟨h1, h2, h3⟩ := ih1 i hi
          refine ⟨by omega, h2, ?_⟩
          intro j slot2 hj1 hj2 hj3
          by_cases hj : j = pos
          · subst hj
            rw [hb1] at hj3
            have e : slot = slot2 := Option.some.inj hj3
            rw [← e]; exact hfst
          · exact h3 j slot2 (by omega) hj2 hj3
        · intro hn
          obtain ⟨h1, h2⟩ := ih2 hn
          refine ⟨h1, ?_⟩
          intro j slot2 hj1 hj3
          by_cases hj : j = pos
          · subst hj
            rw [hb1] at hj3
            have e : slot = slot2 := Option.some.inj hj3
            rw [← e]; exact hfst
          · exact h2 j slot2 (by omega) hj3

end vc4c

namespace vc4c

/-- C2: pattern matching is atomic. If `matches` (on an instruction or on an expression) or
`search` (for an instruction pattern or for a multi-instruction pattern, compact or gapped)
reports failure, every placeholder variable holds the value it had before the call; this
includes the case that some parts of a multi-instruction pattern matched before the attempt
failed. If it reports success, every placeholder of every part holds the corresponding
component (output, operation code, first argument, second argument, condition, flags) of the
instruction which that part matched. -/
theorem pattern_matching_atomic (block : List (Option IntermediateInstruction)) (start : Nat)
    (inst : Option IntermediateInstruction) (expr : Expression) (p : InstructionPattern)
    (pattern : Pattern) (returnEndOfPattern : Bool) (s : Placeholders) :
    ((«matches» inst p s).1 = false → («matches» inst p s).2 = s)
      ∧ ((matchesExpression expr p s).1 = false → (matchesExpression expr p s).2 = s)
      ∧ ((searchInstruction block start p s).1 = none → (searchInstruction block start p s).2 = s)
      ∧ ((search block start pattern returnEndOfPattern s).1 = none →
          (search block start pattern returnEndOfPattern s).2 = s)
      ∧ (∀ i, inst = some i → («matches» inst p s).1 = true →
          p.holds («matches» inst p s).2 i)
      ∧ ((matchesExpression expr p s).1 = true →
          p.holdsExpression (matchesExpression expr p s).2 expr)
      ∧ (∀ pos, (searchInstruction block start p s).1 = some pos →
          ∃ i, block[pos]? = some (some i) ∧ p.holds (searchInstruction block start p s).2 i)
      ∧ (∀ pos, (search block start pattern returnEndOfPattern s).1 = some pos →
          ∃ st ms, searchMatching block start pattern = some (st, ms)
            ∧ (∀ m ∈ ms, block[m.1]? = some (some m.2))
            ∧ List.Forall₂
                (fun m part =>
                  InstructionPattern.holds (search block start pattern returnEndOfPattern s).2
                    m.2 part)
                ms pattern.parts) := by
  refine ⟨matches_false inst p s, ?_, ?_, ?_, ?_, matchesExpression_holds expr p s, ?_, ?_⟩
  · intro h
    rw [matchesExpression_eq] at h ⊢
    cases hm : runChecks true (expressionChecks expr p) MatchCache.empty MatchCache.empty with
    | none => rfl
    | some n => simp [hm] at h
  · intro h
    exact ((searchInstructionFrom_spec p block (block.drop start) start s rfl).2 h).1
  · intro h
    rw [search_eq] at h ⊢
    cases hm : searchMatching block start pattern with
    | none => rfl
    | some r => simp [hm] at h
  · intro i hi h
    subst hi
    obtain ⟨⟨n, hn, _⟩, _, hst⟩ := matches_stored i p s h
    exact instructionPattern_holds true i p _ _ n _ hn hst
  · intro pos h
    obtain ⟨_, ⟨slot, hslot, hm, hs2⟩, _⟩ :=
      (searchInstructionFrom_spec p block (block.drop start) start s rfl).1 pos h
    cases slot with
    | none => simp [«matches»] at hm
    | some i =>
      refine ⟨i, hslot, ?_⟩
      have hs3 : (searchInstruction block start p s).2 = («matches» (some i) p s).2 := hs2
      rw [hs3]
      obtain ⟨⟨n, hn, _⟩, _, hst⟩ := matches_stored i p s hm
      exact instructionPattern_holds true i p _ _ n _ hn hst
  · intro pos h
    rw [search_eq] at h ⊢
    cases hm : searchMatching block start pattern with
    | none => simp [hm] at h
    | some r =>
      obtain ⟨st, ms⟩ := r
      obtain ⟨_, hatt, _⟩ := searchMatching_some block start pattern st ms hm
      obtain ⟨_, hmem, _, _⟩ := attemptMatching_some pattern block st ms hatt
      refine ⟨st, ms, rfl, fun m hm2 => (hmem m hm2).2.1, ?_⟩
      exact (updateAll_stored pattern block st ms s hatt).2

/-- Witness for C2: in the block `%10 = mov 1; %11 = mov 2; %12 = mov 3; %13 = add %12, 1` the
gapped search for `(any) = mov 1; $x = mov (any); (any) = add $x, (any)` fails after its first two
parts have matched, and the placeholders are unchanged. -/
theorem pattern_matching_atomic_witness :
    (search Example.blockGreedy 0 ⟨Example.greedyParts, true⟩ false Example.initialStore).1 = none
      ∧ (search Example.blockGreedy 0 ⟨Example.greedyParts, true⟩ false Example.initialStore).2
          = Example.initialStore :=
  ⟨by decide,
    (pattern_matching_atomic Example.blockGreedy 0 none ⟨.FAKEOP_MOV, .empty, .empty, false, false⟩
      Example.anything ⟨Example.greedyParts, true⟩ false Example.initialStore).2.2.2.1 (by decide)⟩

/-- C3: a placeholder mentioned at two positions forces equal components. If a match of an
instruction pattern succeeds, any two captures of the same placeholder within the pattern carry
the same component of the instruction (for instance the output and the first argument are equal
when both are the same value placeholder); in a successful search for a multi-instruction
pattern, compact or gapped, any two captures of the same placeholder in any parts carry the same
component of the matched instructions; and an instruction whose component differs from an
earlier capture of the placeholder (in either cache) does not match the part. For an
`InvertedCondition` the captured component is the inverted condition code. -/
theorem repeated_placeholder_consistent (block : List (Option IntermediateInstruction))
    (start : Nat) (inst : IntermediateInstruction) (p : InstructionPattern) (pattern : Pattern)
    (s : Placeholders) :
    ((«matches» (some inst) p s).1 = true →
        ∀ c1 ∈ captures inst p, ∀ c2 ∈ captures inst p, c1.1 = c2.1 → c1.2 = c2.2)
      ∧ ((«matches» (some inst) p s).1 = true →
          ∀ addr, p.output = .placeholderValue addr → p.firstArgument = .placeholderValue addr →
            inst.getOutput = inst.getArgument 0)
      ∧ (∀ st ms, searchMatching block start pattern = some (st, ms) →
          ∀ c1 ∈ allCaptures ms pattern.parts, ∀ c2 ∈ allCaptures ms pattern.parts,
            c1.1 = c2.1 → c1.2 = c2.2)
      ∧ (∀ aliased previousCache newCache c y, c ∈ captures inst p →
          ((aliased = false ∧ previousCache c.1 = some y) ∨ newCache c.1 = some y) → y ≠ c.2 →
          matchesOnly aliased (some inst) p previousCache newCache = none) := by
  have h1 : («matches» (some inst) p s).1 = true →
      ∀ c1 ∈ captures inst p, ∀ c2 ∈ captures inst p, c1.1 = c2.1 → c1.2 = c2.2 := by
    intro h
    obtain ⟨⟨n, _, hcap⟩, _, _⟩ := matches_stored inst p s h
    exact consistent_of_cache _ n hcap
  refine ⟨h1, ?_, ?_, ?_⟩
  · intro h addr hout harg
    obtain ⟨⟨n, hn, _⟩, _, _⟩ := matches_stored inst p s h
    rw [matchesOnly_eq] at hn
    have htest := test_false_not_mem true _ _ _ n hn
    cases ho : inst.getOutput with
    | none =>
      exfalso; apply htest
      simp [instructionChecks, hout, ho, valueChecks]
    | some v =>
      cases ha : inst.getArgument 0 with
      | none =>
        exfalso; apply htest
        simp [instructionChecks, harg, ha, valueChecks]
      | some w =>
        have := h1 h (.value addr, .value v) (by simp [captures, hout, ho, valueCaptures])
          (.value addr, .value w) (by simp [captures, harg, ha, valueCaptures]) rfl
        simp only [Captured.value.injEq] at this
        rw [this]
  · intro st ms hm
    obtain ⟨_, hatt, _⟩ := searchMatching_some block start pattern st ms hm
    obtain ⟨_, _, _, gf, hcap, _⟩ := attemptMatching_some pattern block st ms hatt
    exact consistent_of_cache _ gf hcap
  · intro aliased prev new c y hc hy hne
    cases hm : matchesOnly aliased (some inst) p prev new with
    | none => rfl
    | some n =>
      exfalso
      obtain ⟨_, hext, hcap, hprev⟩ := matchesOnly_some aliased inst p prev new n hm
      rcases hy with ⟨hal, hy⟩ | hy
      · exact hne (hprev hal c hc y hy)
      · have e1 := hext _ _ hy
        rw [hcap c hc] at e1
        exact hne (Option.some.inj e1).symm

/-- Witness for C3: `%13 = add %12, 1` does not match `$x = add $x, (any)` (output and first
argument differ), `%12 = add %12, 1` does and its output equals its first argument. -/
theorem repeated_placeholder_consistent_witness :
    («matches» (some (Example.add 13 (Example.localValue 12) (Example.literalValue 1)))
        Example.addInPlace Example.initialStore).1 = false
      ∧ («matches» (some (Example.add 12 (Example.localValue 12) (Example.literalValue 1)))
          Example.addInPlace Example.initialStore).1 = true
      ∧ (Example.add 12 (Example.localValue 12) (Example.literalValue 1)).getOutput
          = (Example.add 12 (Example.localValue 12) (Example.literalValue 1)).getArgument 0 :=
  ⟨by decide, by decide,
    (repeated_placeholder_consistent [] 0
      (Example.add 12 (Example.localValue 12) (Example.literalValue 1)) Example.addInPlace
      ⟨[], false⟩ Example.initialStore).2.1 (by decide) 0 rfl rfl⟩

/-- C4: an instruction with a pack mode, an unpack mode or a signal with side effects matches no
instruction pattern, also not the pattern whose six components are all ignored: `matches`
returns false (and leaves the placeholders alone), `matchesOnly` fails for every pair of caches,
and the instruction is not among the instructions matched by the parts of any successful search
for a multi-instruction pattern. -/
theorem unsupported_instruction_never_matches (inst : IntermediateInstruction)
    (h : inst.hasPackMode = true ∨ inst.hasUnpackMode = true
      ∨ inst.getSignal.hasSideEffects = true) :
    (∀ p s, «matches» (some inst) p s = (false, s))
      ∧ (∀ aliased p previousCache newCache,
          matchesOnly aliased (some inst) p previousCache newCache = none)
      ∧ (∀ block start pattern st ms, searchMatching block start pattern = some (st, ms) →
          ∀ m ∈ ms, m.2 ≠ inst) := by
  have hsup : supported inst = false := by
    unfold supported
    rcases h with h | h | h <;> simp [h]
  refine ⟨?_, fun al p prev new => matchesOnly_unsupported al inst p prev new hsup, ?_⟩
  · intro p s
    rw [matches_eq, matchesOnly_unsupported true inst p _ _ hsup]
  · intro block start pattern st ms hm m hmem heq
    obtain ⟨_, hatt, _⟩ := searchMatching_some block start pattern st ms hm
    obtain ⟨_, hall, _, _⟩ := attemptMatching_some pattern block st ms hatt
    have := (hall m hmem).2.2
    rw [heq, hsup] at this
    cases this

/-- Witness for C4: an addition with a pack mode does not match the pattern whose components are
all ignored. -/
theorem unsupported_instruction_never_matches_witness :
    Example.packedAdd.hasPackMode = true
      ∧ «matches» (some Example.packedAdd) Example.anything Example.initialStore
          = (false, Example.initialStore) :=
  ⟨by decide,
    (unsupported_instruction_never_matches Example.packedAdd (Or.inl (by decide))).1
      Example.anything Example.initialStore⟩

end vc4c

namespace vc4c

theorem updateAll_idem (ms : List (Nat × IntermediateInstruction))
    (parts : List InstructionPattern) (s : Placeholders) :
    updateAll ms parts (updateAll ms parts s) = updateAll ms parts s := by
  rw [updateAll_eq, updateAll_eq]
  exact (cellWise_applyCaptures _).idem s

theorem searchInstruction_idem (block : List (Option IntermediateInstruction)) (start : Nat)
    (p : InstructionPattern) (s s1 : Placeholders) (pos : Nat)
    (h : searchInstruction block start p s = (some pos, s1)) :
    searchInstruction block start p s1 = (some pos, s1)
      ∧ ∃ slot, block[pos]? = some slot ∧ «matches» slot p s1 = (true, s1) := by
  have h1 : (searchInstruction block start p s).1 = some pos := by rw [h]
  have h2 : (searchInstruction block start p s).2 = s1 := by rw [h]
  obtain ⟨hle, ⟨slot, hslot, hm, hs2⟩, hfirst⟩ :=
    (searchInstructionFrom_spec p block (block.drop start) start s rfl).1 pos h1
  have hs1 : («matches» slot p s).2 = s1 := by
    rw [← h2]; exact hs2.symm
  have hmatch : «matches» slot p s = (true, s1) := by
    rw [← hm, ← hs1]
  have hidem := matches_idem slot p s s1 hmatch
  refine ⟨?_, slot, hslot, hidem⟩
  obtain ⟨hsome, hnone⟩ := searchInstructionFrom_spec p block (block.drop start) start s1 rfl
  cases hr : (searchInstructionFrom p (block.drop start) start s1).1 with
  | none =>
    exfalso
    have := (hnone hr).2 pos slot hle hslot
    rw [hidem] at this
    cases this
  | some i =>
    obtain ⟨hle2, ⟨slot2, hslot2, hm2, hs3⟩, hfirst2⟩ := hsome i hr
    have hi : i = pos := by
      rcases Nat.lt_trichotomy i pos with hlt | heq | hgt
      · have := hfirst i slot2 hle2 hlt hslot2
        rw [matches_fst slot2 p s s1, hm2] at this
        cases this
      · exact heq
      · have := hfirst2 pos slot hle hgt hslot
        rw [hidem] at this
        cases this
    subst hi
    rw [hslot] at hslot2
    have e : slot = slot2 := Option.some.inj hslot2
    subst e
    rw [hidem] at hs3
    show searchInstructionFrom p (block.drop start) start s1 = (some i, s1)
    exact Prod.ext hr hs3

/-- C8: matching is idempotent in its captures. If `matches` (on an instruction or an
expression) or `search` (for an instruction pattern or a multi-instruction pattern) succeeds
and leaves the placeholders with contents `s1`, then running it again at the same place with the
placeholders holding `s1` succeeds again, with the same result position, and leaves the
placeholders equal to `s1`; for `search` this holds from the same start as well as from the
position where the match was found. -/
theorem matching_idempotent (block : List (Option IntermediateInstruction)) (start : Nat)
    (inst : Option IntermediateInstruction) (expr : Expression) (p : InstructionPattern)
    (pattern : Pattern) (returnEndOfPattern : Bool) (s : Placeholders) :
    (∀ s1, «matches» inst p s = (true, s1) → «matches» inst p s1 = (true, s1))
      ∧ (∀ s1, matchesExpression expr p s = (true, s1) →
          matchesExpression expr p s1 = (true, s1))
      ∧ (∀ pos s1, searchInstruction block start p s = (some pos, s1) →
          searchInstruction block start p s1 = (some pos, s1)
            ∧ searchInstruction block pos p s1 = (some pos, s1))
      ∧ (∀ pos s1, search block start pattern returnEndOfPattern s = (some pos, s1) →
          search block start pattern returnEndOfPattern s1 = (some pos, s1)
            ∧ ∃ st ms, searchMatching block start pattern = some (st, ms)
                ∧ search block st pattern returnEndOfPattern s1 = (some pos, s1)) := by
  refine ⟨fun s1 h => matches_idem inst p s s1 h, ?_, ?_, ?_⟩
  · intro s1 h
    rw [matchesExpression_eq] at h ⊢
    cases hm : runChecks true (expressionChecks expr p) MatchCache.empty MatchCache.empty with
    | none => simp [hm] at h
    | some n =>
      simp only [hm, Prod.mk.injEq, true_and] at h ⊢
      rw [← h]
      exact (cellWise_applyCaptures _).idem s
  · intro pos s1 h
    obtain ⟨h1, slot, hslot, hm⟩ := searchInstruction_idem block start p s s1 pos h
    refine ⟨h1, ?_⟩
    have hlt : pos < block.length := by
      by_contra hcon
      rw [List.getElem?_eq_none (by omega)] at hslot
      cases hslot
    have hdrop : block.drop pos = slot :: block.drop (pos + 1) := by
      rw [List.drop_eq_getElem_cons hlt]
      congr 1
      rw [List.getElem?_eq_getElem hlt] at hslot
      exact Option.some.inj hslot
    simp only [searchInstruction, hdrop, searchInstructionFrom, hm]
  · intro pos s1 h
    rw [search_eq] at h
    cases hm : searchMatching block start pattern with
    | none => simp [hm] at h
    | some r =>
      obtain ⟨st, ms⟩ := r
      simp only [hm, Prod.mk.injEq] at h
      obtain ⟨hpos, hs1⟩ := h
      obtain ⟨_, _, hself⟩ := searchMatching_some block start pattern st ms hm
      have key : ∀ start2, searchMatching block start2 pattern = some (st, ms) →
          search block start2 pattern returnEndOfPattern s1 = (some pos, s1) := by
        intro start2 h2
        rw [search_eq, h2]
        simp only [Prod.mk.injEq]
        refine ⟨hpos, ?_⟩
        rw [← hs1]
        exact updateAll_idem ms pattern.parts s
      exact ⟨key start hm, st, ms, rfl, key st hself⟩

/-- Witness for C8: the compact search for `(any) = mov 1; $x = mov (any); (any) = add $x, (any)`
in `%10 = mov 1; %12 = mov 3; %13 = add %12, 1` succeeds at position 0, and succeeds again with
the same placeholder contents when it is repeated on the contents it produced. -/
theorem matching_idempotent_witness :
    (search Example.blockGreedyChosen 0 ⟨Example.greedyParts, false⟩ false
        Example.initialStore).1 = some 0
      ∧ search Example.blockGreedyChosen 0 ⟨Example.greedyParts, false⟩ false
          (search Example.blockGreedyChosen 0 ⟨Example.greedyParts, false⟩ false
            Example.initialStore).2
        = (some 0, (search Example.blockGreedyChosen 0 ⟨Example.greedyParts, false⟩ false
            Example.initialStore).2) :=
  ⟨by decide,
    ((matching_idempotent Example.blockGreedyChosen 0 none
        ⟨.FAKEOP_MOV, .empty, .empty, false, false⟩ Example.anything
        ⟨Example.greedyParts, false⟩ false Example.initialStore).2.2.2 0 _
      (Prod.ext (by decide) rfl)).1⟩

/-- C9: `search` for an instruction pattern returns the position of the first instruction at or
after `start` that matches: the result is a position at or after `start` whose instruction
matches and no instruction from `start` up to it matches; it returns the end sentinel (and no
error: the function is total) exactly when no instruction from `start` to the end of the block
matches. `search` for a pattern without parts returns the end sentinel for every start. -/
theorem search_returns_first_match (block : List (Option IntermediateInstruction)) (start : Nat)
    (p : InstructionPattern) (pattern : Pattern) (returnEndOfPattern : Bool) (s : Placeholders) :
    (∀ pos, (searchInstruction block start p s).1 = some pos →
        start ≤ pos ∧ (∃ slot, block[pos]? = some slot ∧ («matches» slot p s).1 = true)
          ∧ ∀ j slot, start ≤ j → j < pos → block[j]? = some slot →
              («matches» slot p s).1 = false)
      ∧ ((searchInstruction block start p s).1 = none ↔
          ∀ j slot, start ≤ j → block[j]? = some slot → («matches» slot p s).1 = false)
      ∧ (pattern.parts = [] →
          search block start pattern returnEndOfPattern s = (none, s)) := by
  obtain ⟨hsome, hnone⟩ := searchInstructionFrom_spec p block (block.drop start) start s rfl
  refine ⟨?_, ⟨fun h => (hnone h).2, ?_⟩, ?_⟩
  · intro pos h
    obtain ⟨h1, ⟨slot, h2, h3, _⟩, h4⟩ := hsome pos h
    exact ⟨h1, ⟨slot, h2, h3⟩, h4⟩
  · intro hall
    cases hr : (searchInstruction block start p s).1 with
    | none => rfl
    | some pos =>
      exfalso
      obtain ⟨h1, ⟨slot, h2, h3, _⟩, _⟩ := hsome pos hr
      have := hall pos slot h1 h2
      rw [h3] at this
      cases this
  · intro hp
    simp [search, hp]

/-- Witness for C9: in `%10 = mov 1; %11 = mov 2; %12 = mov 3; %13 = add %12, 1` the search for
`(any) = add (any), (any)` from position 1 returns position 3, and no instruction at the
positions 1 and 2 matches. -/
theorem search_returns_first_match_witness :
    (searchInstruction Example.blockGreedy 1 Example.anyAdd Example.initialStore).1 = some 3
      ∧ ∀ j slot, 1 ≤ j → j < 3 → Example.blockGreedy[j]? = some slot →
          («matches» slot Example.anyAdd Example.initialStore).1 = false :=
  ⟨by decide,
    ((search_returns_first_match Example.blockGreedy 1 Example.anyAdd ⟨[], false⟩ false
      Example.initialStore).1 3 (by decide)).2.2⟩

end vc4c

namespace vc4c

/-- Facts about a successful attempt with gaps: what is known of the skipped slots. -/
theorem gappedAttempt_some (pattern : Pattern) (b : List (Option IntermediateInstruction))
    (st : Nat) (ms : List (Nat × IntermediateInstruction)) (hg : pattern.allowGaps = true)
    (h : attemptMatching pattern (b.drop st) st = some ms) :
    (∀ q, st ≤ q → (∃ m ∈ ms, q < m.1) → q ∉ ms.map Prod.fst →
        ∃ slot, b[q]? = some slot ∧ gapAllowed slot = true)
      ∧ (∀ ms1 m ms2, ms = ms1 ++ m :: ms2 → ∀ l, m.2.readsLocal l = true →
          (∃ q i, st ≤ q ∧ q < m.1 ∧ q ∉ ms.map Prod.fst
            ∧ b[q]? = some (some i) ∧ i.checkOutputLocal = some l) →
          (∃ m1 ∈ ms1, m1.2.checkOutputLocal = some l) → False) := by
  unfold attemptMatching at h
  simp only [hg, if_true] at h
  cases hl : searchInnerGappedLoop pattern.parts (b.drop st) st [] [] MatchCache.empty [] with
  | none => simp [hl] at h
  | some out =>
    obtain ⟨ms1, gf, hout, hlen, _, _, _, _, _, hgaps, hdep⟩ :=
      gappedLoop_some b pattern.parts (b.drop st) st [] [] MatchCache.empty [] out rfl hl
    simp only [List.nil_append] at hout
    subst hout
    simp only [hl, hlen, bne_self_eq_false, Bool.false_eq_true, if_false, Option.some.injEq] at h
    subst h
    refine ⟨hgaps, ?_⟩
    intro l1 m l2 hsplit l hreads hgapw hprevw
    exact hdep l1 m l2 hsplit l hreads (Or.inr hgapw) (Or.inr hprevw)

theorem gapAllowed_iff (slot : Option IntermediateInstruction) :
    gapAllowed slot = true
      ↔ slot = none
        ∨ ∃ i, slot = some i ∧ i.getSignal.hasSideEffects = false ∧ i.doesSetFlag = false := by
  cases slot with
  | none => simp [gapAllowed]
  | some i => simp [gapAllowed]

/-- Counterexample to C5 as stated: in the block `%10 = mov 1; lock mutex; %13 = add %10, %11`
the gapped search for `(any) = mov (any); (any) = add (any), (any)` succeeds, matching the
instructions at the positions 0 and 2, although the skipped instruction in between, the locking
of the mutex, has a side effect (it carries `SIGNAL_NONE` and does not set flags, which is all
the search looks at). -/
theorem gap_with_side_effect_is_skipped :
    (search Example.blockWithLock 0 ⟨[Example.anyMove, Example.anyAdd], true⟩ false
        Example.initialStore).1 = some 0
      ∧ (searchMatching Example.blockWithLock 0 ⟨[Example.anyMove, Example.anyAdd], true⟩).map
          (fun r => r.2.map Prod.fst) = some [0, 2]
      ∧ Example.blockWithLock[1]? = some (some Example.mutexLock)
      ∧ Example.mutexLock.hasSideEffects = true
      ∧ Example.mutexLock.getSideEffects = [SideEffectType.REGISTER_READ] := by
  decide

/-- C5 (amended): in every successful search with gaps, the first matched instruction is the one
at the start of the successful attempt, and every slot from there up to the last matched
instruction that is not matched to a pattern part is erased or holds an instruction whose signal
has no side effects and which does not set flags; and when the search meets an instruction that
does not match the current part and whose signal has side effects or which sets flags, the
attempt from that start position fails. -/
theorem gapped_search_skips_only_allowed (block : List (Option IntermediateInstruction))
    (start : Nat) (pattern : Pattern) (hg : pattern.allowGaps = true) :
    (∀ st ms, searchMatching block start pattern = some (st, ms) →
        (∃ inst tail, ms = (st, inst) :: tail)
          ∧ ∀ q, st ≤ q → (∃ m ∈ ms, q < m.1) → q ∉ ms.map Prod.fst →
              ∃ slot, block[q]? = some slot
                ∧ (slot = none ∨ ∃ i, slot = some i ∧ i.getSignal.hasSideEffects = false
                    ∧ i.doesSetFlag = false))
      ∧ (∀ part parts rest pos gapWritten previouslyWritten globalCache matching i,
          matchesOnly false (some i) part globalCache MatchCache.empty = none →
          (i.getSignal.hasSideEffects = true ∨ i.doesSetFlag = true) →
          searchInnerGappedLoop (part :: parts) (some i :: rest) pos gapWritten previouslyWritten
            globalCache matching = none) := by
  constructor
  · intro st ms hm
    refine ⟨searchMatching_head block start pattern st ms hm, ?_⟩
    intro q hq1 hq2 hq3
    obtain ⟨_, hatt, _⟩ := searchMatching_some block start pattern st ms hm
    obtain ⟨slot, hs1, hs2⟩ := (gappedAttempt_some pattern block st ms hg hatt).1 q hq1 hq2 hq3
    exact ⟨slot, hs1, (gapAllowed_iff slot).1 hs2⟩
  · intro part parts rest pos gw pw g acc i hm hbad
    have hbad2 : (i.getSignal.hasSideEffects || i.doesSetFlag) = true := by
      rcases hbad with h | h <;> simp [h]
    simp [searchInnerGappedLoop, skipGaps, hm, hbad2]

/-- Witness for C5 (amended): in the successful gapped search of the block with the mutex lock,
the skipped slot at position 1 holds an instruction without signal side effects that does not
set flags. -/
theorem gapped_search_skips_only_allowed_witness :
    searchMatching Example.blockWithLock 0 ⟨[Example.anyMove, Example.anyAdd], true⟩
        = some (0, Example.matchedWithLock)
      ∧ ∃ slot, Example.blockWithLock[1]? = some slot
          ∧ (slot = none ∨ ∃ i, slot = some i ∧ i.getSignal.hasSideEffects = false
              ∧ i.doesSetFlag = false) :=
  ⟨by decide,
    ((gapped_search_skips_only_allowed Example.blockWithLock 0
      ⟨[Example.anyMove, Example.anyAdd], true⟩ rfl).1 0 Example.matchedWithLock (by decide)).2 1
      (by decide)
      ⟨(2, Example.add 13 (Example.localValue 10) (Example.localValue 11)), by decide,
        by decide⟩
      (by decide)⟩

end vc4c

namespace vc4c

theorem skipGaps_rel (x : Local) (part : InstructionPattern) (g : MatchCache)
    (rest : List (Option IntermediateInstruction)) :
    ∀ (pos : Nat) (gw1 gw2 : List (Option Local)),
      (∀ y, y ∈ gw1 ↔ (y ∈ gw2 ∨ y = some x)) →
      (skipGaps part g rest pos gw1 = .aborted ∧ skipGaps part g rest pos gw2 = .aborted)
        ∨ (skipGaps part g rest pos gw1 = .endOfBlock
            ∧ skipGaps part g rest pos gw2 = .endOfBlock)
        ∨ ∃ p inst lc rest1 g1 g2,
            skipGaps part g rest pos gw1 = .found p inst lc rest1 g1
              ∧ skipGaps part g rest pos gw2 = .found p inst lc rest1 g2
              ∧ (∀ y, y ∈ g1 ↔ (y ∈ g2 ∨ y = some x))
              ∧ some inst ∈ rest ∧ (∀ slot, slot ∈ rest1 → slot ∈ rest) := by
  induction rest with
  | nil =>
    intro pos gw1 gw2 _
    exact Or.inr (Or.inl ⟨rfl, rfl⟩)
  | cons slot rest ih =>
    intro pos gw1 gw2 hrel
    have lift : ∀ (a1 a2 : List (Option Local)),
        ((skipGaps part g rest (pos + 1) a1 = .aborted
            ∧ skipGaps part g rest (pos + 1) a2 = .aborted)
          ∨ (skipGaps part g rest (pos + 1) a1 = .endOfBlock
              ∧ skipGaps part g rest (pos + 1) a2 = .endOfBlock)
          ∨ ∃ p inst lc rest1 g1 g2,
              skipGaps part g rest (pos + 1) a1 = .found p inst lc rest1 g1
                ∧ skipGaps part g rest (pos + 1) a2 = .found p inst lc rest1 g2
                ∧ (∀ y, y ∈ g1 ↔ (y ∈ g2 ∨ y = some x))
                ∧ some inst ∈ rest ∧ (∀ s, s ∈ rest1 → s ∈ rest)) →
        skipGaps part g (slot :: rest) pos gw1 = skipGaps part g rest (pos + 1) a1 →
        skipGaps part g (slot :: rest) pos gw2 = skipGaps part g rest (pos + 1) a2 →
        (skipGaps part g (slot :: rest) pos gw1 = .aborted
            ∧ skipGaps part g (slot :: rest) pos gw2 = .aborted)
          ∨ (skipGaps part g (slot :: rest) pos gw1 = .endOfBlock
              ∧ skipGaps part g (slot :: rest) pos gw2 = .endOfBlock)
          ∨ ∃ p inst lc rest1 g1 g2,
              skipGaps part g (slot :: rest) pos gw1 = .found p inst lc rest1 g1
                ∧ skipGaps part g (slot :: rest) pos gw2 = .found p inst lc rest1 g2
                ∧ (∀ y, y ∈ g1 ↔ (y ∈ g2 ∨ y = some x))
                ∧ some inst ∈ slot :: rest ∧ (∀ s, s ∈ rest1 → s ∈ slot :: rest) := by
      intro a1 a2 hih e1 e2
      rw [e1, e2]
      rcases hih with h | h | ⟨p, inst, lc, rest1, g1, g2, h1, h2, h3, h4, h5⟩
      · exact Or.inl h
      · exact Or.inr (Or.inl h)
      · exact Or.inr (Or.inr ⟨p, inst, lc, rest1, g1, g2, h1, h2, h3,
          List.mem_cons_of_mem _ h4, fun s hs => List.mem_cons_of_mem _ (h5 s hs)⟩)
    cases slot with
    | none => exact lift gw1 gw2 (ih (pos + 1) gw1 gw2 hrel) rfl rfl
    | some i =>
      cases hm : matchesOnly false (some i) part g MatchCache.empty with
      | some lc =>
        refine Or.inr (Or.inr ⟨pos, i, lc, rest, gw1, gw2, ?_, ?_, hrel, by simp, ?_⟩)
        · simp [skipGaps, hm]
        · simp [skipGaps, hm]
        · intro s hs; exact List.mem_cons_of_mem _ hs
      | none =>
        by_cases hse : (i.getSignal.hasSideEffects || i.doesSetFlag) = true
        · exact Or.inl ⟨by simp [skipGaps, hm, hse], by simp [skipGaps, hm, hse]⟩
        · have hrel2 : ∀ y, y ∈ setEmplace gw1 i.checkOutputLocal
              ↔ (y ∈ setEmplace gw2 i.checkOutputLocal ∨ y = some x) := by
            intro y
            rw [mem_setEmplace, mem_setEmplace, hrel y]
            tauto
          exact lift _ _ (ih (pos + 1) _ _ hrel2) (by simp [skipGaps, hm, hse])
            (by simp [skipGaps, hm, hse])

/-- A local in `gapWrittenLocals` that no matching instruction has written and no instruction of
the rest of the block writes has no influence on the outcome of the loop. -/
theorem gappedLoop_rel (x : Local) (parts : List InstructionPattern) :
    ∀ (rest : List (Option IntermediateInstruction)) (pos : Nat) (gw1 gw2 pw : List (Option Local))
      (g : MatchCache) (acc : List (Nat × IntermediateInstruction)),
      (∀ y, y ∈ gw1 ↔ (y ∈ gw2 ∨ y = some x)) → some x ∉ pw →
      (∀ i, some i ∈ rest → i.checkOutputLocal ≠ some x) →
      searchInnerGappedLoop parts rest pos gw1 pw g acc
        = searchInnerGappedLoop parts rest pos gw2 pw g acc := by
  induction parts with
  | nil => intro rest pos gw1 gw2 pw g acc _ _ _; rfl
  | cons part parts ih =>
    intro rest pos gw1 gw2 pw g acc hrel hpw hrest
    simp only [searchInnerGappedLoop]
    rcases skipGaps_rel x part g rest pos gw1 gw2 hrel with
      ⟨h1, h2⟩ | ⟨h1, h2⟩ | ⟨p, inst, lc, rest1, g1, g2, h1, h2, h3, h4, h5⟩
    · rw [h1, h2]
    · rw [h1, h2]
    · rw [h1, h2]
      simp only
      have huse : usesOverwrittenLocal inst g1 pw = usesOverwrittenLocal inst g2 pw := by
        rw [Bool.eq_iff_iff, usesOverwrittenLocal_iff, usesOverwrittenLocal_iff]
        constructor
        · rintro ⟨l, hl1, hl2, hl3⟩
          rcases (h3 _).1 hl1 with h | h
          · exact ⟨l, h, hl2, hl3⟩
          · rw [h] at hl3; exact absurd hl3 hpw
        · rintro ⟨l, hl1, hl2, hl3⟩
          exact ⟨l, (h3 _).2 (Or.inl hl1), hl2, hl3⟩
      rw [huse]
      by_cases hu : usesOverwrittenLocal inst g2 pw = true
      · simp [hu]
      · simp only [hu, Bool.false_eq_true, if_false]
        apply ih rest1 (p + 1) g1 g2 _ _ _ h3
        · rw [mem_setEmplace]
          rintro (h | h)
          · exact hrest inst h4 h.symm
          · exact hpw h
        · intro i hi
          exact hrest i (h5 _ hi)

/-- Counterexample to C6 as stated: in the block `%10 = mov 1; %10 = mov 2; %13 = add %11, %12`
the gapped search for `(any) = mov (any); (any) = add (any), (any)` succeeds, matching the
instructions at the positions 0 and 2, although the skipped instruction at position 1 writes the
local `%10` written by the instruction matched before it. -/
theorem gap_overwriting_matched_local_is_skipped :
    (search Example.blockWithOverwrite 0 ⟨[Example.anyMove, Example.anyAdd], true⟩ false
        Example.initialStore).1 = some 0
      ∧ searchMatching Example.blockWithOverwrite 0 ⟨[Example.anyMove, Example.anyAdd], true⟩
          = some (0, Example.matchedWithOverwrite)
      ∧ Example.blockWithOverwrite[1]? = some (some (Example.move 10 (Example.literalValue 2)))
      ∧ (Example.move 10 (Example.literalValue 2)).checkOutputLocal = some 10
      ∧ (Example.move 10 (Example.literalValue 1)).checkOutputLocal = some 10 := by
  decide

/-- C6 (amended): in every successful search with gaps, no matched instruction reads a local
that was written both by a gap instruction skipped before it (since the start of the attempt)
and by an instruction matched before it; a gap instruction may overwrite the local of an earlier
matched instruction when no later matched instruction reads it. Conversely, a local written by
a skipped gap instruction which no matching instruction has written so far and which no later
instruction of the block writes never changes the outcome of the attempt, whichever later
matched instructions read it. -/
theorem matched_reads_no_overwritten_local (block : List (Option IntermediateInstruction))
    (start : Nat) (pattern : Pattern) (hg : pattern.allowGaps = true) :
    (∀ st ms, searchMatching block start pattern = some (st, ms) →
        ∀ ms1 m ms2, ms = ms1 ++ m :: ms2 → ∀ l, m.2.readsLocal l = true →
          ∀ q i, st ≤ q → q < m.1 → q ∉ ms.map Prod.fst → block[q]? = some (some i) →
            i.checkOutputLocal = some l → ∀ m1 ∈ ms1, m1.2.checkOutputLocal ≠ some l)
      ∧ (∀ parts rest pos gapWritten previouslyWritten globalCache matching x,
          some x ∉ previouslyWritten → (∀ i, some i ∈ rest → i.checkOutputLocal ≠ some x) →
          searchInnerGappedLoop parts rest pos (setEmplace gapWritten (some x)) previouslyWritten
              globalCache matching
            = searchInnerGappedLoop parts rest pos gapWritten previouslyWritten globalCache
                matching) := by
  constructor
  · intro st ms hm ms1 m ms2 hsplit l hreads q i hq1 hq2 hq3 hq4 hq5 m1 hm1 hw
    obtain ⟨_, hatt, _⟩ := searchMatching_some block start pattern st ms hm
    exact (gappedAttempt_some pattern block st ms hg hatt).2 ms1 m ms2 hsplit l hreads
      ⟨q, i, hq1, hq2, hq3, hq4, hq5⟩ ⟨m1, hm1, hw⟩
  · intro parts rest pos gw pw g acc x hpw hrest
    apply gappedLoop_rel x parts rest pos _ _ pw g acc _ hpw hrest
    intro y
    rw [mem_setEmplace]
    tauto

/-- Witness for C6 (amended): in `%10 = mov 1; %11 = mov 2; %13 = add %11, %12` the gapped search
for `(any) = mov 1; (any) = add (any), (any)` succeeds; the matched addition reads `%11`, which
the skipped instruction wrote and the instruction matched before did not. -/
theorem matched_reads_no_overwritten_local_witness :
    searchMatching Example.blockGapRead 0 ⟨[Example.moveOne, Example.anyAdd], true⟩
        = some (0, Example.matchedGapRead)
      ∧ ∀ m1 ∈ [((0 : Nat), Example.move 10 (Example.literalValue 1))],
          m1.2.checkOutputLocal ≠ some 11 :=
  ⟨by decide,
    (matched_reads_no_overwritten_local Example.blockGapRead 0
      ⟨[Example.moveOne, Example.anyAdd], true⟩ rfl).1 0 Example.matchedGapRead (by decide)
      [(0, Example.move 10 (Example.literalValue 1))]
      (2, Example.add 13 (Example.localValue 11) (Example.localValue 12)) [] rfl 11 (by decide)
      1 (Example.move 11 (Example.literalValue 2)) (by decide) (by decide) (by decide)
      (by decide) (by decide)⟩

end vc4c

namespace vc4c

theorem updateAll_congr (ms ms2 : List (Nat × IntermediateInstruction))
    (h : ms.map Prod.snd = ms2.map Prod.snd) :
    ∀ (parts : List InstructionPattern) (s : Placeholders),
      updateAll ms parts s = updateAll ms2 parts s := by
  induction ms generalizing ms2 with
  | nil =>
    intro parts s
    cases ms2 with
    | nil => rfl
    | cons _ _ => simp at h
  | cons m ms ih =>
    intro parts s
    cases ms2 with
    | nil => simp at h
    | cons m2 ms2 =>
      simp only [List.map_cons, List.cons.injEq] at h
      cases parts with
      | nil => rfl
      | cons part parts =>
        simp only [updateAll, h.1]
        exact ih ms2 h.2 parts _

theorem matchedCompact_snd (ms : List (Nat × IntermediateInstruction)) :
    ∀ (parts : List InstructionPattern) (pos : Nat), ms.length = parts.length →
      (matchedCompact parts (ms.map (fun m => some m.2)) pos).map Prod.snd = ms.map Prod.snd := by
  induction ms with
  | nil =>
    intro parts pos _
    cases parts <;> simp [matchedCompact]
  | cons m ms ih =>
    intro parts pos hlen
    cases parts with
    | nil => simp at hlen
    | cons part parts =>
      simp only [List.map_cons, matchedCompact, List.cons.injEq, true_and]
      exact ih parts (pos + 1) (by simpa using hlen)

/-- The compact search on a sequence of instructions that match the parts one after the other
succeeds at its first position and stores the captures of these instructions. -/
theorem search_compact_of_chain (parts : List InstructionPattern)
    (ms : List (Nat × IntermediateInstruction)) (gf : MatchCache) (ret : Bool) (s : Placeholders)
    (hne : parts ≠ []) (hlen : ms.length = parts.length)
    (hchain : searchInnerCompactCheck parts (ms.map (fun m => some m.2)) MatchCache.empty
      = some gf) :
    search (ms.map (fun m => some m.2)) 0 ⟨parts, false⟩ ret s
      = (some (if ret then parts.length - 1 else 0), updateAll ms parts s) := by
  cases parts with
  | nil => exact absurd rfl hne
  | cons front tl =>
    cases ms with
    | nil => simp at hlen
    | cons m0 ms1 =>
      have hfront : ∃ c, matchesOnly true (some m0.2) front MatchCache.empty MatchCache.empty
          = some c := by
        simp only [List.map_cons, searchInnerCompactCheck] at hchain
        cases hm : matchesOnly true (some m0.2) front MatchCache.empty MatchCache.empty with
        | none => simp [hm] at hchain
        | some c => exact ⟨c, rfl⟩
      obtain ⟨c, hc⟩ := hfront
      obtain ⟨_, _, h3, _⟩ := compactCheck_some
        (List.map (fun m : Nat × IntermediateInstruction => some m.2) (m0 :: ms1))
        (front :: tl) (List.map (fun m : Nat × IntermediateInstruction => some m.2) (m0 :: ms1))
        0 MatchCache.empty gf (List.drop_zero _) hchain
      have hend := endOfPattern_of_range 0 _ _ h3
      have hupd := updateAll_congr _ _
        (matchedCompact_snd (m0 :: ms1) (front :: tl) 0 hlen) (front :: tl) s
      rw [search_eq]
      have hsm : searchMatching (List.map (fun m => some m.2) (m0 :: ms1)) 0
          ⟨front :: tl, false⟩
          = some (0, matchedCompact (front :: tl)
              (List.map (fun m => some m.2) (m0 :: ms1)) 0) := by
        simp only [searchMatching, List.drop_zero, List.map_cons, searchMatchingFrom, hc,
          attemptMatching, Bool.false_eq_true, if_false]
        simp only [List.map_cons] at hchain
        rw [hchain]
      rw [hsm]
      simp only [hend, hupd]
      simp

/-- Counterexample to C7 as stated: in the block
`%10 = mov 1; %11 = mov 2; %12 = mov 3; %13 = add %12, 1` the gapped search for
`(any) = mov 1; $x = mov (any); (any) = add $x, (any)` fails, although the compact search
succeeds on the instructions at the positions 0 < 2 < 3 taken as a contiguous sequence and the
only instruction in between, `%11 = mov 2`, has no side effect, does not set flags and writes a
local that none of these instructions writes or reads. The gapped search assigns every part to
the first instruction that matches it and so binds `$x` to `%11`. -/
theorem gapped_search_misses_later_assignment :
    (search Example.blockGreedy 0 ⟨Example.greedyParts, true⟩ false Example.initialStore).1 = none
      ∧ [Example.blockGreedy[0]?, Example.blockGreedy[2]?, Example.blockGreedy[3]?]
          = Example.blockGreedyChosen.map some
      ∧ (search Example.blockGreedyChosen 0 ⟨Example.greedyParts, false⟩ false
          Example.initialStore).1 = some 0
      ∧ Example.blockGreedy[1]? = some (some (Example.move 11 (Example.literalValue 2)))
      ∧ (Example.move 11 (Example.literalValue 2)).hasSideEffects = false
      ∧ (Example.move 11 (Example.literalValue 2)).doesSetFlag = false
      ∧ gapAllowed (some (Example.move 11 (Example.literalValue 2))) = true
      ∧ (Example.move 11 (Example.literalValue 2)).checkOutputLocal = some 11
      ∧ (∀ slot ∈ Example.blockGreedyChosen, ∀ i, slot = some i →
          i.checkOutputLocal ≠ some 11 ∧ i.readsLocal 11 = false) := by
  decide

/-- C7 (amended): if a search with gaps succeeds, then there are positions
`start <= i1 < ... < ik` in the block, one per part (`i1` is the start of the successful
attempt), such that the compact search for the same parts succeeds on the instructions at these
positions taken as a contiguous sequence, with the same captures, and every slot from `i1` up to
`ik` that is not one of them is erased or holds an instruction whose signal has no side effects
and which does not set flags. (The converse holds only for the assignment that gives every part
the first instruction matching it.) -/
theorem gapped_search_implies_compact (block : List (Option IntermediateInstruction))
    (start : Nat) (pattern : Pattern) (returnEndOfPattern : Bool) (s s1 : Placeholders)
    (pos : Nat) (hg : pattern.allowGaps = true)
    (h : search block start pattern returnEndOfPattern s = (some pos, s1)) :
    ∃ st ms, searchMatching block start pattern = some (st, ms)
      ∧ start ≤ st ∧ ms.length = pattern.parts.length
      ∧ (∃ inst tail, ms = (st, inst) :: tail)
      ∧ (ms.map Prod.fst).Pairwise (fun x y => x < y)
      ∧ (∀ m ∈ ms, st ≤ m.1 ∧ block[m.1]? = some (some m.2))
      ∧ search (ms.map (fun m => some m.2)) 0 ⟨pattern.parts, false⟩ returnEndOfPattern s
          = (some (if returnEndOfPattern then pattern.parts.length - 1 else 0), s1)
      ∧ (∀ q, st ≤ q → (∃ m ∈ ms, q < m.1) → q ∉ ms.map Prod.fst →
          ∃ slot, block[q]? = some slot ∧ gapAllowed slot = true) := by
  rw [search_eq] at h
  cases hm : searchMatching block start pattern with
  | none => simp [hm] at h
  | some r =>
    obtain ⟨st, ms⟩ := r
    simp only [hm, Prod.mk.injEq] at h
    obtain ⟨_, hs1⟩ := h
    obtain ⟨hle, hatt, _⟩ := searchMatching_some block start pattern st ms hm
    obtain ⟨hlen, hmem, hsorted, gf, _, hchain⟩ := attemptMatching_some pattern block st ms hatt
    have hne : pattern.parts ≠ [] := by
      intro hnil
      simp [searchMatching, hnil] at hm
    refine ⟨st, ms, rfl, hle, hlen, searchMatching_head block start pattern st ms hm, hsorted,
      fun m hm2 => ⟨(hmem m hm2).1, (hmem m hm2).2.1⟩,
      ?_, (gappedAttempt_some pattern block st ms hg hatt).1⟩
    rw [search_compact_of_chain pattern.parts ms gf returnEndOfPattern s hne hlen hchain, hs1]

/-- Witness for C7 (amended): the gapped search of the block with the mutex lock succeeds, and
the compact search succeeds on the two matched instructions taken as a contiguous sequence. -/
theorem gapped_search_implies_compact_witness :
    (search Example.blockWithLock 0 ⟨[Example.anyMove, Example.anyAdd], true⟩ false
        Example.initialStore).1 = some 0
      ∧ (search (Example.matchedWithLock.map (fun m => some m.2)) 0
          ⟨[Example.anyMove, Example.anyAdd], false⟩ false Example.initialStore).1 = some 0 := by
  refine ⟨by decide, ?_⟩
  obtain ⟨st, ms, h1, _, _, _, _, _, h6, _⟩ :=
    gapped_search_implies_compact Example.blockWithLock 0
      ⟨[Example.anyMove, Example.anyAdd], true⟩ false Example.initialStore
      (search Example.blockWithLock 0 ⟨[Example.anyMove, Example.anyAdd], true⟩ false
        Example.initialStore).2 0 rfl (Prod.ext (by decide) rfl)
  have e : some (st, ms) = some (0, Example.matchedWithLock) := h1.symm.trans (by decide)
  cases e
  rw [h6]
  rfl

end vc4c

namespace vc4c

theorem mappers_eq_decisionMatrix (type : MemoryAccessType) (op : MemoryOperation) :
    (MAPPERS.get? type.toNat).bind (fun row => row.get? op.toNat)
      = some (decisionMatrix type op) := by
  cases type <;> cases op <;> rfl

theorem any_ne_false_iff (infos : List MemoryInfo) (type : MemoryAccessType) :
    infos.any (fun info => decide (info.type ≠ type)) = false ↔ ∀ info ∈ infos, info.type = type := by
  induction infos with
  | nil => simp
  | cons a rest ih => simp

/-- The dispatch of `mapMemoryAccess` when the selecting candidates share one access type. -/
theorem mapMemoryAccess_dispatch (env : Environment) (fuel : Nat) (st : Lowering)
    (mem : MemoryInstruction) (srcInfos destInfos : List MemoryInfo) (type : MemoryAccessType)
    (first : MemoryInfo) (rest : List MemoryInfo)
    (hsel : selectingInfos mem srcInfos destInfos = first :: rest)
    (htype : ∀ info ∈ first :: rest, info.type = type) :
    mapMemoryAccess env (fuel + 1) st mem srcInfos destInfos
      = (decisionMatrix type mem.op).call env (mapMemoryAccess env fuel) st mem srcInfos
          destInfos := by
  have hfirst : first.type = type := htype first (by simp)
  have hall : (first :: rest).any (fun info => decide (info.type ≠ first.type)) = false := by
    rw [any_ne_false_iff, hfirst]; exact htype
  unfold selectingInfos at hsel
  simp only [mapMemoryAccess, hsel, List.head?_cons, hall, Bool.false_eq_true, if_false]
  rw [hfirst, mappers_eq_decisionMatrix]

/-- C1: the decision matrix. For each of the six access types and each of the four memory
operations, `mapMemoryAccess` calls exactly the mapper of the decision matrix of the
specification, whose row is the access type shared by the source candidates for a read or copy
and by the destination candidates for a write or fill; this is the entry of the table `MAPPERS`
at the numeric values of the access type and the operation. The cells of the matrix are the
stated ones, the invalid cells are the writes and fills of read-only registers and of memory
loaded via TMU, and the mapper of an invalid cell fails with the normalization error
"Invalid memory access" for every instruction and all candidate sets. -/
theorem mapMemoryAccess_follows_decision_matrix (env : Environment) (fuel : Nat) (st : Lowering)
    (mem : MemoryInstruction) (srcInfos destInfos : List MemoryInfo) (type : MemoryAccessType)
    (first : MemoryInfo) (rest : List MemoryInfo)
    (hsel : selectingInfos mem srcInfos destInfos = first :: rest)
    (htype : ∀ info ∈ first :: rest, info.type = type) :
    mapMemoryAccess env (fuel + 1) st mem srcInfos destInfos
        = (decisionMatrix type mem.op).call env (mapMemoryAccess env fuel) st mem srcInfos
            destInfos
      ∧ (MAPPERS.get? type.toNat).bind (fun row => row.get? mem.op.toNat)
          = some (decisionMatrix type mem.op)
      ∧ (MemoryOperation.READ :: MemoryOperation.WRITE :: MemoryOperation.COPY
            :: [MemoryOperation.FILL]).map (decisionMatrix .QPU_REGISTER_READONLY)
          = [.lowerMemoryReadOnlyToRegister, .invalidMapping, .lowerMemoryReadOnlyToRegister,
              .invalidMapping]
      ∧ (MemoryOperation.READ :: MemoryOperation.WRITE :: MemoryOperation.COPY
            :: [MemoryOperation.FILL]).map (decisionMatrix .QPU_REGISTER_READWRITE)
          = [.lowerMemoryReadWriteToRegister, .lowerMemoryReadWriteToRegister,
              .lowerMemoryCopyToRegister, .lowerMemoryReadWriteToRegister]
      ∧ (MemoryOperation.READ :: MemoryOperation.WRITE :: MemoryOperation.COPY
            :: [MemoryOperation.FILL]).map (decisionMatrix .VPM_PER_QPU)
          = [.lowerMemoryReadToVPM, .lowerMemoryWriteToVPM, .mapMemoryCopy,
              .lowerMemoryWriteToVPM]
      ∧ (MemoryOperation.READ :: MemoryOperation.WRITE :: MemoryOperation.COPY
            :: [MemoryOperation.FILL]).map (decisionMatrix .VPM_SHARED_ACCESS)
          = [.lowerMemoryReadToVPM, .lowerMemoryWriteToVPM, .mapMemoryCopy,
              .lowerMemoryWriteToVPM]
      ∧ (MemoryOperation.READ :: MemoryOperation.WRITE :: MemoryOperation.COPY
            :: [MemoryOperation.FILL]).map (decisionMatrix .RAM_LOAD_TMU)
          = [.loadMemoryViaTMU, .invalidMapping, .mapMemoryCopy, .invalidMapping]
      ∧ (MemoryOperation.READ :: MemoryOperation.WRITE :: MemoryOperation.COPY
            :: [MemoryOperation.FILL]).map (decisionMatrix .RAM_READ_WRITE_VPM)
          = [.accessMemoryInRAMViaVPM, .accessMemoryInRAMViaVPM, .mapMemoryCopy,
              .accessMemoryInRAMViaVPM]
      ∧ (decisionMatrix type mem.op = .invalidMapping →
          mapMemoryAccess env (fuel + 1) st mem srcInfos destInfos
            = .error (.compilationError .NORMALIZER "Invalid memory access"))
      ∧ (∀ (recurse : Recurse) (st2 : Lowering) (mem2 : MemoryInstruction)
          (srcInfos2 destInfos2 : List MemoryInfo),
          MemoryMapper.invalidMapping.call env recurse st2 mem2 srcInfos2 destInfos2
            = .error (.compilationError .NORMALIZER "Invalid memory access")) := by
  have hd := mapMemoryAccess_dispatch env fuel st mem srcInfos destInfos type first rest hsel htype
  refine ⟨hd, mappers_eq_decisionMatrix type mem.op, rfl, rfl, rfl, rfl, rfl, rfl, ?_, ?_⟩
  · intro hinv
    rw [hd, hinv]
    rfl
  · intro recurse st2 mem2 s2 d2
    rfl

/-- Witness for C1: a write to a location loaded via TMU is an invalid cell and fails with
"Invalid memory access". -/
theorem mapMemoryAccess_follows_decision_matrix_witness :
    decisionMatrix .RAM_LOAD_TMU Example.writeInstruction.op = .invalidMapping
      ∧ mapMemoryAccess Example.environment 2 (Example.lowering Example.writeInstruction)
          Example.writeInstruction [] [Example.location 2 .RAM_LOAD_TMU false]
        = .error (.compilationError .NORMALIZER "Invalid memory access") :=
  ⟨rfl,
    (mapMemoryAccess_follows_decision_matrix Example.environment 1
      (Example.lowering Example.writeInstruction) Example.writeInstruction []
      [Example.location 2 .RAM_LOAD_TMU false] .RAM_LOAD_TMU
      (Example.location 2 .RAM_LOAD_TMU false) [] rfl
      (by intro info hinfo; simp at hinfo; rw [hinfo]; rfl)).2.2.2.2.2.2.2.2.1 rfl⟩

end vc4c

namespace vc4c

theorem mixed_any (infos : List MemoryInfo) (first : MemoryInfo)
    (hmixed : ∃ a ∈ infos, ∃ b ∈ infos, a.type ≠ b.type) :
    infos.any (fun info => decide (info.type ≠ first.type)) = true := by
  obtain ⟨a, ha, b, hb, hab⟩ := hmixed
  rw [List.any_eq_true]
  by_cases h : a.type = first.type
  · refine ⟨b, hb, ?_⟩
    simp only [ne_eq, decide_eq_true_eq]
    intro hb2
    exact hab (h.trans hb2.symm)
  · exact ⟨a, ha, by simpa using h⟩

/-- `mapMemoryAccess` fails with the normalization error for mixed access types when the
candidates that select the mapper do not share one access type. -/
theorem mapMemoryAccess_mixed (env : Environment) (fuel : Nat) (st : Lowering)
    (mem : MemoryInstruction) (srcInfos destInfos : List MemoryInfo)
    (hmixed : ∃ a ∈ selectingInfos mem srcInfos destInfos,
      ∃ b ∈ selectingInfos mem srcInfos destInfos, a.type ≠ b.type) :
    mapMemoryAccess env (fuel + 1) st mem srcInfos destInfos
      = .error (.compilationError .NORMALIZER
          "Can\x27t map conditional memory accesses of different memory access types together") := by
  cases hsel : selectingInfos mem srcInfos destInfos with
  | nil =>
    rw [hsel] at hmixed
    obtain ⟨a, ha, _⟩ := hmixed
    cases ha
  | cons first rest =>
    have hany := mixed_any _ first hmixed
    unfold selectingInfos at hsel hany
    simp only [mapMemoryAccess, hsel, List.head?_cons]
    rw [hsel] at hany
    simp only [hany, if_true]
    rfl

theorem write_mixed_not_ok (env : Environment) (fuel : Nat) (st : Lowering)
    (mem : MemoryInstruction) (srcInfos destInfos : List MemoryInfo) (hop : mem.op = .WRITE)
    (hmixed : ∃ a ∈ destInfos, ∃ b ∈ destInfos, a.type ≠ b.type) (r : Lowering) :
    mapMemoryAccess env fuel st mem srcInfos destInfos ≠ .ok r := by
  cases fuel with
  | zero => simp [mapMemoryAccess]
  | succ n =>
    have hsel : selectingInfos mem srcInfos destInfos = destInfos := by
      simp [selectingInfos, hop]
    rw [mapMemoryAccess_mixed env n st mem srcInfos destInfos (by rw [hsel]; exact hmixed)]
    simp

theorem assertSingleDestination_mixed (destInfos : List MemoryInfo)
    (hmixed : ∃ a ∈ destInfos, ∃ b ∈ destInfos, a.type ≠ b.type) :
    assertSingleDestination destInfos
      = .error (.compilationError .NORMALIZER
          "This type of memory mapping does not yet support multiple destinations") := by
  obtain ⟨a, ha, b, hb, hab⟩ := hmixed
  cases destInfos with
  | nil => cases ha
  | cons x rest =>
    cases rest with
    | nil =>
      simp only [List.mem_singleton] at ha hb
      rw [ha, hb] at hab
      exact absurd rfl hab
    | cons y rest2 => rfl

theorem readOnly_copy_not_ok (env : Environment) (recurse : Recurse) (st : Lowering)
    (mem : MemoryInstruction) (srcInfos destInfos : List MemoryInfo) (hop : mem.op = .COPY)
    (hrec : ∀ st2 mem2, mem2.op = .WRITE → ∀ r, recurse st2 mem2 srcInfos destInfos ≠ .ok r)
    (r : Lowering) :
    lowerMemoryReadOnlyToRegister env recurse st mem srcInfos destInfos ≠ .ok r := by
  have hw : ∀ st2 d s, resetAndMap recurse st2 (MemoryInstruction.create .WRITE d s) srcInfos
      destInfos ≠ .ok r := by
    intro st2 d s
    exact hrec _ _ rfl r
  unfold lowerMemoryReadOnlyToRegister
  cases h1 : assertSingleSource srcInfos with
  | error e => simp [bind, Except.bind]
  | ok srcInfo =>
    simp only [bind, Except.bind, hop]
    cases h2 : deref srcInfo.mappedRegisterOrConstant with
    | error e => simp
    | ok mapped =>
      simp only [ne_eq, not_true_eq_false, and_false, if_false, and_true, reduceCtorEq,
        not_false_eq_true, true_and]
      repeat' first
        | exact hw _ _ _
        | (simp [normalizerError, pure, Except.pure]; done)
        | (exfalso; tauto)
        | split

end vc4c

namespace vc4c

/-- Counterexample to C10 as stated: a read from a location loaded via TMU whose destination
candidates have two different access types is lowered (to a load via TMU1), and a write to RAM
through VPM/DMA whose source candidates have two different access types is lowered (to a DMA
write): only the candidates that select the mapper are compared. -/
theorem mixed_candidates_on_other_side_are_lowered :
    (∃ a ∈ Example.mixedCandidates, ∃ b ∈ Example.mixedCandidates, a.type ≠ b.type)
      ∧ mapMemoryAccess Example.environment 2 (Example.lowering Example.readInstruction)
          Example.readInstruction [Example.location 1 .RAM_LOAD_TMU false] Example.mixedCandidates
        = .ok ⟨[(1, .readVectorFromTMU Example.readInstruction.dest Example.readInstruction.src
              .TMU1)], [], [(1, .INPUT)], 100, 2⟩
      ∧ mapMemoryAccess Example.environment 2 (Example.lowering Example.writeInstruction)
          Example.writeInstruction Example.mixedCandidates
          [Example.location 2 .RAM_READ_WRITE_VPM false]
        = .ok ⟨[(1, .writeDMA Example.writeInstruction.src Example.writeInstruction.dest false)],
            [], [(2, .OUTPUT)], 100, 2⟩ := by
  refine ⟨⟨Example.location 2 .RAM_READ_WRITE_VPM false, by decide,
    Example.location 3 .VPM_SHARED_ACCESS false, by decide, by decide⟩, rfl, rfl⟩

/-- C10 (amended): `mapMemoryAccess` fails with a normalization error whenever the candidates
that select the mapper, the source candidates for a read or copy and the destination candidates
for a write or fill, do not all have the same access type, for every memory operation; and it
never lowers a copy whose destination candidates are of mixed access types. (The candidates on
the other side of a read, write or fill are not compared.) -/
theorem mapMemoryAccess_rejects_mixed_types (env : Environment) (fuel : Nat) (st : Lowering)
    (mem : MemoryInstruction) (srcInfos destInfos : List MemoryInfo) :
    ((∃ a ∈ selectingInfos mem srcInfos destInfos,
        ∃ b ∈ selectingInfos mem srcInfos destInfos, a.type ≠ b.type) →
      mapMemoryAccess env (fuel + 1) st mem srcInfos destInfos
        = .error (.compilationError .NORMALIZER
            "Can\x27t map conditional memory accesses of different memory access types together"))
      ∧ (mem.op = .COPY → (∃ a ∈ destInfos, ∃ b ∈ destInfos, a.type ≠ b.type) →
          ∀ r, mapMemoryAccess env fuel st mem srcInfos destInfos ≠ .ok r) := by
  refine ⟨mapMemoryAccess_mixed env fuel st mem srcInfos destInfos, ?_⟩
  intro hop hmixed r
  cases fuel with
  | zero => simp [mapMemoryAccess]
  | succ n =>
    have hsel : selectingInfos mem srcInfos destInfos = srcInfos := by
      simp [selectingInfos, hop]
    by_cases hsrc : ∃ a ∈ srcInfos, ∃ b ∈ srcInfos, a.type ≠ b.type
    · rw [mapMemoryAccess_mixed env n st mem srcInfos destInfos (by rw [hsel]; exact hsrc)]
      simp
    · cases hs : srcInfos with
      | nil => simp [mapMemoryAccess, hop]
      | cons first rest =>
        have htype : ∀ info ∈ first :: rest, info.type = first.type := by
          intro info hinfo
          by_contra hne
          apply hsrc
          rw [hs]
          exact ⟨info, hinfo, first, by simp, hne⟩
        rw [← hs, mapMemoryAccess_dispatch env n st mem srcInfos destInfos first.type first rest
          (by rw [hsel]; exact hs) htype, hop]
        have hdest := assertSingleDestination_mixed destInfos hmixed
        have hcopy : lowerMemoryCopyToRegister (mapMemoryAccess env n) st mem srcInfos destInfos
            ≠ .ok r := by
          unfold lowerMemoryCopyToRegister
          cases assertSingleSource srcInfos <;> simp [bind, Except.bind, hdest]
        have hmap : mapMemoryCopy env (mapMemoryAccess env n) st mem srcInfos destInfos ≠ .ok r := by
          unfold mapMemoryCopy
          cases assertSingleSource srcInfos <;> simp [bind, Except.bind, hdest]
        have hro : lowerMemoryReadOnlyToRegister env (mapMemoryAccess env n) st mem srcInfos
            destInfos ≠ .ok r :=
          readOnly_copy_not_ok env _ st mem srcInfos destInfos hop
            (fun st2 mem2 h2 r2 => write_mixed_not_ok env n st2 mem2 srcInfos destInfos h2
              hmixed r2) r
        cases first.type <;> simp only [decisionMatrix, MemoryMapper.call] <;> assumption

/-- Witness for C10 (amended): a read whose two source candidates have different access types
fails with the normalization error for mixed access types. -/
theorem mapMemoryAccess_rejects_mixed_types_witness :
    (∃ a ∈ Example.mixedCandidates, ∃ b ∈ Example.mixedCandidates, a.type ≠ b.type)
      ∧ mapMemoryAccess Example.environment 2 (Example.lowering Example.readInstruction)
          Example.readInstruction Example.mixedCandidates []
        = .error (.compilationError .NORMALIZER
            "Can\x27t map conditional memory accesses of different memory access types together") :=
  ⟨⟨Example.location 2 .RAM_READ_WRITE_VPM false, by decide,
      Example.location 3 .VPM_SHARED_ACCESS false, by decide, by decide⟩,
    (mapMemoryAccess_rejects_mixed_types Example.environment 1
      (Example.lowering Example.readInstruction) Example.readInstruction Example.mixedCandidates
      []).1
      ⟨Example.location 2 .RAM_READ_WRITE_VPM false, by decide,
        Example.location 3 .VPM_SHARED_ACCESS false, by decide, by decide⟩⟩

end vc4c

namespace vc4c

theorem decorateAll_cons (st : Lowering) (info : MemoryInfo) (infos : List MemoryInfo)
    (flag : ParameterDecorations) :
    decorateAll st (info :: infos) flag = decorateAll (st.decorate info flag) infos flag := rfl

/-- The loop of `loadMemoryViaTMU`: `numTMU0` counts the candidates whose flag is set,
`numTMU1` the others, and every candidate is decorated. -/
theorem countTMUs_eq (srcInfos : List MemoryInfo) (a b : Nat) (st : Lowering) :
    countTMUs srcInfos (a, b, st)
      = (a + srcInfos.countP (fun info => info.tmuFlag),
          b + srcInfos.countP (fun info => !info.tmuFlag),
          decorateAll st srcInfos .INPUT) := by
  induction srcInfos generalizing a b st with
  | nil => simp [countTMUs, decorateAll]
  | cons info rest ih =>
    rw [decorateAll_cons]
    cases h : info.tmuFlag with
    | true =>
      simp only [countTMUs, h, if_true, ih, List.countP_cons, Bool.not_true, Bool.false_eq_true,
        if_false]
      simp only [Prod.mk.injEq, and_true]
      omega
    | false =>
      simp only [countTMUs, h, Bool.false_eq_true, if_false, ih, List.countP_cons, Bool.not_false,
        if_true]
      simp only [Prod.mk.injEq, and_true]
      omega

/-- The result of `loadMemoryViaTMU` for a read: the load goes to TMU0 exactly when strictly more
candidates have their flag set than not. -/
theorem loadMemoryViaTMU_read (st : Lowering) (mem : MemoryInstruction)
    (srcInfos destInfos : List MemoryInfo) (hop : mem.op = .READ) :
    loadMemoryViaTMU st mem srcInfos destInfos
      = .ok (((decorateAll st srcInfos .INPUT).insert (.readVectorFromTMU mem.getDestination
          mem.getSource
          (if srcInfos.countP (fun info => info.tmuFlag)
              > srcInfos.countP (fun info => !info.tmuFlag) then TMU.TMU0 else TMU.TMU1))).erase) := by
  simp only [loadMemoryViaTMU, hop, if_true, countTMUs_eq, Nat.zero_add]

end vc4c

namespace vc4c

/-- C11, the code at the failing inputs: a read whose only source candidate has its flag set
(it is assigned to TMU1) is loaded through TMU0, and a read whose only candidate has its flag
clear (assigned to TMU0) is loaded through TMU1, while the selection of the specification gives
TMU1 respectively TMU0; when both TMUs have one candidate the load goes to TMU1. -/
theorem loadMemoryViaTMU_selects_minority :
    (Example.location 1 .RAM_LOAD_TMU true).assignedTMU = .TMU1
      ∧ majorityTMU [Example.location 1 .RAM_LOAD_TMU true] = .TMU1
      ∧ mapMemoryAccess Example.environment 2 (Example.lowering Example.readInstruction)
          Example.readInstruction [Example.location 1 .RAM_LOAD_TMU true] []
        = .ok ⟨[(1, .readVectorFromTMU Example.readInstruction.dest Example.readInstruction.src
            .TMU0)], [], [(1, .INPUT)], 100, 2⟩
      ∧ (Example.location 1 .RAM_LOAD_TMU false).assignedTMU = .TMU0
      ∧ majorityTMU [Example.location 1 .RAM_LOAD_TMU false] = .TMU0
      ∧ mapMemoryAccess Example.environment 2 (Example.lowering Example.readInstruction)
          Example.readInstruction [Example.location 1 .RAM_LOAD_TMU false] []
        = .ok ⟨[(1, .readVectorFromTMU Example.readInstruction.dest Example.readInstruction.src
            .TMU1)], [], [(1, .INPUT)], 100, 2⟩
      ∧ mapMemoryAccess Example.environment 2 (Example.lowering Example.readInstruction)
          Example.readInstruction
          [Example.location 1 .RAM_LOAD_TMU false, Example.location 3 .RAM_LOAD_TMU true] []
        = .ok ⟨[(1, .readVectorFromTMU Example.readInstruction.dest Example.readInstruction.src
            .TMU1)], [], [(3, .INPUT), (1, .INPUT)], 100, 2⟩ := by
  refine ⟨rfl, by decide, rfl, rfl, by decide, rfl, rfl⟩

end vc4c

namespace vc4c

/-! ### The walker operations -/

@[simp] theorem Lowering.insert_before (st : Lowering) (i : Lowered) :
    (st.insert i).before = st.before ++ [(st.nextNode, i)] := rfl

@[simp] theorem Lowering.insert_after (st : Lowering) (i : Lowered) :
    (st.insert i).after = st.after := rfl

@[simp] theorem Lowering.insert_decorations (st : Lowering) (i : Lowered) :
    (st.insert i).decorations = st.decorations := rfl

@[simp] theorem Lowering.insert_nextNode (st : Lowering) (i : Lowered) :
    (st.insert i).nextNode = st.nextNode + 1 := rfl

@[simp] theorem Lowering.insert_nextLocal (st : Lowering) (i : Lowered) :
    (st.insert i).nextLocal = st.nextLocal := rfl

@[simp] theorem Lowering.addNewLocal_fst (st : Lowering) (t : DataType) :
    (st.addNewLocal t).1 = ⟨.loc st.nextLocal, t⟩ := rfl

@[simp] theorem Lowering.addNewLocal_before (st : Lowering) (t : DataType) :
    (st.addNewLocal t).2.before = st.before := rfl

@[simp] theorem Lowering.addNewLocal_after (st : Lowering) (t : DataType) :
    (st.addNewLocal t).2.after = st.after := rfl

@[simp] theorem Lowering.addNewLocal_decorations (st : Lowering) (t : DataType) :
    (st.addNewLocal t).2.decorations = st.decorations := rfl

@[simp] theorem Lowering.addNewLocal_nextNode (st : Lowering) (t : DataType) :
    (st.addNewLocal t).2.nextNode = st.nextNode := rfl

@[simp] theorem Lowering.addNewLocal_nextLocal (st : Lowering) (t : DataType) :
    (st.addNewLocal t).2.nextLocal = st.nextLocal + 1 := rfl

@[simp] theorem Lowering.erase_before (st : Lowering) : st.erase.before = st.before := rfl

@[simp] theorem Lowering.erase_after (st : Lowering) : st.erase.after = st.after.tail := rfl

@[simp] theorem Lowering.erase_decorations (st : Lowering) :
    st.erase.decorations = st.decorations := rfl

@[simp] theorem Lowering.emplace_before (st : Lowering) (i : Lowered) :
    (st.emplace i).before = st.before := rfl

@[simp] theorem Lowering.emplace_after (st : Lowering) (i : Lowered) :
    (st.emplace i).after = (st.nextNode, i) :: st.after := rfl

@[simp] theorem Lowering.emplace_decorations (st : Lowering) (i : Lowered) :
    (st.emplace i).decorations = st.decorations := rfl

@[simp] theorem Lowering.reset_before (st : Lowering) (i : Lowered) :
    (st.reset i).before = st.before := by
  unfold Lowering.reset; split <;> rfl

@[simp] theorem Lowering.reset_decorations (st : Lowering) (i : Lowered) :
    (st.reset i).decorations = st.decorations := by
  unfold Lowering.reset; split <;> rfl

theorem Lowering.reset_after (st : Lowering) (i : Lowered) (x : Nat × Lowered)
    (rest : List (Nat × Lowered)) (h : st.after = x :: rest) :
    (st.reset i).after = (x.1, i) :: rest := by
  unfold Lowering.reset; rw [h]

@[simp] theorem Lowering.reset_after_tail (st : Lowering) (i : Lowered) :
    (st.reset i).after.tail = st.after.tail := by
  unfold Lowering.reset; split <;> simp_all

/-- Inserting before the walker and stepping over the inserted instruction is an insertion by a
helper. -/
theorem Lowering.emplace_nextInBlock (st : Lowering) (i : Lowered) :
    (st.emplace i).nextInBlock = st.insert i := rfl

theorem guardWith_eq (st : Lowering) (guardAccess locksMutex : Bool) :
    guardWith st guardAccess locksMutex
      = if guardAccess then st.insert (.mutexLock locksMutex) else st := rfl

@[simp] theorem guardWith_after (st : Lowering) (g l : Bool) :
    (guardWith st g l).after = st.after := by
  rw [guardWith_eq]; split <;> rfl

@[simp] theorem guardWith_decorations (st : Lowering) (g l : Bool) :
    (guardWith st g l).decorations = st.decorations := by
  rw [guardWith_eq]; split <;> rfl

@[simp] theorem guardWith_before (st : Lowering) (g l : Bool) :
    (guardWith st g l).before
      = st.before ++ (if g then [(st.nextNode, Lowered.mutexLock l)] else []) := by
  rw [guardWith_eq]; split <;> simp

@[simp] theorem Lowering.decorate_before (st : Lowering) (info : MemoryInfo)
    (flag : ParameterDecorations) : (st.decorate info flag).before = st.before := by
  unfold Lowering.decorate; split <;> rfl

@[simp] theorem Lowering.decorate_after (st : Lowering) (info : MemoryInfo)
    (flag : ParameterDecorations) : (st.decorate info flag).after = st.after := by
  unfold Lowering.decorate; split <;> rfl

@[simp] theorem Lowering.decorate_nextNode (st : Lowering) (info : MemoryInfo)
    (flag : ParameterDecorations) : (st.decorate info flag).nextNode = st.nextNode := by
  unfold Lowering.decorate; split <;> rfl

@[simp] theorem Lowering.decorate_nextLocal (st : Lowering) (info : MemoryInfo)
    (flag : ParameterDecorations) : (st.decorate info flag).nextLocal = st.nextLocal := by
  unfold Lowering.decorate; split <;> rfl

theorem Lowering.mem_decorate (st : Lowering) (info : MemoryInfo) (flag : ParameterDecorations)
    (x : Local × ParameterDecorations) :
    x ∈ (st.decorate info flag).decorations
      ↔ x ∈ st.decorations ∨ (info.loc.kind = .parameter ∧ x = (info.loc.id, flag)) := by
  unfold Lowering.decorate
  split_ifs with h
  · simp only [mem_setEmplace, h, true_and]
    tauto
  · simp [h]

@[simp] theorem decorateAll_nil (st : Lowering) (flag : ParameterDecorations) :
    decorateAll st [] flag = st := rfl

@[simp] theorem decorateAll_before (st : Lowering) (infos : List MemoryInfo)
    (flag : ParameterDecorations) : (decorateAll st infos flag).before = st.before := by
  induction infos generalizing st with
  | nil => rfl
  | cons info rest ih => rw [decorateAll_cons, ih]; simp

@[simp] theorem decorateAll_after (st : Lowering) (infos : List MemoryInfo)
    (flag : ParameterDecorations) : (decorateAll st infos flag).after = st.after := by
  induction infos generalizing st with
  | nil => rfl
  | cons info rest ih => rw [decorateAll_cons, ih]; simp

@[simp] theorem decorateAll_nextNode (st : Lowering) (infos : List MemoryInfo)
    (flag : ParameterDecorations) : (decorateAll st infos flag).nextNode = st.nextNode := by
  induction infos generalizing st with
  | nil => rfl
  | cons info rest ih => rw [decorateAll_cons, ih]; simp

@[simp] theorem decorateAll_nextLocal (st : Lowering) (infos : List MemoryInfo)
    (flag : ParameterDecorations) : (decorateAll st infos flag).nextLocal = st.nextLocal := by
  induction infos generalizing st with
  | nil => rfl
  | cons info rest ih => rw [decorateAll_cons, ih]; simp

/-- The decorations after marking the parameters among the given locations. -/
theorem mem_decorateAll (st : Lowering) (infos : List MemoryInfo) (flag : ParameterDecorations)
    (x : Local × ParameterDecorations) :
    x ∈ (decorateAll st infos flag).decorations
      ↔ x ∈ st.decorations
        ∨ ∃ info ∈ infos, info.loc.kind = .parameter ∧ x = (info.loc.id, flag) := by
  induction infos generalizing st with
  | nil => simp
  | cons info rest ih =>
    rw [decorateAll_cons, ih, Lowering.mem_decorate]
    simp only [List.mem_cons, exists_eq_or_imp]
    tauto

end vc4c

namespace vc4c

/-! ### What the mappers of reads, writes and fills return -/

theorem normalizerError_ne_ok {α : Type} (message : String) (x : α) :
    (normalizerError message : Except Failure α) ≠ .ok x := by
  simp [normalizerError]

theorem assertSingleSource_ok (srcInfos : List MemoryInfo) (info : MemoryInfo)
    (h : assertSingleSource srcInfos = .ok info) : srcInfos = [info] := by
  unfold assertSingleSource at h
  split at h
  · cases h; rfl
  · exact absurd h (normalizerError_ne_ok _ _)

theorem assertSingleDestination_ok (destInfos : List MemoryInfo) (info : MemoryInfo)
    (h : assertSingleDestination destInfos = .ok info) : destInfos = [info] := by
  unfold assertSingleDestination at h
  split at h
  · cases h; rfl
  · exact absurd h (normalizerError_ne_ok _ _)

theorem checkVPMLocation_ok (info : MemoryInfo) (area : VPMArea)
    (h : checkVPMLocation info = .ok area) :
    info.area = some area ∧ (info.type = .VPM_PER_QPU → info.loc.kind = .stackAllocation) := by
  unfold checkVPMLocation at h
  split_ifs at h with h1
  · exact absurd h (normalizerError_ne_ok _ _)
  · split at h
    · exact absurd h (normalizerError_ne_ok _ _)
    · rename_i a ha
      cases h
      refine ⟨ha, fun ht => ?_⟩
      by_contra hk
      exact h1 ⟨ht, hk⟩

/-- The offset computation inserts one instruction before the walker. -/
theorem insertToInVPMAreaOffset_ok (st : Lowering) (info : MemoryInfo) (ptr off : Value)
    (st1 : Lowering) (h : insertToInVPMAreaOffset st info ptr = .ok (off, st1)) :
    ∃ inst, inst.isOffset = true
      ∧ st1 = (st.addNewLocal DataType.TYPE_INT32).2.insert inst
      ∧ off = ⟨.loc st.nextLocal, DataType.TYPE_INT32⟩ := by
  unfold insertToInVPMAreaOffset at h
  split at h
  · split at h
    · exact absurd h (normalizerError_ne_ok _ _)
    · simp only [insertComputed, Except.ok.injEq, Prod.mk.injEq] at h
      exact ⟨.addressToWorkItemSpecificOffset _ _, rfl, h.2.symm, h.1.symm⟩
  · simp only [insertComputed, Except.ok.injEq, Prod.mk.injEq] at h
    exact ⟨.addressToStackOffset _ _ _ _, rfl, h.2.symm, h.1.symm⟩

theorem lowerMemoryReadToVPM_ok (st : Lowering) (mem : MemoryInstruction)
    (srcInfos destInfos : List MemoryInfo) (r : Lowering)
    (h : lowerMemoryReadToVPM st mem srcInfos destInfos = .ok r) :
    ∃ srcInfo area inst, srcInfos = [srcInfo] ∧ srcInfo.area = some area ∧ mem.op = .READ
      ∧ inst.isOffset = true
      ∧ r = (((st.addNewLocal DataType.TYPE_INT32).2.insert inst).insert
          (.readVPM mem.getDestination (some area) mem.guardAccess
            (some ⟨.loc st.nextLocal, DataType.TYPE_INT32⟩))).erase := by
  unfold lowerMemoryReadToVPM at h
  cases h1 : assertSingleSource srcInfos with
  | error e => simp [h1, bind, Except.bind] at h
  | ok srcInfo =>
    cases h2 : checkVPMLocation srcInfo with
    | error e => simp [h1, h2, bind, Except.bind] at h
    | ok area =>
      cases h3 : insertToInVPMAreaOffset st srcInfo mem.getSource with
      | error e => simp [h1, h2, h3, bind, Except.bind] at h
      | ok p =>
        obtain ⟨off, st1⟩ := p
        obtain ⟨inst, hi, hst, hoff⟩ := insertToInVPMAreaOffset_ok _ _ _ _ _ h3
        simp only [h1, h2, h3, bind, Except.bind] at h
        split_ifs at h with hop
        · simp only [pure, Except.pure, Except.ok.injEq] at h
          exact ⟨srcInfo, area, inst, assertSingleSource_ok _ _ h1, (checkVPMLocation_ok _ _ h2).1,
            hop, hi, by rw [← h, hst, hoff]⟩
        · exact absurd h (normalizerError_ne_ok _ _)

theorem lowerMemoryReadWriteToRegister_read (st : Lowering) (mem : MemoryInstruction)
    (srcInfos destInfos : List MemoryInfo) (r : Lowering) (hop : mem.op = .READ)
    (h : lowerMemoryReadWriteToRegister st mem srcInfos destInfos = .ok r) :
    ∃ info reg, srcInfos = [info] ∧ info.mappedRegisterOrConstant = some reg
      ∧ r = (((st.addNewLocal DataType.TYPE_INT8).2.insert
            (.addressToElementOffset ⟨.loc st.nextLocal, DataType.TYPE_INT8⟩ info.loc reg
              mem.getSource)).insert
            (.vectorExtraction reg ⟨.loc st.nextLocal, DataType.TYPE_INT8⟩
              mem.getDestination)).erase := by
  unfold lowerMemoryReadWriteToRegister at h
  simp only [hop, if_true, bind, Except.bind] at h
  cases h1 : assertSingleSource srcInfos with
  | error e => simp [h1] at h
  | ok info =>
    simp only [h1] at h
    cases h2 : info.mappedRegisterOrConstant with
    | none => simp [h2, normalizerError] at h
    | some reg =>
      simp only [h2, insertComputed, pure, Except.pure, Except.ok.injEq] at h
      exact ⟨info, reg, assertSingleSource_ok _ _ h1, h2, h.symm⟩

theorem lowerMemoryReadWriteToRegister_write (st : Lowering) (mem : MemoryInstruction)
    (srcInfos destInfos : List MemoryInfo) (r : Lowering) (hop : mem.op = .WRITE)
    (h : lowerMemoryReadWriteToRegister st mem srcInfos destInfos = .ok r) :
    ∃ info reg, destInfos = [info] ∧ info.mappedRegisterOrConstant = some reg
      ∧ r = (((st.addNewLocal DataType.TYPE_INT8).2.insert
            (.addressToElementOffset ⟨.loc st.nextLocal, DataType.TYPE_INT8⟩ info.loc reg
              mem.getDestination)).insert
            (.vectorInsertion reg ⟨.loc st.nextLocal, DataType.TYPE_INT8⟩ mem.getSource)).erase := by
  unfold lowerMemoryReadWriteToRegister at h
  simp only [hop, reduceCtorEq, if_false, bind, Except.bind] at h
  cases h1 : assertSingleDestination destInfos with
  | error e => simp [h1] at h
  | ok info =>
    simp only [h1] at h
    cases h2 : info.mappedRegisterOrConstant with
    | none => simp [h2, normalizerError] at h
    | some reg =>
      simp only [h2, insertComputed, pure, Except.pure, Except.ok.injEq] at h
      exact ⟨info, reg, assertSingleDestination_ok _ _ h1, h2, h.symm⟩

/-- The fill of register-lowered memory: the case distinction of the source on the type of the
fill value. -/
theorem lowerMemoryReadWriteToRegister_fill (st : Lowering) (mem : MemoryInstruction)
    (srcInfos : List MemoryInfo) (info : MemoryInfo) (reg : Value) (hop : mem.op = .FILL)
    (hreg : info.mappedRegisterOrConstant = some reg) :
    lowerMemoryReadWriteToRegister st mem srcInfos [info]
      = if mem.getSource.type.isScalarType = true then
          .ok (st.insert (.replication mem.getSource reg)).erase
        else normalizerError "Unhandled case of lowering memory access to register" := by
  unfold lowerMemoryReadWriteToRegister
  simp only [hop, reduceCtorEq, if_false, bind, Except.bind, assertSingleDestination, hreg]
  rfl

theorem lowerMemoryReadWriteToRegister_fill_ok (st : Lowering) (mem : MemoryInstruction)
    (srcInfos destInfos : List MemoryInfo) (r : Lowering) (hop : mem.op = .FILL)
    (h : lowerMemoryReadWriteToRegister st mem srcInfos destInfos = .ok r) :
    ∃ info reg, destInfos = [info] ∧ info.mappedRegisterOrConstant = some reg
      ∧ mem.getSource.type.isScalarType = true
      ∧ r = (st.insert (.replication mem.getSource reg)).erase := by
  unfold lowerMemoryReadWriteToRegister at h
  simp only [hop, reduceCtorEq, if_false, bind, Except.bind] at h
  cases h1 : assertSingleDestination destInfos with
  | error e => simp [h1] at h
  | ok info =>
    simp only [h1] at h
    cases h2 : info.mappedRegisterOrConstant with
    | none => simp [h2, normalizerError] at h
    | some reg =>
      simp only [h2] at h
      split_ifs at h with hs
      · simp only [pure, Except.pure, Except.ok.injEq] at h
        exact ⟨info, reg, assertSingleDestination_ok _ _ h1, h2, hs, h.symm⟩
      · exact absurd h (normalizerError_ne_ok _ _)

end vc4c

namespace vc4c

theorem lowerMemoryWriteToVPM_write (env : Environment) (st : Lowering) (mem : MemoryInstruction)
    (srcInfos destInfos : List MemoryInfo) (r : Lowering) (hop : mem.op = .WRITE)
    (h : lowerMemoryWriteToVPM env st mem srcInfos destInfos = .ok r) :
    ∃ destInfo area inst, destInfos = [destInfo] ∧ destInfo.area = some area
      ∧ inst.isOffset = true
      ∧ r = (((st.addNewLocal DataType.TYPE_INT32).2.insert inst).insert
          (.writeVPM mem.getSource (some area) mem.guardAccess
            (some ⟨.loc st.nextLocal, DataType.TYPE_INT32⟩))).erase := by
  unfold lowerMemoryWriteToVPM at h
  cases h1 : assertSingleDestination destInfos with
  | error e => simp [h1, bind, Except.bind] at h
  | ok destInfo =>
    cases h2 : checkVPMLocation destInfo with
    | error e => simp [h1, h2, bind, Except.bind] at h
    | ok area =>
      cases h3 : insertToInVPMAreaOffset st destInfo mem.getDestination with
      | error e => simp [h1, h2, h3, bind, Except.bind] at h
      | ok p =>
        obtain ⟨off, st1⟩ := p
        obtain ⟨inst, hi, hst, hoff⟩ := insertToInVPMAreaOffset_ok _ _ _ _ _ h3
        simp only [h1, h2, h3, bind, Except.bind, hop, if_true, pure, Except.pure,
          Except.ok.injEq] at h
        exact ⟨destInfo, area, inst, assertSingleDestination_ok _ _ h1,
          (checkVPMLocation_ok _ _ h2).1, hi, by rw [← h, hst, hoff]⟩

/-- The loop writing the rows of a fill: per row two operations computing the offset and one
unguarded write of the fill vector into the area. -/
theorem writeFillRows_spec (fillVector inAreaOffset : Value) (area : VPMArea) (size : Nat)
    (rows : List Nat) (st : Lowering) :
    ∃ nodes, (writeFillRows fillVector inAreaOffset area size rows st).before = st.before ++ nodes
      ∧ (writeFillRows fillVector inAreaOffset area size rows st).after = st.after
      ∧ (writeFillRows fillVector inAreaOffset area size rows st).decorations = st.decorations
      ∧ (∀ x ∈ nodes, x.2.isMutex = false ∧ x.2.isMemory = false ∧ x.2.useMutex = false)
      ∧ ((nodes.map Prod.snd).filter Lowered.isAccess).length = rows.length
      ∧ (∀ x ∈ (nodes.map Prod.snd).filter Lowered.isAccess,
          ∃ offset, x = .writeVPM fillVector (some area) false (some offset)) := by
  induction rows generalizing st with
  | nil => exact ⟨[], by simp [writeFillRows]⟩
  | cons i rest ih =>
    simp only [writeFillRows, insertComputed]
    have key : ∀ (S : Lowering) (n1 n2 n3 : Nat) (a1 b1 c1 a2 b2 c2 offset : Value)
        (s1 s2 : String),
        S.before = st.before ++ ([(n1, Lowered.operation a1 s1 b1 c1)]
          ++ ([(n2, Lowered.operation a2 s2 b2 c2)]
            ++ [(n3, Lowered.writeVPM fillVector (some area) false (some offset))]))
        → S.after = st.after → S.decorations = st.decorations →
        ∃ nodes, (writeFillRows fillVector inAreaOffset area size rest S).before
            = st.before ++ nodes
          ∧ (writeFillRows fillVector inAreaOffset area size rest S).after = st.after
          ∧ (writeFillRows fillVector inAreaOffset area size rest S).decorations = st.decorations
          ∧ (∀ x ∈ nodes, x.2.isMutex = false ∧ x.2.isMemory = false ∧ x.2.useMutex = false)
          ∧ ((nodes.map Prod.snd).filter Lowered.isAccess).length = (i :: rest).length
          ∧ (∀ x ∈ (nodes.map Prod.snd).filter Lowered.isAccess,
              ∃ offset, x = .writeVPM fillVector (some area) false (some offset)) := by
      intro S n1 n2 n3 a1 b1 c1 a2 b2 c2 offset s1 s2 hb ha hd
      obtain ⟨nodes, h1, h2, h3, h4, h5, h6⟩ := ih S
      refine ⟨[(n1, Lowered.operation a1 s1 b1 c1)] ++ ([(n2, Lowered.operation a2 s2 b2 c2)]
        ++ [(n3, Lowered.writeVPM fillVector (some area) false (some offset))]) ++ nodes,
        ?_, ?_, ?_, ?_, ?_, ?_⟩
      · rw [h1, hb, List.append_assoc]
      · rw [h2, ha]
      · rw [h3, hd]
      · intro x hx
        simp only [List.singleton_append, List.cons_append, List.nil_append, List.mem_cons] at hx
        rcases hx with hx | hx | hx | hx
        · rw [hx]; exact ⟨rfl, rfl, rfl⟩
        · rw [hx]; exact ⟨rfl, rfl, rfl⟩
        · rw [hx]; exact ⟨rfl, rfl, rfl⟩
        · exact h4 x hx
      · simp [List.filter_cons, Lowered.isAccess, h5]
      · intro x hx
        simp only [List.singleton_append, List.cons_append, List.nil_append, List.map_cons,
          List.filter_cons, Lowered.isAccess, Bool.false_eq_true, if_false, if_true,
          List.mem_cons] at hx
        rcases hx with hx | hx
        · exact ⟨_, hx⟩
        · exact h6 x hx
    exact key _ _ _ _ _ _ _ _ _ _ _ _ _
      (by simp only [Lowering.insert_before, Lowering.addNewLocal_before, List.append_assoc]; rfl)
      (by simp) (by simp)

end vc4c

namespace vc4c

/-! ### Composition of the steps of a mapper -/

theorem Inserts.self (st : Lowering) : Inserts st st [] := ⟨[], by simp, rfl⟩

theorem Inserts.append {a b c : Lowering} {e1 e2 : List Lowered} (h1 : Inserts a b e1)
    (h2 : Inserts b c e2) : Inserts a c (e1 ++ e2) := by
  obtain ⟨n1, hb1, hm1⟩ := h1
  obtain ⟨n2, hb2, hm2⟩ := h2
  exact ⟨n1 ++ n2, by rw [hb2, hb1, List.append_assoc], by rw [List.map_append, hm1, hm2]⟩

theorem Inserts.of_before {a b c : Lowering} {e : List Lowered} (h : Inserts a b e)
    (hc : c.before = b.before) : Inserts a c e := by
  obtain ⟨n, hb, hm⟩ := h
  exact ⟨n, by rw [hc, hb], hm⟩

theorem Inserts.from_before {a b c : Lowering} {e : List Lowered} (h : Inserts a b e)
    (hc : c.before = a.before) : Inserts c b e := by
  obtain ⟨n, hb, hm⟩ := h
  exact ⟨n, by rw [hc, hb], hm⟩

theorem Inserts.emitted {st r : Lowering} {em : List Lowered} (h : Inserts st r em) :
    emitted st r = em := by
  obtain ⟨n, hb, hm⟩ := h
  unfold vc4c.emitted
  rw [hb, List.drop_left, hm]

theorem Marks.unchanged (st : Lowering) : Marks st st [] [] := by
  intro x; simp

theorem Marks.of_eq {st r : Lowering} (h : r.decorations = st.decorations) :
    Marks st r [] [] := by
  intro x; simp [h]

theorem Marks.union {a b c : Lowering} {i1 o1 i2 o2 : List MemoryInfo} (h1 : Marks a b i1 o1)
    (h2 : Marks b c i2 o2) : Marks a c (i1 ++ i2) (o1 ++ o2) := by
  intro x
  rw [h2 x, h1 x]
  simp only [List.mem_append]
  constructor
  · rintro ((h | ⟨i, hi, h⟩ | ⟨i, hi, h⟩) | ⟨i, hi, h⟩ | ⟨i, hi, h⟩)
    · exact Or.inl h
    · exact Or.inr (Or.inl ⟨i, Or.inl hi, h⟩)
    · exact Or.inr (Or.inr ⟨i, Or.inl hi, h⟩)
    · exact Or.inr (Or.inl ⟨i, Or.inr hi, h⟩)
    · exact Or.inr (Or.inr ⟨i, Or.inr hi, h⟩)
  · rintro (h | ⟨i, hi | hi, h⟩ | ⟨i, hi | hi, h⟩)
    · exact Or.inl (Or.inl h)
    · exact Or.inl (Or.inr (Or.inl ⟨i, hi, h⟩))
    · exact Or.inr (Or.inl ⟨i, hi, h⟩)
    · exact Or.inl (Or.inr (Or.inr ⟨i, hi, h⟩))
    · exact Or.inr (Or.inr ⟨i, hi, h⟩)

/-- Only membership in the marked locations matters. -/
theorem Marks.equiv {a b : Lowering} {i1 o1 i2 o2 : List MemoryInfo} (h : Marks a b i1 o1)
    (hi : ∀ x, x ∈ i1 ↔ x ∈ i2) (ho : ∀ x, x ∈ o1 ↔ x ∈ o2) : Marks a b i2 o2 := by
  intro x
  rw [h x]
  simp only [hi, ho]

theorem Marks.from_eq {a b c : Lowering} {i o : List MemoryInfo} (h : Marks a b i o)
    (hc : c.decorations = a.decorations) : Marks c b i o := by
  intro x; rw [h x, hc]

theorem Marks.to_eq {a b c : Lowering} {i o : List MemoryInfo} (h : Marks a b i o)
    (hc : c.decorations = b.decorations) : Marks a c i o := by
  intro x; rw [hc, h x]

theorem Step.refl (st : Lowering) : Step st st [] [] [] :=
  ⟨Inserts.self st, rfl, Marks.unchanged st⟩

theorem Step.trans {a b c : Lowering} {e1 e2 : List Lowered} {i1 o1 i2 o2 : List MemoryInfo}
    (h1 : Step a b e1 i1 o1) (h2 : Step b c e2 i2 o2) :
    Step a c (e1 ++ e2) (i1 ++ i2) (o1 ++ o2) :=
  ⟨h1.before.append h2.before, h2.after.trans h1.after, h1.decorations.union h2.decorations⟩

theorem Step.insert (st : Lowering) (i : Lowered) : Step st (st.insert i) [i] [] [] :=
  ⟨⟨[(st.nextNode, i)], rfl, rfl⟩, rfl, Marks.of_eq rfl⟩

theorem Step.addNewLocal (st : Lowering) (t : DataType) : Step st (st.addNewLocal t).2 [] [] [] :=
  ⟨⟨[], by simp, rfl⟩, rfl, Marks.of_eq rfl⟩

theorem Step.guardWith (st : Lowering) (g l : Bool) :
    Step st (guardWith st g l) (if g then [Lowered.mutexLock l] else []) [] [] := by
  cases g
  · exact Step.refl st
  · exact Step.insert st _

theorem Step.decorateInputs (st : Lowering) (infos : List MemoryInfo) :
    Step st (decorateAll st infos .INPUT) [] infos [] := by
  refine ⟨⟨[], by simp, rfl⟩, by simp, ?_⟩
  intro x
  rw [mem_decorateAll]
  simp

theorem Step.decorateOutputs (st : Lowering) (infos : List MemoryInfo) :
    Step st (decorateAll st infos .OUTPUT) [] [] infos := by
  refine ⟨⟨[], by simp, rfl⟩, by simp, ?_⟩
  intro x
  rw [mem_decorateAll]
  simp

theorem Step.erase {st r : Lowering} {em : List Lowered} {ins outs : List MemoryInfo}
    (h : Step st r em ins outs) : Lowers st r.erase em ins outs :=
  ⟨h.before.of_before rfl, by rw [Lowering.erase_after, h.after], h.decorations.to_eq rfl⟩

theorem Step.then_lowers {a b c : Lowering} {e1 e2 : List Lowered}
    {i1 o1 i2 o2 : List MemoryInfo} (h1 : Step a b e1 i1 o1) (h2 : Lowers b c e2 i2 o2) :
    Lowers a c (e1 ++ e2) (i1 ++ i2) (o1 ++ o2) :=
  ⟨h1.before.append h2.before, by rw [h2.after, h1.after], h1.decorations.union h2.decorations⟩

theorem Lowers.then_step {a b c : Lowering} {e1 e2 : List Lowered}
    {i1 o1 i2 o2 : List MemoryInfo} (h1 : Lowers a b e1 i1 o1) (h2 : Step b c e2 i2 o2) :
    Lowers a c (e1 ++ e2) (i1 ++ i2) (o1 ++ o2) :=
  ⟨h1.before.append h2.before, by rw [h2.after, h1.after], h1.decorations.union h2.decorations⟩

/-- A memory instruction inserted before the walker and lowered leaves the walker where it
was. -/
theorem Lowers.of_emplace {st r : Lowering} {i : Lowered} {em : List Lowered}
    {ins outs : List MemoryInfo} (h : Lowers (st.emplace i) r em ins outs) :
    Step st r em ins outs :=
  ⟨h.before.from_before rfl, by rw [h.after]; rfl, h.decorations.from_eq rfl⟩

/-- Lowering the instruction that has replaced the one at the walker. -/
theorem Lowers.of_reset {st r : Lowering} {i : Lowered} {em : List Lowered}
    {ins outs : List MemoryInfo} (h : Lowers (st.reset i) r em ins outs) :
    Lowers st r em ins outs :=
  ⟨h.before.from_before (by simp), by rw [h.after]; simp, h.decorations.from_eq (by simp)⟩

theorem Lowers.congr {st r : Lowering} {e1 e2 : List Lowered} {i1 o1 i2 o2 : List MemoryInfo}
    (h : Lowers st r e1 i1 o1) (he : e1 = e2) (hi : ∀ x, x ∈ i1 ↔ x ∈ i2)
    (ho : ∀ x, x ∈ o1 ↔ x ∈ o2) : Lowers st r e2 i2 o2 :=
  ⟨he ▸ h.before, h.after, h.decorations.equiv hi ho⟩

theorem Step.cast {st r : Lowering} {e1 e2 : List Lowered} {i1 o1 i2 o2 : List MemoryInfo}
    (h : Step st r e1 i1 o1) (he : e1 = e2) (hi : ∀ x, x ∈ i1 ↔ x ∈ i2)
    (ho : ∀ x, x ∈ o1 ↔ x ∈ o2) : Step st r e2 i2 o2 :=
  ⟨he ▸ h.before, h.after, h.decorations.equiv hi ho⟩

/-- A step followed by a step that marks nothing. -/
theorem Step.andThen {a b c : Lowering} {e1 e2 : List Lowered} {i o : List MemoryInfo}
    (h1 : Step a b e1 i o) (h2 : Step b c e2 [] []) : Step a c (e1 ++ e2) i o :=
  (h1.trans h2).cast rfl (by simp) (by simp)

theorem Step.andThen_lowers {a b c : Lowering} {e1 e2 : List Lowered} {i o : List MemoryInfo}
    (h1 : Step a b e1 i o) (h2 : Lowers b c e2 [] []) : Lowers a c (e1 ++ e2) i o :=
  (h1.then_lowers h2).congr rfl (by simp) (by simp)

theorem Lowers.followedBy {a b c : Lowering} {e1 e2 : List Lowered} {i o : List MemoryInfo}
    (h1 : Lowers a b e1 i o) (h2 : Step b c e2 [] []) : Lowers a c (e1 ++ e2) i o :=
  (h1.then_step h2).congr rfl (by simp) (by simp)

end vc4c

namespace vc4c

/-! ### The outcome of the mappers of reads, writes and fills -/

theorem insertToInVPMAreaOffset_step (st : Lowering) (info : MemoryInfo) (ptr off : Value)
    (st1 : Lowering) (h : insertToInVPMAreaOffset st info ptr = .ok (off, st1)) :
    ∃ inst, inst.isOffset = true ∧ Step st st1 [inst] [] [] := by
  obtain ⟨inst, hi, hst, _⟩ := insertToInVPMAreaOffset_ok st info ptr off st1 h
  refine ⟨inst, hi, ?_⟩
  rw [hst]
  exact (Step.addNewLocal st _).trans (Step.insert _ inst)

theorem writeFillRows_step (fillVector inAreaOffset : Value) (area : VPMArea) (size : Nat)
    (rows : List Nat) (st : Lowering) :
    ∃ em, Step st (writeFillRows fillVector inAreaOffset area size rows st) em [] []
      ∧ (∀ x ∈ em, x.isMutex = false ∧ x.isMemory = false ∧ x.useMutex = false)
      ∧ (em.filter Lowered.isAccess).length = rows.length
      ∧ (∀ x ∈ em.filter Lowered.isAccess,
          ∃ offset, x = .writeVPM fillVector (some area) false (some offset)) := by
  obtain ⟨nodes, h1, h2, h3, h4, h5, h6⟩ :=
    writeFillRows_spec fillVector inAreaOffset area size rows st
  refine ⟨nodes.map Prod.snd, ⟨⟨nodes, h1, rfl⟩, h2, Marks.of_eq h3⟩, ?_, h5, h6⟩
  intro x hx
  obtain ⟨y, hy, rfl⟩ := List.mem_map.1 hx
  exact h4 y hy

theorem lowerMemoryReadToVPM_lowers (st : Lowering) (mem : MemoryInstruction)
    (srcInfos destInfos : List MemoryInfo) (r : Lowering)
    (h : lowerMemoryReadToVPM st mem srcInfos destInfos = .ok r) :
    ∃ srcInfo area inst offset, srcInfos = [srcInfo] ∧ srcInfo.area = some area ∧ mem.op = .READ
      ∧ inst.isOffset = true
      ∧ Lowers st r
          [inst, .readVPM mem.getDestination (some area) mem.guardAccess (some offset)] [] [] := by
  obtain ⟨srcInfo, area, inst, h1, h2, h3, h4, h5⟩ := lowerMemoryReadToVPM_ok _ _ _ _ _ h
  refine ⟨srcInfo, area, inst, ⟨.loc st.nextLocal, DataType.TYPE_INT32⟩, h1, h2, h3, h4, ?_⟩
  rw [h5]
  exact (((Step.addNewLocal st _).trans (Step.insert _ inst)).trans (Step.insert _ _)).erase

theorem lowerMemoryWriteToVPM_write_lowers (env : Environment) (st : Lowering)
    (mem : MemoryInstruction) (srcInfos destInfos : List MemoryInfo) (r : Lowering)
    (hop : mem.op = .WRITE) (h : lowerMemoryWriteToVPM env st mem srcInfos destInfos = .ok r) :
    ∃ destInfo area inst offset, destInfos = [destInfo] ∧ destInfo.area = some area
      ∧ inst.isOffset = true
      ∧ Lowers st r
          [inst, .writeVPM mem.getSource (some area) mem.guardAccess (some offset)] [] [] := by
  obtain ⟨destInfo, area, inst, h1, h2, h4, h5⟩ := lowerMemoryWriteToVPM_write _ _ _ _ _ _ hop h
  refine ⟨destInfo, area, inst, ⟨.loc st.nextLocal, DataType.TYPE_INT32⟩, h1, h2, h4, ?_⟩
  rw [h5]
  exact (((Step.addNewLocal st _).trans (Step.insert _ inst)).trans (Step.insert _ _)).erase

theorem lowerMemoryReadWriteToRegister_read_lowers (st : Lowering) (mem : MemoryInstruction)
    (srcInfos destInfos : List MemoryInfo) (r : Lowering) (hop : mem.op = .READ)
    (h : lowerMemoryReadWriteToRegister st mem srcInfos destInfos = .ok r) :
    ∃ info reg inst index, srcInfos = [info] ∧ info.mappedRegisterOrConstant = some reg
      ∧ inst.isOffset = true
      ∧ Lowers st r [inst, .vectorExtraction reg index mem.getDestination] [] [] := by
  obtain ⟨info, reg, h1, h2, h3⟩ := lowerMemoryReadWriteToRegister_read _ _ _ _ _ hop h
  refine ⟨info, reg, .addressToElementOffset ⟨.loc st.nextLocal, DataType.TYPE_INT8⟩ info.loc reg
    mem.getSource, ⟨.loc st.nextLocal, DataType.TYPE_INT8⟩, h1, h2, rfl, ?_⟩
  rw [h3]
  exact (((Step.addNewLocal st _).trans (Step.insert _ _)).trans (Step.insert _ _)).erase

theorem lowerMemoryReadWriteToRegister_write_lowers (st : Lowering) (mem : MemoryInstruction)
    (srcInfos destInfos : List MemoryInfo) (r : Lowering) (hop : mem.op = .WRITE)
    (h : lowerMemoryReadWriteToRegister st mem srcInfos destInfos = .ok r) :
    ∃ info reg inst index, destInfos = [info] ∧ info.mappedRegisterOrConstant = some reg
      ∧ inst.isOffset = true
      ∧ Lowers st r [inst, .vectorInsertion reg index mem.getSource] [] [] := by
  obtain ⟨info, reg, h1, h2, h3⟩ := lowerMemoryReadWriteToRegister_write _ _ _ _ _ hop h
  refine ⟨info, reg, .addressToElementOffset ⟨.loc st.nextLocal, DataType.TYPE_INT8⟩ info.loc reg
    mem.getDestination, ⟨.loc st.nextLocal, DataType.TYPE_INT8⟩, h1, h2, rfl, ?_⟩
  rw [h3]
  exact (((Step.addNewLocal st _).trans (Step.insert _ _)).trans (Step.insert _ _)).erase

theorem lowerMemoryReadWriteToRegister_fill_lowers (st : Lowering) (mem : MemoryInstruction)
    (srcInfos destInfos : List MemoryInfo) (r : Lowering) (hop : mem.op = .FILL)
    (h : lowerMemoryReadWriteToRegister st mem srcInfos destInfos = .ok r) :
    ∃ info reg, destInfos = [info] ∧ info.mappedRegisterOrConstant = some reg
      ∧ mem.getSource.type.isScalarType = true
      ∧ Lowers st r [.replication mem.getSource reg] [] [] := by
  obtain ⟨info, reg, h1, h2, h3, h4⟩ := lowerMemoryReadWriteToRegister_fill_ok _ _ _ _ _ hop h
  refine ⟨info, reg, h1, h2, h3, ?_⟩
  rw [h4]
  exact (Step.insert st _).erase

theorem loadMemoryViaTMU_lowers (st : Lowering) (mem : MemoryInstruction)
    (srcInfos destInfos : List MemoryInfo) (r : Lowering)
    (h : loadMemoryViaTMU st mem srcInfos destInfos = .ok r) :
    ∃ tmu, mem.op = .READ
      ∧ Lowers st r [.readVectorFromTMU mem.getDestination mem.getSource tmu] srcInfos [] := by
  by_cases hop : mem.op = .READ
  · rw [loadMemoryViaTMU_read st mem srcInfos destInfos hop] at h
    cases h
    exact ⟨_, hop, ((Step.decorateInputs st srcInfos).andThen (Step.insert _ _)).erase⟩
  · simp [loadMemoryViaTMU, hop, normalizerError] at h

theorem accessMemoryInRAMViaVPM_read (env : Environment) (st : Lowering)
    (mem : MemoryInstruction) (srcInfos destInfos : List MemoryInfo) (hop : mem.op = .READ) :
    accessMemoryInRAMViaVPM env st mem srcInfos destInfos
      = .ok (decorateAll (st.insert (.readDMA mem.getDestination mem.getSource mem.guardAccess))
          srcInfos .INPUT).erase := by
  simp only [accessMemoryInRAMViaVPM, hop]

theorem accessMemoryInRAMViaVPM_write (env : Environment) (st : Lowering)
    (mem : MemoryInstruction) (srcInfos destInfos : List MemoryInfo) (hop : mem.op = .WRITE) :
    accessMemoryInRAMViaVPM env st mem srcInfos destInfos
      = .ok (decorateAll (st.insert (.writeDMA mem.getSource mem.getDestination mem.guardAccess))
          destInfos .OUTPUT).erase := by
  simp only [accessMemoryInRAMViaVPM, hop]

theorem accessMemoryInRAMViaVPM_read_lowers (env : Environment) (st : Lowering)
    (mem : MemoryInstruction) (srcInfos destInfos : List MemoryInfo) (r : Lowering)
    (hop : mem.op = .READ) (h : accessMemoryInRAMViaVPM env st mem srcInfos destInfos = .ok r) :
    Lowers st r [.readDMA mem.getDestination mem.getSource mem.guardAccess] srcInfos [] := by
  rw [accessMemoryInRAMViaVPM_read env st mem srcInfos destInfos hop] at h
  cases h
  exact ((Step.insert st _).trans (Step.decorateInputs _ srcInfos)).erase

theorem accessMemoryInRAMViaVPM_write_lowers (env : Environment) (st : Lowering)
    (mem : MemoryInstruction) (srcInfos destInfos : List MemoryInfo) (r : Lowering)
    (hop : mem.op = .WRITE) (h : accessMemoryInRAMViaVPM env st mem srcInfos destInfos = .ok r) :
    Lowers st r [.writeDMA mem.getSource mem.getDestination mem.guardAccess] [] destInfos := by
  rw [accessMemoryInRAMViaVPM_write env st mem srcInfos destInfos hop] at h
  cases h
  exact ((Step.insert st _).trans (Step.decorateOutputs _ destInfos)).erase

end vc4c

namespace vc4c

theorem isOffset_plain (inst : Lowered) (h : inst.isOffset = true) :
    inst.isAccess = false ∧ inst.isMutex = false ∧ inst.isMemory = false
      ∧ inst.useMutex = false ∧ inst.isTransfer = false := by
  cases inst <;> simp_all [Lowered.isOffset, Lowered.isAccess, Lowered.isMutex, Lowered.isMemory,
    Lowered.useMutex, Lowered.isTransfer]

/-- A fill lowered into the VPM: the source is a byte, and the lowering inserts the offset
computation, the widening of the byte, a second offset computation and then, between the lock and
the release of the mutex if the fill is guarded, one unguarded write of the fill vector per row. -/
theorem lowerMemoryWriteToVPM_fill_lowers (env : Environment) (st : Lowering)
    (mem : MemoryInstruction) (srcInfos destInfos : List MemoryInfo) (r : Lowering)
    (hop : mem.op = .FILL) (h : lowerMemoryWriteToVPM env st mem srcInfos destInfos = .ok r) :
    ∃ destInfo area numEntries pre mid fillVector, destInfos = [destInfo]
      ∧ destInfo.area = some area
      ∧ mem.getNumEntries.getLiteralValue = some numEntries
      ∧ mem.getSource.type = DataType.TYPE_INT8
      ∧ Lowers st r (pre ++ (if mem.guardAccess then [Lowered.mutexLock true] else []) ++ mid
            ++ (if mem.guardAccess then [Lowered.mutexLock false] else [])) [] []
      ∧ (∀ x ∈ pre, x.isAccess = false ∧ x.isMutex = false ∧ x.isMemory = false)
      ∧ (∀ x ∈ mid, x.isMutex = false ∧ x.isMemory = false ∧ x.useMutex = false)
      ∧ (mid.filter Lowered.isAccess).length = (env.getBestVectorSize numEntries).2
      ∧ (∀ x ∈ mid.filter Lowered.isAccess,
          ∃ offset, x = .writeVPM fillVector (some area) false (some offset)) := by
  unfold lowerMemoryWriteToVPM at h
  cases h1 : assertSingleDestination destInfos with
  | error e => simp [h1, bind, Except.bind] at h
  | ok destInfo =>
    cases h2 : checkVPMLocation destInfo with
    | error e => simp [h1, h2, bind, Except.bind] at h
    | ok area =>
      cases h3 : insertToInVPMAreaOffset st destInfo mem.getDestination with
      | error e => simp [h1, h2, h3, bind, Except.bind] at h
      | ok p =>
        obtain ⟨off, st1⟩ := p
        obtain ⟨inst, hi, hs1⟩ := insertToInVPMAreaOffset_step _ _ _ _ _ h3
        simp only [h1, h2, h3, bind, Except.bind, hop, reduceCtorEq, if_false, if_true] at h
        cases h4 : mem.getNumEntries.getLiteralValue with
        | none =>
          simp only [h4] at h
          exact absurd h (normalizerError_ne_ok _ _)
        | some numEntries =>
          simp only [h4] at h
          split_ifs at h with hb
          · simp only [insertComputed] at h
            split at h
            · cases h
            · rename_i p2 h5
              obtain ⟨off2, st2⟩ := p2
              obtain ⟨inst2, hi2, hs3⟩ := insertToInVPMAreaOffset_step _ _ _ _ _ h5
              simp only [pure, Except.pure, Except.ok.injEq] at h
              obtain ⟨rows, hs5, hr1, hr2, hr3⟩ := writeFillRows_step
                (((st1.addNewLocal DataType.TYPE_INT32).2.insert
                  (Lowered.unpack8aTo32 (st1.addNewLocal DataType.TYPE_INT32).1
                    mem.getSource)).addNewLocal (DataType.TYPE_INT32.toVectorType 16)).1
                off2 area (env.getBestVectorSize numEntries).1.getInMemoryWidth
                (List.range (env.getBestVectorSize numEntries).2)
                (guardWith st2 mem.guardAccess true)
              have hs2 := ((Step.addNewLocal st1 DataType.TYPE_INT32).trans
                (Step.insert _ (Lowered.unpack8aTo32 (st1.addNewLocal DataType.TYPE_INT32).1
                    mem.getSource))).trans
                ((Step.addNewLocal _ (DataType.TYPE_INT32.toVectorType 16)).trans
                  (Step.insert _ (Lowered.replication (st1.addNewLocal DataType.TYPE_INT32).1
                    (((st1.addNewLocal DataType.TYPE_INT32).2.insert
                      (Lowered.unpack8aTo32 (st1.addNewLocal DataType.TYPE_INT32).1
                        mem.getSource)).addNewLocal (DataType.TYPE_INT32.toVectorType 16)).1)))
              have hall := ((((((hs1.trans hs2).trans hs3).trans
                (Step.guardWith st2 mem.guardAccess true)).trans hs5).trans
                (Step.guardWith _ mem.guardAccess false))).erase
              rw [h] at hall
              refine ⟨destInfo, area, numEntries, _, rows, _, assertSingleDestination_ok _ _ h1,
                (checkVPMLocation_ok _ _ h2).1, rfl, hb, hall, ?_, hr1, ?_, hr3⟩
              · intro x hx
                simp only [List.singleton_append, List.nil_append, List.cons_append,
                  List.mem_cons, List.mem_singleton, List.not_mem_nil, or_false] at hx
                rcases hx with hx | hx | hx | hx
                · rw [hx]; exact ⟨(isOffset_plain _ hi).1, (isOffset_plain _ hi).2.1,
                    (isOffset_plain _ hi).2.2.1⟩
                · rw [hx]; exact ⟨rfl, rfl, rfl⟩
                · rw [hx]; exact ⟨rfl, rfl, rfl⟩
                · rw [hx]; exact ⟨(isOffset_plain _ hi2).1, (isOffset_plain _ hi2).2.1,
                    (isOffset_plain _ hi2).2.2.1⟩
              · rw [hr2, List.length_range]
          · exact absurd h (normalizerError_ne_ok _ _)

end vc4c

namespace vc4c

/-- A fill of RAM through the VPM is always lowered: between the lock and the release of the
mutex, if the fill is guarded, it writes the value to the VPM and fills the memory by DMA, both
unguarded; the parameters among the destinations are marked as output. -/
theorem accessMemoryInRAMViaVPM_fill_lowers (env : Environment) (st : Lowering)
    (mem : MemoryInstruction) (srcInfos destInfos : List MemoryInfo) (hop : mem.op = .FILL) :
    ∃ r mid, accessMemoryInRAMViaVPM env st mem srcInfos destInfos = .ok r
      ∧ Lowers st r ((if mem.guardAccess then [Lowered.mutexLock true] else []) ++ mid
            ++ (if mem.guardAccess then [Lowered.mutexLock false] else [])) [] destInfos
      ∧ (∀ x ∈ mid, x.isMutex = false ∧ x.isMemory = false ∧ x.useMutex = false) := by
  have hg := Step.guardWith st mem.guardAccess true
  cases h4 : mem.getNumEntries.getLiteralValue with
  | none =>
    simp only [accessMemoryInRAMViaVPM, hop, h4]
    refine ⟨_, [.writeVPM mem.getSource none false none,
      .fillRAMDynamic mem.getDestination mem.getSourceElementType mem.getNumEntries false], rfl, ?_,
      ?_⟩
    · exact (((((hg.trans (Step.insert _ _)).trans (Step.insert _ _)).trans
        (Step.guardWith _ mem.guardAccess false)).trans
        (Step.decorateOutputs _ destInfos)).erase).congr (by simp) (by simp) (by simp)
    · intro x hx
      simp only [List.mem_cons, List.mem_singleton, List.not_mem_nil, or_false] at hx
      rcases hx with hx | hx <;> (rw [hx]; exact ⟨rfl, rfl, rfl⟩)
  | some numCopies =>
    by_cases hb : mem.getSource.type = DataType.TYPE_INT8
    · simp only [accessMemoryInRAMViaVPM, hop, h4, hb, if_true, insertComputed]
      refine ⟨_, [.unpack8aTo32 ((guardWith st mem.guardAccess true).addNewLocal
            DataType.TYPE_INT32).1 mem.getSource,
        .replication ((guardWith st mem.guardAccess true).addNewLocal DataType.TYPE_INT32).1
          ((((guardWith st mem.guardAccess true).addNewLocal DataType.TYPE_INT32).2.insert
            (.unpack8aTo32 ((guardWith st mem.guardAccess true).addNewLocal
              DataType.TYPE_INT32).1 mem.getSource)).addNewLocal
            (DataType.TYPE_INT32.toVectorType 16)).1,
        .writeVPM ((((guardWith st mem.guardAccess true).addNewLocal DataType.TYPE_INT32).2.insert
            (.unpack8aTo32 ((guardWith st mem.guardAccess true).addNewLocal
              DataType.TYPE_INT32).1 mem.getSource)).addNewLocal
            (DataType.TYPE_INT32.toVectorType 16)).1 none false none,
        .fillRAM mem.getDestination (env.getBestVectorSize numCopies).1
          (env.getBestVectorSize numCopies).2 false], rfl, ?_, ?_⟩
      · exact ((((((((hg.trans (Step.addNewLocal _ DataType.TYPE_INT32)).trans
          (Step.insert _ _)).trans
          (Step.addNewLocal _ (DataType.TYPE_INT32.toVectorType 16))).trans
          (Step.insert _ _)).trans
          (Step.insert _ _)).trans
          (Step.insert _ _)).trans
          (Step.guardWith _ mem.guardAccess false)).trans
          (Step.decorateOutputs _ destInfos) |>.erase).congr (by simp) (by simp) (by simp)
      · intro x hx
        simp only [List.mem_cons, List.mem_singleton, List.not_mem_nil, or_false] at hx
        rcases hx with hx | hx | hx | hx <;> (rw [hx]; exact ⟨rfl, rfl, rfl⟩)
    · simp only [accessMemoryInRAMViaVPM, hop, h4, hb, if_false]
      refine ⟨_, [.writeVPM mem.getSource none false none,
        .fillRAM mem.getDestination mem.getSourceElementType numCopies false], rfl, ?_, ?_⟩
      · exact (((((hg.trans (Step.insert _ _)).trans (Step.insert _ _)).trans
          (Step.guardWith _ mem.guardAccess false)).trans
          (Step.decorateOutputs _ destInfos)).erase).congr (by simp) (by simp) (by simp)
      · intro x hx
        simp only [List.mem_cons, List.mem_singleton, List.not_mem_nil, or_false] at hx
        rcases hx with hx | hx <;> (rw [hx]; exact ⟨rfl, rfl, rfl⟩)

/-- A successful call of `mapMemoryAccess` has fuel, its selecting candidates share one access
type and the result is that of the mapper of the decision matrix. -/
theorem mapMemoryAccess_ok (env : Environment) (fuel : Nat) (st : Lowering)
    (mem : MemoryInstruction) (srcInfos destInfos : List MemoryInfo) (r : Lowering)
    (h : mapMemoryAccess env fuel st mem srcInfos destInfos = .ok r) :
    ∃ fuel1 first rest, fuel = fuel1 + 1 ∧ selectingInfos mem srcInfos destInfos = first :: rest
      ∧ (∀ info ∈ first :: rest, info.type = first.type)
      ∧ (decisionMatrix first.type mem.op).call env (mapMemoryAccess env fuel1) st mem srcInfos
          destInfos = .ok r := by
  cases fuel with
  | zero => simp [mapMemoryAccess] at h
  | succ n =>
    cases hsel : selectingInfos mem srcInfos destInfos with
    | nil =>
      unfold selectingInfos at hsel
      simp [mapMemoryAccess, hsel] at h
    | cons first rest =>
      by_cases hu : ∀ info ∈ first :: rest, info.type = first.type
      · refine ⟨n, first, rest, rfl, rfl, hu, ?_⟩
        rw [← mapMemoryAccess_dispatch env n st mem srcInfos destInfos first.type first rest hsel
          hu]
        exact h
      · exfalso
        have hm : ∃ a ∈ selectingInfos mem srcInfos destInfos,
            ∃ b ∈ selectingInfos mem srcInfos destInfos, a.type ≠ b.type := by
          rw [hsel]
          push_neg at hu
          obtain ⟨info, hi, hne⟩ := hu
          exact ⟨info, hi, first, by simp, hne⟩
        rw [mapMemoryAccess_mixed env n st mem srcInfos destInfos hm] at h
        cases h

end vc4c

namespace vc4c

/-- A read of constant memory lowered to a register: the offset computation and the extraction
of the element are inserted and the read is replaced by a move. -/
theorem lowerMemoryReadOnlyToRegister_read (env : Environment) (recurse : Recurse)
    (st : Lowering) (mem : MemoryInstruction) (srcInfos destInfos : List MemoryInfo)
    (r : Lowering) (hop : mem.op = .READ)
    (h : lowerMemoryReadOnlyToRegister env recurse st mem srcInfos destInfos = .ok r) :
    ∃ X inst extraction value, Step st X [inst, extraction] [] []
      ∧ inst.isOffset = true
      ∧ (∃ container index dest, extraction = Lowered.vectorExtraction container index dest)
      ∧ r = X.reset (.moveOperation mem.getDestination value) := by
  unfold lowerMemoryReadOnlyToRegister at h
  cases h1 : assertSingleSource srcInfos with
  | error e => simp [h1, bind, Except.bind] at h
  | ok srcInfo =>
    simp only [h1, bind, Except.bind, hop] at h
    cases h2 : deref srcInfo.mappedRegisterOrConstant with
    | error e => simp [h2] at h
    | ok mapped =>
      simp only [h2, ne_eq, not_true_eq_false, reduceCtorEq, not_false_eq_true, and_true,
        false_and, and_false, if_false, insertComputed, pure, Except.pure] at h
      have hstep := ((Step.addNewLocal st DataType.TYPE_INT8).trans
        (Step.insert _ (.addressToElementOffset (st.addNewLocal DataType.TYPE_INT8).1 srcInfo.loc
          mapped mem.getSource))).trans
        ((Step.addNewLocal _ (match srcInfo.convertedRegisterType with
          | some t => t
          | none => mapped.type.getElementType)).trans (Step.insert _
            (.vectorExtraction mapped (st.addNewLocal DataType.TYPE_INT8).1
              (((st.addNewLocal DataType.TYPE_INT8).2.insert
                (.addressToElementOffset (st.addNewLocal DataType.TYPE_INT8).1 srcInfo.loc
                  mapped mem.getSource)).addNewLocal (match srcInfo.convertedRegisterType with
                    | some t => t
                    | none => mapped.type.getElementType)).1)))
      split_ifs at h with c1 c2
      · exact ⟨_, _, _, _, hstep, rfl, ⟨_, _, _, rfl⟩, (Except.ok.inj h).symm⟩
      · exact ⟨_, _, _, _, hstep, rfl, ⟨_, _, _, rfl⟩, (Except.ok.inj h).symm⟩
      · split at h
        · exact ⟨_, _, _, _, hstep, rfl, ⟨_, _, _, rfl⟩, (Except.ok.inj h).symm⟩
        · exact absurd h (normalizerError_ne_ok _ _)

end vc4c

namespace vc4c

theorem selectingInfos_reads (mem : MemoryInstruction) (srcInfos destInfos : List MemoryInfo)
    (h : mem.op.readsMemory = true) : selectingInfos mem srcInfos destInfos = srcInfos := by
  unfold selectingInfos
  cases hop : mem.op <;> simp_all [MemoryOperation.readsMemory]

theorem selectingInfos_writes (mem : MemoryInstruction) (srcInfos destInfos : List MemoryInfo)
    (h : mem.op.readsMemory = false) : selectingInfos mem srcInfos destInfos = destInfos := by
  unfold selectingInfos
  cases hop : mem.op <;> simp_all [MemoryOperation.readsMemory]

/-- The outcome of a read whose source is not constant memory lowered to a register: offset
computations followed by the instruction that realises the read; the read is erased and the
sources in RAM are marked as input. -/
theorem read_lowers (env : Environment) (fuel : Nat) (st : Lowering) (mem : MemoryInstruction)
    (srcInfos destInfos : List MemoryInfo) (r : Lowering) (first : MemoryInfo)
    (rest : List MemoryInfo) (hop : mem.op = .READ) (hs : srcInfos = first :: rest)
    (hne : first.type ≠ .QPU_REGISTER_READONLY)
    (h : mapMemoryAccess env fuel st mem srcInfos destInfos = .ok r) :
    ∃ pre x, (∀ p ∈ pre, p.isOffset = true) ∧ IsReadOf first.type mem srcInfos x
      ∧ Lowers st r (pre ++ [x]) (if first.type.inRAM then srcInfos else []) [] := by
  obtain ⟨fuel1, first1, rest1, _, hsel, _, hcall⟩ := mapMemoryAccess_ok _ _ _ _ _ _ _ h
  rw [selectingInfos_reads mem srcInfos destInfos (by rw [hop]; rfl), hs] at hsel
  obtain ⟨rfl, rfl⟩ := List.cons.inj hsel
  rw [hop] at hcall
  cases ht : first.type with
  | QPU_REGISTER_READONLY => exact absurd ht hne
  | QPU_REGISTER_READWRITE =>
    rw [ht] at hcall
    simp only [decisionMatrix, MemoryMapper.call] at hcall
    obtain ⟨info, reg, inst, index, h1, h2, h3, h4⟩ :=
      lowerMemoryReadWriteToRegister_read_lowers _ _ _ _ _ hop hcall
    refine ⟨[inst], _, by simpa using h3, ⟨reg, index, rfl, ?_⟩, h4⟩
    intro i hi
    rw [h1] at hi
    rw [List.mem_singleton.1 hi]
    exact h2
  | VPM_PER_QPU =>
    rw [ht] at hcall
    simp only [decisionMatrix, MemoryMapper.call] at hcall
    obtain ⟨info, area, inst, offset, h1, h2, _, h3, h4⟩ :=
      lowerMemoryReadToVPM_lowers _ _ _ _ _ hcall
    refine ⟨[inst], _, by simpa using h3, ⟨area, offset, rfl, ?_⟩, h4⟩
    intro i hi
    rw [h1] at hi
    rw [List.mem_singleton.1 hi]
    exact h2
  | VPM_SHARED_ACCESS =>
    rw [ht] at hcall
    simp only [decisionMatrix, MemoryMapper.call] at hcall
    obtain ⟨info, area, inst, offset, h1, h2, _, h3, h4⟩ :=
      lowerMemoryReadToVPM_lowers _ _ _ _ _ hcall
    refine ⟨[inst], _, by simpa using h3, ⟨area, offset, rfl, ?_⟩, h4⟩
    intro i hi
    rw [h1] at hi
    rw [List.mem_singleton.1 hi]
    exact h2
  | RAM_LOAD_TMU =>
    rw [ht] at hcall
    simp only [decisionMatrix, MemoryMapper.call] at hcall
    obtain ⟨tmu, _, h4⟩ := loadMemoryViaTMU_lowers _ _ _ _ _ hcall
    exact ⟨[], _, by simp, ⟨tmu, rfl⟩, h4⟩
  | RAM_READ_WRITE_VPM =>
    rw [ht] at hcall
    simp only [decisionMatrix, MemoryMapper.call] at hcall
    exact ⟨[], _, by simp, rfl, accessMemoryInRAMViaVPM_read_lowers _ _ _ _ _ _ hop hcall⟩

/-- The outcome of a write: offset computations followed by the instruction that realises the
write; the write is erased and the destinations in RAM are marked as output. -/
theorem write_lowers (env : Environment) (fuel : Nat) (st : Lowering) (mem : MemoryInstruction)
    (srcInfos destInfos : List MemoryInfo) (r : Lowering) (first : MemoryInfo)
    (rest : List MemoryInfo) (hop : mem.op = .WRITE) (hs : destInfos = first :: rest)
    (h : mapMemoryAccess env fuel st mem srcInfos destInfos = .ok r) :
    ∃ pre x, (∀ p ∈ pre, p.isOffset = true) ∧ IsWriteOf first.type mem destInfos x
      ∧ Lowers st r (pre ++ [x]) [] (if first.type.inRAM then destInfos else []) := by
  obtain ⟨fuel1, first1, rest1, _, hsel, _, hcall⟩ := mapMemoryAccess_ok _ _ _ _ _ _ _ h
  rw [selectingInfos_writes mem srcInfos destInfos (by rw [hop]; rfl), hs] at hsel
  obtain ⟨rfl, rfl⟩ := List.cons.inj hsel
  rw [hop] at hcall
  cases ht : first.type with
  | QPU_REGISTER_READONLY =>
    rw [ht] at hcall
    simp only [decisionMatrix, MemoryMapper.call] at hcall
    exact absurd hcall (normalizerError_ne_ok _ _)
  | QPU_REGISTER_READWRITE =>
    rw [ht] at hcall
    simp only [decisionMatrix, MemoryMapper.call] at hcall
    obtain ⟨info, reg, inst, index, h1, h2, h3, h4⟩ :=
      lowerMemoryReadWriteToRegister_write_lowers _ _ _ _ _ hop hcall
    refine ⟨[inst], _, by simpa using h3, ⟨reg, index, rfl, ?_⟩, h4⟩
    intro i hi
    rw [h1] at hi
    rw [List.mem_singleton.1 hi]
    exact h2
  | VPM_PER_QPU =>
    rw [ht] at hcall
    simp only [decisionMatrix, MemoryMapper.call] at hcall
    obtain ⟨info, area, inst, offset, h1, h2, h3, h4⟩ :=
      lowerMemoryWriteToVPM_write_lowers _ _ _ _ _ _ hop hcall
    refine ⟨[inst], _, by simpa using h3, ⟨area, offset, rfl, ?_⟩, h4⟩
    intro i hi
    rw [h1] at hi
    rw [List.mem_singleton.1 hi]
    exact h2
  | VPM_SHARED_ACCESS =>
    rw [ht] at hcall
    simp only [decisionMatrix, MemoryMapper.call] at hcall
    obtain ⟨info, area, inst, offset, h1, h2, h3, h4⟩ :=
      lowerMemoryWriteToVPM_write_lowers _ _ _ _ _ _ hop hcall
    refine ⟨[inst], _, by simpa using h3, ⟨area, offset, rfl, ?_⟩, h4⟩
    intro i hi
    rw [h1] at hi
    rw [List.mem_singleton.1 hi]
    exact h2
  | RAM_LOAD_TMU =>
    rw [ht] at hcall
    simp only [decisionMatrix, MemoryMapper.call] at hcall
    exact absurd hcall (normalizerError_ne_ok _ _)
  | RAM_READ_WRITE_VPM =>
    rw [ht] at hcall
    simp only [decisionMatrix, MemoryMapper.call] at hcall
    exact ⟨[], _, by simp, rfl, accessMemoryInRAMViaVPM_write_lowers _ _ _ _ _ _ hop hcall⟩

end vc4c

namespace vc4c

theorem inVPM_iff (t : MemoryAccessType) :
    t.inVPM = true ↔ (t = .VPM_PER_QPU ∨ t = .VPM_SHARED_ACCESS) := by
  cases t <;> simp [MemoryAccessType.inVPM]

theorem inRAM_iff (t : MemoryAccessType) :
    t.inRAM = true ↔ (t = .RAM_LOAD_TMU ∨ t = .RAM_READ_WRITE_VPM) := by
  cases t <;> simp [MemoryAccessType.inRAM]

theorem not_inVPM_and_inRAM (t : MemoryAccessType) (h1 : t.inVPM = true) (h2 : t.inRAM = true) :
    False := by
  cases t <;> simp_all [MemoryAccessType.inVPM, MemoryAccessType.inRAM]

theorem ne_readOnly_of (t : MemoryAccessType) (h : t.inVPM = true ∨ t.inRAM = true) :
    t ≠ .QPU_REGISTER_READONLY := by
  cases t <;> simp_all [MemoryAccessType.inVPM, MemoryAccessType.inRAM]

theorem deref_ok {α : Type} (o : Option α) (x : α) (h : deref o = .ok x) : o = some x := by
  cases o with
  | none => cases h
  | some y => cases h; rfl

theorem mem_marked (c : Prop) [Decidable c] (info x : MemoryInfo) :
    x ∈ [info] ++ (if c then [info] else []) ↔ x ∈ [info] := by
  split_ifs <;> simp

/-- The read and the write a copy is split into, with the lock and the release of the mutex
around them. -/
theorem readThenWrite_lowers (env : Environment) (fuel : Nat) (mem : MemoryInstruction)
    (released : Bool) (si di : MemoryInfo) (count : Value) (type : DataType)
    (D r1 r2 : Lowering)
    (hsrc : si.type.inVPM = true ∨ si.type.inRAM = true)
    (h1 : emplaceAndMap (mapMemoryAccess env fuel)
      ((guardWith D mem.guardAccess true).addNewLocal type).2
      ⟨.READ, ((guardWith D mem.guardAccess true).addNewLocal type).1, mem.getSource, count,
        false⟩ [si] [di] = .ok r1)
    (h2 : resetAndMap (mapMemoryAccess env fuel) r1
      ⟨.WRITE, mem.getDestination, ((guardWith D mem.guardAccess true).addNewLocal type).1, count,
        false⟩ [si] [di] = .ok r2) :
    ∃ em, ReadThenWrite mem released [si] [di] si.type di.type count em
      ∧ Lowers D (guardWith r2 released false) em
          (if si.type.inRAM then [si] else []) (if di.type.inRAM then [di] else []) := by
  obtain ⟨pre1, x1, hp1, hx1, hl1⟩ := read_lowers env fuel _ _ [si] [di] r1 si [] rfl rfl
    (ne_readOnly_of _ hsrc) h1
  obtain ⟨pre2, x2, hp2, hx2, hl2⟩ := write_lowers env fuel _ _ [si] [di] r2 di [] rfl rfl h2
  refine ⟨_, ⟨_, pre1, x1, pre2, x2, hp1, hp2, hx1, hx2, rfl⟩, ?_⟩
  exact ((((Step.guardWith D mem.guardAccess true).trans (Step.addNewLocal _ type)).trans
    hl1.of_emplace).then_lowers hl2.of_reset |>.then_step
    (Step.guardWith r2 released false)).congr (by simp) (by simp) (by simp)

/-- The outcome of `mapMemoryCopy` for a single source in the VPM or in RAM and a single
destination: the sub-matrix of the copy. -/
theorem mapMemoryCopy_outcome (env : Environment) (fuel : Nat) (st : Lowering)
    (mem : MemoryInstruction) (r : Lowering) (si di : MemoryInfo)
    (hsrc : si.type.inVPM = true ∨ si.type.inRAM = true)
    (h : mapMemoryCopy env (mapMemoryAccess env fuel) st mem [si] [di] = .ok r) :
    ∃ count rowType em, convertedCount mem si di = .ok (count, rowType)
      ∧ CopyOutcome mem (env.guardAfterReset mem) si di count rowType em ∧ Lowers st r em [si] [di] := by
  unfold mapMemoryCopy at h
  simp only [assertSingleSource, assertSingleDestination, bind, Except.bind] at h
  cases hc1 : convertByteCount mem.getNumEntries none si mem.getSourceElementType
      "Byte-wise partial copy from VPM is yet implemented" with
  | error e => simp [hc1] at h
  | ok p1 =>
    obtain ⟨n1, t1⟩ := p1
    simp only [hc1] at h
    cases hc2 : convertByteCount n1 t1 di mem.getDestinationElementType
        "Byte-wise partial copy to VPM is yet implemented" with
    | error e => simp [hc2] at h
    | ok p2 =>
      obtain ⟨count, rowType⟩ := p2
      simp only [hc2] at h
      have hconv : convertedCount mem si di = .ok (count, rowType) := by
        simp [convertedCount, hc1, hc2, bind, Except.bind]
      simp only [← inVPM_iff, ← inRAM_iff, decide_eq_true_eq, Bool.decide_eq_true] at h
      have S0 := (Step.decorateInputs st [si]).trans (Step.decorateOutputs _ [di])
      split_ifs at h with b1 b2 b3 b4 b5 b6 b7
      · exact absurd h (normalizerError_ne_ok _ _)
      · -- VPM to VPM
        split at h
        · cases h
        · rename_i r1 hr1
          split at h
          · cases h
          · rename_i r2 hr2
            cases h
            obtain ⟨em, hem, hl⟩ := readThenWrite_lowers env fuel mem
              (env.guardAfterReset mem) si di count _ _ r1 r2 hsrc
              hr1 hr2
            refine ⟨count, rowType, em, hconv, Or.inl ⟨b1.1, b1.2, not_not.1 b2, hem⟩, ?_⟩
            exact (S0.then_lowers hl).congr (by simp) (mem_marked _ si) (mem_marked _ di)
      · -- VPM to RAM
        split at h
        · cases h
        · rename_i p hp
          obtain ⟨off, st1⟩ := p
          obtain ⟨inst, hi, hs1⟩ := insertToInVPMAreaOffset_step _ _ _ _ _ hp
          split at h
          · cases h
          · rename_i addr haddr
            cases h
            refine ⟨count, rowType, _, hconv, Or.inr (Or.inl ⟨b3.1, b3.2, inst, addr, off, hi,
              rfl⟩), ?_⟩
            exact (((S0.trans hs1).trans (Step.insert _ _)).erase).congr (by simp) (by simp)
              (by simp)
      · -- RAM to VPM
        split at h
        · cases h
        · rename_i p hp
          obtain ⟨off, st1⟩ := p
          obtain ⟨inst, hi, hs1⟩ := insertToInVPMAreaOffset_step _ _ _ _ _ hp
          split at h
          · cases h
          · rename_i addr haddr
            cases h
            refine ⟨count, rowType, _, hconv, Or.inr (Or.inr (Or.inl ⟨b4.1, b4.2, inst, addr, off,
              hi, rfl⟩)), ?_⟩
            exact (((S0.trans hs1).trans (Step.insert _ _)).erase).congr (by simp) (by simp)
              (by simp)
      · -- RAM to RAM, dynamic
        cases h
        refine ⟨count, rowType, _, hconv, Or.inr (Or.inr (Or.inr (Or.inl ⟨b5.1, b5.2,
          by simpa using b6, rfl⟩))), ?_⟩
        exact ((S0.trans (Step.insert _ _)).erase).congr (by simp) (by simp) (by simp)
      · -- RAM to RAM, static
        split at h
        · cases h
        · rename_i lit hlit
          split_ifs at h
          cases h
          refine ⟨count, rowType, [.copyRAM mem.getDestination mem.getSource
            (lit * (mem.getSourceElementType.getScalarBitCount
              * mem.getSourceElementType.getVectorWidth) % 2 ^ 32 / 8) mem.guardAccess], hconv,
            Or.inr (Or.inr (Or.inr (Or.inr (Or.inl ⟨b5.1, b5.2, by simpa using b6, _, rfl⟩)))),
            ?_⟩
          exact ((S0.trans (Step.insert _ _)).erase).congr (by simp) (by simp) (by simp)
      · -- into a register
        split at h
        · cases h
        · rename_i converted hconverted
          have hct := deref_ok _ _ hconverted
          split_ifs at h with w
          · split at h
            · cases h
            · rename_i mapped hmapped
              split at h
              · cases h
              · rename_i addr haddr
                obtain ⟨pre, x, hp, hx, hl⟩ := read_lowers env fuel _ _ [si] [di] r si [] rfl rfl
                  (ne_readOnly_of _ hsrc) h
                refine ⟨count, rowType, _, hconv, Or.inr (Or.inr (Or.inr (Or.inr (Or.inr (Or.inl
                  ⟨b7.1, converted, mapped, addr, pre, x, hct, deref_ok _ _ hmapped, w, hp, hx,
                    rfl⟩))))), ?_⟩
                exact (S0.then_lowers hl.of_reset).congr (by simp) (mem_marked _ si) (by simp)
          · split at h
            · exact absurd h (normalizerError_ne_ok _ _)
            · rename_i lit hlit
              split_ifs at h with hfit
              · split at h
                · cases h
                · rename_i numElements hnum
                  split_ifs at h with hinvalid
                  · exact absurd h (normalizerError_ne_ok _ _)
                  · split at h
                    · cases h
                    · rename_i r1 hr1
                      split at h
                      · cases h
                      · rename_i r2 hr2
                        cases h
                        obtain ⟨em, hem, hl⟩ := readThenWrite_lowers env fuel mem
                          (env.guardAfterReset mem) si di INT_ONE _ _
                          r1 r2 hsrc hr1 hr2
                        refine ⟨count, rowType, em, hconv, Or.inr (Or.inr (Or.inr (Or.inr (Or.inr
                          (Or.inr ⟨b7.1, converted, hct, by simpa using w, hem⟩))))), ?_⟩
                        exact (S0.then_lowers hl).congr (by simp) (mem_marked _ si)
                          (mem_marked _ di)
              · exact absurd h (normalizerError_ne_ok _ _)
      · exact absurd h (normalizerError_ne_ok _ _)

end vc4c

namespace vc4c

theorem IsReadOf.readProps {t : MemoryAccessType} {mem : MemoryInstruction} {s : List MemoryInfo}
    {x : Lowered} (h : IsReadOf t mem s x) :
    x.isMemory = false ∧ x.isMutex = false ∧ (x.useMutex = true → mem.guardAccess = true)
      ∧ x.isTransfer = true ∧ x.isOffset = false := by
  cases t <;> simp only [IsReadOf] at h
  · obtain ⟨reg, index, rfl, _⟩ := h
    simp [Lowered.isMemory, Lowered.isMutex, Lowered.useMutex, Lowered.isTransfer,
      Lowered.isAccess, Lowered.isOffset]
  · obtain ⟨area, offset, rfl, _⟩ := h
    simp [Lowered.isMemory, Lowered.isMutex, Lowered.useMutex, Lowered.isTransfer,
      Lowered.isAccess, Lowered.isOffset]
  · obtain ⟨area, offset, rfl, _⟩ := h
    simp [Lowered.isMemory, Lowered.isMutex, Lowered.useMutex, Lowered.isTransfer,
      Lowered.isAccess, Lowered.isOffset]
  · obtain ⟨tmu, rfl⟩ := h
    simp [Lowered.isMemory, Lowered.isMutex, Lowered.useMutex, Lowered.isTransfer,
      Lowered.isAccess, Lowered.isOffset]
  · subst h
    simp [Lowered.isMemory, Lowered.isMutex, Lowered.useMutex, Lowered.isTransfer,
      Lowered.isAccess, Lowered.isOffset]

theorem IsWriteOf.writeProps {t : MemoryAccessType} {mem : MemoryInstruction} {d : List MemoryInfo}
    {x : Lowered} (h : IsWriteOf t mem d x) :
    x.isMemory = false ∧ x.isMutex = false ∧ (x.useMutex = true → mem.guardAccess = true)
      ∧ x.isTransfer = true ∧ x.isOffset = false := by
  cases t <;> simp only [IsWriteOf] at h
  · obtain ⟨reg, index, rfl, _⟩ := h
    simp [Lowered.isMemory, Lowered.isMutex, Lowered.useMutex, Lowered.isTransfer,
      Lowered.isAccess, Lowered.isOffset]
  · obtain ⟨area, offset, rfl, _⟩ := h
    simp [Lowered.isMemory, Lowered.isMutex, Lowered.useMutex, Lowered.isTransfer,
      Lowered.isAccess, Lowered.isOffset]
  · obtain ⟨area, offset, rfl, _⟩ := h
    simp [Lowered.isMemory, Lowered.isMutex, Lowered.useMutex, Lowered.isTransfer,
      Lowered.isAccess, Lowered.isOffset]
  · subst h
    simp [Lowered.isMemory, Lowered.isMutex, Lowered.useMutex, Lowered.isTransfer,
      Lowered.isAccess, Lowered.isOffset]

/-- Between the lock and the release, a copy split into a read and a write has no mutex
instruction, no memory instruction and no guarded access. -/
theorem ReadThenWrite.bracket {mem : MemoryInstruction} {released : Bool}
    {s d : List MemoryInfo}
    {ts td : MemoryAccessType} {count : Value} {em : List Lowered}
    (h : ReadThenWrite mem released s d ts td count em) :
    ∃ mid, em = (if mem.guardAccess then [Lowered.mutexLock true] else []) ++ mid
        ++ (if released then [Lowered.mutexLock false] else [])
      ∧ ∀ x ∈ mid, x.isMutex = false ∧ x.isMemory = false ∧ x.useMutex = false := by
  obtain ⟨tmp, pre1, x1, pre2, x2, hp1, hp2, hx1, hx2, rfl⟩ := h
  refine ⟨_, rfl, ?_⟩
  intro x hx
  simp only [List.mem_append, List.mem_singleton] at hx
  rcases hx with (hx | hx) | hx | hx
  · exact ⟨(isOffset_plain _ (hp1 x hx)).2.1, (isOffset_plain _ (hp1 x hx)).2.2.1,
      (isOffset_plain _ (hp1 x hx)).2.2.2.1⟩
  · subst hx
    refine ⟨hx1.readProps.2.1, hx1.readProps.1, ?_⟩
    by_contra hc
    have := hx1.readProps.2.2.1 (by simpa using hc)
    cases this
  · exact ⟨(isOffset_plain _ (hp2 x hx)).2.1, (isOffset_plain _ (hp2 x hx)).2.2.1,
      (isOffset_plain _ (hp2 x hx)).2.2.2.1⟩
  · subst hx
    refine ⟨hx2.writeProps.2.1, hx2.writeProps.1, ?_⟩
    by_contra hc
    have := hx2.writeProps.2.2.1 (by simpa using hc)
    cases this

theorem ReadThenWrite.plain {mem : MemoryInstruction} {released : Bool}
    {s d : List MemoryInfo}
    {ts td : MemoryAccessType} {count : Value} {em : List Lowered}
    (h : ReadThenWrite mem released s d ts td count em) : ∀ x ∈ em, x.isMemory = false := by
  obtain ⟨mid, rfl, hmid⟩ := h.bracket
  intro x hx
  simp only [List.mem_append] at hx
  rcases hx with (hx | hx) | hx
  · split_ifs at hx
    · rw [List.mem_singleton.1 hx]; rfl
    · cases hx
  · exact (hmid x hx).2.1
  · split_ifs at hx
    · rw [List.mem_singleton.1 hx]; rfl
    · cases hx

theorem CopyOutcome.no_memory {mem : MemoryInstruction} {released : Bool} {si di : MemoryInfo}
    {count : Value} {rowType : Option DataType} {em : List Lowered}
    (h : CopyOutcome mem released si di count rowType em) :
    ∀ x ∈ em, x.isMemory = false := by
  rcases h with ⟨_, _, _, h⟩ | ⟨_, _, inst, addr, off, hi, rfl⟩ | ⟨_, _, inst, addr, off, hi, rfl⟩
    | ⟨_, _, _, rfl⟩ | ⟨_, _, _, n, rfl⟩ | ⟨_, c, m, a, pre, x, _, _, _, hp, hx, rfl⟩
    | ⟨_, c, _, _, h⟩
  · exact h.plain
  · intro x hx
    simp only [List.mem_cons, List.mem_singleton, List.not_mem_nil, or_false] at hx
    rcases hx with rfl | rfl
    · exact (isOffset_plain _ hi).2.2.1
    · rfl
  · intro x hx
    simp only [List.mem_cons, List.mem_singleton, List.not_mem_nil, or_false] at hx
    rcases hx with rfl | rfl
    · exact (isOffset_plain _ hi).2.2.1
    · rfl
  · intro x hx
    rw [List.mem_singleton.1 hx]; rfl
  · intro x hx
    rw [List.mem_singleton.1 hx]; rfl
  · intro y hy
    simp only [List.mem_append, List.mem_singleton] at hy
    rcases hy with hy | rfl
    · exact (isOffset_plain _ (hp y hy)).2.2.1
    · exact hx.readProps.1
  · exact h.plain

end vc4c

namespace vc4c

theorem lowerMemoryReadOnlyToRegister_copy (env : Environment) (recurse : Recurse)
    (st : Lowering) (mem : MemoryInstruction) (srcInfos destInfos : List MemoryInfo)
    (r : Lowering) (hop : mem.op = .COPY)
    (h : lowerMemoryReadOnlyToRegister env recurse st mem srcInfos destInfos = .ok r) :
    ∃ X em W, Step st X em [] []
      ∧ (∀ x ∈ em, x.isMemory = false ∧ x.isMutex = false ∧ x.isAccess = false)
      ∧ W.op = .WRITE ∧ recurse (X.reset (.memory W)) W srcInfos destInfos = .ok r := by
  unfold lowerMemoryReadOnlyToRegister at h
  cases h1 : assertSingleSource srcInfos with
  | error e => simp [h1, bind, Except.bind] at h
  | ok srcInfo =>
    simp only [h1, bind, Except.bind, hop] at h
    cases h2 : deref srcInfo.mappedRegisterOrConstant with
    | error e => simp [h2] at h
    | ok mapped =>
      simp only [h2, ne_eq, not_true_eq_false, reduceCtorEq, not_false_eq_true, and_true,
        false_and, and_false, if_false, true_and, insertComputed, pure, Except.pure] at h
      have hplain : ∀ (a b : Lowered), a.isOffset = true
          → (∃ c i d, b = Lowered.vectorExtraction c i d)
          → ∀ x ∈ [a, b], x.isMemory = false ∧ x.isMutex = false ∧ x.isAccess = false := by
        intro a b ha hb x hx
        simp only [List.mem_cons, List.mem_singleton, List.not_mem_nil, or_false] at hx
        rcases hx with rfl | rfl
        · exact ⟨(isOffset_plain _ ha).2.2.1, (isOffset_plain _ ha).2.1, (isOffset_plain _ ha).1⟩
        · obtain ⟨c, i, d, rfl⟩ := hb
          exact ⟨rfl, rfl, rfl⟩
      have hplain1 : ∀ (a : Lowered), a.isOffset = true
          → ∀ x ∈ [a], x.isMemory = false ∧ x.isMutex = false ∧ x.isAccess = false := by
        intro a ha x hx
        rw [List.mem_singleton.1 hx]
        exact ⟨(isOffset_plain _ ha).2.2.1, (isOffset_plain _ ha).2.1, (isOffset_plain _ ha).1⟩
      have hA : ∃ em, Step st ((st.addNewLocal DataType.TYPE_INT8).2.insert
          (.addressToElementOffset (st.addNewLocal DataType.TYPE_INT8).1 srcInfo.loc
            mapped mem.getSource)) em [] []
          ∧ ∀ x ∈ em, x.isMemory = false ∧ x.isMutex = false ∧ x.isAccess = false :=
        ⟨_, (Step.addNewLocal st DataType.TYPE_INT8).trans (Step.insert _ _), hplain1 _ rfl⟩
      have hB : ∀ t : DataType, ∃ em, Step st
          ((((st.addNewLocal DataType.TYPE_INT8).2.insert
            (.addressToElementOffset (st.addNewLocal DataType.TYPE_INT8).1 srcInfo.loc
              mapped mem.getSource)).addNewLocal t).2.insert
            (.vectorExtraction mapped (st.addNewLocal DataType.TYPE_INT8).1
              (((st.addNewLocal DataType.TYPE_INT8).2.insert
                (.addressToElementOffset (st.addNewLocal DataType.TYPE_INT8).1 srcInfo.loc
                  mapped mem.getSource)).addNewLocal t).1)) em [] []
          ∧ ∀ x ∈ em, x.isMemory = false ∧ x.isMutex = false ∧ x.isAccess = false :=
        fun t => ⟨_, ((Step.addNewLocal st DataType.TYPE_INT8).trans (Step.insert _ _)).trans
          ((Step.addNewLocal _ t).trans (Step.insert _ _)), hplain _ _ rfl ⟨_, _, _, rfl⟩⟩
      obtain ⟨emA, hstepA, hpA⟩ := hA
      have key : ∀ (X : Lowering) (em : List Lowered) (v : Value), Step st X em [] []
          → (∀ x ∈ em, x.isMemory = false ∧ x.isMutex = false ∧ x.isAccess = false)
          → resetAndMap recurse X (MemoryInstruction.create .WRITE mem.getDestination v) srcInfos
              destInfos = .ok r
          → ∃ X em W, Step st X em [] []
            ∧ (∀ x ∈ em, x.isMemory = false ∧ x.isMutex = false ∧ x.isAccess = false)
            ∧ W.op = .WRITE ∧ recurse (X.reset (.memory W)) W srcInfos destInfos = .ok r :=
        fun X em v hs hp hr => ⟨X, em, _, hs, hp, rfl, hr⟩
      cases hct : srcInfo.convertedRegisterType with
      | none =>
        obtain ⟨emB, hstepB, hpB⟩ := hB mapped.type.getElementType
        simp only [hct, Bool.false_eq_true, if_false, if_true, true_and, Option.isSome_none] at h
        split_ifs at h
        all_goals first
          | exact absurd h (normalizerError_ne_ok _ _)
          | exact key _ _ _ hstepB hpB h
          | (split at h <;> first
              | exact absurd h (normalizerError_ne_ok _ _)
              | exact key _ _ _ hstepB hpB h)
      | some t =>
        obtain ⟨emB, hstepB, hpB⟩ := hB t
        cases hw : copiesWholeRegister mem.getNumEntries mem.getDestinationElementType t with
        | false =>
          simp only [hct, hw, Bool.false_eq_true, if_false, if_true, true_and,
            Option.isSome_some] at h
          split_ifs at h
          all_goals first
            | exact absurd h (normalizerError_ne_ok _ _)
            | exact key _ _ _ hstepB hpB h
        | true =>
          simp only [hct, hw, if_true, true_and, reduceCtorEq, false_and, if_false,
            Option.isSome_some] at h
          split_ifs at h
          all_goals first
            | exact absurd h (normalizerError_ne_ok _ _)
            | exact key _ _ _ hstepA hpA h

end vc4c

namespace vc4c

/-- The checks of `lowerMemoryCopyToRegister` before it looks at the number of entries. -/
theorem lowerMemoryCopyToRegister_checked (recurse : Recurse) (st : Lowering)
    (mem : MemoryInstruction) (si di : MemoryInfo) (converted : DataType) (reg : Value)
    (hloc : si.loc ≠ di.loc) (hop : mem.op = .COPY) (hdt : di.type ≠ .QPU_REGISTER_READONLY)
    (hct : si.convertedRegisterType = some converted)
    (hreg : si.mappedRegisterOrConstant = some reg) :
    lowerMemoryCopyToRegister recurse st mem [si] [di]
      = if copiesWholeRegister mem.getNumEntries mem.getDestinationElementType converted
            = true then
          resetAndMap recurse st ⟨.WRITE, mem.getDestination, reg, INT_ONE, true⟩ [si] [di]
        else if mem.getNumEntries ≠ INT_ONE then
          match mem.getNumEntries.getLiteralValue with
          | some lit =>
            (divide reg.type.getElementType.getScalarBitCount
              mem.getSourceElementType.getScalarBitCount).bind fun typeFactor =>
            (modulo lit typeFactor).bind fun remainder =>
            if remainder ≠ 0 then
              normalizerError
                "Copied number of bytes is not a multiple of the actual register type"
            else if lit / typeFactor = 0 ∨ lit / typeFactor > NATIVE_VECTOR_SIZE then
              normalizerError "Invalid copied number of elements"
            else
              normalizerError
                "Lowering copy with a dynamic number of entries is not yet implemented"
          | none =>
            normalizerError "Lowering copy with a dynamic number of entries is not yet implemented"
        else
          resetAndMap recurse
            ((st.addNewLocal mem.getSourceElementType).2.insert
              (.vectorExtraction reg UNDEFINED_VALUE (st.addNewLocal mem.getSourceElementType).1))
            ⟨.WRITE, mem.getDestination, (st.addNewLocal mem.getSourceElementType).1, INT_ONE,
              true⟩ [si] [di] := by
  unfold lowerMemoryCopyToRegister
  simp only [assertSingleSource, assertSingleDestination, bind, Except.bind, hloc, if_false, hop,
    ne_eq, not_true_eq_false, hdt, hct, deref, hreg]

/-- A copy out of register-lowered memory that is lowered: instructions are inserted, the copy
is replaced by a write and the write is mapped. -/
theorem lowerMemoryCopyToRegister_ok (recurse : Recurse) (st : Lowering)
    (mem : MemoryInstruction) (srcInfos destInfos : List MemoryInfo) (r : Lowering)
    (h : lowerMemoryCopyToRegister recurse st mem srcInfos destInfos = .ok r) :
    ∃ X em W, Step st X em [] []
      ∧ (∀ x ∈ em, x.isMemory = false ∧ x.isMutex = false ∧ x.isAccess = false)
      ∧ W.op = .WRITE ∧ recurse (X.reset (.memory W)) W srcInfos destInfos = .ok r := by
  unfold lowerMemoryCopyToRegister at h
  cases h1 : assertSingleSource srcInfos with
  | error e => simp [h1, bind, Except.bind] at h
  | ok si =>
    cases h2 : assertSingleDestination destInfos with
    | error e => simp [h1, h2, bind, Except.bind] at h
    | ok di =>
      simp only [h1, h2, bind, Except.bind] at h
      repeat' first
        | exact absurd h (normalizerError_ne_ok _ _)
        | cases h
        | exact ⟨st, [], _, Step.refl st, by simp, rfl, h⟩
        | exact ⟨_, _, _, (Step.addNewLocal st _).trans (Step.insert _ _),
            (by intro x hx; simp at hx; subst hx; exact ⟨rfl, rfl, rfl⟩), rfl, h⟩
        | split at h

end vc4c

namespace vc4c

theorem Lowering.reset_after_congr (a b : Lowering) (i : Lowered) (h : a.after = b.after) :
    (a.reset i).after = (b.reset i).after := by
  unfold Lowering.reset
  rw [h]
  cases b.after <;> simp [h]

theorem mapMemoryCopy_single (env : Environment) (recurse : Recurse) (st : Lowering)
    (mem : MemoryInstruction)
    (srcInfos destInfos : List MemoryInfo) (r : Lowering)
    (h : mapMemoryCopy env recurse st mem srcInfos destInfos = .ok r) :
    ∃ si di, srcInfos = [si] ∧ destInfos = [di] := by
  unfold mapMemoryCopy at h
  cases h1 : assertSingleSource srcInfos with
  | error e => simp [h1, bind, Except.bind] at h
  | ok si =>
    cases h2 : assertSingleDestination destInfos with
    | error e => simp [h1, h2, bind, Except.bind] at h
    | ok di => exact ⟨si, di, assertSingleSource_ok _ _ h1, assertSingleDestination_ok _ _ h2⟩

end vc4c

namespace vc4c

theorem Lowers.outcome {st r : Lowering} {mem : MemoryInstruction} {s d : List MemoryInfo}
    {em : List Lowered} {ins outs : List MemoryInfo} (h : Lowers st r em ins outs)
    (hp : ∀ x ∈ em, x.isMemory = false)
    (hi : ins = [] ∨ (ins = s ∧ mem.op.readsMemory = true))
    (ho : outs = [] ∨ (outs = d ∧ mem.op.writesMemory = true)) :
    Outcome st r mem s d em ins outs :=
  ⟨h.before, hp, h.decorations, hi, ho, Or.inl h.after⟩

theorem marked_if (c : Bool) (l s : List MemoryInfo) (p : Prop) (hp : p)
    (h : l = if c = true then s else []) : l = [] ∨ (l = s ∧ p) := by
  cases c
  · exact Or.inl (by simpa using h)
  · exact Or.inr ⟨by simpa using h, hp⟩

theorem offsets_and_one_plain (pre : List Lowered) (x : Lowered)
    (hpre : ∀ p ∈ pre, p.isOffset = true) (hx : x.isMemory = false) :
    ∀ y ∈ pre ++ [x], y.isMemory = false := by
  intro y hy
  simp only [List.mem_append, List.mem_singleton] at hy
  rcases hy with hy | rfl
  · exact (isOffset_plain _ (hpre y hy)).2.2.1
  · exact hx

/-- The outcome of a write, for any destination candidates. -/
theorem write_outcome (env : Environment) (fuel : Nat) (st : Lowering) (mem : MemoryInstruction)
    (srcInfos destInfos : List MemoryInfo) (r : Lowering) (hop : mem.op = .WRITE)
    (h : mapMemoryAccess env fuel st mem srcInfos destInfos = .ok r) :
    ∃ em outs, Lowers st r em [] outs ∧ (∀ x ∈ em, x.isMemory = false)
      ∧ (outs = [] ∨ outs = destInfos) := by
  obtain ⟨fuel1, first, rest, _, hsel, _, _⟩ := mapMemoryAccess_ok _ _ _ _ _ _ _ h
  rw [selectingInfos_writes mem srcInfos destInfos (by rw [hop]; rfl)] at hsel
  obtain ⟨pre, x, hp, hx, hl⟩ := write_lowers env fuel st mem srcInfos destInfos r first rest hop
    hsel h
  refine ⟨_, _, hl, offsets_and_one_plain pre x hp hx.writeProps.1, ?_⟩
  split_ifs
  · exact Or.inr rfl
  · exact Or.inl rfl

/-- A copy that is replaced by a write which is then mapped. -/
theorem copy_by_write_outcome (env : Environment) (fuel : Nat) (st : Lowering)
    (mem : MemoryInstruction) (srcInfos destInfos : List MemoryInfo) (r : Lowering)
    (hop : mem.op = .COPY)
    (h : ∃ X em W, Step st X em [] []
      ∧ (∀ x ∈ em, x.isMemory = false ∧ x.isMutex = false ∧ x.isAccess = false)
      ∧ W.op = .WRITE
      ∧ mapMemoryAccess env fuel (X.reset (.memory W)) W srcInfos destInfos = .ok r) :
    ∃ em ins outs, Outcome st r mem srcInfos destInfos em ins outs := by
  obtain ⟨X, em, W, hs, hp, hw, hr⟩ := h
  obtain ⟨em2, outs, hl, hp2, ho⟩ := write_outcome env fuel _ W srcInfos destInfos r hw hr
  refine ⟨em ++ em2, [] ++ [], [] ++ outs, (hs.then_lowers hl.of_reset).outcome ?_ (Or.inl rfl) ?_⟩
  · intro x hx
    rcases List.mem_append.1 hx with hx | hx
    · exact (hp x hx).1
    · exact hp2 x hx
  · rcases ho with ho | ho
    · exact Or.inl (by simp [ho])
    · exact Or.inr ⟨by simp [ho], by rw [hop]; rfl⟩

end vc4c

namespace vc4c

theorem bracket_plain (g : Bool) (pre mid : List Lowered)
    (hpre : ∀ x ∈ pre, x.isAccess = false ∧ x.isMutex = false ∧ x.isMemory = false)
    (hmid : ∀ x ∈ mid, x.isMutex = false ∧ x.isMemory = false ∧ x.useMutex = false) :
    ∀ x ∈ pre ++ (if g then [Lowered.mutexLock true] else []) ++ mid
        ++ (if g then [Lowered.mutexLock false] else []), x.isMemory = false := by
  intro x hx
  simp only [List.mem_append] at hx
  rcases hx with ((hx | hx) | hx) | hx
  · exact (hpre x hx).2.2
  · split_ifs at hx
    · rw [List.mem_singleton.1 hx]; rfl
    · cases hx
  · exact (hmid x hx).2.1
  · split_ifs at hx
    · rw [List.mem_singleton.1 hx]; rfl
    · cases hx

/-- The outcome of every successful call of `mapMemoryAccess`. -/
theorem mapMemoryAccess_outcome (env : Environment) (fuel : Nat) (st : Lowering)
    (mem : MemoryInstruction) (srcInfos destInfos : List MemoryInfo) (r : Lowering)
    (h : mapMemoryAccess env fuel st mem srcInfos destInfos = .ok r) :
    ∃ em ins outs, Outcome st r mem srcInfos destInfos em ins outs := by
  obtain ⟨fuel1, first, rest, hfuel, hsel, hu, hcall⟩ := mapMemoryAccess_ok _ _ _ _ _ _ _ h
  cases hop : mem.op with
  | READ =>
    rw [selectingInfos_reads mem srcInfos destInfos (by rw [hop]; rfl)] at hsel
    by_cases hro : first.type = .QPU_REGISTER_READONLY
    · rw [hro, hop] at hcall
      simp only [decisionMatrix, MemoryMapper.call] at hcall
      obtain ⟨X, inst, ext, v, hs, hi, ⟨c, i, dd, rfl⟩, rfl⟩ :=
        lowerMemoryReadOnlyToRegister_read _ _ _ _ _ _ _ hop hcall
      refine ⟨_, [], [], hs.before.of_before (by simp), ?_, hs.decorations.to_eq (by simp),
        Or.inl rfl, Or.inl rfl, Or.inr ⟨hop, v, Lowering.reset_after_congr _ _ _ hs.after⟩⟩
      intro x hx
      simp only [List.mem_cons, List.mem_singleton, List.not_mem_nil, or_false] at hx
      rcases hx with rfl | rfl
      · exact (isOffset_plain _ hi).2.2.1
      · rfl
    · obtain ⟨pre, x, hp, hx, hl⟩ := read_lowers env fuel st mem srcInfos destInfos r first rest
        hop hsel hro h
      refine ⟨_, _, _, hl.outcome (offsets_and_one_plain pre x hp hx.readProps.1) ?_ (Or.inl rfl)⟩
      split_ifs
      · exact Or.inr ⟨rfl, by rw [hop]; rfl⟩
      · exact Or.inl rfl
  | WRITE =>
    obtain ⟨em, outs, hl, hp, ho⟩ := write_outcome env fuel st mem srcInfos destInfos r hop h
    refine ⟨em, [], outs, hl.outcome hp (Or.inl rfl) ?_⟩
    rcases ho with ho | ho
    · exact Or.inl ho
    · exact Or.inr ⟨ho, by rw [hop]; rfl⟩
  | FILL =>
    rw [hop] at hcall
    cases ht : first.type with
    | QPU_REGISTER_READONLY =>
      rw [ht] at hcall
      exact absurd hcall (normalizerError_ne_ok _ _)
    | QPU_REGISTER_READWRITE =>
      rw [ht] at hcall
      simp only [decisionMatrix, MemoryMapper.call] at hcall
      obtain ⟨info, reg, _, _, _, hl⟩ := lowerMemoryReadWriteToRegister_fill_lowers _ _ _ _ _ hop
        hcall
      exact ⟨_, _, _, hl.outcome (by intro x hx; rw [List.mem_singleton.1 hx]; rfl) (Or.inl rfl)
        (Or.inl rfl)⟩
    | VPM_PER_QPU =>
      rw [ht] at hcall
      simp only [decisionMatrix, MemoryMapper.call] at hcall
      obtain ⟨_, _, _, pre, mid, _, _, _, _, _, hl, hpre, hmid, _, _⟩ :=
        lowerMemoryWriteToVPM_fill_lowers _ _ _ _ _ _ hop hcall
      exact ⟨_, _, _, hl.outcome (bracket_plain _ pre mid hpre hmid) (Or.inl rfl) (Or.inl rfl)⟩
    | VPM_SHARED_ACCESS =>
      rw [ht] at hcall
      simp only [decisionMatrix, MemoryMapper.call] at hcall
      obtain ⟨_, _, _, pre, mid, _, _, _, _, _, hl, hpre, hmid, _, _⟩ :=
        lowerMemoryWriteToVPM_fill_lowers _ _ _ _ _ _ hop hcall
      exact ⟨_, _, _, hl.outcome (bracket_plain _ pre mid hpre hmid) (Or.inl rfl) (Or.inl rfl)⟩
    | RAM_LOAD_TMU =>
      rw [ht] at hcall
      exact absurd hcall (normalizerError_ne_ok _ _)
    | RAM_READ_WRITE_VPM =>
      rw [ht] at hcall
      simp only [decisionMatrix, MemoryMapper.call] at hcall
      obtain ⟨r2, mid, hr2, hl, hmid⟩ :=
        accessMemoryInRAMViaVPM_fill_lowers env st mem srcInfos destInfos hop
      rw [hr2] at hcall
      cases hcall
      refine ⟨_, _, _, hl.outcome ?_ (Or.inl rfl) (Or.inr ⟨rfl, by rw [hop]; rfl⟩)⟩
      have := bracket_plain mem.guardAccess [] mid (by simp) hmid
      simpa using this
  | COPY =>
    rw [hop] at hcall
    have hsrc := hsel
    rw [selectingInfos_reads mem srcInfos destInfos (by rw [hop]; rfl)] at hsrc
    have hmap : mapMemoryCopy env (mapMemoryAccess env fuel1) st mem srcInfos destInfos = .ok r
        → (first.type.inVPM = true ∨ first.type.inRAM = true)
        → ∃ em ins outs, Outcome st r mem srcInfos destInfos em ins outs := by
      intro hm ht
      obtain ⟨si, di, hs, hd⟩ := mapMemoryCopy_single _ _ _ _ _ _ _ hm
      have hsi : si = first := by
        rw [hs] at hsrc
        exact (List.cons.inj hsrc).1
      subst hsi
      rw [hs, hd] at hm
      obtain ⟨count, rowType, em, _, hout, hl⟩ := mapMemoryCopy_outcome env fuel1 st mem r si di
        ht hm
      rw [hs, hd]
      exact ⟨em, [si], [di], hl.outcome hout.no_memory (Or.inr ⟨rfl, by rw [hop]; rfl⟩)
        (Or.inr ⟨rfl, by rw [hop]; rfl⟩)⟩
    cases ht : first.type with
    | QPU_REGISTER_READONLY =>
      rw [ht] at hcall
      simp only [decisionMatrix, MemoryMapper.call] at hcall
      exact copy_by_write_outcome env fuel1 st mem srcInfos destInfos r hop
        (lowerMemoryReadOnlyToRegister_copy _ _ _ _ _ _ _ hop hcall)
    | QPU_REGISTER_READWRITE =>
      rw [ht] at hcall
      simp only [decisionMatrix, MemoryMapper.call] at hcall
      exact copy_by_write_outcome env fuel1 st mem srcInfos destInfos r hop
        (lowerMemoryCopyToRegister_ok _ _ _ _ _ _ hcall)
    | VPM_PER_QPU =>
      rw [ht] at hcall hmap
      exact hmap hcall (Or.inl rfl)
    | VPM_SHARED_ACCESS =>
      rw [ht] at hcall hmap
      exact hmap hcall (Or.inl rfl)
    | RAM_LOAD_TMU =>
      rw [ht] at hcall hmap
      exact hmap hcall (Or.inr rfl)
    | RAM_READ_WRITE_VPM =>
      rw [ht] at hcall hmap
      exact hmap hcall (Or.inr rfl)

end vc4c

namespace vc4c

theorem Fueled.ne {α : Type} {x : Except Failure α} (h : Fueled x) : x ≠ .error .outOfFuel := by
  cases h <;> intro hx <;> cases hx

theorem Fueled.bind {α β : Type} {x : Except Failure α} {f : α → Except Failure β}
    (hx : Fueled x) (hf : ∀ v, Fueled (f v)) : Fueled (x >>= f) := by
  cases hx with
  | ok v => exact hf v
  | error step message => exact Fueled.error step message

theorem Fueled.map {α β : Type} {x : Except Failure α} {f : α → β}
    (hx : Fueled x) : Fueled (f <$> x) := by
  cases hx with
  | ok v => exact Fueled.ok _
  | error step message => exact Fueled.error step message

theorem normalizerError_fueled {α : Type} (message : String) :
    Fueled (normalizerError message : Except Failure α) :=
  Fueled.error _ _

theorem assertSingleSource_fueled (infos : List MemoryInfo) :
    Fueled (assertSingleSource infos) := by
  unfold assertSingleSource
  repeat' first
    | exact Fueled.ok _
    | exact Fueled.error _ _
    | split

theorem assertSingleDestination_fueled (infos : List MemoryInfo) :
    Fueled (assertSingleDestination infos) := by
  unfold assertSingleDestination
  repeat' first
    | exact Fueled.ok _
    | exact Fueled.error _ _
    | split

theorem deref_fueled {α : Type} (x : Option α) : Fueled (deref x) := by
  cases x
  · exact Fueled.error _ _
  · exact Fueled.ok _

theorem divide_fueled (a b : Nat) : Fueled (divide a b) := by
  unfold divide
  split
  · exact Fueled.error _ _
  · exact Fueled.ok _

theorem modulo_fueled (a b : Nat) : Fueled (modulo a b) := by
  unfold modulo
  split
  · exact Fueled.error _ _
  · exact Fueled.ok _

theorem localWithType_fueled (v : Value) (type : DataType) : Fueled (localWithType v type) := by
  unfold localWithType
  split
  · exact Fueled.ok _
  · exact Fueled.error _ _

theorem checkVPMLocation_fueled (info : MemoryInfo) : Fueled (checkVPMLocation info) := by
  unfold checkVPMLocation
  repeat' first
    | exact Fueled.ok _
    | exact Fueled.error _ _
    | split

theorem insertToInVPMAreaOffset_fueled (st : Lowering) (info : MemoryInfo) (ptrValue : Value) :
    Fueled (insertToInVPMAreaOffset st info ptrValue) := by
  unfold insertToInVPMAreaOffset
  repeat' first
    | exact Fueled.ok _
    | exact Fueled.error _ _
    | split

theorem convertByteCount_fueled (numEntries : Value) (rowType : Option DataType)
    (info : MemoryInfo) (elementType : DataType) (message : String) :
    Fueled (convertByteCount numEntries rowType info elementType message) := by
  unfold convertByteCount
  repeat' first
    | exact Fueled.ok _
    | exact Fueled.error _ _
    | split
    | dsimp only

/-- The recursive calls made through `resetAndMap` are within the bound if those for reads and
writes are. -/
theorem resetAndMap_fueled (recurse : Recurse) (srcInfos destInfos : List MemoryInfo)
    (h : ∀ st m, m.op = .READ ∨ m.op = .WRITE → Fueled (recurse st m srcInfos destInfos))
    (st : Lowering) (mem : MemoryInstruction) (hop : mem.op = .READ ∨ mem.op = .WRITE) :
    Fueled (resetAndMap recurse st mem srcInfos destInfos) :=
  h _ _ hop

theorem emplaceAndMap_fueled (recurse : Recurse) (srcInfos destInfos : List MemoryInfo)
    (h : ∀ st m, m.op = .READ ∨ m.op = .WRITE → Fueled (recurse st m srcInfos destInfos))
    (st : Lowering) (mem : MemoryInstruction) (hop : mem.op = .READ ∨ mem.op = .WRITE) :
    Fueled (emplaceAndMap recurse st mem srcInfos destInfos) :=
  h _ _ hop

theorem lowerMemoryReadOnlyToRegister_fueled (env : Environment) (recurse : Recurse)
    (st : Lowering) (mem : MemoryInstruction) (srcInfos destInfos : List MemoryInfo)
    (h : ∀ st m, m.op = .READ ∨ m.op = .WRITE → Fueled (recurse st m srcInfos destInfos)) :
    Fueled (lowerMemoryReadOnlyToRegister env recurse st mem srcInfos destInfos) := by
  unfold lowerMemoryReadOnlyToRegister
  repeat' first
    | exact Fueled.ok _
    | exact Fueled.error _ _
    | exact assertSingleSource_fueled _
    | exact deref_fueled _
    | exact resetAndMap_fueled recurse srcInfos destInfos h _ _ (Or.inr rfl)
    | apply Fueled.bind
    | intro _
    | split
    | dsimp only

theorem lowerMemoryReadWriteToRegister_fueled (st : Lowering) (mem : MemoryInstruction)
    (srcInfos destInfos : List MemoryInfo) :
    Fueled (lowerMemoryReadWriteToRegister st mem srcInfos destInfos) := by
  unfold lowerMemoryReadWriteToRegister
  repeat' first
    | exact Fueled.ok _
    | exact Fueled.error _ _
    | exact assertSingleSource_fueled _
    | exact assertSingleDestination_fueled _
    | apply Fueled.bind
    | intro _
    | split
    | dsimp only

theorem lowerMemoryCopyToRegister_fueled (recurse : Recurse)
    (st : Lowering) (mem : MemoryInstruction) (srcInfos destInfos : List MemoryInfo)
    (h : ∀ st m, m.op = .READ ∨ m.op = .WRITE → Fueled (recurse st m srcInfos destInfos)) :
    Fueled (lowerMemoryCopyToRegister recurse st mem srcInfos destInfos) := by
  unfold lowerMemoryCopyToRegister
  repeat' first
    | exact Fueled.ok _
    | exact Fueled.error _ _
    | exact assertSingleSource_fueled _
    | exact assertSingleDestination_fueled _
    | exact deref_fueled _
    | exact divide_fueled _ _
    | exact modulo_fueled _ _
    | exact resetAndMap_fueled recurse srcInfos destInfos h _ _ (Or.inr rfl)
    | apply Fueled.bind
    | intro _
    | split
    | dsimp only

theorem lowerMemoryReadToVPM_fueled (st : Lowering) (mem : MemoryInstruction)
    (srcInfos destInfos : List MemoryInfo) :
    Fueled (lowerMemoryReadToVPM st mem srcInfos destInfos) := by
  unfold lowerMemoryReadToVPM
  repeat' first
    | exact Fueled.ok _
    | exact Fueled.error _ _
    | exact assertSingleSource_fueled _
    | exact checkVPMLocation_fueled _
    | exact insertToInVPMAreaOffset_fueled _ _ _
    | apply Fueled.bind
    | intro _
    | split

theorem lowerMemoryWriteToVPM_fueled (env : Environment) (st : Lowering)
    (mem : MemoryInstruction) (srcInfos destInfos : List MemoryInfo) :
    Fueled (lowerMemoryWriteToVPM env st mem srcInfos destInfos) := by
  unfold lowerMemoryWriteToVPM
  repeat' first
    | exact Fueled.ok _
    | exact Fueled.error _ _
    | exact assertSingleDestination_fueled _
    | exact checkVPMLocation_fueled _
    | exact insertToInVPMAreaOffset_fueled _ _ _
    | apply Fueled.bind
    | intro _
    | split

theorem loadMemoryViaTMU_fueled (st : Lowering) (mem : MemoryInstruction)
    (srcInfos destInfos : List MemoryInfo) :
    Fueled (loadMemoryViaTMU st mem srcInfos destInfos) := by
  unfold loadMemoryViaTMU
  repeat' first
    | exact Fueled.ok _
    | exact Fueled.error _ _
    | split

theorem accessMemoryInRAMViaVPM_fueled (env : Environment) (st : Lowering)
    (mem : MemoryInstruction) (srcInfos destInfos : List MemoryInfo) :
    Fueled (accessMemoryInRAMViaVPM env st mem srcInfos destInfos) := by
  unfold accessMemoryInRAMViaVPM
  repeat' first
    | exact Fueled.ok _
    | exact Fueled.error _ _
    | split

theorem mapMemoryCopy_fueled (env : Environment) (recurse : Recurse)
    (st : Lowering) (mem : MemoryInstruction) (srcInfos destInfos : List MemoryInfo)
    (h : ∀ st m, m.op = .READ ∨ m.op = .WRITE → Fueled (recurse st m srcInfos destInfos)) :
    Fueled (mapMemoryCopy env recurse st mem srcInfos destInfos) := by
  unfold mapMemoryCopy
  repeat' first
    | exact Fueled.ok _
    | exact Fueled.error _ _
    | exact assertSingleSource_fueled _
    | exact assertSingleDestination_fueled _
    | exact deref_fueled _
    | exact divide_fueled _ _
    | exact localWithType_fueled _ _
    | exact convertByteCount_fueled _ _ _ _ _
    | exact insertToInVPMAreaOffset_fueled _ _ _
    | exact resetAndMap_fueled recurse srcInfos destInfos h _ _ (Or.inr rfl)
    | exact resetAndMap_fueled recurse srcInfos destInfos h _ _ (Or.inl rfl)
    | exact emplaceAndMap_fueled recurse srcInfos destInfos h _ _ (Or.inl rfl)
    | apply Fueled.bind
    | apply Fueled.map
    | intro _
    | split
    | dsimp only

/-- Every mapper stays within the recursion bound if its recursive calls for reads and writes
do. -/
theorem MemoryMapper.call_fueled (mapper : MemoryMapper) (env : Environment)
    (recurse : Recurse) (st : Lowering) (mem : MemoryInstruction)
    (srcInfos destInfos : List MemoryInfo)
    (h : ∀ st m, m.op = .READ ∨ m.op = .WRITE → Fueled (recurse st m srcInfos destInfos)) :
    Fueled (mapper.call env recurse st mem srcInfos destInfos) := by
  cases mapper
  · exact Fueled.error _ _
  · exact lowerMemoryReadOnlyToRegister_fueled env recurse st mem srcInfos destInfos h
  · exact lowerMemoryReadWriteToRegister_fueled st mem srcInfos destInfos
  · exact lowerMemoryCopyToRegister_fueled recurse st mem srcInfos destInfos h
  · exact lowerMemoryReadToVPM_fueled st mem srcInfos destInfos
  · exact lowerMemoryWriteToVPM_fueled env st mem srcInfos destInfos
  · exact loadMemoryViaTMU_fueled st mem srcInfos destInfos
  · exact accessMemoryInRAMViaVPM_fueled env st mem srcInfos destInfos
  · exact mapMemoryCopy_fueled env recurse st mem srcInfos destInfos h

theorem resetAndMap_congr (rec1 rec2 : Recurse) (srcInfos destInfos : List MemoryInfo)
    (h : ∀ st m, m.op = .READ ∨ m.op = .WRITE →
      rec1 st m srcInfos destInfos = rec2 st m srcInfos destInfos)
    (st : Lowering) (mem : MemoryInstruction) (hop : mem.op = .READ ∨ mem.op = .WRITE) :
    resetAndMap rec1 st mem srcInfos destInfos = resetAndMap rec2 st mem srcInfos destInfos :=
  h _ _ hop

theorem emplaceAndMap_congr (rec1 rec2 : Recurse) (srcInfos destInfos : List MemoryInfo)
    (h : ∀ st m, m.op = .READ ∨ m.op = .WRITE →
      rec1 st m srcInfos destInfos = rec2 st m srcInfos destInfos)
    (st : Lowering) (mem : MemoryInstruction) (hop : mem.op = .READ ∨ mem.op = .WRITE) :
    emplaceAndMap rec1 st mem srcInfos destInfos = emplaceAndMap rec2 st mem srcInfos destInfos :=
  h _ _ hop

/-- A mapper calls `mapMemoryAccess` for reads and writes only: two functions in the place of
the recursive call that agree on reads and writes give the same result. -/
theorem MemoryMapper.call_congr (mapper : MemoryMapper) (env : Environment)
    (rec1 rec2 : Recurse) (st : Lowering) (mem : MemoryInstruction)
    (srcInfos destInfos : List MemoryInfo)
    (h : ∀ st m, m.op = .READ ∨ m.op = .WRITE →
      rec1 st m srcInfos destInfos = rec2 st m srcInfos destInfos) :
    mapper.call env rec1 st mem srcInfos destInfos
      = mapper.call env rec2 st mem srcInfos destInfos := by
  have hw : ∀ st a b c e, resetAndMap rec1 st ⟨.WRITE, a, b, c, e⟩ srcInfos destInfos
      = resetAndMap rec2 st ⟨.WRITE, a, b, c, e⟩ srcInfos destInfos :=
    fun st a b c e => resetAndMap_congr rec1 rec2 srcInfos destInfos h st _ (Or.inr rfl)
  have hr : ∀ st a b c e, resetAndMap rec1 st ⟨.READ, a, b, c, e⟩ srcInfos destInfos
      = resetAndMap rec2 st ⟨.READ, a, b, c, e⟩ srcInfos destInfos :=
    fun st a b c e => resetAndMap_congr rec1 rec2 srcInfos destInfos h st _ (Or.inl rfl)
  have he : ∀ st a b c e, emplaceAndMap rec1 st ⟨.READ, a, b, c, e⟩ srcInfos destInfos
      = emplaceAndMap rec2 st ⟨.READ, a, b, c, e⟩ srcInfos destInfos :=
    fun st a b c e => emplaceAndMap_congr rec1 rec2 srcInfos destInfos h st _ (Or.inl rfl)
  cases mapper
  case lowerMemoryReadOnlyToRegister =>
    simp only [MemoryMapper.call, vc4c.lowerMemoryReadOnlyToRegister, MemoryInstruction.create,
      hw]
  case lowerMemoryCopyToRegister =>
    simp only [MemoryMapper.call, vc4c.lowerMemoryCopyToRegister, hw]
  case mapMemoryCopy =>
    simp only [MemoryMapper.call, vc4c.mapMemoryCopy, hw, hr, he]
  all_goals rfl

/-- No mapper selected for a read, a write or a fill calls `mapMemoryAccess`. -/
theorem decisionMatrix_call_leaf (type : MemoryAccessType) (env : Environment)
    (rec1 rec2 : Recurse) (st : Lowering) (mem : MemoryInstruction)
    (srcInfos destInfos : List MemoryInfo) (hop : mem.op ≠ .COPY) :
    (decisionMatrix type mem.op).call env rec1 st mem srcInfos destInfos
      = (decisionMatrix type mem.op).call env rec2 st mem srcInfos destInfos := by
  cases hm : mem.op with
  | COPY => exact absurd hm hop
  | READ =>
    cases type <;> simp only [decisionMatrix, MemoryMapper.call]
    simp only [lowerMemoryReadOnlyToRegister, hm, reduceCtorEq, false_and, if_false, ne_eq,
      not_true_eq_false, if_true]
  | WRITE => cases type <;> rfl
  | FILL => cases type <;> rfl

end vc4c

namespace vc4c

/-- One more level of `mapMemoryAccess`: the checks of the candidates and the call of the mapper
of the decision matrix. -/
theorem mapMemoryAccess_succ (env : Environment) (fuel : Nat) (st : Lowering)
    (mem : MemoryInstruction) (srcInfos destInfos : List MemoryInfo) :
    mapMemoryAccess env (fuel + 1) st mem srcInfos destInfos
      = match (selectingInfos mem srcInfos destInfos).head? with
        | none => .error (.compilationError .GENERAL "dereferenced the begin of an empty set")
        | some first =>
          if (selectingInfos mem srcInfos destInfos).any
              (fun info => info.type ≠ first.type) then
            normalizerError
              "Can\x27t map conditional memory accesses of different memory access types together"
          else
            (decisionMatrix first.type mem.op).call env (mapMemoryAccess env fuel) st mem
              srcInfos destInfos := by
  simp only [mapMemoryAccess, selectingInfos, mappers_eq_decisionMatrix]

/-- The lowering of a read, a write or a fill does not depend on the recursion bound. -/
theorem mapMemoryAccess_leaf (env : Environment) (a b : Nat) (st : Lowering)
    (mem : MemoryInstruction) (srcInfos destInfos : List MemoryInfo) (hop : mem.op ≠ .COPY) :
    mapMemoryAccess env (a + 1) st mem srcInfos destInfos
      = mapMemoryAccess env (b + 1) st mem srcInfos destInfos := by
  rw [mapMemoryAccess_succ, mapMemoryAccess_succ]
  split
  · rfl
  · split
    · rfl
    · exact decisionMatrix_call_leaf _ env _ _ st mem srcInfos destInfos hop

/-- Two levels of `mapMemoryAccess` are all that is ever used. -/
theorem mapMemoryAccess_two (env : Environment) (fuel : Nat) (st : Lowering)
    (mem : MemoryInstruction) (srcInfos destInfos : List MemoryInfo) :
    mapMemoryAccess env (fuel + 2) st mem srcInfos destInfos
      = mapMemoryAccess env 2 st mem srcInfos destInfos := by
  rw [mapMemoryAccess_succ, mapMemoryAccess_succ env 1]
  split
  · rfl
  · split
    · rfl
    · apply MemoryMapper.call_congr
      intro st1 m hm
      apply mapMemoryAccess_leaf
      rcases hm with hm | hm <;> rw [hm] <;> simp

/-- The lowering of a read, a write or a fill never reaches the recursion bound. -/
theorem mapMemoryAccess_leaf_fueled (env : Environment) (fuel : Nat) (st : Lowering)
    (mem : MemoryInstruction) (srcInfos destInfos : List MemoryInfo) (hop : mem.op ≠ .COPY) :
    Fueled (mapMemoryAccess env (fuel + 1) st mem srcInfos destInfos) := by
  rw [mapMemoryAccess_succ]
  split
  · exact Fueled.error _ _
  · split
    · exact Fueled.error _ _
    · rw [decisionMatrix_call_leaf _ env _ (fun st _ _ _ => .ok st) st mem srcInfos destInfos hop]
      exact MemoryMapper.call_fueled _ env _ st mem srcInfos destInfos
        (fun _ _ _ => Fueled.ok _)

/-- With a recursion bound of two or more, `mapMemoryAccess` never reaches the bound. -/
theorem mapMemoryAccess_fueled (env : Environment) (fuel : Nat) (st : Lowering)
    (mem : MemoryInstruction) (srcInfos destInfos : List MemoryInfo) :
    Fueled (mapMemoryAccess env (fuel + 2) st mem srcInfos destInfos) := by
  rw [mapMemoryAccess_succ]
  split
  · exact Fueled.error _ _
  · split
    · exact Fueled.error _ _
    · apply MemoryMapper.call_fueled
      intro st1 m hm
      apply mapMemoryAccess_leaf_fueled
      rcases hm with hm | hm <;> rw [hm] <;> simp

end vc4c

namespace vc4c

/-- Counterexample to C12 as stated: the read of a kernel parameter lowered into a shared VPM
area is lowered successfully and the parameter carries no INPUT decoration afterwards. -/
theorem vpm_read_leaves_parameter_unmarked :
    (Example.vpmLocation (Example.parameter 1) .VPM_SHARED_ACCESS).loc.kind = .parameter
      ∧ mapMemoryAccess Example.environment 2 (Example.lowering Example.readInstruction)
          Example.readInstruction
          [Example.vpmLocation (Example.parameter 1) .VPM_SHARED_ACCESS] []
        = .ok ⟨[(1, .addressToStackOffset ⟨.loc 100, DataType.TYPE_INT32⟩ (Example.parameter 1)
                .VPM_SHARED_ACCESS Example.readInstruction.src),
              (2, .readVPM Example.readInstruction.dest (some Example.area) false
                (some ⟨.loc 100, DataType.TYPE_INT32⟩))], [], [], 101, 3⟩
      ∧ ¬ (⟨[], [], [], 101, 3⟩ : Lowering).carries
          (Example.vpmLocation (Example.parameter 1) .VPM_SHARED_ACCESS).loc .INPUT := by
  refine ⟨rfl, rfl, ?_⟩
  simp [Lowering.carries]

/-- C12 (amended): after every successful lowering the decorations are those from before and, at
most, INPUT for the parameters among the source candidates of a read or copy and OUTPUT for the
parameters among the destination candidates of a write, copy or fill. A read, write or fill of a
location in RAM marks all of them, and so does every copy whose source is in the VPM or in RAM; a
read, write or fill of a location lowered to a register or into the VPM leaves the decorations as
they are. -/
theorem lowering_marks_parameters (env : Environment) (fuel : Nat) (st : Lowering)
    (mem : MemoryInstruction) (srcInfos destInfos : List MemoryInfo) (r : Lowering)
    (first : MemoryInfo) (rest : List MemoryInfo)
    (hsel : selectingInfos mem srcInfos destInfos = first :: rest)
    (h : mapMemoryAccess env fuel st mem srcInfos destInfos = .ok r) :
    (∃ ins outs, Marks st r ins outs
        ∧ (ins = [] ∨ (ins = srcInfos ∧ mem.op.readsMemory = true))
        ∧ (outs = [] ∨ (outs = destInfos ∧ mem.op.writesMemory = true)))
      ∧ (mem.op ≠ .COPY → first.type.inRAM = true →
          Marks st r (if mem.op.readsMemory then srcInfos else [])
            (if mem.op.writesMemory then destInfos else []))
      ∧ (mem.op = .COPY → (first.type.inVPM = true ∨ first.type.inRAM = true) →
          Marks st r srcInfos destInfos)
      ∧ (mem.op ≠ .COPY → first.type.inRAM = false → Marks st r [] []) := by
  obtain ⟨em, ins, outs, hout⟩ := mapMemoryAccess_outcome env fuel st mem srcInfos destInfos r h
  refine ⟨⟨ins, outs, hout.decorations, hout.ins, hout.outs⟩, ?_⟩
  obtain ⟨fuel1, first1, rest1, hfuel, hsel1, hu, hcall⟩ := mapMemoryAccess_ok _ _ _ _ _ _ _ h
  rw [hsel] at hsel1
  obtain ⟨rfl, rfl⟩ := List.cons.inj hsel1
  cases hop : mem.op with
  | READ =>
    rw [selectingInfos_reads mem srcInfos destInfos (by rw [hop]; rfl)] at hsel
    simp only [ne_eq, reduceCtorEq, not_false_eq_true, MemoryOperation.readsMemory, if_true,
      MemoryOperation.writesMemory, Bool.false_eq_true, if_false, false_implies, true_implies,
      true_and]
    by_cases hro : first.type = .QPU_REGISTER_READONLY
    · rw [hro, hop] at hcall
      simp only [decisionMatrix, MemoryMapper.call] at hcall
      obtain ⟨X, inst, ext, v, hs, _, _, rfl⟩ :=
        lowerMemoryReadOnlyToRegister_read _ _ _ _ _ _ _ hop hcall
      refine ⟨fun hr => ?_, fun _ => hs.decorations.to_eq (by simp)⟩
      rw [hro] at hr
      cases hr
    · obtain ⟨pre, x, _, _, hl⟩ := read_lowers env fuel st mem srcInfos destInfos r first rest
        hop hsel hro h
      refine ⟨fun hr => ?_, fun hr => ?_⟩
      · have := hl.decorations
        rwa [if_pos hr] at this
      · have := hl.decorations
        rwa [if_neg (by simp [hr])] at this
  | WRITE =>
    rw [selectingInfos_writes mem srcInfos destInfos (by rw [hop]; rfl)] at hsel
    simp only [ne_eq, reduceCtorEq, not_false_eq_true, MemoryOperation.readsMemory, if_true,
      MemoryOperation.writesMemory, Bool.false_eq_true, if_false, false_implies, true_implies,
      true_and]
    obtain ⟨pre, x, _, _, hl⟩ := write_lowers env fuel st mem srcInfos destInfos r first rest
      hop hsel h
    refine ⟨fun hr => ?_, fun hr => ?_⟩
    · have := hl.decorations
      rwa [if_pos hr] at this
    · have := hl.decorations
      rwa [if_neg (by simp [hr])] at this
  | FILL =>
    simp only [ne_eq, reduceCtorEq, not_false_eq_true, MemoryOperation.readsMemory, if_true,
      MemoryOperation.writesMemory, Bool.false_eq_true, if_false, false_implies, true_implies,
      true_and]
    rw [hop] at hcall
    cases ht : first.type with
    | QPU_REGISTER_READONLY =>
      rw [ht] at hcall
      exact absurd hcall (normalizerError_ne_ok _ _)
    | QPU_REGISTER_READWRITE =>
      rw [ht] at hcall
      simp only [decisionMatrix, MemoryMapper.call] at hcall
      obtain ⟨info, reg, _, _, _, hl⟩ := lowerMemoryReadWriteToRegister_fill_lowers _ _ _ _ _ hop
        hcall
      exact ⟨fun hr => (by cases hr), fun _ => hl.decorations⟩
    | VPM_PER_QPU =>
      rw [ht] at hcall
      simp only [decisionMatrix, MemoryMapper.call] at hcall
      obtain ⟨_, _, _, pre, mid, _, _, _, _, _, hl, _⟩ :=
        lowerMemoryWriteToVPM_fill_lowers _ _ _ _ _ _ hop hcall
      exact ⟨fun hr => (by cases hr), fun _ => hl.decorations⟩
    | VPM_SHARED_ACCESS =>
      rw [ht] at hcall
      simp only [decisionMatrix, MemoryMapper.call] at hcall
      obtain ⟨_, _, _, pre, mid, _, _, _, _, _, hl, _⟩ :=
        lowerMemoryWriteToVPM_fill_lowers _ _ _ _ _ _ hop hcall
      exact ⟨fun hr => (by cases hr), fun _ => hl.decorations⟩
    | RAM_LOAD_TMU =>
      rw [ht] at hcall
      exact absurd hcall (normalizerError_ne_ok _ _)
    | RAM_READ_WRITE_VPM =>
      rw [ht] at hcall
      simp only [decisionMatrix, MemoryMapper.call] at hcall
      obtain ⟨r2, mid, hr2, hl, _⟩ :=
        accessMemoryInRAMViaVPM_fill_lowers env st mem srcInfos destInfos hop
      rw [hr2] at hcall
      cases hcall
      exact ⟨fun _ => hl.decorations, fun hr => (by cases hr)⟩
  | COPY =>
    simp only [ne_eq, not_true_eq_false, false_implies, true_implies, true_and, and_true]
    rw [selectingInfos_reads mem srcInfos destInfos (by rw [hop]; rfl)] at hsel
    intro ht
    rw [hop] at hcall
    have hm : mapMemoryCopy env (mapMemoryAccess env fuel1) st mem srcInfos destInfos = .ok r := by
      rcases ht with ht | ht
      · rcases (inVPM_iff _).1 ht with ht | ht <;> (rw [ht] at hcall; exact hcall)
      · rcases (inRAM_iff _).1 ht with ht | ht <;> (rw [ht] at hcall; exact hcall)
    obtain ⟨si, di, hs, hd⟩ := mapMemoryCopy_single _ _ _ _ _ _ _ hm
    have hsi : si = first := by
      rw [hs] at hsel
      exact (List.cons.inj hsel).1
    subst hsi
    rw [hs, hd] at hm
    obtain ⟨count, rowType, em, _, _, hl⟩ := mapMemoryCopy_outcome env fuel1 st mem r si di ht hm
    rw [hs, hd]
    exact hl.decorations

/-- Witness for C12 (amended): the read of a parameter loaded through a TMU marks the parameter
as input. -/
theorem lowering_marks_parameters_witness :
    selectingInfos Example.readInstruction [Example.location 1 .RAM_LOAD_TMU false] []
        = [Example.location 1 .RAM_LOAD_TMU false]
      ∧ mapMemoryAccess Example.environment 2 (Example.lowering Example.readInstruction)
          Example.readInstruction [Example.location 1 .RAM_LOAD_TMU false] []
        = .ok ⟨[(1, .readVectorFromTMU Example.readInstruction.dest Example.readInstruction.src
              .TMU1)], [], [(1, .INPUT)], 100, 2⟩
      ∧ Marks (Example.lowering Example.readInstruction)
          ⟨[(1, .readVectorFromTMU Example.readInstruction.dest Example.readInstruction.src
              .TMU1)], [], [(1, .INPUT)], 100, 2⟩
          [Example.location 1 .RAM_LOAD_TMU false] [] :=
  ⟨rfl, rfl,
    (lowering_marks_parameters Example.environment 2 (Example.lowering Example.readInstruction)
      Example.readInstruction [Example.location 1 .RAM_LOAD_TMU false] [] _
      (Example.location 1 .RAM_LOAD_TMU false) [] rfl rfl).2.1 (by decide) rfl⟩

end vc4c

namespace vc4c

/-- C13, the code at the failing inputs: a copy whose destination is a location loaded through a
TMU is lowered, from RAM to a DMA copy into that location and from a VPM area to a DMA write into
that location, while a write and a fill of the same location fail with "Invalid memory
access". -/
theorem copy_into_tmu_location_is_lowered :
    (Example.location 2 .RAM_LOAD_TMU false).type = .RAM_LOAD_TMU
      ∧ mapMemoryAccess Example.environment 2 (Example.lowering Example.copyInstruction)
          Example.copyInstruction [Example.location 1 .RAM_READ_WRITE_VPM false]
          [Example.location 2 .RAM_LOAD_TMU false]
        = .ok ⟨[(1, .copyRAM Example.copyInstruction.dest Example.copyInstruction.src 4 false)],
            [], [(2, .OUTPUT), (1, .INPUT)], 100, 2⟩
      ∧ mapMemoryAccess Example.environment 2 (Example.lowering Example.copyInstruction)
          Example.copyInstruction
          [Example.vpmLocation (Example.parameter 1) .VPM_SHARED_ACCESS]
          [Example.location 2 .RAM_LOAD_TMU false]
        = .ok ⟨[(1, .addressToStackOffset ⟨.loc 100, DataType.TYPE_INT32⟩ (Example.parameter 1)
                .VPM_SHARED_ACCESS Example.copyInstruction.src),
              (2, .writeRAM ⟨.loc 2, Example.int32⟩ Example.int32 (some Example.area) false
                ⟨.loc 100, DataType.TYPE_INT32⟩ INT_ONE)],
            [], [(2, .OUTPUT), (1, .INPUT)], 101, 3⟩
      ∧ mapMemoryAccess Example.environment 2 (Example.lowering Example.writeInstruction)
          Example.writeInstruction [] [Example.location 2 .RAM_LOAD_TMU false]
        = .error (.compilationError .NORMALIZER "Invalid memory access")
      ∧ mapMemoryAccess Example.environment 2
          (Example.lowering { Example.writeInstruction with op := .FILL })
          { Example.writeInstruction with op := .FILL } []
          [Example.location 2 .RAM_LOAD_TMU false]
        = .error (.compilationError .NORMALIZER "Invalid memory access") :=
  ⟨rfl, rfl, rfl, rfl, rfl⟩

end vc4c

namespace vc4c

/-- Counterexample to C14 as stated: the fill of a shared VPM area with a 32-bit value and a
literal count of four entries fails. -/
theorem vpm_fill_with_word_fails :
    (Example.fillInstruction (Example.localValue 20)).getSource.type ≠ DataType.TYPE_INT8
      ∧ (Example.vpmLocation (Example.plainLocal 2) .VPM_SHARED_ACCESS).area = some Example.area
      ∧ (Example.fillInstruction (Example.localValue 20)).getNumEntries.getLiteralValue = some 4
      ∧ mapMemoryAccess Example.environment 2
          (Example.lowering (Example.fillInstruction (Example.localValue 20)))
          (Example.fillInstruction (Example.localValue 20)) []
          [Example.vpmLocation (Example.plainLocal 2) .VPM_SHARED_ACCESS]
        = .error (.compilationError .NORMALIZER
            "Unhandled case to lower writing of memory into VPM") :=
  ⟨by decide, rfl, rfl, rfl⟩

theorem mapMemoryAccess_vpm_fill (env : Environment) (fuel : Nat) (st : Lowering)
    (mem : MemoryInstruction) (srcInfos : List MemoryInfo) (di : MemoryInfo)
    (hop : mem.op = .FILL) (hvpm : di.type.inVPM = true) :
    mapMemoryAccess env (fuel + 1) st mem srcInfos [di]
      = lowerMemoryWriteToVPM env st mem srcInfos [di] := by
  rw [mapMemoryAccess_dispatch env fuel st mem srcInfos [di] di.type di []
    (by simp [selectingInfos, hop]) (by simp), hop]
  rcases (inVPM_iff _).1 hvpm with ht | ht <;> rw [ht] <;> rfl

/-- C14 (amended): a fill of a VPM-backed location (per-QPU or shared, with a VPM area and a
literal entry count) whose source is not a single byte is not lowered, it fails with the
normalization error "Unhandled case to lower writing of memory into VPM"; a fill whose source is
a single byte is lowered, to one unguarded VPM write of the replicated fill vector for each row
of the vector size chosen for the count, between the lock and the release of the mutex when the
fill is guarded. -/
theorem vpm_fill_lowers_only_bytes (env : Environment) (fuel : Nat) (st : Lowering)
    (mem : MemoryInstruction) (srcInfos : List MemoryInfo) (di : MemoryInfo) (area : VPMArea)
    (numEntries : Literal) (hop : mem.op = .FILL) (hvpm : di.type.inVPM = true)
    (hstack : di.type = .VPM_PER_QPU → di.loc.kind = .stackAllocation)
    (harea : di.area = some area) (hranges : di.ranges = none)
    (hcount : mem.getNumEntries.getLiteralValue = some numEntries) :
    (mem.getSource.type ≠ DataType.TYPE_INT8 →
        mapMemoryAccess env (fuel + 1) st mem srcInfos [di]
          = .error (.compilationError .NORMALIZER
              "Unhandled case to lower writing of memory into VPM"))
      ∧ (mem.getSource.type = DataType.TYPE_INT8 →
          ∃ r pre mid fillVector, mapMemoryAccess env (fuel + 1) st mem srcInfos [di] = .ok r
            ∧ Lowers st r (pre ++ (if mem.guardAccess then [Lowered.mutexLock true] else []) ++ mid
                ++ (if mem.guardAccess then [Lowered.mutexLock false] else [])) [] []
            ∧ (∀ x ∈ pre, x.isAccess = false)
            ∧ (mid.filter Lowered.isAccess).length = (env.getBestVectorSize numEntries).2
            ∧ (∀ x ∈ mid.filter Lowered.isAccess,
                ∃ offset, x = .writeVPM fillVector (some area) false (some offset))) := by
  have hc : ¬(di.type = .VPM_PER_QPU ∧ di.loc.kind ≠ .stackAllocation) :=
    fun hcon => hcon.2 (hstack hcon.1)
  rw [mapMemoryAccess_vpm_fill env fuel st mem srcInfos di hop hvpm]
  constructor
  · intro hb
    simp [lowerMemoryWriteToVPM, assertSingleDestination, checkVPMLocation, hc, harea,
      insertToInVPMAreaOffset, hranges, hop, hcount, hb, bind, Except.bind, normalizerError]
  · intro hb
    have hex : ∃ r, lowerMemoryWriteToVPM env st mem srcInfos [di] = .ok r := by
      simp [lowerMemoryWriteToVPM, assertSingleDestination, checkVPMLocation, hc, harea,
        insertToInVPMAreaOffset, hranges, hop, hcount, hb, bind, Except.bind, pure, Except.pure]
    obtain ⟨r, hr⟩ := hex
    obtain ⟨di2, area2, n2, pre, mid, fillVector, hd, ha, hn, _, hl, hpre, _, hlen, hall⟩ :=
      lowerMemoryWriteToVPM_fill_lowers env st mem srcInfos [di] r hop hr
    obtain rfl : di = di2 := by simpa using hd
    rw [harea] at ha
    obtain rfl : area = area2 := by simpa using ha
    rw [hcount] at hn
    obtain rfl : numEntries = n2 := by simpa using hn
    exact ⟨r, pre, mid, fillVector, hr, hl, fun x hx => (hpre x hx).1, hlen, hall⟩

/-- Witness for C14 (amended): the fill of a shared VPM area with a 32-bit value fails, at the
input of the counterexample. -/
theorem vpm_fill_lowers_only_bytes_witness :
    (Example.fillInstruction (Example.localValue 20)).op = .FILL
      ∧ (Example.fillInstruction (Example.localValue 20)).getSource.type ≠ DataType.TYPE_INT8
      ∧ mapMemoryAccess Example.environment 2
          (Example.lowering (Example.fillInstruction (Example.localValue 20)))
          (Example.fillInstruction (Example.localValue 20)) []
          [Example.vpmLocation (Example.plainLocal 2) .VPM_SHARED_ACCESS]
        = .error (.compilationError .NORMALIZER
            "Unhandled case to lower writing of memory into VPM") :=
  ⟨rfl, by decide,
    (vpm_fill_lowers_only_bytes Example.environment 1
      (Example.lowering (Example.fillInstruction (Example.localValue 20)))
      (Example.fillInstruction (Example.localValue 20)) []
      (Example.vpmLocation (Example.plainLocal 2) .VPM_SHARED_ACCESS) Example.area 4 rfl rfl
      (by decide) rfl rfl rfl).1 (by decide)⟩

end vc4c

namespace vc4c

theorem ReadThenWrite.bracketed {mem : MemoryInstruction} {released : Bool}
    {s d : List MemoryInfo}
    {ts td : MemoryAccessType} {count : Value} {em : List Lowered}
    (h : ReadThenWrite mem released s d ts td count em) :
    BracketedBy mem.guardAccess released em := by
  obtain ⟨mid, rfl, hmid⟩ := h.bracket
  exact ⟨[], mid, by simp, by simp, fun x hx => ⟨(hmid x hx).1, (hmid x hx).2.2⟩⟩

/-- The mutex instructions of a sequence with a lock before and a release after its accesses. -/
theorem BracketedBy.mutexes {locked released : Bool} {em : List Lowered}
    (h : BracketedBy locked released em) :
    em.filter Lowered.isMutex
      = (if locked then [Lowered.mutexLock true] else [])
        ++ (if released then [Lowered.mutexLock false] else []) := by
  obtain ⟨pre, mid, rfl, hpre, hmid⟩ := h
  have hp : pre.filter Lowered.isMutex = [] :=
    List.filter_eq_nil_iff.2 fun x hx => by rw [(hpre x hx).2]; simp
  have hm : mid.filter Lowered.isMutex = [] :=
    List.filter_eq_nil_iff.2 fun x hx => by rw [(hmid x hx).1]; simp
  rw [List.filter_append, List.filter_append, List.filter_append, hp, hm]
  cases locked <;> cases released <;> rfl

/-- C15: the lowerings that bracket their own output. The fill of RAM through VPM and DMA and the
byte fill of a VPM area emit, when the guard of the instruction is set, exactly one lock of the
mutex before all accesses and exactly one release after all of them, no mutex instruction when
it is not set, and every access unguarded. The copy from VPM to VPM and the partial copy from
VPM or RAM into a register emit the lock by the guard of the instruction, but the release by the
value read as `mem->guardAccess` after `it.reset` has destroyed the instruction: the mutex
instructions of the emitted sequence are the lock if the guard is set and the release if that
value is set, so a guarded copy is locked once and released once only if the destroyed memory
still reads as set. -/
theorem copy_release_read_after_reset (env : Environment) (fuel : Nat) (st : Lowering)
    (mem : MemoryInstruction) (srcInfos destInfos : List MemoryInfo) (r : Lowering)
    (h : mapMemoryAccess env fuel st mem srcInfos destInfos = .ok r) :
    (mem.op = .FILL → (∃ first rest, destInfos = first :: rest
          ∧ (first.type.inVPM = true ∨ first.type.inRAM = true)) →
        Bracketed mem.guardAccess (emitted st r))
      ∧ (mem.op = .COPY → ∀ si di, srcInfos = [si] → destInfos = [di] →
          si.type.inVPM = true → di.type.inVPM = true →
          BracketedBy mem.guardAccess (env.guardAfterReset mem) (emitted st r)
            ∧ (emitted st r).filter Lowered.isMutex
              = (if mem.guardAccess then [Lowered.mutexLock true] else [])
                ++ (if env.guardAfterReset mem then [Lowered.mutexLock false] else []))
      ∧ (mem.op = .COPY → ∀ si di, srcInfos = [si] → destInfos = [di] →
          (si.type.inVPM = true ∨ si.type.inRAM = true) →
          di.type = .QPU_REGISTER_READWRITE →
          (∀ count rowType converted, convertedCount mem si di = .ok (count, rowType) →
            di.convertedRegisterType = some converted →
            copiesWholeRegister count mem.getSourceElementType converted = false) →
          BracketedBy mem.guardAccess (env.guardAfterReset mem) (emitted st r)
            ∧ (emitted st r).filter Lowered.isMutex
              = (if mem.guardAccess then [Lowered.mutexLock true] else [])
                ++ (if env.guardAfterReset mem then [Lowered.mutexLock false] else [])) := by
  obtain ⟨fuel1, first1, rest1, hfuel, hsel, hu, hcall⟩ := mapMemoryAccess_ok _ _ _ _ _ _ _ h
  have hcopy : mem.op = .COPY → ∀ si di, srcInfos = [si] → destInfos = [di] →
      (si.type.inVPM = true ∨ si.type.inRAM = true) →
      ∃ count rowType em, convertedCount mem si di = .ok (count, rowType)
        ∧ CopyOutcome mem (env.guardAfterReset mem) si di count rowType em
        ∧ emitted st r = em := by
    intro hop si di hs hd ht
    rw [selectingInfos_reads mem srcInfos destInfos (by rw [hop]; rfl), hs] at hsel
    obtain ⟨rfl, _⟩ := List.cons.inj hsel
    rw [hop] at hcall
    have hm : mapMemoryCopy env (mapMemoryAccess env fuel1) st mem srcInfos destInfos = .ok r := by
      rcases ht with ht | ht
      · rcases (inVPM_iff _).1 ht with ht | ht <;> (rw [ht] at hcall; exact hcall)
      · rcases (inRAM_iff _).1 ht with ht | ht <;> (rw [ht] at hcall; exact hcall)
    rw [hs, hd] at hm
    obtain ⟨count, rowType, em, hc, hout, hl⟩ := mapMemoryCopy_outcome env fuel1 st mem r _ di
      ht hm
    exact ⟨count, rowType, em, hc, hout, hl.before.emitted⟩
  refine ⟨?_, ?_, ?_⟩
  · rintro hop ⟨first, rest, hd, ht⟩
    rw [selectingInfos_writes mem srcInfos destInfos (by rw [hop]; rfl), hd] at hsel
    obtain ⟨rfl, _⟩ := List.cons.inj hsel
    rw [hop] at hcall
    cases htype : first.type with
    | QPU_REGISTER_READONLY => rw [htype] at ht; simp [MemoryAccessType.inVPM,
        MemoryAccessType.inRAM] at ht
    | QPU_REGISTER_READWRITE => rw [htype] at ht; simp [MemoryAccessType.inVPM,
        MemoryAccessType.inRAM] at ht
    | VPM_PER_QPU =>
      rw [htype] at hcall
      simp only [decisionMatrix, MemoryMapper.call] at hcall
      obtain ⟨_, _, _, pre, mid, _, _, _, _, _, hl, hpre, hmid, _, _⟩ :=
        lowerMemoryWriteToVPM_fill_lowers _ _ _ _ _ _ hop hcall
      rw [hl.before.emitted]
      exact ⟨pre, mid, rfl, fun x hx => ⟨(hpre x hx).1, (hpre x hx).2.1⟩,
        fun x hx => ⟨(hmid x hx).1, (hmid x hx).2.2⟩⟩
    | VPM_SHARED_ACCESS =>
      rw [htype] at hcall
      simp only [decisionMatrix, MemoryMapper.call] at hcall
      obtain ⟨_, _, _, pre, mid, _, _, _, _, _, hl, hpre, hmid, _, _⟩ :=
        lowerMemoryWriteToVPM_fill_lowers _ _ _ _ _ _ hop hcall
      rw [hl.before.emitted]
      exact ⟨pre, mid, rfl, fun x hx => ⟨(hpre x hx).1, (hpre x hx).2.1⟩,
        fun x hx => ⟨(hmid x hx).1, (hmid x hx).2.2⟩⟩
    | RAM_LOAD_TMU =>
      rw [htype] at hcall
      exact absurd hcall (normalizerError_ne_ok _ _)
    | RAM_READ_WRITE_VPM =>
      rw [htype] at hcall
      simp only [decisionMatrix, MemoryMapper.call] at hcall
      obtain ⟨r2, mid, hr2, hl, hmid⟩ :=
        accessMemoryInRAMViaVPM_fill_lowers env st mem srcInfos destInfos hop
      rw [hr2] at hcall
      cases hcall
      rw [hl.before.emitted]
      exact ⟨[], mid, by simp, by simp, fun x hx => ⟨(hmid x hx).1, (hmid x hx).2.2⟩⟩
  · intro hop si di hs hd hsv hdv
    obtain ⟨count, rowType, em, _, hout, hem⟩ := hcopy hop si di hs hd (Or.inl hsv)
    rw [hem]
    rcases hout with ⟨_, _, _, hrw⟩ | ⟨_, c, _⟩ | ⟨c, _, _⟩ | ⟨c, _, _⟩ | ⟨c, _, _⟩ | ⟨c, _⟩
      | ⟨c, _⟩
    · exact ⟨hrw.bracketed, hrw.bracketed.mutexes⟩
    · exact (not_inVPM_and_inRAM _ hdv c).elim
    · exact (not_inVPM_and_inRAM _ hsv c).elim
    · exact (not_inVPM_and_inRAM _ hsv c).elim
    · exact (not_inVPM_and_inRAM _ hsv c).elim
    · rw [c] at hdv; cases hdv
    · rw [c] at hdv; cases hdv
  · intro hop si di hs hd hst hdt hrest
    obtain ⟨count, rowType, em, hc, hout, hem⟩ := hcopy hop si di hs hd hst
    rw [hem]
    rcases hout with ⟨_, c, _⟩ | ⟨_, c, _⟩ | ⟨_, c, _⟩ | ⟨_, c, _⟩ | ⟨_, c, _⟩
      | ⟨_, cv, _, _, _, _, hcv, _, hw, _⟩ | ⟨_, _, _, _, hrw⟩
    · rw [hdt] at c; cases c
    · rw [hdt] at c; cases c
    · rw [hdt] at c; cases c
    · rw [hdt] at c; cases c
    · rw [hdt] at c; cases c
    · rw [hrest count rowType cv hc hcv] at hw
      cases hw
    · exact ⟨hrw.bracketed, hrw.bracketed.mutexes⟩

/-- Witness for C15: the guarded copy of one entry between two shared VPM areas, with the memory
of a destroyed instruction read as cleared. When the read of the source has been lowered the
walker is at the copy; `it.reset` puts the write into its list node, so the copy is gone when
its guard is read for the release. The emitted sequence holds the lock and no release. -/
theorem copy_release_read_after_reset_witness :
    Example.guardedCopy.guardAccess = true
      ∧ Example.clearing.guardAfterReset Example.guardedCopy = false
      ∧ (∃ r1, emplaceAndMap (mapMemoryAccess Example.clearing 1)
            ((guardWith (Example.lowering Example.guardedCopy) true true).addNewLocal
              Example.guardedCopy.getSourceElementType).2
            ⟨.READ, ⟨.loc 100, Example.int32⟩, Example.guardedCopy.getSource, INT_ONE, false⟩
            [Example.vpmLocation (Example.plainLocal 1) .VPM_SHARED_ACCESS]
            [Example.vpmLocation (Example.plainLocal 2) .VPM_SHARED_ACCESS] = .ok r1
          ∧ r1.after = [(0, .memory Example.guardedCopy)]
          ∧ (r1.reset (.memory ⟨.WRITE, Example.guardedCopy.getDestination,
              ⟨.loc 100, Example.int32⟩, INT_ONE, false⟩)).after
            = [(0, .memory ⟨.WRITE, Example.guardedCopy.getDestination,
              ⟨.loc 100, Example.int32⟩, INT_ONE, false⟩)])
      ∧ ∃ r, mapMemoryAccess Example.clearing 2 (Example.lowering Example.guardedCopy)
            Example.guardedCopy
            [Example.vpmLocation (Example.plainLocal 1) .VPM_SHARED_ACCESS]
            [Example.vpmLocation (Example.plainLocal 2) .VPM_SHARED_ACCESS] = .ok r
          ∧ r.after = []
          ∧ (emitted (Example.lowering Example.guardedCopy) r).length = 5
          ∧ BracketedBy true false (emitted (Example.lowering Example.guardedCopy) r)
          ∧ (emitted (Example.lowering Example.guardedCopy) r).filter Lowered.isMutex
            = [Lowered.mutexLock true] :=
  ⟨rfl, rfl, ⟨_, rfl, rfl, rfl⟩, _, rfl, rfl, rfl,
    (copy_release_read_after_reset Example.clearing 2 (Example.lowering Example.guardedCopy)
      Example.guardedCopy [Example.vpmLocation (Example.plainLocal 1) .VPM_SHARED_ACCESS]
      [Example.vpmLocation (Example.plainLocal 2) .VPM_SHARED_ACCESS] _ rfl).2.1 rfl _ _ rfl rfl
      rfl rfl⟩

end vc4c

namespace vc4c

theorem convertByteCount_error (numEntries : Value) (rowType : Option DataType)
    (info : MemoryInfo) (elementType : DataType) (message : String) (e : Failure)
    (h : convertByteCount numEntries rowType info elementType message = .error e) :
    ∃ msg, e = .compilationError .NORMALIZER msg := by
  simp only [convertByteCount] at h
  repeat' first
    | exact ⟨_, (Except.error.inj h).symm⟩
    | cases h
    | split at h

/-- A number of bytes computed in 32-bit arithmetic fits into 32 bits. -/
theorem numBytes_small (product : Nat) : ¬ (product % 2 ^ 32 / 8 > 2 ^ 32 - 1) := by
  intro hgt
  have h1 : product % 2 ^ 32 < 2 ^ 32 := Nat.mod_lt _ (by norm_num)
  have h2 : product % 2 ^ 32 / 8 ≤ product % 2 ^ 32 := Nat.div_le_self _ _
  generalize product % 2 ^ 32 = m at hgt h1 h2
  omega

theorem mapMemoryAccess_copy (env : Environment) (fuel : Nat) (st : Lowering)
    (mem : MemoryInstruction) (si di : MemoryInfo) (hop : mem.op = .COPY)
    (hsrc : si.type.inVPM = true ∨ si.type.inRAM = true) :
    mapMemoryAccess env (fuel + 1) st mem [si] [di]
      = mapMemoryCopy env (mapMemoryAccess env fuel) st mem [si] [di] := by
  rw [mapMemoryAccess_dispatch env fuel st mem [si] [di] si.type si []
    (by simp [selectingInfos, hop]) (by simp), hop]
  rcases hsrc with ht | ht
  · rcases (inVPM_iff _).1 ht with ht | ht <;> rw [ht] <;> rfl
  · rcases (inRAM_iff _).1 ht with ht | ht <;> rw [ht] <;> rfl

/-- C16: the sub-matrix of the copy. For a copy with one source candidate, in the VPM or in RAM,
and one destination candidate, a successful lowering emits what the kinds of the two locations
select: VPM to VPM a VPM read followed by a VPM write; VPM to RAM one DMA write out of the source
area; RAM to VPM one DMA read into the destination area; RAM to RAM one DMA copy, static when the
entry count is a literal and dynamic otherwise; to a read-write register with a converted
register type a read followed by a write of the register (when the copy covers the whole
register the read itself is into the mapped register). Every other combination fails with a
normalization error, and a copy from RAM to RAM whose byte count converts is always lowered. -/
theorem copy_follows_submatrix (env : Environment) (fuel : Nat) (st : Lowering)
    (mem : MemoryInstruction) (si di : MemoryInfo) (hop : mem.op = .COPY)
    (hsrc : si.type.inVPM = true ∨ si.type.inRAM = true) :
    (∀ r, mapMemoryAccess env (fuel + 1) st mem [si] [di] = .ok r →
        ∃ count rowType, convertedCount mem si di = .ok (count, rowType)
          ∧ CopyOutcome mem (env.guardAfterReset mem) si di count rowType (emitted st r))
      ∧ (di.type.inVPM = false → di.type.inRAM = false →
          ¬(di.type = .QPU_REGISTER_READWRITE ∧ di.convertedRegisterType.isSome = true) →
          ∃ message, mapMemoryAccess env (fuel + 1) st mem [si] [di]
            = .error (.compilationError .NORMALIZER message))
      ∧ (si.type.inRAM = true → di.type.inRAM = true →
          ∀ count rowType, convertedCount mem si di = .ok (count, rowType) →
          (count.isLiteralValue = true → count.getLiteralValue.isSome = true) →
          ∃ r, mapMemoryAccess env (fuel + 1) st mem [si] [di] = .ok r) := by
  rw [mapMemoryAccess_copy env fuel st mem si di hop hsrc]
  refine ⟨?_, ?_, ?_⟩
  · intro r h
    obtain ⟨count, rowType, em, hc, hout, hl⟩ := mapMemoryCopy_outcome env fuel st mem r si di
      hsrc h
    exact ⟨count, rowType, hc, by rw [hl.before.emitted]; exact hout⟩
  · intro hv hr hreg
    unfold mapMemoryCopy
    simp only [assertSingleSource, assertSingleDestination, bind, Except.bind]
    cases hc1 : convertByteCount mem.getNumEntries none si mem.getSourceElementType
        "Byte-wise partial copy from VPM is yet implemented" with
    | error e =>
      obtain ⟨msg, rfl⟩ := convertByteCount_error _ _ _ _ _ _ hc1
      exact ⟨msg, rfl⟩
    | ok p1 =>
      simp only
      cases hc2 : convertByteCount p1.1 p1.2 di mem.getDestinationElementType
          "Byte-wise partial copy to VPM is yet implemented" with
      | error e =>
        obtain ⟨msg, rfl⟩ := convertByteCount_error _ _ _ _ _ _ hc2
        exact ⟨msg, rfl⟩
      | ok p2 =>
        simp only [← inVPM_iff, ← inRAM_iff, decide_eq_true_eq, Bool.decide_eq_true, hv, hr,
          Bool.false_eq_true, and_false, if_false, hreg]
        exact ⟨_, rfl⟩
  · intro hs hd count rowType hc hlit
    have hsv : si.type.inVPM = false := by
      cases hv : si.type.inVPM
      · rfl
      · exact (not_inVPM_and_inRAM _ hv hs).elim
    have hdv : di.type.inVPM = false := by
      cases hv : di.type.inVPM
      · rfl
      · exact (not_inVPM_and_inRAM _ hv hd).elim
    unfold convertedCount at hc
    simp only [bind, Except.bind] at hc
    cases hc1 : convertByteCount mem.getNumEntries none si mem.getSourceElementType
        "Byte-wise partial copy from VPM is yet implemented" with
    | error e => simp [hc1] at hc
    | ok p1 =>
      simp only [hc1] at hc
      unfold mapMemoryCopy
      simp only [assertSingleSource, assertSingleDestination, bind, Except.bind, hc1, hc,
        ← inVPM_iff, ← inRAM_iff, decide_eq_true_eq, Bool.decide_eq_true, hsv, hdv, hs, hd,
        Bool.false_eq_true, false_and, and_false, and_self, if_false, if_true]
      cases hl : count.isLiteralValue with
      | false =>
        simp only [Bool.not_false, if_true, pure, Except.pure]
        exact ⟨_, rfl⟩
      | true =>
        cases hg : count.getLiteralValue with
        | none =>
          have := hlit hl
          rw [hg] at this
          cases this
        | some lit =>
          simp only [Bool.not_true, Bool.false_eq_true, if_false, deref]
          have hsmall := numBytes_small (lit * (mem.getSourceElementType.getScalarBitCount
              * mem.getSourceElementType.getVectorWidth))
          simp only [hsmall, if_false, pure, Except.pure]
          exact ⟨_, rfl⟩

/-- Witness for C16: a copy of one 32-bit entry from RAM to RAM is lowered to one static DMA copy
of four bytes. -/
theorem copy_follows_submatrix_witness :
    Example.copyInstruction.op = .COPY
      ∧ mapMemoryAccess Example.environment 2 (Example.lowering Example.copyInstruction)
          Example.copyInstruction [Example.location 1 .RAM_LOAD_TMU false]
          [Example.location 2 .RAM_READ_WRITE_VPM false]
        = .ok ⟨[(1, .copyRAM Example.copyInstruction.dest Example.copyInstruction.src 4 false)],
            [], [(2, .OUTPUT), (1, .INPUT)], 100, 2⟩
      ∧ ∃ count rowType,
          convertedCount Example.copyInstruction (Example.location 1 .RAM_LOAD_TMU false)
            (Example.location 2 .RAM_READ_WRITE_VPM false) = .ok (count, rowType)
          ∧ CopyOutcome Example.copyInstruction false (Example.location 1 .RAM_LOAD_TMU false)
              (Example.location 2 .RAM_READ_WRITE_VPM false) count rowType
              (emitted (Example.lowering Example.copyInstruction)
                ⟨[(1, .copyRAM Example.copyInstruction.dest Example.copyInstruction.src 4 false)],
                  [], [(2, .OUTPUT), (1, .INPUT)], 100, 2⟩) :=
  ⟨rfl, rfl,
    (copy_follows_submatrix Example.environment 1 (Example.lowering Example.copyInstruction)
      Example.copyInstruction (Example.location 1 .RAM_LOAD_TMU false)
      (Example.location 2 .RAM_READ_WRITE_VPM false) rfl (Or.inr rfl)).1 _ rfl⟩

end vc4c

namespace vc4c

/-- A failure of the conversion of the byte count for the destination is the failure of the
copy. -/
theorem mapMemoryCopy_destination_error (env : Environment) (recurse : Recurse)
    (st : Lowering)
    (mem : MemoryInstruction) (si di : MemoryInfo) (count : Value) (rowType : Option DataType)
    (e : Failure)
    (h1 : convertByteCount mem.getNumEntries none si mem.getSourceElementType
      "Byte-wise partial copy from VPM is yet implemented" = .ok (count, rowType))
    (h2 : convertByteCount count rowType di mem.getDestinationElementType
      "Byte-wise partial copy to VPM is yet implemented" = .error e) :
    mapMemoryCopy env recurse st mem [si] [di] = .error e := by
  unfold mapMemoryCopy
  simp only [assertSingleSource, assertSingleDestination, bind, Except.bind, h1, h2]

/-- The conversion of a byte count, case by case. -/
theorem convertByteCount_cases (numEntries : Value) (rowType : Option DataType)
    (info : MemoryInfo) (elementType : DataType) (message : String) :
    (∀ n, elementType = DataType.TYPE_INT8 → numEntries.getLiteralValue = some n →
        info.area.isSome = true →
        (n ≠ info.loc.type.getElementType.getInMemoryWidth →
          convertByteCount numEntries rowType info elementType message
            = normalizerError message)
        ∧ (n = info.loc.type.getElementType.getInMemoryWidth →
            (∀ e k, info.loc.type.getElementType = .array e k →
              convertByteCount numEntries rowType info elementType message
                = .ok (⟨.literal k, DataType.TYPE_INT32⟩, some e))
            ∧ (info.loc.type.getElementType.isVectorType = true →
              convertByteCount numEntries rowType info elementType message
                = .ok (INT_ONE, some info.loc.type.getElementType))
            ∧ (info.loc.type.getElementType.getArrayType = none →
              info.loc.type.getElementType.isVectorType = false →
              convertByteCount numEntries rowType info elementType message
                = normalizerError "Unsupported element type for memory copy into VPM")))
      ∧ (elementType ≠ DataType.TYPE_INT8 ∨ numEntries.getLiteralValue = none ∨ info.area = none →
          convertByteCount numEntries rowType info elementType message
            = .ok (numEntries, rowType)) := by
  refine ⟨?_, ?_⟩
  · intro n hbyte hlit harea
    refine ⟨?_, ?_⟩
    · intro hne
      simp [convertByteCount, hlit, harea, hbyte, hne]
    · intro heq
      refine ⟨?_, ?_, ?_⟩
      · intro e k harr
        simp [convertByteCount, hlit, harea, hbyte, heq, harr, DataType.getArrayType]
      · intro hvec
        have harr : info.loc.type.getElementType.getArrayType = none := by
          cases ht : info.loc.type.getElementType <;>
            first | rfl | simp [ht, DataType.isVectorType] at hvec
        simp [convertByteCount, hlit, harea, hbyte, heq, harr, hvec]
      · intro harr hvec
        simp [convertByteCount, hlit, harea, hbyte, heq, harr, hvec]
  · intro hnot
    unfold convertByteCount
    cases hlit : numEntries.getLiteralValue with
    | none => rfl
    | some n =>
      rcases hnot with hb | hl | ha
      · simp [hb]
      · rw [hlit] at hl
        cases hl
      · simp [ha]

end vc4c

namespace vc4c

/-- C18, counterexample: a copy of two 32-bit entries out of a register of sixteen 32-bit words
has a literal count that is a multiple of the ratio of the element sizes (one) and amounts to
two register elements, and does not cover the whole register; it is rejected, with the error
for a dynamic number of entries. -/
theorem register_copy_of_two_entries_is_rejected :
    (Example.copyOf 2).getNumEntries.getLiteralValue = some 2
      ∧ copiesWholeRegister (Example.copyOf 2).getNumEntries
          (Example.copyOf 2).getDestinationElementType (.simple 32 16) = false
      ∧ divide Example.register.type.getElementType.getScalarBitCount
          (Example.copyOf 2).getSourceElementType.getScalarBitCount = .ok 1
      ∧ modulo 2 1 = .ok 0 ∧ 2 / 1 ≠ 0 ∧ ¬ 2 / 1 > NATIVE_VECTOR_SIZE
      ∧ mapMemoryAccess Example.environment 2 (Example.lowering (Example.copyOf 2))
          (Example.copyOf 2) [Example.registerLocation 1]
          [Example.location 2 .RAM_READ_WRITE_VPM false]
        = normalizerError "Lowering copy with a dynamic number of entries is not yet implemented" :=
  ⟨rfl, rfl, rfl, rfl, by decide, by decide, rfl⟩

/-- C18, amended: `lowerMemoryCopyToRegister`, for a copy out of a location with a mapped
register into another location that is not lowered to a read-only register. A copy that covers
the whole register is replaced by a write of the register; a copy of one entry (the constant
`INT_ONE`) by the extraction of one element into a new local followed by a write of that local;
in both cases the write is mapped. Every other copy is rejected on account of its entry count:
a dynamic count, a literal count that is not a multiple of the ratio between the element size of
the register and the copied element size, a count that amounts to 0 or to more than 16 register
elements, and also a literal count that passes these checks, which is rejected with the error
for a dynamic count. -/
theorem register_copy_lowers_one_entry_or_whole_register (recurse : Recurse) (st : Lowering)
    (mem : MemoryInstruction) (si di : MemoryInfo) (converted : DataType) (reg : Value)
    (hloc : si.loc ≠ di.loc) (hop : mem.op = .COPY) (hdt : di.type ≠ .QPU_REGISTER_READONLY)
    (hct : si.convertedRegisterType = some converted)
    (hreg : si.mappedRegisterOrConstant = some reg) :
    (copiesWholeRegister mem.getNumEntries mem.getDestinationElementType converted = true →
        lowerMemoryCopyToRegister recurse st mem [si] [di]
          = resetAndMap recurse st ⟨.WRITE, mem.getDestination, reg, INT_ONE, true⟩ [si] [di])
      ∧ (copiesWholeRegister mem.getNumEntries mem.getDestinationElementType converted = false →
          mem.getNumEntries = INT_ONE →
          lowerMemoryCopyToRegister recurse st mem [si] [di]
            = resetAndMap recurse
                ((st.addNewLocal mem.getSourceElementType).2.insert
                  (.vectorExtraction reg UNDEFINED_VALUE
                    (st.addNewLocal mem.getSourceElementType).1))
                ⟨.WRITE, mem.getDestination, (st.addNewLocal mem.getSourceElementType).1,
                  INT_ONE, true⟩ [si] [di])
      ∧ (copiesWholeRegister mem.getNumEntries mem.getDestinationElementType converted = false →
          mem.getNumEntries ≠ INT_ONE →
          (∀ r, lowerMemoryCopyToRegister recurse st mem [si] [di] ≠ .ok r)
          ∧ (mem.getNumEntries.getLiteralValue = none →
              lowerMemoryCopyToRegister recurse st mem [si] [di]
                = normalizerError
                    "Lowering copy with a dynamic number of entries is not yet implemented")
          ∧ (∀ lit factor, mem.getNumEntries.getLiteralValue = some lit →
              mem.getSourceElementType.getScalarBitCount ≠ 0 →
              factor = reg.type.getElementType.getScalarBitCount
                / mem.getSourceElementType.getScalarBitCount →
              factor ≠ 0 →
              (lit % factor ≠ 0 →
                lowerMemoryCopyToRegister recurse st mem [si] [di]
                  = normalizerError
                      "Copied number of bytes is not a multiple of the actual register type")
              ∧ (lit % factor = 0 → lit / factor = 0 ∨ lit / factor > NATIVE_VECTOR_SIZE →
                lowerMemoryCopyToRegister recurse st mem [si] [di]
                  = normalizerError "Invalid copied number of elements")
              ∧ (lit % factor = 0 → lit / factor ≠ 0 → lit / factor ≤ NATIVE_VECTOR_SIZE →
                lowerMemoryCopyToRegister recurse st mem [si] [di]
                  = normalizerError
                      "Lowering copy with a dynamic number of entries is not yet implemented"))) := by
  rw [lowerMemoryCopyToRegister_checked recurse st mem si di converted reg hloc hop hdt hct hreg]
  refine ⟨?_, ?_, ?_⟩
  · intro hw
    simp only [hw, if_true]
  · intro hw hone
    rw [if_neg (by rw [hw]; simp), if_neg (not_not.2 hone)]
  · intro hw hone
    rw [if_neg (by rw [hw]; simp), if_pos hone]
    refine ⟨?_, ?_, ?_⟩
    · intro r h
      cases hlit : mem.getNumEntries.getLiteralValue with
      | none =>
        rw [hlit] at h
        exact absurd h (normalizerError_ne_ok _ _)
      | some lit =>
        rw [hlit] at h
        simp only [divide, modulo, Except.bind] at h
        repeat' first
          | exact absurd h (normalizerError_ne_ok _ _)
          | cases h
          | split at h
    · intro hlit
      simp only [hlit]
    · intro lit factor hlit hbits hfactor hne
      subst hfactor
      simp only [hlit, divide, hbits, if_false, Except.bind, modulo, hne]
      refine ⟨?_, ?_, ?_⟩
      · intro hrem
        simp only [hrem, ne_eq, not_false_eq_true, if_true]
      · intro hrem hbad
        simp only [hrem, ne_eq, not_true_eq_false, if_false, hbad, if_true]
      · intro hrem hpos hle
        have hbad : ¬ (lit / (reg.type.getElementType.getScalarBitCount
            / mem.getSourceElementType.getScalarBitCount) = 0
            ∨ lit / (reg.type.getElementType.getScalarBitCount
              / mem.getSourceElementType.getScalarBitCount) > NATIVE_VECTOR_SIZE) := by
          rintro (h | h)
          · exact hpos h
          · exact absurd hle (not_le.2 h)
        simp only [hrem, ne_eq, not_true_eq_false, if_false, hbad]

/-- Witness for C18: the copy of one entry out of the register is lowered to the extraction of
one element and, the destination being in RAM, a DMA write of it; the copy of 32 entries is
rejected as an invalid number of elements. -/
theorem register_copy_lowers_one_entry_or_whole_register_witness :
    (Example.registerLocation 1).loc ≠ (Example.location 2 .RAM_READ_WRITE_VPM false).loc
      ∧ copiesWholeRegister Example.copyInstruction.getNumEntries
          Example.copyInstruction.getDestinationElementType (.simple 32 16) = false
      ∧ lowerMemoryCopyToRegister (mapMemoryAccess Example.environment 1)
          (Example.lowering Example.copyInstruction) Example.copyInstruction
          [Example.registerLocation 1] [Example.location 2 .RAM_READ_WRITE_VPM false]
        = .ok ⟨[(1, .vectorExtraction Example.register UNDEFINED_VALUE ⟨.loc 100, Example.int32⟩),
              (2, .writeDMA ⟨.loc 100, Example.int32⟩ ⟨.loc 2, Example.pointerType⟩ true)],
            [], [(2, .OUTPUT)], 101, 3⟩
      ∧ lowerMemoryCopyToRegister (mapMemoryAccess Example.environment 1)
          (Example.lowering (Example.copyOf 32)) (Example.copyOf 32)
          [Example.registerLocation 1] [Example.location 2 .RAM_READ_WRITE_VPM false]
        = normalizerError "Invalid copied number of elements" :=
  ⟨by decide, rfl,
    ((register_copy_lowers_one_entry_or_whole_register (mapMemoryAccess Example.environment 1)
      (Example.lowering Example.copyInstruction) Example.copyInstruction
      (Example.registerLocation 1) (Example.location 2 .RAM_READ_WRITE_VPM false) (.simple 32 16)
      Example.register (by decide) rfl (by decide) rfl rfl).2.1 rfl rfl).trans rfl,
    ((((register_copy_lowers_one_entry_or_whole_register (mapMemoryAccess Example.environment 1)
      (Example.lowering (Example.copyOf 32)) (Example.copyOf 32)
      (Example.registerLocation 1) (Example.location 2 .RAM_READ_WRITE_VPM false) (.simple 32 16)
      Example.register (by decide) rfl (by decide) rfl rfl).2.2 rfl (by decide)).2.2 32 1 rfl
      (by decide) rfl (by decide)).2.1 rfl (Or.inr (by decide)))⟩

end vc4c

namespace vc4c

/-- C19, counterexample: the fill of a location of vector type, lowered into a register of
vector type, with a scalar value is lowered to a replication, although no type of the
destination is scalar; the fill of a location of scalar element type with a vector fails. -/
theorem register_fill_looks_at_fill_value :
    (Example.vectorFill (Example.localValue 20)).getDestination.type.isScalarType = false
      ∧ (Example.vectorFill (Example.localValue 20)).getDestinationElementType.isScalarType
          = false
      ∧ Example.register.type.isScalarType = false
      ∧ (Example.vectorFill (Example.localValue 20)).getSource.type.isScalarType = true
      ∧ mapMemoryAccess Example.environment 2
          (Example.lowering (Example.vectorFill (Example.localValue 20)))
          (Example.vectorFill (Example.localValue 20)) [] [Example.registerLocation 2]
        = .ok ⟨[(1, .replication (Example.localValue 20) Example.register)], [], [], 100, 2⟩
      ∧ (Example.fillInstruction (Example.vectorValue 21)).getDestinationElementType.isScalarType
          = true
      ∧ (Example.fillInstruction (Example.vectorValue 21)).getSource.type.isScalarType = false
      ∧ mapMemoryAccess Example.environment 2
          (Example.lowering (Example.fillInstruction (Example.vectorValue 21)))
          (Example.fillInstruction (Example.vectorValue 21)) [] [Example.registerLocation 2]
        = normalizerError "Unhandled case of lowering memory access to register" :=
  ⟨rfl, rfl, rfl, rfl, rfl, rfl, rfl, rfl⟩

/-- C19, amended: a fill of memory lowered into a read-write register is lowered to a
replication of the fill value across the lanes of the mapped register exactly when the type of
the fill value is scalar, and fails with a normalization error otherwise; the decision depends
on the type of the fill value and not on the destination: the same fill value at any other
destination value is lowered or rejected alike. -/
theorem register_fill_replicates_scalar_value (env : Environment) (fuel : Nat) (st : Lowering)
    (mem : MemoryInstruction) (srcInfos : List MemoryInfo) (info : MemoryInfo) (reg : Value)
    (hop : mem.op = .FILL) (htype : info.type = .QPU_REGISTER_READWRITE)
    (hreg : info.mappedRegisterOrConstant = some reg) :
    (mem.getSource.type.isScalarType = true →
        mapMemoryAccess env (fuel + 1) st mem srcInfos [info]
          = .ok (st.insert (.replication mem.getSource reg)).erase)
      ∧ (mem.getSource.type.isScalarType = false →
          mapMemoryAccess env (fuel + 1) st mem srcInfos [info]
            = normalizerError "Unhandled case of lowering memory access to register")
      ∧ ((∃ r, mapMemoryAccess env (fuel + 1) st mem srcInfos [info] = .ok r)
          ↔ mem.getSource.type.isScalarType = true)
      ∧ ∀ dest : Value,
          mapMemoryAccess env (fuel + 1) st { mem with dest := dest } srcInfos [info]
            = mapMemoryAccess env (fuel + 1) st mem srcInfos [info] := by
  have key : ∀ m : MemoryInstruction, m.op = .FILL →
      mapMemoryAccess env (fuel + 1) st m srcInfos [info]
        = if m.getSource.type.isScalarType = true then
            .ok (st.insert (.replication m.getSource reg)).erase
          else normalizerError "Unhandled case of lowering memory access to register" := by
    intro m hm
    rw [mapMemoryAccess_dispatch env fuel st m srcInfos [info] info.type info []
      (by simp [selectingInfos, hm]) (by simp), hm, htype]
    exact lowerMemoryReadWriteToRegister_fill st m srcInfos info reg hm hreg
  refine ⟨?_, ?_, ?_, ?_⟩
  · intro hs
    rw [key mem hop, if_pos hs]
  · intro hs
    rw [key mem hop, if_neg (by rw [hs]; simp)]
  · rw [key mem hop]
    constructor
    · rintro ⟨r, h⟩
      by_contra hs
      rw [if_neg hs] at h
      exact absurd h (normalizerError_ne_ok _ _)
    · intro hs
      exact ⟨_, if_pos hs⟩
  · intro dest
    rw [key mem hop, key { mem with dest := dest } hop]
    rfl

/-- Witness for C19: the fill with a 32-bit scalar of a location lowered into a register is one
replication of the scalar into the register. -/
theorem register_fill_replicates_scalar_value_witness :
    (Example.fillInstruction (Example.localValue 20)).op = .FILL
      ∧ (Example.fillInstruction (Example.localValue 20)).getSource.type.isScalarType = true
      ∧ mapMemoryAccess Example.environment 2
          (Example.lowering (Example.fillInstruction (Example.localValue 20)))
          (Example.fillInstruction (Example.localValue 20)) [] [Example.registerLocation 2]
        = .ok ⟨[(1, .replication (Example.localValue 20) Example.register)], [], [], 100, 2⟩ :=
  ⟨rfl, rfl,
    ((register_fill_replicates_scalar_value Example.environment 1
      (Example.lowering (Example.fillInstruction (Example.localValue 20)))
      (Example.fillInstruction (Example.localValue 20)) [] (Example.registerLocation 2)
      Example.register rfl rfl rfl).1 rfl).trans rfl⟩

end vc4c

namespace vc4c

/-- C20: whenever `mapMemoryAccess` succeeds on the memory instruction at the walker, the
instructions it has inserted before the walker hold no memory instruction (every read or write
created for a copy has been lowered in turn), and the instruction itself is gone: erased, or
replaced by a move; so a memory instruction left in the block was there before and is not the one
handled. The nesting of the calls is finite: a mapper calls `mapMemoryAccess` for reads and
writes only, no mapper selected for a read or a write calls it, hence two levels are all that is
used and the recursion bound of two is never reached. -/
theorem lowering_leaves_no_memory_instruction (env : Environment) (fuel : Nat) (st : Lowering)
    (mem : MemoryInstruction) (srcInfos destInfos : List MemoryInfo) :
    (∀ r node rest, st.after = (node, .memory mem) :: rest →
        mapMemoryAccess env fuel st mem srcInfos destInfos = .ok r →
        (∃ nodes, r.before = st.before ++ nodes ∧ ∀ x ∈ nodes, x.2.isMemory = false)
          ∧ (r.after = rest
            ∨ ∃ v, r.after = (node, .moveOperation mem.getDestination v) :: rest)
          ∧ ∀ x ∈ r.before ++ r.after, x.2.isMemory = true → x ∈ st.before ++ rest)
      ∧ mapMemoryAccess env (fuel + 2) st mem srcInfos destInfos
          = mapMemoryAccess env 2 st mem srcInfos destInfos
      ∧ mapMemoryAccess env (fuel + 2) st mem srcInfos destInfos ≠ .error .outOfFuel
      ∧ (∀ (mapper : MemoryMapper) (rec1 rec2 : Recurse),
          (∀ st1 m, m.op = .READ ∨ m.op = .WRITE →
            rec1 st1 m srcInfos destInfos = rec2 st1 m srcInfos destInfos) →
          mapper.call env rec1 st mem srcInfos destInfos
            = mapper.call env rec2 st mem srcInfos destInfos)
      ∧ (mem.op = .READ ∨ mem.op = .WRITE → ∀ (type : MemoryAccessType) (rec1 rec2 : Recurse),
          (decisionMatrix type mem.op).call env rec1 st mem srcInfos destInfos
            = (decisionMatrix type mem.op).call env rec2 st mem srcInfos destInfos) := by
  refine ⟨?_, mapMemoryAccess_two env fuel st mem srcInfos destInfos,
    (mapMemoryAccess_fueled env fuel st mem srcInfos destInfos).ne,
    fun mapper rec1 rec2 h => MemoryMapper.call_congr mapper env rec1 rec2 st mem srcInfos
      destInfos h, ?_⟩
  · intro r node rest hst h
    obtain ⟨em, ins, outs, hout⟩ := mapMemoryAccess_outcome env fuel st mem srcInfos destInfos r h
    obtain ⟨nodes, hbefore, hnodes⟩ := hout.before
    have hplain : ∀ x ∈ nodes, x.2.isMemory = false := by
      intro x hx
      exact hout.plain x.2 (by rw [← hnodes]; exact List.mem_map_of_mem _ hx)
    have hafter : r.after = rest
        ∨ ∃ v, r.after = (node, .moveOperation mem.getDestination v) :: rest := by
      rcases hout.after with ha | ⟨_, v, ha⟩
      · left
        rw [ha, hst]
        rfl
      · right
        refine ⟨v, ?_⟩
        rw [ha]
        simp only [Lowering.reset, hst]
    refine ⟨⟨nodes, hbefore, hplain⟩, hafter, ?_⟩
    intro x hx hmem
    rw [hbefore] at hx
    simp only [List.mem_append] at hx ⊢
    rcases hx with (hx | hx) | hx
    · exact Or.inl hx
    · rw [hplain x hx] at hmem
      cases hmem
    · rcases hafter with ha | ⟨v, ha⟩
      · rw [ha] at hx
        exact Or.inr hx
      · rw [ha] at hx
        rcases List.mem_cons.1 hx with hx | hx
        · rw [hx] at hmem
          cases hmem
        · exact Or.inr hx
  · intro hop type rec1 rec2
    exact decisionMatrix_call_leaf type env rec1 rec2 st mem srcInfos destInfos
      (by rcases hop with hop | hop <;> rw [hop] <;> simp)

/-- Witness for C20: the copy of one entry out of a register into RAM creates a write, which is
lowered in turn; the block that held the copy alone holds an extraction and a DMA write. -/
theorem lowering_leaves_no_memory_instruction_witness :
    (Example.lowering Example.copyInstruction).after = [(0, .memory Example.copyInstruction)]
      ∧ mapMemoryAccess Example.environment 2 (Example.lowering Example.copyInstruction)
          Example.copyInstruction [Example.registerLocation 1]
          [Example.location 2 .RAM_READ_WRITE_VPM false]
        = .ok ⟨[(1, .vectorExtraction Example.register UNDEFINED_VALUE ⟨.loc 100, Example.int32⟩),
              (2, .writeDMA ⟨.loc 100, Example.int32⟩ ⟨.loc 2, Example.pointerType⟩ true)],
            [], [(2, .OUTPUT)], 101, 3⟩
      ∧ ∀ x ∈ [(1, Lowered.vectorExtraction Example.register UNDEFINED_VALUE
              ⟨.loc 100, Example.int32⟩),
            (2, Lowered.writeDMA ⟨.loc 100, Example.int32⟩ ⟨.loc 2, Example.pointerType⟩ true)]
            ++ [],
          x.2.isMemory = true → x ∈ (Example.lowering Example.copyInstruction).before ++ [] :=
  ⟨rfl, rfl,
    ((lowering_leaves_no_memory_instruction Example.environment 2
      (Example.lowering Example.copyInstruction) Example.copyInstruction
      [Example.registerLocation 1] [Example.location 2 .RAM_READ_WRITE_VPM false]).1
      ⟨[(1, .vectorExtraction Example.register UNDEFINED_VALUE ⟨.loc 100, Example.int32⟩),
          (2, .writeDMA ⟨.loc 100, Example.int32⟩ ⟨.loc 2, Example.pointerType⟩ true)],
        [], [(2, .OUTPUT)], 101, 3⟩ 0 [] rfl rfl).2.2⟩

end vc4c

namespace vc4c

end vc4c

namespace vc4c

/-- C28: a loop with a vector rotation into a local is rejected, `calculateCostsVsBenefits`
returns the smallest integer and the loop is not selected; the same loop with the rotation
writing the address register of a TMU is rated 63 and selected for vectorization with the
factor 16: the rotation is taken for a write of a read address and not looked at further. -/
theorem rotation_into_address_register_is_vectorized :
    (Example.rotation (Example.localValue 6)).type = .vectorRotation
      ∧ (Example.rotation Example.tmuAddress).type = .vectorRotation
      ∧ calculateCostsVsBenefits id (fun _ => none)
          (Example.loopOf [some (Example.rotation (Example.localValue 6))] 16).walked
          (Example.loopOf [some (Example.rotation (Example.localValue 6))] 16).blockSizes
          { Example.countingLoop 16 with vectorizationFactor := 16 } = .ok INT_MIN
      ∧ selectForVectorization Example.vectorizer
          (Example.loopOf [some (Example.rotation (Example.localValue 6))] 16) = .ok none
      ∧ calculateCostsVsBenefits id (fun _ => none)
          (Example.loopOf [some (Example.rotation Example.tmuAddress)] 16).walked
          (Example.loopOf [some (Example.rotation Example.tmuAddress)] 16).blockSizes
          { Example.countingLoop 16 with vectorizationFactor := 16 } = .ok 63
      ∧ selectForVectorization Example.vectorizer
          (Example.loopOf [some (Example.rotation Example.tmuAddress)] 16)
        = .ok (some { Example.countingLoop 16 with vectorizationFactor := 16 }) :=
  ⟨rfl, rfl, rfl, rfl, rfl, rfl⟩

end vc4c

namespace vc4c

/-- C29: a loop that loads through the TMU from the addresses `%8` and `%7` and stores by DMA to
the address `%7`. The local `%7` is in both address sets. When the sets hand out their elements
in the order of the addresses, the loop is rejected; when they hand them out in the order of
insertion (`%8` before `%7`), `std::set_intersection` finds no common element, the loop is rated
95 and selected for vectorization. -/
theorem aliasing_check_depends_on_iteration_order :
    collectLoopAddresses (fun _ => none) Example.aliasingLoop.walked ([], [])
        = some ([some 8, none, some 7], [some 7, none])
      ∧ Example.sortedIteration [some 8, none, some 7] = [none, some 7, some 8]
      ∧ Example.sortedIteration [some 7, none] = [none, some 7]
      ∧ set_intersection [none, some 7, some 8] [none, some 7] = [none, some 7]
      ∧ calculateCostsVsBenefits Example.sortedIteration (fun _ => none)
          Example.aliasingLoop.walked Example.aliasingLoop.blockSizes
          { Example.countingLoop 16 with vectorizationFactor := 16 } = .ok INT_MIN
      ∧ set_intersection [some 8, none, some 7] [some 7, none] = []
      ∧ calculateCostsVsBenefits id (fun _ => none)
          Example.aliasingLoop.walked Example.aliasingLoop.blockSizes
          { Example.countingLoop 16 with vectorizationFactor := 16 } = .ok 95
      ∧ selectForVectorization Example.vectorizer Example.aliasingLoop
        = .ok (some { Example.countingLoop 16 with vectorizationFactor := 16 }) := by
  exact ⟨rfl, by decide, by decide, rfl, rfl, rfl, rfl, rfl⟩

end vc4c

namespace vc4c

/-- The step read off an operation of a local and a literal, in either order. -/
theorem getStep_of_addition (loopControl : LoopControl) (stepOp : Instruction) (a b : Value)
    (lit : Literal) (hstep : loopControl.iterationStep = some stepOp)
    (hop : stepOp.isOperation = true) (hargs : stepOp.arguments = [a, b])
    (hshape : (a.checkLocal.isSome = true ∧ b.getLiteralValue = some lit)
      ∨ (a.checkLocal = none ∧ a.getLiteralValue = some lit)) :
    loopControl.getStep = some lit := by
  unfold LoopControl.getStep
  simp only [hstep, hop, Bool.not_true, Bool.false_eq_true, if_false, Instruction.getArguments,
    hargs, List.length_cons, List.length_nil, ne_eq, not_true_eq_false,
    Instruction.getArgument, List.get?_cons_zero, List.get?_cons_succ, Option.bind]
  rcases hshape with ⟨ha, hb⟩ | ⟨_, ha⟩
  · have hlit : a.isLiteralValue = false := by
      unfold Value.checkLocal at ha
      unfold Value.isLiteralValue
      cases hd : a.data <;> simp [hd] at ha ⊢
    simp [hlit, hb]
  · have hlit : a.isLiteralValue = true := by
      unfold Value.getLiteralValue at ha
      unfold Value.isLiteralValue
      cases hd : a.data <;> simp [hd] at ha ⊢
    simp [hlit, ha]

end vc4c

namespace vc4c

/-- The literal 1 times a vectorization factor that fits into a signed 32-bit integer is the
factor. -/
theorem multipliedOffset_one (offset : Value) (factor : Nat) (h : factor < 2 ^ 31) :
    (multipliedOffset offset 1 factor).getLiteralValue = some factor := by
  have h1 : signedInt 1 = 1 := by decide
  have h2 : toInt32 (factor : Int) = factor := by
    unfold toInt32
    have : ((factor : Int) + 2 ^ 31) % 2 ^ 32 = factor + 2 ^ 31 :=
      Int.emod_eq_of_lt (by positivity) (by norm_num at h ⊢; omega)
    rw [this]
    ring
  have h3 : literalOfInt (factor : Int) = factor := by
    unfold literalOfInt
    have : (factor : Int) % 2 ^ 32 = factor :=
      Int.emod_eq_of_lt (by positivity) (by norm_num at h ⊢; omega)
    rw [this]
    exact Int.toNat_natCast factor
  simp only [multipliedOffset, Value.getLiteralValue, h1, h2, one_mul, h3]

end vc4c

namespace vc4c

/-- The step kind `extractLoopControl` leaves behind for an opcode decides the opcode when the
kind is that of an addition and the opcode is on the add ALU as an addition or subtraction. -/
theorem step_is_addition (loopControl : LoopControl) (code : OpCode)
    (hkind : loopControl.stepKind = (loopControl.determineStepKind code).stepKind)
    (hadd : loopControl.stepKind = .ADD_CONSTANT)
    (hcode : code.opAdd = OP_ADD.opAdd ∨ code.opAdd = OP_SUB.opAdd) : code = OP_ADD := by
  by_cases h1 : code = OP_ADD
  · exact h1
  · exfalso
    by_cases h2 : code = OP_SUB
    · simp only [LoopControl.determineStepKind, h1, h2, if_false] at hkind
      simp [hadd, OP_SUB, OP_ADD] at hkind
    · cases code with
      | alu c =>
        have e1 : OP_ADD.opAdd = 12 := rfl
        have e2 : OP_SUB.opAdd = 13 := rfl
        rw [e1, e2] at hcode
        simp only [OP_ADD, OP_SUB, OpCode.alu.injEq] at h1 h2
        by_cases hc : c < 32
        · simp only [OpCode.opAdd, hc, if_true] at hcode
          omega
        · simp only [OpCode.opAdd, hc, if_false] at hcode
          omega
      | _ => simp [OpCode.opAdd, OP_ADD, OP_SUB] at hcode

/-- The step operation of an addition or subtraction with a local or a literal in front. -/
theorem fixStep_eq (stepOp : Instruction) (code : OpCode) (a b : Value) (factor : Nat)
    (hop : stepOp.type = .operation code) (hargs : stepOp.arguments = [a, b]) :
    fixStep stepOp factor
      = if code.opAdd = OP_ADD.opAdd ∨ code.opAdd = OP_SUB.opAdd then
          if a.checkLocal.isSome = true then
            match b.getLiteralValue with
            | some lit => .ok (stepOp.setArgument 1 (multipliedOffset b lit factor))
            | none => .error (.compilationError .OPTIMIZER "Unhandled iteration step")
          else
            match a.getLiteralValue with
            | some lit => .ok (stepOp.setArgument 0 (multipliedOffset a lit factor))
            | none => .error (.compilationError .OPTIMIZER "Unhandled iteration step")
        else .error (.compilationError .OPTIMIZER "Unhandled iteration step operation") := by
  unfold fixStep
  simp only [Instruction.op, hop, deref, bind, Except.bind, Instruction.getFirstArg, hargs,
    List.head?_cons, Instruction.getArgument, List.get?_cons_succ, List.get?_cons_zero, pure,
    Except.pure]

/-- The function `fixInitialValueAndStep` on a loop control with all its parts. -/
theorem fixInitialValueAndStep_eq (found : Bool) (loopControl : LoopControl)
    (stepOp init : Instruction) (code : OpCode) (out : Value) (iv : LocalObject)
    (hstep : loopControl.iterationStep = some stepOp) (hop : stepOp.type = .operation code)
    (hinit : loopControl.initialization = some init) (hout : init.output = some out)
    (hiv : loopControl.iterationVariable = some iv) :
    fixInitialValueAndStep found loopControl
      = (fixInitialValue found loopControl
          (init.widenOutput out iv.type.getVectorWidth)).bind fun initialization =>
        (fixStep stepOp loopControl.vectorizationFactor).bind fun step =>
        .ok { loopControl with initialization := some initialization,
                               iterationStep := some step } := by
  unfold fixInitialValueAndStep
  simp only [hstep, hinit, deref, bind, Except.bind, Instruction.isOperation, hop, Bool.not_true,
    Bool.false_eq_true, if_false, Instruction.getOutput, hout, hiv, pure, Except.pure]

/-- The function `fixInitialValue` on an initialization with an output and a source. -/
theorem fixInitialValue_eq (found : Bool) (loopControl : LoopControl)
    (init : Instruction) (out source : Value) (rest : List Value)
    (hout : init.output = some out) (hsource : init.arguments = source :: rest) :
    fixInitialValue found loopControl init
      = if init.isMoveOperation = true then
          if source.hasLiteral INT_ZERO.literal = true ∧ loopControl.stepKind = .ADD_CONSTANT
              ∧ loopControl.getStep = some INT_ONE.literal then
            .ok ((init.setSource ELEMENT_NUMBER_REGISTER).addDecorations
              InstructionDecorations.AUTO_VECTORIZED)
          else if source.getLiteralValue.isSome = true ∧ loopControl.stepKind = .ADD_CONSTANT
              ∧ loopControl.getStep = some INT_ONE.literal ∧ found = true then
            .ok (((⟨.operation OP_ADD, some out, [source, ELEMENT_NUMBER_REGISTER], .COND_ALWAYS,
              .DONT_SET, .SIGNAL_NONE, InstructionDecorations.NONE⟩ : Instruction).copyExtrasFrom
                init).addDecorations InstructionDecorations.AUTO_VECTORIZED)
          else .error (.compilationError .OPTIMIZER "Unhandled initial value")
        else .error (.compilationError .OPTIMIZER "Unhandled initial value") := by
  unfold fixInitialValue
  simp only [Instruction.getSource, Instruction.getArgument, hsource, deref,
    bind, Except.bind, List.get?_cons_zero, List.head?_cons, Instruction.getOutput, hout, pure,
    Except.pure]

/-- C30: `fixInitialValueAndStep` with the factor F, on a loop control whose step is an operation
of two operands (with the step kind `determineStepKind` gives for its opcode) and whose
initialization has an output and a source. If the initialization is a move of the literal 0
and the step is an addition of the literal 1 to a local (in either order), the source of the
move becomes the element-number register; if it is a move of another literal and has been found
in the predecessor of the loop, it becomes the addition of that literal and the element
number; in both cases the literal operand of the step becomes the literal F and the other
operand stays. Every other shape, and every subtracting or multiplying step, fails with an
error of the optimizer. -/
theorem fixInitialValueAndStep_shapes (found : Bool) (loopControl : LoopControl)
    (stepOp init : Instruction) (code : OpCode) (out source a b : Value) (rest : List Value)
    (iv : LocalObject)
    (hstep : loopControl.iterationStep = some stepOp) (hop : stepOp.type = .operation code)
    (hargs : stepOp.arguments = [a, b])
    (hkind : loopControl.stepKind = (loopControl.determineStepKind code).stepKind)
    (hinit : loopControl.initialization = some init) (hout : init.output = some out)
    (hsource : init.arguments = source :: rest)
    (hiv : loopControl.iterationVariable = some iv)
    (hfactor : loopControl.vectorizationFactor < 2 ^ 31) :
    (∀ fixedStep : Instruction,
      init.isMoveOperation = true → code = OP_ADD →
      ((a.checkLocal.isSome = true ∧ b.getLiteralValue = some 1
          ∧ fixedStep = stepOp.setArgument 1 (multipliedOffset b 1 loopControl.vectorizationFactor))
        ∨ (a.checkLocal = none ∧ a.getLiteralValue = some 1
          ∧ fixedStep
            = stepOp.setArgument 0 (multipliedOffset a 1 loopControl.vectorizationFactor))) →
      (source.hasLiteral 0 = true →
        fixInitialValueAndStep found loopControl
          = .ok { loopControl with
              initialization := some
                (((init.widenOutput out iv.type.getVectorWidth).setSource
                  ELEMENT_NUMBER_REGISTER).addDecorations InstructionDecorations.AUTO_VECTORIZED),
              iterationStep := some fixedStep })
      ∧ (source.hasLiteral 0 = false → source.getLiteralValue.isSome = true → found = true →
        fixInitialValueAndStep found loopControl
          = .ok { loopControl with
              initialization := some
                (((⟨.operation OP_ADD, some { out with type := (out.type.toVectorType
                      iv.type.getVectorWidth) }, [source, ELEMENT_NUMBER_REGISTER], .COND_ALWAYS,
                    .DONT_SET, .SIGNAL_NONE, InstructionDecorations.NONE⟩ :
                      Instruction).copyExtrasFrom
                  (init.widenOutput out iv.type.getVectorWidth)).addDecorations
                    InstructionDecorations.AUTO_VECTORIZED),
              iterationStep := some fixedStep }))
    ∧ (stepOp.setArgument 1 (multipliedOffset b 1 loopControl.vectorizationFactor)).arguments
        = [a, multipliedOffset b 1 loopControl.vectorizationFactor]
    ∧ (stepOp.setArgument 0 (multipliedOffset a 1 loopControl.vectorizationFactor)).arguments
        = [multipliedOffset a 1 loopControl.vectorizationFactor, b]
    ∧ (multipliedOffset b 1 loopControl.vectorizationFactor).getLiteralValue
        = some loopControl.vectorizationFactor
    ∧ (multipliedOffset a 1 loopControl.vectorizationFactor).getLiteralValue
        = some loopControl.vectorizationFactor
    ∧ (∀ result, fixInitialValueAndStep found loopControl = .ok result →
        init.isMoveOperation = true ∧ code = OP_ADD
        ∧ ((a.checkLocal.isSome = true ∧ b.getLiteralValue = some 1)
          ∨ (a.checkLocal = none ∧ a.getLiteralValue = some 1))
        ∧ (source.hasLiteral 0 = true
          ∨ (source.hasLiteral 0 = false ∧ source.getLiteralValue.isSome = true
            ∧ found = true)))
    ∧ (∀ e, fixInitialValueAndStep found loopControl = .error e →
        ∃ msg, e = .compilationError .OPTIMIZER msg)
    ∧ (code = OP_SUB ∨ code = OP_MUL24 ∨ loopControl.stepKind = .SUB_CONSTANT
        ∨ loopControl.stepKind = .MUL_CONSTANT →
        ∃ msg, fixInitialValueAndStep found loopControl
          = .error (.compilationError .OPTIMIZER msg)) := by
  have heq := fixInitialValueAndStep_eq found loopControl stepOp init code out iv hstep hop hinit
    hout hiv
  have hinitial := fixInitialValue_eq found loopControl
    (init.widenOutput out iv.type.getVectorWidth)
    { out with type := out.type.toVectorType iv.type.getVectorWidth } source rest rfl hsource
  have hfix := fixStep_eq stepOp code a b loopControl.vectorizationFactor hop hargs
  have hmove : (init.widenOutput out iv.type.getVectorWidth).isMoveOperation
      = init.isMoveOperation := rfl
  rw [hmove] at hinitial
  have hok : ∀ result, fixInitialValueAndStep found loopControl = .ok result →
      init.isMoveOperation = true ∧ code = OP_ADD
      ∧ ((a.checkLocal.isSome = true ∧ b.getLiteralValue = some 1)
        ∨ (a.checkLocal = none ∧ a.getLiteralValue = some 1))
      ∧ (source.hasLiteral 0 = true
        ∨ (source.hasLiteral 0 = false ∧ source.getLiteralValue.isSome = true
          ∧ found = true)) := by
    intro result h
    rw [heq, hinitial, hfix] at h
    by_cases hm : init.isMoveOperation = true
    swap
    · simp only [hm] at h
      exact absurd h (by simp [Except.bind])
    have hkindStep : loopControl.stepKind = .ADD_CONSTANT
        ∧ loopControl.getStep = some INT_ONE.literal
        ∧ (source.hasLiteral 0 = true
          ∨ (source.hasLiteral 0 = false ∧ source.getLiteralValue.isSome = true
            ∧ found = true)) := by
      simp only [hm, if_true] at h
      by_cases h1 : source.hasLiteral INT_ZERO.literal = true ∧ loopControl.stepKind = .ADD_CONSTANT
          ∧ loopControl.getStep = some INT_ONE.literal
      · exact ⟨h1.2.1, h1.2.2, Or.inl h1.1⟩
      · rw [if_neg h1] at h
        by_cases h2 : source.getLiteralValue.isSome = true ∧ loopControl.stepKind = .ADD_CONSTANT
            ∧ loopControl.getStep = some INT_ONE.literal ∧ found = true
        · refine ⟨h2.2.1, h2.2.2.1, ?_⟩
          cases h0 : source.hasLiteral 0
          · exact Or.inr ⟨rfl, h2.1, h2.2.2.2⟩
          · exact Or.inl rfl
        · rw [if_neg h2] at h
          exact absurd h (by simp [Except.bind])
    have hcode : code.opAdd = OP_ADD.opAdd ∨ code.opAdd = OP_SUB.opAdd := by
      by_contra hc
      rw [if_neg hc] at h
      revert h
      split_ifs <;> simp [Except.bind]
    have hadd := step_is_addition loopControl code hkind hkindStep.1 hcode
    have hshape : ∃ lit, (a.checkLocal.isSome = true ∧ b.getLiteralValue = some lit)
        ∨ (a.checkLocal = none ∧ a.getLiteralValue = some lit) := by
      rw [if_pos hcode] at h
      by_cases ha : a.checkLocal.isSome = true
      · rw [if_pos ha] at h
        cases hb : b.getLiteralValue with
        | none =>
          rw [hb] at h
          revert h
          split_ifs <;> simp [Except.bind]
        | some lit => exact ⟨lit, Or.inl ⟨ha, rfl⟩⟩
      · rw [if_neg ha] at h
        cases hb : a.getLiteralValue with
        | none =>
          rw [hb] at h
          revert h
          split_ifs <;> simp [Except.bind]
        | some lit =>
          refine ⟨lit, Or.inr ⟨?_, rfl⟩⟩
          cases hl : a.checkLocal with
          | none => rfl
          | some l => rw [hl] at ha; exact absurd rfl ha
    obtain ⟨lit, hshape⟩ := hshape
    have hlit := getStep_of_addition loopControl stepOp a b lit hstep
      (by simp [Instruction.isOperation, hop]) hargs hshape
    rw [hkindStep.2.1] at hlit
    have hone : lit = 1 := (Option.some.inj hlit).symm
    subst hone
    exact ⟨hm, hadd, hshape, hkindStep.2.2⟩
  have herror : ∀ e, fixInitialValueAndStep found loopControl = .error e →
      ∃ msg, e = .compilationError .OPTIMIZER msg := by
    intro e h
    rw [heq, hinitial, hfix] at h
    revert h
    cases b.getLiteralValue <;> cases a.getLiteralValue <;> split_ifs <;>
      simp only [Except.bind, Except.error.injEq, reduceCtorEq, false_implies] <;>
      intro h <;> exact ⟨_, h.symm⟩
  have hadditionStep : code = OP_ADD →
      ((a.checkLocal.isSome = true ∧ b.getLiteralValue = some 1)
        ∨ (a.checkLocal = none ∧ a.getLiteralValue = some 1)) →
      loopControl.stepKind = .ADD_CONSTANT ∧ loopControl.getStep = some INT_ONE.literal := by
    intro hc hshape
    refine ⟨?_, getStep_of_addition loopControl stepOp a b 1 hstep
      (by simp [Instruction.isOperation, hop]) hargs hshape⟩
    rw [hkind, hc]
    rfl
  refine ⟨?_, ?_, ?_, multipliedOffset_one b _ hfactor, multipliedOffset_one a _ hfactor, hok,
    herror, ?_⟩
  · intro fixedStep hm hc hshape
    have hs := hadditionStep hc (hshape.imp (fun h => ⟨h.1, h.2.1⟩) (fun h => ⟨h.1, h.2.1⟩))
    have hcode : code.opAdd = OP_ADD.opAdd ∨ code.opAdd = OP_SUB.opAdd := Or.inl (by rw [hc])
    have hstepFixed : fixStep stepOp loopControl.vectorizationFactor = .ok fixedStep := by
      rw [hfix, if_pos hcode]
      rcases hshape with ⟨ha, hb, hf⟩ | ⟨ha, hb, hf⟩
      · rw [if_pos ha, hb, hf]
      · rw [if_neg (by rw [ha]; simp), hb, hf]
    constructor
    · intro hzero
      rw [heq, hinitial, hstepFixed, if_pos hm, if_pos ⟨hzero, hs.1, hs.2⟩]
      rfl
    · intro hzero hliteral hfound
      rw [heq, hinitial, hstepFixed, if_pos hm,
        if_neg (by rw [show INT_ZERO.literal = 0 from rfl, hzero]; simp),
        if_pos ⟨hliteral, hs.1, hs.2, hfound⟩]
      rfl
  · simp [Instruction.setArgument, hargs]
  · simp [Instruction.setArgument, hargs]
  · intro hsub
    cases hresult : fixInitialValueAndStep found loopControl with
    | error e =>
      obtain ⟨msg, hmsg⟩ := herror e hresult
      exact ⟨msg, by rw [hmsg]⟩
    | ok result =>
      exfalso
      obtain ⟨-, hc, hshape, -⟩ := hok result hresult
      have hs := hadditionStep hc hshape
      rcases hsub with h | h | h | h
      · rw [hc] at h; exact absurd h (by decide)
      · rw [hc] at h; exact absurd h (by decide)
      · rw [hs.1] at h; exact absurd h (by decide)
      · rw [hs.1] at h; exact absurd h (by decide)

/-- Witness for C30: with the factor 4 the loop control of `for(i = 0; i < 16; ++i)` gets the
initialization `%1 = elem_num` and the step `%2 = %1 + 4`; the same loop stepping by a
subtraction fails in the optimizer. -/
theorem fixInitialValueAndStep_shapes_witness :
    fixInitialValueAndStep false { Example.countingLoop 16 with vectorizationFactor := 4 }
        = .ok { Example.countingLoop 16 with
            vectorizationFactor := 4,
            initialization := some
              ((Example.assignment 1 ELEMENT_NUMBER_REGISTER).addDecorations
                InstructionDecorations.AUTO_VECTORIZED),
            iterationStep := some
              (Example.addition 2 (Example.localValue 1)
                (multipliedOffset (Example.literalValue 1) 1 4)) }
      ∧ (multipliedOffset (Example.literalValue 1) 1 4).getLiteralValue = some 4
      ∧ ∃ msg, fixInitialValueAndStep false
          { Example.countingLoop 16 with
            vectorizationFactor := 4,
            stepKind := .SUB_CONSTANT,
            iterationStep := some (Example.instruction (.operation OP_SUB)
              (some (Example.localValue 2)) [Example.localValue 1, Example.literalValue 1]) }
          = .error (.compilationError .OPTIMIZER msg) :=
  ⟨((fixInitialValueAndStep_shapes false
      { Example.countingLoop 16 with vectorizationFactor := 4 }
      (Example.addition 2 (Example.localValue 1) (Example.literalValue 1))
      (Example.assignment 1 (Example.literalValue 0)) OP_ADD (Example.localValue 1)
      (Example.literalValue 0) (Example.localValue 1) (Example.literalValue 1) []
      ⟨1, .plain, Example.int32⟩ rfl rfl rfl rfl rfl rfl rfl rfl (by decide)).1
        (Example.addition 2 (Example.localValue 1)
          (multipliedOffset (Example.literalValue 1) 1 4))
        rfl rfl (Or.inl ⟨rfl, rfl, rfl⟩)).1 rfl,
    rfl,
    (fixInitialValueAndStep_shapes false
      { Example.countingLoop 16 with
        vectorizationFactor := 4,
        stepKind := .SUB_CONSTANT,
        iterationStep := some (Example.instruction (.operation OP_SUB)
          (some (Example.localValue 2)) [Example.localValue 1, Example.literalValue 1]) }
      (Example.instruction (.operation OP_SUB)
          (some (Example.localValue 2)) [Example.localValue 1, Example.literalValue 1])
      (Example.assignment 1 (Example.literalValue 0)) OP_SUB (Example.localValue 1)
      (Example.literalValue 0) (Example.localValue 1) (Example.literalValue 1) []
      ⟨1, .plain, Example.int32⟩ rfl rfl rfl rfl rfl rfl rfl rfl
      (by decide)).2.2.2.2.2.2.2 (Or.inl rfl)⟩

end vc4c

namespace vc4c

/-- The candidate built over the edges left: it has a common successor exactly when every
outgoing edge left leads to a node with this single successor and the checked node as single
predecessor, and then holds the neighbors over these edges. -/
theorem checkOutgoingEdges_spec (graph : Graph) (node : NodePointer)
    (edges : List (NodePointer × DirectedEdge)) (candidate : IfElseBlock) (s : NodePointer) :
    ((checkOutgoingEdges graph node edges candidate).successor = some s
      ↔ (∀ m ∈ (edges.filter fun entry => entry.2.isInput node).map (fun entry => entry.1),
            graph.getSinglePredecessor m = some node ∧ graph.getSingleSuccessor m = some s)
          ∧ (candidate.successor = some s
            ∨ (candidate.successor = none
              ∧ (edges.filter fun entry => entry.2.isInput node) ≠ [])))
    ∧ ((checkOutgoingEdges graph node edges candidate).successor = some s →
        (checkOutgoingEdges graph node edges candidate).conditionalBlocks
          = candidate.conditionalBlocks
            ++ (edges.filter fun entry => entry.2.isInput node).map (fun entry => entry.1))
    ∧ (checkOutgoingEdges graph node edges candidate).predecessor = candidate.predecessor := by
  induction edges generalizing candidate with
  | nil =>
    simp only [checkOutgoingEdges, List.filter_nil, List.map_nil, List.not_mem_nil,
      false_implies, implies_true, true_and, ne_eq, not_true_eq_false, and_false, or_false,
      List.append_nil]
  | cons head rest ih =>
    obtain ⟨successor, edge⟩ := head
    by_cases hin : edge.isInput node = true
    · simp only [checkOutgoingEdges, hin, if_true, List.filter_cons_of_pos, List.map_cons,
        List.mem_cons, forall_eq_or_imp, ne_eq, reduceCtorEq, not_false_eq_true, and_true]
      cases hsucc : graph.getSingleSuccessor successor with
      | none =>
        simp only [reduceCtorEq, and_false, false_and, iff_false, false_implies, and_true,
          true_and, not_false_eq_true]
      | some succ =>
        by_cases hcond : (candidate.successor = none ∨ some succ = candidate.successor)
            ∧ graph.getSinglePredecessor successor = some node
        · simp only [hcond, and_self, if_true]
          have h := ih { candidate with
            conditionalBlocks := candidate.conditionalBlocks ++ [successor],
            successor := some succ }
          refine ⟨?_, ?_, h.2.2⟩
          · rw [h.1]
            simp only [Option.some.injEq, reduceCtorEq, false_and, or_false, true_and]
            constructor
            · rintro ⟨hall, hs⟩
              subst hs
              refine ⟨⟨rfl, hall⟩, ?_⟩
              rcases hcond.1 with hc | hc
              · exact Or.inr hc
              · exact Or.inl hc.symm
            · rintro ⟨⟨hs, hall⟩, -⟩
              exact ⟨hall, hs⟩
          · intro hres
            rw [h.2.1 hres]
            simp only [List.append_assoc, List.singleton_append]
        · simp only [hcond, if_false, reduceCtorEq, false_implies, and_true, false_iff,
            Option.some.injEq, not_and, and_imp]
          intro _ hs _ hor
          apply hcond
          subst hs
          refine ⟨?_, by assumption⟩
          rcases hor with h | h
          · exact Or.inr h.symm
          · exact Or.inl h
    · have hin2 : edge.isInput node = false := by simpa using hin
      have h := ih candidate
      simp only [checkOutgoingEdges, hin2, Bool.false_eq_true, if_false, not_false_eq_true,
        List.filter_cons_of_neg]
      exact h

/-- The blocks found are the candidates of the nodes that have a common successor and more than
one conditional block. -/
theorem findIfElseBlocks_eq (graph : Graph) :
    findIfElseBlocks graph
      = (graph.nodes.map (candidateFor graph)).filter fun candidate =>
          candidate.successor.isSome && decide (candidate.conditionalBlocks.length > 1) := by
  unfold findIfElseBlocks
  have h : ∀ (nodes : List NodePointer) (blocks : List IfElseBlock),
      nodes.foldl (fun blocks node =>
        if (candidateFor graph node).successor.isSome
            ∧ (candidateFor graph node).conditionalBlocks.length > 1 then
          blocks ++ [candidateFor graph node]
        else blocks) blocks
      = blocks ++ (nodes.map (candidateFor graph)).filter fun candidate =>
          candidate.successor.isSome && decide (candidate.conditionalBlocks.length > 1) := by
    intro nodes
    induction nodes with
    | nil => intro blocks; simp
    | cons n rest ih =>
      intro blocks
      rw [List.foldl_cons, ih]
      by_cases hc : (candidateFor graph n).successor.isSome
          ∧ (candidateFor graph n).conditionalBlocks.length > 1
      · simp [hc, List.filter_cons]
      · simp only [hc, if_false, List.map_cons, List.filter_cons]
        have : ((candidateFor graph n).successor.isSome
            && decide ((candidateFor graph n).conditionalBlocks.length > 1)) = false := by
          simpa using hc
        simp [this]
  simpa using h graph.nodes []

/-- C24: `findIfElseBlocks` reports the node n with the common successor s exactly when n is a
node of the graph with at least two outgoing successors, every one of which has n as its single
predecessor and s as its single successor; the conditional blocks reported are then all outgoing
successors of n, and a node with an outgoing successor violating the condition is not reported
at all. -/
theorem findIfElseBlocks_reports (graph : Graph) (n s : NodePointer) :
    ((∃ block ∈ findIfElseBlocks graph, block.predecessor = n ∧ block.successor = some s)
      ↔ n ∈ graph.nodes ∧ 2 ≤ (graph.outgoingSuccessors n).length
        ∧ ∀ m ∈ graph.outgoingSuccessors n,
            graph.getSinglePredecessor m = some n ∧ graph.getSingleSuccessor m = some s)
    ∧ (∀ block ∈ findIfElseBlocks graph,
        block.conditionalBlocks = graph.outgoingSuccessors block.predecessor)
    ∧ (∀ m ∈ graph.outgoingSuccessors n,
        (graph.getSinglePredecessor m ≠ some n ∨ graph.getSingleSuccessor m = none
          ∨ ∃ k ∈ graph.outgoingSuccessors n,
              graph.getSingleSuccessor k ≠ graph.getSingleSuccessor m) →
        ∀ block ∈ findIfElseBlocks graph, block.predecessor ≠ n) := by
  have hspec := fun (node s : NodePointer) =>
    checkOutgoingEdges_spec graph node (graph.node node).edges ⟨node, [], none⟩ s
  have hpred : ∀ node, (candidateFor graph node).predecessor = node := fun node =>
    (hspec node 0).2.2
  have hsucc : ∀ node s, (candidateFor graph node).successor = some s
      ↔ (∀ m ∈ graph.outgoingSuccessors node,
            graph.getSinglePredecessor m = some node ∧ graph.getSingleSuccessor m = some s)
          ∧ graph.outgoingSuccessors node ≠ [] := by
    intro node s
    rw [candidateFor, (hspec node s).1]
    simp only [reduceCtorEq, false_or, true_and, Graph.outgoingSuccessors, ne_eq,
      List.map_eq_nil_iff]
  have hblocks : ∀ node s, (candidateFor graph node).successor = some s →
      (candidateFor graph node).conditionalBlocks = graph.outgoingSuccessors node := by
    intro node s h
    rw [candidateFor, (hspec node s).2.1 h]
    rfl
  have hmem : ∀ block, block ∈ findIfElseBlocks graph
      ↔ ∃ node ∈ graph.nodes, candidateFor graph node = block
          ∧ (∃ s, block.successor = some s) ∧ block.conditionalBlocks.length > 1 := by
    intro block
    rw [findIfElseBlocks_eq]
    simp only [List.mem_filter, List.mem_map, Bool.and_eq_true, decide_eq_true_eq,
      Option.isSome_iff_exists]
    constructor
    · rintro ⟨⟨node, hn, rfl⟩, h1, h2⟩
      exact ⟨node, hn, rfl, h1, h2⟩
    · rintro ⟨node, hn, rfl, h1, h2⟩
      exact ⟨⟨node, hn, rfl⟩, h1, h2⟩
  have hiff : (∃ block ∈ findIfElseBlocks graph, block.predecessor = n ∧ block.successor = some s)
      ↔ n ∈ graph.nodes ∧ 2 ≤ (graph.outgoingSuccessors n).length
        ∧ ∀ m ∈ graph.outgoingSuccessors n,
            graph.getSinglePredecessor m = some n ∧ graph.getSingleSuccessor m = some s := by
    constructor
    · rintro ⟨block, hb, hp, hs⟩
      obtain ⟨node, hn, rfl, -, hlen⟩ := (hmem block).1 hb
      rw [hpred] at hp
      subst hp
      rw [hblocks node s hs] at hlen
      exact ⟨hn, hlen, ((hsucc node s).1 hs).1⟩
    · rintro ⟨hn, hlen, hall⟩
      have hs : (candidateFor graph n).successor = some s :=
        (hsucc n s).2 ⟨hall, by intro h; rw [h] at hlen; simp at hlen⟩
      refine ⟨candidateFor graph n, (hmem _).2 ⟨n, hn, rfl, ⟨s, hs⟩, ?_⟩, hpred n, hs⟩
      rw [hblocks n s hs]
      exact hlen
  refine ⟨hiff, ?_, ?_⟩
  · intro block hb
    obtain ⟨node, -, rfl, ⟨s, hs⟩, -⟩ := (hmem block).1 hb
    rw [hpred, hblocks node s hs]
  · intro m hm hviolates block hb hp
    obtain ⟨node, -, rfl, ⟨t, ht⟩, -⟩ := (hmem block).1 hb
    rw [hpred] at hp
    subst hp
    have hall := ((hsucc node t).1 ht).1
    rcases hviolates with h | h | ⟨k, hk, h⟩
    · exact h (hall m hm).1
    · rw [(hall m hm).2] at h
      exact absurd h (by simp)
    · rw [(hall m hm).2, (hall k hk).2] at h
      exact h rfl

/-- Witness for C24: in the diamond `0 → 1 → 3`, `0 → 2 → 3` the node 0 is reported with the
conditional blocks 1 and 2 and the common successor 3; with the further edge `0 → 3` nothing is
reported. -/
theorem findIfElseBlocks_reports_witness :
    findIfElseBlocks Example.diamond = [⟨0, [1, 2], some 3⟩]
      ∧ findIfElseBlocks Example.ifWithoutElse = []
      ∧ (0 ∈ Example.diamond.nodes ∧ 2 ≤ (Example.diamond.outgoingSuccessors 0).length
        ∧ ∀ m ∈ Example.diamond.outgoingSuccessors 0,
            Example.diamond.getSinglePredecessor m = some 0
              ∧ Example.diamond.getSingleSuccessor m = some 3)
      ∧ ∀ block ∈ findIfElseBlocks Example.ifWithoutElse, block.predecessor ≠ 0 :=
  ⟨by decide, by decide,
    (findIfElseBlocks_reports Example.diamond 0 3).1.1
      ⟨⟨0, [1, 2], some 3⟩, by decide, rfl, rfl⟩,
    (findIfElseBlocks_reports Example.ifWithoutElse 0 3).2.2 3 (by decide)
      (Or.inl (by decide))⟩

end vc4c

namespace vc4c

/-- The walker after `nextInBlock` brought to the begin of the next block when it is at the end
of its block: the second half of `nextInMethod`. -/
theorem InstructionWalker.nextInMethod_cons (prev : List BasicBlock) (before rest : BasicBlock)
    (slot : Option Instruction) (next : List BasicBlock) :
    (⟨prev, before, slot :: rest, next⟩ : InstructionWalker).nextInMethod
      = match rest, next with
        | [], block :: blocks => ⟨prev ++ [before ++ [slot]], [], block, blocks⟩
        | _, _ => ⟨prev, before ++ [slot], rest, next⟩ := by
  cases rest <;> cases next <;>
    simp [InstructionWalker.nextInMethod, InstructionWalker.isEndOfBlock,
      InstructionWalker.nextInBlock]

theorem InstructionWalker.nextInMethod_nil (prev : List BasicBlock) (before block : BasicBlock)
    (next : List BasicBlock) :
    (⟨prev, before, [], block :: next⟩ : InstructionWalker).nextInMethod
      = ⟨prev ++ [before], [], block, next⟩ := by
  simp [InstructionWalker.nextInMethod, InstructionWalker.isEndOfBlock]

theorem extendedSlots_nop (rest : BasicBlock) (lastSetFlags : LastSetFlags) :
    extendedSlots (some (Nop .BRANCH_DELAY) :: rest) lastSetFlags
      = (some (Nop .BRANCH_DELAY) :: (extendedSlots rest lastSetFlags).1,
          (extendedSlots rest lastSetFlags).2) := by
  rw [extendedSlots]
  simp [Nop, Instruction.isBranch]

/-- The body of the loop of `extendBranches` for a branch with its condition. -/
theorem extendBranch_eq (prev : List BasicBlock) (before rest : BasicBlock)
    (next : List BasicBlock) (inst : Instruction) (condition : Value)
    (lastSetFlags : LastSetFlags) (hcondition : inst.getCondition = some condition) :
    extendBranch ⟨prev, before, some inst :: rest, next⟩ inst lastSetFlags
      = .ok (⟨prev,
            (before ++ if isConditionalBranch inst condition
                && needsFlags lastSetFlags inst condition then
              [some (branchFlags inst condition)] else []) ++ [some inst],
            some (Nop .BRANCH_DELAY) :: some (Nop .BRANCH_DELAY) :: some (Nop .BRANCH_DELAY)
              :: rest, next⟩,
          if isConditionalBranch inst condition then (condition, inst.decoration)
          else lastSetFlags) := by
  unfold extendBranch
  simp only [hcondition, deref, bind, Except.bind, pure, Except.pure]
  by_cases h1 : isConditionalBranch inst condition = true
  · by_cases h2 : needsFlags lastSetFlags inst condition = true
    · simp [h1, h2, InstructionWalker.assign, InstructionWalker.nextInBlock,
        InstructionWalker.emplace]
    · simp [h1, h2, InstructionWalker.assign, InstructionWalker.nextInBlock,
        InstructionWalker.emplace]
  · simp [h1, InstructionWalker.assign, InstructionWalker.nextInBlock,
      InstructionWalker.emplace]

/-- The loop of `extendBranches` ends within the rounds counted and leaves the blocks described
by `extendedSlots`. -/
theorem extendBranchesLoop_spec (fuel : Nat) :
    ∀ (it : InstructionWalker) (lastSetFlags : LastSetFlags),
      roundsOfWalker it ≤ fuel → branchesComplete it.after →
      (∀ block ∈ it.nextBlocks, branchesComplete block) →
      ∃ final, extendBranchesLoop fuel it lastSetFlags = .ok final
        ∧ final.blocks = extendedFrom it lastSetFlags := by
  induction fuel with
  | zero =>
    intro it last hfuel _ _
    obtain ⟨prev, before, after, next⟩ := it
    cases after with
    | nil =>
      cases next with
      | nil =>
        exact ⟨⟨prev, before, [], []⟩,
          by simp [extendBranchesLoop, InstructionWalker.isEndOfMethod], by
          simp [InstructionWalker.blocks, extendedFrom, extendedSlots, extendedBlocks]⟩
      | cons block blocks =>
        simp [roundsOfWalker, roundsOfBlock] at hfuel
    | cons slot rest =>
      exfalso
      simp only [roundsOfWalker, roundsOfBlock, List.map_cons, List.sum_cons, roundsOfSlot] at hfuel
      split_ifs at hfuel <;> omega
  | succ fuel ih =>
    intro it last hfuel hcomplete hnext
    obtain ⟨prev, before, after, next⟩ := it
    cases after with
    | nil =>
      cases next with
      | nil =>
        exact ⟨⟨prev, before, [], []⟩,
          by simp [extendBranchesLoop, InstructionWalker.isEndOfMethod], by
          simp [InstructionWalker.blocks, extendedFrom, extendedSlots, extendedBlocks]⟩
      | cons block blocks =>
        have hstep : extendBranchesLoop (fuel + 1) ⟨prev, before, [], block :: blocks⟩ last
            = extendBranchesLoop fuel ⟨prev ++ [before], [], block, blocks⟩ last := by
          rw [extendBranchesLoop]
          simp only [InstructionWalker.isEndOfMethod, List.isEmpty_nil, List.isEmpty_cons,
            Bool.and_false, Bool.false_eq_true, if_false, InstructionWalker.get, List.head?_nil,
            Option.join, Option.none_bind, InstructionWalker.nextInMethod_nil]
        obtain ⟨final, hfinal, hblocks⟩ := ih ⟨prev ++ [before], [], block, blocks⟩ last
          (by simp only [roundsOfWalker, roundsOfBlock, List.map_cons, List.sum_cons,
                List.map_nil, List.sum_nil] at hfuel ⊢; omega)
          (hnext block (List.mem_cons_self _ _))
          (fun b hb => hnext b (List.mem_cons_of_mem _ hb))
        refine ⟨final, by rw [hstep, hfinal], ?_⟩
        rw [hblocks]
        simp [extendedFrom, extendedSlots, extendedBlocks]
    | cons slot rest =>
      -- the walker behind the slot, as `nextInMethod` leaves it
      have hmove : ∀ (before2 : BasicBlock) (last2 : LastSetFlags),
          roundsOfBlock rest + (next.map fun block => roundsOfBlock block + 1).sum ≤ fuel →
          branchesComplete rest →
          ∃ final, extendBranchesLoop fuel
              (match rest, next with
                | [], block :: blocks => ⟨prev ++ [before2], [], block, blocks⟩
                | _, _ => ⟨prev, before2, rest, next⟩) last2 = .ok final
            ∧ final.blocks = extendedFrom ⟨prev, before2, rest, next⟩ last2 := by
        intro before2 last2 hrounds hrest
        cases rest with
        | nil =>
          cases next with
          | nil => exact ih _ _ (by simpa [roundsOfWalker] using hrounds) hrest hnext
          | cons block blocks =>
            obtain ⟨final, hfinal, hblocks⟩ := ih ⟨prev ++ [before2], [], block, blocks⟩ last2
              (by simp only [roundsOfWalker, roundsOfBlock, List.map_cons, List.sum_cons,
                    List.map_nil, List.sum_nil] at hrounds ⊢; omega)
              (hnext block (List.mem_cons_self _ _))
              (fun b hb => hnext b (List.mem_cons_of_mem _ hb))
            refine ⟨final, hfinal, ?_⟩
            rw [hblocks]
            simp [extendedFrom, extendedSlots, extendedBlocks]
        | cons slot2 rest2 =>
          exact ih _ _ (by simpa [roundsOfWalker] using hrounds) hrest hnext
      have hrest : branchesComplete rest := fun inst hin =>
        hcomplete inst (List.mem_cons_of_mem _ hin)
      have hnotEnd : (⟨prev, before, slot :: rest, next⟩ : InstructionWalker).isEndOfMethod
          = false := by simp [InstructionWalker.isEndOfMethod]
      cases slot with
      | none =>
        obtain ⟨final, hfinal, hblocks⟩ := hmove (before ++ [none]) last
          (by simp only [roundsOfWalker, roundsOfBlock, List.map_cons, List.sum_cons,
                roundsOfSlot, Option.any_none] at hfuel ⊢
              simp only [Bool.false_eq_true, if_false] at hfuel
              omega) hrest
        refine ⟨final, ?_, ?_⟩
        · rw [extendBranchesLoop]
          simp only [hnotEnd, Bool.false_eq_true, if_false, InstructionWalker.get,
            List.head?_cons, Option.join, Option.some_bind, id_eq,
            InstructionWalker.nextInMethod_cons]
          exact hfinal
        · rw [hblocks]
          simp [extendedFrom, extendedSlots]
      | some inst =>
        by_cases hbranch : inst.isBranch = true
        · obtain ⟨condition, hcondition⟩ := Option.isSome_iff_exists.1
            (hcomplete inst (List.mem_cons_self _ _) hbranch)
          obtain ⟨final, hfinal, hblocks⟩ := ih
            ⟨prev, ((before ++ if isConditionalBranch inst condition
                && needsFlags last inst condition then
              [some (branchFlags inst condition)] else []) ++ [some inst])
                ++ [some (Nop .BRANCH_DELAY)],
              some (Nop .BRANCH_DELAY) :: some (Nop .BRANCH_DELAY) :: rest, next⟩
            (if isConditionalBranch inst condition then (condition, inst.decoration)
              else last)
            (by simp only [roundsOfWalker, roundsOfBlock, List.map_cons, List.sum_cons,
                  roundsOfSlot, Option.any_some, hbranch, if_true] at hfuel ⊢
                simp only [Nop, Instruction.isBranch, reduceCtorEq, decide_False,
                  Bool.false_eq_true, if_false] at hfuel ⊢
                omega)
            (by
              intro i hi
              simp only [List.mem_cons, Option.some.injEq] at hi
              rcases hi with hi | hi | hi
              · subst hi; intro h; simp [Nop, Instruction.isBranch] at h
              · subst hi; intro h; simp [Nop, Instruction.isBranch] at h
              · exact hrest i hi)
            hnext
          refine ⟨final, ?_, ?_⟩
          · rw [extendBranchesLoop]
            simp only [hnotEnd, Bool.false_eq_true, if_false, InstructionWalker.get,
              List.head?_cons, Option.join, Option.some_bind, id_eq, hbranch, if_true,
              extendBranch_eq prev before rest next inst condition last hcondition,
              bind, Except.bind, InstructionWalker.nextInMethod_cons]
            exact hfinal
          · rw [hblocks]
            simp only [extendedFrom, extendedSlots_nop]
            rw [extendedSlots]
            simp only [hbranch, if_true, hcondition, List.append_assoc, List.cons_append,
              List.nil_append]
        · by_cases hflags : inst.setFlags = .SET_FLAGS
          · obtain ⟨final, hfinal, hblocks⟩ := hmove (before ++ [some inst])
              (UNDEFINED_VALUE, InstructionDecorations.NONE)
              (by simp only [roundsOfWalker, roundsOfBlock, List.map_cons, List.sum_cons,
                    roundsOfSlot, Option.any_some, hbranch] at hfuel ⊢
                  simp only [Bool.false_eq_true, if_false] at hfuel
                  omega) hrest
            refine ⟨final, ?_, ?_⟩
            · rw [extendBranchesLoop]
              simp only [hnotEnd, Bool.false_eq_true, if_false, InstructionWalker.get,
                List.head?_cons, Option.join, Option.some_bind, id_eq, hbranch, hflags, if_true,
                InstructionWalker.nextInMethod_cons]
              exact hfinal
            · rw [hblocks]
              simp [extendedFrom, extendedSlots, hbranch, hflags]
          · obtain ⟨final, hfinal, hblocks⟩ := hmove (before ++ [some inst]) last
              (by simp only [roundsOfWalker, roundsOfBlock, List.map_cons, List.sum_cons,
                    roundsOfSlot, Option.any_some, hbranch] at hfuel ⊢
                  simp only [Bool.false_eq_true, if_false] at hfuel
                  omega) hrest
            refine ⟨final, ?_, ?_⟩
            · rw [extendBranchesLoop]
              simp only [hnotEnd, Bool.false_eq_true, if_false, InstructionWalker.get,
                List.head?_cons, Option.join, Option.some_bind, id_eq, hbranch, hflags,
                InstructionWalker.nextInMethod_cons]
              exact hfinal
            · rw [hblocks]
              simp [extendedFrom, extendedSlots, hbranch, hflags]

/-- The function `extendBranches` ends and leaves the blocks described by `extendedBlocks`. -/
theorem extendBranches_eq (blocks : List BasicBlock)
    (hcomplete : ∀ block ∈ blocks, branchesComplete block) :
    extendBranches blocks
      = .ok (extendedBlocks blocks (UNDEFINED_VALUE, InstructionDecorations.NONE)) := by
  cases blocks with
  | nil => rfl
  | cons first rest =>
    obtain ⟨final, hfinal, hblocks⟩ := extendBranchesLoop_spec
      (roundsOfWalker ⟨[], [], first, rest⟩) ⟨[], [], first, rest⟩
      (UNDEFINED_VALUE, InstructionDecorations.NONE) (le_refl _)
      (hcomplete first (List.mem_cons_self _ _))
      (fun b hb => hcomplete b (List.mem_cons_of_mem _ hb))
    simp only [extendBranches, hfinal, Except.map, hblocks, extendedFrom, List.nil_append,
      extendedBlocks]

theorem branchesDelayed_nil : branchesDelayed [] := by
  intro i inst h
  simp at h

/-- A slot that is no branch in front of a block keeps the branches delayed. -/
theorem branchesDelayed_cons (slot : Option Instruction) (block : BasicBlock)
    (hslot : ∀ inst, slot = some inst → inst.isBranch = false)
    (h : branchesDelayed block) : branchesDelayed (slot :: block) := by
  intro i inst hget hbranch
  cases i with
  | zero =>
    simp only [List.get?_cons_zero, Option.some.injEq] at hget
    rw [hslot inst hget] at hbranch
    exact absurd hbranch (by simp)
  | succ i =>
    simp only [List.get?_cons_succ] at hget ⊢
    exact h i inst hget hbranch

/-- A branch with its three NOPs in front of a block keeps the branches delayed. -/
theorem branchesDelayed_branch (branch : Instruction) (block : BasicBlock)
    (hhead : ∀ further, block.head? = some (some further) → further.type ≠ .nop .BRANCH_DELAY)
    (h : branchesDelayed block) :
    branchesDelayed (some branch :: some (Nop .BRANCH_DELAY) :: some (Nop .BRANCH_DELAY)
      :: some (Nop .BRANCH_DELAY) :: block) := by
  intro i inst hget hbranch
  have hnop : ¬ (Nop .BRANCH_DELAY).isBranch = true := by simp [Nop, Instruction.isBranch]
  match i with
  | 0 =>
    refine ⟨rfl, rfl, rfl, ?_⟩
    intro further hfurther
    simp only [zero_add, List.get?_cons_succ] at hfurther
    cases block with
    | nil => simp at hfurther
    | cons x rest =>
      simp only [List.get?_cons_zero, Option.some.injEq] at hfurther
      exact hhead further (by simp [hfurther])
  | 1 =>
    simp only [List.get?_cons_succ, List.get?_cons_zero, Option.some.injEq] at hget
    subst hget
    exact absurd hbranch hnop
  | 2 =>
    simp only [List.get?_cons_succ, List.get?_cons_zero, Option.some.injEq] at hget
    subst hget
    exact absurd hbranch hnop
  | 3 =>
    simp only [List.get?_cons_succ, List.get?_cons_zero, Option.some.injEq] at hget
    subst hget
    exact absurd hbranch hnop
  | i + 4 =>
    simp only [List.get?_cons_succ] at hget ⊢
    exact h i inst hget hbranch

/-- The first of the slots left for a block without NOPs of kind branch-delay is none. -/
theorem extendedSlots_head (block : BasicBlock) (lastSetFlags : LastSetFlags)
    (hnone : withoutDelays block) (further : Instruction)
    (h : (extendedSlots block lastSetFlags).1.head? = some (some further)) :
    further.type ≠ .nop .BRANCH_DELAY := by
  cases block with
  | nil => simp [extendedSlots] at h
  | cons slot rest =>
    cases slot with
    | none => simp [extendedSlots] at h
    | some inst =>
      have hinst := hnone inst (List.mem_cons_self _ _)
      rw [extendedSlots] at h
      by_cases hbranch : inst.isBranch = true
      · simp only [hbranch, if_true] at h
        cases hcondition : inst.getCondition with
        | none =>
          simp only [hcondition, List.head?_cons, Option.some.injEq] at h
          rw [← h]; exact hinst
        | some condition =>
          simp only [hcondition] at h
          by_cases hflags : (isConditionalBranch inst condition
              && needsFlags lastSetFlags inst condition) = true
          · simp only [hflags, if_true, List.cons_append, List.head?_cons,
              Option.some.injEq] at h
            rw [← h]
            simp only [branchFlags, flagSetting]
            split_ifs <;> simp
          · simp only [hflags, Bool.false_eq_true, if_false, List.nil_append, List.head?_cons,
              Option.some.injEq] at h
            rw [← h]; exact hinst
      · simp only [hbranch, Bool.false_eq_true, if_false] at h
        split_ifs at h <;>
        · simp only [List.head?_cons, Option.some.injEq] at h
          rw [← h]; exact hinst

/-- The slots left for a block without NOPs of kind branch-delay have every branch delayed. -/
theorem extendedSlots_delayed (block : BasicBlock) :
    ∀ lastSetFlags : LastSetFlags, branchesComplete block → withoutDelays block →
      branchesDelayed (extendedSlots block lastSetFlags).1 := by
  induction block with
  | nil => intro _ _ _; exact branchesDelayed_nil
  | cons slot rest ih =>
    intro last hcomplete hnone
    have hrestComplete : branchesComplete rest := fun inst hin =>
      hcomplete inst (List.mem_cons_of_mem _ hin)
    have hrestNone : withoutDelays rest := fun inst hin => hnone inst (List.mem_cons_of_mem _ hin)
    cases slot with
    | none =>
      rw [extendedSlots]
      exact branchesDelayed_cons none _ (by intro _ h; simp at h) (ih last hrestComplete hrestNone)
    | some inst =>
      rw [extendedSlots]
      by_cases hbranch : inst.isBranch = true
      · obtain ⟨condition, hcondition⟩ := Option.isSome_iff_exists.1
          (hcomplete inst (List.mem_cons_self _ _) hbranch)
        simp only [hbranch, if_true, hcondition]
        have hdelayed := branchesDelayed_branch inst _
          (extendedSlots_head rest
            (if isConditionalBranch inst condition then (condition, inst.decoration) else last)
            hrestNone)
          (ih (if isConditionalBranch inst condition then (condition, inst.decoration)
            else last) hrestComplete hrestNone)
        by_cases hflags : (isConditionalBranch inst condition
            && needsFlags last inst condition) = true
        · simp only [hflags, if_true, List.cons_append, List.nil_append]
          refine branchesDelayed_cons _ _ ?_ hdelayed
          intro x hx
          rw [← Option.some.inj hx]
          simp only [branchFlags, flagSetting, Instruction.isBranch]
          split_ifs <;> simp
        · simp only [hflags, Bool.false_eq_true, if_false, List.nil_append]
          exact hdelayed
      · have hno : ∀ x, some inst = some x → x.isBranch = false := by
          intro x hx
          rw [← Option.some.inj hx]
          simpa using hbranch
        simp only [hbranch, Bool.false_eq_true, if_false]
        split_ifs
        · exact branchesDelayed_cons _ _ hno (ih _ hrestComplete hrestNone)
        · exact branchesDelayed_cons _ _ hno (ih _ hrestComplete hrestNone)

/-- The slots of a block are left in their order. -/
theorem extendedSlots_sublist (block : BasicBlock) :
    ∀ lastSetFlags : LastSetFlags, branchesComplete block →
      List.Sublist block (extendedSlots block lastSetFlags).1 := by
  induction block with
  | nil => intro _ _; exact List.Sublist.slnil
  | cons slot rest ih =>
    intro last hcomplete
    have hrestComplete : branchesComplete rest := fun inst hin =>
      hcomplete inst (List.mem_cons_of_mem _ hin)
    cases slot with
    | none =>
      rw [extendedSlots]
      exact (ih last hrestComplete).cons₂ _
    | some inst =>
      rw [extendedSlots]
      by_cases hbranch : inst.isBranch = true
      · obtain ⟨condition, hcondition⟩ := Option.isSome_iff_exists.1
          (hcomplete inst (List.mem_cons_self _ _) hbranch)
        simp only [hbranch, if_true, hcondition]
        have hsub : List.Sublist (some inst :: rest)
            (some inst :: some (Nop .BRANCH_DELAY) :: some (Nop .BRANCH_DELAY)
              :: some (Nop .BRANCH_DELAY) :: (extendedSlots rest
                (if isConditionalBranch inst condition then (condition, inst.decoration)
                  else last)).1) :=
          ((((ih _ hrestComplete).cons _).cons _).cons _).cons₂ _
        exact hsub.trans (List.sublist_append_right _ _)
      · simp only [hbranch, Bool.false_eq_true, if_false]
        split_ifs
        · exact (ih _ hrestComplete).cons₂ _
        · exact (ih _ hrestComplete).cons₂ _

/-- C21: `extendBranches`, run on a method without NOPs of kind branch-delay (whose branches
have their condition), ends; in the blocks it leaves every branch, conditional or not, is
followed in its block at once by three NOPs of kind branch-delay and by no fourth one, and every block
holds the slots it had before in their order. -/
theorem extendBranches_delays (blocks : List BasicBlock)
    (hcomplete : ∀ block ∈ blocks, branchesComplete block)
    (hnone : ∀ block ∈ blocks, ∀ inst, some inst ∈ block → inst.type ≠ .nop .BRANCH_DELAY) :
    ∃ result, extendBranches blocks = .ok result
      ∧ (∀ block ∈ result, ∀ (i : Nat) (inst : Instruction),
          block.get? i = some (some inst) → inst.isBranch = true →
            block.get? (i + 1) = some (some (Nop .BRANCH_DELAY))
            ∧ block.get? (i + 2) = some (some (Nop .BRANCH_DELAY))
            ∧ block.get? (i + 3) = some (some (Nop .BRANCH_DELAY))
            ∧ ∀ further, block.get? (i + 4) = some (some further) →
                further.type ≠ .nop .BRANCH_DELAY)
      ∧ List.Forall₂ List.Sublist blocks result := by
  refine ⟨_, extendBranches_eq blocks hcomplete, ?_, ?_⟩
  · have h : ∀ (blocks : List BasicBlock) (last : LastSetFlags),
        (∀ block ∈ blocks, branchesComplete block) → (∀ block ∈ blocks, withoutDelays block) →
        ∀ block ∈ extendedBlocks blocks last, branchesDelayed block := by
      intro blocks
      induction blocks with
      | nil => intro _ _ _ block hb; simp [extendedBlocks] at hb
      | cons first rest ih =>
        intro last hc hn block hb
        simp only [extendedBlocks, List.mem_cons] at hb
        rcases hb with hb | hb
        · rw [hb]
          exact extendedSlots_delayed first last (hc first (List.mem_cons_self _ _))
            (hn first (List.mem_cons_self _ _))
        · exact ih _ (fun b hb => hc b (List.mem_cons_of_mem _ hb))
            (fun b hb => hn b (List.mem_cons_of_mem _ hb)) block hb
    exact h blocks _ hcomplete hnone
  · have h : ∀ (blocks : List BasicBlock) (last : LastSetFlags),
        (∀ block ∈ blocks, branchesComplete block) →
        List.Forall₂ List.Sublist blocks (extendedBlocks blocks last) := by
      intro blocks
      induction blocks with
      | nil => intro _ _; exact List.Forall₂.nil
      | cons first rest ih =>
        intro last hc
        exact List.Forall₂.cons
          (extendedSlots_sublist first last (hc first (List.mem_cons_self _ _)))
          (ih _ (fun b hb => hc b (List.mem_cons_of_mem _ hb)))
    exact h blocks _ hcomplete

/-- The branches of a block have their condition when a check of every slot finds it. -/
theorem branchesComplete_of_all (block : BasicBlock)
    (h : block.all (fun slot => slot.all fun inst =>
      !inst.isBranch || inst.getCondition.isSome) = true) : branchesComplete block := by
  intro inst hinst hbranch
  have := List.all_eq_true.1 h (some inst) hinst
  simpa [hbranch] using this

/-- A block holds no NOP of kind branch-delay when a check of every slot finds none. -/
theorem withoutDelays_of_all (block : BasicBlock)
    (h : block.all (fun slot => slot.all fun inst =>
      decide (inst.type ≠ .nop .BRANCH_DELAY)) = true) : withoutDelays block := by
  intro inst hinst
  have := List.all_eq_true.1 h (some inst) hinst
  simpa using this

/-- Witness for C21: the method `branching` with its three branches, each of them followed by
three NOPs afterwards; the flags are set once for the two branches on `%3`. -/
theorem extendBranches_delays_witness :
    extendBranches Example.branching
        = .ok [[some (Example.label 10),
              some (Example.addition 4 (Example.localValue 1) (Example.literalValue 1)),
              some (flagSetting ELEMENT_NUMBER_REGISTER (Example.localValue 3)),
              some (Example.branch 11 .COND_ZERO_CLEAR (Example.localValue 3)),
              some (Nop .BRANCH_DELAY), some (Nop .BRANCH_DELAY), some (Nop .BRANCH_DELAY),
              some (Example.branch 12 .COND_ZERO_SET (Example.localValue 3)),
              some (Nop .BRANCH_DELAY), some (Nop .BRANCH_DELAY), some (Nop .BRANCH_DELAY)],
            [some (Example.label 11), some (Example.jump 12),
              some (Nop .BRANCH_DELAY), some (Nop .BRANCH_DELAY), some (Nop .BRANCH_DELAY)],
            [some (Example.label 12)]]
      ∧ ∃ result, extendBranches Example.branching = .ok result
          ∧ (∀ block ∈ result, ∀ (i : Nat) (inst : Instruction),
              block.get? i = some (some inst) → inst.isBranch = true →
                block.get? (i + 1) = some (some (Nop .BRANCH_DELAY))
                ∧ block.get? (i + 2) = some (some (Nop .BRANCH_DELAY))
                ∧ block.get? (i + 3) = some (some (Nop .BRANCH_DELAY))
                ∧ ∀ further, block.get? (i + 4) = some (some further) →
                    further.type ≠ .nop .BRANCH_DELAY)
          ∧ List.Forall₂ List.Sublist Example.branching result :=
  ⟨rfl,
    extendBranches_delays Example.branching
      (fun block hblock => branchesComplete_of_all block
        ((by decide : ∀ block ∈ Example.branching, block.all (fun slot => slot.all fun inst =>
          !inst.isBranch || inst.getCondition.isSome) = true) block hblock))
      (fun block hblock => withoutDelays_of_all block
        ((by decide : ∀ block ∈ Example.branching, block.all (fun slot => slot.all fun inst =>
          decide (inst.type ≠ .nop .BRANCH_DELAY)) = true) block hblock))⟩

end vc4c

namespace vc4c

/-- C22: `extendBranches` keeps the flags set last over the begin of a block. In the method
`testingTwice` the blocks 10 and 11 both end in a conditional branch on `%3`, and the block 11
is also the target of the branch on `%7` of the first block. The pass sets the flags for `%7`
in the first block and for `%3` in the block 10, and leaves the block 11 without any
instruction setting flags, although the same block at the begin of a method gets one directly
before its branch: coming from the first block, the branch of the block 11 meets the flags
of `%7`. -/
theorem extendBranches_keeps_flags_over_labels :
    extendBranches Example.testingTwice
        = .ok [[some (Example.label 20),
              some (flagSetting ELEMENT_NUMBER_REGISTER (Example.localValue 7)),
              some (Example.branch 11 .COND_ZERO_CLEAR (Example.localValue 7)),
              some (Nop .BRANCH_DELAY), some (Nop .BRANCH_DELAY), some (Nop .BRANCH_DELAY),
              some (Example.branch 10 .COND_ZERO_SET (Example.localValue 7)),
              some (Nop .BRANCH_DELAY), some (Nop .BRANCH_DELAY), some (Nop .BRANCH_DELAY)],
            [some (Example.label 10),
              some (Example.addition 4 (Example.localValue 1) (Example.literalValue 1)),
              some (flagSetting ELEMENT_NUMBER_REGISTER (Example.localValue 3)),
              some (Example.branch 12 .COND_ZERO_CLEAR (Example.localValue 3)),
              some (Nop .BRANCH_DELAY), some (Nop .BRANCH_DELAY), some (Nop .BRANCH_DELAY)],
            [some (Example.label 11),
              some (Example.addition 4 (Example.localValue 1) (Example.literalValue 1)),
              some (Example.branch 12 .COND_ZERO_CLEAR (Example.localValue 3)),
              some (Nop .BRANCH_DELAY), some (Nop .BRANCH_DELAY), some (Nop .BRANCH_DELAY)],
            [some (Example.label 12)]]
      ∧ isConditionalBranch (Example.branch 12 .COND_ZERO_CLEAR (Example.localValue 3))
          (Example.localValue 3) = true
      ∧ ((extendBranches Example.testingTwice).toOption.bind fun result => result.get? 2).any
          (fun block =>
            block.contains (some (Example.branch 12 .COND_ZERO_CLEAR (Example.localValue 3)))
              && block.all fun slot => slot.all fun inst =>
                  decide (inst.setFlags ≠ .SET_FLAGS)) = true
      ∧ extendBranches [Example.testing 11 12, [some (Example.label 12)]]
        = .ok [[some (Example.label 11),
              some (Example.addition 4 (Example.localValue 1) (Example.literalValue 1)),
              some (flagSetting ELEMENT_NUMBER_REGISTER (Example.localValue 3)),
              some (Example.branch 12 .COND_ZERO_CLEAR (Example.localValue 3)),
              some (Nop .BRANCH_DELAY), some (Nop .BRANCH_DELAY), some (Nop .BRANCH_DELAY)],
            [some (Example.label 12)]] := by
  have h : extendBranches Example.testingTwice
      = .ok [[some (Example.label 20),
            some (flagSetting ELEMENT_NUMBER_REGISTER (Example.localValue 7)),
            some (Example.branch 11 .COND_ZERO_CLEAR (Example.localValue 7)),
            some (Nop .BRANCH_DELAY), some (Nop .BRANCH_DELAY), some (Nop .BRANCH_DELAY),
            some (Example.branch 10 .COND_ZERO_SET (Example.localValue 7)),
            some (Nop .BRANCH_DELAY), some (Nop .BRANCH_DELAY), some (Nop .BRANCH_DELAY)],
          [some (Example.label 10),
            some (Example.addition 4 (Example.localValue 1) (Example.literalValue 1)),
            some (flagSetting ELEMENT_NUMBER_REGISTER (Example.localValue 3)),
            some (Example.branch 12 .COND_ZERO_CLEAR (Example.localValue 3)),
            some (Nop .BRANCH_DELAY), some (Nop .BRANCH_DELAY), some (Nop .BRANCH_DELAY)],
          [some (Example.label 11),
            some (Example.addition 4 (Example.localValue 1) (Example.literalValue 1)),
            some (Example.branch 12 .COND_ZERO_CLEAR (Example.localValue 3)),
            some (Nop .BRANCH_DELAY), some (Nop .BRANCH_DELAY), some (Nop .BRANCH_DELAY)],
          [some (Example.label 12)]] := rfl
  refine ⟨h, rfl, ?_, rfl⟩
  rw [h]
  decide

end vc4c

namespace vc4c

/-- The search for a local does not read the blocks or the bitmap of a method. -/
theorem Method.findLocal_congr (a b : Method) (h : a.locals = b.locals) (name : LocalName) :
    a.findLocal name = b.findLocal name := by
  simp only [Method.findLocal, h]

/-- The label of the default block put in front leaves the locals of other names as they are. -/
theorem emplaceDefaultLabel_findLocal (method : Method) (name : LocalName)
    (hname : name ≠ .DEFAULT_BLOCK) :
    (emplaceDefaultLabel method).findLocal name = method.findLocal name := by
  unfold emplaceDefaultLabel
  by_cases hstart : startsWithDefaultBlock method = true
  · simp only [hstart, if_true]
  · simp only [hstart, Bool.false_eq_true, if_false, Method.findOrCreateLocal]
    cases hfind : method.findLocal .DEFAULT_BLOCK with
    | some entry => rfl
    | none =>
      simp only [Method.findLocal, List.find?_append]
      cases method.locals.find? fun entry => decide (entry.name = name) with
      | some entry => rfl
      | none =>
        simp only [Option.none_or, List.find?_cons, List.find?_nil]
        have : decide (LocalName.DEFAULT_BLOCK = name) = false := by
          simpa using fun h => hname h.symm
        rw [this]

/-- The method begins with a label after `emplaceDefaultLabel`. -/
theorem emplaceDefaultLabel_blocks (method : Method) :
    ∃ label rest blocks, (emplaceDefaultLabel method).blocks = (some label :: rest) :: blocks
      ∧ label.type = .branchLabel := by
  unfold emplaceDefaultLabel
  by_cases hstart : startsWithDefaultBlock method = true
  · simp only [hstart, if_true]
    unfold startsWithDefaultBlock at hstart
    split at hstart
    · rename_i inst rest blocks hblocks
      simp only [Bool.and_eq_true, decide_eq_true_eq] at hstart
      exact ⟨inst, rest, blocks, hblocks, hstart.1⟩
    · exact absurd hstart (by simp)
  · simp only [hstart, Bool.false_eq_true, if_false]
    exact ⟨_, _, _, rfl, rfl⟩

/-- A local that is found is not created. -/
theorem Method.findOrCreateLocal_found (method : Method) (type : DataType) (name : LocalName)
    (loc : MethodLocal) (h : method.findLocal name = some loc) :
    method.findOrCreateLocal type name = (loc, method) := by
  simp only [Method.findOrCreateLocal, h]

/-- One step of `addStartStopSegment` for an implicit argument whose bit is not set. -/
theorem readImplicitArgument_eq (method : Method) (used : UniformsUsed)
    (inserted : List Instruction) (argument : ImplicitArgument)
    (setUsed : UniformsUsed → Bool → UniformsUsed) (hset : setUsed used false = used) :
    readImplicitArgument argument.name argument.uniformType setUsed argument.decorations
        ⟨{ method with uniformsUsed := used }, inserted⟩
      = ⟨{ method with uniformsUsed := setUsed used (isLocalUsed method argument.name) },
          inserted ++ if isLocalUsed method argument.name then [argument.read method] else []⟩ := by
  unfold readImplicitArgument
  by_cases h : isLocalUsed method argument.name = true
  · have hused : isLocalUsed ({ method with uniformsUsed := used } : Method) argument.name
        = true := h
    rw [if_pos hused, if_pos h, h]
    obtain ⟨loc, hloc⟩ : ∃ loc, method.findLocal argument.name = some loc := by
      unfold isLocalUsed at h
      cases hloc : method.findLocal argument.name with
      | none => rw [hloc] at h; exact absurd h (by simp)
      | some loc => exact ⟨loc, rfl⟩
    have hcreate := Method.findOrCreateLocal_found
      ({ method with uniformsUsed := setUsed used true } : Method) argument.uniformType
      argument.name loc hloc
    simp only [hcreate, ImplicitArgument.read,
      Method.findOrCreateLocal_found method argument.uniformType argument.name loc hloc]
  · have hused : ¬ isLocalUsed ({ method with uniformsUsed := used } : Method) argument.name
        = true := h
    have hfalse : isLocalUsed method argument.name = false := by simpa using h
    rw [if_neg hused, if_neg h, List.append_nil, hfalse, hset]

/-- The elements of a list chosen by a test and mapped, as a concatenation. -/
theorem filter_map_eq_flatMap {α β : Type} (p : α → Bool) (f : α → β) (l : List α) :
    (l.filter p).map f = l.flatMap fun a => if p a then [f a] else [] := by
  induction l with
  | nil => rfl
  | cons a rest ih =>
    by_cases h : p a = true
    · simp [List.filter_cons, h, ih]
    · simp [List.filter_cons, h, ih]

/-- The first block after `appendToEnd` begins like the first block before. -/
theorem appendToEnd_head (method : Method) (inst : Instruction) (first : BasicBlock)
    (h : method.blocks.head? = some first) :
    ∃ rest, (method.appendToEnd inst).blocks.head? = some (first ++ rest) := by
  unfold Method.appendToEnd
  cases hblocks : method.blocks with
  | nil => rw [hblocks] at h; simp at h
  | cons b bs =>
    rw [hblocks] at h
    simp only [List.head?_cons, Option.some.injEq] at h
    subst h
    cases bs with
    | nil => exact ⟨[some inst], by simp⟩
    | cons b2 bs2 =>
      refine ⟨[], ?_⟩
      simp only [List.getLast?_cons_cons]
      cases hlast : (b2 :: bs2).getLast? with
      | none => simp at hlast
      | some last => simp [List.dropLast]

theorem appendToEnd_uniformsUsed (method : Method) (inst : Instruction) :
    (method.appendToEnd inst).uniformsUsed = method.uniformsUsed := rfl

/-- The first block after `generateStopSegment` begins like the first block before. -/
theorem generateStopSegment_head (method : Method) (first : BasicBlock)
    (h : method.blocks.head? = some first) :
    ∃ rest, (generateStopSegment method).blocks.head? = some (first ++ rest) := by
  unfold generateStopSegment
  obtain ⟨r1, h1⟩ := appendToEnd_head method _ first h
  obtain ⟨r2, h2⟩ := appendToEnd_head _ _ _ h1
  obtain ⟨r3, h3⟩ := appendToEnd_head _ _ _ h2
  obtain ⟨r4, h4⟩ := appendToEnd_head _ _ _ h3
  exact ⟨r1 ++ r2 ++ r3 ++ r4, by rw [h4]; simp⟩

/-- The thirteen steps of `addStartStopSegment` for the implicit arguments: the bit of an
argument is set if its local is used, and the locals used are read in the order of the
arguments. -/
theorem readImplicitArguments_eq (method : Method) (inserted : List Instruction) :
    readImplicitArguments ⟨{ method with uniformsUsed := UniformsUsed.zero }, inserted⟩
      = ⟨{ method with
            uniformsUsed :=
              ⟨isLocalUsed method .WORK_DIMENSIONS,
              isLocalUsed method .LOCAL_SIZES,
              isLocalUsed method .LOCAL_IDS,
              isLocalUsed method .NUM_GROUPS_X,
              isLocalUsed method .NUM_GROUPS_Y,
              isLocalUsed method .NUM_GROUPS_Z,
              isLocalUsed method .GROUP_ID_X,
              isLocalUsed method .GROUP_ID_Y,
              isLocalUsed method .GROUP_ID_Z,
              isLocalUsed method .GLOBAL_OFFSET_X,
              isLocalUsed method .GLOBAL_OFFSET_Y,
              isLocalUsed method .GLOBAL_OFFSET_Z,
              isLocalUsed method .GLOBAL_DATA_ADDRESS⟩ },
          inserted ++ ImplicitArgument.all.flatMap fun argument =>
            if isLocalUsed method argument.name then [argument.read method] else []⟩ := by
  unfold readImplicitArguments
  simp only []
  have h := fun used inserted hset => readImplicitArgument_eq method used inserted .workDimensions
    UniformsUsed.setWorkDimensionsUsed hset
  simp only [ImplicitArgument.name, ImplicitArgument.uniformType,
    ImplicitArgument.decorations] at h
  rw [h _ _ rfl]
  clear h
  have h := fun used inserted hset => readImplicitArgument_eq method used inserted .localSizes
    UniformsUsed.setLocalSizesUsed hset
  simp only [ImplicitArgument.name, ImplicitArgument.uniformType,
    ImplicitArgument.decorations] at h
  rw [h _ _ rfl]
  clear h
  have h := fun used inserted hset => readImplicitArgument_eq method used inserted .localIDs
    UniformsUsed.setLocalIDsUsed hset
  simp only [ImplicitArgument.name, ImplicitArgument.uniformType,
    ImplicitArgument.decorations] at h
  rw [h _ _ rfl]
  clear h
  have h := fun used inserted hset => readImplicitArgument_eq method used inserted .numGroupsX
    UniformsUsed.setNumGroupsXUsed hset
  simp only [ImplicitArgument.name, ImplicitArgument.uniformType,
    ImplicitArgument.decorations] at h
  rw [h _ _ rfl]
  clear h
  have h := fun used inserted hset => readImplicitArgument_eq method used inserted .numGroupsY
    UniformsUsed.setNumGroupsYUsed hset
  simp only [ImplicitArgument.name, ImplicitArgument.uniformType,
    ImplicitArgument.decorations] at h
  rw [h _ _ rfl]
  clear h
  have h := fun used inserted hset => readImplicitArgument_eq method used inserted .numGroupsZ
    UniformsUsed.setNumGroupsZUsed hset
  simp only [ImplicitArgument.name, ImplicitArgument.uniformType,
    ImplicitArgument.decorations] at h
  rw [h _ _ rfl]
  clear h
  have h := fun used inserted hset => readImplicitArgument_eq method used inserted .groupIDX
    UniformsUsed.setGroupIDXUsed hset
  simp only [ImplicitArgument.name, ImplicitArgument.uniformType,
    ImplicitArgument.decorations] at h
  rw [h _ _ rfl]
  clear h
  have h := fun used inserted hset => readImplicitArgument_eq method used inserted .groupIDY
    UniformsUsed.setGroupIDYUsed hset
  simp only [ImplicitArgument.name, ImplicitArgument.uniformType,
    ImplicitArgument.decorations] at h
  rw [h _ _ rfl]
  clear h
  have h := fun used inserted hset => readImplicitArgument_eq method used inserted .groupIDZ
    UniformsUsed.setGroupIDZUsed hset
  simp only [ImplicitArgument.name, ImplicitArgument.uniformType,
    ImplicitArgument.decorations] at h
  rw [h _ _ rfl]
  clear h
  have h := fun used inserted hset => readImplicitArgument_eq method used inserted .globalOffsetX
    UniformsUsed.setGlobalOffsetXUsed hset
  simp only [ImplicitArgument.name, ImplicitArgument.uniformType,
    ImplicitArgument.decorations] at h
  rw [h _ _ rfl]
  clear h
  have h := fun used inserted hset => readImplicitArgument_eq method used inserted .globalOffsetY
    UniformsUsed.setGlobalOffsetYUsed hset
  simp only [ImplicitArgument.name, ImplicitArgument.uniformType,
    ImplicitArgument.decorations] at h
  rw [h _ _ rfl]
  clear h
  have h := fun used inserted hset => readImplicitArgument_eq method used inserted .globalOffsetZ
    UniformsUsed.setGlobalOffsetZUsed hset
  simp only [ImplicitArgument.name, ImplicitArgument.uniformType,
    ImplicitArgument.decorations] at h
  rw [h _ _ rfl]
  clear h
  have h := fun used inserted hset => readImplicitArgument_eq method used inserted .globalDataAddress
    UniformsUsed.setGlobalDataAddressUsed hset
  simp only [ImplicitArgument.name, ImplicitArgument.uniformType,
    ImplicitArgument.decorations] at h
  rw [h _ _ rfl]
  clear h
  congr 1
  simp only [ImplicitArgument.all, List.flatMap_cons, List.flatMap_nil, List.append_assoc,
    List.append_nil, ImplicitArgument.name]

theorem emplaceDefaultLabel_isLocalUsed (method : Method) (argument : ImplicitArgument) :
    isLocalUsed (emplaceDefaultLabel method) argument.name = isLocalUsed method argument.name := by
  unfold isLocalUsed
  rw [emplaceDefaultLabel_findLocal method argument.name (by cases argument <;> simp
    [ImplicitArgument.name])]

theorem emplaceDefaultLabel_read (method : Method) (argument : ImplicitArgument)
    (h : isLocalUsed method argument.name = true) :
    argument.read (emplaceDefaultLabel method) = argument.read method := by
  have hfind := emplaceDefaultLabel_findLocal method argument.name (by cases argument <;> simp
    [ImplicitArgument.name])
  unfold isLocalUsed at h
  cases hloc : method.findLocal argument.name with
  | none => rw [hloc] at h; exact absurd h (by simp)
  | some loc =>
    rw [hloc] at hfind
    simp only [ImplicitArgument.read, Method.findOrCreateLocal_found _ _ _ loc hfind,
      Method.findOrCreateLocal_found _ _ _ loc hloc]

theorem emplaceDefaultLabel_tmu1Used (method : Method) :
    tmu1Used (emplaceDefaultLabel method) = tmu1Used method := by
  unfold emplaceDefaultLabel
  by_cases hstart : startsWithDefaultBlock method = true
  · simp only [hstart, if_true]
  · simp only [hstart, Bool.false_eq_true, if_false, tmu1Used, List.any_cons, List.any_nil,
      Option.any_some, Bool.or_false]
    have h1 : ∀ label, (BranchLabel label).writesRegister REG_TMU1_ADDRESS = false := by
      intro label
      simp [BranchLabel, Instruction.writesRegister, Instruction.getOutput, Value.hasRegister]
    have h2 : (method.findOrCreateLocal TYPE_LABEL .DEFAULT_BLOCK).2.blocks = method.blocks := by
      unfold Method.findOrCreateLocal
      cases method.findLocal .DEFAULT_BLOCK <;> rfl
    rw [h1, Bool.false_or, h2]

theorem emplaceDefaultLabel_parameters (method : Method) :
    (emplaceDefaultLabel method).parameters = method.parameters := by
  unfold emplaceDefaultLabel
  by_cases hstart : startsWithDefaultBlock method = true
  · simp only [hstart, if_true]
  · simp only [hstart, Bool.false_eq_true, if_false]
    unfold Method.findOrCreateLocal
    cases method.findLocal .DEFAULT_BLOCK <;> rfl

/-- C26: `addStartStopSegment` leaves, right behind the label at the begin of the first block,
the write disabling the swap of the TMUs (if the second TMU is written explicitly), then the
reads of the implicit arguments whose local is used, in the fixed order of the arguments, then
the loads of the parameters in the order of their declaration. The bit of an implicit argument
in `uniformsUsed` is set afterwards exactly when its read was emitted, whatever it was before;
the local of an argument is used exactly when it exists and has a reader; every read moves the
register UNIFORM into the local of the argument and is decorated as unsigned and, except for
the local ids, as uniform over the work-group. -/
theorem addStartStopSegment_reads (method : Method) :
    (∃ label rest,
      (addStartStopSegment method).blocks.head?
        = some (some label ::
            (((if tmu1Used method then
                  [moveOperation ⟨.register REG_TMU_NOSWAP, DataType.TYPE_BOOL⟩ BOOL_TRUE
                    .COND_ALWAYS InstructionDecorations.NONE]
                else [])
              ++ (ImplicitArgument.all.filter fun argument =>
                    isLocalUsed method argument.name).map (ImplicitArgument.read method)
              ++ method.parameters.flatMap loadParameter).map some ++ rest))
      ∧ label.type = .branchLabel)
    ∧ (∀ argument : ImplicitArgument,
        argument.isUsed (addStartStopSegment method).uniformsUsed
          = isLocalUsed method argument.name)
    ∧ (∀ argument : ImplicitArgument,
        isLocalUsed method argument.name = true
          ↔ ∃ loc, method.findLocal argument.name = some loc ∧ 0 < loc.readers)
    ∧ (∀ (argument : ImplicitArgument) (loc : MethodLocal),
        method.findLocal argument.name = some loc →
          argument.read method
            = moveOperation ⟨.loc loc.id, loc.type⟩ ⟨.register REG_UNIFORM, argument.uniformType⟩
                .COND_ALWAYS argument.decorations)
    ∧ (∀ argument : ImplicitArgument,
        argument.decorations.unsignedResult = true
        ∧ (argument.decorations.workGroupUniformValue = true ↔ argument ≠ .localIDs)) := by
  have hsegment : addStartStopSegment method
      = generateStopSegment (StartSegment.finish
          ⟨{ emplaceDefaultLabel method with
              uniformsUsed :=
                ⟨isLocalUsed (emplaceDefaultLabel method) .WORK_DIMENSIONS,
                  isLocalUsed (emplaceDefaultLabel method) .LOCAL_SIZES,
                  isLocalUsed (emplaceDefaultLabel method) .LOCAL_IDS,
                  isLocalUsed (emplaceDefaultLabel method) .NUM_GROUPS_X,
                  isLocalUsed (emplaceDefaultLabel method) .NUM_GROUPS_Y,
                  isLocalUsed (emplaceDefaultLabel method) .NUM_GROUPS_Z,
                  isLocalUsed (emplaceDefaultLabel method) .GROUP_ID_X,
                  isLocalUsed (emplaceDefaultLabel method) .GROUP_ID_Y,
                  isLocalUsed (emplaceDefaultLabel method) .GROUP_ID_Z,
                  isLocalUsed (emplaceDefaultLabel method) .GLOBAL_OFFSET_X,
                  isLocalUsed (emplaceDefaultLabel method) .GLOBAL_OFFSET_Y,
                  isLocalUsed (emplaceDefaultLabel method) .GLOBAL_OFFSET_Z,
                  isLocalUsed (emplaceDefaultLabel method) .GLOBAL_DATA_ADDRESS⟩ },
            ((if tmu1Used (emplaceDefaultLabel method) then
                  [moveOperation ⟨.register REG_TMU_NOSWAP, DataType.TYPE_BOOL⟩ BOOL_TRUE
                    .COND_ALWAYS InstructionDecorations.NONE]
                else [])
              ++ ImplicitArgument.all.flatMap fun argument =>
                  if isLocalUsed (emplaceDefaultLabel method) argument.name then
                    [argument.read (emplaceDefaultLabel method)] else [])
              ++ (emplaceDefaultLabel method).parameters.flatMap loadParameter⟩) := by
    unfold addStartStopSegment
    simp only []
    rw [readImplicitArguments_eq]
  have hreads : (ImplicitArgument.all.flatMap fun argument =>
        if isLocalUsed (emplaceDefaultLabel method) argument.name then
          [argument.read (emplaceDefaultLabel method)] else [])
      = (ImplicitArgument.all.filter fun argument =>
          isLocalUsed method argument.name).map (ImplicitArgument.read method) := by
    rw [filter_map_eq_flatMap]
    congr 1
    funext argument
    rw [emplaceDefaultLabel_isLocalUsed]
    by_cases h : isLocalUsed method argument.name = true
    · rw [if_pos h, if_pos h, emplaceDefaultLabel_read method argument h]
    · rw [if_neg h, if_neg h]
  obtain ⟨segment, hresult, hblocksOf, hinserted, hused⟩ :
      ∃ segment : StartSegment, addStartStopSegment method = generateStopSegment segment.finish
        ∧ segment.method.blocks = (emplaceDefaultLabel method).blocks
        ∧ segment.inserted
          = ((if tmu1Used (emplaceDefaultLabel method) then
                  [moveOperation ⟨.register REG_TMU_NOSWAP, DataType.TYPE_BOOL⟩ BOOL_TRUE
                    .COND_ALWAYS InstructionDecorations.NONE]
                else [])
              ++ ImplicitArgument.all.flatMap fun argument =>
                  if isLocalUsed (emplaceDefaultLabel method) argument.name then
                    [argument.read (emplaceDefaultLabel method)] else [])
              ++ (emplaceDefaultLabel method).parameters.flatMap loadParameter
        ∧ ∀ argument : ImplicitArgument, argument.isUsed segment.method.uniformsUsed
            = isLocalUsed (emplaceDefaultLabel method) argument.name :=
    ⟨_, hsegment, rfl, rfl, fun argument => by cases argument <;> rfl⟩
  refine ⟨?_, ?_, ?_, ?_, ?_⟩
  · obtain ⟨label, rest, blocks, hblocks, hlabel⟩ := emplaceDefaultLabel_blocks method
    rw [hblocks] at hblocksOf
    obtain ⟨more, hmore⟩ := generateStopSegment_head segment.finish
      (some label :: (segment.inserted.map some ++ rest))
      (by simp only [StartSegment.finish, hblocksOf, List.head?_cons])
    refine ⟨label, rest ++ more, ?_, hlabel⟩
    rw [hresult, hmore, hinserted, hreads, emplaceDefaultLabel_tmu1Used,
      emplaceDefaultLabel_parameters]
    simp only [List.cons_append, List.append_assoc]
  · intro argument
    rw [hresult]
    have hbits : ∀ m : Method, (generateStopSegment m).uniformsUsed = m.uniformsUsed :=
      fun _ => rfl
    rw [hbits]
    have hfinish : segment.finish.uniformsUsed = segment.method.uniformsUsed := rfl
    rw [hfinish, hused, emplaceDefaultLabel_isLocalUsed]
  · intro argument
    unfold isLocalUsed
    cases method.findLocal argument.name with
    | none => simp
    | some loc => simp [Nat.pos_iff_ne_zero]
  · intro argument loc hloc
    simp only [ImplicitArgument.read, Method.findOrCreateLocal_found _ _ _ loc hloc]
  · intro argument
    cases argument <;> decide

/-- Witness for C26: in the kernel `f(int a, char b)` the local sizes and the local ids are
read, in this order, in front of the loads of the two parameters; their two bits are the ones
set afterwards. -/
theorem addStartStopSegment_reads_witness :
    (addStartStopSegment Example.kernel).blocks.head?
        = some [some (Example.label 20),
            some (moveOperation (Example.localValue 21) ⟨.register REG_UNIFORM, Example.int32⟩
              .COND_ALWAYS workInfoDecorations),
            some (moveOperation (Example.localValue 22) ⟨.register REG_UNIFORM, Example.int32⟩
              .COND_ALWAYS InstructionDecorations.UNSIGNED_RESULT),
            some (moveOperation (Example.localValue 30) ⟨.register REG_UNIFORM, Example.int32⟩
              .COND_ALWAYS InstructionDecorations.WORK_GROUP_UNIFORM_VALUE),
            some (extendParameter true ⟨31, .simple 8 1, true, false⟩ .COND_ALWAYS
              InstructionDecorations.NONE),
            some (Example.addition 4 (Example.localValue 21) (Example.localValue 22)),
            some ((⟨.operation OP_NOT, some ⟨.register REG_HOST_INTERRUPT, DataType.TYPE_INT8⟩,
              [⟨.register REG_QPU_NUMBER, DataType.TYPE_INT8⟩], .COND_ALWAYS, .DONT_SET,
              .SIGNAL_NONE, InstructionDecorations.WORK_GROUP_UNIFORM_VALUE⟩ : Instruction)),
            some { Nop .THREAD_END with signal := .SIGNAL_END_PROGRAM },
            some (Nop .THREAD_END), some (Nop .THREAD_END)]
      ∧ (addStartStopSegment Example.kernel).uniformsUsed
          = { UniformsUsed.zero with localSizesUsed := true, localIDsUsed := true }
      ∧ ImplicitArgument.workDimensions.isUsed (addStartStopSegment Example.kernel).uniformsUsed
          = isLocalUsed Example.kernel .WORK_DIMENSIONS
      ∧ ∃ loc, Example.kernel.findLocal .LOCAL_IDS = some loc ∧ 0 < loc.readers :=
  ⟨by decide, by decide,
    (addStartStopSegment_reads Example.kernel).2.1 .workDimensions,
    ((addStartStopSegment_reads Example.kernel).2.2.1 .localIDs).1 (by decide)⟩

end vc4c

namespace vc4c

/-- C23: a block merged into a predecessor that branches to it is not removed, and the pass
finds the same pair again. In the method `sequence true` the first block ends in a branch to
the second one: `mergeAdjacentBasicBlocks` puts the instruction of the second block behind that
branch and leaves the second block, emptied, in the method; the two blocks are still adjacent
with the first one the single predecessor of the second one and the second one the single
successor of the first one, and a second run returns true again and changes the method once
more. Without the branch the second block is removed and the second run returns false and
leaves the method as it is. -/
theorem mergeAdjacentBasicBlocks_keeps_branched_block :
    blocksToMerge (Example.sequence true) = [(10, 11)]
      ∧ mergeAdjacentBasicBlocks (Example.sequence true)
        = .ok ({ Example.sequence true with
            blocks := [[some (Example.label 10),
                some (Example.assignment 1 (Example.literalValue 5)), some (Example.jump 11),
                some (Example.assignment 2 (Example.literalValue 6))],
              [some (Example.label 11), none],
              [some (Example.label 12)]] }, true)
      ∧ (createCFG [[some (Example.label 10),
                some (Example.assignment 1 (Example.literalValue 5)), some (Example.jump 11),
                some (Example.assignment 2 (Example.literalValue 6))],
              [some (Example.label 11), none],
              [some (Example.label 12)]]).getSinglePredecessor 11 = some 10
      ∧ (createCFG [[some (Example.label 10),
                some (Example.assignment 1 (Example.literalValue 5)), some (Example.jump 11),
                some (Example.assignment 2 (Example.literalValue 6))],
              [some (Example.label 11), none],
              [some (Example.label 12)]]).getSingleSuccessor 10 = some 11
      ∧ mergeAdjacentBasicBlocks { Example.sequence true with
            blocks := [[some (Example.label 10),
                some (Example.assignment 1 (Example.literalValue 5)), some (Example.jump 11),
                some (Example.assignment 2 (Example.literalValue 6))],
              [some (Example.label 11), none],
              [some (Example.label 12)]] }
        = .ok ({ Example.sequence true with
            blocks := [[some (Example.label 10),
                some (Example.assignment 1 (Example.literalValue 5)), some (Example.jump 11),
                some (Example.assignment 2 (Example.literalValue 6)), none],
              [some (Example.label 11), none],
              [some (Example.label 12)]] }, true)
      ∧ mergeAdjacentBasicBlocks (Example.sequence false)
        = .ok ({ Example.sequence false with
            blocks := [[some (Example.label 10),
                some (Example.assignment 1 (Example.literalValue 5)),
                some (Example.assignment 2 (Example.literalValue 6))],
              [some (Example.label 12)]] }, true)
      ∧ mergeAdjacentBasicBlocks { Example.sequence false with
            blocks := [[some (Example.label 10),
                some (Example.assignment 1 (Example.literalValue 5)),
                some (Example.assignment 2 (Example.literalValue 6))],
              [some (Example.label 12)]] }
        = .ok ({ Example.sequence false with
            blocks := [[some (Example.label 10),
                some (Example.assignment 1 (Example.literalValue 5)),
                some (Example.assignment 2 (Example.literalValue 6))],
              [some (Example.label 12)]] }, false) :=
  ⟨by decide, rfl, by decide, by decide, rfl, rfl, rfl⟩

end vc4c

namespace vc4c

/-- A block found by its label at the head of the blocks. -/
theorem findBasicBlock_head (block : BasicBlock) (others : List BasicBlock) (label : Local)
    (h : getLabel block = some label) : findBasicBlock (block :: others) label = some block := by
  simp [findBasicBlock, List.find?_cons, h]

/-- A block found by its label behind blocks of other labels. -/
theorem findBasicBlock_append (before after : List BasicBlock) (block : BasicBlock)
    (label : Local) (h : getLabel block = some label)
    (hbefore : ∀ other ∈ before, getLabel other ≠ some label) :
    findBasicBlock (before ++ block :: after) label = some block := by
  induction before with
  | nil => exact findBasicBlock_head block after label h
  | cons first rest ih =>
    have hfirst := hbefore first (List.mem_cons_self _ _)
    simp only [findBasicBlock, List.cons_append, List.find?_cons, hfirst, decide_False]
    exact ih (fun other ho => hbefore other (List.mem_cons_of_mem _ ho))

/-- Replacing the block of a label leaves blocks of other labels as they are. -/
theorem replaceBlock_others (blocks : List BasicBlock) (label : Local) (block : BasicBlock)
    (h : ∀ other ∈ blocks, getLabel other ≠ some label) :
    replaceBlock blocks label block = blocks := by
  induction blocks with
  | nil => rfl
  | cons first rest ih =>
    simp only [replaceBlock, List.map_cons, h first (List.mem_cons_self _ _), if_false]
    congr 1
    exact ih (fun other ho => h other (List.mem_cons_of_mem _ ho))

theorem replaceBlock_cons (first : BasicBlock) (rest : List BasicBlock) (label : Local)
    (block : BasicBlock) :
    replaceBlock (first :: rest) label block
      = (if getLabel first = some label then block else first)
        :: replaceBlock rest label block := rfl

theorem replaceBlock_append (before after : List BasicBlock) (label : Local)
    (block : BasicBlock) :
    replaceBlock (before ++ after) label block
      = replaceBlock before label block ++ replaceBlock after label block := by
  simp [replaceBlock]

/-- The slots put into the predecessor hold no branch and no label. -/
theorem movedSlots_plain (nonlocalLocals : List Local) (cond : ConditionCode)
    (block : BasicBlock) (slot : Option Instruction)
    (h : slot ∈ movedSlots nonlocalLocals cond block) (inst : Instruction)
    (hinst : slot = some inst) : inst.isBranch = false ∧ inst.type ≠ .branchLabel := by
  subst hinst
  simp only [movedSlots, List.mem_filterMap] at h
  obtain ⟨source, -, hsource⟩ := h
  cases source with
  | none => simp at hsource
  | some original =>
    simp only at hsource
    split_ifs at hsource with h1 h2 h3
    · simp only [Option.some.injEq] at hsource
      rw [← hsource]
      exact ⟨by simpa [Instruction.isBranch, Instruction.setCondition] using h2,
        by simpa [Instruction.setCondition] using h1⟩
    · simp only [Option.some.injEq] at hsource
      rw [← hsource]
      exact ⟨by simpa using h2, h1⟩

/-- The slots put into the predecessor for a block of a label, instructions and branches at the
end. -/
theorem movedSlots_block (nonlocalLocals : List Local) (cond : ConditionCode)
    (label : Instruction) (body exits : List Instruction)
    (hlabel : label.type = .branchLabel)
    (hbody : ∀ inst ∈ body, inst.type ≠ .branchLabel ∧ inst.isBranch = false)
    (hexits : ∀ inst ∈ exits, inst.isBranch = true) :
    movedSlots nonlocalLocals cond (some label :: (body.map some ++ exits.map some))
      = body.map fun inst =>
          some (if nonlocalLocals.any (fun loc => inst.writesLocal loc) then
            inst.setCondition cond else inst) := by
  have hexit : ∀ exits : List Instruction, (∀ inst ∈ exits, inst.isBranch = true) →
      movedSlots nonlocalLocals cond (exits.map some) = [] := by
    intro exits
    induction exits with
    | nil => intro _; rfl
    | cons first rest ih =>
      intro h
      have hfirst := h first (List.mem_cons_self _ _)
      have htype : first.type = .branch := by simpa [Instruction.isBranch] using hfirst
      have := ih (fun inst hi => h inst (List.mem_cons_of_mem _ hi))
      simp only [movedSlots] at this ⊢
      simp only [List.map_cons, List.filterMap_cons, htype, reduceCtorEq, if_false, hfirst,
        if_true, this]
  have happend : ∀ a b : BasicBlock, movedSlots nonlocalLocals cond (a ++ b)
      = movedSlots nonlocalLocals cond a ++ movedSlots nonlocalLocals cond b := by
    intro a b
    simp [movedSlots, List.filterMap_append]
  have hbodyMoved : ∀ body : List Instruction,
      (∀ inst ∈ body, inst.type ≠ .branchLabel ∧ inst.isBranch = false) →
      movedSlots nonlocalLocals cond (body.map some)
        = body.map fun inst =>
            some (if nonlocalLocals.any (fun loc => inst.writesLocal loc) then
              inst.setCondition cond else inst) := by
    intro body
    induction body with
    | nil => intro _; rfl
    | cons first rest ih =>
      intro h
      have hfirst := h first (List.mem_cons_self _ _)
      have := ih (fun inst hi => h inst (List.mem_cons_of_mem _ hi))
      simp only [movedSlots] at this ⊢
      simp only [List.map_cons, List.filterMap_cons, hfirst.1, if_false, hfirst.2,
        Bool.false_eq_true, this]
      split_ifs <;> rfl
  have hhead : movedSlots nonlocalLocals cond [some label] = [] := by
    simp [movedSlots, hlabel]
  rw [show some label :: (body.map some ++ exits.map some)
    = [some label] ++ (body.map some ++ exits.map some) from rfl, happend, happend, hhead,
    hexit exits hexits, hbodyMoved body hbody]
  simp

theorem getLabel_cons (inst : Instruction) (rest : BasicBlock) :
    getLabel (some inst :: rest) = getLabel [some inst] := rfl

/-- A label is an instruction of the type `BranchLabel`. -/
theorem label_type (inst : Instruction) (label : Local) (h : getLabel [some inst] = some label) :
    inst.type = .branchLabel := by
  unfold getLabel at h
  by_contra hne
  simp [hne] at h

theorem branchTargets_append (a b : BasicBlock) :
    branchTargets (a ++ b) = branchTargets a ++ branchTargets b := by
  simp [branchTargets, List.filterMap_append]

/-- A block of slots that are no branches has no targets. -/
theorem branchTargets_plain (block : BasicBlock)
    (h : ∀ slot ∈ block, ∀ inst, slot = some inst → inst.isBranch = false) :
    branchTargets block = [] := by
  induction block with
  | nil => rfl
  | cons slot rest ih =>
    have hrest := ih (fun s hs => h s (List.mem_cons_of_mem _ hs))
    simp only [branchTargets] at hrest ⊢
    cases slot with
    | none => simp [List.filterMap_cons, hrest]
    | some inst =>
      have := h (some inst) (List.mem_cons_self _ _) inst rfl
      simp [List.filterMap_cons, this, hrest]

/-- A slot of a block without the target is no branch to the target. -/
theorem not_branch_to (block : BasicBlock) (target : Local)
    (h : target ∉ branchTargets block) (slot : Option Instruction) (hslot : slot ∈ block) :
    (slot.any fun inst => inst.isBranch && decide (inst.getTarget = some target)) = false := by
  cases slot with
  | none => rfl
  | some inst =>
    by_contra hne
    simp only [Option.any_some, Bool.not_eq_false, Bool.and_eq_true, decide_eq_true_eq] at hne
    apply h
    simp only [branchTargets, List.mem_filterMap]
    exact ⟨some inst, hslot, by simp [hne.1, hne.2]⟩

/-- The first slot passing a test behind slots that fail it. -/
theorem findIdx_skip {α : Type} (p : α → Bool) (front : List α) (x : α) (back : List α)
    (hfront : ∀ y ∈ front, p y = false) (hx : p x = true) :
    (front ++ x :: back).findIdx? p = some front.length := by
  induction front with
  | nil => simp [List.findIdx?_cons, hx]
  | cons first rest ih =>
    have h1 := hfront first (List.mem_cons_self _ _)
    have h2 := ih (fun y hy => hfront y (List.mem_cons_of_mem _ hy))
    simp [List.findIdx?_cons, h1, List.findIdx?_succ, h2]

/-- A block emptied of its instructions keeps its label. -/
theorem removeBlock_emptied (pred : BasicBlock) (before after : List BasicBlock)
    (labelS : Instruction) (slots : BasicBlock) (p s : Local)
    (hpred : getLabel pred = some p) (hS : getLabel [some labelS] = some s) (hps : p ≠ s)
    (hnone : ∀ slot ∈ slots, slot = none)
    (hpredTargets : s ∉ branchTargets pred)
    (hothers : ∀ block ∈ before ++ after, getLabel block ≠ some s ∧ s ∉ branchTargets block) :
    removeBlock (pred :: (before ++ (some labelS :: slots) :: after)) s
      = (pred :: (before ++ after), true) := by
  have hfind : findBasicBlock (pred :: (before ++ (some labelS :: slots) :: after)) s
      = some (some labelS :: slots) := by
    have hne : getLabel pred ≠ some s := by rw [hpred]; simpa using hps
    simp only [findBasicBlock, List.find?_cons, hne, decide_False]
    exact findBasicBlock_append before after _ s (by rw [getLabel_cons]; exact hS)
      (fun other ho => (hothers other (List.mem_append_left _ ho)).1)
  have hplain : branchTargets (some labelS :: slots) = [] := by
    apply branchTargets_plain
    intro slot hslot inst hinst
    rcases List.mem_cons.1 hslot with h | h
    · rw [h] at hinst
      rw [← Option.some.inj hinst]
      simp [Instruction.isBranch, label_type labelS s hS]
    · rw [hnone slot h] at hinst
      exact absurd hinst (by simp)
  unfold removeBlock
  rw [hfind]
  have hcond : ((some labelS :: slots).tail.all (fun slot => slot.isNone) = true)
      ∧ ((pred :: (before ++ (some labelS :: slots) :: after)).all
          (fun other => !(branchTargets other).contains s) = true) := by
    constructor
    · simp only [List.tail_cons, List.all_eq_true]
      intro slot hslot
      rw [hnone slot hslot]
      rfl
    · simp only [List.all_eq_true, List.mem_cons, List.mem_append, Bool.not_eq_true',
        List.contains_eq_any_beq, List.any_eq_false, beq_iff_eq]
      intro other hother
      rcases hother with h | h | h | h
      · rw [h]; intro x hx hxs; exact hpredTargets (by rw [hxs]; exact hx)
      · intro x hx hxs
        exact (hothers other (List.mem_append_left _ h)).2 (by rw [hxs]; exact hx)
      · rw [h, hplain]; simp
      · intro x hx hxs
        exact (hothers other (List.mem_append_right _ h)).2 (by rw [hxs]; exact hx)
  simp only []
  rw [if_pos hcond]
  have hne : getLabel pred ≠ some s := by rw [hpred]; simpa using hps
  have hkeep : ∀ l : List BasicBlock, (∀ block ∈ l, getLabel block ≠ some s) →
      l.filter (fun other => decide (getLabel other ≠ some s)) = l := by
    intro l hl
    rw [List.filter_eq_self]
    intro block hb
    simpa using hl block hb
  simp only [List.filter_cons, hne, ne_eq, not_false_eq_true, decide_True, if_true,
    List.filter_append, getLabel_cons labelS slots, hS, not_true_eq_false, decide_False,
    Bool.false_eq_true, if_false]
  rw [hkeep before (fun b hb => (hothers b (List.mem_append_left _ hb)).1),
    hkeep after (fun b hb => (hothers b (List.mem_append_right _ hb)).1)]

/-- The body of the second loop of `simplifyConditionalBlocks` for a conditional block the
predecessor branches to under a condition: the flags are set for the condition, the
instructions of the block follow, those writing a local not limited to the block under the
condition code of the branch, the branch is erased and the block removed. -/
theorem inlineConditionalBlock_conditional (env : ConditionalEnvironment)
    (nonlocalLocals : List Local) (p s : Local) (labelP labelS branch : Instruction)
    (front back tail : BasicBlock) (before after : List BasicBlock) (condition : Value)
    (beforeBranches : Nat)
    (hP : getLabel [some labelP] = some p) (hS : getLabel [some labelS] = some s)
    (hps : p ≠ s)
    (hfront : s ∉ branchTargets front) (hback : s ∉ branchTargets back)
    (hbranch : branch.isBranch = true) (htarget : branch.getTarget = some s)
    (hconditional : branch.hasConditionalExecution = true)
    (hcondition : branch.getCondition = some condition)
    (hothers : ∀ block ∈ before ++ after,
      getLabel block ≠ some p ∧ getLabel block ≠ some s ∧ s ∉ branchTargets block) :
    inlineConditionalBlock env nonlocalLocals p
        ((some labelP :: (front ++ some branch :: back))
          :: (before ++ (some labelS :: tail) :: after), beforeBranches) s
      = .ok ((some labelP :: (front ++ some (flagMove condition)
              :: (movedSlots nonlocalLocals branch.conditional (some labelS :: tail) ++ back)))
            :: (before ++ after), beforeBranches) := by
  have hlabelP := label_type labelP p hP
  have hpredLabel : ∀ rest, getLabel (some labelP :: rest) = some p := fun rest => by
    rw [getLabel_cons]; exact hP
  have hSLabel : ∀ rest, getLabel (some labelS :: rest) = some s := fun rest => by
    rw [getLabel_cons]; exact hS
  have hfindP : findBasicBlock ((some labelP :: (front ++ some branch :: back))
      :: (before ++ (some labelS :: tail) :: after)) p
      = some (some labelP :: (front ++ some branch :: back)) :=
    findBasicBlock_head _ _ p (hpredLabel _)
  have hfindS : findBasicBlock ((some labelP :: (front ++ some branch :: back))
      :: (before ++ (some labelS :: tail) :: after)) s = some (some labelS :: tail) := by
    have hne : getLabel (some labelP :: (front ++ some branch :: back)) ≠ some s := by
      rw [hpredLabel]; simpa using hps
    simp only [findBasicBlock, List.find?_cons, hne, decide_False]
    exact findBasicBlock_append before after _ s (hSLabel _)
      (fun other ho => (hothers other (List.mem_append_left _ ho)).2.1)
  have hindex : getPredecessor env (some labelP :: (front ++ some branch :: back)) s
      = (some labelP :: front).length := by
    unfold getPredecessor
    have := findIdx_skip
      (fun slot : Option Instruction =>
        slot.any fun inst => inst.isBranch && decide (inst.getTarget = some s))
      (some labelP :: front) (some branch) back
      (by
        intro slot hslot
        rcases List.mem_cons.1 hslot with h | h
        · rw [h]
          simp [Instruction.isBranch, hlabelP]
        · exact not_branch_to front s hfront slot h)
      (by simp [hbranch, htarget])
    rw [show some labelP :: (front ++ some branch :: back)
      = (some labelP :: front) ++ some branch :: back from rfl, this]
  have hget : ((some labelP :: (front ++ some branch :: back)).get?
      (some labelP :: front).length).join = some branch := by
    rw [show some labelP :: (front ++ some branch :: back)
      = (some labelP :: front) ++ some branch :: back from rfl, List.get?_eq_getElem?,
      List.getElem?_append_right (le_refl _)]
    simp
  have htake : (some labelP :: (front ++ some branch :: back)).take
      (some labelP :: front).length = some labelP :: front := by
    rw [show some labelP :: (front ++ some branch :: back)
      = (some labelP :: front) ++ some branch :: back from rfl, List.take_left]
  have hdrop : (some labelP :: (front ++ some branch :: back)).drop
      ((some labelP :: front).length + 1) = back := by
    rw [show some labelP :: (front ++ some branch :: back)
      = ((some labelP :: front) ++ [some branch]) ++ back from by simp,
      show (some labelP :: front).length + 1 = ((some labelP :: front) ++ [some branch]).length
        from by simp, List.drop_left]
  have halways : branch.conditional ≠ .COND_ALWAYS := by
    simpa [Instruction.hasConditionalExecution] using hconditional
  unfold inlineConditionalBlock
  simp only [hfindP, hfindS, deref, bind, Except.bind, hindex, hget, Option.filter, hbranch,
    htarget, hconditional, decide_True, Bool.and_self, if_true, hcondition, ne_eq, halways,
    not_false_eq_true, htake, hdrop, pure, Except.pure, List.head?_cons, Option.toList,
    List.tail_cons, List.singleton_append]
  have hreplace : replaceBlock
      (replaceBlock ((some labelP :: (front ++ some branch :: back))
        :: (before ++ (some labelS :: tail) :: after)) p
        (some labelP :: front ++ [some (flagMove condition)]
          ++ movedSlots nonlocalLocals branch.conditional (some labelS :: tail) ++ back)) s
      (some labelS :: tail.map fun _ => none)
      = (some labelP :: (front ++ some (flagMove condition)
            :: (movedSlots nonlocalLocals branch.conditional (some labelS :: tail) ++ back)))
          :: (before ++ (some labelS :: tail.map fun _ => none) :: after) := by
    have hb1 : ∀ block : BasicBlock, replaceBlock before p block = before :=
      fun block => replaceBlock_others before p block
        (fun other ho => (hothers other (List.mem_append_left _ ho)).1)
    have ha1 : ∀ block : BasicBlock, replaceBlock after p block = after :=
      fun block => replaceBlock_others after p block
        (fun other ho => (hothers other (List.mem_append_right _ ho)).1)
    have hb2 : ∀ block : BasicBlock, replaceBlock before s block = before :=
      fun block => replaceBlock_others before s block
        (fun other ho => (hothers other (List.mem_append_left _ ho)).2.1)
    have ha2 : ∀ block : BasicBlock, replaceBlock after s block = after :=
      fun block => replaceBlock_others after s block
        (fun other ho => (hothers other (List.mem_append_right _ ho)).2.1)
    have hsp : (some s : Option Local) ≠ some p := by simpa using fun h => hps h.symm
    have hps2 : (some p : Option Local) ≠ some s := by simpa using hps
    simp only [replaceBlock_cons, replaceBlock_append, hpredLabel, hSLabel, if_true, hb1, ha1,
      hsp, if_false, List.cons_append, hps2, hb2, ha2, List.append_assoc,
      List.singleton_append, List.nil_append]
  rw [hreplace]
  rw [removeBlock_emptied _ before after labelS (tail.map fun _ => none) p s (hpredLabel _) hS
    hps (by intro slot hslot; simp only [List.mem_map] at hslot; obtain ⟨_, _, h⟩ := hslot
            exact h.symm)
    (by
      rw [show some labelP :: (front ++ some (flagMove condition)
          :: (movedSlots nonlocalLocals branch.conditional (some labelS :: tail) ++ back))
        = [some labelP] ++ (front ++ ([some (flagMove condition)]
          ++ (movedSlots nonlocalLocals branch.conditional (some labelS :: tail) ++ back)))
        from by simp, branchTargets_append, branchTargets_append, branchTargets_append,
        branchTargets_append,
        branchTargets_plain [some labelP] (by
          intro slot hslot inst hinst
          simp only [List.mem_singleton] at hslot
          rw [hslot] at hinst
          rw [← Option.some.inj hinst]
          simp [Instruction.isBranch, hlabelP]),
        branchTargets_plain [some (flagMove condition)] (by
          intro slot hslot inst hinst
          simp only [List.mem_singleton] at hslot
          rw [hslot] at hinst
          rw [← Option.some.inj hinst]
          simp [Instruction.isBranch, flagMove]),
        branchTargets_plain (movedSlots nonlocalLocals branch.conditional (some labelS :: tail))
          (fun slot hslot inst hinst =>
            (movedSlots_plain nonlocalLocals _ _ slot hslot inst hinst).1)]
      simp only [List.nil_append, List.mem_append, not_or]
      exact ⟨hfront, hback⟩)
    (fun block hb => ⟨(hothers block hb).2.1, (hothers block hb).2.2⟩)]

/-- The targets of a block of a label, instructions that are no branches and branches at the
end are the targets of these branches. -/
theorem branchTargets_block (label : Instruction) (l : Local) (body exits : List Instruction)
    (hlabel : getLabel [some label] = some l)
    (hbody : ∀ inst ∈ body, inst.type ≠ .branchLabel ∧ inst.isBranch = false) :
    branchTargets (some label :: (body.map some ++ exits.map some))
      = branchTargets (exits.map some) := by
  rw [show some label :: (body.map some ++ exits.map some)
    = [some label] ++ (body.map some ++ exits.map some) from rfl, branchTargets_append,
    branchTargets_append,
    branchTargets_plain [some label] (by
      intro slot hslot inst hinst
      simp only [List.mem_singleton] at hslot
      rw [hslot] at hinst
      rw [← Option.some.inj hinst]
      simp [Instruction.isBranch, label_type label l hlabel]),
    branchTargets_plain (body.map some) (by
      intro slot hslot inst hinst
      simp only [List.mem_map] at hslot
      obtain ⟨original, horiginal, h⟩ := hslot
      rw [hinst] at h
      rw [← Option.some.inj h]
      exact (hbody original horiginal).2)]
  simp

/-- A target of the branches at the end of a block is the target of one of them. -/
theorem not_target_of_exits (exits : List Instruction) (target : Local)
    (h : ∀ inst ∈ exits, inst.getTarget ≠ some target) :
    target ∉ branchTargets (exits.map some) := by
  intro hmem
  simp only [branchTargets, List.mem_filterMap, List.mem_map] at hmem
  obtain ⟨slot, ⟨inst, hinst, hslot⟩, htarget⟩ := hmem
  rw [← hslot] at htarget
  simp only [Option.some_bind] at htarget
  split_ifs at htarget
  exact h inst hinst htarget

/-- The slots inserted for a conditional block hold no branch. -/
theorem branchTargets_inserted (nonlocalLocals : List Local) (cond : ConditionCode)
    (block : BasicBlock) (condition : Value) :
    branchTargets (some (flagMove condition) :: movedSlots nonlocalLocals cond block) = [] := by
  apply branchTargets_plain
  intro slot hslot inst hinst
  rcases List.mem_cons.1 hslot with h | h
  · rw [h] at hinst
    rw [← Option.some.inj hinst]
    simp [Instruction.isBranch, flagMove]
  · exact (movedSlots_plain nonlocalLocals cond block slot h inst hinst).1

/-- C25 (amended): collapsing a diamond of three blocks whose predecessor ends in a branch to A
under a condition code and a branch to B under the opposite condition code, the two blocks being
found free of side effects. The predecessor keeps its instructions before the branches; in the
place of the branch to A stand the setting of the flags and the instructions of A, in the place of
the branch to B the setting of the flags and the instructions of B, then the unconditional branch
to the join; the blocks A and B are removed. A write of A to a local escaping its block is
executed under the condition code of the branch to A, a write of B to such a local under the
opposite condition code. The order in which the two blocks are handled makes no difference. -/
theorem simplifyConditionalBlock_diamond (env : ConditionalEnvironment)
    (p a b j : Local) (labelP labelA labelB branchA branchB : Instruction)
    (pre : BasicBlock) (bodyA bodyB exitsA exitsB : List Instruction)
    (rest : List BasicBlock) (order : List NodePointer) (nonlocalLocals : List Local)
    (conditionA conditionB : Value)
    (hP : getLabel [some labelP] = some p) (hA : getLabel [some labelA] = some a)
    (hB : getLabel [some labelB] = some b)
    (hpa : p ≠ a) (hpb : p ≠ b) (hab : a ≠ b)
    (hpre : ∀ slot ∈ pre, ∀ inst, slot = some inst → inst.isBranch = false)
    (hbranchA : branchA.isBranch = true ∧ branchA.getTarget = some a
      ∧ (branchA.conditional = .COND_ZERO_SET ∨ branchA.conditional = .COND_ZERO_CLEAR)
      ∧ branchA.getCondition = some conditionA)
    (hbranchB : branchB.isBranch = true ∧ branchB.getTarget = some b
      ∧ branchB.conditional = branchA.conditional.invert
      ∧ branchB.getCondition = some conditionB)
    (hbodyA : ∀ inst ∈ bodyA, inst.type ≠ .branchLabel ∧ inst.isBranch = false)
    (hbodyB : ∀ inst ∈ bodyB, inst.type ≠ .branchLabel ∧ inst.isBranch = false)
    (hexitsA : ∀ inst ∈ exitsA, inst.isBranch = true ∧ inst.getTarget ≠ some a
      ∧ inst.getTarget ≠ some b)
    (hexitsB : ∀ inst ∈ exitsB, inst.isBranch = true ∧ inst.getTarget ≠ some a
      ∧ inst.getTarget ≠ some b)
    (hrest : ∀ block ∈ rest, getLabel block ≠ some p ∧ getLabel block ≠ some a
      ∧ getLabel block ≠ some b ∧ a ∉ branchTargets block ∧ b ∉ branchTargets block)
    (horder : order = [a, b] ∨ order = [b, a])
    (hscan : scanConditionalBlocks env
      ((some labelP :: (pre ++ [some branchA, some branchB]))
        :: (some labelA :: (bodyA.map some ++ exitsA.map some))
        :: (some labelB :: (bodyB.map some ++ exitsB.map some)) :: rest) order []
      = .ok (some nonlocalLocals)) :
    simplifyConditionalBlock env
        ((some labelP :: (pre ++ [some branchA, some branchB]))
          :: (some labelA :: (bodyA.map some ++ exitsA.map some))
          :: (some labelB :: (bodyB.map some ++ exitsB.map some)) :: rest)
        ⟨p, order, some j⟩
      = .ok ((some labelP :: (pre
            ++ some (flagMove conditionA)
              :: (bodyA.map fun inst =>
                  some (if nonlocalLocals.any (fun loc => inst.writesLocal loc) then
                    inst.setCondition branchA.conditional else inst))
            ++ some (flagMove conditionB)
              :: (bodyB.map fun inst =>
                  some (if nonlocalLocals.any (fun loc => inst.writesLocal loc) then
                    inst.setCondition branchA.conditional.invert else inst))
            ++ [some (Branch j .COND_ALWAYS BOOL_TRUE)])) :: rest, true)
      ∧ (∀ write ∈ bodyA, ∀ x ∈ nonlocalLocals, write.writesLocal x = true →
          (bodyA.map fun inst =>
              some (if nonlocalLocals.any (fun loc => inst.writesLocal loc) then
                inst.setCondition branchA.conditional else inst)).contains
            (some (write.setCondition branchA.conditional)) = true)
      ∧ (∀ write ∈ bodyB, ∀ x ∈ nonlocalLocals, write.writesLocal x = true →
          (bodyB.map fun inst =>
              some (if nonlocalLocals.any (fun loc => inst.writesLocal loc) then
                inst.setCondition branchA.conditional.invert else inst)).contains
            (some (write.setCondition branchA.conditional.invert)) = true) := by
  obtain ⟨hbrA, htargetA, hcodeA, hconditionA⟩ := hbranchA
  obtain ⟨hbrB, htargetB, hinvert, hconditionB⟩ := hbranchB
  have hconditionalA : branchA.hasConditionalExecution = true := by
    rcases hcodeA with h | h <;> simp [Instruction.hasConditionalExecution, h]
  have hconditionalB : branchB.hasConditionalExecution = true := by
    rcases hcodeA with h | h <;>
      simp [Instruction.hasConditionalExecution, hinvert, h, ConditionCode.invert]
  have hwritten : ∀ (body : List Instruction) (cond : ConditionCode),
      ∀ write ∈ body, ∀ x ∈ nonlocalLocals, write.writesLocal x = true →
        (body.map fun inst =>
            some (if nonlocalLocals.any (fun loc => inst.writesLocal loc) then
              inst.setCondition cond else inst)).contains
          (some (write.setCondition cond)) = true := by
    intro body cond write hwrite x hx hwrites
    have hany : nonlocalLocals.any (fun loc => write.writesLocal loc) = true :=
      List.any_eq_true.2 ⟨x, hx, hwrites⟩
    rw [List.contains_iff_exists_mem_beq]
    refine ⟨some (write.setCondition cond), List.mem_map.2 ⟨write, hwrite, ?_⟩, by simp⟩
    rw [if_pos hany]
  refine ⟨?_, hwritten bodyA _, hwritten bodyB _⟩
  -- the pieces of the two blocks
  have hmovedA := fun cond => movedSlots_block nonlocalLocals cond labelA bodyA exitsA
    (label_type labelA a hA) hbodyA (fun inst hi => (hexitsA inst hi).1)
  have hmovedB := fun cond => movedSlots_block nonlocalLocals cond labelB bodyB exitsB
    (label_type labelB b hB) hbodyB (fun inst hi => (hexitsB inst hi).1)
  have htargetsA : ∀ target, target = a ∨ target = b →
      target ∉ branchTargets (some labelA :: (bodyA.map some ++ exitsA.map some)) := by
    intro target htarget
    rw [branchTargets_block labelA a bodyA exitsA hA hbodyA]
    apply not_target_of_exits
    intro inst hi
    rcases htarget with h | h
    · rw [h]; exact (hexitsA inst hi).2.1
    · rw [h]; exact (hexitsA inst hi).2.2
  have htargetsB : ∀ target, target = a ∨ target = b →
      target ∉ branchTargets (some labelB :: (bodyB.map some ++ exitsB.map some)) := by
    intro target htarget
    rw [branchTargets_block labelB b bodyB exitsB hB hbodyB]
    apply not_target_of_exits
    intro inst hi
    rcases htarget with h | h
    · rw [h]; exact (hexitsB inst hi).2.1
    · rw [h]; exact (hexitsB inst hi).2.2
  have hlabelA : ∀ tail, getLabel (some labelA :: tail) = some a := fun tail => by
    rw [getLabel_cons]; exact hA
  have hlabelB : ∀ tail, getLabel (some labelB :: tail) = some b := fun tail => by
    rw [getLabel_cons]; exact hB
  have hlabelP : ∀ tail, getLabel (some labelP :: tail) = some p := fun tail => by
    rw [getLabel_cons]; exact hP
  have hpreTargets : branchTargets pre = [] := branchTargets_plain pre hpre
  have hsingle : ∀ (branch : Instruction) (target other : Local),
      branch.isBranch = true → branch.getTarget = some target → target ≠ other →
      other ∉ branchTargets [some branch] := by
    intro branch target other h1 h2 h3
    simp [branchTargets, h1, h2, Ne.symm h3]
  have hfirst : (some labelP :: (pre ++ [some branchA, some branchB])).tail.findIdx?
      (fun slot => slot.any Instruction.isBranch) = some pre.length := by
    rw [List.tail_cons]
    exact findIdx_skip _ pre (some branchA) [some branchB]
      (fun slot hslot => by
        cases slot with
        | none => rfl
        | some inst => simpa using hpre (some inst) hslot inst rfl)
      (by simpa using hbrA)
  unfold simplifyConditionalBlock
  simp only [hscan, bind, Except.bind, findBasicBlock_head _ _ p (hlabelP _), deref, hfirst]
  have hinlined : inlineConditionalBlocks env nonlocalLocals p order
      ((some labelP :: (pre ++ [some branchA, some branchB]))
        :: (some labelA :: (bodyA.map some ++ exitsA.map some))
        :: (some labelB :: (bodyB.map some ++ exitsB.map some)) :: rest, pre.length)
      = .ok ((some labelP :: (pre
            ++ some (flagMove conditionA)
              :: (bodyA.map fun inst =>
                  some (if nonlocalLocals.any (fun loc => inst.writesLocal loc) then
                    inst.setCondition branchA.conditional else inst))
            ++ some (flagMove conditionB)
              :: (bodyB.map fun inst =>
                  some (if nonlocalLocals.any (fun loc => inst.writesLocal loc) then
                    inst.setCondition branchA.conditional.invert else inst)))) :: rest,
          pre.length) := by
    rcases horder with h | h
    · rw [h]
      have step1 : inlineConditionalBlock env nonlocalLocals p
          ((some labelP :: (pre ++ [some branchA, some branchB]))
            :: (some labelA :: (bodyA.map some ++ exitsA.map some))
            :: (some labelB :: (bodyB.map some ++ exitsB.map some)) :: rest, pre.length) a
          = .ok ((some labelP :: (pre ++ some (flagMove conditionA)
                :: (movedSlots nonlocalLocals branchA.conditional
                    (some labelA :: (bodyA.map some ++ exitsA.map some)) ++ [some branchB])))
              :: (some labelB :: (bodyB.map some ++ exitsB.map some)) :: rest, pre.length) :=
        inlineConditionalBlock_conditional env nonlocalLocals p a labelP labelA
          branchA pre [some branchB] (bodyA.map some ++ exitsA.map some) []
          ((some labelB :: (bodyB.map some ++ exitsB.map some)) :: rest) conditionA pre.length
          hP hA hpa (by rw [hpreTargets]; simp) (hsingle branchB b a hbrB htargetB hab.symm)
          hbrA htargetA hconditionalA hconditionA
          (by
            intro block hblock
            simp only [List.nil_append, List.mem_cons] at hblock
            rcases hblock with hb | hb
            · rw [hb]
              refine ⟨by rw [hlabelB]; simpa using hpb.symm,
                by rw [hlabelB]; simpa using hab.symm, htargetsB a (Or.inl rfl)⟩
            · exact ⟨(hrest block hb).1, (hrest block hb).2.1, (hrest block hb).2.2.2.1⟩)
      have step2 : inlineConditionalBlock env nonlocalLocals p
          ((some labelP :: ((pre ++ some (flagMove conditionA)
                :: movedSlots nonlocalLocals branchA.conditional
                    (some labelA :: (bodyA.map some ++ exitsA.map some)))
              ++ [some branchB]))
            :: (some labelB :: (bodyB.map some ++ exitsB.map some)) :: rest, pre.length) b
          = .ok ((some labelP :: ((pre ++ some (flagMove conditionA)
                :: movedSlots nonlocalLocals branchA.conditional
                    (some labelA :: (bodyA.map some ++ exitsA.map some)))
              ++ some (flagMove conditionB)
                :: (movedSlots nonlocalLocals branchB.conditional
                    (some labelB :: (bodyB.map some ++ exitsB.map some)) ++ [])))
              :: rest, pre.length) :=
        inlineConditionalBlock_conditional env nonlocalLocals p b labelP labelB
          branchB (pre ++ some (flagMove conditionA)
            :: movedSlots nonlocalLocals branchA.conditional
              (some labelA :: (bodyA.map some ++ exitsA.map some)))
          [] (bodyB.map some ++ exitsB.map some) [] rest conditionB pre.length
          hP hB hpb
          (by rw [branchTargets_append, hpreTargets, branchTargets_inserted]; simp)
          (by simp [branchTargets])
          hbrB htargetB hconditionalB hconditionB
          (by
            intro block hblock
            simp only [List.nil_append] at hblock
            exact ⟨(hrest block hblock).1, (hrest block hblock).2.2.1,
              (hrest block hblock).2.2.2.2⟩)
      have hassoc : pre ++ some (flagMove conditionA)
            :: (movedSlots nonlocalLocals branchA.conditional
                (some labelA :: (bodyA.map some ++ exitsA.map some)) ++ [some branchB])
          = (pre ++ some (flagMove conditionA)
              :: movedSlots nonlocalLocals branchA.conditional
                  (some labelA :: (bodyA.map some ++ exitsA.map some))) ++ [some branchB] := by
        simp
      simp only [inlineConditionalBlocks, bind, Except.bind]
      rw [step1]
      simp only []
      rw [hassoc, step2]
      simp only [hmovedA, hmovedB, hinvert, List.append_assoc, List.cons_append,
        List.append_nil]
    · rw [h]
      have step1 : inlineConditionalBlock env nonlocalLocals p
          ((some labelP :: ((pre ++ [some branchA]) ++ [some branchB]))
            :: (some labelA :: (bodyA.map some ++ exitsA.map some))
            :: (some labelB :: (bodyB.map some ++ exitsB.map some)) :: rest, pre.length) b
          = .ok ((some labelP :: ((pre ++ [some branchA]) ++ some (flagMove conditionB)
                :: (movedSlots nonlocalLocals branchB.conditional
                    (some labelB :: (bodyB.map some ++ exitsB.map some)) ++ [])))
              :: (some labelA :: (bodyA.map some ++ exitsA.map some)) :: rest, pre.length) :=
        inlineConditionalBlock_conditional env nonlocalLocals p b labelP labelB
          branchB (pre ++ [some branchA]) [] (bodyB.map some ++ exitsB.map some)
          [some labelA :: (bodyA.map some ++ exitsA.map some)] rest conditionB pre.length
          hP hB hpb
          (by
            rw [branchTargets_append, hpreTargets]
            simpa using hsingle branchA a b hbrA htargetA hab)
          (by simp [branchTargets])
          hbrB htargetB hconditionalB hconditionB
          (by
            intro block hblock
            simp only [List.singleton_append, List.mem_cons] at hblock
            rcases hblock with hb | hb
            · rw [hb]
              refine ⟨by rw [hlabelA]; simpa using hpa.symm, by rw [hlabelA]; simpa using hab,
                htargetsA b (Or.inr rfl)⟩
            · exact ⟨(hrest block hb).1, (hrest block hb).2.2.1, (hrest block hb).2.2.2.2⟩)
      have step2 : inlineConditionalBlock env nonlocalLocals p
          ((some labelP :: (pre ++ some branchA :: (some (flagMove conditionB)
                :: movedSlots nonlocalLocals branchB.conditional
                    (some labelB :: (bodyB.map some ++ exitsB.map some)))))
            :: (some labelA :: (bodyA.map some ++ exitsA.map some)) :: rest, pre.length) a
          = .ok ((some labelP :: (pre ++ some (flagMove conditionA)
                :: (movedSlots nonlocalLocals branchA.conditional
                    (some labelA :: (bodyA.map some ++ exitsA.map some))
                  ++ (some (flagMove conditionB)
                    :: movedSlots nonlocalLocals branchB.conditional
                        (some labelB :: (bodyB.map some ++ exitsB.map some))))))
              :: rest, pre.length) :=
        inlineConditionalBlock_conditional env nonlocalLocals p a labelP labelA
          branchA pre (some (flagMove conditionB)
            :: movedSlots nonlocalLocals branchB.conditional
              (some labelB :: (bodyB.map some ++ exitsB.map some)))
          (bodyA.map some ++ exitsA.map some) [] rest conditionA pre.length
          hP hA hpa (by rw [hpreTargets]; simp)
          (by rw [branchTargets_inserted]; simp)
          hbrA htargetA hconditionalA hconditionA
          (by
            intro block hblock
            simp only [List.nil_append] at hblock
            exact ⟨(hrest block hblock).1, (hrest block hblock).2.1,
              (hrest block hblock).2.2.2.1⟩)
      have hassoc0 : pre ++ [some branchA, some branchB]
          = (pre ++ [some branchA]) ++ [some branchB] := by simp
      have hassoc : (pre ++ [some branchA]) ++ some (flagMove conditionB)
            :: (movedSlots nonlocalLocals branchB.conditional
                (some labelB :: (bodyB.map some ++ exitsB.map some)) ++ [])
          = pre ++ some branchA :: (some (flagMove conditionB)
              :: movedSlots nonlocalLocals branchB.conditional
                  (some labelB :: (bodyB.map some ++ exitsB.map some))) := by
        simp
      simp only [inlineConditionalBlocks, bind, Except.bind]
      rw [hassoc0, step1]
      simp only []
      rw [hassoc, step2]
      simp only [hmovedA, hmovedB, hinvert, List.append_assoc, List.cons_append,
        List.append_nil]
  rw [hinlined]
  simp only [findBasicBlock_head _ _ p (hlabelP _), pure, Except.pure, replaceBlock_cons,
    hlabelP, if_true,
    replaceBlock_others rest p _ (fun block hb => (hrest block hb).1), List.append_assoc,
    List.cons_append]

/-- Witness for C25 (amended): the diamond `if(%3) %5 = 1 else %5 = 2` with the branches
`br 11 (zc)` and `br 12 (zs)` is collapsed into `%5 = 1 (zc)`, `%5 = 2 (zs)` and the branch to
the join; it is the one candidate `simplifyConditionalBlocks` finds in the method. -/
theorem simplifyConditionalBlock_diamond_witness :
    simplifyConditionalBlock Example.conditionals (Example.ifElse .COND_ZERO_SET)
        ⟨10, [11, 12], some 13⟩
      = .ok ([[some (Example.label 10), some (Example.assignment 3 (Example.localValue 1)),
            some (flagMove (Example.localValue 3)),
            some ((Example.assignment 5 (Example.literalValue 1)).setCondition .COND_ZERO_CLEAR),
            some (flagMove (Example.localValue 3)),
            some ((Example.assignment 5 (Example.literalValue 2)).setCondition .COND_ZERO_SET),
            some (Branch 13 .COND_ALWAYS BOOL_TRUE)],
          [some (Example.label 13),
            some (Example.addition 6 (Example.localValue 5) (Example.literalValue 1))]], true)
      ∧ findIfElseBlocks (createCFG (Example.ifElse .COND_ZERO_SET))
          = [⟨10, [11, 12], some 13⟩]
      ∧ simplifyConditionalBlocks Example.conditionals (Example.ifElse .COND_ZERO_SET)
        = simplifyConditionalBlock Example.conditionals (Example.ifElse .COND_ZERO_SET)
            ⟨10, [11, 12], some 13⟩ :=
  ⟨(simplifyConditionalBlock_diamond Example.conditionals 10 11 12 13 (Example.label 10)
      (Example.label 11) (Example.label 12)
      (Example.branch 11 .COND_ZERO_CLEAR (Example.localValue 3))
      (Example.branch 12 .COND_ZERO_SET (Example.localValue 3))
      [some (Example.assignment 3 (Example.localValue 1))]
      [Example.assignment 5 (Example.literalValue 1)]
      [Example.assignment 5 (Example.literalValue 2)]
      [Example.jump 13] [Example.jump 13]
      [[some (Example.label 13),
        some (Example.addition 6 (Example.localValue 5) (Example.literalValue 1))]]
      [11, 12] [5] (Example.localValue 3) (Example.localValue 3)
      rfl rfl rfl (by decide) (by decide) (by decide)
      (by
        intro slot hslot inst hinst
        simp only [List.mem_singleton] at hslot
        rw [hslot] at hinst
        rw [← Option.some.inj hinst]
        rfl)
      ⟨rfl, rfl, Or.inr rfl, rfl⟩ ⟨rfl, rfl, rfl, rfl⟩
      (by intro inst hinst; simp only [List.mem_singleton] at hinst; rw [hinst]; decide)
      (by intro inst hinst; simp only [List.mem_singleton] at hinst; rw [hinst]; decide)
      (by intro inst hinst; simp only [List.mem_singleton] at hinst; rw [hinst]; decide)
      (by intro inst hinst; simp only [List.mem_singleton] at hinst; rw [hinst]; decide)
      (by intro block hblock; simp only [List.mem_singleton] at hblock; rw [hblock]; decide)
      (Or.inl rfl) rfl).1,
    by decide, rfl⟩

/-- Counterexample to C25 as stated: in the diamond `if(%3) %5 = 1 else %5 = 2` whose predecessor
branches to the block 11 under a condition and continues to the block 12 by an unconditional
branch, `simplifyConditionalBlocks` finds the candidate and collapses it, and the write of the
block 12 is left unconditional, in front of the last instruction before the branches: it is
not executed under the opposite condition code. -/
theorem unconditional_branch_leaves_write_unconditional :
    findIfElseBlocks (createCFG (Example.ifElse .COND_ALWAYS)) = [⟨10, [11, 12], some 13⟩]
      ∧ simplifyConditionalBlocks Example.conditionals (Example.ifElse .COND_ALWAYS)
        = .ok ([[some (Example.label 10),
              some (Example.assignment 5 (Example.literalValue 2)),
              some (Example.assignment 3 (Example.localValue 1)),
              some (flagMove (Example.localValue 3)),
              some ((Example.assignment 5 (Example.literalValue 1)).setCondition
                .COND_ZERO_CLEAR),
              some (Branch 13 .COND_ALWAYS BOOL_TRUE)],
            [some (Example.label 13),
              some (Example.addition 6 (Example.localValue 5) (Example.literalValue 1))]], true)
      ∧ (Example.assignment 5 (Example.literalValue 2)).conditional = .COND_ALWAYS
      ∧ ConditionCode.COND_ZERO_CLEAR.invert ≠ .COND_ALWAYS :=
  ⟨by decide, rfl, rfl, by decide⟩

end vc4c

namespace vc4c

/-- The elements of a set after an insertion. -/
theorem mem_emplaceInSet {α : Type} [DecidableEq α] (set : List α) (x y : α) :
    y ∈ emplaceInSet set x ↔ y ∈ set ∨ y = x := by
  unfold emplaceInSet
  by_cases h : x ∈ set
  · rw [if_pos h]
    constructor
    · exact Or.inl
    · rintro (h1 | h1)
      · exact h1
      · rw [h1]
        exact h
  · rw [if_neg h]
    simp [List.mem_append]

/-- An instruction is decorated as vectorized after the decoration was added. -/
theorem hasDecoration_added (inst : Instruction) :
    (inst.addDecorations InstructionDecorations.AUTO_VECTORIZED).hasDecoration
      InstructionDecorations.AUTO_VECTORIZED = true := by
  obtain ⟨t, o, a, c, f, s, ⟨d1, d2, d3, d4, d5, d6⟩⟩ := inst
  simp [Instruction.addDecorations, Instruction.hasDecoration, InstructionDecorations.has_flag,
    InstructionDecorations.add_flag, InstructionDecorations.intersect,
    InstructionDecorations.AUTO_VECTORIZED, InstructionDecorations.NONE]

/-- The decoration as vectorized is a matter of one bit. -/
theorem hasDecoration_auto (inst : Instruction) :
    inst.hasDecoration InstructionDecorations.AUTO_VECTORIZED = inst.decoration.autoVectorized := by
  obtain ⟨t, o, a, c, f, s, ⟨d1, d2, d3, d4, d5, d6⟩⟩ := inst
  cases d2 <;>
  simp [Instruction.hasDecoration, InstructionDecorations.has_flag,
    InstructionDecorations.intersect,
    InstructionDecorations.AUTO_VECTORIZED, InstructionDecorations.NONE]

/-- An instruction reading a local or a register has an argument. -/
theorem arguments_of_any (inst : Instruction) (p : Value → Bool)
    (h : inst.arguments.any p = true) : inst.arguments ≠ [] := by
  intro hnil
  rw [hnil] at h
  simp at h

/-- The instruction the walk behind a write to the SFU or TMU finds is open. -/
theorem findReaderOfSFU_open (instructions : List Instruction) (start stop reader : Nat)
    (h : findReaderOfSFU instructions start stop = some reader) :
    IsOpen instructions reader := by
  unfold findReaderOfSFU at h
  have hp := List.find?_some h
  cases hget : instructions.get? reader with
  | none =>
    rw [hget] at hp
    simp at hp
  | some inst =>
    rw [hget] at hp
    simp only [Option.any_some, Bool.and_eq_true, Bool.not_eq_true'] at hp
    exact ⟨inst, hget, hp.2, arguments_of_any inst _ hp.1⟩

/-- The body of the loop of `scheduleForVectorization` keeps the open instructions, adds open
instructions only and adds the user if it is not decorated. -/
theorem scheduleUser_spec (env : VectorizationEnvironment) (loop : ControlFlowLoop)
    (instructions : List Instruction) (openInstructions : List Nat) (user : Nat)
    (hargs : ∀ inst, instructions.get? user = some inst → inst.arguments ≠ []) :
    (∀ position ∈ openInstructions,
        position ∈ scheduleUser env loop instructions openInstructions user)
      ∧ (∀ position ∈ scheduleUser env loop instructions openInstructions user,
          position ∈ openInstructions ∨ IsOpen instructions position)
      ∧ (∀ inst, instructions.get? user = some inst →
          inst.hasDecoration InstructionDecorations.AUTO_VECTORIZED = false →
          user ∈ scheduleUser env loop instructions openInstructions user) := by
  unfold scheduleUser
  cases hget : instructions.get? user with
  | none =>
    refine ⟨fun _ h => h, fun _ h => Or.inl h, ?_⟩
    intro inst h
    cases h
  | some inst =>
    simp only
    have hsched : (∀ position ∈ openInstructions, position ∈
          (if inst.hasDecoration InstructionDecorations.AUTO_VECTORIZED = true
            then openInstructions else emplaceInSet openInstructions user))
        ∧ (∀ position ∈ (if inst.hasDecoration InstructionDecorations.AUTO_VECTORIZED = true
            then openInstructions else emplaceInSet openInstructions user),
            position ∈ openInstructions ∨ IsOpen instructions position)
        ∧ (inst.hasDecoration InstructionDecorations.AUTO_VECTORIZED = false →
            user ∈ (if inst.hasDecoration InstructionDecorations.AUTO_VECTORIZED = true
            then openInstructions else emplaceInSet openInstructions user)) := by
      by_cases hdec : inst.hasDecoration InstructionDecorations.AUTO_VECTORIZED = true
      · rw [if_pos hdec]
        refine ⟨fun _ h => h, fun _ h => Or.inl h, ?_⟩
        intro h
        rw [h] at hdec
        cases hdec
      · rw [if_neg hdec]
        refine ⟨fun p h => (mem_emplaceInSet _ _ _).2 (Or.inl h), ?_,
          fun _ => (mem_emplaceInSet _ _ _).2 (Or.inr rfl)⟩
        intro p h
        rcases (mem_emplaceInSet _ _ _).1 h with h | h
        · exact Or.inl h
        · right
          rw [h]
          exact ⟨inst, hget, by simpa using hdec, hargs inst hget⟩
    generalize (if inst.hasDecoration InstructionDecorations.AUTO_VECTORIZED = true
            then openInstructions else emplaceInSet openInstructions user) = scheduled at hsched
    obtain ⟨h1, h2, h3⟩ := hsched
    by_cases hper : writesPeriphery env inst = true ∧ loop.inLoop user = true
    · rw [if_pos hper]
      cases hfind : findReaderOfSFU instructions (user + 1) (loop.blockEnd user) with
      | none =>
        refine ⟨h1, h2, ?_⟩
        intro inst2 hi hd
        cases hi
        exact h3 hd
      | some reader =>
        simp only
        refine ⟨fun p h => (mem_emplaceInSet _ _ _).2 (Or.inl (h1 p h)), ?_, ?_⟩
        · intro p h
          rcases (mem_emplaceInSet _ _ _).1 h with h | h
          · exact h2 p h
          · right
            rw [h]
            exact findReaderOfSFU_open _ _ _ _ hfind
        · intro inst2 hi hd
          cases hi
          exact (mem_emplaceInSet _ _ _).2 (Or.inl (h3 hd))
    · rw [if_neg hper]
      refine ⟨h1, h2, ?_⟩
      intro inst2 hi hd
      cases hi
      exact h3 hd

/-- The loop of `scheduleForVectorization` over a list of users. -/
theorem scheduleUsers_spec (env : VectorizationEnvironment) (loop : ControlFlowLoop)
    (instructions : List Instruction) (users : List Nat)
    (hargs : ∀ user ∈ users, ∀ inst, instructions.get? user = some inst → inst.arguments ≠ []) :
    ∀ openInstructions : List Nat,
      (∀ position ∈ openInstructions,
          position ∈ users.foldl (scheduleUser env loop instructions) openInstructions)
        ∧ (∀ position ∈ users.foldl (scheduleUser env loop instructions) openInstructions,
            position ∈ openInstructions ∨ IsOpen instructions position)
        ∧ (∀ user ∈ users, ∀ inst, instructions.get? user = some inst →
            inst.hasDecoration InstructionDecorations.AUTO_VECTORIZED = false →
            user ∈ users.foldl (scheduleUser env loop instructions) openInstructions) := by
  induction users with
  | nil =>
    intro openInstructions
    refine ⟨fun _ h => h, fun _ h => Or.inl h, ?_⟩
    intro user h
    cases h
  | cons user rest ih =>
    intro openInstructions
    obtain ⟨h1, h2, h3⟩ := scheduleUser_spec env loop instructions openInstructions user
      (hargs user (List.mem_cons_self _ _))
    obtain ⟨i1, i2, i3⟩ := ih (fun u hu => hargs u (List.mem_cons_of_mem _ hu))
      (scheduleUser env loop instructions openInstructions user)
    rw [List.foldl_cons]
    refine ⟨fun p h => i1 p (h1 p h), ?_, ?_⟩
    · intro p h
      rcases i2 p h with h | h
      · exact h2 p h
      · exact Or.inr h
    · intro u hu inst hget hdec
      rcases List.mem_cons.1 hu with h | h
      · subst h
        exact i1 _ (h3 inst hget hdec)
      · exact i3 u h inst hget hdec

/-- The function `scheduleForVectorization` keeps the open instructions, adds open instructions
only, and leaves every reader of the local decorated or open. -/
theorem scheduleForVectorization_spec (env : VectorizationEnvironment) (loop : ControlFlowLoop)
    (instructions : List Instruction) (l : Local) (openInstructions : List Nat) :
    (∀ position ∈ openInstructions,
        position ∈ scheduleForVectorization env loop instructions l openInstructions)
      ∧ (∀ position ∈ scheduleForVectorization env loop instructions l openInstructions,
          position ∈ openInstructions ∨ IsOpen instructions position)
      ∧ (∀ position inst, instructions.get? position = some inst →
          inst.readsLocal l = true →
          inst.hasDecoration InstructionDecorations.AUTO_VECTORIZED = true
            ∨ position ∈ scheduleForVectorization env loop instructions l openInstructions) := by
  have hargs : ∀ user ∈ readersOf instructions l, ∀ inst,
      instructions.get? user = some inst → inst.arguments ≠ [] := by
    intro user hu inst hget
    unfold readersOf at hu
    have hp := (List.mem_filter.1 hu).2
    rw [hget] at hp
    exact arguments_of_any inst _ hp
  obtain ⟨h1, h2, h3⟩ := scheduleUsers_spec env loop instructions (readersOf instructions l)
    hargs openInstructions
  refine ⟨h1, h2, ?_⟩
  intro position inst hget hreads
  cases hdec : inst.hasDecoration InstructionDecorations.AUTO_VECTORIZED with
  | true => exact Or.inl rfl
  | false =>
    right
    refine h3 position ?_ inst hget hdec
    unfold readersOf
    refine List.mem_filter.2 ⟨List.mem_range.2 ?_, ?_⟩
    · rw [List.get?_eq_some] at hget
      exact hget.1
    · rw [hget]
      exact hreads

end vc4c

namespace vc4c

/-- The locals an instruction reads are a matter of the data of its arguments. -/
theorem readsLocal_congr (a b : Instruction) (l : Local)
    (h : a.arguments.map Value.data = b.arguments.map Value.data) :
    a.readsLocal l = b.readsLocal l := by
  have key : ∀ args : List Value,
      (args.any fun arg => decide (arg.checkLocal = some l))
        = (args.map Value.data).any fun data =>
            decide ((match data with
              | .loc l => some l
              | _ => none) = some l) := by
    intro args
    induction args with
    | nil => rfl
    | cons arg rest ih =>
      rw [List.map_cons, List.any_cons, List.any_cons, ih]
      rfl
  unfold Instruction.readsLocal
  rw [key, key, h]

/-- The first step of `vectorizeInstruction` for one argument keeps the open instructions, adds
open instructions only and keeps the data of the argument. -/
theorem vectorizeArgument_spec (env : VectorizationEnvironment) (loop : ControlFlowLoop)
    (instructions : List Instruction) (types : Local → DataType) (factor : Nat)
    (state : List Nat × List Value × Nat) (arg : Value) :
    (∀ position ∈ state.1,
        position ∈ (vectorizeArgument env loop instructions types factor state arg).1)
      ∧ (∀ position ∈ (vectorizeArgument env loop instructions types factor state arg).1,
          position ∈ state.1 ∨ IsOpen instructions position)
      ∧ (vectorizeArgument env loop instructions types factor state arg).2.1.map Value.data
          = state.2.1.map Value.data ++ [arg.data] := by
  unfold vectorizeArgument
  cases hl : arg.checkLocal with
  | none =>
    simp only
    by_cases hreg : arg.checkRegister.isSome = true
    · rw [if_pos hreg]
      exact ⟨fun _ h => h, fun _ h => Or.inl h, by simp⟩
    · rw [if_neg hreg]
      exact ⟨fun _ h => h, fun _ h => Or.inl h, by simp⟩
  | some l =>
    simp only
    by_cases htype : arg.type ≠ types l
    · rw [if_pos htype]
      obtain ⟨h1, h2, _⟩ := scheduleForVectorization_spec env loop instructions l state.1
      exact ⟨h1, h2, by simp⟩
    · rw [if_neg htype]
      exact ⟨fun _ h => h, fun _ h => Or.inl h, by simp⟩

/-- The first step of `vectorizeInstruction` for a list of arguments. -/
theorem vectorizeArguments_spec (env : VectorizationEnvironment) (loop : ControlFlowLoop)
    (instructions : List Instruction) (types : Local → DataType) (factor : Nat)
    (args : List Value) :
    ∀ state : List Nat × List Value × Nat,
      (∀ position ∈ state.1, position ∈
          (args.foldl (vectorizeArgument env loop instructions types factor) state).1)
        ∧ (∀ position ∈
            (args.foldl (vectorizeArgument env loop instructions types factor) state).1,
            position ∈ state.1 ∨ IsOpen instructions position)
        ∧ (args.foldl (vectorizeArgument env loop instructions types factor) state).2.1.map
            Value.data = state.2.1.map Value.data ++ args.map Value.data := by
  induction args with
  | nil =>
    intro state
    exact ⟨fun _ h => h, fun _ h => Or.inl h, by simp⟩
  | cons arg rest ih =>
    intro state
    obtain ⟨h1, h2, h3⟩ := vectorizeArgument_spec env loop instructions types factor state arg
    obtain ⟨i1, i2, i3⟩ := ih (vectorizeArgument env loop instructions types factor state arg)
    rw [List.foldl_cons]
    refine ⟨fun p h => i1 p (h1 p h), ?_, ?_⟩
    · intro p h
      rcases i2 p h with h | h
      · exact h2 p h
      · exact Or.inr h
    · rw [i3, h3, List.map_cons, List.append_assoc]
      rfl

/-- The second step of `vectorizeInstruction` changes the type of the output only, keeps the
open instructions, adds open instructions only, and widens at most the local written, whose
readers it leaves decorated or open. -/
theorem vectorizeOutput_spec (env : VectorizationEnvironment) (loop : ControlFlowLoop)
    (width : Nat) (inst : Instruction) (state : Vectorization) :
    (vectorizeOutput env loop width inst state).1.arguments = inst.arguments
      ∧ (vectorizeOutput env loop width inst state).1.decoration = inst.decoration
      ∧ (vectorizeOutput env loop width inst state).1.type = inst.type
      ∧ (∀ l, (vectorizeOutput env loop width inst state).1.writesLocal l = inst.writesLocal l)
      ∧ (vectorizeOutput env loop width inst state).2.instructions = state.instructions
      ∧ (vectorizeOutput env loop width inst state).2.vectorized = state.vectorized
      ∧ (∀ position ∈ state.openInstructions,
          position ∈ (vectorizeOutput env loop width inst state).2.openInstructions)
      ∧ (∀ position ∈ (vectorizeOutput env loop width inst state).2.openInstructions,
          position ∈ state.openInstructions ∨ IsOpen state.instructions position)
      ∧ (∀ l ∈ state.widened, l ∈ (vectorizeOutput env loop width inst state).2.widened)
      ∧ (∀ l ∈ (vectorizeOutput env loop width inst state).2.widened,
          l ∈ state.widened
            ∨ ((inst.isOperation = true ∨ inst.isMoveOperation = true)
              ∧ inst.writesLocal l = true
              ∧ ∀ position other, state.instructions.get? position = some other →
                  other.readsLocal l = true →
                  other.hasDecoration InstructionDecorations.AUTO_VECTORIZED = true
                    ∨ position
                      ∈ (vectorizeOutput env loop width inst state).2.openInstructions))
      ∧ (inst.isOperation = true ∨ inst.isMoveOperation = true →
          ∀ l, inst.writesLocal l = true →
            l ∈ (vectorizeOutput env loop width inst state).2.widened) := by
  have hnone : ∀ l, inst.output = none → inst.writesLocal l = true → False := by
    intro l ho hw
    simp [Instruction.writesLocal, ho] at hw
  unfold vectorizeOutput
  cases hout : inst.getOutput with
  | none =>
    exact ⟨rfl, rfl, rfl, fun _ => rfl, rfl, rfl, fun _ h => h, fun _ h => Or.inl h,
      fun _ h => h, fun _ h => Or.inl h, fun _ l hw => (hnone l hout hw).elim⟩
  | some out =>
    simp only
    by_cases hop : inst.isOperation = true ∨ inst.isMoveOperation = true
    · rw [if_pos hop]
      have hcheck : ∀ type : DataType,
          Value.checkLocal { out with type := type } = out.checkLocal := fun _ => rfl
      have hwrites : ∀ (type : DataType) (l : Local),
          Instruction.writesLocal { inst with output := some { out with type := type } } l
            = inst.writesLocal l := by
        intro type l
        have ho : inst.output = some out := hout
        simp only [Instruction.writesLocal, ho]
        rfl
      have hlocal : ∀ l, inst.writesLocal l = true ↔ out.checkLocal = some l := by
        intro l
        have ho : inst.output = some out := hout
        simp only [Instruction.writesLocal, ho, decide_eq_true_eq]
        exact Iff.rfl
      rw [hcheck]
      cases hloc : out.checkLocal with
      | none =>
        refine ⟨rfl, rfl, rfl, hwrites _, rfl, rfl, fun _ h => h, fun _ h => Or.inl h,
          fun _ h => h, fun _ h => Or.inl h, ?_⟩
        intro _ l hw
        have := (hlocal l).1 hw
        rw [hloc] at this
        cases this
      | some loc =>
        obtain ⟨h1, h2, h3⟩ := scheduleForVectorization_spec env loop state.instructions loc
          state.openInstructions
        refine ⟨rfl, rfl, rfl, hwrites _, rfl, rfl, h1, h2,
          fun l h => (mem_emplaceInSet _ _ _).2 (Or.inl h), ?_, ?_⟩
        · intro l h
          rcases (mem_emplaceInSet _ _ _).1 h with h | h
          · exact Or.inl h
          · right
            subst h
            exact ⟨hop, (hlocal l).2 hloc, h3⟩
        · intro _ l hw
          have := (hlocal l).1 hw
          rw [hloc] at this
          cases this
          exact (mem_emplaceInSet _ _ _).2 (Or.inr rfl)
    · rw [if_neg hop]
      exact ⟨rfl, rfl, rfl, fun _ => rfl, rfl, rfl, fun _ h => h, fun _ h => Or.inl h,
        fun _ h => h, fun _ h => Or.inl h, fun h => (hop h).elim⟩

/-- Replacing an undecorated instruction by a decorated one lowers the number of undecorated
instructions by one. -/
theorem undecorated_set (instructions : List Instruction) (a b : Instruction) :
    ∀ position : Nat, instructions.get? position = some a →
      a.hasDecoration InstructionDecorations.AUTO_VECTORIZED = false →
      b.hasDecoration InstructionDecorations.AUTO_VECTORIZED = true →
      undecorated (instructions.set position b) + 1 = undecorated instructions := by
  induction instructions with
  | nil =>
    intro position h
    cases h
  | cons head rest ih =>
    intro position h ha hb
    cases position with
    | zero =>
      have hh : head = a := by
        simpa using h
      subst hh
      simp [undecorated, List.countP_cons, ha, hb]
    | succ position =>
      have h2 : rest.get? position = some a := by
        simpa using h
      have := ih position h2 ha hb
      unfold undecorated at this
      simp only [undecorated, List.set_cons_succ, List.countP_cons]
      omega

/-- The number of undecorated instructions is at most the number of instructions. -/
theorem undecorated_le (instructions : List Instruction) :
    undecorated instructions ≤ instructions.length :=
  List.countP_le_length _

/-- The instruction at a position after the instruction at a position was replaced. -/
theorem get?_set_cases (instructions : List Instruction) (position other : Nat)
    (a b : Instruction) (hget : instructions.get? position = some a) :
    (instructions.set position b).get? other
      = if other = position then some b else instructions.get? other := by
  rw [List.get?_eq_getElem?, List.getElem?_set]
  by_cases h : position = other
  · subst h
    have hlt : position < instructions.length := by
      rw [List.get?_eq_some] at hget
      exact hget.1
    simp [hlt]
  · have h2 : ¬ other = position := fun e => h e.symm
    rw [if_neg h, if_neg h2, List.get?_eq_getElem?]

end vc4c

namespace vc4c

/-- What `vectorizeInstruction` does to the state: the instruction is replaced by a decorated
one reading and writing the same locals, it is taken out of the open instructions, open
instructions are added only, and at most the local written is widened, whose readers are left
decorated or open. -/
theorem vectorizeFound_shape (env : VectorizationEnvironment) (loop : ControlFlowLoop)
    (factor : Nat) (picked : Nat) (inst : Instruction) (state : Vectorization) :
    ∃ (changed : Instruction) (opened : List Nat),
      (vectorizeFound env loop factor picked inst state).instructions
          = state.instructions.set picked changed
        ∧ (vectorizeFound env loop factor picked inst state).openInstructions
          = opened.filter (fun other => other ≠ picked)
        ∧ (vectorizeFound env loop factor picked inst state).vectorized = state.vectorized
        ∧ changed.hasDecoration InstructionDecorations.AUTO_VECTORIZED = true
        ∧ (∀ l, changed.readsLocal l = inst.readsLocal l)
        ∧ changed.type = inst.type
        ∧ (∀ l, changed.writesLocal l = inst.writesLocal l)
        ∧ (∀ position ∈ state.openInstructions, position ∈ opened)
        ∧ (∀ position ∈ opened,
            position ∈ state.openInstructions ∨ IsOpen state.instructions position)
        ∧ (∀ l ∈ state.widened,
            l ∈ (vectorizeFound env loop factor picked inst state).widened)
        ∧ (∀ l ∈ (vectorizeFound env loop factor picked inst state).widened,
            l ∈ state.widened
              ∨ ((inst.isOperation = true ∨ inst.isMoveOperation = true)
                ∧ inst.writesLocal l = true
                ∧ ∀ position other, state.instructions.get? position = some other →
                    other.readsLocal l = true →
                    other.hasDecoration InstructionDecorations.AUTO_VECTORIZED = true
                      ∨ position ∈ opened))
        ∧ (inst.isOperation = true ∨ inst.isMoveOperation = true →
            ∀ l, inst.writesLocal l = true →
              l ∈ (vectorizeFound env loop factor picked inst state).widened) := by
  obtain ⟨a1, a2, a3⟩ := vectorizeArguments_spec env loop state.instructions state.types factor
    inst.getArguments (state.openInstructions, [], 1)
  unfold vectorizeFound
  dsimp only
  generalize inst.getArguments.foldl
    (vectorizeArgument env loop state.instructions state.types factor)
    (state.openInstructions, [], 1) = done at a1 a2 a3
  obtain ⟨o1, o2, o3, o4, o5, o6, o7, o8, o9, o10, o11⟩ :=
    vectorizeOutput_spec env loop done.2.2 { inst with arguments := done.2.1 }
      { state with openInstructions := done.1 }
  generalize vectorizeOutput env loop done.2.2 { inst with arguments := done.2.1 }
      { state with openInstructions := done.1 } = changed
    at o1 o2 o3 o4 o5 o6 o7 o8 o9 o10 o11
  refine ⟨changed.1.addDecorations InstructionDecorations.AUTO_VECTORIZED,
    changed.2.openInstructions, ?_, rfl, o6, hasDecoration_added _, ?_, o3, ?_, ?_, ?_, o9,
    ?_, ?_⟩
  · show changed.2.instructions.set picked _ = _
    rw [o5]
  · intro l
    refine readsLocal_congr _ _ l ?_
    show changed.1.arguments.map Value.data = _
    rw [o1]
    show done.2.1.map Value.data = _
    rw [a3]
    rfl
  · intro l
    exact o4 l
  · intro position h
    exact o7 position (a1 position h)
  · intro position h
    rcases o8 position h with h | h
    · exact a2 position h
    · exact Or.inr h
  · intro l h
    rcases o10 l h with h | h
    · exact Or.inl h
    · exact Or.inr h
  · exact o11

/-- Whether an instruction is an operation or a move is a matter of its type. -/
theorem isOperationOrMove_congr (a b : Instruction) (h : a.type = b.type) :
    (a.isOperation = true ∨ a.isMoveOperation = true)
      ↔ (b.isOperation = true ∨ b.isMoveOperation = true) := by
  unfold Instruction.isOperation Instruction.isMoveOperation
  rw [h]

/-- A call of `vectorizeInstruction` for an open instruction of the loop keeps what the loop
over the open instructions relies on, decorates one instruction more, and keeps the other open
instructions open and the widened locals widened. -/
theorem vectorizeFound_invariant (env : VectorizationEnvironment) (loop : ControlFlowLoop)
    (factor : Nat) (initial : List Instruction) (iv : Local) (state : Vectorization)
    (picked : Nat) (inst : Instruction)
    (hinv : Vectorization.Invariant loop initial iv state)
    (hpicked : picked ∈ state.openInstructions) (hin : loop.inLoop picked = true)
    (hget : state.instructions.get? picked = some inst) :
    Vectorization.Invariant loop initial iv
        { vectorizeFound env loop factor picked inst state with
          vectorized := (vectorizeFound env loop factor picked inst state).vectorized
            ++ [picked] }
      ∧ undecorated (vectorizeFound env loop factor picked inst state).instructions + 1
          = undecorated state.instructions
      ∧ (∀ position ∈ state.openInstructions, position ≠ picked →
          position ∈ (vectorizeFound env loop factor picked inst state).openInstructions)
      ∧ (∀ l ∈ state.widened,
          l ∈ (vectorizeFound env loop factor picked inst state).widened) := by
  obtain ⟨changed, opened, s1, s2, s3, s4, s5, s6, s7, s8, s9, s10, s11, s12⟩ :=
    vectorizeFound_shape env loop factor picked inst state
  generalize vectorizeFound env loop factor picked inst state = next
    at s1 s2 s3 s10 s11 s12
  have hundec : inst.hasDecoration InstructionDecorations.AUTO_VECTORIZED = false := by
    obtain ⟨other, ho, hd, _⟩ := hinv.isOpen picked hpicked
    rw [hget] at ho
    cases ho
    exact hd
  have hat : ∀ position, next.instructions.get? position
      = if position = picked then some changed else state.instructions.get? position := by
    intro position
    rw [s1]
    exact get?_set_cases _ _ _ _ _ hget
  have hother : ∀ position, position ≠ picked →
      next.instructions.get? position = state.instructions.get? position := by
    intro position hne
    rw [hat, if_neg hne]
  have hself : next.instructions.get? picked = some changed := by
    rw [hat, if_pos rfl]
  have hmem : ∀ position, position ∈ next.openInstructions ↔
      position ∈ opened ∧ position ≠ picked := by
    intro position
    rw [s2, List.mem_filter]
    simp
  have hopmove := isOperationOrMove_congr changed inst s6
  refine ⟨⟨?_, ?_, ?_, ?_, ?_, ?_, ?_, ?_, ?_⟩, ?_, ?_, s10⟩
  · intro position hp
    obtain ⟨hp1, hp2⟩ := (hmem position).1 hp
    have hopen : IsOpen state.instructions position := by
      rcases s9 position hp1 with h | h
      · exact hinv.isOpen position h
      · exact h
    obtain ⟨other, ho, hd, ha⟩ := hopen
    exact ⟨other, by rw [← ho]; exact hother position hp2, hd, ha⟩
  · intro l hl position other hgo hreads
    by_cases hp : position = picked
    · left
      subst hp
      have hgo2 : next.instructions.get? position = some other := hgo
      rw [hself] at hgo2
      cases hgo2
      exact s4
    · have hgo2 : state.instructions.get? position = some other := by
        rw [← hother position hp]
        exact hgo
      rcases s11 l hl with h | h
      · rcases hinv.readers l h position other hgo2 hreads with h2 | h2
        · exact Or.inl h2
        · exact Or.inr ((hmem position).2 ⟨s8 position h2, hp⟩)
      · rcases h.2.2 position other hgo2 hreads with h2 | h2
        · exact Or.inl h2
        · exact Or.inr ((hmem position).2 ⟨h2, hp⟩)
  · show (next.vectorized ++ [picked]).Nodup
    rw [s3]
    refine List.Nodup.append hinv.once (List.nodup_singleton _) ?_
    intro position h1 h2
    rw [List.mem_singleton] at h2
    subst h2
    obtain ⟨_, other, ho, hd⟩ := hinv.decorated position h1
    rw [hget] at ho
    cases ho
    rw [hundec] at hd
    cases hd
  · intro position hp
    have hp2 : position ∈ next.vectorized ++ [picked] := hp
    rw [s3, List.mem_append, List.mem_singleton] at hp2
    by_cases hpp : position = picked
    · subst hpp
      exact ⟨hin, changed, hself, s4⟩
    · rcases hp2 with h | h
      · obtain ⟨h1, other, ho, hd⟩ := hinv.decorated position h
        exact ⟨h1, other, by rw [← ho]; exact hother position hpp, hd⟩
      · exact (hpp h).elim
  · intro position hp other l hgo hop hw
    have hp2 : position ∈ next.vectorized ++ [picked] := hp
    rw [s3, List.mem_append, List.mem_singleton] at hp2
    have hgo1 : next.instructions.get? position = some other := hgo
    by_cases hpp : position = picked
    · subst hpp
      rw [hself] at hgo1
      cases hgo1
      refine s12 (hopmove.1 hop) l ?_
      rw [← s7]
      exact hw
    · rcases hp2 with h | h
      · refine s10 l (hinv.written position h other l ?_ hop hw)
        rw [← hother position hpp]
        exact hgo1
      · exact (hpp h).elim
  · intro l hl
    have hvec : ∀ position, position ∈ state.vectorized ∨ position = picked →
        position ∈ next.vectorized ++ [picked] := by
      intro position h
      rw [s3, List.mem_append, List.mem_singleton]
      exact h
    rcases s11 l hl with h | h
    · rcases hinv.origin l h with h2 | ⟨position, hp, other, ho, hop, hw⟩
      · exact Or.inl h2
      · right
        by_cases hpp : position = picked
        · subst hpp
          rw [hget] at ho
          cases ho
          exact ⟨position, hvec position (Or.inr rfl), changed, hself, hopmove.2 hop,
            by rw [s7]; exact hw⟩
        · exact ⟨position, hvec position (Or.inl hp), other,
            by rw [← ho]; exact hother position hpp, hop, hw⟩
    · right
      exact ⟨picked, hvec picked (Or.inr rfl), changed, hself, hopmove.2 h.1,
        by rw [s7]; exact h.2.1⟩
  · exact s10 iv hinv.iteration
  · intro position hout
    have hne : position ≠ picked := by
      intro h
      subst h
      rw [hin] at hout
      cases hout
    show next.instructions.get? position = _
    rw [hother position hne]
    exact hinv.outside position hout
  · show next.instructions.length = _
    rw [s1, List.length_set]
    exact hinv.length
  · rw [s1]
    exact undecorated_set _ inst changed picked hget hundec s4
  · intro position hp hne
    exact (hmem position).2 ⟨s8 position hp, hne⟩

end vc4c

namespace vc4c

/-- The loop over the open instructions, run for more rounds than there are undecorated
instructions: it throws the error of the optimizer, or it ends with no open instruction, and
then every instruction that was open is an instruction of the loop. -/
theorem vectorizeOpen_spec (env : VectorizationEnvironment) (loop : ControlFlowLoop)
    (factor : Nat) (initial : List Instruction) (iv : Local)
    (hfirst : ∀ set : List Nat, set ≠ [] → env.firstOpen set ∈ set) :
    ∀ (fuel : Nat) (state : Vectorization), Vectorization.Invariant loop initial iv state →
      undecorated state.instructions < fuel →
      vectorizeOpen env loop factor fuel state
          = .error (.compilationError .OPTIMIZER
              "Accessing vectorized locals outside of the loop is not yet implemented")
        ∨ ∃ final, vectorizeOpen env loop factor fuel state = .ok final
            ∧ Vectorization.Invariant loop initial iv final
            ∧ final.openInstructions = []
            ∧ (∀ l ∈ state.widened, l ∈ final.widened)
            ∧ (∀ position ∈ state.openInstructions, loop.inLoop position = true) := by
  intro fuel
  induction fuel with
  | zero =>
    intro state _ h
    exact absurd h (Nat.not_lt_zero _)
  | succ fuel ih =>
    intro state hinv hfuel
    unfold vectorizeOpen
    by_cases hempty : state.openInstructions.isEmpty = true
    · rw [if_pos hempty]
      right
      have hnil : state.openInstructions = [] := List.isEmpty_iff.1 hempty
      refine ⟨state, rfl, hinv, hnil, fun _ h => h, ?_⟩
      intro position hp
      rw [hnil] at hp
      cases hp
    · rw [if_neg hempty]
      have hne : state.openInstructions ≠ [] := fun h => hempty (List.isEmpty_iff.2 h)
      have hpicked := hfirst state.openInstructions hne
      obtain ⟨inst, hget, hundec, hargs⟩ := hinv.isOpen _ hpicked
      dsimp only
      by_cases hin : loop.inLoop (env.firstOpen state.openInstructions) = true
      · rw [if_pos hin]
        have hcall : vectorizeInstruction env loop factor
            (env.firstOpen state.openInstructions) state
              = .ok (vectorizeFound env loop factor (env.firstOpen state.openInstructions)
                  inst state) := by
          unfold vectorizeInstruction
          rw [hget]
          rfl
        rw [hcall]
        obtain ⟨n1, n2, n3, n4⟩ := vectorizeFound_invariant env loop factor initial iv state
          (env.firstOpen state.openInstructions) inst hinv hpicked hin hget
        have hless : undecorated (vectorizeFound env loop factor
            (env.firstOpen state.openInstructions) inst state).instructions < fuel := by
          omega
        rcases ih _ n1 hless with h | ⟨final, h1, h2, h3, h4, h5⟩
        · left
          exact h
        · right
          refine ⟨final, h1, h2, h3, fun l hl => h4 l (n4 l hl), ?_⟩
          intro position hp
          by_cases hpp : position = env.firstOpen state.openInstructions
          · rw [hpp]
            exact hin
          · exact h5 position (n3 position hp hpp)
      · rw [if_neg hin]
        left
        rw [hget]
        have harg : ∃ arg, inst.assertArgument 0 = .ok arg := by
          unfold Instruction.assertArgument Instruction.getArgument
          cases hlist : inst.arguments with
          | nil => exact absurd hlist hargs
          | cons arg rest => exact ⟨arg, rfl⟩
        obtain ⟨arg, harg⟩ := harg
        show (inst.assertArgument 0 >>= fun _ => _) = _
        rw [harg]
        rfl

/-- The state at the begin of `vectorize` has what the loop over the open instructions relies
on. -/
theorem vectorizeStart_invariant (env : VectorizationEnvironment) (loop : ControlFlowLoop)
    (loopControl : LoopControl) (instructions : List Instruction) (types : Local → DataType)
    (start : Vectorization)
    (hstart : vectorizeStart env loop loopControl instructions types = .ok start) :
    ∃ iv, loopControl.iterationVariable = some iv
      ∧ Vectorization.Invariant loop instructions iv.id start
      ∧ start.instructions = instructions
      ∧ start.openInstructions
          = scheduleForVectorization env loop instructions iv.id []
      ∧ start.widened = [iv.id] := by
  unfold vectorizeStart at hstart
  cases hiv : loopControl.iterationVariable with
  | none =>
    rw [hiv] at hstart
    cases hstart
  | some iv =>
    rw [hiv] at hstart
    have hs := Except.ok.inj hstart
    subst hs
    obtain ⟨h1, h2, h3⟩ := scheduleForVectorization_spec env loop instructions iv.id []
    refine ⟨iv, rfl, ⟨?_, ?_, List.nodup_nil, ?_, ?_, ?_, List.mem_singleton.2 rfl, ?_, rfl⟩,
      rfl, rfl, rfl⟩
    · intro position hp
      rcases h2 position hp with h | h
      · cases h
      · exact h
    · intro l hl position inst hget hreads
      have hl2 : l = iv.id := List.mem_singleton.1 hl
      subst hl2
      exact h3 position inst hget hreads
    · intro position hp
      cases hp
    · intro position hp
      cases hp
    · intro l hl
      exact Or.inl (List.mem_singleton.1 hl)
    · intro position _
      rfl

end vc4c

namespace vc4c

/-- An instruction left as it is keeps everything. -/
theorem refixed_refl (a : Instruction) : Refixed a a :=
  ⟨fun _ h => h, fun h => h, fun _ => rfl, Iff.rfl⟩

/-- An instruction with an argument replaced by a value that is no local reads no other
locals. -/
theorem readsLocal_setArgument (inst : Instruction) (index : Nat) (v : Value) (l : Local)
    (hv : v.checkLocal = none) (h : (inst.setArgument index v).readsLocal l = true) :
    inst.readsLocal l = true := by
  unfold Instruction.readsLocal at h ⊢
  rw [List.any_eq_true] at h ⊢
  obtain ⟨arg, hmem, harg⟩ := h
  rcases List.mem_or_eq_of_mem_set hmem with h | h
  · exact ⟨arg, h, harg⟩
  · subst h
    rw [hv] at harg
    simp at harg

/-- An instruction with an argument replaced by a value that is no local and the decoration
added keeps what the end of `vectorize` keeps. -/
theorem refixed_setArgument (inst : Instruction) (index : Nat) (v : Value)
    (hv : v.checkLocal = none) :
    Refixed inst (inst.setArgument index v)
      ∧ Refixed inst ((inst.setArgument index v).addDecorations
          InstructionDecorations.AUTO_VECTORIZED) := by
  refine ⟨⟨fun l h => readsLocal_setArgument inst index v l hv h, fun h => h, fun _ => rfl,
    Iff.rfl⟩, ⟨fun l h => readsLocal_setArgument inst index v l hv h,
    fun _ => hasDecoration_added _, fun _ => rfl, Iff.rfl⟩⟩

/-- The body of the loop of `fixVPMSetups` keeps what the end of `vectorize` keeps. -/
theorem fixVPMSetup_refixed (env : VPMEnvironment) (factor position : Nat) (inst : Instruction)
    (fixed : Instruction × Bool) (h : fixVPMSetup env factor position inst = .ok fixed) :
    Refixed inst fixed.1 := by
  unfold fixVPMSetup at h
  by_cases hout : inst.writesRegister REG_VPM_OUT_SETUP = true
  · rw [if_pos hout] at h
    cases hsetup : inst.getImmediate with
    | none =>
      rw [hsetup] at h
      cases h
    | some setup =>
      rw [hsetup] at h
      simp only [deref, bind, Except.bind, pure, Except.pure] at h
      by_cases hsel : isVectorizedSetup (env.vpwSetup.isDMASetup setup)
          (env.vpmAccess position false) = true
      · rw [if_pos hsel] at h
        have := Except.ok.inj h
        subst this
        refine (refixed_setArgument inst 0 _ ?_).2
        rfl
      · rw [if_neg hsel] at h
        have := Except.ok.inj h
        subst this
        exact refixed_refl inst
  · rw [if_neg hout] at h
    by_cases hin : inst.writesRegister REG_VPM_IN_SETUP = true
    · rw [if_pos hin] at h
      cases hsetup : inst.getImmediate with
      | none =>
        rw [hsetup] at h
        cases h
      | some setup =>
        rw [hsetup] at h
        simp only [deref, bind, Except.bind, pure, Except.pure] at h
        by_cases hsel : isVectorizedSetup (env.vprSetup.isDMASetup setup)
            (env.vpmAccess position true) = true
        · rw [if_pos hsel] at h
          have := Except.ok.inj h
          subst this
          refine (refixed_setArgument inst 0 _ ?_).2
          rfl
        · rw [if_neg hsel] at h
          have := Except.ok.inj h
          subst this
          exact refixed_refl inst
    · rw [if_neg hin] at h
      have := Except.ok.inj h
      subst this
      exact refixed_refl inst

/-- The loop of `fixVPMSetups` keeps what the end of `vectorize` keeps of every instruction. -/
theorem fixVPMSetupsFrom_refixed (env : VPMEnvironment) (factor : Nat)
    (walked : List Instruction) :
    ∀ (position : Nat) (result : List (Option Instruction) × Nat),
      fixVPMSetupsFrom env factor position (walked.map some) = .ok result →
      List.Forall₂ Refixed walked (result.1.filterMap id) := by
  induction walked with
  | nil =>
    intro position result h
    have := Except.ok.inj h
    subst this
    exact List.Forall₂.nil
  | cons inst rest ih =>
    intro position result h
    rw [List.map_cons] at h
    unfold fixVPMSetupsFrom at h
    simp only [deref, bind, Except.bind] at h
    cases hfix : fixVPMSetup env factor position inst with
    | error e =>
      rw [hfix] at h
      cases h
    | ok fixed =>
      rw [hfix] at h
      cases hrest : fixVPMSetupsFrom env factor (position + 1) (rest.map some) with
      | error e =>
        rw [hrest] at h
        cases h
      | ok remaining =>
        rw [hrest] at h
        have := Except.ok.inj h
        subst this
        exact List.Forall₂.cons (fixVPMSetup_refixed env factor position inst fixed hfix)
          (ih (position + 1) remaining hrest)

/-- The changed step operation keeps what the end of `vectorize` keeps. -/
theorem fixStep_refixed (stepOp step : Instruction) (factor : Nat)
    (h : fixStep stepOp factor = .ok step) : Refixed stepOp step := by
  unfold fixStep at h
  cases hcode : stepOp.op with
  | none =>
    rw [hcode] at h
    cases h
  | some code =>
    rw [hcode] at h
    simp only [deref, bind, Except.bind] at h
    by_cases hadd : code.opAdd = OP_ADD.opAdd ∨ code.opAdd = OP_SUB.opAdd
    · rw [if_pos hadd] at h
      cases hfirst : stepOp.getFirstArg with
      | none =>
        rw [hfirst] at h
        cases h
      | some firstArg =>
        rw [hfirst] at h
        simp only at h
        by_cases hloc : firstArg.checkLocal.isSome = true
        · rw [if_pos hloc] at h
          cases hoff : stepOp.getArgument 1 with
          | none =>
            rw [hoff] at h
            cases h
          | some offset =>
            rw [hoff] at h
            simp only at h
            cases hlit : offset.getLiteralValue with
            | none =>
              rw [hlit] at h
              cases h
            | some lit =>
              rw [hlit] at h
              have := Except.ok.inj h
              subst this
              refine (refixed_setArgument stepOp 1 _ ?_).1
              rfl
        · rw [if_neg hloc] at h
          cases hlit : firstArg.getLiteralValue with
          | none =>
            rw [hlit] at h
            cases h
          | some lit =>
            rw [hlit] at h
            have := Except.ok.inj h
            subst this
            refine (refixed_setArgument stepOp 0 _ ?_).1
            rfl
    · rw [if_neg hadd] at h
      cases h

/-- A value with a literal is no local. -/
theorem checkLocal_of_literal (v : Value) (h : v.getLiteralValue.isSome = true) :
    v.checkLocal = none := by
  unfold Value.getLiteralValue at h
  unfold Value.checkLocal
  cases hd : v.data with
  | loc l =>
    rw [hd] at h
    cases h
  | literal _ => rfl
  | smallImmediate _ => rfl
  | register _ => rfl
  | undefined => rfl

/-- The changed initialization keeps what the end of `vectorize` keeps. -/
theorem fixInitialValue_refixed (found : Bool) (loopControl : LoopControl)
    (init changed : Instruction) (output : Value) (width : Nat)
    (hout : init.output = some output)
    (h : fixInitialValue found loopControl (init.widenOutput output width) = .ok changed) :
    Refixed init changed := by
  have hwiden : Refixed init (init.widenOutput output width) := by
    refine ⟨fun _ h => h, fun h => h, ?_, Iff.rfl⟩
    intro l
    unfold Instruction.writesLocal Instruction.widenOutput
    rw [hout]
    rfl
  unfold fixInitialValue at h
  by_cases hmove : (init.widenOutput output width).isMoveOperation = true
  · rw [if_pos hmove] at h
    cases hsource : (init.widenOutput output width).getSource with
    | none =>
      rw [hsource] at h
      cases h
    | some source =>
      rw [hsource] at h
      simp only [deref, bind, Except.bind] at h
      by_cases hzero : source.hasLiteral INT_ZERO.literal = true
          ∧ loopControl.stepKind = .ADD_CONSTANT
          ∧ loopControl.getStep = some INT_ONE.literal
      · rw [if_pos hzero] at h
        have := Except.ok.inj h
        subst this
        obtain ⟨r1, r2, r3, r4⟩ :=
          (refixed_setArgument (init.widenOutput output width) 0 ELEMENT_NUMBER_REGISTER rfl).2
        exact ⟨fun l hl => hwiden.1 l (r1 l hl), fun hd => r2 (hwiden.2.1 hd),
          fun l => (hwiden.2.2.1 l).trans (r3 l), hwiden.2.2.2.trans r4⟩
      · rw [if_neg hzero] at h
        by_cases hlit : source.getLiteralValue.isSome = true
            ∧ loopControl.stepKind = .ADD_CONSTANT
            ∧ loopControl.getStep = some INT_ONE.literal ∧ found = true
        · rw [if_pos hlit] at h
          simp only [Instruction.getOutput, Instruction.widenOutput, pure, Except.pure] at h
          have := Except.ok.inj h
          subst this
          refine ⟨?_, fun _ => hasDecoration_added _, ?_, ?_⟩
          · intro l hl
            have hs := checkLocal_of_literal source hlit.1
            have he : ELEMENT_NUMBER_REGISTER.checkLocal = none := rfl
            have hl2 : (decide (source.checkLocal = some l)
                || (decide (ELEMENT_NUMBER_REGISTER.checkLocal = some l) || false)) = true := hl
            rw [hs, he] at hl2
            simp at hl2
          · intro l
            unfold Instruction.writesLocal
            rw [hout]
            rfl
          · constructor
            · intro _
              exact Or.inl rfl
            · intro _
              exact Or.inr hmove
        · rw [if_neg hlit] at h
          cases h
  · rw [if_neg hmove] at h
    cases h

/-- The function `fixInitialValueAndStep` changes the initialization and the step operation the
loop control points to and keeps of both what the end of `vectorize` keeps. -/
theorem fixInitialValueAndStep_refixed (found : Bool) (loopControl changed : LoopControl)
    (h : fixInitialValueAndStep found loopControl = .ok changed) :
    ∃ init step init2 step2, loopControl.initialization = some init
      ∧ loopControl.iterationStep = some step
      ∧ changed.initialization = some init2 ∧ changed.iterationStep = some step2
      ∧ Refixed init init2 ∧ Refixed step step2 := by
  unfold fixInitialValueAndStep at h
  cases hstep : loopControl.iterationStep with
  | none =>
    rw [hstep] at h
    cases h
  | some step =>
    rw [hstep] at h
    simp only [deref, bind, Except.bind] at h
    by_cases hop : (!step.isOperation) = true
    · rw [if_pos hop] at h
      cases h
    · rw [if_neg hop] at h
      cases hinit : loopControl.initialization with
      | none =>
        rw [hinit] at h
        cases h
      | some init =>
        rw [hinit] at h
        simp only at h
        cases hout : init.getOutput with
        | none =>
          rw [hout] at h
          cases h
        | some output =>
          rw [hout] at h
          simp only at h
          cases hiv : loopControl.iterationVariable with
          | none =>
            rw [hiv] at h
            cases h
          | some iv =>
            rw [hiv] at h
            simp only at h
            cases hfix : fixInitialValue found loopControl
                (init.widenOutput output iv.type.getVectorWidth) with
            | error e =>
              rw [hfix] at h
              cases h
            | ok init2 =>
              rw [hfix] at h
              simp only at h
              cases hfs : fixStep step loopControl.vectorizationFactor with
              | error e =>
                rw [hfs] at h
                cases h
              | ok step2 =>
                rw [hfs] at h
                have := Except.ok.inj h
                subst this
                exact ⟨init, step, init2, step2, rfl, rfl, rfl, rfl,
                  fixInitialValue_refixed found loopControl init init2 output _ hout hfix,
                  fixStep_refixed step step2 _ hfs⟩

/-- A list with an element replaced by one related to the element it had is related. -/
theorem forall₂_set {α : Type} (R : α → α → Prop) (old new : List α)
    (h : List.Forall₂ R old new) :
    ∀ (index : Nat) (x : α), (∀ a, old.get? index = some a → R a x) →
      List.Forall₂ R old (new.set index x) := by
  induction h with
  | nil =>
    intro index x _
    exact List.Forall₂.nil
  | cons hab _ ih =>
    intro index x hx
    cases index with
    | zero => exact List.Forall₂.cons (hx _ rfl) (by assumption)
    | succ index => exact List.Forall₂.cons hab (ih index x (fun a ha => hx a ha))

/-- Related lists have related elements at every position. -/
theorem forall₂_get? {α : Type} (R : α → α → Prop) (old new : List α)
    (h : List.Forall₂ R old new) :
    ∀ (index : Nat) (b : α), new.get? index = some b →
      ∃ a, old.get? index = some a ∧ R a b := by
  induction h with
  | nil =>
    intro index b hb
    cases hb
  | cons hab _ ih =>
    intro index b hb
    cases index with
    | zero =>
      have := Option.some.inj hb
      subst this
      exact ⟨_, rfl, hab⟩
    | succ index => exact ih index b hb

/-- Every list is related to itself by a reflexive relation. -/
theorem forall₂_self {α : Type} (R : α → α → Prop) (hrefl : ∀ a, R a a) (l : List α) :
    List.Forall₂ R l l := by
  induction l with
  | nil => exact List.Forall₂.nil
  | cons a rest ih => exact List.Forall₂.cons (hrefl a) ih

/-- Related lists put together are related. -/
theorem forall₂_append {α : Type} (R : α → α → Prop) (a b c d : List α)
    (h1 : List.Forall₂ R a b) (h2 : List.Forall₂ R c d) : List.Forall₂ R (a ++ c) (b ++ d) := by
  induction h1 with
  | nil => exact h2
  | cons hab _ ih => exact List.Forall₂.cons hab ih

/-- The end of `vectorize`, if it succeeds, changes instructions only, and keeps of every
instruction what it is to keep. -/
theorem vectorizeEnd_spec (env : VectorizationEnvironment) (loop : ControlFlowLoop)
    (walkers : LoopControlWalkers) (loopControl : LoopControl) (state final : Vectorization)
    (h : vectorizeEnd env loop walkers loopControl state = .ok final) :
    final.openInstructions = state.openInstructions ∧ final.widened = state.widened
      ∧ final.vectorized = state.vectorized
      ∧ List.Forall₂ Refixed state.instructions final.instructions := by
  unfold vectorizeEnd at h
  simp only [bind, Except.bind] at h
  cases hfixed : fixVPMSetups env.periphery
      (List.map some (List.take (loop.last - loop.first)
        (List.drop loop.first state.instructions))) loopControl.vectorizationFactor with
  | error e =>
    rw [hfixed] at h
    cases h
  | ok fixed =>
    rw [hfixed] at h
    simp only at h
    cases hiv : loopControl.iterationVariable with
    | none =>
      rw [hiv] at h
      cases h
    | some iv =>
      rw [hiv] at h
      simp only [deref] at h
      have hmid : List.Forall₂ Refixed state.instructions
          (List.take loop.first state.instructions ++ List.filterMap id fixed.1
            ++ List.drop (loop.last - loop.first)
              (List.drop loop.first state.instructions)) := by
        have hsplit : state.instructions
            = List.take loop.first state.instructions
              ++ List.take (loop.last - loop.first) (List.drop loop.first state.instructions)
              ++ List.drop (loop.last - loop.first)
                (List.drop loop.first state.instructions) := by
          rw [List.append_assoc, List.take_append_drop, List.take_append_drop]
        have hrel := fixVPMSetupsFrom_refixed env.periphery loopControl.vectorizationFactor
          (List.take (loop.last - loop.first) (List.drop loop.first state.instructions))
          0 fixed hfixed
        nth_rewrite 1 [hsplit]
        exact forall₂_append _ _ _ _ _
          (forall₂_append _ _ _ _ _ (forall₂_self _ refixed_refl _) hrel)
          (forall₂_self _ refixed_refl _)
      generalize List.take loop.first state.instructions ++ List.filterMap id fixed.1
            ++ List.drop (loop.last - loop.first)
              (List.drop loop.first state.instructions) = middle at h hmid
      cases hfix : fixInitialValueAndStep env.foundInPredecessor
          { loopControl with
            initialization := middle.get? walkers.initialization,
            iterationStep := middle.get? walkers.iterationStep,
            iterationVariable := (some { iv with type := state.types iv.id }) } with
      | error e =>
        rw [hfix] at h
        cases h
      | ok changed =>
        rw [hfix] at h
        obtain ⟨init, step, init2, step2, e1, e2, e3, e4, r1, r2⟩ :=
          fixInitialValueAndStep_refixed _ _ _ hfix
        simp only at h
        rw [e3, e4] at h
        have := Except.ok.inj h
        subst this
        refine ⟨rfl, rfl, rfl, ?_⟩
        have e1b : middle.get? walkers.initialization = some init := e1
        have e2b : middle.get? walkers.iterationStep = some step := e2
        obtain ⟨a1, ha1, ra1⟩ := forall₂_get? _ _ _ hmid _ _ e1b
        obtain ⟨a2, ha2, ra2⟩ := forall₂_get? _ _ _ hmid _ _ e2b
        have trans : ∀ a b c, Refixed a b → Refixed b c → Refixed a c := by
          intro a b c hab hbc
          exact ⟨fun l hl => hab.1 l (hbc.1 l hl), fun hd => hbc.2.1 (hab.2.1 hd),
            fun l => (hab.2.2.1 l).trans (hbc.2.2.1 l), hab.2.2.2.trans hbc.2.2.2⟩
        refine forall₂_set _ _ _ (forall₂_set _ _ _ hmid _ _ ?_) _ _ ?_
        · intro a ha
          rw [ha1] at ha
          cases ha
          exact trans _ _ _ ra1 r1
        · intro a ha
          rw [ha2] at ha
          cases ha
          exact trans _ _ _ ra2 r2

end vc4c

namespace vc4c

/-- Related lists have related elements at every position of the first one. -/
theorem forall₂_get?_left {α : Type} (R : α → α → Prop) (old new : List α)
    (h : List.Forall₂ R old new) :
    ∀ (index : Nat) (a : α), old.get? index = some a →
      ∃ b, new.get? index = some b ∧ R a b := by
  induction h with
  | nil =>
    intro index a ha
    cases ha
  | cons hab _ ih =>
    intro index a ha
    cases index with
    | zero =>
      have := Option.some.inj ha
      subst this
      exact ⟨_, rfl, hab⟩
    | succ index => exact ih index a ha

/-- The first part of `vectorize`, called with an iteration variable: it throws the error of
the optimizer, or it ends in a state with no open instruction that has what the loop over the
open instructions relies on. -/
theorem vectorizeTypes_spec (env : VectorizationEnvironment) (loop : ControlFlowLoop)
    (loopControl : LoopControl) (instructions : List Instruction) (types : Local → DataType)
    (iv : LocalObject)
    (hfirst : ∀ set : List Nat, set ≠ [] → env.firstOpen set ∈ set)
    (hiv : loopControl.iterationVariable = some iv) :
    vectorizeTypes env loop loopControl instructions types
        = .error (.compilationError .OPTIMIZER
            "Accessing vectorized locals outside of the loop is not yet implemented")
      ∨ ∃ state, vectorizeTypes env loop loopControl instructions types = .ok state
          ∧ Vectorization.Invariant loop instructions iv.id state
          ∧ state.openInstructions = [] := by
  have hstart : ∃ start, vectorizeStart env loop loopControl instructions types = .ok start := by
    unfold vectorizeStart
    rw [hiv]
    exact ⟨_, rfl⟩
  obtain ⟨start, hstart⟩ := hstart
  obtain ⟨iv2, hiv2, hinv, hinst, _, _⟩ :=
    vectorizeStart_invariant env loop loopControl instructions types start hstart
  rw [hiv] at hiv2
  cases hiv2
  have hfuel : undecorated start.instructions < instructions.length + 1 := by
    have := undecorated_le start.instructions
    rw [hinst] at this
    rw [hinst]
    omega
  have hrun : vectorizeTypes env loop loopControl instructions types
      = vectorizeOpen env loop loopControl.vectorizationFactor (instructions.length + 1)
          start := by
    unfold vectorizeTypes
    rw [hstart]
    rfl
  rw [hrun]
  rcases vectorizeOpen_spec env loop loopControl.vectorizationFactor instructions iv.id hfirst
    _ start hinv hfuel with h | ⟨final, h1, h2, h3, _, _⟩
  · exact Or.inl h
  · exact Or.inr ⟨final, h1, h2, h3⟩

end vc4c

namespace vc4c

/-- C31, counterexample: the loop `%2 = %1 + 1; %4 = %4 + %1; %1 = %2` with the read
`%5 = %4` of the sum behind it. After the three instructions of the loop were vectorized the
read is the only open instruction; it is outside of the loop, all its arguments are the local
`%4`, and the single writer of `%4` is an operation decorated as vectorized without side
effects: the condition of the source holds. Still `vectorize` fails with the error of the
optimizer. -/
theorem vectorize_fails_for_foldable_read :
    vectorize Example.vectorization Example.summingLoop Example.summingWalkers
        Example.summingControl (Example.summing [Example.readSum]) (fun _ => Example.int32)
      = .error (.compilationError .OPTIMIZER
          "Accessing vectorized locals outside of the loop is not yet implemented")
    ∧ ∃ start state,
        vectorizeStart Example.vectorization Example.summingLoop Example.summingControl
            (Example.summing [Example.readSum]) (fun _ => Example.int32) = .ok start
          ∧ vectorizePicked Example.vectorization Example.summingLoop 4 [1, 2, 3] start
            = .ok state
          ∧ state.openInstructions = [4]
          ∧ Example.summingLoop.inLoop 4 = false
          ∧ state.instructions.get? 4 = some Example.readSum
          ∧ state.widened = [1, 2, 4]
          ∧ Example.readSum.readsLocal 4 = true
          ∧ acceptsFolding Example.vectorization state.instructions Example.readSum = true :=
  ⟨rfl, _, _, rfl, rfl, rfl, rfl, rfl, rfl, rfl, rfl⟩

/-- C31, amended: `vectorize`, called with an iteration variable and with
`*openInstructions.begin()` an element of the set, for a method with an instruction outside of
the loop that is not decorated as vectorized and reads a local. Whatever the writers of the
local are: either the loop over the open instructions throws the error of the optimizer
"Accessing vectorized locals outside of the loop is not yet implemented", and so does
`vectorize`, or the loop ends and the local was not widened. If the local is the iteration
variable, `vectorize` throws this error. -/
theorem vectorize_rejects_outside_readers (env : VectorizationEnvironment)
    (loop : ControlFlowLoop) (walkers : LoopControlWalkers) (loopControl : LoopControl)
    (instructions : List Instruction) (types : Local → DataType) (iv : LocalObject)
    (reader : Nat) (inst : Instruction) (l : Local)
    (hfirst : ∀ set : List Nat, set ≠ [] → env.firstOpen set ∈ set)
    (hiv : loopControl.iterationVariable = some iv)
    (hget : instructions.get? reader = some inst)
    (hout : loop.inLoop reader = false)
    (hundecorated : inst.hasDecoration InstructionDecorations.AUTO_VECTORIZED = false)
    (hreads : inst.readsLocal l = true) :
    ((vectorizeTypes env loop loopControl instructions types
          = .error (.compilationError .OPTIMIZER
              "Accessing vectorized locals outside of the loop is not yet implemented")
        ∧ vectorize env loop walkers loopControl instructions types
          = .error (.compilationError .OPTIMIZER
              "Accessing vectorized locals outside of the loop is not yet implemented"))
      ∨ ∃ state, vectorizeTypes env loop loopControl instructions types = .ok state
          ∧ state.openInstructions = [] ∧ l ∉ state.widened)
    ∧ (l = iv.id →
        vectorize env loop walkers loopControl instructions types
          = .error (.compilationError .OPTIMIZER
              "Accessing vectorized locals outside of the loop is not yet implemented")) := by
  have hthrows : vectorizeTypes env loop loopControl instructions types
        = .error (.compilationError .OPTIMIZER
            "Accessing vectorized locals outside of the loop is not yet implemented") →
      vectorize env loop walkers loopControl instructions types
        = .error (.compilationError .OPTIMIZER
            "Accessing vectorized locals outside of the loop is not yet implemented") := by
    intro h
    unfold vectorize
    rw [h]
    rfl
  rcases vectorizeTypes_spec env loop loopControl instructions types iv hfirst hiv
    with herr | ⟨state, hok, hinv, hopen⟩
  · exact ⟨Or.inl ⟨herr, hthrows herr⟩, fun _ => hthrows herr⟩
  · have hnot : l ∉ state.widened := by
      intro hl
      have hat : state.instructions.get? reader = some inst := by
        rw [hinv.outside reader hout]
        exact hget
      rcases hinv.readers l hl reader inst hat hreads with hd | hd
      · rw [hundecorated] at hd
        cases hd
      · rw [hopen] at hd
        cases hd
    refine ⟨Or.inr ⟨state, hok, hopen, hnot⟩, ?_⟩
    intro hl
    rw [hl] at hnot
    exact absurd hinv.iteration hnot

/-- C31, amended, witness: the read `%5 = %4` of the sum behind the loop
`%2 = %1 + 1; %4 = %4 + %1; %1 = %2`. -/
theorem vectorize_rejects_outside_readers_witness :
    (∀ set : List Nat, set ≠ [] → Example.vectorization.firstOpen set ∈ set)
      ∧ Example.summingControl.iterationVariable = some ⟨1, .plain, Example.int32⟩
      ∧ (Example.summing [Example.readSum]).get? 4 = some Example.readSum
      ∧ Example.summingLoop.inLoop 4 = false
      ∧ Example.readSum.hasDecoration InstructionDecorations.AUTO_VECTORIZED = false
      ∧ Example.readSum.readsLocal 4 = true
      ∧ (((vectorizeTypes Example.vectorization Example.summingLoop Example.summingControl
              (Example.summing [Example.readSum]) (fun _ => Example.int32)
            = .error (.compilationError .OPTIMIZER
                "Accessing vectorized locals outside of the loop is not yet implemented")
          ∧ vectorize Example.vectorization Example.summingLoop Example.summingWalkers
              Example.summingControl (Example.summing [Example.readSum])
              (fun _ => Example.int32)
            = .error (.compilationError .OPTIMIZER
                "Accessing vectorized locals outside of the loop is not yet implemented"))
        ∨ ∃ state, vectorizeTypes Example.vectorization Example.summingLoop
              Example.summingControl (Example.summing [Example.readSum])
              (fun _ => Example.int32) = .ok state
            ∧ state.openInstructions = [] ∧ 4 ∉ state.widened)
        ∧ (4 = (⟨1, .plain, Example.int32⟩ : LocalObject).id →
          vectorize Example.vectorization Example.summingLoop Example.summingWalkers
              Example.summingControl (Example.summing [Example.readSum])
              (fun _ => Example.int32)
            = .error (.compilationError .OPTIMIZER
                "Accessing vectorized locals outside of the loop is not yet implemented"))) :=
  ⟨fun set h => by
      cases set with
      | nil => exact absurd rfl h
      | cons head rest => exact List.mem_cons_self _ _,
    rfl, rfl, rfl, rfl, rfl,
    vectorize_rejects_outside_readers Example.vectorization Example.summingLoop
      Example.summingWalkers Example.summingControl (Example.summing [Example.readSum])
      (fun _ => Example.int32) ⟨1, .plain, Example.int32⟩ 4 Example.readSum 4
      (fun set h => by
        cases set with
        | nil => exact absurd rfl h
        | cons head rest => exact List.mem_cons_self _ _)
      rfl rfl rfl rfl rfl⟩

end vc4c

namespace vc4c

/-- C32: `vectorize`, with `*openInstructions.begin()` an element of the set. The loop over the
open instructions does not run out of the rounds it is given (one more than the method has
instructions): every round decorates an instruction that was not decorated. When `vectorize`
succeeds, no instruction is open; every instruction reading a widened local is decorated as
vectorized; the widened locals are the iteration variable and the locals written by the
operations and moves `vectorizeInstruction` was called for; `vectorizeInstruction` was called
at most once for an instruction, for instructions of the loop only, and each of them is
decorated as vectorized. -/
theorem vectorize_decorates_readers (env : VectorizationEnvironment) (loop : ControlFlowLoop)
    (walkers : LoopControlWalkers) (loopControl : LoopControl)
    (instructions : List Instruction) (types : Local → DataType)
    (hfirst : ∀ set : List Nat, set ≠ [] → env.firstOpen set ∈ set) :
    vectorizeTypes env loop loopControl instructions types ≠ .error .outOfFuel
      ∧ ∀ final, vectorize env loop walkers loopControl instructions types = .ok final →
          final.openInstructions = []
          ∧ (∀ inst ∈ final.instructions, ∀ l ∈ final.widened, inst.readsLocal l = true →
              inst.hasDecoration InstructionDecorations.AUTO_VECTORIZED = true)
          ∧ (∀ l, l ∈ final.widened ↔
              (loopControl.iterationVariable.map LocalObject.id = some l
                ∨ ∃ position ∈ final.vectorized, ∃ inst,
                    final.instructions.get? position = some inst
                      ∧ (inst.isOperation = true ∨ inst.isMoveOperation = true)
                      ∧ inst.writesLocal l = true))
          ∧ final.vectorized.Nodup
          ∧ (∀ position ∈ final.vectorized, loop.inLoop position = true
              ∧ ∃ inst, final.instructions.get? position = some inst
                ∧ inst.hasDecoration InstructionDecorations.AUTO_VECTORIZED = true) := by
  cases hiv : loopControl.iterationVariable with
  | none =>
    have hfail : vectorizeTypes env loop loopControl instructions types
        = .error (.compilationError .GENERAL "dereferenced an empty Optional") := by
      unfold vectorizeTypes vectorizeStart
      rw [hiv]
      rfl
    refine ⟨?_, ?_⟩
    · rw [hfail]
      intro h
      cases h
    · intro final h
      unfold vectorize at h
      rw [hfail] at h
      cases h
  | some iv =>
    rcases vectorizeTypes_spec env loop loopControl instructions types iv hfirst hiv
      with herr | ⟨state, hok, hinv, hopen⟩
    · refine ⟨?_, ?_⟩
      · rw [herr]
        intro h
        cases h
      · intro final h
        unfold vectorize at h
        rw [herr] at h
        cases h
    · refine ⟨?_, ?_⟩
      · rw [hok]
        intro h
        cases h
      · intro final h
        unfold vectorize at h
        rw [hok] at h
        have hend : vectorizeEnd env loop walkers loopControl state = .ok final := h
        obtain ⟨e1, e2, e3, hrel⟩ := vectorizeEnd_spec env loop walkers loopControl state final
          hend
        refine ⟨by rw [e1, hopen], ?_, ?_, by rw [e3]; exact hinv.once, ?_⟩
        · intro inst hmem l hl hreads
          obtain ⟨index, hindex⟩ := List.get?_of_mem hmem
          obtain ⟨a, ha, hra⟩ := forall₂_get? _ _ _ hrel index inst hindex
          rw [e2] at hl
          rcases hinv.readers l hl index a ha (hra.1 l hreads) with hd | hd
          · exact hra.2.1 hd
          · rw [hopen] at hd
            cases hd
        · intro l
          rw [e2, e3]
          constructor
          · intro hl
            rcases hinv.origin l hl with h1 | ⟨position, hp, a, ha, hop, hw⟩
            · left
              rw [h1]
              rfl
            · right
              obtain ⟨b, hb, hrb⟩ := forall₂_get?_left _ _ _ hrel position a ha
              exact ⟨position, hp, b, hb, hrb.2.2.2.1 hop, by rw [← hrb.2.2.1 l]; exact hw⟩
          · rintro (h1 | ⟨position, hp, b, hb, hop, hw⟩)
            · have : iv.id = l := Option.some.inj h1
              rw [← this]
              exact hinv.iteration
            · obtain ⟨a, ha, hra⟩ := forall₂_get? _ _ _ hrel position b hb
              exact hinv.written position hp a l ha (hra.2.2.2.2 hop)
                (by rw [hra.2.2.1 l]; exact hw)
        · intro position hp
          rw [e3] at hp
          obtain ⟨h1, a, ha, hd⟩ := hinv.decorated position hp
          obtain ⟨b, hb, hrb⟩ := forall₂_get?_left _ _ _ hrel position a ha
          exact ⟨h1, b, hb, hrb.2.1 hd⟩

/-- C32, witness: the loop `%2 = %1 + 1; %4 = %4 + %1; %1 = %2` with the iteration variable
`%1`, vectorized by the factor 4: the three instructions of the loop are passed to
`vectorizeInstruction` in turn, the locals `%1`, `%2` and `%4` are widened. -/
theorem vectorize_decorates_readers_witness :
    (∃ final, vectorize Example.vectorization Example.summingLoop Example.summingWalkers
        Example.summingControl (Example.summing []) (fun _ => Example.int32) = .ok final
      ∧ final.vectorized = [1, 2, 3] ∧ final.widened = [1, 2, 4]
      ∧ final.instructions.map
          (fun inst => inst.hasDecoration InstructionDecorations.AUTO_VECTORIZED)
        = [true, true, true, true])
      ∧ (∀ set : List Nat, set ≠ [] → Example.vectorization.firstOpen set ∈ set)
      ∧ (vectorizeTypes Example.vectorization Example.summingLoop Example.summingControl
          (Example.summing []) (fun _ => Example.int32) ≠ .error .outOfFuel
        ∧ ∀ final, vectorize Example.vectorization Example.summingLoop Example.summingWalkers
            Example.summingControl (Example.summing []) (fun _ => Example.int32) = .ok final →
          final.openInstructions = []
          ∧ (∀ inst ∈ final.instructions, ∀ l ∈ final.widened, inst.readsLocal l = true →
              inst.hasDecoration InstructionDecorations.AUTO_VECTORIZED = true)
          ∧ (∀ l, l ∈ final.widened ↔
              (Example.summingControl.iterationVariable.map LocalObject.id = some l
                ∨ ∃ position ∈ final.vectorized, ∃ inst,
                    final.instructions.get? position = some inst
                      ∧ (inst.isOperation = true ∨ inst.isMoveOperation = true)
                      ∧ inst.writesLocal l = true))
          ∧ final.vectorized.Nodup
          ∧ (∀ position ∈ final.vectorized, Example.summingLoop.inLoop position = true
              ∧ ∃ inst, final.instructions.get? position = some inst
                ∧ inst.hasDecoration InstructionDecorations.AUTO_VECTORIZED = true)) :=
  ⟨⟨_, rfl, rfl, rfl, rfl⟩,
    fun set h => by
      cases set with
      | nil => exact absurd rfl h
      | cons head rest => exact List.mem_cons_self _ _,
    vectorize_decorates_readers Example.vectorization Example.summingLoop Example.summingWalkers
      Example.summingControl (Example.summing []) (fun _ => Example.int32)
      (fun set h => by
        cases set with
        | nil => exact absurd rfl h
        | cons head rest => exact List.mem_cons_self _ _)⟩

end vc4c

namespace vc4c

/-- The loop of `fixVPMSetups` changes the slots one by one and counts the changed ones. -/
theorem fixVPMSetupsFrom_spec (env : VPMEnvironment) (factor : Nat)
    (walked : List (Option Instruction)) :
    ∀ position : Nat,
      (∀ slot ∈ walked, ∃ inst, slot = some inst
        ∧ ((inst.writesRegister REG_VPM_OUT_SETUP = true
            ∨ inst.writesRegister REG_VPM_IN_SETUP = true) → inst.getImmediate.isSome = true)) →
      fixVPMSetupsFrom env factor position walked
        = .ok ((List.enumFrom position walked).map (fun entry =>
              entry.2.map (fixedSetup env factor entry.1)),
            ((List.enumFrom position walked).filter (fun entry =>
              countsSetup env factor entry.1 entry.2)).length) := by
  induction walked with
  | nil =>
    intro position _
    rfl
  | cons slot rest ih =>
    intro position hall
    obtain ⟨inst, hslot, hload⟩ := hall slot (List.mem_cons_self _ _)
    subst hslot
    have hbody : ∃ fixed, fixVPMSetup env factor position inst = .ok fixed := by
      unfold fixVPMSetup
      by_cases hout : inst.writesRegister REG_VPM_OUT_SETUP = true
      · obtain ⟨setup, hsetup⟩ := Option.isSome_iff_exists.1 (hload (Or.inl hout))
        simp only [hout, if_true, hsetup, deref, bind, Except.bind, pure, Except.pure]
        by_cases hsel : isVectorizedSetup (env.vpwSetup.isDMASetup setup)
            (env.vpmAccess position false) = true
        · rw [if_pos hsel]
          exact ⟨_, rfl⟩
        · rw [if_neg hsel]
          exact ⟨_, rfl⟩
      · by_cases hin : inst.writesRegister REG_VPM_IN_SETUP = true
        · obtain ⟨setup, hsetup⟩ := Option.isSome_iff_exists.1 (hload (Or.inr hin))
          simp only [hout, if_false, hin, if_true, hsetup, deref, bind, Except.bind, pure,
            Except.pure]
          by_cases hsel : isVectorizedSetup (env.vprSetup.isDMASetup setup)
              (env.vpmAccess position true) = true
          · rw [if_pos hsel]
            exact ⟨_, rfl⟩
          · rw [if_neg hsel]
            exact ⟨_, rfl⟩
        · simp only [hout, hin, if_false, pure, Except.pure]
          exact ⟨_, rfl⟩
    obtain ⟨fixed, hfixed⟩ := hbody
    have hrest := ih (position + 1) (fun s hs => hall s (List.mem_cons_of_mem _ hs))
    unfold fixVPMSetupsFrom
    simp only [deref, bind, Except.bind, hfixed, hrest, pure, Except.pure, List.enumFrom_cons,
      List.map_cons, Option.map_some', List.filter_cons, fixedSetup, countsSetup,
      Option.any_some]
    cases hcount : fixed.2 with
    | false => simp
    | true =>
      simp only [if_true, List.length_cons]
      congr 2
      omega

/-- The getter of a field gives the low bits of the value the setter was called with. -/
theorem bitfield_get_set (field : Bitfield) (word : Literal) (value : Nat) :
    field.get (field.set word value) = value % 2 ^ field.width := by
  unfold Bitfield.get Bitfield.set
  have hp : 0 < 2 ^ field.position := Nat.pow_pos (by norm_num)
  rw [Nat.add_mul_div_left _ _ hp, Nat.div_eq_of_lt (Nat.mod_lt _ hp), Nat.zero_add,
    Nat.add_mul_mod_self_left, Nat.mod_mod]

/-- The setter of a field leaves the bits below the field. -/
theorem bitfield_set_below (field : Bitfield) (word : Literal) (value : Nat) :
    field.set word value % 2 ^ field.position = word % 2 ^ field.position := by
  unfold Bitfield.set
  rw [Nat.add_mul_mod_self_left, Nat.mod_mod]

/-- The setter of a field leaves the bits above the field. -/
theorem bitfield_set_above (field : Bitfield) (word : Literal) (value : Nat) :
    field.set word value / 2 ^ (field.position + field.width)
      = word / 2 ^ (field.position + field.width) := by
  unfold Bitfield.set
  have hp : 0 < 2 ^ field.position := Nat.pow_pos (by norm_num)
  have hw : 0 < 2 ^ field.width := Nat.pow_pos (by norm_num)
  rw [pow_add, ← Nat.div_div_eq_div_mul, Nat.add_mul_div_left _ _ hp,
    Nat.div_eq_of_lt (Nat.mod_lt _ hp), Nat.zero_add, Nat.add_mul_div_left _ _ hw,
    Nat.div_eq_of_lt (Nat.mod_lt _ hw), Nat.zero_add]

/-- A load of a setup word holds the word it was set to. -/
theorem getImmediate_setImmediate (inst : Instruction) (setup word : Literal)
    (h : inst.getImmediate = some setup) :
    ((inst.setImmediate word).addDecorations
      InstructionDecorations.AUTO_VECTORIZED).getImmediate = some word := by
  unfold Instruction.getImmediate at h ⊢
  by_cases htype : inst.type = .loadImmediate
  · rw [if_pos htype] at h
    have htype2 : ((inst.setImmediate word).addDecorations
        InstructionDecorations.AUTO_VECTORIZED).type = .loadImmediate := htype
    rw [if_pos htype2]
    unfold Instruction.getArgument at h ⊢
    cases hargs : inst.arguments with
    | nil =>
      rw [hargs] at h
      cases h
    | cons first rest =>
      simp only [Instruction.addDecorations, Instruction.setImmediate, Instruction.setArgument,
        hargs, List.set_cons_zero, List.get?_cons_zero, Option.some_bind]
      rfl
  · rw [if_neg htype] at h
    cases h

/-- C33 (amended): `fixVPMSetups` with the factor F, on slots that hold instructions of which
those writing a VPM setup register load a setup word. The function returns; it changes exactly
the DMA setups whose related VPM access is decorated as vectorized. A write setup (VPM out) with
the depth d then loads a word whose depth field holds `((d * F) mod 256) mod 2 ^ w` for a field
of w bits (the product is cast to 8 bits and the setter keeps the bits of the field), that is
`(d * F) mod 128` for the 7 bits of the depth; a read setup (VPM in) with the row length r loads
a word whose row length field holds `((r * F) mod 16) mod 2 ^ w`, that is `(r * F) mod 16` for
the 4 bits of the row length. The bits of the word outside the field stay, the changed
instruction is decorated as vectorized and nothing else of it changes; every other instruction
is left as it is, and the number returned is the number of changed setups. -/
theorem fixVPMSetups_changes_vectorized_setups (env : VPMEnvironment) (factor : Nat)
    (walked : List (Option Instruction))
    (hwalked : ∀ slot ∈ walked, ∃ inst, slot = some inst
      ∧ ((inst.writesRegister REG_VPM_OUT_SETUP = true
          ∨ inst.writesRegister REG_VPM_IN_SETUP = true) → inst.getImmediate.isSome = true)) :
    fixVPMSetups env walked factor
        = .ok ((List.enumFrom 0 walked).map (fun entry =>
              entry.2.map (fixedSetup env factor entry.1)),
            ((List.enumFrom 0 walked).filter (fun entry =>
              countsSetup env factor entry.1 entry.2)).length)
      ∧ (∀ position inst setup, inst.getImmediate = some setup →
          inst.writesRegister REG_VPM_OUT_SETUP = true →
          (isVectorizedSetup (env.vpwSetup.isDMASetup setup) (env.vpmAccess position false)
              = true →
            countsSetup env factor position (some inst) = true
            ∧ ∃ word, fixedSetup env factor position inst
                = (inst.setImmediate word).addDecorations
                  InstructionDecorations.AUTO_VECTORIZED
              ∧ (fixedSetup env factor position inst).getImmediate = some word
              ∧ env.vpwSetup.getDepth word
                = env.vpwSetup.getDepth setup * factor % 256 % 2 ^ env.vpwSetup.depth.width
              ∧ (env.vpwSetup.depth.width = 7 →
                  env.vpwSetup.getDepth word = env.vpwSetup.getDepth setup * factor % 128)
              ∧ word % 2 ^ env.vpwSetup.depth.position
                = setup % 2 ^ env.vpwSetup.depth.position
              ∧ word / 2 ^ (env.vpwSetup.depth.position + env.vpwSetup.depth.width)
                = setup / 2 ^ (env.vpwSetup.depth.position + env.vpwSetup.depth.width))
          ∧ (isVectorizedSetup (env.vpwSetup.isDMASetup setup) (env.vpmAccess position false)
              = false →
            fixedSetup env factor position inst = inst
            ∧ countsSetup env factor position (some inst) = false))
      ∧ (∀ position inst setup, inst.getImmediate = some setup →
          inst.writesRegister REG_VPM_OUT_SETUP = false →
          inst.writesRegister REG_VPM_IN_SETUP = true →
          (isVectorizedSetup (env.vprSetup.isDMASetup setup) (env.vpmAccess position true)
              = true →
            countsSetup env factor position (some inst) = true
            ∧ ∃ word, fixedSetup env factor position inst
                = (inst.setImmediate word).addDecorations
                  InstructionDecorations.AUTO_VECTORIZED
              ∧ (fixedSetup env factor position inst).getImmediate = some word
              ∧ env.vprSetup.getRowLength word
                = env.vprSetup.getRowLength setup * factor % 16
                  % 2 ^ env.vprSetup.rowLength.width
              ∧ (env.vprSetup.rowLength.width = 4 →
                  env.vprSetup.getRowLength word
                    = env.vprSetup.getRowLength setup * factor % 16)
              ∧ word % 2 ^ env.vprSetup.rowLength.position
                = setup % 2 ^ env.vprSetup.rowLength.position
              ∧ word / 2 ^ (env.vprSetup.rowLength.position + env.vprSetup.rowLength.width)
                = setup / 2 ^ (env.vprSetup.rowLength.position + env.vprSetup.rowLength.width))
          ∧ (isVectorizedSetup (env.vprSetup.isDMASetup setup) (env.vpmAccess position true)
              = false →
            fixedSetup env factor position inst = inst
            ∧ countsSetup env factor position (some inst) = false))
      ∧ (∀ position inst, inst.writesRegister REG_VPM_OUT_SETUP = false →
          inst.writesRegister REG_VPM_IN_SETUP = false →
          fixedSetup env factor position inst = inst
            ∧ countsSetup env factor position (some inst) = false)
      ∧ (∀ (inst : Instruction) (word : Literal),
          ((inst.setImmediate word).addDecorations
              InstructionDecorations.AUTO_VECTORIZED).type = inst.type
            ∧ ((inst.setImmediate word).addDecorations
              InstructionDecorations.AUTO_VECTORIZED).output = inst.output
            ∧ ((inst.setImmediate word).addDecorations
              InstructionDecorations.AUTO_VECTORIZED).arguments.tail = inst.arguments.tail
            ∧ ((inst.setImmediate word).addDecorations
              InstructionDecorations.AUTO_VECTORIZED).conditional = inst.conditional
            ∧ ((inst.setImmediate word).addDecorations
              InstructionDecorations.AUTO_VECTORIZED).setFlags = inst.setFlags
            ∧ ((inst.setImmediate word).addDecorations
              InstructionDecorations.AUTO_VECTORIZED).signal = inst.signal
            ∧ ((inst.setImmediate word).addDecorations
              InstructionDecorations.AUTO_VECTORIZED).decoration
                = inst.decoration.add_flag InstructionDecorations.AUTO_VECTORIZED) := by
  have h256 : ∀ n : Nat, n % 2 ^ 32 % 2 ^ 8 = n % 256 := by
    intro n
    omega
  have h16 : ∀ n : Nat, n % 2 ^ 32 % 16 = n % 16 := by
    intro n
    omega
  refine ⟨fixVPMSetupsFrom_spec env factor walked 0 hwalked, ?_, ?_, ?_, ?_⟩
  · intro position inst setup hsetup hout
    refine ⟨?_, ?_⟩
    · intro hsel
      have hfixed : fixedSetup env factor position inst
          = (inst.setImmediate (env.vpwSetup.setDepth setup
              (env.vpwSetup.getDepth setup * factor % 256))).addDecorations
            InstructionDecorations.AUTO_VECTORIZED := by
        simp only [fixedSetup, fixVPMSetup, hout, if_true, hsetup, deref, bind, Except.bind,
          hsel, pure, Except.pure, h256]
      have hcount : countsSetup env factor position (some inst) = true := by
        simp only [countsSetup, Option.any_some, fixVPMSetup, hout, if_true, hsetup, deref,
          bind, Except.bind, hsel, pure, Except.pure]
      have hdepth : env.vpwSetup.getDepth (env.vpwSetup.setDepth setup
            (env.vpwSetup.getDepth setup * factor % 256))
          = env.vpwSetup.getDepth setup * factor % 256 % 2 ^ env.vpwSetup.depth.width :=
        bitfield_get_set _ _ _
      refine ⟨hcount, _, hfixed, ?_, hdepth, ?_, bitfield_set_below _ _ _,
        bitfield_set_above _ _ _⟩
      · rw [hfixed]
        exact getImmediate_setImmediate inst setup _ hsetup
      · intro hwidth
        rw [hdepth, hwidth]
        omega
    · intro hsel
      simp only [fixedSetup, countsSetup, Option.any_some, fixVPMSetup, hout, if_true, hsetup,
        deref, bind, Except.bind, hsel, pure, Except.pure, Bool.false_eq_true, if_false,
        and_self]
  · intro position inst setup hsetup hout hin
    refine ⟨?_, ?_⟩
    · intro hsel
      have hfixed : fixedSetup env factor position inst
          = (inst.setImmediate (env.vprSetup.setRowLength setup
              (env.vprSetup.getRowLength setup * factor % 16))).addDecorations
            InstructionDecorations.AUTO_VECTORIZED := by
        simp only [fixedSetup, fixVPMSetup, hout, hin, if_true, hsetup, deref, bind,
          Except.bind, hsel, pure, Except.pure, h16, Bool.false_eq_true, if_false]
      have hcount : countsSetup env factor position (some inst) = true := by
        simp only [countsSetup, Option.any_some, fixVPMSetup, hout, hin, if_true, hsetup,
          deref, bind, Except.bind, hsel, pure, Except.pure, Bool.false_eq_true, if_false]
      have hlength : env.vprSetup.getRowLength (env.vprSetup.setRowLength setup
            (env.vprSetup.getRowLength setup * factor % 16))
          = env.vprSetup.getRowLength setup * factor % 16
            % 2 ^ env.vprSetup.rowLength.width :=
        bitfield_get_set _ _ _
      refine ⟨hcount, _, hfixed, ?_, hlength, ?_, bitfield_set_below _ _ _,
        bitfield_set_above _ _ _⟩
      · rw [hfixed]
        exact getImmediate_setImmediate inst setup _ hsetup
      · intro hwidth
        rw [hlength, hwidth]
        omega
    · intro hsel
      simp only [fixedSetup, countsSetup, Option.any_some, fixVPMSetup, hout, hin, if_true,
        hsetup, deref, bind, Except.bind, hsel, pure, Except.pure, Bool.false_eq_true, if_false,
        and_self]
  · intro position inst hout hin
    simp only [fixedSetup, countsSetup, Option.any_some, fixVPMSetup, hout, hin,
      Bool.false_eq_true, if_false, pure, Except.pure, and_self]
  · intro inst word
    refine ⟨rfl, rfl, ?_, rfl, rfl, rfl, rfl⟩
    simp only [Instruction.addDecorations, Instruction.setImmediate, Instruction.setArgument]
    cases inst.arguments with
    | nil => rfl
    | cons head rest => rfl

/-- Witness for C33: in the layout of the VideoCore IV, with the factor 4, the DMA setup of a
vectorized write with the depth 4 gets the depth 16 and is counted, and the word it loads holds
the depth 16. -/
theorem fixVPMSetups_changes_vectorized_setups_witness :
    (∀ slot ∈ Example.writingBody 4, ∃ inst, slot = some inst
        ∧ ((inst.writesRegister REG_VPM_OUT_SETUP = true
            ∨ inst.writesRegister REG_VPM_IN_SETUP = true) → inst.getImmediate.isSome = true))
      ∧ fixVPMSetups (Example.periphery (Example.writingBody 4)) (Example.writingBody 4) 4
        = .ok ([some ((Example.loadSetup REG_VPM_OUT_SETUP
              (2 * 2 ^ 30 + 16 * 2 ^ 16)).addDecorations InstructionDecorations.AUTO_VECTORIZED),
            some Example.vectorizedAccess], 1)
      ∧ (Example.periphery (Example.writingBody 4)).vpwSetup.getDepth
          (2 * 2 ^ 30 + 4 * 2 ^ 16) = 4
      ∧ (Example.periphery (Example.writingBody 4)).vpwSetup.getDepth
          (2 * 2 ^ 30 + 16 * 2 ^ 16) = 16
      ∧ fixVPMSetups (Example.periphery (Example.readingBody 12)) (Example.readingBody 12) 4
        = .ok ([some ((Example.loadSetup REG_VPM_IN_SETUP
              (2 ^ 31)).addDecorations InstructionDecorations.AUTO_VECTORIZED),
            some Example.vectorizedRead], 1)
      ∧ 12 * 4 % 16 = 0 :=
  ⟨by
      intro slot hslot
      simp only [Example.writingBody, List.mem_cons, List.mem_singleton, List.not_mem_nil,
        or_false] at hslot
      rcases hslot with h | h
      · exact ⟨_, h, fun _ => rfl⟩
      · exact ⟨_, h, fun hw => absurd hw (by decide)⟩,
    (fixVPMSetups_changes_vectorized_setups (Example.periphery (Example.writingBody 4)) 4
      (Example.writingBody 4) (by
        intro slot hslot
        simp only [Example.writingBody, List.mem_cons, List.mem_singleton, List.not_mem_nil,
          or_false] at hslot
        rcases hslot with h | h
        · exact ⟨_, h, fun _ => rfl⟩
        · exact ⟨_, h, fun hw => absurd hw (by decide)⟩)).1,
    by decide, by decide, rfl, by decide⟩

/-- Counterexample for C33: in the layout of the VideoCore IV, with the factor 4, the DMA setup
of a vectorized write with the depth 40 does not get the depth `40 * 4 = 160`: the depth is a
field of 7 bits, the word loaded afterwards holds the depth 32. -/
theorem write_setup_depth_wraps_in_field :
    (Example.periphery (Example.writingBody 40)).vpwSetup.getDepth
        (2 * 2 ^ 30 + 40 * 2 ^ 16) = 40
      ∧ fixVPMSetups (Example.periphery (Example.writingBody 40)) (Example.writingBody 40) 4
        = .ok ([some ((Example.loadSetup REG_VPM_OUT_SETUP
              (2 * 2 ^ 30 + 32 * 2 ^ 16)).addDecorations
              InstructionDecorations.AUTO_VECTORIZED), some Example.vectorizedAccess], 1)
      ∧ (Example.periphery (Example.writingBody 40)).vpwSetup.getDepth
          (2 * 2 ^ 30 + 32 * 2 ^ 16) = 32
      ∧ 40 * 4 = 160 ∧ 160 % 256 = 160 ∧ 160 % 128 = 32 := by
  refine ⟨by decide, rfl, by decide, by decide, by decide, by decide⟩

end vc4c

namespace vc4c

open Store

/-- The loop over the map of edges gives the node of the only selected entry. -/
theorem singleLoop_spec {Relation : Type} (graph : Store.Graph Relation)
    (selected : Edge Relation → Bool) (map : EdgeMap)
    (hres : ∀ entry ∈ map, (graph.edge entry.2).isSome = true) (single : Option NodePointer) :
    Node.singleLoop graph selected map single
      = .ok (match single, selectedEntries graph selected map with
        | none, [entry] => some entry.1
        | some found, [] => some found
        | _, _ => none) := by
  induction map generalizing single with
  | nil => cases single <;> rfl
  | cons pair rest ih =>
    have hrest : ∀ entry ∈ rest, (graph.edge entry.2).isSome = true :=
      fun entry h => hres entry (List.mem_cons_of_mem _ h)
    have hpair := hres pair (List.mem_cons_self _ _)
    cases hedge : graph.edge pair.2 with
    | none => rw [hedge] at hpair; cases hpair
    | some edge =>
      unfold Node.singleLoop
      simp only [hedge, deref, bind, Except.bind]
      cases hsel : selected edge with
      | false =>
        have hfilter : selectedEntries graph selected (pair :: rest)
            = selectedEntries graph selected rest := by
          simp [selectedEntries, List.filter_cons, hedge, hsel]
        simp only [Bool.false_eq_true, if_false, hfilter]
        exact ih hrest single
      | true =>
        have hfilter : selectedEntries graph selected (pair :: rest)
            = pair :: selectedEntries graph selected rest := by
          simp [selectedEntries, List.filter_cons, hedge, hsel]
        simp only [if_true, hfilter]
        cases single with
        | some found => rfl
        | none =>
          simp only [Option.isSome_none, Bool.false_eq_true, if_false]
          rw [ih hrest (some pair.1)]
          cases selectedEntries graph selected rest <;> rfl

/-- A neighbor over a selected edge is the node of a selected entry. -/
theorem selected_iff {Relation : Type} (graph : Store.Graph Relation)
    (selected : Edge Relation → Bool) (node neighbor : NodePointer) :
    Selected graph selected node neighbor
      ↔ ∃ pointer, (neighbor, pointer) ∈ selectedEntries graph selected (graph.node node).edges := by
  unfold Selected selectedEntries
  constructor
  · rintro ⟨pointer, edge, hmem, hedge, hsel⟩
    refine ⟨pointer, List.mem_filter.2 ⟨hmem, ?_⟩⟩
    simp [hedge, hsel]
  · rintro ⟨pointer, hmem⟩
    obtain ⟨hmem, hsel⟩ := List.mem_filter.1 hmem
    cases hedge : graph.edge (neighbor, pointer).2 with
    | none => simp [hedge] at hsel
    | some edge =>
      refine ⟨pointer, edge, hmem, hedge, ?_⟩
      simpa [hedge] using hsel

/-- The result of the loop is the unique neighbor over a selected edge, or null. -/
theorem singleLoop_unique {Relation : Type} (graph : Store.Graph Relation)
    (selected : Edge Relation → Bool) (node : NodePointer)
    (hkeys : (graph.node node).edges.keys.Nodup)
    (hres : ∀ entry ∈ (graph.node node).edges, (graph.edge entry.2).isSome = true) :
    ∃ single, Node.singleLoop graph selected (graph.node node).edges none = .ok single
      ∧ UniqueSelected graph selected node single := by
  refine ⟨_, singleLoop_spec graph selected _ hres none, ?_⟩
  have hsub : (selectedEntries graph selected (graph.node node).edges).Sublist
      (graph.node node).edges := List.filter_sublist _
  have hnodup : ((selectedEntries graph selected (graph.node node).edges).map Prod.fst).Nodup :=
    List.Nodup.sublist (List.Sublist.map _ hsub) hkeys
  unfold UniqueSelected
  simp only [selected_iff]
  generalize selectedEntries graph selected (graph.node node).edges = entries at hnodup
  match entries, hnodup with
  | [], _ =>
    refine ⟨fun neighbor => ?_, ?_⟩
    · constructor
      · intro h
        cases h
      · rintro ⟨⟨pointer, h⟩, -⟩
        cases h
    · constructor
      · intro _
        left
        rintro neighbor ⟨pointer, h⟩
        cases h
      · intro _
        rfl
  | [entry], _ =>
    refine ⟨fun neighbor => ?_, ?_⟩
    · constructor
      · intro h
        cases h
        refine ⟨⟨entry.2, List.mem_singleton.2 rfl⟩, ?_⟩
        rintro other ⟨pointer, h⟩
        rw [← List.mem_singleton.1 h]
      · rintro ⟨⟨pointer, h⟩, -⟩
        rw [← List.mem_singleton.1 h]
    · constructor
      · intro h
        cases h
      · rintro (h | ⟨neighbor, other, ⟨p, hp⟩, ⟨q, hq⟩, hne⟩)
        · exact absurd ⟨entry.2, List.mem_singleton.2 rfl⟩ (h entry.1)
        · have h1 := List.mem_singleton.1 hp
          have h2 := List.mem_singleton.1 hq
          rw [← h1] at h2
          exact absurd (congrArg Prod.fst h2).symm hne
  | first :: second :: rest, hnodup =>
    have hne : first.1 ≠ second.1 := by
      intro h
      simp [h] at hnodup
    have h1 : ∃ pointer, (first.1, pointer) ∈ first :: second :: rest :=
      ⟨first.2, List.mem_cons_self _ _⟩
    have h2 : ∃ pointer, (second.1, pointer) ∈ first :: second :: rest :=
      ⟨second.2, List.mem_cons_of_mem _ (List.mem_cons_self _ _)⟩
    refine ⟨fun neighbor => ?_, ?_⟩
    · constructor
      · intro h
        cases h
      · rintro ⟨-, hall⟩
        exact absurd ((hall _ h1).trans (hall _ h2).symm) hne
    · constructor
      · intro _
        exact Or.inr ⟨first.1, second.1, h1, h2, hne⟩
      · intro _
        rfl

/-- C34: `getSingleNeighbor`, `getSinglePredecessor` and `getSingleSuccessor` on a node whose
map of edges has every key once and holds addresses of edge objects (as in every graph built by
the operations of `Graph`). Each returns the unique adjacent node whose edge passes the test
(for the neighbor: the relation of the edge satisfies the predicate; for the predecessor: the
node is an output of the edge, the edge is incoming, and the relation satisfies the predicate;
for the successor: the node is an input of the edge, the edge is outgoing) when exactly one such
node exists, and null when there is none or more than one. In particular `getSinglePredecessor()`
of a node with exactly one incoming edge returns the node at the other end of that edge, which
is the source of the edge. -/
theorem getSingle_returns_unique_node {Relation : Type} (graph : Store.Graph Relation)
    (node : NodePointer) (relation : Relation → Bool)
    (hkeys : (graph.node node).edges.keys.Nodup)
    (hres : ∀ entry ∈ (graph.node node).edges, (graph.edge entry.2).isSome = true) :
    (∃ single, Node.getSingleNeighbor graph node relation = .ok single
        ∧ UniqueSelected graph (fun edge => relation edge.data) node single)
      ∧ (∃ single, Node.getSinglePredecessor graph node relation = .ok single
        ∧ UniqueSelected graph (fun edge => edge.isOutput node && relation edge.data) node single)
      ∧ (∃ single, Node.getSingleSuccessor graph node relation = .ok single
        ∧ UniqueSelected graph (fun edge => edge.isInput node && relation edge.data) node single)
      ∧ (∀ source pointer edge, (source, pointer) ∈ (graph.node node).edges →
          graph.edge pointer = some edge → edge.isOutput node = true →
          (∀ other pointer2 edge2, (other, pointer2) ∈ (graph.node node).edges →
            graph.edge pointer2 = some edge2 → edge2.isOutput node = true → other = source) →
          Node.getSinglePredecessorOfAll graph node = .ok (some source)
            ∧ (edge.connects node source → edge.isInput source = true)) := by
  refine ⟨singleLoop_unique graph _ node hkeys hres, singleLoop_unique graph _ node hkeys hres,
    singleLoop_unique graph _ node hkeys hres, ?_⟩
  intro source pointer edge hmem hedge hout hall
  refine ⟨?_, ?_⟩
  · obtain ⟨single, hsingle, hunique⟩ :=
      singleLoop_unique graph (fun edge => edge.isOutput node && true) node hkeys hres
    have : single = some source := by
      refine (hunique.1 source).2 ⟨⟨pointer, edge, hmem, hedge, by simp [hout]⟩, ?_⟩
      rintro other ⟨pointer2, edge2, hmem2, hedge2, hsel2⟩
      exact hall other pointer2 edge2 hmem2 hedge2 (by simpa using hsel2)
    rw [← this]
    exact hsingle
  · intro hconnects
    unfold Edge.isOutput at hout
    unfold Edge.isInput
    rcases hconnects with ⟨h1, h2⟩ | ⟨h1, h2⟩
    · simp only [Bool.or_eq_true, Bool.and_eq_true, decide_eq_true_eq] at hout ⊢
      rcases hout with ⟨h3, h4⟩ | ⟨-, h4⟩
      · left
        exact ⟨by rw [h1, h3, h2], h4⟩
      · right
        exact ⟨h2.symm, h4⟩
    · simp only [Bool.or_eq_true, Bool.and_eq_true, decide_eq_true_eq] at hout ⊢
      rcases hout with ⟨-, h4⟩ | ⟨h3, h4⟩
      · left
        exact ⟨h1.symm, h4⟩
      · right
        exact ⟨by rw [h2, h3, h1], h4⟩

/-- Witness for C34: in the graph with the edges from 1 to 3 and from 2 to 3, the node 3 has two
incoming edges and no single predecessor, the edge with the relation 7 gives the single
predecessor 1, and the single successor of the node 1 is the node 3. -/
theorem getSingle_returns_unique_node_witness :
    Node.getSinglePredecessorOfAll Example.joining 3 = .ok none
      ∧ Node.getSinglePredecessor Example.joining 3 (fun rel => decide (rel = 7)) = .ok (some 1)
      ∧ Node.getSingleSuccessorOfAll Example.joining 1 = .ok (some 3)
      ∧ ∃ single, Node.getSinglePredecessor Example.joining 3 (fun rel => decide (rel = 7))
            = .ok single
          ∧ UniqueSelected Example.joining
              (fun edge => edge.isOutput 3 && decide (edge.data = 7)) 3 single :=
  ⟨rfl, rfl, rfl,
    (getSingle_returns_unique_node Example.joining 3 (fun rel => decide (rel = 7))
      (by decide) (by decide)).2.1⟩

end vc4c

namespace vc4c

/-! ### The map of merged blocks -/

/-- A label without an entry in the map is its own source. -/
theorem findSourceBlock_not_key (fuel : Nat) (label : Local) (blockMap : List (Local × Local))
    (h : ∀ entry ∈ blockMap, entry.1 ≠ label) :
    findSourceBlock (fuel + 1) label blockMap = .ok label := by
  unfold findSourceBlock
  have : List.find? (fun entry : Local × Local => decide (entry.1 = label)) blockMap = none := by
    rw [List.find?_eq_none]
    intro entry hentry
    simpa using h entry hentry
  rw [this]

/-- The entry of a key in a map without a key twice. -/
theorem find_entry (blockMap : List (Local × Local)) (key value : Local)
    (hkeys : (blockMap.map Prod.fst).Nodup) (hmem : (key, value) ∈ blockMap) :
    List.find? (fun entry : Local × Local => decide (entry.1 = key)) blockMap
      = some (key, value) := by
  induction blockMap with
  | nil => cases hmem
  | cons head rest ih =>
    rw [List.map_cons, List.nodup_cons] at hkeys
    rcases List.mem_cons.1 hmem with hhead | hrest
    · rw [← hhead]
      simp [List.find?_cons]
    · have hne : head.1 ≠ key := by
        intro heq
        apply hkeys.1
        rw [heq]
        exact List.mem_map.2 ⟨_, hrest, rfl⟩
      rw [List.find?_cons]
      simp only [hne, decide_False]
      exact ih hkeys.2 hrest

/-- A label with an entry in the map has the source of the label it is mapped to. -/
theorem findSourceBlock_step (fuel : Nat) (label previous : Local)
    (blockMap : List (Local × Local))
    (h : List.find? (fun entry : Local × Local => decide (entry.1 = label)) blockMap
      = some (label, previous)) :
    findSourceBlock (fuel + 1) label blockMap = findSourceBlock fuel previous blockMap := by
  conv_lhs => unfold findSourceBlock
  rw [h]

/-- More steps do not change the source that was found. -/
theorem findSourceBlock_more (blockMap : List (Local × Local)) (fuel : Nat) :
    ∀ (label source : Local), findSourceBlock fuel label blockMap = .ok source →
      findSourceBlock (fuel + 1) label blockMap = .ok source := by
  induction fuel with
  | zero =>
    intro label source h
    unfold findSourceBlock at h
    cases h
  | succ fuel ih =>
    intro label source h
    unfold findSourceBlock at h ⊢
    cases hfind : List.find? (fun entry : Local × Local => decide (entry.1 = label)) blockMap with
    | none =>
      rw [hfind] at h
      exact h
    | some entry =>
      rw [hfind] at h
      exact ih _ _ h

theorem findSourceBlock_fuel (blockMap : List (Local × Local)) (fuel more : Nat)
    (label source : Local) (h : findSourceBlock fuel label blockMap = .ok source) :
    findSourceBlock (fuel + more) label blockMap = .ok source := by
  induction more with
  | zero => exact h
  | succ more ih => exact findSourceBlock_more blockMap (fuel + more) label source ih

/-- A new entry for another label than the source does not change the source. -/
theorem findSourceBlock_append (blockMap : List (Local × Local)) (key value : Local)
    (fuel : Nat) :
    ∀ (label source : Local), findSourceBlock fuel label blockMap = .ok source → source ≠ key →
      findSourceBlock fuel label (blockMap ++ [(key, value)]) = .ok source := by
  induction fuel with
  | zero =>
    intro label source h
    unfold findSourceBlock at h
    cases h
  | succ fuel ih =>
    intro label source h hne
    unfold findSourceBlock at h ⊢
    rw [List.find?_append]
    cases hfind : List.find? (fun entry : Local × Local => decide (entry.1 = label)) blockMap with
    | none =>
      rw [hfind] at h
      have hs : source = label := (Except.ok.inj h).symm
      subst hs
      have hk : ¬ key = source := fun hh => hne hh.symm
      simp [List.find?_cons, hk]
    | some entry =>
      rw [hfind] at h
      exact ih _ _ h hne

/-! ### Blocks found by their label -/

/-- A block with a label starts with the label instruction. -/
theorem getLabel_some (block : BasicBlock) (label : Local) (h : getLabel block = some label) :
    ∃ inst rest, block = some inst :: rest ∧ getLabel [some inst] = some label := by
  match block, h with
  | some inst :: rest, h => exact ⟨inst, rest, rfl, by rw [getLabel_cons] at h; exact h⟩

theorem getLabel_append (block more : BasicBlock) (label : Local)
    (h : getLabel block = some label) : getLabel (block ++ more) = some label := by
  obtain ⟨inst, rest, hblock, hinst⟩ := getLabel_some block label h
  rw [hblock, List.cons_append, getLabel_cons]
  exact hinst

/-- The block left behind when the instructions of a block are released keeps the label. -/
theorem getLabel_released (block : BasicBlock) (label : Local)
    (h : getLabel block = some label) :
    getLabel (block.head?.toList ++ block.tail.map fun _ => none) = some label := by
  obtain ⟨inst, rest, hblock, hinst⟩ := getLabel_some block label h
  rw [hblock]
  simp only [List.head?_cons, Option.toList_some, List.tail_cons, List.singleton_append]
  rw [getLabel_cons]
  exact hinst

theorem findBasicBlock_replaced (blocks : List BasicBlock) (label : Local)
    (block found : BasicBlock) (hfound : findBasicBlock blocks label = some found)
    (hlabel : getLabel block = some label) :
    findBasicBlock (replaceBlock blocks label block) label = some block := by
  induction blocks with
  | nil => cases hfound
  | cons first rest ih =>
    rw [replaceBlock_cons]
    by_cases hfirst : getLabel first = some label
    · rw [if_pos hfirst]
      exact findBasicBlock_head block _ label hlabel
    · rw [if_neg hfirst]
      unfold findBasicBlock at hfound ⊢
      rw [List.find?_cons] at hfound ⊢
      simp only [hfirst, decide_False] at hfound ⊢
      exact ih hfound

theorem findBasicBlock_replaced_other (blocks : List BasicBlock) (label other : Local)
    (block : BasicBlock) (hne : other ≠ label) (hlabel : getLabel block = some label) :
    findBasicBlock (replaceBlock blocks label block) other = findBasicBlock blocks other := by
  induction blocks with
  | nil => rfl
  | cons first rest ih =>
    rw [replaceBlock_cons]
    have hrest : findBasicBlock (replaceBlock rest label block) other = findBasicBlock rest other :=
      ih
    unfold findBasicBlock at hrest ⊢
    by_cases hfirst : getLabel first = some label
    · rw [if_pos hfirst, List.find?_cons, List.find?_cons]
      have h1 : getLabel block ≠ some other := by
        rw [hlabel]
        intro hh
        exact hne (Option.some.inj hh).symm
      have h2 : getLabel first ≠ some other := by
        rw [hfirst]
        intro hh
        exact hne (Option.some.inj hh).symm
      simp only [h1, h2, decide_False]
      exact hrest
    · rw [if_neg hfirst, List.find?_cons, List.find?_cons, hrest]

theorem find_filtered_other (blocks : List BasicBlock) (label other : Local)
    (hne : other ≠ label) :
    List.find? (fun block => decide (getLabel block = some other))
        (List.filter (fun block => decide (getLabel block ≠ some label)) blocks)
      = List.find? (fun block => decide (getLabel block = some other)) blocks := by
  induction blocks with
  | nil => rfl
  | cons first rest ih =>
    rw [List.filter_cons]
    by_cases hfirst : getLabel first = some label
    · have h2 : getLabel first ≠ some other := by
        rw [hfirst]
        intro hh
        exact hne (Option.some.inj hh).symm
      have h3 : decide (getLabel first = some other) = false := by simpa using h2
      have h4 : decide (getLabel first ≠ some label) = false := by simpa using hfirst
      rw [h4, List.find?_cons, h3]
      exact ih
    · have h4 : decide (getLabel first ≠ some label) = true := by simpa using hfirst
      rw [h4]
      simp only [if_true]
      rw [List.find?_cons, List.find?_cons, ih]

theorem findBasicBlock_removed_other (blocks : List BasicBlock) (label other : Local)
    (hne : other ≠ label) :
    findBasicBlock (removeBlock blocks label).1 other = findBasicBlock blocks other := by
  unfold removeBlock
  split
  · split
    · exact find_filtered_other blocks label other hne
    · rfl
  · rfl

/-- One round of the second loop of `mergeAdjacentBasicBlocks`, for a pair whose second block
has no entry in the map and whose first block has the source `root`. -/
theorem mergePair_spec (blocks : List BasicBlock) (blockMap : List (Local × Local))
    (previous label root : Local) (rootBlock block : BasicBlock)
    (hroot : findSourceBlock (blockMap.length + 1) previous blockMap = .ok root)
    (hkey : ∀ entry ∈ blockMap, entry.1 ≠ label)
    (hfindRoot : findBasicBlock blocks root = some rootBlock)
    (hfind : findBasicBlock blocks label = some block)
    (hrootLabel : getLabel rootBlock = some root) (hlabel : getLabel block = some label)
    (hne : root ≠ label) :
    ∃ merged, mergePair blocks blockMap (previous, label)
        = .ok (merged, blockMap ++ [(label, previous)])
      ∧ findBasicBlock merged root = some (rootBlock ++ block.tail)
      ∧ ∀ other, other ≠ root → other ≠ label →
          findBasicBlock merged other = findBasicBlock blocks other := by
  have hany : (blockMap.any fun entry => decide (entry.1 = label)) = false := by
    rw [List.any_eq_false]
    intro entry hentry
    simpa using hkey entry hentry
  refine ⟨(removeBlock (replaceBlock (replaceBlock blocks root (rootBlock ++ block.tail)) label
    (block.head?.toList ++ block.tail.map fun _ => none)) label).1, ?_, ?_, ?_⟩
  · unfold mergePair
    simp only [findSourceBlock_not_key _ label blockMap hkey, hroot, hfindRoot, hfind, deref,
      bind, Except.bind, pure, Except.pure, hany, Bool.false_eq_true, if_false]
  · rw [findBasicBlock_removed_other _ _ _ hne,
      findBasicBlock_replaced_other _ _ _ _ hne (getLabel_released block label hlabel)]
    exact findBasicBlock_replaced blocks root _ rootBlock hfindRoot
      (getLabel_append rootBlock _ root hrootLabel)
  · intro other h1 h2
    rw [findBasicBlock_removed_other _ _ _ h2,
      findBasicBlock_replaced_other _ _ _ _ h2 (getLabel_released block label hlabel),
      findBasicBlock_replaced_other _ _ _ _ h1 (getLabel_append rootBlock _ root hrootLabel)]

end vc4c

namespace vc4c

theorem chainPairs_cons (previous label : Local) (labels : List Local) :
    chainPairs (previous :: label :: labels) = (previous, label) :: chainPairs (label :: labels) :=
  rfl

/-- The second labels of the pairs of a chain are labels of the chain behind its first one. -/
theorem chainPairs_second (labels : List Local) (pair : Local × Local)
    (h : pair ∈ chainPairs labels) : pair.2 ∈ labels.tail := by
  unfold chainPairs at h
  exact (List.of_mem_zip h).2

/-- The second loop of `mergeAdjacentBasicBlocks` along a chain: the blocks `followers` are
merged one after the other into the block with the label `root`. -/
theorem mergePairs_chain (followers : List (Local × BasicBlock)) :
    ∀ (rest : List (Local × Local)) (blocks : List BasicBlock) (blockMap : List (Local × Local))
      (previous root : Local) (rootBlock : BasicBlock),
      findSourceBlock (blockMap.length + 1) previous blockMap = .ok root →
      findBasicBlock blocks root = some rootBlock → getLabel rootBlock = some root →
      (∀ entry ∈ followers, getLabel entry.2 = some entry.1
        ∧ findBasicBlock blocks entry.1 = some entry.2 ∧ entry.1 ≠ root
        ∧ ∀ e ∈ blockMap, e.1 ≠ entry.1) →
      (followers.map Prod.fst).Nodup →
      ∃ merged,
        mergePairs (chainPairs (previous :: followers.map Prod.fst) ++ rest) blocks blockMap
            = mergePairs rest merged
                (blockMap ++ (chainPairs (previous :: followers.map Prod.fst)).map Prod.swap)
          ∧ mergedBlockMap (chainPairs (previous :: followers.map Prod.fst) ++ rest) blocks
                blockMap
            = mergedBlockMap rest merged
                (blockMap ++ (chainPairs (previous :: followers.map Prod.fst)).map Prod.swap)
          ∧ findBasicBlock merged root
            = some (rootBlock ++ (followers.map Prod.snd).flatMap List.tail)
          ∧ ∀ other, other ≠ root → other ∉ followers.map Prod.fst →
              findBasicBlock merged other = findBasicBlock blocks other := by
  induction followers with
  | nil =>
    intro rest blocks blockMap previous root rootBlock _ hfindRoot _ _ _
    refine ⟨blocks, ?_, ?_, ?_, ?_⟩
    · simp [chainPairs]
    · simp [chainPairs]
    · simpa using hfindRoot
    · intro other _ _
      rfl
  | cons head followers ih =>
    obtain ⟨label, block⟩ := head
    intro rest blocks blockMap previous root rootBlock hroot hfindRoot hrootLabel hall hnodup
    obtain ⟨hlabel, hfind, hne, hkey⟩ := hall (label, block) (List.mem_cons_self _ _)
    rw [List.map_cons, List.nodup_cons] at hnodup
    obtain ⟨merged, hpair, hmergedRoot, hmergedOther⟩ :=
      mergePair_spec blocks blockMap previous label root rootBlock block hroot hkey hfindRoot
        hfind hrootLabel hlabel (Ne.symm hne)
    have hfindEntry : List.find? (fun entry : Local × Local => decide (entry.1 = label))
        (blockMap ++ [(label, previous)]) = some (label, previous) := by
      rw [List.find?_append]
      have : List.find? (fun entry : Local × Local => decide (entry.1 = label)) blockMap
          = none := by
        rw [List.find?_eq_none]
        intro entry hentry
        simpa using hkey entry hentry
      rw [this]
      simp [List.find?_cons]
    have hroot2 : findSourceBlock ((blockMap ++ [(label, previous)]).length + 1) label
        (blockMap ++ [(label, previous)]) = .ok root := by
      rw [findSourceBlock_step _ label previous _ hfindEntry, List.length_append,
        List.length_singleton]
      exact findSourceBlock_append blockMap label previous _ previous root hroot (Ne.symm hne)
    obtain ⟨merged2, hpairs, hmap, hroot3, hother3⟩ :=
      ih rest merged (blockMap ++ [(label, previous)]) label root (rootBlock ++ block.tail)
        hroot2 hmergedRoot (getLabel_append rootBlock _ root hrootLabel)
        (by
          intro entry hentry
          obtain ⟨h1, h2, h3, h4⟩ := hall entry (List.mem_cons_of_mem _ hentry)
          have h5 : entry.1 ≠ label := by
            intro heq
            apply hnodup.1
            rw [← heq]
            exact List.mem_map.2 ⟨entry, hentry, rfl⟩
          refine ⟨h1, ?_, h3, ?_⟩
          · rw [hmergedOther entry.1 h3 h5]
            exact h2
          · intro e he
            rcases List.mem_append.1 he with he | he
            · exact h4 e he
            · rw [List.mem_singleton.1 he]
              exact Ne.symm h5)
        hnodup.2
    refine ⟨merged2, ?_, ?_, ?_, ?_⟩
    · simp only [List.map_cons, chainPairs_cons, List.cons_append, List.map_cons, Prod.swap]
      rw [mergePairs]
      simp only [hpair, bind, Except.bind]
      rw [hpairs]
      simp [List.append_assoc]
    · simp only [List.map_cons, chainPairs_cons, List.cons_append, List.map_cons, Prod.swap]
      rw [mergedBlockMap]
      simp only [hpair, bind, Except.bind]
      rw [hmap]
      simp [List.append_assoc]
    · rw [hroot3]
      simp [List.append_assoc]
    · intro other h1 h2
      simp only [List.map_cons, List.mem_cons, not_or] at h2
      rw [hother3 other h1 h2.2, hmergedOther other h1 h2.1]

/-- The second loop of `mergeAdjacentBasicBlocks` for blocks that fall into chains: every chain
is merged into its first block, blocks outside the chains stay, and the map gets an entry for
every pair. -/
theorem mergePairs_runs (runs : List (List (Local × BasicBlock))) :
    ∀ (blocks : List BasicBlock) (blockMap : List (Local × Local)),
      (∀ run ∈ runs, ∀ entry ∈ run, getLabel entry.2 = some entry.1
        ∧ findBasicBlock blocks entry.1 = some entry.2 ∧ ∀ e ∈ blockMap, e.1 ≠ entry.1) →
      (runs.flatten.map Prod.fst).Nodup →
      ∃ merged,
        mergePairs (runs.flatMap fun run => chainPairs (run.map Prod.fst)) blocks blockMap
            = .ok merged
          ∧ mergedBlockMap (runs.flatMap fun run => chainPairs (run.map Prod.fst)) blocks
                blockMap
            = .ok (blockMap
                ++ (runs.flatMap fun run => chainPairs (run.map Prod.fst)).map Prod.swap)
          ∧ (∀ run ∈ runs, ∀ first others, run = first :: others →
              findBasicBlock merged first.1 = some (mergedChain first.2 (others.map Prod.snd)))
          ∧ ∀ other, other ∉ runs.flatten.map Prod.fst →
              findBasicBlock merged other = findBasicBlock blocks other := by
  induction runs with
  | nil =>
    intro blocks blockMap _ _
    refine ⟨blocks, rfl, by simp [mergedBlockMap], ?_, fun _ _ => rfl⟩
    intro run h
    cases h
  | cons run runs ih =>
    intro blocks blockMap hall hnodup
    rw [List.flatten_cons, List.map_append, List.nodup_append] at hnodup
    obtain ⟨hrun, hrest, hdisjoint⟩ := hnodup
    cases run with
    | nil =>
      obtain ⟨merged, h1, h2, h3, h4⟩ := ih blocks blockMap
        (fun r hr => hall r (List.mem_cons_of_mem _ hr)) hrest
      refine ⟨merged, ?_, ?_, ?_, ?_⟩
      · simpa [List.flatMap_cons, chainPairs] using h1
      · simpa [List.flatMap_cons, chainPairs] using h2
      · intro r hr first others hfirst
        rcases List.mem_cons.1 hr with hr | hr
        · rw [hr] at hfirst
          cases hfirst
        · exact h3 r hr first others hfirst
      · intro other hother
        exact h4 other (by simpa using hother)
    | cons first others =>
      obtain ⟨hfirstLabel, hfirstFind, hfirstKey⟩ :=
        hall (first :: others) (List.mem_cons_self _ _) first (List.mem_cons_self _ _)
      rw [List.map_cons, List.nodup_cons] at hrun
      obtain ⟨merged, hpairs, hmap, hroot, hother⟩ :=
        mergePairs_chain others
          (runs.flatMap fun run => chainPairs (run.map Prod.fst)) blocks blockMap first.1
          first.1 first.2 (findSourceBlock_not_key _ _ _ hfirstKey) hfirstFind hfirstLabel
          (by
            intro entry hentry
            obtain ⟨h1, h2, h3⟩ :=
              hall (first :: others) (List.mem_cons_self _ _) entry (List.mem_cons_of_mem _ hentry)
            refine ⟨h1, h2, ?_, h3⟩
            intro heq
            apply hrun.1
            rw [← heq]
            exact List.mem_map.2 ⟨entry, hentry, rfl⟩)
          hrun.2
      have hnotin : ∀ r ∈ runs, ∀ entry ∈ r, entry.1 ≠ first.1 ∧ entry.1 ∉ others.map Prod.fst := by
        intro r hr entry hentry
        have hjoin : entry.1 ∈ runs.flatten.map Prod.fst :=
          List.mem_map.2 ⟨entry, List.mem_flatten.2 ⟨r, hr, hentry⟩, rfl⟩
        refine ⟨?_, ?_⟩
        · intro heq
          exact hdisjoint (by rw [List.map_cons, ← heq]; exact List.mem_cons_self _ _) hjoin
        · intro hmem
          exact hdisjoint (by rw [List.map_cons]; exact List.mem_cons_of_mem _ hmem) hjoin
      obtain ⟨merged2, h1, h2, h3, h4⟩ := ih merged
        (blockMap ++ (chainPairs (first.1 :: others.map Prod.fst)).map Prod.swap)
        (by
          intro r hr entry hentry
          obtain ⟨g1, g2, g3⟩ := hall r (List.mem_cons_of_mem _ hr) entry hentry
          obtain ⟨n1, n2⟩ := hnotin r hr entry hentry
          refine ⟨g1, ?_, ?_⟩
          · rw [hother entry.1 n1 n2]
            exact g2
          · intro e he
            rcases List.mem_append.1 he with he | he
            · exact g3 e he
            · obtain ⟨pair, hpair, hswap⟩ := List.mem_map.1 he
              have := chainPairs_second _ pair hpair
              rw [← hswap]
              simp only [Prod.fst_swap, List.tail_cons] at this ⊢
              intro heq
              exact n2 (heq ▸ this))
        hrest
      refine ⟨merged2, ?_, ?_, ?_, ?_⟩
      · rw [List.flatMap_cons, List.map_cons, hpairs]
        exact h1
      · rw [List.flatMap_cons, List.map_cons, hmap, h2]
        simp [List.append_assoc]
      · intro r hr first2 others2 hfirst2
        rcases List.mem_cons.1 hr with hr | hr
        · rw [hr] at hfirst2
          obtain ⟨e1, e2⟩ := List.cons.inj hfirst2
          subst e1 e2
          have hout : first.1 ∉ runs.flatten.map Prod.fst := by
            intro hjoin
            exact hdisjoint (by rw [List.map_cons]; exact List.mem_cons_self _ _) hjoin
          rw [h4 first.1 hout, hroot]
          rfl
        · exact h3 r hr first2 others2 hfirst2
      · intro other hother2
        rw [List.flatten_cons, List.map_append, List.mem_append, not_or] at hother2
        rw [h4 other hother2.2]
        rw [List.map_cons, List.mem_cons, not_or] at hother2
        exact hother other hother2.1.1 hother2.1.2

end vc4c

namespace vc4c

/-- Neighbours in a chain form one of its pairs. -/
theorem chainPairs_adjacent (before : List Local) (a b : Local) (after : List Local) :
    (a, b) ∈ chainPairs (before ++ a :: b :: after) := by
  induction before with
  | nil =>
    rw [List.nil_append, chainPairs_cons]
    exact List.mem_cons_self _ _
  | cons head rest ih =>
    cases rest with
    | nil =>
      rw [List.cons_append, List.nil_append, chainPairs_cons]
      exact List.mem_cons_of_mem _ ih
    | cons second rest =>
      rw [List.cons_append, List.cons_append, chainPairs_cons]
      exact List.mem_cons_of_mem _ ih

theorem chainPairs_length (labels : List Local) : (chainPairs labels).length = labels.length - 1 := by
  unfold chainPairs
  rw [List.length_zip, List.length_tail]
  omega

/-- The keys of the map of a run of the pass: the labels behind the first one of every chain. -/
theorem chainPairs_keys (labelRuns : List (List Local)) :
    ((labelRuns.flatMap chainPairs).map Prod.swap).map Prod.fst = labelRuns.flatMap List.tail := by
  induction labelRuns with
  | nil => rfl
  | cons run rest ih =>
    rw [List.flatMap_cons, List.flatMap_cons, List.map_append, List.map_append, ih]
    congr 1
    unfold chainPairs
    rw [List.map_map]
    have : (Prod.fst ∘ Prod.swap : Local × Local → Local) = Prod.snd := by
      funext pair
      rfl
    rw [this]
    exact List.map_snd_zip _ _ (by rw [List.length_tail]; omega)

theorem tails_sublist (labelRuns : List (List Local)) :
    (labelRuns.flatMap List.tail).Sublist labelRuns.flatten := by
  induction labelRuns with
  | nil => exact List.Sublist.refl _
  | cons run rest ih =>
    rw [List.flatMap_cons, List.flatten_cons]
    exact List.Sublist.append (List.tail_sublist run) ih

/-- The first label of a chain is no key of the map. -/
theorem first_not_key (labelRuns : List (List Local)) (h : labelRuns.flatten.Nodup)
    (first : Local) (others : List Local) (hrun : first :: others ∈ labelRuns) :
    first ∉ labelRuns.flatMap List.tail := by
  induction labelRuns with
  | nil => cases hrun
  | cons run rest ih =>
    rw [List.flatten_cons, List.nodup_append] at h
    obtain ⟨h1, h2, h3⟩ := h
    rw [List.flatMap_cons, List.mem_append, not_or]
    rcases List.mem_cons.1 hrun with hhead | hrest
    · rw [← hhead]
      refine ⟨?_, ?_⟩
      · rw [← hhead] at h1
        exact (List.nodup_cons.1 h1).1
      · intro hmem
        refine h3 ?_ ((tails_sublist rest).subset hmem)
        rw [← hhead]
        exact List.mem_cons_self _ _
    · refine ⟨?_, ih h2 hrest⟩
      intro hmem
      exact h3 (List.mem_of_mem_tail hmem)
        (List.mem_flatten.2 ⟨_, hrest, List.mem_cons_self _ _⟩)

theorem flatMap_length_ge {α β : Type} (f : α → List β) (runs : List α) (run : α)
    (h : run ∈ runs) : (f run).length ≤ (runs.flatMap f).length := by
  induction runs with
  | nil => cases h
  | cons head rest ih =>
    rw [List.flatMap_cons, List.length_append]
    rcases List.mem_cons.1 h with hhead | hrest
    · rw [hhead]
      omega
    · have := ih hrest
      omega

/-- The map of a run of the pass over chains of blocks with different labels: `findSourceBlock`
returns for every label, and the source of every label of a chain is the first label of the
chain. -/
theorem findSourceBlock_resolves (labelRuns : List (List Local)) (h : labelRuns.flatten.Nodup) :
    (∀ label, ∃ source,
        findSourceBlock (((labelRuns.flatMap chainPairs).map Prod.swap).length + 1) label
          ((labelRuns.flatMap chainPairs).map Prod.swap) = .ok source)
      ∧ ∀ first others, first :: others ∈ labelRuns → ∀ label ∈ first :: others,
          findSourceBlock (((labelRuns.flatMap chainPairs).map Prod.swap).length + 1) label
            ((labelRuns.flatMap chainPairs).map Prod.swap) = .ok first := by
  have hkeys : (((labelRuns.flatMap chainPairs).map Prod.swap).map Prod.fst).Nodup := by
    rw [chainPairs_keys]
    exact List.Nodup.sublist (tails_sublist labelRuns) h
  have hsplit : ∀ first others, first :: others ∈ labelRuns →
      ∀ (before : List Local) (label : Local) (after : List Local),
        first :: others = before ++ label :: after →
        findSourceBlock (before.length + 1) label
          ((labelRuns.flatMap chainPairs).map Prod.swap) = .ok first := by
    intro first others hrun before
    induction before using List.reverseRecOn with
    | nil =>
      intro label after heq
      rw [List.nil_append] at heq
      obtain ⟨e1, -⟩ := List.cons.inj heq
      rw [← e1]
      apply findSourceBlock_not_key
      intro entry hentry heq2
      have hmem : entry.1 ∈ ((labelRuns.flatMap chainPairs).map Prod.swap).map Prod.fst :=
        List.mem_map.2 ⟨entry, hentry, rfl⟩
      rw [chainPairs_keys, heq2] at hmem
      exact first_not_key labelRuns h first others hrun hmem
    | append_singleton before previous ih =>
      intro label after heq
      have heq2 : first :: others = before ++ previous :: label :: after := by
        rw [heq]
        simp
      have hpair : (previous, label) ∈ labelRuns.flatMap chainPairs := by
        rw [List.mem_flatMap]
        refine ⟨first :: others, hrun, ?_⟩
        rw [heq2]
        exact chainPairs_adjacent before previous label after
      have hentry : (label, previous) ∈ (labelRuns.flatMap chainPairs).map Prod.swap :=
        List.mem_map.2 ⟨(previous, label), hpair, rfl⟩
      rw [List.length_append, List.length_singleton,
        findSourceBlock_step _ label previous _ (find_entry _ label previous hkeys hentry)]
      exact ih previous (label :: after) heq2
  have hresolve : ∀ first others, first :: others ∈ labelRuns → ∀ label ∈ first :: others,
      findSourceBlock (((labelRuns.flatMap chainPairs).map Prod.swap).length + 1) label
        ((labelRuns.flatMap chainPairs).map Prod.swap) = .ok first := by
    intro first others hrun label hlabel
    obtain ⟨before, after, heq⟩ := List.append_of_mem hlabel
    have hfound := hsplit first others hrun before label after heq
    have hlen : before.length ≤ ((labelRuns.flatMap chainPairs).map Prod.swap).length := by
      rw [List.length_map]
      have h1 := flatMap_length_ge chainPairs labelRuns (first :: others) hrun
      rw [chainPairs_length, heq, List.length_append, List.length_cons] at h1
      omega
    obtain ⟨more, hmore⟩ := Nat.exists_eq_add_of_le hlen
    have := findSourceBlock_fuel _ (before.length + 1) more label first hfound
    rw [hmore]
    rw [show before.length + more + 1 = before.length + 1 + more by omega]
    exact this
  refine ⟨?_, hresolve⟩
  intro label
  by_cases hkey : label ∈ labelRuns.flatMap List.tail
  · obtain ⟨run, hrun, hmem⟩ := List.mem_flatMap.1 hkey
    cases run with
    | nil => cases hmem
    | cons first others =>
      exact ⟨first, hresolve first others hrun label (List.mem_cons_of_mem _ hmem)⟩
  · refine ⟨label, findSourceBlock_not_key _ _ _ ?_⟩
    intro entry hentry heq
    apply hkey
    rw [← chainPairs_keys, ← heq]
    exact List.mem_map.2 ⟨entry, hentry, rfl⟩

/-- Blocks with different labels are found by their labels. -/
theorem findBasicBlock_labelled (entries : List (Local × BasicBlock))
    (hlabels : ∀ entry ∈ entries, getLabel entry.2 = some entry.1)
    (hnodup : (entries.map Prod.fst).Nodup) :
    ∀ entry ∈ entries, findBasicBlock (entries.map Prod.snd) entry.1 = some entry.2 := by
  induction entries with
  | nil =>
    intro entry h
    cases h
  | cons head rest ih =>
    rw [List.map_cons, List.nodup_cons] at hnodup
    intro entry hentry
    rcases List.mem_cons.1 hentry with hhead | hrest
    · rw [hhead, List.map_cons]
      exact findBasicBlock_head _ _ _ (hlabels head (List.mem_cons_self _ _))
    · have hne : getLabel head.2 ≠ some entry.1 := by
        rw [hlabels head (List.mem_cons_self _ _)]
        intro heq
        apply hnodup.1
        rw [Option.some.inj heq]
        exact List.mem_map.2 ⟨entry, hrest, rfl⟩
      have := ih (fun e he => hlabels e (List.mem_cons_of_mem _ he)) hnodup.2 entry hrest
      unfold findBasicBlock at this ⊢
      rw [List.map_cons, List.find?_cons]
      simp only [hne, decide_False]
      exact this

/-- C35: one run of `mergeAdjacentBasicBlocks` on a method whose blocks carry different labels
and fall into chains of layout-consecutive blocks such that the merge candidates are the pairs
of neighbours within the chains (the chains are maximal). For a chain of at least two blocks
`first`, `second`, `others` the run succeeds and returns true, and it leaves the first block
holding its instructions followed by those of the second and the other blocks of the chain in
their order, without their labels. The map of merged blocks sends the second label of every
pair to the first one; `findSourceBlock` returns on every label (with the number of steps the
pass gives it), and it resolves the label of every block of the chain to the label of the first
block. -/
theorem mergeAdjacentBasicBlocks_merges_chain (method : Method)
    (front back : List (List (Local × BasicBlock))) (first second : Local × BasicBlock)
    (others : List (Local × BasicBlock))
    (hblocks : method.blocks
      = (front ++ [first :: second :: others] ++ back).flatten.map Prod.snd)
    (hlabels : ∀ entry ∈ (front ++ [first :: second :: others] ++ back).flatten,
      getLabel entry.2 = some entry.1)
    (hnodup : ((front ++ [first :: second :: others] ++ back).flatten.map Prod.fst).Nodup)
    (hpairs : blocksToMerge method
      = (front ++ [first :: second :: others] ++ back).flatMap
          fun run => chainPairs (run.map Prod.fst)) :
    ∃ result blockMap, mergeAdjacentBasicBlocks method = .ok (result, true)
      ∧ findBasicBlock result.blocks first.1
        = some (mergedChain first.2 ((second :: others).map Prod.snd))
      ∧ sourceBlockMap method = .ok blockMap
      ∧ blockMap = (blocksToMerge method).map Prod.swap
      ∧ (∀ label, ∃ source, findSourceBlock (blockMap.length + 1) label blockMap = .ok source)
      ∧ ∀ entry ∈ second :: others,
          findSourceBlock (blockMap.length + 1) entry.1 blockMap = .ok first.1 := by
  have hfound := findBasicBlock_labelled _ hlabels hnodup
  rw [← hblocks] at hfound
  obtain ⟨merged, hmerged, hmap, hchains, -⟩ :=
    mergePairs_runs (front ++ [first :: second :: others] ++ back) method.blocks []
      (by
        intro run hrun entry hentry
        have hmem : entry ∈ (front ++ [first :: second :: others] ++ back).flatten :=
          List.mem_flatten.2 ⟨run, hrun, hentry⟩
        exact ⟨hlabels entry hmem, hfound entry hmem, fun e he => by cases he⟩)
      hnodup
  rw [← hpairs] at hmerged hmap
  have hrun : first :: second :: others ∈ front ++ [first :: second :: others] ++ back := by
    simp
  have hnonempty : (blocksToMerge method).isEmpty = false := by
    rw [hpairs]
    have hmem : (first.1, second.1) ∈ (front ++ [first :: second :: others] ++ back).flatMap
        fun run => chainPairs (run.map Prod.fst) := by
      rw [List.mem_flatMap]
      refine ⟨_, hrun, ?_⟩
      rw [List.map_cons, List.map_cons, chainPairs_cons]
      exact List.mem_cons_self _ _
    cases hlist : (front ++ [first :: second :: others] ++ back).flatMap
        fun run => chainPairs (run.map Prod.fst) with
    | nil => rw [hlist] at hmem; cases hmem
    | cons _ _ => rfl
  have hresolves := findSourceBlock_resolves
    ((front ++ [first :: second :: others] ++ back).map fun run => run.map Prod.fst)
    (by
      rw [← List.map_flatten]
      exact hnodup)
  have hsame : (((front ++ [first :: second :: others] ++ back).map
      fun run => run.map Prod.fst).flatMap chainPairs)
      = blocksToMerge method := by
    rw [hpairs, List.flatMap_map]
  rw [hsame] at hresolves
  refine ⟨{ method with blocks := merged }, (blocksToMerge method).map Prod.swap, ?_, ?_, ?_, rfl,
    hresolves.1, ?_⟩
  · unfold mergeAdjacentBasicBlocks
    simp only [hmerged, bind, Except.bind, pure, Except.pure, hnonempty, Bool.not_false]
  · exact hchains _ hrun first (second :: others) rfl
  · unfold sourceBlockMap
    rw [hmap]
    rfl
  · intro entry hentry
    refine hresolves.2 first.1 ((second :: others).map Prod.fst) ?_ entry.1 ?_
    · exact List.mem_map.2 ⟨_, hrun, rfl⟩
    · exact List.mem_cons_of_mem _ (List.mem_map.2 ⟨entry, hentry, rfl⟩)

/-- Witness for C35: in the method `chain` the three blocks before the reserved last block form
a chain; the run leaves the first block with the three assignments in their order, and the
labels 11 and 13 are resolved to the label 10. -/
theorem mergeAdjacentBasicBlocks_merges_chain_witness :
    blocksToMerge Example.chain = [(10, 11), (11, 13)]
      ∧ ∃ result blockMap, mergeAdjacentBasicBlocks Example.chain = .ok (result, true)
        ∧ findBasicBlock result.blocks 10
          = some [some (Example.label 10), some (Example.assignment 1 (Example.literalValue 5)),
              some (Example.assignment 2 (Example.literalValue 6)),
              some (Example.assignment 3 (Example.literalValue 7))]
        ∧ sourceBlockMap Example.chain = .ok blockMap
        ∧ blockMap = (blocksToMerge Example.chain).map Prod.swap
        ∧ (∀ label, ∃ source, findSourceBlock (blockMap.length + 1) label blockMap = .ok source)
        ∧ ∀ entry ∈ [((11 : Local), ([some (Example.label 11),
              some (Example.assignment 2 (Example.literalValue 6))] : BasicBlock)),
            (13, [some (Example.label 13), some (Example.assignment 3 (Example.literalValue 7))])],
            findSourceBlock (blockMap.length + 1) entry.1 blockMap = .ok 10 :=
  ⟨by decide,
    mergeAdjacentBasicBlocks_merges_chain Example.chain []
      [[(12, [some (Example.label 12)])]]
      (10, [some (Example.label 10), some (Example.assignment 1 (Example.literalValue 5))])
      (11, [some (Example.label 11), some (Example.assignment 2 (Example.literalValue 6))])
      [(13, [some (Example.label 13), some (Example.assignment 3 (Example.literalValue 7))])]
      rfl (by decide) (by decide) (by decide)⟩

end vc4c

namespace vc4c

/-- C36: `countIterations` divides the distance between the bounds by the step and rounds
towards zero, so it differs from the number of executions of the loop body. With the step kind
`add_constant`: for `for(i = 0; i < 3; i += 2)` it gives 1, the body executes twice; for
`for(i = 0; i <= 4; i += 2)` (equality comparison) it gives 2, the body executes three times.
With the step kind `sub_constant`: for `for(i = 3; i > 0; i -= 2)` it gives 1, the body executes
twice; for `for(i = 4; i >= 0; i -= 1)` (equality comparison) it gives 3, the body executes five
times. With the step 1 upwards the numbers agree (16 for `for(i = 0; i < 16; ++i)`). A loop
whose step operation adds the literal 0 passes all checks of `vectorizeLoops` before
`countIterations` is called with the step 0, and the division is by zero. -/
theorem countIterations_rounds_down :
    (Example.countingLoop 3).stepKind = .ADD_CONSTANT
      ∧ (Example.countingLoop 3).countIterations (fun _ _ => 0) 0 3 2 "lt" = .ok 1
      ∧ upwardExecutions 0 3 2 false = 2
      ∧ (Example.countingLoop 4).countIterations (fun _ _ => 0) 0 4 2 LoopControl.COMP_EQ = .ok 2
      ∧ upwardExecutions 0 4 2 true = 3
      ∧ ({ Example.countingLoop 0 with stepKind := .SUB_CONSTANT } : LoopControl).countIterations
          (fun _ _ => 0) 3 0 2 "lt" = .ok 1
      ∧ downwardExecutions 3 0 2 false = 2
      ∧ ({ Example.countingLoop 0 with stepKind := .SUB_CONSTANT } : LoopControl).countIterations
          (fun _ _ => 0) 4 0 1 LoopControl.COMP_EQ = .ok 3
      ∧ downwardExecutions 4 0 1 true = 5
      ∧ (Example.countingLoop 16).countIterations (fun _ _ => 0) 0 16 1 "lt" = .ok 16
      ∧ upwardExecutions 0 16 1 false = 16
      ∧ Example.idleLoop.loopControl.getStep = some 0
      ∧ selectForVectorization Example.vectorizer Example.idleLoop
        = .error (.compilationError .GENERAL "division by zero") := by
  refine ⟨rfl, rfl, by decide, rfl, by decide, rfl, by decide, rfl, by decide, rfl, by decide,
    rfl, rfl⟩

end vc4c

namespace vc4c

/-- The width in memory of an array of `size` elements of `bytes` bytes each. -/
theorem getInMemoryWidth_array (bytes size : Nat) :
    (DataType.array (.simple (8 * bytes) 1) size).getInMemoryWidth = bytes * size := by
  simp [DataType.getInMemoryWidth]

/-- C37: the count compared with the in-memory width of the destination is the count the
conversion for the source has left, not the byte count of the instruction. A byte-wise copy of
the `(b + 2) * (k + 1)` bytes of an array of `k + 1` elements of `b + 2` bytes each, between two
VPM areas of that array type, passes the check for the source (which turns the count into
`k + 1`) and fails the check for the destination with "Byte-wise partial copy to VPM is yet
implemented" (for 16 bytes between two areas of four 32-bit words: 4 is compared with 16). Only
for elements of one byte both checks are passed and the count becomes `k + 1`. -/
theorem destination_width_compared_with_converted_count (env : Environment)
    (recurse : Recurse) (st : Lowering) (b k : Nat) :
    convertByteCount (Example.byteCopy ((b + 2) * (k + 1))).getNumEntries none
        (Example.arrayLocationOf (b + 2) (k + 1) 1 .VPM_PER_QPU)
        (Example.byteCopy ((b + 2) * (k + 1))).getSourceElementType
        "Byte-wise partial copy from VPM is yet implemented"
      = .ok (⟨.literal (k + 1), DataType.TYPE_INT32⟩, some (.simple (8 * (b + 2)) 1))
    ∧ (k + 1 ≠ (Example.arrayLocationOf (b + 2) (k + 1) 2
        .VPM_PER_QPU).loc.type.getElementType.getInMemoryWidth)
    ∧ mapMemoryCopy env recurse st (Example.byteCopy ((b + 2) * (k + 1)))
        [Example.arrayLocationOf (b + 2) (k + 1) 1 .VPM_PER_QPU]
        [Example.arrayLocationOf (b + 2) (k + 1) 2 .VPM_PER_QPU]
      = normalizerError "Byte-wise partial copy to VPM is yet implemented"
    ∧ mapMemoryCopy env recurse st (Example.byteCopy 16)
        [Example.arrayLocation 1 .VPM_PER_QPU] [Example.arrayLocation 2 .VPM_PER_QPU]
      = normalizerError "Byte-wise partial copy to VPM is yet implemented"
    ∧ convertedCount (Example.byteCopy (k + 1))
        (Example.arrayLocationOf 1 (k + 1) 1 .VPM_PER_QPU)
        (Example.arrayLocationOf 1 (k + 1) 2 .VPM_PER_QPU)
      = .ok (⟨.literal (k + 1), DataType.TYPE_INT32⟩, some (.simple 8 1)) := by
  have hw : ∀ bytes size id, (Example.arrayLocationOf bytes size id
      .VPM_PER_QPU).loc.type.getElementType.getInMemoryWidth = bytes * size := by
    intro bytes size id
    exact getInMemoryWidth_array bytes size
  have hne : k + 1 ≠ (b + 2) * (k + 1) := by
    intro h
    have h2 : 1 * (k + 1) = (b + 2) * (k + 1) := by rw [Nat.one_mul]; exact h
    have := Nat.eq_of_mul_eq_mul_right (Nat.succ_pos k) h2
    omega
  have hsrc : convertByteCount (Example.byteCopy ((b + 2) * (k + 1))).getNumEntries none
        (Example.arrayLocationOf (b + 2) (k + 1) 1 .VPM_PER_QPU)
        (Example.byteCopy ((b + 2) * (k + 1))).getSourceElementType
        "Byte-wise partial copy from VPM is yet implemented"
      = .ok (⟨.literal (k + 1), DataType.TYPE_INT32⟩, some (.simple (8 * (b + 2)) 1)) :=
    (((convertByteCount_cases (Example.byteCopy ((b + 2) * (k + 1))).getNumEntries none
      (Example.arrayLocationOf (b + 2) (k + 1) 1 .VPM_PER_QPU) _ _).1 ((b + 2) * (k + 1))
      rfl rfl rfl).2 (hw _ _ _).symm).1 _ _ rfl
  refine ⟨hsrc, ?_, ?_, ?_, ?_⟩
  · rw [hw]
    exact hne
  · refine mapMemoryCopy_destination_error env recurse st _ _ _ _ _ _ hsrc ?_
    exact ((convertByteCount_cases ⟨.literal (k + 1), DataType.TYPE_INT32⟩ _
      (Example.arrayLocationOf (b + 2) (k + 1) 2 .VPM_PER_QPU) _ _).1 (k + 1) rfl rfl rfl).1
      (by rw [hw]; exact hne)
  · exact mapMemoryCopy_destination_error env recurse st _ _ _
      ⟨.literal 4, DataType.TYPE_INT32⟩ (some Example.int32) _ rfl rfl
  · have h1 : convertByteCount (Example.byteCopy (k + 1)).getNumEntries none
        (Example.arrayLocationOf 1 (k + 1) 1 .VPM_PER_QPU)
        (Example.byteCopy (k + 1)).getSourceElementType
        "Byte-wise partial copy from VPM is yet implemented"
      = .ok (⟨.literal (k + 1), DataType.TYPE_INT32⟩, some (.simple (8 * 1) 1)) :=
      (((convertByteCount_cases (Example.byteCopy (k + 1)).getNumEntries none
        (Example.arrayLocationOf 1 (k + 1) 1 .VPM_PER_QPU) _ _).1 (k + 1) rfl rfl rfl).2
        (by rw [hw, Nat.one_mul])).1 _ _ rfl
    have h2 : convertByteCount ⟨.literal (k + 1), DataType.TYPE_INT32⟩
        (some (.simple (8 * 1) 1)) (Example.arrayLocationOf 1 (k + 1) 2 .VPM_PER_QPU)
        (Example.byteCopy (k + 1)).getDestinationElementType
        "Byte-wise partial copy to VPM is yet implemented"
      = .ok (⟨.literal (k + 1), DataType.TYPE_INT32⟩, some (.simple (8 * 1) 1)) :=
      (((convertByteCount_cases ⟨.literal (k + 1), DataType.TYPE_INT32⟩ _
        (Example.arrayLocationOf 1 (k + 1) 2 .VPM_PER_QPU) _ _).1 (k + 1) rfl rfl rfl).2
        (by rw [hw, Nat.one_mul])).1 _ _ rfl
    simp only [convertedCount, bind, Except.bind, h1, h2]

end vc4c

namespace vc4c

/-- C38: the number of bytes of a copy from RAM to RAM is computed in 32 bits and wraps around
before it is divided by 8, so the check against 4 GB never fails. A copy of `2 ^ 29 + 1` entries
of 32 bits (`2 ^ 31 + 4` bytes, which fit into 32 bits) is lowered to a DMA copy of 4 bytes; a
copy of `2 ^ 30` entries of 32 bits (`2 ^ 32` bytes, more than `2 ^ 32 - 1`) is lowered to a DMA
copy of 0 bytes instead of failing with "Cannot copy more than 4GB of data". -/
theorem copy_byte_count_wraps_around :
    (Example.copyOf (2 ^ 29 + 1)).getSourceElementType.getScalarBitCount = 32
      ∧ (Example.copyOf (2 ^ 29 + 1)).getSourceElementType.getVectorWidth = 1
      ∧ (2 ^ 29 + 1) * 32 * 1 / 8 = 2 ^ 31 + 4
      ∧ mapMemoryAccess Example.environment 2 (Example.lowering (Example.copyOf (2 ^ 29 + 1)))
          (Example.copyOf (2 ^ 29 + 1)) [Example.location 1 .RAM_READ_WRITE_VPM false]
          [Example.location 2 .RAM_READ_WRITE_VPM false]
        = .ok ⟨[(1, .copyRAM (Example.copyOf (2 ^ 29 + 1)).dest (Example.copyOf (2 ^ 29 + 1)).src
              4 false)], [], [(2, .OUTPUT), (1, .INPUT)], 100, 2⟩
      ∧ 2 ^ 30 * 32 * 1 / 8 > 2 ^ 32 - 1
      ∧ mapMemoryAccess Example.environment 2 (Example.lowering (Example.copyOf (2 ^ 30)))
          (Example.copyOf (2 ^ 30)) [Example.location 1 .RAM_READ_WRITE_VPM false]
          [Example.location 2 .RAM_READ_WRITE_VPM false]
        = .ok ⟨[(1, .copyRAM (Example.copyOf (2 ^ 30)).dest (Example.copyOf (2 ^ 30)).src
              0 false)], [], [(2, .OUTPUT), (1, .INPUT)], 100, 2⟩ := by
  refine ⟨rfl, rfl, by norm_num, ?_, by norm_num, ?_⟩
  · rfl
  · rfl

end vc4c

namespace vc4c

open Store

/-! ### The maps of edges -/

theorem edgeMap_mem_erase (map : EdgeMap) (key : NodePointer) (entry : NodePointer × EdgePointer) :
    entry ∈ map.erase key ↔ entry ∈ map ∧ entry.1 ≠ key := by
  simp [EdgeMap.erase, List.mem_filter]

theorem edgeMap_erase_nodup (map : EdgeMap) (key : NodePointer) (h : map.keys.Nodup) :
    (map.erase key).keys.Nodup :=
  List.Nodup.sublist (List.Sublist.map _ (List.filter_sublist _)) h

theorem edgeMap_mem_emplace (map : EdgeMap) (key : NodePointer) (value : EdgePointer)
    (entry : NodePointer × EdgePointer) :
    entry ∈ map.emplace key value ↔ entry ∈ map ∨ (key ∉ map.keys ∧ entry = (key, value)) := by
  unfold EdgeMap.emplace
  split
  · rename_i h
    simp [h]
  · rename_i h
    simp [h]

theorem edgeMap_emplace_nodup (map : EdgeMap) (key : NodePointer) (value : EdgePointer)
    (h : map.keys.Nodup) : (map.emplace key value).keys.Nodup := by
  unfold EdgeMap.emplace
  split
  · exact h
  · rename_i hkey
    unfold EdgeMap.keys at *
    rw [List.map_append, List.nodup_append]
    refine ⟨h, by simp, ?_⟩
    intro a ha hb
    simp only [List.map_cons, List.map_nil, List.mem_singleton] at hb
    subst hb
    exact hkey ha

theorem edgeMap_find_none (map : EdgeMap) (key : NodePointer) :
    map.find key = none ↔ key ∉ map.keys := by
  unfold EdgeMap.find EdgeMap.keys
  rw [Option.map_eq_none', List.find?_eq_none]
  simp only [decide_eq_true_eq, List.mem_map, not_exists, not_and]

/-- In a map without a key twice the entries of a key are equal. -/
theorem edgeMap_functional (map : EdgeMap) (h : map.keys.Nodup) (key : NodePointer)
    (p q : EdgePointer) (hp : (key, p) ∈ map) (hq : (key, q) ∈ map) : p = q := by
  induction map with
  | nil => cases hp
  | cons head rest ih =>
    unfold EdgeMap.keys at h
    rw [List.map_cons, List.nodup_cons] at h
    rcases List.mem_cons.1 hp with hp | hp
    · rcases List.mem_cons.1 hq with hq | hq
      · rw [← hp] at hq
        exact (congrArg Prod.snd hq).symm
      · exfalso
        apply h.1
        rw [← hp]
        exact List.mem_map.2 ⟨_, hq, rfl⟩
    · rcases List.mem_cons.1 hq with hq | hq
      · exfalso
        apply h.1
        rw [← hq]
        exact List.mem_map.2 ⟨_, hp, rfl⟩
      · exact ih h.2 hp hq

theorem edgeMap_find_some (map : EdgeMap) (h : map.keys.Nodup) (key : NodePointer)
    (value : EdgePointer) : map.find key = some value ↔ (key, value) ∈ map := by
  unfold EdgeMap.find
  constructor
  · intro hfind
    rw [Option.map_eq_some'] at hfind
    obtain ⟨entry, hentry, hvalue⟩ := hfind
    have hmem := List.mem_of_find?_eq_some hentry
    have hkey := List.find?_some hentry
    simp only [decide_eq_true_eq] at hkey
    have : entry = (key, value) := by
      rw [← hkey, ← hvalue]
    rw [← this]
    exact hmem
  · intro hmem
    cases hfind : List.find? (fun entry => decide (entry.1 = key)) map with
    | none =>
      rw [List.find?_eq_none] at hfind
      have := hfind _ hmem
      simp at this
    | some entry =>
      have hmem2 := List.mem_of_find?_eq_some hfind
      have hkey := List.find?_some hfind
      simp only [decide_eq_true_eq] at hkey
      have hentry : entry = (key, entry.2) := by rw [← hkey]
      rw [hentry] at hmem2
      simp only [Option.map_some', Option.some.injEq]
      exact edgeMap_functional map h key _ _ hmem2 hmem

/-- Erasing a key that heads the map leaves the rest. -/
theorem edgeMap_erase_head (key : NodePointer) (value : EdgePointer) (rest : EdgeMap)
    (h : EdgeMap.keys ((key, value) :: rest) |>.Nodup) :
    EdgeMap.erase ((key, value) :: rest) key = rest := by
  unfold EdgeMap.keys at h
  rw [List.map_cons, List.nodup_cons] at h
  unfold EdgeMap.erase
  rw [List.filter_cons]
  simp only [ne_eq, not_true_eq_false, decide_False, Bool.false_eq_true, if_false]
  rw [List.filter_eq_self]
  intro entry hentry
  simp only [decide_eq_true_eq]
  intro heq
  apply h.1
  rw [← heq]
  exact List.mem_map.2 ⟨_, hentry, rfl⟩

/-! ### The set of edges -/

theorem graph_edge_some {Relation : Type} (graph : Store.Graph Relation)
    (hunique : ∀ p e f, (p, e) ∈ graph.edges → (p, f) ∈ graph.edges → e = f)
    (pointer : EdgePointer) (edge : Edge Relation) :
    graph.edge pointer = some edge ↔ (pointer, edge) ∈ graph.edges := by
  unfold Store.Graph.edge
  constructor
  · intro hfind
    rw [Option.map_eq_some'] at hfind
    obtain ⟨entry, hentry, hvalue⟩ := hfind
    have hmem := List.mem_of_find?_eq_some hentry
    have hkey := List.find?_some hentry
    simp only [decide_eq_true_eq] at hkey
    have : entry = (pointer, edge) := by
      rw [← hkey, ← hvalue]
    rw [← this]
    exact hmem
  · intro hmem
    cases hfind : List.find? (fun entry => decide (entry.1 = pointer)) graph.edges with
    | none =>
      rw [List.find?_eq_none] at hfind
      have := hfind _ hmem
      simp at this
    | some entry =>
      have hmem2 := List.mem_of_find?_eq_some hfind
      have hkey := List.find?_some hfind
      simp only [decide_eq_true_eq] at hkey
      have hentry : entry = (pointer, entry.2) := by rw [← hkey]
      rw [hentry] at hmem2
      simp only [Option.map_some', Option.some.injEq]
      exact hunique _ _ _ hmem2 hmem

theorem setEdges_node {Relation : Type} (graph : Store.Graph Relation) (node : NodePointer)
    (edges : EdgeMap) (other : NodePointer) :
    (graph.setEdges node edges).node other = if other = node then ⟨edges⟩ else graph.node other := by
  unfold Store.Graph.setEdges
  simp only [Function.update_apply]

end vc4c

namespace vc4c

open Store

/-- The graph `createEdge` leaves when the set holds no equal edge and the two nodes do not list
each other. -/
theorem createEdge_fresh {Relation : Type} (graph : Store.Graph Relation) (a b : NodePointer)
    (relation : Relation)
    (hnone : ∀ entry ∈ graph.edges, ¬(entry.2.first = a ∧ entry.2.second = b))
    (hab : b ∉ (graph.node a).edges.keys) (hba : a ∉ (graph.node b).edges.keys) :
    (graph.createEdge a b relation).2 = graph.nextEdge
      ∧ (graph.createEdge a b relation).1.nodes = graph.nodes
      ∧ (graph.createEdge a b relation).1.edges
          = graph.edges ++ [(graph.nextEdge, ⟨a, b, true, false, relation⟩)]
      ∧ (graph.createEdge a b relation).1.nextEdge = graph.nextEdge + 1
      ∧ ∀ x, ((graph.createEdge a b relation).1.node x).edges
          = (graph.node x).edges ++ (if x = a then [(b, graph.nextEdge)] else [])
            ++ (if x = b ∧ a ≠ b then [(a, graph.nextEdge)] else []) := by
  have hfind : List.find? (fun entry : EdgePointer × Edge Relation =>
      entry.2.equals ⟨a, b, true, false, relation⟩) graph.edges = none := by
    rw [List.find?_eq_none]
    intro entry hentry
    have := hnone entry hentry
    simpa [Edge.equals] using this
  have hc : graph.createEdge a b relation
      = ((({ graph with edges := graph.edges ++ [(graph.nextEdge, ⟨a, b, true, false, relation⟩)],
                        nextEdge := graph.nextEdge + 1 } : Store.Graph Relation).setEdges a
            (EdgeMap.emplace (graph.node a).edges b graph.nextEdge)).setEdges b
          (EdgeMap.emplace
            ((({ graph with
                edges := graph.edges ++ [(graph.nextEdge, ⟨a, b, true, false, relation⟩)],
                nextEdge := graph.nextEdge + 1 } : Store.Graph Relation).setEdges a
              (EdgeMap.emplace (graph.node a).edges b graph.nextEdge)).node b).edges a
            graph.nextEdge), graph.nextEdge) := by
    unfold Store.Graph.createEdge
    dsimp only
    rw [hfind]
  rw [hc]
  refine ⟨rfl, rfl, rfl, rfl, ?_⟩
  intro x
  simp only [setEdges_node]
  by_cases hxb : x = b
  · subst hxb
    by_cases hxa : x = a
    · subst hxa
      simp only [if_true, ne_eq, not_true_eq_false, and_false, if_false, List.append_nil]
      have h1 : EdgeMap.emplace (graph.node x).edges x graph.nextEdge
          = (graph.node x).edges ++ [(x, graph.nextEdge)] := by
        unfold EdgeMap.emplace
        rw [if_neg hab]
      rw [h1]
      unfold EdgeMap.emplace
      rw [if_pos (by simp [EdgeMap.keys])]
    · have hax : a ≠ x := fun h => hxa h.symm
      simp only [if_true, hxa, if_false, List.append_nil, ne_eq, hax, not_false_eq_true,
        and_self]
      unfold EdgeMap.emplace
      rw [if_neg hba]
  · simp only [hxb, if_false, false_and, List.append_nil]
    by_cases hxa : x = a
    · subst hxa
      simp only [if_true]
      unfold EdgeMap.emplace
      rw [if_neg hab]
    · simp only [hxa, if_false, List.append_nil]

/-- The graph `eraseEdge` leaves for an edge object of the graph. -/
theorem eraseEdge_spec {Relation : Type} (graph : Store.Graph Relation) (pointer : EdgePointer)
    (edge : Edge Relation) (hedge : graph.edge pointer = some edge) :
    ∃ result, graph.eraseEdge pointer = .ok result
      ∧ result.nodes = graph.nodes
      ∧ result.nextEdge = graph.nextEdge
      ∧ result.edges = List.filter (fun entry => !entry.2.equals edge) graph.edges
      ∧ (∀ x, (result.node x).edges
          = if x = edge.second then
              EdgeMap.erase (if edge.second = edge.first then
                  EdgeMap.erase (graph.node edge.first).edges edge.second
                else (graph.node edge.second).edges) edge.first
            else if x = edge.first then EdgeMap.erase (graph.node edge.first).edges edge.second
            else (graph.node x).edges)
      ∧ ∀ x entry, entry ∈ (result.node x).edges
          ↔ (entry ∈ (graph.node x).edges ∧ ¬(x = edge.first ∧ entry.1 = edge.second)
              ∧ ¬(x = edge.second ∧ entry.1 = edge.first)) := by
  have hnode : ∀ x, (((graph.setEdges edge.first
        ((graph.node edge.first).edges.erase edge.second)).setEdges edge.second
        (((graph.setEdges edge.first ((graph.node edge.first).edges.erase edge.second)).node
          edge.second).edges.erase edge.first)).node x).edges
      = if x = edge.second then
          EdgeMap.erase (if edge.second = edge.first then
              EdgeMap.erase (graph.node edge.first).edges edge.second
            else (graph.node edge.second).edges) edge.first
        else if x = edge.first then EdgeMap.erase (graph.node edge.first).edges edge.second
        else (graph.node x).edges := by
    intro x
    simp only [setEdges_node]
    by_cases hxb : x = edge.second
    · rw [if_pos hxb, if_pos hxb]
      by_cases hba : edge.second = edge.first
      · rw [if_pos hba, if_pos hba]
      · rw [if_neg hba, if_neg hba]
    · rw [if_neg hxb, if_neg hxb]
      by_cases hxa : x = edge.first
      · rw [if_pos hxa, if_pos hxa]
      · rw [if_neg hxa, if_neg hxa]
  unfold Store.Graph.eraseEdge
  simp only [hedge, deref, bind, Except.bind, pure, Except.pure]
  refine ⟨_, rfl, rfl, rfl, rfl, hnode, ?_⟩
  intro x entry
  show entry ∈ (((graph.setEdges edge.first
        ((graph.node edge.first).edges.erase edge.second)).setEdges edge.second
        (((graph.setEdges edge.first ((graph.node edge.first).edges.erase edge.second)).node
          edge.second).edges.erase edge.first)).node x).edges ↔ _
  rw [hnode x]
  by_cases hxb : x = edge.second
  · rw [if_pos hxb]
    by_cases hba : edge.second = edge.first
    · rw [if_pos hba, edgeMap_mem_erase, edgeMap_mem_erase]
      have hxa : x = edge.first := hxb.trans hba
      rw [hxa]
      constructor
      · rintro ⟨⟨h1, h2⟩, h3⟩
        exact ⟨h1, fun h => h2 h.2, fun h => h3 h.2⟩
      · rintro ⟨h1, h2, h3⟩
        exact ⟨⟨h1, fun h => h2 ⟨rfl, h⟩⟩, fun h => h3 ⟨hba.symm, h⟩⟩
    · rw [if_neg hba, edgeMap_mem_erase]
      have hxa : ¬ x = edge.first := fun h => hba (hxb.symm.trans h)
      rw [hxb]
      constructor
      · rintro ⟨h1, h2⟩
        exact ⟨h1, fun h => hba h.1, fun h => h2 h.2⟩
      · rintro ⟨h1, -, h3⟩
        exact ⟨h1, fun h => h3 ⟨rfl, h⟩⟩
  · rw [if_neg hxb]
    by_cases hxa : x = edge.first
    · rw [if_pos hxa, edgeMap_mem_erase, hxa]
      constructor
      · rintro ⟨h1, h2⟩
        exact ⟨h1, fun h => h2 h.2, fun h => hxb (hxa.trans h.1)⟩
      · rintro ⟨h1, h2, -⟩
        exact ⟨h1, fun h => h2 ⟨rfl, h⟩⟩
    · rw [if_neg hxa]
      constructor
      · intro h1
        exact ⟨h1, fun h => hxa h.1, fun h => hxb h.1⟩
      · rintro ⟨h1, -, -⟩
        exact h1

end vc4c

namespace vc4c

open Store

theorem consistent_empty {Relation : Type} : (Store.Graph.empty : Store.Graph Relation).Consistent where
  nodesUnique := List.nodup_nil
  keysUnique := fun a ha => by cases ha
  pointersUnique := fun p e f h => by cases h
  pointersAllocated := fun p e h => by cases h
  edgesUnique := fun p q e f h => by cases h
  symmetric := fun a ha => by cases ha
  listed := fun p e h => by cases h

theorem consistent_getOrCreateNode {Relation : Type} (graph : Store.Graph Relation)
    (key : NodePointer) (h : graph.Consistent) : (graph.getOrCreateNode key).1.Consistent := by
  unfold Store.Graph.getOrCreateNode
  split
  · exact h
  · rename_i hkey
    have hother : ∀ x, x ∈ graph.nodes → Function.update graph.node key ⟨[]⟩ x = graph.node x := by
      intro x hx
      rw [Function.update_apply, if_neg]
      intro hxk
      exact hkey (hxk ▸ hx)
    have hmem : ∀ x, x ∈ graph.nodes ++ [key] → x ∈ graph.nodes ∨ x = key := by
      intro x hx
      simpa using hx
    refine ⟨?_, ?_, h.pointersUnique, h.pointersAllocated, h.edgesUnique, ?_, ?_⟩
    · show (graph.nodes ++ [key]).Nodup
      rw [List.nodup_append]
      refine ⟨h.nodesUnique, by simp, ?_⟩
      intro a ha hb
      simp only [List.mem_singleton] at hb
      exact hkey (hb ▸ ha)
    · intro a ha
      show ((Function.update graph.node key ⟨[]⟩ a).edges).keys.Nodup
      rcases hmem a ha with ha | ha
      · rw [hother a ha]
        exact h.keysUnique a ha
      · rw [ha, Function.update_same]
        exact List.nodup_nil
    · intro a ha b p hbp
      change (b, p) ∈ (Function.update graph.node key ⟨[]⟩ a).edges at hbp
      show b ∈ graph.nodes ++ [key] ∧ (a, p) ∈ (Function.update graph.node key ⟨[]⟩ b).edges ∧ _
      rcases hmem a ha with ha | ha
      · rw [hother a ha] at hbp
        obtain ⟨h1, h2, h3⟩ := h.symmetric a ha b p hbp
        rw [hother b h1]
        exact ⟨List.mem_append_left _ h1, h2, h3⟩
      · rw [ha, Function.update_same] at hbp
        cases hbp
    · intro p e hpe
      obtain ⟨h1, h2, h3, h4⟩ := h.listed p e hpe
      show e.first ∈ graph.nodes ++ [key] ∧ e.second ∈ graph.nodes ++ [key]
        ∧ (e.second, p) ∈ (Function.update graph.node key ⟨[]⟩ e.first).edges
        ∧ (e.first, p) ∈ (Function.update graph.node key ⟨[]⟩ e.second).edges
      rw [hother _ h1, hother _ h2]
      exact ⟨List.mem_append_left _ h1, List.mem_append_left _ h2, h3, h4⟩

/-- In a consistent graph a node that does not list a neighbor is not listed by it, and the set
holds no edge between them. -/
theorem not_adjacent {Relation : Type} (graph : Store.Graph Relation) (h : graph.Consistent)
    (a b : NodePointer) (hb : b ∈ graph.nodes)
    (hadj : Node.isAdjacent graph a b = false) :
    b ∉ (graph.node a).edges.keys ∧ a ∉ (graph.node b).edges.keys
      ∧ ∀ entry ∈ graph.edges, ¬(entry.2.first = a ∧ entry.2.second = b) := by
  have hab : b ∉ (graph.node a).edges.keys := by
    unfold Node.isAdjacent Node.getEdge at hadj
    rw [← edgeMap_find_none]
    cases hfind : (graph.node a).edges.find b with
    | none => rfl
    | some p => rw [hfind] at hadj; cases hadj
  refine ⟨hab, ?_, ?_⟩
  · intro hmem
    unfold EdgeMap.keys at hmem
    obtain ⟨entry, hentry, hkey⟩ := List.mem_map.1 hmem
    have hentry2 : (a, entry.2) ∈ (graph.node b).edges := by
      rw [← hkey]
      exact hentry
    obtain ⟨-, h2, -⟩ := h.symmetric b hb a entry.2 hentry2
    exact hab (List.mem_map.2 ⟨_, h2, rfl⟩)
  · rintro ⟨p, e⟩ hentry ⟨h1, h2⟩
    obtain ⟨-, -, h3, -⟩ := h.listed p e hentry
    simp only at h1 h2
    rw [h1, h2] at h3
    exact hab (List.mem_map.2 ⟨_, h3, rfl⟩)

theorem consistent_createEdge {Relation : Type} (graph : Store.Graph Relation)
    (a b : NodePointer) (relation : Relation) (h : graph.Consistent)
    (ha : a ∈ graph.nodes) (hb : b ∈ graph.nodes)
    (hadj : Node.isAdjacent graph a b = false) :
    (graph.createEdge a b relation).1.Consistent := by
  obtain ⟨hab, hba, hnone⟩ := not_adjacent graph h a b hb hadj
  obtain ⟨-, hnodes, hedges, hnext, hnode⟩ := createEdge_fresh graph a b relation hnone hab hba
  generalize (graph.createEdge a b relation).1 = result at hnodes hedges hnext hnode ⊢
  have hmem : ∀ x entry, entry ∈ (result.node x).edges
      ↔ (entry ∈ (graph.node x).edges ∨ (x = a ∧ entry = (b, graph.nextEdge))
          ∨ (x = b ∧ entry = (a, graph.nextEdge))) := by
    intro x entry
    rw [hnode x]
    simp only [List.mem_append]
    by_cases hxa : x = a
    · by_cases hxb : x = b
      · have hab2 : a = b := hxa.symm.trans hxb
        subst hxa
        subst hab2
        simp
      · have hab2 : a ≠ b := fun hh => hxb (hxa.trans hh)
        simp [hxa, hab2]
    · by_cases hxb : x = b
      · have hab2 : a ≠ b := fun hh => hxa (hxb.trans hh.symm)
        simp [hxb, hab2, Ne.symm hab2]
      · simp [hxa, hxb]
  have hedge : ∀ q f, (q, f) ∈ result.edges
      ↔ ((q, f) ∈ graph.edges ∨ (q = graph.nextEdge ∧ f = ⟨a, b, true, false, relation⟩)) := by
    intro q f
    rw [hedges]
    simp
  refine ⟨?_, ?_, ?_, ?_, ?_, ?_, ?_⟩
  · rw [hnodes]
    exact h.nodesUnique
  · intro x hx
    rw [hnodes] at hx
    rw [hnode x]
    have hold := h.keysUnique x hx
    unfold EdgeMap.keys at hold hab hba ⊢
    by_cases hxa : x = a
    · by_cases hxb : x = b
      · have hab2 : a = b := hxa.symm.trans hxb
        subst hxa
        subst hab2
        simp only [if_true, ne_eq, not_true_eq_false, and_false, if_false, List.append_nil,
          List.map_append, List.map_cons, List.map_nil]
        rw [List.nodup_append]
        refine ⟨hold, by simp, ?_⟩
        intro y hy hy2
        simp only [List.mem_singleton] at hy2
        exact hab (hy2 ▸ hy)
      · have hab2 : a ≠ b := fun hh => hxb (hxa.trans hh)
        subst hxa
        simp only [if_true, hxb, false_and, if_false, List.append_nil,
          List.map_append, List.map_cons, List.map_nil]
        rw [List.nodup_append]
        refine ⟨hold, by simp, ?_⟩
        intro y hy hy2
        simp only [List.mem_singleton] at hy2
        exact hab (hy2 ▸ hy)
    · by_cases hxb : x = b
      · have hab2 : a ≠ b := fun hh => hxa (hxb.trans hh.symm)
        subst hxb
        simp only [hxa, if_false, List.append_nil, ne_eq, hab2, not_false_eq_true, and_self,
          if_true, List.map_append, List.map_cons, List.map_nil]
        rw [List.nodup_append]
        refine ⟨hold, by simp, ?_⟩
        intro y hy hy2
        simp only [List.mem_singleton] at hy2
        exact hba (hy2 ▸ hy)
      · simp only [hxa, hxb, if_false, false_and, List.append_nil]
        exact hold
  · intro p e f hpe hpf
    rcases (hedge p e).1 hpe with hpe | ⟨hp1, he⟩
    · rcases (hedge p f).1 hpf with hpf | ⟨hp2, hf⟩
      · exact h.pointersUnique p e f hpe hpf
      · have := h.pointersAllocated p e hpe
        rw [hp2] at this
        exact absurd this (Nat.lt_irrefl _)
    · rcases (hedge p f).1 hpf with hpf | ⟨hp2, hf⟩
      · have := h.pointersAllocated p f hpf
        rw [hp1] at this
        exact absurd this (Nat.lt_irrefl _)
      · rw [he, hf]
  · intro p e hpe
    rw [hnext]
    rcases (hedge p e).1 hpe with hpe | ⟨hp1, he⟩
    · exact Nat.lt_succ_of_lt (h.pointersAllocated p e hpe)
    · rw [hp1]
      exact Nat.lt_succ_self _
  · intro p q e f hpe hqf h1 h2
    rcases (hedge p e).1 hpe with hpe | ⟨hp1, he⟩
    · rcases (hedge q f).1 hqf with hqf | ⟨hq1, hf⟩
      · exact h.edgesUnique p q e f hpe hqf h1 h2
      · exfalso
        rw [hf] at h1 h2
        exact hnone (p, e) hpe ⟨h1, h2⟩
    · rcases (hedge q f).1 hqf with hqf | ⟨hq1, hf⟩
      · exfalso
        rw [he] at h1 h2
        exact hnone (q, f) hqf ⟨h1.symm, h2.symm⟩
      · rw [hp1, hq1]
  · intro x hx y p hyp
    rw [hnodes] at hx ⊢
    rcases (hmem x (y, p)).1 hyp with hold | ⟨hxa, hnew⟩ | ⟨hxb, hnew⟩
    · obtain ⟨h1, h2, e, h3, h4⟩ := h.symmetric x hx y p hold
      exact ⟨h1, (hmem y (x, p)).2 (Or.inl h2), e, (hedge p e).2 (Or.inl h3), h4⟩
    · obtain ⟨hy, hp⟩ := Prod.mk.inj hnew
      subst hxa hy hp
      exact ⟨hb, (hmem _ _).2 (Or.inr (Or.inr ⟨rfl, rfl⟩)), _,
        (hedge _ _).2 (Or.inr ⟨rfl, rfl⟩), Or.inl ⟨rfl, rfl⟩⟩
    · obtain ⟨hy, hp⟩ := Prod.mk.inj hnew
      subst hxb hy hp
      exact ⟨ha, (hmem _ _).2 (Or.inr (Or.inl ⟨rfl, rfl⟩)), _,
        (hedge _ _).2 (Or.inr ⟨rfl, rfl⟩), Or.inr ⟨rfl, rfl⟩⟩
  · intro p e hpe
    rw [hnodes]
    rcases (hedge p e).1 hpe with hpe | ⟨hp1, he⟩
    · obtain ⟨h1, h2, h3, h4⟩ := h.listed p e hpe
      exact ⟨h1, h2, (hmem _ _).2 (Or.inl h3), (hmem _ _).2 (Or.inl h4)⟩
    · subst hp1 he
      exact ⟨ha, hb, (hmem _ _).2 (Or.inr (Or.inl ⟨rfl, rfl⟩)),
        (hmem _ _).2 (Or.inr (Or.inr ⟨rfl, rfl⟩))⟩

theorem consistent_eraseEdge {Relation : Type} (graph result : Store.Graph Relation)
    (pointer : EdgePointer) (h : graph.Consistent)
    (hresult : graph.eraseEdge pointer = .ok result) : result.Consistent := by
  cases hedge : graph.edge pointer with
  | none =>
    unfold Store.Graph.eraseEdge at hresult
    simp only [hedge, deref, bind, Except.bind] at hresult
    cases hresult
  | some edge =>
    obtain ⟨result2, hresult2, hnodes, hnext, hedges, -, hmem⟩ :=
      eraseEdge_spec graph pointer edge hedge
    rw [hresult] at hresult2
    cases hresult2
    have hin : (pointer, edge) ∈ graph.edges :=
      (graph_edge_some graph h.pointersUnique pointer edge).1 hedge
    have hset : ∀ q f, (q, f) ∈ result.edges
        ↔ ((q, f) ∈ graph.edges ∧ ¬(f.first = edge.first ∧ f.second = edge.second)) := by
      intro q f
      rw [hedges, List.mem_filter]
      simp only [Edge.equals, Bool.not_eq_true', Bool.and_eq_false_imp, decide_eq_true_eq,
        decide_eq_false_iff_not, not_and]
    -- an edge in the other direction would be the same edge object
    have hreverse : ∀ q f, (q, f) ∈ graph.edges → f.first = edge.second →
        f.second = edge.first → f.first = edge.first ∧ f.second = edge.second := by
      intro q f hqf h1 h2
      obtain ⟨hfirst, -, h3, -⟩ := h.listed pointer edge hin
      obtain ⟨-, -, -, h4⟩ := h.listed q f hqf
      rw [h1, h2] at h4
      have hpq : pointer = q :=
        edgeMap_functional _ (h.keysUnique _ hfirst) _ _ _ h3 h4
      subst hpq
      have := h.pointersUnique _ _ _ hin hqf
      subst this
      exact ⟨rfl, rfl⟩
    refine ⟨?_, ?_, ?_, ?_, ?_, ?_, ?_⟩
    · rw [hnodes]
      exact h.nodesUnique
    · intro x hx
      rw [hnodes] at hx
      have hsub : ((result.node x).edges).Sublist (graph.node x).edges := by
        obtain ⟨result3, hresult3, -, -, -, hnode, -⟩ := eraseEdge_spec graph pointer edge hedge
        rw [hresult] at hresult3
        cases hresult3
        rw [hnode x]
        split
        · split
          · exact (List.filter_sublist _).trans (by
              rename_i h1 h2
              rw [h1, h2]
              exact List.filter_sublist _)
          · rename_i h1 h2
            rw [h1]
            exact List.filter_sublist _
        · split
          · rename_i h1 h2
            rw [h2]
            exact List.filter_sublist _
          · exact List.Sublist.refl _
      exact List.Nodup.sublist (List.Sublist.map _ hsub) (h.keysUnique x hx)
    · intro p e f hpe hpf
      exact h.pointersUnique p e f ((hset p e).1 hpe).1 ((hset p f).1 hpf).1
    · intro p e hpe
      rw [hnext]
      exact h.pointersAllocated p e ((hset p e).1 hpe).1
    · intro p q e f hpe hqf
      exact h.edgesUnique p q e f ((hset p e).1 hpe).1 ((hset q f).1 hqf).1
    · intro x hx y p hyp
      rw [hnodes] at hx ⊢
      obtain ⟨hold, hn1, hn2⟩ := (hmem x (y, p)).1 hyp
      obtain ⟨h1, h2, e, h3, h4⟩ := h.symmetric x hx y p hold
      refine ⟨h1, (hmem y (x, p)).2 ⟨h2, fun hh => hn2 ⟨hh.2, hh.1⟩, fun hh => hn1 ⟨hh.2, hh.1⟩⟩,
        e, (hset p e).2 ⟨h3, ?_⟩, h4⟩
      rintro ⟨h5, h6⟩
      rcases h4 with ⟨h7, h8⟩ | ⟨h7, h8⟩
      · exact hn1 ⟨h7.symm.trans h5, h8.symm.trans h6⟩
      · exact hn2 ⟨h8.symm.trans h6, h7.symm.trans h5⟩
    · intro p e hpe
      rw [hnodes]
      obtain ⟨hold, hne⟩ := (hset p e).1 hpe
      obtain ⟨h1, h2, h3, h4⟩ := h.listed p e hold
      refine ⟨h1, h2, (hmem _ _).2 ⟨h3, hne, ?_⟩, (hmem _ _).2 ⟨h4, ?_, fun hh => hne ⟨hh.2, hh.1⟩⟩⟩
      · rintro ⟨h5, h6⟩
        exact hne (hreverse p e hold h5 h6)
      · rintro ⟨h5, h6⟩
        exact hne (hreverse p e hold h6 h5)

end vc4c

namespace vc4c

open Store

/-- The loop of `eraseNode` goes along with erasing the edges of the node one by one: the two
graphs differ in the map of the erased node only. -/
theorem eraseNode_loop {Relation : Type} (key : NodePointer) (l : EdgeMap) :
    ∀ (gs ge : Store.Graph Relation), ge.Consistent → key ∈ ge.nodes →
      gs.nodes = ge.nodes → gs.edges = ge.edges → gs.nextEdge = ge.nextEdge →
      (∀ x, x ≠ key → (gs.node x).edges = (ge.node x).edges) →
      (ge.node key).edges = l → key ∉ l.keys →
      ∃ gs2 ge2 : Store.Graph Relation,
        List.foldl (Store.Graph.eraseNodeStep key) (.ok gs) l = .ok gs2
          ∧ ge2.Consistent ∧ key ∈ ge2.nodes ∧ gs2.nodes = ge2.nodes ∧ gs2.edges = ge2.edges
          ∧ gs2.nextEdge = ge2.nextEdge
          ∧ (∀ x, x ≠ key → (gs2.node x).edges = (ge2.node x).edges)
          ∧ (ge2.node key).edges = [] ∧ ge2.nodes = ge.nodes := by
  induction l with
  | nil =>
    intro gs ge hc hkey hnodes hedges hnext hagree hl _
    exact ⟨gs, ge, rfl, hc, hkey, hnodes, hedges, hnext, hagree, hl, rfl⟩
  | cons head rest ih =>
    obtain ⟨b, p⟩ := head
    intro gs ge hc hkey hnodes hedges hnext hagree hl hself
    have hmem : (b, p) ∈ (ge.node key).edges := by
      rw [hl]
      exact List.mem_cons_self _ _
    obtain ⟨hbnodes, -, e, hpe, hconn⟩ := hc.symmetric key hkey b p hmem
    have hkeys : (EdgeMap.keys ((b, p) :: rest)).Nodup := by
      rw [← hl]
      exact hc.keysUnique key hkey
    have hbk : b ≠ key := by
      intro hbk
      apply hself
      rw [hbk]
      exact List.mem_map.2 ⟨(key, p), List.mem_cons_self _ _, rfl⟩
    have hrestself : key ∉ EdgeMap.keys rest := by
      intro hk
      apply hself
      unfold EdgeMap.keys at hk ⊢
      rw [List.map_cons]
      exact List.mem_cons_of_mem _ hk
    have hedge : ge.edge p = some e := (graph_edge_some ge hc.pointersUnique p e).2 hpe
    have hedge2 : gs.edge p = some e := by
      unfold Store.Graph.edge at hedge ⊢
      rw [hedges]
      exact hedge
    have hother : e.getOtherNode key = b := by
      unfold Edge.getOtherNode
      rcases hconn with ⟨h1, h2⟩ | ⟨h1, h2⟩
      · rw [if_pos h1, h2]
      · rw [if_neg (by rw [h1]; exact hbk), h1]
    obtain ⟨ge1, hge1, hn1, hnx1, hed1, hnode1, -⟩ := eraseEdge_spec ge p e hedge
    obtain ⟨gs1, hgs1⟩ : ∃ gs1 : Store.Graph Relation,
        gs1 = { gs.setEdges b ((gs.node b).edges.erase key) with
            edges := List.filter (fun entry => !entry.2.equals e)
              (gs.setEdges b ((gs.node b).edges.erase key)).edges } := ⟨_, rfl⟩
    have hstep : Store.Graph.eraseNodeStep key (.ok gs) (b, p) = .ok gs1 := by
      rw [hgs1]
      unfold Store.Graph.eraseNodeStep
      simp only [bind, Except.bind, hedge2, deref, hother, pure, Except.pure]
    have hg1nodes : gs1.nodes = gs.nodes := by rw [hgs1]; rfl
    have hg1edges : gs1.edges = List.filter (fun entry => !entry.2.equals e) gs.edges := by
      rw [hgs1]; rfl
    have hg1next : gs1.nextEdge = gs.nextEdge := by rw [hgs1]; rfl
    have hg1node : ∀ x, gs1.node x = (gs.setEdges b ((gs.node b).edges.erase key)).node x := by
      intro x
      rw [hgs1]
    rw [List.foldl_cons, hstep]
    have hc1 : ge1.Consistent := consistent_eraseEdge ge ge1 p hc hge1
    obtain ⟨gs2, ge2, hfold, hc2, hkey2, hnodes2, hedges2, hnext2, hagree2, hempty, hsame⟩ :=
      ih gs1 ge1 hc1 (by rw [hn1]; exact hkey)
        (by rw [hn1, hg1nodes]; exact hnodes)
        (by rw [hed1, hg1edges, hedges])
        (by rw [hnx1, hg1next]; exact hnext)
        (by
          intro x hx
          have hkb : ¬ key = b := fun hh => hbk hh.symm
          rw [hg1node x, setEdges_node, hnode1 x]
          rcases hconn with ⟨h1, h2⟩ | ⟨h1, h2⟩
          · rw [h1, h2]
            by_cases hxb : x = b
            · subst hxb
              simp only [eq_self_iff_true, if_true, hbk, if_false]
              rw [hagree x hbk]
            · simp only [hxb, hx, if_false]
              exact hagree x hx
          · rw [h1, h2]
            by_cases hxb : x = b
            · subst hxb
              simp only [eq_self_iff_true, if_true, hx, if_false]
              rw [hagree x hbk]
            · simp only [hxb, hx, if_false]
              exact hagree x hx)
        (by
          have hkb : ¬ key = b := fun hh => hbk hh.symm
          rw [hnode1 key]
          rcases hconn with ⟨h1, h2⟩ | ⟨h1, h2⟩
          · rw [h1, h2]
            simp only [hkb, if_false, eq_self_iff_true, if_true]
            rw [hl]
            exact edgeMap_erase_head b p rest hkeys
          · rw [h1, h2]
            simp only [hkb, if_false, eq_self_iff_true, if_true]
            rw [hl]
            exact edgeMap_erase_head b p rest hkeys)
        hrestself
    exact ⟨gs2, ge2, hfold, hc2, hkey2, hnodes2, hedges2, hnext2, hagree2, hempty,
      hsame.trans hn1⟩

/-- The function `eraseNode` for a node of a consistent graph without an edge to itself: the
graph it leaves is consistent and does not hold the node. -/
theorem eraseNode_spec {Relation : Type} (graph : Store.Graph Relation) (key : NodePointer)
    (h : graph.Consistent) (hkey : key ∈ graph.nodes)
    (hself : Node.isAdjacent graph key key = false) :
    ∃ result, graph.eraseNode key = .ok result ∧ result.Consistent ∧ key ∉ result.nodes := by
  obtain ⟨hkk, -, -⟩ := not_adjacent graph h key key hkey hself
  obtain ⟨gs2, ge2, hfold, hc2, hkey2, hnodes2, hedges2, hnext2, hagree2, hempty, -⟩ :=
    eraseNode_loop key (graph.node key).edges graph graph h hkey rfl rfl rfl
      (fun _ _ => rfl) rfl hkk
  refine ⟨{ gs2 with nodes := List.filter (fun other => decide (other ≠ key)) gs2.nodes }, ?_, ?_,
    ?_⟩
  · unfold Store.Graph.eraseNode
    simp only [hkey, not_true_eq_false, if_false, hfold, bind, Except.bind, pure, Except.pure]
  · have hin : ∀ x, x ∈ List.filter (fun other => decide (other ≠ key)) gs2.nodes →
        x ∈ ge2.nodes ∧ x ≠ key := by
      intro x hx
      rw [List.mem_filter, hnodes2] at hx
      exact ⟨hx.1, by simpa using hx.2⟩
    have hisolated : ∀ entry, entry ∉ (ge2.node key).edges := by
      intro entry hentry
      rw [hempty] at hentry
      cases hentry
    refine ⟨?_, ?_, ?_, ?_, ?_, ?_, ?_⟩
    · show (List.filter (fun other => decide (other ≠ key)) gs2.nodes).Nodup
      rw [hnodes2]
      exact List.Nodup.filter _ hc2.nodesUnique
    · intro x hx
      obtain ⟨hx1, hx2⟩ := hin x hx
      show ((gs2.node x).edges).keys.Nodup
      rw [hagree2 x hx2]
      exact hc2.keysUnique x hx1
    · intro p e f hpe hpf
      change (p, e) ∈ gs2.edges at hpe
      change (p, f) ∈ gs2.edges at hpf
      rw [hedges2] at hpe hpf
      exact hc2.pointersUnique p e f hpe hpf
    · intro p e hpe
      change (p, e) ∈ gs2.edges at hpe
      show p < gs2.nextEdge
      rw [hedges2] at hpe
      rw [hnext2]
      exact hc2.pointersAllocated p e hpe
    · intro p q e f hpe hqf
      change (p, e) ∈ gs2.edges at hpe
      change (q, f) ∈ gs2.edges at hqf
      rw [hedges2] at hpe hqf
      exact hc2.edgesUnique p q e f hpe hqf
    · intro x hx y p hyp
      obtain ⟨hx1, hx2⟩ := hin x hx
      change (y, p) ∈ (gs2.node x).edges at hyp
      rw [hagree2 x hx2] at hyp
      obtain ⟨h1, h2, e, h3, h4⟩ := hc2.symmetric x hx1 y p hyp
      have hyk : y ≠ key := by
        intro hyk
        rw [hyk] at h2
        exact hisolated _ h2
      refine ⟨?_, ?_, e, ?_, h4⟩
      · show y ∈ List.filter (fun other => decide (other ≠ key)) gs2.nodes
        rw [List.mem_filter, hnodes2]
        exact ⟨h1, by simpa using hyk⟩
      · show (x, p) ∈ (gs2.node y).edges
        rw [hagree2 y hyk]
        exact h2
      · show (p, e) ∈ gs2.edges
        rw [hedges2]
        exact h3
    · intro p e hpe
      change (p, e) ∈ gs2.edges at hpe
      rw [hedges2] at hpe
      obtain ⟨h1, h2, h3, h4⟩ := hc2.listed p e hpe
      have hf : e.first ≠ key := by
        intro hf
        rw [hf] at h3
        exact hisolated _ h3
      have hs : e.second ≠ key := by
        intro hs
        rw [hs] at h4
        exact hisolated _ h4
      refine ⟨?_, ?_, ?_, ?_⟩
      · show e.first ∈ List.filter (fun other => decide (other ≠ key)) gs2.nodes
        rw [List.mem_filter, hnodes2]
        exact ⟨h1, by simpa using hf⟩
      · show e.second ∈ List.filter (fun other => decide (other ≠ key)) gs2.nodes
        rw [List.mem_filter, hnodes2]
        exact ⟨h2, by simpa using hs⟩
      · show (e.second, p) ∈ (gs2.node e.first).edges
        rw [hagree2 _ hf]
        exact h3
      · show (e.first, p) ∈ (gs2.node e.second).edges
        rw [hagree2 _ hs]
        exact h4
  · show key ∉ List.filter (fun other => decide (other ≠ key)) gs2.nodes
    rw [List.mem_filter]
    simp

/-- Every graph reachable by the operations is consistent. -/
theorem reachable_consistent {Relation : Type} (graph : Store.Graph Relation)
    (h : Reachable graph) : graph.Consistent := by
  induction h with
  | empty => exact consistent_empty
  | getOrCreateNode graph key _ ih => exact consistent_getOrCreateNode graph key ih
  | addEdge graph result node neighbor relation pointer _ hnode hneighbor hresult ih =>
    unfold Node.addEdge at hresult
    cases hadj : Node.isAdjacent graph node neighbor with
    | true =>
      rw [hadj] at hresult
      cases hresult
    | false =>
      rw [hadj] at hresult
      simp only [Bool.false_eq_true, if_false] at hresult
      have := Except.ok.inj hresult
      rw [← (Prod.mk.inj this).1]
      exact consistent_createEdge graph node neighbor relation ih hnode hneighbor hadj
  | getOrCreateEdge graph result node neighbor relation pointer _ hnode hneighbor hresult ih =>
    unfold Node.getOrCreateEdge at hresult
    cases hfind : (graph.node node).edges.find neighbor with
    | some found =>
      rw [hfind] at hresult
      have := Except.ok.inj hresult
      rw [← (Prod.mk.inj this).1]
      exact ih
    | none =>
      rw [hfind] at hresult
      have hadj : Node.isAdjacent graph node neighbor = false := by
        unfold Node.isAdjacent Node.getEdge
        rw [hfind]
        rfl
      unfold Node.addEdge at hresult
      rw [hadj] at hresult
      simp only [Bool.false_eq_true, if_false] at hresult
      have := Except.ok.inj hresult
      rw [← (Prod.mk.inj this).1]
      exact consistent_createEdge graph node neighbor relation ih hnode hneighbor hadj
  | removeEdge graph result pointer _ hresult ih =>
    exact consistent_eraseEdge graph result pointer ih hresult
  | removeAsNeighbor graph result node neighbor _ hnode hresult ih =>
    unfold Node.removeAsNeighbor at hresult
    cases hfind : (graph.node node).edges.find neighbor with
    | none =>
      rw [hfind] at hresult
      cases hresult
    | some found =>
      rw [hfind] at hresult
      exact consistent_eraseEdge graph result found ih hresult
  | eraseNode graph result key _ hself hresult ih =>
    by_cases hkey : key ∈ graph.nodes
    · obtain ⟨result2, hresult2, hc, -⟩ := eraseNode_spec graph key ih hkey hself
      rw [hresult] at hresult2
      cases hresult2
      exact hc
    · unfold Store.Graph.eraseNode at hresult
      simp only [hkey, not_false_eq_true, if_true] at hresult
      cases hresult

/-- C39: every graph reachable from the empty graph by `getOrCreateNode`, `addEdge`,
`getOrCreateEdge`, `removeEdge`, `removeAsNeighbor` and `eraseNode` (of nodes without an edge to
themselves) keeps the adjacency symmetric and the edges unique: if a node `a` lists `b` as
neighbor then `b` is a node that lists `a`, both entries hold the address of the same edge
object, that object is in the set of edges of the graph and connects the two nodes, and the set
holds at most one edge per unordered pair of nodes. `addEdge` on two adjacent nodes fails (the
graph is not touched, an error has no graph), and `eraseNode` of a node of the graph without an
edge to itself succeeds with a graph in which the node is gone, no node lists it and no edge of
the set touches it. -/
theorem reachable_graph_symmetric {Relation : Type} (graph : Store.Graph Relation)
    (h : Reachable graph) :
    (∀ a ∈ graph.nodes, ∀ b p, (b, p) ∈ (graph.node a).edges →
        b ∈ graph.nodes ∧ (a, p) ∈ (graph.node b).edges
          ∧ ∃ e, (p, e) ∈ graph.edges ∧ graph.edge p = some e ∧ e.connects a b)
      ∧ (∀ p q e f, (p, e) ∈ graph.edges → (q, f) ∈ graph.edges →
          e.connects f.first f.second → p = q ∧ e.first = f.first ∧ e.second = f.second)
      ∧ (∀ a b relation, Node.isAdjacent graph a b = true →
          Node.addEdge graph a b relation
            = .error (.compilationError .GENERAL "Nodes are already adjacent!"))
      ∧ (∀ key, key ∈ graph.nodes → Node.isAdjacent graph key key = false →
          ∃ result, graph.eraseNode key = .ok result ∧ Reachable result
            ∧ key ∉ result.nodes
            ∧ (∀ a ∈ result.nodes, key ∉ (result.node a).edges.keys)
            ∧ (∀ p e, (p, e) ∈ result.edges → e.first ≠ key ∧ e.second ≠ key)) := by
  have hc := reachable_consistent graph h
  refine ⟨?_, ?_, ?_, ?_⟩
  · intro a ha b p hbp
    obtain ⟨h1, h2, e, h3, h4⟩ := hc.symmetric a ha b p hbp
    exact ⟨h1, h2, e, h3, (graph_edge_some graph hc.pointersUnique p e).2 h3, h4⟩
  · intro p q e f hpe hqf hconn
    obtain ⟨h1, -, h3, h4⟩ := hc.listed p e hpe
    obtain ⟨g1, -, g3, g4⟩ := hc.listed q f hqf
    rcases hconn with ⟨c1, c2⟩ | ⟨c1, c2⟩
    · have hpq := hc.edgesUnique p q e f hpe hqf c1 c2
      exact ⟨hpq, c1, c2⟩
    · rw [← c1, ← c2] at g4
      have hpq : p = q := edgeMap_functional _ (hc.keysUnique _ h1) _ _ _ h3 g4
      subst hpq
      have := hc.pointersUnique _ _ _ hpe hqf
      subst this
      exact ⟨rfl, rfl, rfl⟩
  · intro a b relation hadj
    unfold Node.addEdge
    rw [hadj]
    rfl
  · intro key hkey hself
    obtain ⟨result, hresult, hrc, hgone⟩ := eraseNode_spec graph key hc hkey hself
    refine ⟨result, hresult, Reachable.eraseNode graph result key h hself hresult, hgone, ?_, ?_⟩
    · intro a ha hk
      obtain ⟨entry, hentry, hkey2⟩ := List.mem_map.1 hk
      have hentry2 : (key, entry.2) ∈ (result.node a).edges := by
        rw [← hkey2]
        exact hentry
      exact hgone (hrc.symmetric a ha key entry.2 hentry2).1
    · intro p e hpe
      obtain ⟨h1, h2, -, -⟩ := hrc.listed p e hpe
      exact ⟨fun hf => hgone (hf ▸ h1), fun hs => hgone (hs ▸ h2)⟩

/-- Witness for C39: the graph with the edges from 1 to 3 and from 2 to 3 is reachable; its
adjacency is symmetric, and erasing the node 3 leaves a graph without the node, in which no
node lists it and no edge touches it. -/
theorem reachable_graph_symmetric_witness :
    Reachable Example.joining
      ∧ (∀ a ∈ Example.joining.nodes, ∀ b p, (b, p) ∈ (Example.joining.node a).edges →
          b ∈ Example.joining.nodes ∧ (a, p) ∈ (Example.joining.node b).edges
            ∧ ∃ e, (p, e) ∈ Example.joining.edges ∧ Example.joining.edge p = some e
              ∧ e.connects a b)
      ∧ ∃ result, Example.joining.eraseNode 3 = .ok result ∧ Reachable result
          ∧ 3 ∉ result.nodes
          ∧ (∀ a ∈ result.nodes, 3 ∉ (result.node a).edges.keys)
          ∧ (∀ p e, (p, e) ∈ result.edges → e.first ≠ 3 ∧ e.second ≠ 3) := by
  have h : Reachable Example.joining := by
    unfold Example.joining
    refine Reachable.addEdge _ _ 2 3 8 _ (Reachable.addEdge _ _ 1 3 7 _
      (Reachable.getOrCreateNode _ 3 (Reachable.getOrCreateNode _ 2
        (Reachable.getOrCreateNode _ 1 Reachable.empty))) ?_ ?_ rfl) ?_ ?_ rfl
    all_goals decide
  exact ⟨h, (reachable_graph_symmetric Example.joining h).1,
    (reachable_graph_symmetric Example.joining h).2.2.2 3 (by decide) rfl⟩

end vc4c

namespace vc4c

/-- A branch the constructor has built: its condition code is one of the three accepted ones and
its target is the given label. -/
theorem constructBranch_ok (target : Local) (condCode : ConditionCode) (cond : Value)
    (built : Instruction) (h : constructBranch target condCode cond = .ok built) :
    built = Branch target condCode cond
      ∧ (condCode = .COND_ALWAYS ∨ condCode = .COND_ZERO_CLEAR ∨ condCode = .COND_ZERO_SET) := by
  unfold constructBranch at h
  split at h
  · cases h
  · rename_i hc
    refine ⟨(Except.ok.inj h).symm, ?_⟩
    by_contra hne
    push_neg at hne
    exact hc ⟨hne.1, hne.2.1, hne.2.2⟩

/-- Without wrap-around the offset is the position of the label minus the position of the
fourth instruction behind the branch. -/
theorem branchOffset_exact (labelPos instructionIndex : Nat) (hpos : labelPos < 2 ^ 63)
    (hindex : (instructionIndex + 4) * 8 < 2 ^ 63) :
    branchOffset labelPos instructionIndex = (labelPos : Int) - 8 * ((instructionIndex : Int) + 4) := by
  unfold branchOffset toInt64
  push_cast
  omega

/-- A value within the range of `int32_t` is kept by the cast. -/
theorem toInt32_of_range (x : Int) (h1 : -2 ^ 31 ≤ x) (h2 : x ≤ 2 ^ 31 - 1) : toInt32 x = x := by
  unfold toInt32
  rw [Int.emod_eq_of_lt (by linarith) (by linarith)]
  ring

/-- The condition of a branch the constructor has built is always found. -/
theorem branchCondition_built (toBranchCondition : ConditionCode → Except Failure BranchCond)
    (target : Local) (condCode : ConditionCode) (cond : Value)
    (decoration : InstructionDecorations)
    (hcode : condCode = .COND_ALWAYS ∨ condCode = .COND_ZERO_CLEAR ∨ condCode = .COND_ZERO_SET)
    (hconv : ∀ code, code = .COND_ALWAYS ∨ code = .COND_ZERO_CLEAR ∨ code = .COND_ZERO_SET →
      ∃ c, toBranchCondition code = .ok c) :
    (∃ c, branchCondition toBranchCondition ((Branch target condCode cond).addDecorations decoration)
        = .ok c)
      ∧ (condCode ≠ .COND_ALWAYS →
          ((Branch target condCode cond).addDecorations decoration).decoration.has_flag
            InstructionDecorations.BRANCH_ON_ALL_ELEMENTS = true →
          (condCode = .COND_ZERO_CLEAR →
            branchCondition toBranchCondition
              ((Branch target condCode cond).addDecorations decoration) = .ok .ALL_Z_CLEAR)
          ∧ (condCode = .COND_ZERO_SET →
            branchCondition toBranchCondition
              ((Branch target condCode cond).addDecorations decoration) = .ok .ALL_Z_SET))
      ∧ (¬(condCode ≠ .COND_ALWAYS
            ∧ ((Branch target condCode cond).addDecorations decoration).decoration.has_flag
              InstructionDecorations.BRANCH_ON_ALL_ELEMENTS = true) →
          branchCondition toBranchCondition
              ((Branch target condCode cond).addDecorations decoration)
            = toBranchCondition condCode) := by
  have hconditional : ((Branch target condCode cond).addDecorations decoration).conditional
      = condCode := rfl
  refine ⟨?_, ?_, ?_⟩
  · unfold branchCondition
    rw [hconditional]
    split
    · rename_i h
      rcases hcode with h1 | h1 | h1
      · exact absurd h1 h.1
      · subst h1
        exact ⟨_, rfl⟩
      · subst h1
        exact ⟨_, rfl⟩
    · exact hconv _ hcode
  · intro hne hflag
    refine ⟨?_, ?_⟩
    · intro hc
      unfold branchCondition
      rw [hconditional, if_pos ⟨hne, hflag⟩, if_pos hc]
    · intro hc
      unfold branchCondition
      rw [hconditional, if_pos ⟨hne, hflag⟩]
      subst hc
      rfl
  · intro hnot
    unfold branchCondition
    rw [hconditional, if_neg hnot]

/-- C40: `Branch::convertToAsm` for a branch built by the constructor (which accepts only the
condition codes always, zero-set and zero-clear; decorations may have been added), at the
instruction index `i`, with positions and indices that do not wrap around in 64 bits. If the
target label has no entry in the label mapping the conversion fails with a code-generation
error; if it is mapped to the byte position `L`, the conversion produces a relative branch with
the offset `L - 8 * (i + 4)` when that fits into a signed 32-bit integer and fails with a
code-generation error when it does not. So it fails with a code-generation error iff the label
is not mapped or the offset is out of range, and the error "Unhandled branch condition depending
on all elements" never occurs: with branch-on-all-elements zero-clear gives `ALL_Z_CLEAR` and
zero-set gives `ALL_Z_SET`, in every other case the condition is the one `toBranchCondition`
gives. -/
theorem convertToAsm_relative_offset
    (toBranchCondition : ConditionCode → Except Failure BranchCond)
    (target : Local) (condCode : ConditionCode) (cond : Value) (built : Instruction)
    (decoration : InstructionDecorations) (labelMapping : List (Local × Nat)) (i : Nat)
    (hbuilt : constructBranch target condCode cond = .ok built)
    (hconv : ∀ code, code = .COND_ALWAYS ∨ code = .COND_ZERO_CLEAR ∨ code = .COND_ZERO_SET →
      ∃ c, toBranchCondition code = .ok c)
    (hindex : (i + 4) * 8 < 2 ^ 63)
    (hpos : ∀ L, labelMapping.lookup target = some L → L < 2 ^ 63) :
    (labelMapping.lookup target = none →
        convertToAsm toBranchCondition (built.addDecorations decoration) labelMapping i
          = .error (.compilationError .CODE_GENERATION "Target label not mapped to any position"))
      ∧ (∀ L, labelMapping.lookup target = some L →
          (-2 ^ 31 ≤ (L : Int) - 8 * ((i : Int) + 4) → (L : Int) - 8 * ((i : Int) + 4) ≤ 2 ^ 31 - 1 →
            ∃ c, branchCondition toBranchCondition (built.addDecorations decoration) = .ok c
              ∧ convertToAsm toBranchCondition (built.addDecorations decoration) labelMapping i
                = .ok ⟨c, .BRANCH_RELATIVE, .NONE, 0, REG_NOP.num, REG_NOP.num,
                    (L : Int) - 8 * ((i : Int) + 4)⟩)
          ∧ ((L : Int) - 8 * ((i : Int) + 4) < -2 ^ 31 ∨ 2 ^ 31 - 1 < (L : Int) - 8 * ((i : Int) + 4) →
            convertToAsm toBranchCondition (built.addDecorations decoration) labelMapping i
              = .error (.compilationError .CODE_GENERATION
                  "Cannot jump a distance not fitting into 32-bit integer")))
      ∧ ((∃ message, convertToAsm toBranchCondition (built.addDecorations decoration)
              labelMapping i = .error (.compilationError .CODE_GENERATION message))
          ↔ (labelMapping.lookup target = none
            ∨ ∃ L, labelMapping.lookup target = some L
              ∧ ((L : Int) - 8 * ((i : Int) + 4) < -2 ^ 31
                ∨ 2 ^ 31 - 1 < (L : Int) - 8 * ((i : Int) + 4))))
      ∧ convertToAsm toBranchCondition (built.addDecorations decoration) labelMapping i
          ≠ .error (.compilationError .CODE_GENERATION
              "Unhandled branch condition depending on all elements")
      ∧ (condCode ≠ .COND_ALWAYS →
          (built.addDecorations decoration).decoration.has_flag
            InstructionDecorations.BRANCH_ON_ALL_ELEMENTS = true →
          (condCode = .COND_ZERO_CLEAR →
            branchCondition toBranchCondition (built.addDecorations decoration)
              = .ok .ALL_Z_CLEAR)
          ∧ (condCode = .COND_ZERO_SET →
            branchCondition toBranchCondition (built.addDecorations decoration)
              = .ok .ALL_Z_SET))
      ∧ (¬(condCode ≠ .COND_ALWAYS
            ∧ (built.addDecorations decoration).decoration.has_flag
              InstructionDecorations.BRANCH_ON_ALL_ELEMENTS = true) →
          branchCondition toBranchCondition (built.addDecorations decoration)
            = toBranchCondition condCode) := by
  obtain ⟨hb, hcode⟩ := constructBranch_ok target condCode cond built hbuilt
  subst hb
  obtain ⟨⟨c, hc⟩, hall, hany⟩ :=
    branchCondition_built toBranchCondition target condCode cond decoration hcode hconv
  have htarget : ((Branch target condCode cond).addDecorations decoration).getTarget
      = some target := rfl
  have hnone : labelMapping.lookup target = none →
      convertToAsm toBranchCondition ((Branch target condCode cond).addDecorations decoration)
        labelMapping i
        = .error (.compilationError .CODE_GENERATION
            "Target label not mapped to any position") := by
    intro h
    unfold convertToAsm
    simp only [htarget, deref, bind, Except.bind, h]
  have hin : ∀ L, labelMapping.lookup target = some L →
      -2 ^ 31 ≤ (L : Int) - 8 * ((i : Int) + 4) → (L : Int) - 8 * ((i : Int) + 4) ≤ 2 ^ 31 - 1 →
      convertToAsm toBranchCondition ((Branch target condCode cond).addDecorations decoration)
        labelMapping i
        = .ok ⟨c, .BRANCH_RELATIVE, .NONE, 0, REG_NOP.num, REG_NOP.num,
            (L : Int) - 8 * ((i : Int) + 4)⟩ := by
    intro L h h1 h2
    have hoff := branchOffset_exact L i (hpos L h) hindex
    unfold convertToAsm
    simp only [htarget, deref, bind, Except.bind, h, hc, hoff]
    rw [if_neg (by push_neg; exact ⟨h1, h2⟩), toInt32_of_range _ h1 h2]
    rfl
  have hout : ∀ L, labelMapping.lookup target = some L →
      ((L : Int) - 8 * ((i : Int) + 4) < -2 ^ 31 ∨ 2 ^ 31 - 1 < (L : Int) - 8 * ((i : Int) + 4)) →
      convertToAsm toBranchCondition ((Branch target condCode cond).addDecorations decoration)
        labelMapping i
        = .error (.compilationError .CODE_GENERATION
            "Cannot jump a distance not fitting into 32-bit integer") := by
    intro L h hr
    have hoff := branchOffset_exact L i (hpos L h) hindex
    unfold convertToAsm
    simp only [htarget, deref, bind, Except.bind, h, hc, hoff]
    rw [if_pos (by rcases hr with hr | hr; exact Or.inl hr; exact Or.inr hr)]
  refine ⟨hnone, ?_, ?_, ?_, hall, hany⟩
  · intro L h
    exact ⟨fun h1 h2 => ⟨c, hc, hin L h h1 h2⟩, hout L h⟩
  · constructor
    · rintro ⟨message, hm⟩
      cases hl : labelMapping.lookup target with
      | none => exact Or.inl rfl
      | some L =>
        refine Or.inr ⟨L, rfl, ?_⟩
        by_contra hr
        push_neg at hr
        rw [hin L hl hr.1 hr.2] at hm
        cases hm
    · rintro (h | ⟨L, h, hr⟩)
      · exact ⟨_, hnone h⟩
      · exact ⟨_, hout L h hr⟩
  · intro hm
    cases hl : labelMapping.lookup target with
    | none =>
      rw [hnone hl] at hm
      exact absurd (Failure.compilationError.inj (Except.error.inj hm)).2 (by decide)
    | some L =>
      by_cases hr : (L : Int) - 8 * ((i : Int) + 4) < -2 ^ 31
          ∨ 2 ^ 31 - 1 < (L : Int) - 8 * ((i : Int) + 4)
      · rw [hout L hl hr] at hm
        exact absurd (Failure.compilationError.inj (Except.error.inj hm)).2 (by decide)
      · push_neg at hr
        rw [hin L hl hr.1 hr.2] at hm
        cases hm

/-- Witness for C40: the branch `br.zc %10` on all elements at the instruction index 5, with the
label at the byte position 16, becomes a relative branch under `ALL_Z_CLEAR` with the offset
`16 - 8 * 9 = -56`; a label that is not mapped is an error of the code generation. -/
theorem convertToAsm_relative_offset_witness :
    constructBranch 10 .COND_ZERO_CLEAR (Example.localValue 3)
        = .ok (Branch 10 .COND_ZERO_CLEAR (Example.localValue 3))
      ∧ convertToAsm Example.toBranchCondition
          ((Branch 10 .COND_ZERO_CLEAR (Example.localValue 3)).addDecorations
            InstructionDecorations.BRANCH_ON_ALL_ELEMENTS) [(10, 16)] 5
        = .ok ⟨.ALL_Z_CLEAR, .BRANCH_RELATIVE, .NONE, 0, 39, 39, -56⟩
      ∧ ((∃ message, convertToAsm Example.toBranchCondition
              ((Branch 10 .COND_ZERO_CLEAR (Example.localValue 3)).addDecorations
                InstructionDecorations.BRANCH_ON_ALL_ELEMENTS) [(11, 16)] 5
            = .error (.compilationError .CODE_GENERATION message))
          ↔ ([(11, 16)].lookup 10 = (none : Option Nat)
            ∨ ∃ L : Nat, [(11, 16)].lookup 10 = some L
              ∧ ((L : Int) - 8 * (((5 : Nat) : Int) + 4) < -2 ^ 31
                ∨ 2 ^ 31 - 1 < (L : Int) - 8 * (((5 : Nat) : Int) + 4)))) :=
  ⟨rfl, rfl,
    (convertToAsm_relative_offset Example.toBranchCondition 10 .COND_ZERO_CLEAR
      (Example.localValue 3) (Branch 10 .COND_ZERO_CLEAR (Example.localValue 3))
      InstructionDecorations.BRANCH_ON_ALL_ELEMENTS [(11, 16)] 5 rfl
      (by
        intro code hcode
        rcases hcode with h | h | h <;> subst h <;> exact ⟨_, rfl⟩)
      (by decide)
      (by
        intro L h
        simp [List.lookup] at h)).2.2.1⟩

end vc4c
